import Mathlib

/-!
# Determinantal quantum Monte Carlo core: shallow embedding and verified properties

The development follows the layout of the repository:

* `detmodel.h`: the stabilised Green function machinery of `DetModelGC`
  (UdV storage, `greenFromUdV`, wrap and advance steps, up and down sweeps);
* `detsdwopdim.cpp`: the spin-density-wave replica `DetSDW` (B-matrices, local
  updates in the Woodbury and delayed form, checkerboard break-up, bosonic action,
  Wolff cluster construction).

Floating point numbers are modelled by the elements of a field `K` (exact arithmetic);
complex entries live in the same field, with a distinguished imaginary unit.  Where a
property depends on the rounding of the type `double` (the temperature parameters, the
probability of a replica exchange) the operations are rounded explicitly (`DoubleArith`,
with IEEE 754 binary64 as `binary64`).
Unsigned 32 bit counters are natural numbers with explicit reduction modulo `2^32`.
-/

namespace DetQMC

/-! ## Dense linear algebra helpers (Armadillo) -/

/-- Square matrix of a Green component, `MatV` in `DetModelGC`. -/
abbrev MatV (sz : ℕ) (K : Type) := Matrix (Fin sz) (Fin sz) K

/-- Dense inverse `arma::inv`, in exact arithmetic (adjugate over determinant). -/
def inv {ι : Type} [Fintype ι] [DecidableEq ι] {K : Type} [Field K]
    (A : Matrix ι ι K) : Matrix ι ι K :=
  A.det⁻¹ • A.adjugate

/-- Factored matrix `U * diag(d) * V`, the class `UdV<T>` used by `DetModelGC`. -/
structure UdV (sz : ℕ) (K : Type) where
  U : MatV sz K
  d : Fin sz → K
  V : MatV sz K

/-- Dense matrix represented by a `UdV` triple. -/
def UdV.mat {sz : ℕ} {K : Type} [Field K] (u : UdV sz K) : MatV sz K :=
  u.U * Matrix.diagonal u.d * u.V

/-- Member `eye_UdV(sz)`: the triple `(I, 1, I)`. -/
def eye_UdV (sz : ℕ) (K : Type) [Field K] : UdV sz K :=
  ⟨1, fun _ => 1, 1⟩

/-- Default constructed `UdV` (an element of a freshly allocated `std::vector<UdVV>`);
it carries no data, all entries are zero here. -/
def UdV.empty (sz : ℕ) (K : Type) [Field K] : UdV sz K :=
  ⟨0, fun _ => 0, 0⟩

/-- `DetModelGC::greenFromUdV` (detmodel.h 527-547).  The decomposition routine
`udvDecompose` of `udv.h` is a parameter. -/
def greenFromUdV {sz : ℕ} {K : Type} [Field K] (udvDecompose : MatV sz K → UdV sz K)
    (UdV_l UdV_r : UdV sz K) : MatV sz K :=
  let V_l := UdV_l.U
  let d_l := UdV_l.d
  let U_l := UdV_l.V
  let U_r := UdV_r.U
  let d_r := UdV_r.d
  let V_r := UdV_r.V
  let UdV_temp := udvDecompose
    (inv (U_l * U_r) + Matrix.diagonal d_r * (V_r * V_l) * Matrix.diagonal d_l)
  inv (UdV_temp.V * U_l) * Matrix.diagonal (fun i => 1 / UdV_temp.d i)
    * inv (U_r * UdV_temp.U)

/-- Product of time slice propagators `B(k2, k1) = B_{k2} * B_{k2-1} * ... * B_{k1+1}`
with `B(k, k) = 1`, accumulated as in `DetSDW::computeBmatSDW` (detsdwopdim.cpp 1476-1480):
`result = B(k2); for (k = k2 - 1; k > k1; --k) result *= B(k)`. -/
def computeBmat {ι : Type} [Fintype ι] [DecidableEq ι] {K : Type} [Field K]
    (singleTimesliceProp : ℕ → Matrix ι ι K) (k2 k1 : ℕ) : Matrix ι ι K :=
  if k2 = k1 then 1
  else ((List.range (k2 - 1 - k1)).map (fun j => k2 - 1 - j)).foldl
    (fun result k => result * singleTimesliceProp k) (singleTimesliceProp k2)

/-! ## `DetModelGC` (detmodel.h): state, wrap and advance steps, sweeps -/

/-- Addition of `uint32_t` values. -/
def uadd (a b : ℕ) : ℕ := (a + b) % 4294967296

/-- Subtraction of `uint32_t` values (wraps around below zero). -/
def usub (a b : ℕ) : ℕ := (a + (4294967296 - b % 4294967296)) % 4294967296

/-- Multiplication of `uint32_t` values. -/
def umul (a b : ℕ) : ℕ := (a * b) % 4294967296

/-- A C `for` loop over a `uint32_t` counter: `for (k = k0; cond(k); k = next(k)) body(k)`.
The loop is unrolled at most `fuel` times; `none` means that the fuel ran out or
that the body failed (assertion, index out of range). -/
def forLoop {α : Type} (cond : ℕ → Bool) (next : ℕ → ℕ) (body : ℕ → α → Option α) :
    ℕ → ℕ → α → Option α
  | 0, _, _ => none
  | fuel + 1, k, a =>
    if cond k then (body k a).bind (forLoop cond next body fuel (next k)) else some a

/-- `enum class SweepDirection`. -/
inductive SweepDirection where
  | Up
  | Down
  deriving DecidableEq, Repr

/-- Invocations of the callables handed to the sweep skeleton, in the order in which
they happen (a ghost trace, not part of the program state). -/
inductive Call where
  | initMeasurement
  | updateInSlice (k : ℕ)
  | measure (k : ℕ)
  | finishMeasurement
  | consistencyCheck
  | globalUpdate
  deriving DecidableEq, Repr

/-- Constant members of `DetModelGC` and its template parameters. -/
structure ModelConsts where
  GC : ℕ
  TimeDisplaced : Bool
  m : ℕ
  s : ℕ
  n : ℕ

/-- Mutable members of `DetModelGC<GC, V, TimeDisplaced>`; `ext` is the state of the
derived replica class (field configuration, observables), `calls` the ghost trace. -/
structure DetModelGC (sz : ℕ) (K : Type) (σ : Type) where
  green : ℕ → MatV sz K
  currentTimeslice : ℕ
  UdVStorage : ℕ → List (UdV sz K)
  lastSweepDir : SweepDirection
  ext : σ
  calls : List Call

/-- Callables passed by the derived class to the sweep skeleton, together with the
decomposition routine of `udv.h`.  The B-matrix multipliers read the state of the
derived class; the slice update may change the Green functions and that state. -/
structure Callables (sz : ℕ) (K : Type) (σ : Type) where
  udvDecompose : MatV sz K → UdV sz K
  leftMultiplyBmat : σ → ℕ → MatV sz K → ℕ → ℕ → MatV sz K
  rightMultiplyBmat : σ → ℕ → MatV sz K → ℕ → ℕ → MatV sz K
  leftMultiplyBmatInv : σ → ℕ → MatV sz K → ℕ → ℕ → MatV sz K
  rightMultiplyBmatInv : σ → ℕ → MatV sz K → ℕ → ℕ → MatV sz K
  updateInSlice : ℕ → (ℕ → MatV sz K) × σ → (ℕ → MatV sz K) × σ
  initMeasurement : σ → σ
  measure : ℕ → (ℕ → MatV sz K) → σ → σ
  finishMeasurement : σ → σ
  consistencyCheck : σ → σ
  globalUpdate : DetModelGC sz K σ → DetModelGC sz K σ

/-- The loop `for (uint32_t gc = 0; gc < GC; ++gc) f(gc)`. -/
def forEachGC {α : Type} (GC : ℕ) (f : ℕ → α → Option α) (a : α) : Option α :=
  (List.range GC).foldlM (fun a gc => f gc a) a

/-- Write access `storage[i] = v` to a `std::vector`; fails outside the vector. -/
def setAt {α : Type} (xs : List α) (i : ℕ) (v : α) : Option (List α) :=
  if i < xs.length then some (xs.set i v) else none

/-- `DetModelGC::updateGreenFunctionUdV` (detmodel.h 632-643). -/
def updateGreenFunctionUdV {sz : ℕ} {K σ : Type} [Field K] (p : ModelConsts)
    (c : Callables sz K σ) (gc : ℕ) (UdV_L UdV_R : UdV sz K)
    (st : DetModelGC sz K σ) : DetModelGC sz K σ :=
  if p.TimeDisplaced then st
  else { st with green := Function.update st.green gc (greenFromUdV c.udvDecompose UdV_L UdV_R) }

/-- The lambda `setup` of `setupUdVStorage_and_calculateGreen_skeleton`
(detmodel.h 449-468): the storage vector built for one Green component. -/
def setupUdVStorage_setup {sz : ℕ} {K : Type} [Field K] (p : ModelConsts)
    (udvDecompose : MatV sz K → UdV sz K) (computeBmat : ℕ → ℕ → ℕ → MatV sz K)
    (fuel gc : ℕ) : Option (List (UdV sz K)) := do
  let storage := List.replicate (uadd p.n 1) (UdV.empty sz K)
  let storage ← setAt storage 0 (eye_UdV sz K)
  let storage ← setAt storage 1 (udvDecompose (computeBmat gc p.s 0))
  forLoop (fun l => decide (l ≤ usub p.n 1)) (fun l => uadd l 1)
    (fun l storage => do
      let UdV_l ← storage[l]?
      let k_l := umul p.s l
      let k_lp1 := if l < usub p.n 1 then umul p.s (uadd l 1) else p.m
      let B_lp1 := computeBmat gc k_lp1 k_l
      let UdV_temp := udvDecompose ((B_lp1 * UdV_l.U) * Matrix.diagonal UdV_l.d)
      setAt storage (uadd l 1) ⟨UdV_temp.U, UdV_temp.d, UdV_temp.V * UdV_l.V⟩)
    fuel 1 storage

/-- `DetModelGC::setupUdVStorage_and_calculateGreen_skeleton` (detmodel.h 444-479). -/
def setupUdVStorage_and_calculateGreen_skeleton {sz : ℕ} {K σ : Type} [Field K]
    (p : ModelConsts) (c : Callables sz K σ) (computeBmat : ℕ → ℕ → ℕ → MatV sz K)
    (fuel : ℕ) (st : DetModelGC sz K σ) : Option (DetModelGC sz K σ) :=
  (forEachGC p.GC
    (fun gc st =>
      (setupUdVStorage_setup p c.udvDecompose computeBmat fuel gc).bind (fun storage =>
        some { st with UdVStorage := Function.update st.UdVStorage gc storage }))
    st).bind (fun st =>
  (forEachGC p.GC
    (fun gc st =>
      ((st.UdVStorage gc)[p.n]?).bind (fun UdV_n =>
        some (updateGreenFunctionUdV p c gc (eye_UdV sz K) UdV_n st)))
    st).bind (fun st =>
  some { st with currentTimeslice := p.m, lastSweepDir := SweepDirection.Up }))

/-- `DetModelGC::advanceDownGreen` (detmodel.h 655-695). -/
def advanceDownGreen {sz : ℕ} {K σ : Type} [Field K] (p : ModelConsts)
    (c : Callables sz K σ) (l gc : ℕ) (st : DetModelGC sz K σ) :
    Option (DetModelGC sz K σ) :=
  if st.currentTimeslice = umul p.s (usub l 1) then do
    let storage := st.UdVStorage gc
    let k_l := if l < p.n then umul p.s l else p.m
    let k_lm1 := umul p.s (usub l 1)
    let UdV_l ← storage[l]?
    let UdV_L := c.udvDecompose
      (Matrix.diagonal UdV_l.d * c.rightMultiplyBmat st.ext gc UdV_l.V k_l k_lm1)
    let UdV_L : UdV sz K := ⟨UdV_l.U * UdV_L.U, UdV_L.d, UdV_L.V⟩
    let UdV_R ← storage[usub l 1]?
    let st := updateGreenFunctionUdV p c gc UdV_L UdV_R st
    let storage ← setAt storage (usub l 1) UdV_L
    pure { st with UdVStorage := Function.update st.UdVStorage gc storage,
                   currentTimeslice := umul p.s (usub l 1) }
  else none

/-- `DetModelGC::wrapDownGreen` (detmodel.h 739-763). -/
def wrapDownGreen {sz : ℕ} {K σ : Type} [Field K]
    (c : Callables sz K σ) (k gc : ℕ) (st : DetModelGC sz K σ) :
    Option (DetModelGC sz K σ) :=
  if st.currentTimeslice = k then
    some { st with
      green := Function.update st.green gc
        (c.leftMultiplyBmatInv st.ext gc
          (c.rightMultiplyBmat st.ext gc (st.green gc) k (usub k 1)) k (usub k 1)),
      currentTimeslice := usub k 1 }
  else none

/-- `DetModelGC::advanceUpGreen` (detmodel.h 774-815). -/
def advanceUpGreen {sz : ℕ} {K σ : Type} [Field K] (p : ModelConsts)
    (c : Callables sz K σ) (l gc : ℕ) (st : DetModelGC sz K σ) :
    Option (DetModelGC sz K σ) :=
  let storage := st.UdVStorage gc
  let k_l := umul p.s l
  let k_lp1 := if l < usub p.n 1 then umul p.s (uadd l 1) else p.m
  if st.currentTimeslice = k_lp1 then do
    let UdV_lp1 ← storage[uadd l 1]?
    let UdV_l ← storage[l]?
    let UdV_temp := c.udvDecompose
      (c.leftMultiplyBmat st.ext gc UdV_l.U k_lp1 k_l * Matrix.diagonal UdV_l.d)
    let UdV_temp : UdV sz K := ⟨UdV_temp.U, UdV_temp.d, UdV_temp.V * UdV_l.V⟩
    let st := updateGreenFunctionUdV p c gc UdV_lp1 UdV_temp st
    let storage ← setAt storage (uadd l 1) UdV_temp
    pure { st with UdVStorage := Function.update st.UdVStorage gc storage,
                   currentTimeslice := k_lp1 }
  else none

/-- `DetModelGC::wrapUpGreen` (detmodel.h 883-911). -/
def wrapUpGreen {sz : ℕ} {K σ : Type} [Field K]
    (c : Callables sz K σ) (k gc : ℕ) (st : DetModelGC sz K σ) :
    Option (DetModelGC sz K σ) :=
  if st.currentTimeslice = k then
    some { st with
      green := Function.update st.green gc
        (c.leftMultiplyBmat st.ext gc
          (c.rightMultiplyBmatInv st.ext gc (st.green gc) (uadd k 1) k) (uadd k 1) k),
      currentTimeslice := uadd k 1 }
  else none

/-- Invocation of `initMeasurement()`. -/
def callInitMeasurement {sz : ℕ} {K σ : Type} (c : Callables sz K σ)
    (st : DetModelGC sz K σ) : DetModelGC sz K σ :=
  { st with ext := c.initMeasurement st.ext, calls := st.calls ++ [Call.initMeasurement] }

/-- Invocation of `finishMeasurement()`. -/
def callFinishMeasurement {sz : ℕ} {K σ : Type} (c : Callables sz K σ)
    (st : DetModelGC sz K σ) : DetModelGC sz K σ :=
  { st with ext := c.finishMeasurement st.ext, calls := st.calls ++ [Call.finishMeasurement] }

/-- Invocation of the virtual method `consistencyCheck()`. -/
def callConsistencyCheck {sz : ℕ} {K σ : Type} (c : Callables sz K σ)
    (st : DetModelGC sz K σ) : DetModelGC sz K σ :=
  { st with ext := c.consistencyCheck st.ext, calls := st.calls ++ [Call.consistencyCheck] }

/-- Invocation of `globalUpdate()`; the callable may change every member of the replica,
the ghost trace is kept by the skeleton. -/
def callGlobalUpdate {sz : ℕ} {K σ : Type} (c : Callables sz K σ)
    (st : DetModelGC sz K σ) : DetModelGC sz K σ :=
  { c.globalUpdate st with calls := st.calls ++ [Call.globalUpdate] }

/-- The lambda `updateInSliceAndMaybeMeasure` of `sweepUp` and `sweepDown`
(detmodel.h 929-935, 994-1000). -/
def updateInSliceAndMaybeMeasure {sz : ℕ} {K σ : Type} (c : Callables sz K σ)
    (takeMeasurements : Bool) (timeslice : ℕ) (st : DetModelGC sz K σ) :
    Option (DetModelGC sz K σ) :=
  if st.currentTimeslice = timeslice then
    let r := c.updateInSlice timeslice (st.green, st.ext)
    let st := { st with green := r.1, ext := r.2,
                        calls := st.calls ++ [Call.updateInSlice timeslice] }
    if takeMeasurements then
      some { st with ext := c.measure timeslice st.green st.ext,
                     calls := st.calls ++ [Call.measure timeslice] }
    else some st
  else none

/-- `DetModelGC::sweepUp` (detmodel.h 913-975). -/
def sweepUp {sz : ℕ} {K σ : Type} [Field K] (p : ModelConsts) (c : Callables sz K σ)
    (takeMeasurements : Bool) (fuel : ℕ) (st : DetModelGC sz K σ) :
    Option (DetModelGC sz K σ) := do
  let st := if takeMeasurements then callInitMeasurement c st else st
  let st ← forEachGC p.GC
    (fun gc st => do
      let storage ← setAt (st.UdVStorage gc) 0 (eye_UdV sz K)
      pure { st with UdVStorage := Function.update st.UdVStorage gc storage }) st
  let st ← forLoop (fun l => decide (l ≤ usub p.n 2)) (fun l => uadd l 1)
    (fun l st => do
      let st ← forLoop (fun k => decide (k ≤ umul (uadd l 1) p.s)) (fun k => uadd k 1)
        (fun k st => do
          let st ← forEachGC p.GC (fun gc st => wrapUpGreen c (usub k 1) gc st) st
          updateInSliceAndMaybeMeasure c takeMeasurements k st)
        fuel (uadd (umul l p.s) 1) st
      forEachGC p.GC (fun gc st => advanceUpGreen p c l gc st) st)
    fuel 0 st
  let st ← forLoop (fun k => decide (k ≤ p.m)) (fun k => uadd k 1)
    (fun k st => do
      let st ← forEachGC p.GC (fun gc st => wrapUpGreen c (usub k 1) gc st) st
      updateInSliceAndMaybeMeasure c takeMeasurements k st)
    fuel (uadd (umul (usub p.n 1) p.s) 1) st
  let st ← forEachGC p.GC (fun gc st => advanceUpGreen p c (usub p.n 1) gc st) st
  let st := if takeMeasurements then callFinishMeasurement c st else st
  pure (callConsistencyCheck c st)

/-- `DetModelGC::sweepDown` (detmodel.h 978-1042). -/
def sweepDown {sz : ℕ} {K σ : Type} [Field K] (p : ModelConsts) (c : Callables sz K σ)
    (takeMeasurements : Bool) (fuel : ℕ) (st : DetModelGC sz K σ) :
    Option (DetModelGC sz K σ) := do
  let st := if takeMeasurements then callInitMeasurement c st else st
  let st ← forLoop (fun k => decide (uadd (umul (usub p.n 1) p.s) 1 ≤ k)) (fun k => usub k 1)
    (fun k st => do
      let st ← updateInSliceAndMaybeMeasure c takeMeasurements k st
      forEachGC p.GC (fun gc st => wrapDownGreen c k gc st) st)
    fuel p.m st
  let st ← forEachGC p.GC
    (fun gc st => do
      let storage ← setAt (st.UdVStorage gc) p.n (eye_UdV sz K)
      pure { st with UdVStorage := Function.update st.UdVStorage gc storage }) st
  let st ← forLoop (fun l => decide (1 ≤ l)) (fun l => usub l 1)
    (fun l st => do
      let st ← forEachGC p.GC (fun gc st => advanceDownGreen p c (uadd l 1) gc st) st
      forLoop (fun k => decide (uadd (umul (usub l 1) p.s) 1 ≤ k)) (fun k => usub k 1)
        (fun k st => do
          let st ← updateInSliceAndMaybeMeasure c takeMeasurements k st
          forEachGC p.GC (fun gc st => wrapDownGreen c k gc st) st)
        fuel (umul l p.s) st)
    fuel (usub p.n 1) st
  let st ← forEachGC p.GC (fun gc st => advanceDownGreen p c 1 gc st) st
  let st := if takeMeasurements then callFinishMeasurement c st else st
  pure (callConsistencyCheck c st)

/-- `DetModelGC::sweep_skeleton` (detmodel.h 1044-1079). -/
def sweep_skeleton {sz : ℕ} {K σ : Type} [Field K] (p : ModelConsts) (c : Callables sz K σ)
    (takeMeasurements : Bool) (fuel : ℕ) (st : DetModelGC sz K σ) :
    Option (DetModelGC sz K σ) :=
  if st.lastSweepDir = SweepDirection.Up then do
    let st ← sweepDown p c takeMeasurements fuel st
    pure { st with lastSweepDir := SweepDirection.Down }
  else if st.lastSweepDir = SweepDirection.Down then do
    let st ← sweepUp p c takeMeasurements fuel st
    let st := { st with lastSweepDir := SweepDirection.Up }
    pure (callGlobalUpdate c st)
  else some st

/-- The slice updates recorded in a trace, in order. -/
def updatedSlices : List Call → List ℕ
  | [] => []
  | Call.updateInSlice k :: cs => k :: updatedSlices cs
  | _ :: cs => updatedSlices cs

/-- The calls made for the slices `ks`, processed in this order: the slice update and,
when measurements are taken, the measurement of the same slice right after it. -/
def sliceTrace (takeMeasurements : Bool) : List ℕ → List Call
  | [] => []
  | k :: ks =>
    Call.updateInSlice k ::
      ((if takeMeasurements then [Call.measure k] else []) ++ sliceTrace takeMeasurements ks)

/-- The calls made by one sweep that processes the slices `ks` in this order. -/
def sweepTrace (takeMeasurements : Bool) (ks : List ℕ) : List Call :=
  (if takeMeasurements then [Call.initMeasurement] else []) ++ sliceTrace takeMeasurements ks
    ++ (if takeMeasurements then [Call.finishMeasurement] else []) ++ [Call.consistencyCheck]

/-- The slices `hi, hi - 1, ..., lo + 1`, in this order. -/
def slicesDown (hi lo : ℕ) : List ℕ :=
  (List.range (hi - lo)).map (fun j => hi - j)

/-- The slices `lo + 1, lo + 2, ..., hi`, in this order. -/
def slicesUp (lo hi : ℕ) : List ℕ :=
  (List.range (hi - lo)).map (fun j => lo + 1 + j)

/-- Invariant of the sweeps: the Green function belongs to time slice `t`, every storage
vector has `n + 1` entries, the sweep direction flag is `dir`, and the trace is
`pre ++ tr`. -/
def SweepInv {sz : ℕ} {K σ : Type} (p : ModelConsts) (pre : List Call)
    (dir : SweepDirection) (tr : List Call) (t : ℕ) (st : DetModelGC sz K σ) : Prop :=
  st.currentTimeslice = t ∧ (∀ g, (st.UdVStorage g).length = p.n + 1) ∧
    st.lastSweepDir = dir ∧ st.calls = pre ++ tr

/-! ### Small concrete instances, used to exercise the definitions -/

/-- Callables on one by one rational matrices for the constant slice propagator
`B_k = b`: the multipliers scale by `b` and by `1 / b`; the decomposition returns
`X = X * diag(1) * 1`. -/
def scalarCallables (b : ℚ) : Callables 1 ℚ Unit :=
  { udvDecompose := fun X => ⟨X, fun _ => 1, 1⟩,
    leftMultiplyBmat := fun _ _ A k2 k1 => b ^ (k2 - k1) • A,
    rightMultiplyBmat := fun _ _ A k2 k1 => b ^ (k2 - k1) • A,
    leftMultiplyBmatInv := fun _ _ A k2 k1 => (b⁻¹) ^ (k2 - k1) • A,
    rightMultiplyBmatInv := fun _ _ A k2 k1 => (b⁻¹) ^ (k2 - k1) • A,
    updateInSlice := fun _ x => x,
    initMeasurement := id,
    measure := fun _ _ x => x,
    finishMeasurement := id,
    consistencyCheck := id,
    globalUpdate := id }

/-- A replica state on one by one rational matrices with Green function `g` in every
component, time slice `ts` and `len` identity triples in every storage. -/
def scalarState (g : ℚ) (ts len : ℕ) : DetModelGC 1 ℚ Unit :=
  { green := fun _ => g • (1 : MatV 1 ℚ),
    currentTimeslice := ts,
    UdVStorage := fun _ => List.replicate len (eye_UdV 1 ℚ),
    lastSweepDir := SweepDirection.Up,
    ext := (),
    calls := [] }

/-! ## `DetSDW` (detsdwopdim.cpp): field configuration, B-matrices, local updates -/

/-- Template parameter `OPDIM` of `DetSDW<CB, OPDIM>`: dimension of the order parameter. -/
inductive OpDim where
  | one
  | two
  | three
  deriving DecidableEq, Repr

/-- Number of field components. -/
@[reducible]
def OpDim.dim : OpDim → ℕ
  | OpDim.one => 1
  | OpDim.two => 2
  | OpDim.three => 3

/-- `MatrixSizeFactor`: 2 for `OPDIM` 1 and 2, 4 for `OPDIM = 3`. -/
@[reducible]
def OpDim.MSF : OpDim → ℕ
  | OpDim.three => 4
  | _ => 2

/-- `Phi`: the field vector of one site and time slice. -/
abbrev Phi (OPDIM : ℕ) (K : Type) := Fin OPDIM → K

/-- `MatSmall`: `MSF x MSF` matrix belonging to one site. -/
abbrev MatSmall (MSF : ℕ) (K : Type) := Matrix (Fin MSF) (Fin MSF) K

/-- `MatData`: `MSF*N x MSF*N` matrix; the index `(a, i)` stands for the row or column
`i + a * N` of the source (block `a`, site `i`). -/
abbrev MatData (MSF N : ℕ) (K : Type) := Matrix (Fin MSF × Fin N) (Fin MSF × Fin N) K

/-- `arma::dot` of two field vectors. -/
def dot {OPDIM : ℕ} {K : Type} [Field K] (a b : Phi OPDIM K) : K :=
  ∑ d, a d * b d

/-- The functions of the C math library that the replica uses, on exact numbers. -/
structure Libm (K : Type) where
  cosh : K → K
  sinh : K → K
  sqrt : K → K
  exp : K → K

/-- `enum BC_Type`: periodic or antiperiodic boundary conditions in the two directions. -/
inductive BC_Type where
  | PBC
  | APBC_X
  | APBC_Y
  | APBC_XY
  deriving DecidableEq, Repr

/-- The entries of `ModelParams` read by the modelled part of `DetSDW`. -/
structure ModelParamsSDW (K : Type) where
  r : K
  u : K
  c : K
  lambda : K
  cdwU : K
  dtau : K
  mux : K
  muy : K
  L : ℕ
  N : ℕ
  d : ℕ
  m : ℕ
  delaySteps : ℕ
  turnoffFermions : Bool
  phi2bosons : Bool
  bc : BC_Type
  weakZflux : Bool

/-- The auxiliary field and its caches: the cube `phi(site, dim, timeslice)`, the discrete
field `cdwl(site, timeslice)` and the matrices `coshTermPhi`, `sinhTermPhi`,
`coshTermCDWl`, `sinhTermCDWl`. -/
structure FieldConfig (K : Type) where
  phi : ℕ → ℕ → ℕ → K
  cdwl : ℕ → ℕ → ℤ
  coshTermPhi : ℕ → ℕ → K
  sinhTermPhi : ℕ → ℕ → K
  coshTermCDWl : ℕ → ℕ → K
  sinhTermCDWl : ℕ → ℕ → K

/-- `getPhi(site, timeslice)`. -/
def getPhi {K : Type} (OPDIM : ℕ) (fc : FieldConfig K) (site timeslice : ℕ) : Phi OPDIM K :=
  fun d => fc.phi site d.val timeslice

/-- `DetSDW::getCoshSinhTermPhi` (detsdwopdim.cpp 1131-1136). -/
def getCoshSinhTermPhi {OPDIM : ℕ} {K : Type} [Field K] (lm : Libm K) (pars : ModelParamsSDW K)
    (phi : Phi OPDIM K) : K × K :=
  let phiNorm := lm.sqrt (dot phi phi)
  (lm.cosh (pars.lambda * pars.dtau * phiNorm),
   lm.sinh (pars.lambda * pars.dtau * phiNorm) / phiNorm)

/-- `DetSDW::getCoshSinhTermCDWl` (detsdwopdim.cpp 1138-1143); `cdwl_eta` is declared in a
header that is not part of the sources and is a parameter. -/
def getCoshSinhTermCDWl {K : Type} [Field K] (lm : Libm K) (pars : ModelParamsSDW K)
    (cdwl_eta : ℤ → K) (cdwl : ℤ) : K × K :=
  let arg := lm.sqrt pars.dtau * pars.cdwU * cdwl_eta cdwl
  (lm.cosh arg, lm.sinh arg)

/-- `DetSDW::updateCoshSinhTermsPhi(site, k)` (detsdwopdim.cpp 1153-1157). -/
def updateCoshSinhTermsPhi {K : Type} [Field K] (OPDIM : ℕ) (lm : Libm K)
    (pars : ModelParamsSDW K) (site k : ℕ) (fc : FieldConfig K) : FieldConfig K :=
  let cs := getCoshSinhTermPhi lm pars (getPhi OPDIM fc site k)
  { fc with
    coshTermPhi := fun i t => if i = site ∧ t = k then cs.1 else fc.coshTermPhi i t,
    sinhTermPhi := fun i t => if i = site ∧ t = k then cs.2 else fc.sinhTermPhi i t }

/-- `DetSDW::updateCoshSinhTermsCDWl(site, k)` (detsdwopdim.cpp 1159-1163). -/
def updateCoshSinhTermsCDWl {K : Type} [Field K] (lm : Libm K)
    (pars : ModelParamsSDW K) (cdwl_eta : ℤ → K) (site k : ℕ) (fc : FieldConfig K) :
    FieldConfig K :=
  let cs := getCoshSinhTermCDWl lm pars cdwl_eta (fc.cdwl site k)
  { fc with
    coshTermCDWl := fun i t => if i = site ∧ t = k then cs.1 else fc.coshTermCDWl i t,
    sinhTermCDWl := fun i t => if i = site ∧ t = k then cs.2 else fc.sinhTermCDWl i t }

/-- `DetSDW::updateCoshSinhTerms(site, k)` (detsdwopdim.cpp 1147-1151). -/
def updateCoshSinhTerms {K : Type} [Field K] [DecidableEq K] (OPDIM : ℕ) (lm : Libm K)
    (pars : ModelParamsSDW K) (cdwl_eta : ℤ → K) (site k : ℕ) (fc : FieldConfig K) :
    FieldConfig K :=
  let fc := updateCoshSinhTermsPhi OPDIM lm pars site k fc
  if pars.cdwU ≠ 0 then updateCoshSinhTermsCDWl lm pars cdwl_eta site k fc else fc

/-- The assignment `phi(site, dim, timeslice) = newphi[dim]` for `dim < OPDIM`. -/
def setPhi {K : Type} (OPDIM : ℕ) (site timeslice : ℕ) (newphi : Phi OPDIM K)
    (fc : FieldConfig K) : FieldConfig K :=
  { fc with
    phi := fun i d t =>
      if i = site ∧ t = timeslice then
        (if h : d < OPDIM then newphi ⟨d, h⟩ else fc.phi i d t)
      else fc.phi i d t }

/-- The assignment `cdwl(site, timeslice) = new_cdwl`. -/
def setCDWl {K : Type} (site timeslice : ℕ) (new_cdwl : ℤ) (fc : FieldConfig K) :
    FieldConfig K :=
  { fc with cdwl := fun i t => if i = site ∧ t = timeslice then new_cdwl else fc.cdwl i t }

/-- The lambda `evMatrix` of `DetSDW::get_delta_forsite` (detsdwopdim.cpp 3188-3229) in
the instantiations `OPDIM = 1` (`withImag = false`) and `OPDIM = 2` (`withImag = true`):
the two by two matrix of the entries of `e^(sign*dtau*V)` for one site.  `imagI` is the
imaginary unit. -/
def evMatrix2 {K : Type} [Field K] (withImag : Bool) (imagI : K) (sign : ℤ) (kphi0 kphi1 : K)
    (kcoshTermPhi ksinhTermPhi kcoshTermCDWl ksinhTermCDWl : K) : Matrix (Fin 2) (Fin 2) K :=
  !![kcoshTermPhi * kcoshTermCDWl - sign * ksinhTermCDWl,
     sign * kphi0 * ksinhTermPhi * kcoshTermCDWl
       + imagI * (if withImag then -sign * kphi1 * ksinhTermPhi * kcoshTermCDWl else 0);
     sign * kphi0 * ksinhTermPhi * kcoshTermCDWl
       + imagI * (if withImag then sign * kphi1 * ksinhTermPhi * kcoshTermCDWl else 0),
     kcoshTermPhi * kcoshTermCDWl + sign * ksinhTermCDWl]

/-- The lambda `evMatrix` of `DetSDW::get_delta_forsite` (detsdwopdim.cpp 3188-3229) in
the instantiation `OPDIM = 3`: the four by four matrix of the entries of
`e^(sign*dtau*V)` for one site; the entries (0,2), (1,3), (2,0), (3,1), which the source
does not assign, are zero. -/
def evMatrix4 {K : Type} [Field K] (imagI : K) (sign : ℤ) (kphi0 kphi1 kphi2 : K)
    (kcoshTermPhi ksinhTermPhi kcoshTermCDWl ksinhTermCDWl : K) : Matrix (Fin 4) (Fin 4) K :=
  !![kcoshTermPhi * kcoshTermCDWl - sign * ksinhTermCDWl,
     sign * kphi0 * ksinhTermPhi * kcoshTermCDWl
       + imagI * (-sign * kphi1 * ksinhTermPhi * kcoshTermCDWl),
     0,
     sign * kphi2 * ksinhTermPhi * kcoshTermCDWl;
     sign * kphi0 * ksinhTermPhi * kcoshTermCDWl
       + imagI * (sign * kphi1 * ksinhTermPhi * kcoshTermCDWl),
     kcoshTermPhi * kcoshTermCDWl + sign * ksinhTermCDWl,
     -sign * kphi2 * ksinhTermPhi * kcoshTermCDWl,
     0;
     0,
     -sign * kphi2 * ksinhTermPhi * kcoshTermCDWl,
     kcoshTermPhi * kcoshTermCDWl - sign * ksinhTermCDWl,
     sign * kphi0 * ksinhTermPhi * kcoshTermCDWl
       + imagI * (sign * kphi1 * ksinhTermPhi * kcoshTermCDWl);
     sign * kphi2 * ksinhTermPhi * kcoshTermCDWl,
     0,
     sign * kphi0 * ksinhTermPhi * kcoshTermCDWl
       + imagI * (-sign * kphi1 * ksinhTermPhi * kcoshTermCDWl),
     kcoshTermPhi * kcoshTermCDWl + sign * ksinhTermCDWl]

/-- The lambda `evMatrix` of `DetSDW::get_delta_forsite` for the three instantiations of
the template parameter `OPDIM`. -/
def evMatrix {K : Type} [Field K] (o : OpDim) (imagI : K) (sign : ℤ) (kphi : Phi o.dim K)
    (kcoshTermPhi ksinhTermPhi kcoshTermCDWl ksinhTermCDWl : K) : MatSmall o.MSF K :=
  match o, kphi with
  | OpDim.one, kphi =>
    evMatrix2 false imagI sign (kphi 0) 0
      kcoshTermPhi ksinhTermPhi kcoshTermCDWl ksinhTermCDWl
  | OpDim.two, kphi =>
    evMatrix2 true imagI sign (kphi 0) (kphi 1)
      kcoshTermPhi ksinhTermPhi kcoshTermCDWl ksinhTermCDWl
  | OpDim.three, kphi =>
    evMatrix4 imagI sign (kphi 0) (kphi 1) (kphi 2)
      kcoshTermPhi ksinhTermPhi kcoshTermCDWl ksinhTermCDWl

/-- `DetSDW::get_delta_forsite` (detsdwopdim.cpp 3177-3289):
`delta = e^(-dtau*V_new) * e^(+dtau*V_old) - 1` for one site. -/
def get_delta_forsite {K : Type} [Field K] [DecidableEq K] (o : OpDim) (imagI : K)
    (lm : Libm K) (pars : ModelParamsSDW K) (cdwl_eta : ℤ → K) (fc : FieldConfig K)
    (newphi : Phi o.dim K) (new_cdwl : ℤ) (timeslice site : ℕ) : MatSmall o.MSF K :=
  let evOld :=
    if pars.cdwU ≠ 0 then
      evMatrix o imagI 1 (getPhi o.dim fc site timeslice)
        (fc.coshTermPhi site timeslice) (fc.sinhTermPhi site timeslice)
        (fc.coshTermCDWl site timeslice) (fc.sinhTermCDWl site timeslice)
    else
      evMatrix o imagI 1 (getPhi o.dim fc site timeslice)
        (fc.coshTermPhi site timeslice) (fc.sinhTermPhi site timeslice) 1 0
  let csPhi_new := getCoshSinhTermPhi lm pars newphi
  let csCDWl_new := getCoshSinhTermCDWl lm pars cdwl_eta new_cdwl
  let emvNew :=
    if pars.cdwU ≠ 0 then
      evMatrix o imagI (-1) newphi csPhi_new.1 csPhi_new.2 csCDWl_new.1 csCDWl_new.2
    else
      evMatrix o imagI (-1) newphi csPhi_new.1 csPhi_new.2 1 0
  emvNew * evOld - 1

/-- Band of a block column: `XBAND` (`false`) for the blocks 0 and 2, `YBAND` (`true`)
for the blocks 1 and 3. -/
def bandOfBlock {MSF : ℕ} (b : Fin MSF) : Bool := decide (b.val % 2 = 1)

/-- The diagonal factors of the blocks of `e^(-dtau*V_k)` at one site as they are written
in the lambda `singleTimesliceProp` of `DetSDW::computeBmatSDW`
(detsdwopdim.cpp 1357-1382), instantiations `OPDIM = 1` (`withImag = false`) and
`OPDIM = 2` (`withImag = true`). -/
def potentialFactors2 {K : Type} [Field K] (withImag : Bool) (imagI : K) (kphi0 kphi1 : K)
    (kcoshTermPhi ksinhTermPhi kcoshTermCDWl ksinhTermCDWl : K) : Matrix (Fin 2) (Fin 2) K :=
  !![kcoshTermPhi * kcoshTermCDWl + ksinhTermCDWl,
     -kphi0 * ksinhTermPhi * kcoshTermCDWl
       + imagI * (if withImag then kphi1 * ksinhTermPhi * kcoshTermCDWl else 0);
     -kphi0 * ksinhTermPhi * kcoshTermCDWl
       + imagI * (if withImag then -kphi1 * ksinhTermPhi * kcoshTermCDWl else 0),
     kcoshTermPhi * kcoshTermCDWl - ksinhTermCDWl]

/-- The diagonal factors of the blocks of `e^(-dtau*V_k)` at one site as they are written
in the lambda `singleTimesliceProp` (detsdwopdim.cpp 1357-1414), instantiation
`OPDIM = 3`. -/
def potentialFactors4 {K : Type} [Field K] (imagI : K) (kphi0 kphi1 kphi2 : K)
    (kcoshTermPhi ksinhTermPhi kcoshTermCDWl ksinhTermCDWl : K) : Matrix (Fin 4) (Fin 4) K :=
  !![kcoshTermPhi * kcoshTermCDWl + ksinhTermCDWl,
     -kphi0 * ksinhTermPhi * kcoshTermCDWl + imagI * (kphi1 * ksinhTermPhi * kcoshTermCDWl),
     0,
     -kphi2 * ksinhTermPhi * kcoshTermCDWl;
     -kphi0 * ksinhTermPhi * kcoshTermCDWl + imagI * (-kphi1 * ksinhTermPhi * kcoshTermCDWl),
     kcoshTermPhi * kcoshTermCDWl - ksinhTermCDWl,
     kphi2 * ksinhTermPhi * kcoshTermCDWl,
     0;
     0,
     kphi2 * ksinhTermPhi * kcoshTermCDWl,
     kcoshTermPhi * kcoshTermCDWl + ksinhTermCDWl,
     -kphi0 * ksinhTermPhi * kcoshTermCDWl + imagI * (-kphi1 * ksinhTermPhi * kcoshTermCDWl);
     -kphi2 * ksinhTermPhi * kcoshTermCDWl,
     0,
     -kphi0 * ksinhTermPhi * kcoshTermCDWl + imagI * (kphi1 * ksinhTermPhi * kcoshTermCDWl),
     kcoshTermPhi * kcoshTermCDWl - ksinhTermCDWl]

/-- The diagonal factors of the blocks of `e^(-dtau*V_k)` at the site `i`, read from
the field and the caches of slice `k` as in `singleTimesliceProp`; the CDW caches count
as `1, 0` if `cdwU = 0` (detsdwopdim.cpp 1341-1344). -/
def potentialFactors {K : Type} [Field K] [DecidableEq K] (o : OpDim) (imagI : K)
    (pars : ModelParamsSDW K) (fc : FieldConfig K) (i k : ℕ) : MatSmall o.MSF K :=
  let kcoshTermCDWl := if pars.cdwU ≠ 0 then fc.coshTermCDWl i k else 1
  let ksinhTermCDWl := if pars.cdwU ≠ 0 then fc.sinhTermCDWl i k else 0
  match o with
  | OpDim.one =>
    potentialFactors2 false imagI (fc.phi i 0 k) 0
      (fc.coshTermPhi i k) (fc.sinhTermPhi i k) kcoshTermCDWl ksinhTermCDWl
  | OpDim.two =>
    potentialFactors2 true imagI (fc.phi i 0 k) (fc.phi i 1 k)
      (fc.coshTermPhi i k) (fc.sinhTermPhi i k) kcoshTermCDWl ksinhTermCDWl
  | OpDim.three =>
    potentialFactors4 imagI (fc.phi i 0 k) (fc.phi i 1 k) (fc.phi i 2 k)
      (fc.coshTermPhi i k) (fc.sinhTermPhi i k) kcoshTermCDWl ksinhTermCDWl

/-- The lambda `singleTimesliceProp` of `DetSDW::computeBmatSDW`
(detsdwopdim.cpp 1324-1474): `e^(-dtau*V_k) * e^(-dtau*K)`.  Block `(a, b)` is
`diagmat(v_ab) * propK[band]` with `band = XBAND` for even and `YBAND` for odd `b`;
`propK false`, `propK true` are the propagators of the two bands (`arma::real(propK)` in
the branch without magnetic field). -/
def singleTimesliceProp {K : Type} [Field K] [DecidableEq K] (o : OpDim) (N : ℕ) (imagI : K)
    (pars : ModelParamsSDW K) (propK : Bool → Matrix (Fin N) (Fin N) K)
    (fc : FieldConfig K) (k : ℕ) : MatData o.MSF N K :=
  Matrix.of fun ai bj =>
    potentialFactors o imagI pars fc ai.2.val k ai.1 bj.1 * propK (bandOfBlock bj.1) ai.2 bj.2

/-- `DetSDW::computeBmatSDW(k2, k1)` (detsdwopdim.cpp 1307-1497), called with
`k1 ≤ k2 ≤ m` as asserted there. -/
def computeBmatSDW {K : Type} [Field K] [DecidableEq K] (o : OpDim) (N : ℕ) (imagI : K)
    (pars : ModelParamsSDW K) (propK : Bool → Matrix (Fin N) (Fin N) K)
    (fc : FieldConfig K) (k2 k1 : ℕ) : MatData o.MSF N K :=
  computeBmat (singleTimesliceProp o N imagI pars propK fc) k2 k1

/-- The caches of one site and time slice satisfy the hyperbolic identities
`cosh^2 - sinh^2 = 1`: with `c = coshTermPhi`, `s = sinhTermPhi = sinh / |phi|`,
`c^2 - |phi|^2 s^2 = 1`, and likewise for the CDW caches if `cdwU ≠ 0`. -/
def CachesHyperbolic {K : Type} [Field K] (OPDIM : ℕ) (pars : ModelParamsSDW K)
    (fc : FieldConfig K) (site k : ℕ) : Prop :=
  fc.coshTermPhi site k * fc.coshTermPhi site k
      - dot (getPhi OPDIM fc site k) (getPhi OPDIM fc site k)
        * (fc.sinhTermPhi site k * fc.sinhTermPhi site k) = 1 ∧
  (pars.cdwU ≠ 0 →
    fc.coshTermCDWl site k * fc.coshTermCDWl site k
      - fc.sinhTermCDWl site k * fc.sinhTermCDWl site k = 1)

/-- The entries of `e^(sign*dtau*V_k)` at one site, evaluated by `evMatrix` from the
field and its caches (the CDW caches count as `1, 0` if `cdwU = 0`). -/
def evSite {K : Type} [Field K] [DecidableEq K] (o : OpDim) (imagI : K)
    (pars : ModelParamsSDW K) (sign : ℤ) (fc : FieldConfig K) (site k : ℕ) :
    MatSmall o.MSF K :=
  evMatrix o imagI sign (getPhi o.dim fc site k) (fc.coshTermPhi site k)
    (fc.sinhTermPhi site k)
    (if pars.cdwU ≠ 0 then fc.coshTermCDWl site k else 1)
    (if pars.cdwU ≠ 0 then fc.sinhTermCDWl site k else 0)

/-! ### Local updates: Woodbury and delayed form -/

/-- `enum Changed`: what a proposal changes. -/
inductive Changed where
  | NONE
  | PHI
  | CDWL
  deriving DecidableEq, Repr

/-- Result `changedPhiInt` of a proposal: `(changed, newphi, new_cdwl)`. -/
structure Proposal (OPDIM : ℕ) (K : Type) where
  changed : Changed
  newphi : Phi OPDIM K
  new_cdwl : ℤ

/-- What the local update routines take from their surroundings.  The random number
generator is replaced by its outcomes: `proposeLocalUpdate fc site timeslice` is the
proposal drawn for a site, and `accept fc site det` is the outcome of the test
`prob > 1.0 or rng.rand01() < prob` for the determinant `det` of the matrix `M`. -/
structure LocalEnv (o : OpDim) (K : Type) where
  pars : ModelParamsSDW K
  imagI : K
  lm : Libm K
  cdwl_eta : ℤ → K
  proposeLocalUpdate : FieldConfig K → ℕ → ℕ → Proposal o.dim K
  accept : FieldConfig K → ℕ → K → Bool

/-- State of a pass over one time slice: field, Green function `g`, the number of
accepted updates (`accratio` before the division by `N`) and, as a ghost log, the
matrices `M` formed for the proposals in the order of the sites. -/
structure SliceState (o : OpDim) (N : ℕ) (K : Type) where
  fc : FieldConfig K
  g : MatData o.MSF N K
  accepted : ℕ
  Ms : List (MatSmall o.MSF K)

/-- The sub-matrix `g_sub = g[i::N, i::N]` of the Green function for one site
(detsdwopdim.cpp 2917-2924). -/
def g_sub {MSF N : ℕ} {K : Type} (g : MatData MSF N K) (site : Fin N) : MatSmall MSF K :=
  Matrix.of fun a b => g (a, site) (b, site)

/-- The matrix `M = smalleye + (smalleye - g_sub) * delta_forsite`
(detsdwopdim.cpp 2928). -/
def woodburyM {MSF N : ℕ} {K : Type} [Field K] (g : MatData MSF N K) (site : Fin N)
    (delta_forsite : MatSmall MSF K) : MatSmall MSF K :=
  1 + (1 - g_sub g site) * delta_forsite

/-- The rows `mat_V.row(r) = g.row(site + r*N)` with `mat_V(r, site + r*N) -= 1`
(detsdwopdim.cpp 2985-2989). -/
def mat_V {MSF N : ℕ} {K : Type} [Field K] (g : MatData MSF N K) (site : Fin N) :
    Matrix (Fin MSF) (Fin MSF × Fin N) K :=
  Matrix.of fun r col => g (r, site) col - (if col = (r, site) then 1 else 0)

/-- The columns `g.col(site + c*N)` times `delta_forsite` (detsdwopdim.cpp 2993-2997). -/
def g_times_mat_U {MSF N : ℕ} {K : Type} [Field K] (g : MatData MSF N K) (site : Fin N)
    (delta_forsite : MatSmall MSF K) : Matrix (Fin MSF × Fin N) (Fin MSF) K :=
  (Matrix.of fun row c => g row (c, site)) * delta_forsite

/-- The update `g += g_times_mat_U * (inv(M) * mat_V)` (detsdwopdim.cpp 2999). -/
def woodburyUpdate {MSF N : ℕ} {K : Type} [Field K] (g : MatData MSF N K) (site : Fin N)
    (delta_forsite : MatSmall MSF K) : MatData MSF N K :=
  g + g_times_mat_U g site delta_forsite * (inv (woodburyM g site delta_forsite) * mat_V g site)

/-- The field after an accepted local update with fermions: `phi`, `cdwl` and the caches
of the site are overwritten (detsdwopdim.cpp 2968-2981, 3116-3120). -/
def commitLocalUpdate {K : Type} [Field K] [DecidableEq K] (o : OpDim) (lm : Libm K)
    (pars : ModelParamsSDW K) (cdwl_eta : ℤ → K) (site timeslice : ℕ)
    (newphi : Phi o.dim K) (new_cdwl : ℤ) (fc : FieldConfig K) : FieldConfig K :=
  updateCoshSinhTerms o.dim lm pars cdwl_eta site timeslice
    (setCDWl site timeslice new_cdwl (setPhi o.dim site timeslice newphi fc))

/-- Body of the site loop of `DetSDW::updateInSlice_woodbury`
(detsdwopdim.cpp 2889-3016); the logging branches are left out. -/
def updateInSlice_woodbury_site {K : Type} [Field K] [DecidableEq K] {o : OpDim} {N : ℕ}
    (env : LocalEnv o K) (timeslice : ℕ) (st : SliceState o N K) (site : ℕ) :
    SliceState o N K :=
  if h : site < N then
    let prop := env.proposeLocalUpdate st.fc site timeslice
    if prop.changed = Changed.NONE then st
    else if env.pars.turnoffFermions then
      if env.accept st.fc site 1 then
        { st with fc := setPhi o.dim site timeslice prop.newphi st.fc,
                  accepted := st.accepted + 1 }
      else st
    else
      let delta_forsite := get_delta_forsite o env.imagI env.lm env.pars env.cdwl_eta st.fc
        prop.newphi prop.new_cdwl timeslice site
      let M := woodburyM st.g ⟨site, h⟩ delta_forsite
      let det := M.det
      let st := { st with Ms := st.Ms ++ [M] }
      if env.accept st.fc site det then
        { st with
          fc := commitLocalUpdate o env.lm env.pars env.cdwl_eta site timeslice
            prop.newphi prop.new_cdwl st.fc,
          g := woodburyUpdate st.g ⟨site, h⟩ delta_forsite,
          accepted := st.accepted + 1 }
      else st
  else st

/-- `DetSDW::updateInSlice_woodbury` (detsdwopdim.cpp 2883-3019):
`for (site = 0; site < pars.N; ++site)`. -/
def updateInSlice_woodbury {K : Type} [Field K] [DecidableEq K] {o : OpDim} {N : ℕ}
    (env : LocalEnv o K) (timeslice : ℕ) (st : SliceState o N K) : SliceState o N K :=
  (List.range N).foldl (updateInSlice_woodbury_site env timeslice) st

/-- `DelayedUpdatesData dud` and the loop variables of `DetSDW::updateInSlice_delayed`:
`X l`, `Y l` are the blocks `getX(l)`, `getY(l)` of `dud.X` and `dud.Y`, `j` the number
of delayed updates in the current batch, `site` the site counter. -/
structure DelayedState (o : OpDim) (N : ℕ) (K : Type) where
  st : SliceState o N K
  X : ℕ → Matrix (Fin o.MSF × Fin N) (Fin o.MSF) K
  Y : ℕ → Matrix (Fin o.MSF) (Fin o.MSF × Fin N) K
  j : ℕ
  site : ℕ

/-- The lambda `takesomerows`: the rows `for_site + r*N` of the source. -/
def takesomerows {MSF N : ℕ} {K : Type} {κ : Type}
    (source : Matrix (Fin MSF × Fin N) κ K) (for_site : Fin N) : Matrix (Fin MSF) κ K :=
  Matrix.of fun r col => source (r, for_site) col

/-- The lambda `takesomecols`: the columns `for_site + c*N` of the source. -/
def takesomecols {MSF N : ℕ} {K : Type} {κ : Type}
    (source : Matrix κ (Fin MSF × Fin N) K) (for_site : Fin N) : Matrix κ (Fin MSF) K :=
  Matrix.of fun row c => source row (c, for_site)

/-- Body of the inner loop of `DetSDW::updateInSlice_delayed`
(detsdwopdim.cpp 3057-3141) for the site `ds.site < N`. -/
def updateInSlice_delayed_site {K : Type} [Field K] [DecidableEq K] {o : OpDim} {N : ℕ}
    (env : LocalEnv o K) (timeslice : ℕ) (ds : DelayedState o N K) (h : ds.site < N) :
    DelayedState o N K :=
  let site : Fin N := ⟨ds.site, h⟩
  let prop := env.proposeLocalUpdate ds.st.fc ds.site timeslice
  if prop.changed ≠ Changed.NONE then
    let delta_forsite := get_delta_forsite o env.imagI env.lm env.pars env.cdwl_eta ds.st.fc
      prop.newphi prop.new_cdwl timeslice ds.site
    let Rj := (List.range ds.j).foldl
      (fun Rj l => Rj + takesomerows (ds.X l) site * ds.Y l) (takesomerows ds.st.g site)
    let Sj := takesomecols Rj site
    let Mj := 1 - Sj * delta_forsite + delta_forsite
    let det := Mj.det
    let st := { ds.st with Ms := ds.st.Ms ++ [Mj] }
    if env.accept st.fc ds.site det then
      let fc := commitLocalUpdate o env.lm env.pars env.cdwl_eta ds.site timeslice
        prop.newphi prop.new_cdwl st.fc
      let Cj := (List.range ds.j).foldl
        (fun Cj l => Cj + ds.X l * takesomecols (ds.Y l) site) (takesomecols ds.st.g site)
      let Rj : Matrix (Fin o.MSF) (Fin o.MSF × Fin N) K :=
        Matrix.of fun rc entry => Rj rc entry - (if entry = (rc, site) then 1 else 0)
      { st := { st with fc := fc, accepted := st.accepted + 1 },
        X := Function.update ds.X ds.j (Cj * delta_forsite),
        Y := Function.update ds.Y ds.j (inv Mj * Rj),
        j := ds.j + 1,
        site := ds.site + 1 }
    else { ds with st := st, site := ds.site + 1 }
  else { ds with site := ds.site + 1 }

/-- The inner loop `while (j < delayStepsNow and site < N)` of
`DetSDW::updateInSlice_delayed`. -/
def updateInSlice_delayed_batch {K : Type} [Field K] [DecidableEq K] {o : OpDim} {N : ℕ}
    (env : LocalEnv o K) (timeslice delayStepsNow : ℕ) :
    ℕ → DelayedState o N K → Option (DelayedState o N K)
  | 0, _ => none
  | fuel + 1, ds =>
    if h : ds.j < delayStepsNow ∧ ds.site < N then
      updateInSlice_delayed_batch env timeslice delayStepsNow fuel
        (updateInSlice_delayed_site env timeslice ds h.2)
    else some ds

/-- The update `g += dud.X * dud.Y` with the first `j` blocks
(detsdwopdim.cpp 3143-3156). -/
def applyDelayedUpdates {K : Type} [Field K] {o : OpDim} {N : ℕ}
    (ds : DelayedState o N K) : DelayedState o N K :=
  if 0 < ds.j then
    { ds with st := { ds.st with
        g := ds.st.g + (List.range ds.j).foldl (fun acc l => acc + ds.X l * ds.Y l) 0 } }
  else ds

/-- The outer loop `while (site < N)` of `DetSDW::updateInSlice_delayed`
(detsdwopdim.cpp 3050-3172). -/
def updateInSlice_delayed_loop {K : Type} [Field K] [DecidableEq K] {o : OpDim} {N : ℕ}
    (env : LocalEnv o K) (timeslice : ℕ) :
    ℕ → DelayedState o N K → Option (DelayedState o N K)
  | 0, _ => none
  | fuel + 1, ds =>
    if ds.site < N then
      let delayStepsNow := min env.pars.delaySteps (N - ds.site)
      (updateInSlice_delayed_batch env timeslice delayStepsNow (fuel + 1)
          { ds with j := 0 }).bind
        (fun ds => updateInSlice_delayed_loop env timeslice fuel (applyDelayedUpdates ds))
    else some ds

/-- `DetSDW::updateInSlice_delayed` (detsdwopdim.cpp 3021-3175); the assertion
`not pars.turnoffFermions` fails otherwise. -/
def updateInSlice_delayed {K : Type} [Field K] [DecidableEq K] {o : OpDim} {N : ℕ}
    (env : LocalEnv o K) (timeslice fuel : ℕ) (st : SliceState o N K) :
    Option (SliceState o N K) :=
  if env.pars.turnoffFermions then none
  else
    (updateInSlice_delayed_loop env timeslice fuel
      { st := st, X := fun _ => 0, Y := fun _ => 0, j := 0, site := 0 }).map
      (fun ds => ds.st)

/-- The matrix `D` of the notes: `delta` on the rows and columns of one site
(`i, i+N, ..., i+(MSF-1)N`), zero elsewhere. -/
def siteBlock {MSF N : ℕ} {K : Type} [Field K] (site : Fin N) (delta : MatSmall MSF K) :
    MatData MSF N K :=
  Matrix.of fun ai bj => if ai.2 = site ∧ bj.2 = site then delta ai.1 bj.1 else 0


/-- Parameters of a small instance of `DetSDW`: one site, one time slice, no CDW field. -/
def oneSiteParams : ModelParamsSDW ℚ :=
  { r := 1, u := 1, c := 1, lambda := 1, cdwU := 0, dtau := 1, mux := 0, muy := 0,
    L := 1, N := 1, d := 2, m := 1, delaySteps := 1,
    turnoffFermions := false, phi2bosons := false, bc := BC_Type.PBC, weakZflux := false }

/-- Stand-in for the math library on the rationals with `cosh^2 - sinh^2 = 1`:
`cosh = 5/4`, `sinh = 3/4`, `sqrt x = x`, `exp = 1`. -/
def rationalLibm : Libm ℚ :=
  { cosh := fun _ => 5 / 4, sinh := fun _ => 3 / 4, sqrt := fun x => x, exp := fun _ => 1 }

/-- The field `phi = 0` with the caches `cosh = 1`, `sinh / |phi| = 0`. -/
def zeroField : FieldConfig ℚ :=
  { phi := fun _ _ _ => 0, cdwl := fun _ _ => 1,
    coshTermPhi := fun _ _ => 1, sinhTermPhi := fun _ _ => 0,
    coshTermCDWl := fun _ _ => 1, sinhTermCDWl := fun _ _ => 0 }

/-- Surroundings of the local updates for `OPDIM = 1` on `oneSiteParams`: every proposal
changes `phi` to `1`, every proposal is accepted. -/
def acceptAllEnv : LocalEnv OpDim.one ℚ :=
  { pars := oneSiteParams, imagI := 0, lm := rationalLibm, cdwl_eta := fun _ => 0,
    proposeLocalUpdate := fun _ _ _ => ⟨Changed.PHI, fun _ => 1, 1⟩,
    accept := fun _ _ _ => true }

/-- The state with the field `phi = 0` and `g = 1/2`, the Green function
`[1 + B(1,0) B(1,1)]^{-1}` of this field for `B_1 = 1`. -/
def halfState : SliceState OpDim.one 1 ℚ :=
  { fc := zeroField, g := (1 / 2 : ℚ) • 1, accepted := 0, Ms := [] }

/-- Surroundings of the local updates for `OPDIM = 1` on a lattice of four sites with
`delaySteps = 3`: every proposal changes `phi` to `1`, every proposal is accepted. -/
def fourSiteEnv : LocalEnv OpDim.one ℚ :=
  { pars := { oneSiteParams with L := 2, N := 4, delaySteps := 3 },
    imagI := 0, lm := rationalLibm, cdwl_eta := fun _ => 0,
    proposeLocalUpdate := fun _ _ _ => ⟨Changed.PHI, fun _ => 1, 1⟩,
    accept := fun _ _ _ => true }

/-- The state with the field `phi = 0` and `g = 1/2` on four sites. -/
def fourSiteState : SliceState OpDim.one 4 ℚ :=
  { fc := zeroField, g := (1 / 2 : ℚ) • 1, accepted := 0, Ms := [] }

/-- The Green function that a state of the delayed updates stands for: `g` plus the
products `X_l * Y_l` of the updates delayed so far. -/
def DelayedState.effective {K : Type} [Field K] {o : OpDim} {N : ℕ}
    (ds : DelayedState o N K) : MatData o.MSF N K :=
  ds.st.g + ∑ l ∈ Finset.range ds.j, ds.X l * ds.Y l

/-- The state of `updateInSlice_woodbury` after the sites `0, ..., n - 1`. -/
def woodburyUpTo {K : Type} [Field K] [DecidableEq K] {o : OpDim} {N : ℕ}
    (env : LocalEnv o K) (timeslice : ℕ) (st : SliceState o N K) (n : ℕ) : SliceState o N K :=
  (List.range n).foldl (updateInSlice_woodbury_site env timeslice) st

/-- Relation between the two update methods at the same site counter: same field, same
count of accepted proposals, same matrices `M`, and the Green function of the immediate
method is the effective Green function of the delayed method. -/
def DelayedInv {K : Type} [Field K] [DecidableEq K] {o : OpDim} {N : ℕ}
    (env : LocalEnv o K) (timeslice : ℕ) (st0 : SliceState o N K) (ds : DelayedState o N K) :
    Prop :=
  ds.site ≤ N ∧
  (woodburyUpTo env timeslice st0 ds.site).fc = ds.st.fc ∧
  (woodburyUpTo env timeslice st0 ds.site).accepted = ds.st.accepted ∧
  (woodburyUpTo env timeslice st0 ds.site).Ms = ds.st.Ms ∧
  (woodburyUpTo env timeslice st0 ds.site).g = ds.effective

/-! ### Checkerboard break-up of the hopping part (detsdwopdim.cpp 1688-2420) -/

/-- Directions of the spatial neighbour table. -/
inductive NeighDir where
  | XPLUS
  | XMINUS
  | YPLUS
  | YMINUS
  deriving DecidableEq, Repr

/-- Directions of the neighbour table of the time slices. -/
inductive ChainDir where
  | PLUS
  | MINUS
  deriving DecidableEq, Repr

/-- The lattice functions `coordsToSite`, `spaceNeigh` and `timeNeigh` that `DetSDW` calls.
They are declared in headers that are not part of the sources and are parameters here. -/
structure Lattice (N : ℕ) where
  coordsToSite : ℕ → ℕ → Fin N
  spaceNeigh : NeighDir → Fin N → Fin N
  timeNeigh : ChainDir → ℕ → ℕ

/-- The hopping constants of the two bands (`false` is `XBAND`, `true` is `YBAND`) that the
constructor stores, and the precalculated four-site matrices of the branch `weakZflux`
(indexed by band, subgroup and the site `i` of the plaquette). -/
structure HoppingData (N : ℕ) (K : Type) where
  coshHopHor : Bool → K
  sinhHopHor : Bool → K
  coshHopVer : Bool → K
  sinhHopVer : Bool → K
  coshHopHorHalf : Bool → K
  sinhHopHorHalf : Bool → K
  coshHopVerHalf : Bool → K
  sinhHopVerHalf : Bool → K
  expHop4Site_minus : Bool → ℕ → Fin N → Matrix (Fin 4) (Fin 4) K
  expHop4Site_minusHalf : Bool → ℕ → Fin N → Matrix (Fin 4) (Fin 4) K
  expHop4Site_plus : Bool → ℕ → Fin N → Matrix (Fin 4) (Fin 4) K
  expHop4Site_plusHalf : Bool → ℕ → Fin N → Matrix (Fin 4) (Fin 4) K

/-- Values of the counter of the loops `for (i = subgroup; i < L; i += 2)`
(for `L ≤ 2^32 - 2`, where `i += 2` does not wrap around). -/
def plaquetteRange (L subgroup : ℕ) : List ℕ :=
  (List.range ((L + 1 - subgroup) / 2)).map (fun t => subgroup + 2 * t)

/-- The rows `i, j, k, l` of `result` are replaced by the combinations of the old rows
with the coefficients `mat`, the indices `(0,1,2,3)` standing for `(i,j,k,l)`; the rows
are assigned in the order `l, i, j, k` (detsdwopdim.cpp 1700-1717, 1801-1822). -/
def applyPlaquetteLeft {N : ℕ} {K : Type} [Field K] {κ : Type} (i j k l : Fin N)
    (mat : Matrix (Fin 4) (Fin 4) K) (result : Matrix (Fin N) κ K) : Matrix (Fin N) κ K :=
  let ri := result i
  let rj := result j
  let rk := result k
  let rl := result l
  let new_row_i := mat 0 0 • ri + mat 0 1 • rj + mat 0 2 • rk + mat 0 3 • rl
  let new_row_j := mat 1 0 • ri + mat 1 1 • rj + mat 1 2 • rk + mat 1 3 • rl
  let new_row_k := mat 2 0 • ri + mat 2 1 • rj + mat 2 2 • rk + mat 2 3 • rl
  let new_row_l := mat 3 0 • ri + mat 3 1 • rj + mat 3 2 • rk + mat 3 3 • rl
  Function.update (Function.update (Function.update (Function.update result l new_row_l)
    i new_row_i) j new_row_j) k new_row_k

/-- The columns `i, j, k, l` of `result` are replaced by the combinations of the old
columns, `new_col_i = ci*mat(0,0) + cj*mat(1,0) + ck*mat(2,0) + cl*mat(3,0)` and so on;
the columns are assigned in the order `l, i, j, k` (detsdwopdim.cpp 1736-1753,
1918-1939). -/
def applyPlaquetteRight {N : ℕ} {K : Type} [Field K] {κ : Type} (i j k l : Fin N)
    (mat : Matrix (Fin 4) (Fin 4) K) (result : Matrix κ (Fin N) K) : Matrix κ (Fin N) K :=
  fun row =>
    let ci := result row i
    let cj := result row j
    let ck := result row k
    let cl := result row l
    let new_col_i := ci * mat 0 0 + cj * mat 1 0 + ck * mat 2 0 + cl * mat 3 0
    let new_col_j := ci * mat 0 1 + cj * mat 1 1 + ck * mat 2 1 + cl * mat 3 1
    let new_col_k := ci * mat 0 2 + cj * mat 1 2 + ck * mat 2 2 + cl * mat 3 2
    let new_col_l := ci * mat 0 3 + cj * mat 1 3 + ck * mat 2 3 + cl * mat 3 3
    Function.update (Function.update (Function.update (Function.update (result row) l
      new_col_l) i new_col_i) j new_col_j) k new_col_k

/-- The coefficients with which `cb_assaad_applyBondFactorsLeft` and
`cb_assaad_applyBondFactorsRight` combine the rows (columns) `i, j, k, l` of a plaquette
(detsdwopdim.cpp 1817-1820, 1934-1937). -/
def bondFactors {K : Type} [Field K] (ch_hor b_sh_hor ch_ver b_sh_ver : K) :
    Matrix (Fin 4) (Fin 4) K :=
  !![ch_hor * ch_ver, ch_ver * b_sh_hor, ch_hor * b_sh_ver, b_sh_hor * b_sh_ver;
     ch_ver * b_sh_hor, ch_hor * ch_ver, b_sh_hor * b_sh_ver, ch_hor * b_sh_ver;
     ch_hor * b_sh_ver, b_sh_hor * b_sh_ver, ch_hor * ch_ver, ch_ver * b_sh_hor;
     b_sh_hor * b_sh_ver, ch_hor * b_sh_ver, ch_ver * b_sh_hor, ch_hor * ch_ver]

/-- The sites `i`, `j = i + XPLUS`, `k = i + YPLUS`, `l = k + XPLUS` of the plaquette with
the corner `(i1, i2)`. -/
def plaquetteSites {N : ℕ} (lat : Lattice N) (i1 i2 : ℕ) : Fin 4 → Fin N :=
  let i := lat.coordsToSite i1 i2
  let j := lat.spaceNeigh NeighDir.XPLUS i
  let k := lat.spaceNeigh NeighDir.YPLUS i
  let l := lat.spaceNeigh NeighDir.XPLUS k
  ![i, j, k, l]

/-- The factors of one plaquette in `cb_assaad_applyBondFactorsLeft` and
`cb_assaad_applyBondFactorsRight`: the signs of `sh_hor`, `sh_ver` are flipped on the
plaquettes that cross an antiperiodic boundary. -/
def plaquetteFactors {K : Type} [Field K] (pars : ModelParamsSDW K)
    (ch_hor sh_hor ch_ver sh_ver : K) (i1 i2 : ℕ) : Matrix (Fin 4) (Fin 4) K :=
  let b_sh_hor :=
    if (pars.bc = BC_Type.APBC_X ∨ pars.bc = BC_Type.APBC_XY) ∧ i1 = pars.L - 1 then -sh_hor
    else sh_hor
  let b_sh_ver :=
    if (pars.bc = BC_Type.APBC_Y ∨ pars.bc = BC_Type.APBC_XY) ∧ i2 = pars.L - 1 then -sh_ver
    else sh_ver
  bondFactors ch_hor b_sh_hor ch_ver b_sh_ver

/-- `DetSDW::cb_assaad_applyBondFactorsLeft` (detsdwopdim.cpp 1786-1826), called with
`subgroup` 0 or 1. -/
def cb_assaad_applyBondFactorsLeft {N : ℕ} {K : Type} [Field K] {κ : Type} (lat : Lattice N)
    (pars : ModelParamsSDW K) (subgroup : ℕ) (ch_hor sh_hor ch_ver sh_ver : K)
    (result : Matrix (Fin N) κ K) : Matrix (Fin N) κ K :=
  (plaquetteRange pars.L subgroup).foldl (fun result i1 =>
    (plaquetteRange pars.L subgroup).foldl (fun result i2 =>
      applyPlaquetteLeft (plaquetteSites lat i1 i2 0) (plaquetteSites lat i1 i2 1)
        (plaquetteSites lat i1 i2 2) (plaquetteSites lat i1 i2 3)
        (plaquetteFactors pars ch_hor sh_hor ch_ver sh_ver i1 i2) result) result) result

/-- `DetSDW::cb_assaad_applyBondFactorsRight` (detsdwopdim.cpp 1903-1943), called with
`subgroup` 0 or 1. -/
def cb_assaad_applyBondFactorsRight {N : ℕ} {K : Type} [Field K] {κ : Type} (lat : Lattice N)
    (pars : ModelParamsSDW K) (subgroup : ℕ) (ch_hor sh_hor ch_ver sh_ver : K)
    (result : Matrix κ (Fin N) K) : Matrix κ (Fin N) K :=
  (plaquetteRange pars.L subgroup).foldl (fun result i1 =>
    (plaquetteRange pars.L subgroup).foldl (fun result i2 =>
      applyPlaquetteRight (plaquetteSites lat i1 i2 0) (plaquetteSites lat i1 i2 1)
        (plaquetteSites lat i1 i2 2) (plaquetteSites lat i1 i2 3)
        (plaquetteFactors pars ch_hor sh_hor ch_ver sh_ver i1 i2) result) result) result

/-- `DetSDW::cb_assaad_applyBondFactorsLeft_precalcedMatrices`
(detsdwopdim.cpp 1686-1720). -/
def cb_assaad_applyBondFactorsLeft_precalcedMatrices {N : ℕ} {K : Type} [Field K] {κ : Type}
    (lat : Lattice N) (pars : ModelParamsSDW K) (subgroup : ℕ)
    (expHop4SiteMatrices : ℕ → Fin N → Matrix (Fin 4) (Fin 4) K)
    (result : Matrix (Fin N) κ K) : Matrix (Fin N) κ K :=
  (plaquetteRange pars.L subgroup).foldl (fun result i1 =>
    (plaquetteRange pars.L subgroup).foldl (fun result i2 =>
      applyPlaquetteLeft (plaquetteSites lat i1 i2 0) (plaquetteSites lat i1 i2 1)
        (plaquetteSites lat i1 i2 2) (plaquetteSites lat i1 i2 3)
        (expHop4SiteMatrices subgroup (plaquetteSites lat i1 i2 0)) result) result) result

/-- `DetSDW::cb_assaad_applyBondFactorsRight_precalcedMatrices`
(detsdwopdim.cpp 1722-1756). -/
def cb_assaad_applyBondFactorsRight_precalcedMatrices {N : ℕ} {K : Type} [Field K] {κ : Type}
    (lat : Lattice N) (pars : ModelParamsSDW K) (subgroup : ℕ)
    (expHop4SiteMatrices : ℕ → Fin N → Matrix (Fin 4) (Fin 4) K)
    (result : Matrix κ (Fin N) K) : Matrix κ (Fin N) K :=
  (plaquetteRange pars.L subgroup).foldl (fun result i1 =>
    (plaquetteRange pars.L subgroup).foldl (fun result i2 =>
      applyPlaquetteRight (plaquetteSites lat i1 i2 0) (plaquetteSites lat i1 i2 1)
        (plaquetteSites lat i1 i2 2) (plaquetteSites lat i1 i2 3)
        (expHop4SiteMatrices subgroup (plaquetteSites lat i1 i2 0)) result) result) result

/-- `DetSDW::cbLMultHoppingExp` for `CB_ASSAAD_BERG` (detsdwopdim.cpp 1836-1871):
`e^(sign*dtau*K_band) * A` in the symmetric checkerboard break-up, `sign` is `1` or `-1`. -/
def cbLMultHoppingExp {N : ℕ} {K : Type} [Field K] {κ : Type} (lat : Lattice N)
    (hop : HoppingData N K) (pars : ModelParamsSDW K) (A : Matrix (Fin N) κ K) (band : Bool)
    (sign : ℤ) : Matrix (Fin N) κ K :=
  if ¬ pars.weakZflux then
    let result := cb_assaad_applyBondFactorsLeft lat pars 1 (hop.coshHopHorHalf band)
      (sign * hop.sinhHopHorHalf band) (hop.coshHopVerHalf band)
      (sign * hop.sinhHopVerHalf band) A
    let result := cb_assaad_applyBondFactorsLeft lat pars 0 (hop.coshHopHor band)
      (sign * hop.sinhHopHor band) (hop.coshHopVer band) (sign * hop.sinhHopVer band) result
    cb_assaad_applyBondFactorsLeft lat pars 1 (hop.coshHopHorHalf band)
      (sign * hop.sinhHopHorHalf band) (hop.coshHopVerHalf band)
      (sign * hop.sinhHopVerHalf band) result
  else if sign = 1 then
    let result := cb_assaad_applyBondFactorsLeft_precalcedMatrices lat pars 1
      (hop.expHop4Site_plusHalf band) A
    let result := cb_assaad_applyBondFactorsLeft_precalcedMatrices lat pars 0
      (hop.expHop4Site_plus band) result
    cb_assaad_applyBondFactorsLeft_precalcedMatrices lat pars 1
      (hop.expHop4Site_plusHalf band) result
  else if sign = -1 then
    let result := cb_assaad_applyBondFactorsLeft_precalcedMatrices lat pars 1
      (hop.expHop4Site_minusHalf band) A
    let result := cb_assaad_applyBondFactorsLeft_precalcedMatrices lat pars 0
      (hop.expHop4Site_minus band) result
    cb_assaad_applyBondFactorsLeft_precalcedMatrices lat pars 1
      (hop.expHop4Site_minusHalf band) result
  else A

/-- `DetSDW::cbRMultHoppingExp` for `CB_ASSAAD_BERG` (detsdwopdim.cpp 1945-1981):
`A * e^(sign*dtau*K_band)` in the symmetric checkerboard break-up. -/
def cbRMultHoppingExp {N : ℕ} {K : Type} [Field K] {κ : Type} (lat : Lattice N)
    (hop : HoppingData N K) (pars : ModelParamsSDW K) (A : Matrix κ (Fin N) K) (band : Bool)
    (sign : ℤ) : Matrix κ (Fin N) K :=
  if ¬ pars.weakZflux then
    let result := cb_assaad_applyBondFactorsRight lat pars 1 (hop.coshHopHorHalf band)
      (sign * hop.sinhHopHorHalf band) (hop.coshHopVerHalf band)
      (sign * hop.sinhHopVerHalf band) A
    let result := cb_assaad_applyBondFactorsRight lat pars 0 (hop.coshHopHor band)
      (sign * hop.sinhHopHor band) (hop.coshHopVer band) (sign * hop.sinhHopVer band) result
    cb_assaad_applyBondFactorsRight lat pars 1 (hop.coshHopHorHalf band)
      (sign * hop.sinhHopHorHalf band) (hop.coshHopVerHalf band)
      (sign * hop.sinhHopVerHalf band) result
  else if sign = 1 then
    let result := cb_assaad_applyBondFactorsRight_precalcedMatrices lat pars 1
      (hop.expHop4Site_plusHalf band) A
    let result := cb_assaad_applyBondFactorsRight_precalcedMatrices lat pars 0
      (hop.expHop4Site_plus band) result
    cb_assaad_applyBondFactorsRight_precalcedMatrices lat pars 1
      (hop.expHop4Site_plusHalf band) result
  else if sign = -1 then
    let result := cb_assaad_applyBondFactorsRight_precalcedMatrices lat pars 1
      (hop.expHop4Site_minusHalf band) A
    let result := cb_assaad_applyBondFactorsRight_precalcedMatrices lat pars 0
      (hop.expHop4Site_minus band) result
    cb_assaad_applyBondFactorsRight_precalcedMatrices lat pars 1
      (hop.expHop4Site_minusHalf band) result
  else A

/-- The macro `block(mat, row, col)`: the `N x N` block of a matrix of size `MSF*N`. -/
def block {MSF N : ℕ} {K : Type} (mat : MatData MSF N K) (row col : Fin MSF) :
    Matrix (Fin N) (Fin N) K :=
  Matrix.of fun i j => mat (row, i) (col, j)

/-- The vectors over the sites that `leftMultiplyBk`, `leftMultiplyBkInv`,
`rightMultiplyBk` and `rightMultiplyBkInv` compute from the field and the caches of the
slice `k` before they combine the blocks. -/
structure BkVectors (N : ℕ) (K : Type) where
  cd : Fin N → K
  cmd : Fin N → K
  ax : Fin N → K
  max : Fin N → K
  mbx : Fin N → K
  mbcx : Fin N → K
  bx : Fin N → K
  bcx : Fin N → K

/-- The common first part of `leftMultiplyBk`, `leftMultiplyBkInv`, `rightMultiplyBk`,
`rightMultiplyBkInv` (detsdwopdim.cpp 2001-2029, 2100-2128): `b` and `bc` get an
imaginary part only for `OPDIM > 1`; `ax`, `max` are used only for `OPDIM = 3`. -/
def bkVectors {K : Type} [Field K] [DecidableEq K] (o : OpDim) (N : ℕ) (imagI : K)
    (pars : ModelParamsSDW K) (fc : FieldConfig K) (k : ℕ) : BkVectors N K :=
  let ksinhTermPhi : Fin N → K := fun i => fc.sinhTermPhi i.val k
  let kcoshTermPhi : Fin N → K := fun i => fc.coshTermPhi i.val k
  let ksinhTermCDWl : Fin N → K := fun i => fc.sinhTermCDWl i.val k
  let kcoshTermCDWl : Fin N → K := fun i => fc.coshTermCDWl i.val k
  let cd : Fin N → K :=
    if pars.cdwU ≠ 0 then fun i => kcoshTermPhi i * kcoshTermCDWl i + ksinhTermCDWl i
    else kcoshTermPhi
  let cmd : Fin N → K :=
    if pars.cdwU ≠ 0 then fun i => kcoshTermPhi i * kcoshTermCDWl i - ksinhTermCDWl i
    else kcoshTermPhi
  let kphi2 : Fin N → K := fun i => fc.phi i.val 2 k
  let ax : Fin N → K :=
    if pars.cdwU ≠ 0 then fun i => kphi2 i * ksinhTermPhi i * kcoshTermCDWl i
    else fun i => kphi2 i * ksinhTermPhi i
  let kphi0 : Fin N → K := fun i => fc.phi i.val 0 k
  let kphi1 : Fin N → K := fun i => fc.phi i.val 1 k
  let b : Fin N → K := fun i => kphi0 i + imagI * (if o = OpDim.one then 0 else -kphi1 i)
  let bc : Fin N → K := fun i => kphi0 i + imagI * (if o = OpDim.one then 0 else kphi1 i)
  { cd := cd,
    cmd := cmd,
    ax := ax,
    max := fun i => -ax i,
    mbx :=
      if pars.cdwU ≠ 0 then fun i => -b i * ksinhTermPhi i * kcoshTermCDWl i
      else fun i => -b i * ksinhTermPhi i,
    mbcx :=
      if pars.cdwU ≠ 0 then fun i => -bc i * ksinhTermPhi i * kcoshTermCDWl i
      else fun i => -bc i * ksinhTermPhi i,
    bx :=
      if pars.cdwU ≠ 0 then fun i => b i * ksinhTermPhi i * kcoshTermCDWl i
      else fun i => b i * ksinhTermPhi i,
    bcx :=
      if pars.cdwU ≠ 0 then fun i => bc i * ksinhTermPhi i * kcoshTermCDWl i
      else fun i => bc i * ksinhTermPhi i }

/-- The block rows of `leftMultiplyBk` for `OPDIM` 1 and 2 (detsdwopdim.cpp 2043-2049);
`cbL A band` is `cbLMultHoppingExp(A, band, -1, false)`. -/
def leftMultiplyBk2 {N : ℕ} {K : Type} [Field K] (v : BkVectors N K)
    (ovFacXBAND ovFacYBAND : K)
    (cbL : Matrix (Fin N) (Fin N) K → Bool → Matrix (Fin N) (Fin N) K)
    (orig : MatData 2 N K) : MatData 2 N K :=
  Matrix.of fun ai colj =>
    (![Matrix.diagonal (ovFacXBAND • v.cd) * cbL (block orig 0 colj.1) false
        + Matrix.diagonal (ovFacYBAND • v.mbx) * cbL (block orig 1 colj.1) true,
       Matrix.diagonal (ovFacXBAND • v.mbcx) * cbL (block orig 0 colj.1) false
        + Matrix.diagonal (ovFacYBAND • v.cmd) * cbL (block orig 1 colj.1) true]
      ai.1) ai.2 colj.2

/-- The block rows of `leftMultiplyBk` for `OPDIM = 3` (detsdwopdim.cpp 2043-2064). -/
def leftMultiplyBk4 {N : ℕ} {K : Type} [Field K] (v : BkVectors N K)
    (ovFacXBAND ovFacYBAND : K)
    (cbL : Matrix (Fin N) (Fin N) K → Bool → Matrix (Fin N) (Fin N) K)
    (orig : MatData 4 N K) : MatData 4 N K :=
  Matrix.of fun ai colj =>
    (![Matrix.diagonal (ovFacXBAND • v.cd) * cbL (block orig 0 colj.1) false
        + Matrix.diagonal (ovFacYBAND • v.mbx) * cbL (block orig 1 colj.1) true
        + Matrix.diagonal (ovFacYBAND • v.max) * cbL (block orig 3 colj.1) true,
       Matrix.diagonal (ovFacXBAND • v.mbcx) * cbL (block orig 0 colj.1) false
        + Matrix.diagonal (ovFacYBAND • v.cmd) * cbL (block orig 1 colj.1) true
        + Matrix.diagonal (ovFacXBAND • v.ax) * cbL (block orig 2 colj.1) false,
       Matrix.diagonal (ovFacYBAND • v.ax) * cbL (block orig 1 colj.1) true
        + Matrix.diagonal (ovFacXBAND • v.cd) * cbL (block orig 2 colj.1) false
        + Matrix.diagonal (ovFacYBAND • v.mbcx) * cbL (block orig 3 colj.1) true,
       Matrix.diagonal (ovFacXBAND • v.max) * cbL (block orig 0 colj.1) false
        + Matrix.diagonal (ovFacXBAND • v.mbx) * cbL (block orig 2 colj.1) false
        + Matrix.diagonal (ovFacYBAND • v.cmd) * cbL (block orig 3 colj.1) true]
      ai.1) ai.2 colj.2

/-- `DetSDW::leftMultiplyBk(orig, k)` (detsdwopdim.cpp 1994-2070): `B_k * orig` with the
checkerboard break-up; the overall factors are `exp(dtau * mu)` of the two bands. -/
def leftMultiplyBk {K : Type} [Field K] [DecidableEq K] (o : OpDim) {N : ℕ}
    (lat : Lattice N) (hop : HoppingData N K) (imagI : K) (lm : Libm K)
    (pars : ModelParamsSDW K) (fc : FieldConfig K) (orig : MatData o.MSF N K) (k : ℕ) :
    MatData o.MSF N K :=
  match o, orig with
  | OpDim.one, orig =>
    leftMultiplyBk2 (bkVectors OpDim.one N imagI pars fc k) (lm.exp (pars.dtau * pars.mux))
      (lm.exp (pars.dtau * pars.muy)) (fun A band => cbLMultHoppingExp lat hop pars A band (-1))
      orig
  | OpDim.two, orig =>
    leftMultiplyBk2 (bkVectors OpDim.two N imagI pars fc k) (lm.exp (pars.dtau * pars.mux))
      (lm.exp (pars.dtau * pars.muy)) (fun A band => cbLMultHoppingExp lat hop pars A band (-1))
      orig
  | OpDim.three, orig =>
    leftMultiplyBk4 (bkVectors OpDim.three N imagI pars fc k) (lm.exp (pars.dtau * pars.mux))
      (lm.exp (pars.dtau * pars.muy)) (fun A band => cbLMultHoppingExp lat hop pars A band (-1))
      orig

/-- The block rows of `leftMultiplyBkInv` for `OPDIM` 1 and 2 (detsdwopdim.cpp 2139-2145);
`cbL A band` is `cbLMultHoppingExp(A, band, +1, true)`. -/
def leftMultiplyBkInv2 {N : ℕ} {K : Type} [Field K] (v : BkVectors N K)
    (ovFacXBAND ovFacYBAND : K)
    (cbL : Matrix (Fin N) (Fin N) K → Bool → Matrix (Fin N) (Fin N) K)
    (orig : MatData 2 N K) : MatData 2 N K :=
  Matrix.of fun ai colj =>
    (![cbL (Matrix.diagonal (ovFacXBAND • v.cmd) * block orig 0 colj.1) false
        + cbL (Matrix.diagonal (ovFacXBAND • v.bx) * block orig 1 colj.1) false,
       cbL (Matrix.diagonal (ovFacYBAND • v.bcx) * block orig 0 colj.1) true
        + cbL (Matrix.diagonal (ovFacYBAND • v.cd) * block orig 1 colj.1) true]
      ai.1) ai.2 colj.2

/-- The block rows of `leftMultiplyBkInv` for `OPDIM = 3` (detsdwopdim.cpp 2139-2160). -/
def leftMultiplyBkInv4 {N : ℕ} {K : Type} [Field K] (v : BkVectors N K)
    (ovFacXBAND ovFacYBAND : K)
    (cbL : Matrix (Fin N) (Fin N) K → Bool → Matrix (Fin N) (Fin N) K)
    (orig : MatData 4 N K) : MatData 4 N K :=
  Matrix.of fun ai colj =>
    (![cbL (Matrix.diagonal (ovFacXBAND • v.cmd) * block orig 0 colj.1) false
        + cbL (Matrix.diagonal (ovFacXBAND • v.bx) * block orig 1 colj.1) false
        + cbL (Matrix.diagonal (ovFacXBAND • v.ax) * block orig 3 colj.1) false,
       cbL (Matrix.diagonal (ovFacYBAND • v.bcx) * block orig 0 colj.1) true
        + cbL (Matrix.diagonal (ovFacYBAND • v.cd) * block orig 1 colj.1) true
        + cbL (Matrix.diagonal (ovFacYBAND • v.max) * block orig 2 colj.1) true,
       cbL (Matrix.diagonal (ovFacXBAND • v.max) * block orig 1 colj.1) false
        + cbL (Matrix.diagonal (ovFacXBAND • v.cmd) * block orig 2 colj.1) false
        + cbL (Matrix.diagonal (ovFacXBAND • v.bcx) * block orig 3 colj.1) false,
       cbL (Matrix.diagonal (ovFacYBAND • v.ax) * block orig 0 colj.1) true
        + cbL (Matrix.diagonal (ovFacYBAND • v.bx) * block orig 2 colj.1) true
        + cbL (Matrix.diagonal (ovFacYBAND • v.cd) * block orig 3 colj.1) true]
      ai.1) ai.2 colj.2

/-- `DetSDW::leftMultiplyBkInv(orig, k)` (detsdwopdim.cpp 2093-2167): `B_k^{-1} * orig`
with the checkerboard break-up; the overall factors are `exp(-dtau * mu)`. -/
def leftMultiplyBkInv {K : Type} [Field K] [DecidableEq K] (o : OpDim) {N : ℕ}
    (lat : Lattice N) (hop : HoppingData N K) (imagI : K) (lm : Libm K)
    (pars : ModelParamsSDW K) (fc : FieldConfig K) (orig : MatData o.MSF N K) (k : ℕ) :
    MatData o.MSF N K :=
  match o, orig with
  | OpDim.one, orig =>
    leftMultiplyBkInv2 (bkVectors OpDim.one N imagI pars fc k)
      (lm.exp (-pars.dtau * pars.mux)) (lm.exp (-pars.dtau * pars.muy))
      (fun A band => cbLMultHoppingExp lat hop pars A band 1) orig
  | OpDim.two, orig =>
    leftMultiplyBkInv2 (bkVectors OpDim.two N imagI pars fc k)
      (lm.exp (-pars.dtau * pars.mux)) (lm.exp (-pars.dtau * pars.muy))
      (fun A band => cbLMultHoppingExp lat hop pars A band 1) orig
  | OpDim.three, orig =>
    leftMultiplyBkInv4 (bkVectors OpDim.three N imagI pars fc k)
      (lm.exp (-pars.dtau * pars.mux)) (lm.exp (-pars.dtau * pars.muy))
      (fun A band => cbLMultHoppingExp lat hop pars A band 1) orig

/-- The block columns of `rightMultiplyBk` for `OPDIM` 1 and 2
(detsdwopdim.cpp 2275-2281); `cbR A band` is `cbRMultHoppingExp(A, band, -1, false)`. -/
def rightMultiplyBk2 {N : ℕ} {K : Type} [Field K] (v : BkVectors N K)
    (ovFacXBAND ovFacYBAND : K)
    (cbR : Matrix (Fin N) (Fin N) K → Bool → Matrix (Fin N) (Fin N) K)
    (orig : MatData 2 N K) : MatData 2 N K :=
  Matrix.of fun rowi colj =>
    (![cbR ((ovFacXBAND • block orig rowi.1 0) * Matrix.diagonal v.cd) false
        + cbR ((ovFacXBAND • block orig rowi.1 1) * Matrix.diagonal v.mbcx) false,
       cbR ((ovFacYBAND • block orig rowi.1 0) * Matrix.diagonal v.mbx) true
        + cbR ((ovFacYBAND • block orig rowi.1 1) * Matrix.diagonal v.cmd) true]
      colj.1) rowi.2 colj.2

/-- The block columns of `rightMultiplyBk` for `OPDIM = 3` (detsdwopdim.cpp 2275-2296). -/
def rightMultiplyBk4 {N : ℕ} {K : Type} [Field K] (v : BkVectors N K)
    (ovFacXBAND ovFacYBAND : K)
    (cbR : Matrix (Fin N) (Fin N) K → Bool → Matrix (Fin N) (Fin N) K)
    (orig : MatData 4 N K) : MatData 4 N K :=
  Matrix.of fun rowi colj =>
    (![cbR ((ovFacXBAND • block orig rowi.1 0) * Matrix.diagonal v.cd) false
        + cbR ((ovFacXBAND • block orig rowi.1 1) * Matrix.diagonal v.mbcx) false
        + cbR ((ovFacXBAND • block orig rowi.1 3) * Matrix.diagonal v.max) false,
       cbR ((ovFacYBAND • block orig rowi.1 0) * Matrix.diagonal v.mbx) true
        + cbR ((ovFacYBAND • block orig rowi.1 1) * Matrix.diagonal v.cmd) true
        + cbR ((ovFacYBAND • block orig rowi.1 2) * Matrix.diagonal v.ax) true,
       cbR ((ovFacXBAND • block orig rowi.1 1) * Matrix.diagonal v.ax) false
        + cbR ((ovFacXBAND • block orig rowi.1 2) * Matrix.diagonal v.cd) false
        + cbR ((ovFacXBAND • block orig rowi.1 3) * Matrix.diagonal v.mbx) false,
       cbR ((ovFacYBAND • block orig rowi.1 0) * Matrix.diagonal v.max) true
        + cbR ((ovFacYBAND • block orig rowi.1 2) * Matrix.diagonal v.mbcx) true
        + cbR ((ovFacYBAND • block orig rowi.1 3) * Matrix.diagonal v.cmd) true]
      colj.1) rowi.2 colj.2

/-- `DetSDW::rightMultiplyBk(orig, k)` (detsdwopdim.cpp 2189-2302): `orig * B_k` with the
checkerboard break-up. -/
def rightMultiplyBk {K : Type} [Field K] [DecidableEq K] (o : OpDim) {N : ℕ}
    (lat : Lattice N) (hop : HoppingData N K) (imagI : K) (lm : Libm K)
    (pars : ModelParamsSDW K) (fc : FieldConfig K) (orig : MatData o.MSF N K) (k : ℕ) :
    MatData o.MSF N K :=
  match o, orig with
  | OpDim.one, orig =>
    rightMultiplyBk2 (bkVectors OpDim.one N imagI pars fc k) (lm.exp (pars.dtau * pars.mux))
      (lm.exp (pars.dtau * pars.muy)) (fun A band => cbRMultHoppingExp lat hop pars A band (-1))
      orig
  | OpDim.two, orig =>
    rightMultiplyBk2 (bkVectors OpDim.two N imagI pars fc k) (lm.exp (pars.dtau * pars.mux))
      (lm.exp (pars.dtau * pars.muy)) (fun A band => cbRMultHoppingExp lat hop pars A band (-1))
      orig
  | OpDim.three, orig =>
    rightMultiplyBk4 (bkVectors OpDim.three N imagI pars fc k)
      (lm.exp (pars.dtau * pars.mux)) (lm.exp (pars.dtau * pars.muy))
      (fun A band => cbRMultHoppingExp lat hop pars A band (-1)) orig

/-- The block columns of `rightMultiplyBkInv` for `OPDIM` 1 and 2
(detsdwopdim.cpp 2372-2378); `cbR A band` is `cbRMultHoppingExp(A, band, +1, true)`. -/
def rightMultiplyBkInv2 {N : ℕ} {K : Type} [Field K] (v : BkVectors N K)
    (ovFacXBAND ovFacYBAND : K)
    (cbR : Matrix (Fin N) (Fin N) K → Bool → Matrix (Fin N) (Fin N) K)
    (orig : MatData 2 N K) : MatData 2 N K :=
  Matrix.of fun rowi colj =>
    (![(ovFacXBAND • cbR (block orig rowi.1 0) false) * Matrix.diagonal v.cmd
        + (ovFacYBAND • cbR (block orig rowi.1 1) true) * Matrix.diagonal v.bcx,
       (ovFacXBAND • cbR (block orig rowi.1 0) false) * Matrix.diagonal v.bx
        + (ovFacYBAND • cbR (block orig rowi.1 1) true) * Matrix.diagonal v.cd]
      colj.1) rowi.2 colj.2

/-- The block columns of `rightMultiplyBkInv` for `OPDIM = 3`
(detsdwopdim.cpp 2372-2394). -/
def rightMultiplyBkInv4 {N : ℕ} {K : Type} [Field K] (v : BkVectors N K)
    (ovFacXBAND ovFacYBAND : K)
    (cbR : Matrix (Fin N) (Fin N) K → Bool → Matrix (Fin N) (Fin N) K)
    (orig : MatData 4 N K) : MatData 4 N K :=
  Matrix.of fun rowi colj =>
    (![(ovFacXBAND • cbR (block orig rowi.1 0) false) * Matrix.diagonal v.cmd
        + (ovFacYBAND • cbR (block orig rowi.1 1) true) * Matrix.diagonal v.bcx
        + (ovFacYBAND • cbR (block orig rowi.1 3) true) * Matrix.diagonal v.ax,
       (ovFacXBAND • cbR (block orig rowi.1 0) false) * Matrix.diagonal v.bx
        + (ovFacYBAND • cbR (block orig rowi.1 1) true) * Matrix.diagonal v.cd
        + (ovFacXBAND • cbR (block orig rowi.1 2) false) * Matrix.diagonal v.max,
       (ovFacYBAND • cbR (block orig rowi.1 1) true) * Matrix.diagonal v.max
        + (ovFacXBAND • cbR (block orig rowi.1 2) false) * Matrix.diagonal v.cmd
        + (ovFacYBAND • cbR (block orig rowi.1 3) true) * Matrix.diagonal v.bx,
       (ovFacXBAND • cbR (block orig rowi.1 0) false) * Matrix.diagonal v.ax
        + (ovFacXBAND • cbR (block orig rowi.1 2) false) * Matrix.diagonal v.bcx
        + (ovFacYBAND • cbR (block orig rowi.1 3) true) * Matrix.diagonal v.cd]
      colj.1) rowi.2 colj.2

/-- `DetSDW::rightMultiplyBkInv(orig, k)` (detsdwopdim.cpp 2327-2400): `orig * B_k^{-1}`
with the checkerboard break-up. -/
def rightMultiplyBkInv {K : Type} [Field K] [DecidableEq K] (o : OpDim) {N : ℕ}
    (lat : Lattice N) (hop : HoppingData N K) (imagI : K) (lm : Libm K)
    (pars : ModelParamsSDW K) (fc : FieldConfig K) (orig : MatData o.MSF N K) (k : ℕ) :
    MatData o.MSF N K :=
  match o, orig with
  | OpDim.one, orig =>
    rightMultiplyBkInv2 (bkVectors OpDim.one N imagI pars fc k)
      (lm.exp (-pars.dtau * pars.mux)) (lm.exp (-pars.dtau * pars.muy))
      (fun A band => cbRMultHoppingExp lat hop pars A band 1) orig
  | OpDim.two, orig =>
    rightMultiplyBkInv2 (bkVectors OpDim.two N imagI pars fc k)
      (lm.exp (-pars.dtau * pars.mux)) (lm.exp (-pars.dtau * pars.muy))
      (fun A band => cbRMultHoppingExp lat hop pars A band 1) orig
  | OpDim.three, orig =>
    rightMultiplyBkInv4 (bkVectors OpDim.three N imagI pars fc k)
      (lm.exp (-pars.dtau * pars.mux)) (lm.exp (-pars.dtau * pars.muy))
      (fun A band => cbRMultHoppingExp lat hop pars A band 1) orig

/-- `DetSDW::checkerboardLeftMultiplyBmat(A, k2, k1)` (detsdwopdim.cpp 2074-2090);
`none` if an assertion fails or the fuel of the loop runs out. -/
def checkerboardLeftMultiplyBmat {K : Type} [Field K] [DecidableEq K] (o : OpDim) {N : ℕ}
    (lat : Lattice N) (hop : HoppingData N K) (imagI : K) (lm : Libm K)
    (pars : ModelParamsSDW K) (fc : FieldConfig K) (fuel : ℕ) (A : MatData o.MSF N K)
    (k2 k1 : ℕ) : Option (MatData o.MSF N K) :=
  if k2 > k1 ∧ k2 ≤ pars.m then
    forLoop (fun k => decide (k ≤ k2)) (fun k => uadd k 1)
      (fun k result => some (leftMultiplyBk o lat hop imagI lm pars fc result k))
      fuel (uadd k1 2) (leftMultiplyBk o lat hop imagI lm pars fc A (uadd k1 1))
  else none

/-- `DetSDW::checkerboardLeftMultiplyBmatInv(A, k2, k1)` (detsdwopdim.cpp 2170-2186);
`none` if an assertion fails or the fuel of the loop runs out. -/
def checkerboardLeftMultiplyBmatInv {K : Type} [Field K] [DecidableEq K] (o : OpDim) {N : ℕ}
    (lat : Lattice N) (hop : HoppingData N K) (imagI : K) (lm : Libm K)
    (pars : ModelParamsSDW K) (fc : FieldConfig K) (fuel : ℕ) (A : MatData o.MSF N K)
    (k2 k1 : ℕ) : Option (MatData o.MSF N K) :=
  if k2 > k1 ∧ k2 ≤ pars.m then
    forLoop (fun k => decide (k ≥ uadd k1 1)) (fun k => usub k 1)
      (fun k result => some (leftMultiplyBkInv o lat hop imagI lm pars fc result k))
      fuel (usub k2 1) (leftMultiplyBkInv o lat hop imagI lm pars fc A k2)
  else none

/-- The matrix that acts as `M` on the sites `p 0, ..., p 3` of a plaquette and as the
identity on all other sites. -/
def plaquetteMatrix {N : ℕ} {K : Type} [Field K] (p : Fin 4 → Fin N)
    (M : Matrix (Fin 4) (Fin 4) K) : Matrix (Fin N) (Fin N) K :=
  1 + (Matrix.of fun r a => if r = p a then (1 : K) else 0) * (M - 1)
    * (Matrix.of fun a r => if r = p a then (1 : K) else 0)

/-- The corners of the plaquettes of each subgroup are pairwise different sites: no
plaquette has a site twice and no two plaquettes of a subgroup share a site (on the
periodic square lattice this is the case for even `L`). -/
def PlaquettesDisjoint {N : ℕ} (lat : Lattice N) (L : ℕ) : Prop :=
  ∀ subgroup ∈ [0, 1],
    ∀ i1 ∈ plaquetteRange L subgroup, ∀ i2 ∈ plaquetteRange L subgroup,
    ∀ j1 ∈ plaquetteRange L subgroup, ∀ j2 ∈ plaquetteRange L subgroup,
    ∀ a b : Fin 4, plaquetteSites lat i1 i2 a = plaquetteSites lat j1 j2 b →
      i1 = j1 ∧ i2 = j2 ∧ a = b

/-- The hopping constants satisfy `cosh^2 - sinh^2 = 1`. -/
def HoppingHyperbolic {N : ℕ} {K : Type} [Field K] (hop : HoppingData N K) : Prop :=
  ∀ band : Bool,
    hop.coshHopHor band * hop.coshHopHor band - hop.sinhHopHor band * hop.sinhHopHor band = 1 ∧
    hop.coshHopVer band * hop.coshHopVer band - hop.sinhHopVer band * hop.sinhHopVer band = 1 ∧
    hop.coshHopHorHalf band * hop.coshHopHorHalf band
      - hop.sinhHopHorHalf band * hop.sinhHopHorHalf band = 1 ∧
    hop.coshHopVerHalf band * hop.coshHopVerHalf band
      - hop.sinhHopVerHalf band * hop.sinhHopVerHalf band = 1

/-- The corners `(i1, i2)` of the plaquettes of a subgroup in the order of the two nested
loops of `cb_assaad_applyBondFactorsLeft`. -/
def plaquetteList (L subgroup : ℕ) : List (ℕ × ℕ) :=
  (plaquetteRange L subgroup).flatMap
    (fun i1 => (plaquetteRange L subgroup).map (fun i2 => (i1, i2)))

/-- The product of the factors of the plaquettes of a subgroup, the plaquette visited
last standing leftmost. -/
def subgroupMatrix {N : ℕ} {K : Type} [Field K] (lat : Lattice N) (pars : ModelParamsSDW K)
    (subgroup : ℕ) (ch_hor sh_hor ch_ver sh_ver : K) : Matrix (Fin N) (Fin N) K :=
  (plaquetteList pars.L subgroup).foldl
    (fun acc q => plaquetteMatrix (plaquetteSites lat q.1 q.2)
      (plaquetteFactors pars ch_hor sh_hor ch_ver sh_ver q.1 q.2) * acc) 1

/-- The matrix `e^(sign*dtau*K_band)` of the symmetric checkerboard break-up without
magnetic field: the factors of the subgroup 1 for half a step, of the subgroup 0 for a
full step, and of the subgroup 1 for half a step. -/
def hoppingExp {N : ℕ} {K : Type} [Field K] (lat : Lattice N) (hop : HoppingData N K)
    (pars : ModelParamsSDW K) (band : Bool) (sign : ℤ) : Matrix (Fin N) (Fin N) K :=
  subgroupMatrix lat pars 1 (hop.coshHopHorHalf band) (sign * hop.sinhHopHorHalf band)
      (hop.coshHopVerHalf band) (sign * hop.sinhHopVerHalf band)
    * (subgroupMatrix lat pars 0 (hop.coshHopHor band) (sign * hop.sinhHopHor band)
        (hop.coshHopVer band) (sign * hop.sinhHopVer band)
      * subgroupMatrix lat pars 1 (hop.coshHopHorHalf band) (sign * hop.sinhHopHorHalf band)
          (hop.coshHopVerHalf band) (sign * hop.sinhHopVerHalf band))

/-- The matrix with the `MSF x MSF` matrix `v i` on the rows and columns of the site `i`
(blocks that are diagonal in the sites). -/
def blockDiagSite {MSF N : ℕ} {K : Type} [Field K] (v : Fin N → MatSmall MSF K) :
    MatData MSF N K :=
  Matrix.of fun ai cj => if ai.2 = cj.2 then v ai.2 ai.1 cj.1 else 0

/-- The block diagonal matrix with the `N x N` matrix `P a` as block `(a, a)`. -/
def blockDiagBand {MSF N : ℕ} {K : Type} [Field K] (P : Fin MSF → Matrix (Fin N) (Fin N) K) :
    MatData MSF N K :=
  Matrix.of fun ai cj => if ai.1 = cj.1 then P ai.1 ai.2 cj.2 else 0

/-- The entries of `e^(-dtau*V)` at the site `i` with which `leftMultiplyBk` and
`rightMultiplyBk` combine the blocks, `OPDIM` 1 and 2. -/
def bkMinus2 {N : ℕ} {K : Type} [Field K] (v : BkVectors N K) (i : Fin N) :
    Matrix (Fin 2) (Fin 2) K :=
  !![v.cd i, v.mbx i; v.mbcx i, v.cmd i]

/-- The entries of `e^(+dtau*V)` at the site `i` with which `leftMultiplyBkInv` and
`rightMultiplyBkInv` combine the blocks, `OPDIM` 1 and 2. -/
def bkPlus2 {N : ℕ} {K : Type} [Field K] (v : BkVectors N K) (i : Fin N) :
    Matrix (Fin 2) (Fin 2) K :=
  !![v.cmd i, v.bx i; v.bcx i, v.cd i]

/-- The entries of `e^(-dtau*V)` at the site `i` with which `leftMultiplyBk` and
`rightMultiplyBk` combine the blocks, `OPDIM = 3`. -/
def bkMinus4 {N : ℕ} {K : Type} [Field K] (v : BkVectors N K) (i : Fin N) :
    Matrix (Fin 4) (Fin 4) K :=
  !![v.cd i, v.mbx i, 0, v.max i;
     v.mbcx i, v.cmd i, v.ax i, 0;
     0, v.ax i, v.cd i, v.mbcx i;
     v.max i, 0, v.mbx i, v.cmd i]

/-- The entries of `e^(+dtau*V)` at the site `i` with which `leftMultiplyBkInv` and
`rightMultiplyBkInv` combine the blocks, `OPDIM = 3`. -/
def bkPlus4 {N : ℕ} {K : Type} [Field K] (v : BkVectors N K) (i : Fin N) :
    Matrix (Fin 4) (Fin 4) K :=
  !![v.cmd i, v.bx i, 0, v.ax i;
     v.bcx i, v.cd i, v.max i, 0;
     0, v.max i, v.cmd i, v.bcx i;
     v.ax i, 0, v.bx i, v.cd i]

/-- The dense matrix `B_k` of the checkerboard break-up: `e^(-dtau*V_k)` times the
hopping part with the factors `exp(dtau*mu)` of the bands. -/
def cbBmat {K : Type} [Field K] [DecidableEq K] (o : OpDim) {N : ℕ}
    (lat : Lattice N) (hop : HoppingData N K) (imagI : K) (lm : Libm K)
    (pars : ModelParamsSDW K) (fc : FieldConfig K) (k : ℕ) : MatData o.MSF N K :=
  blockDiagSite (fun i => evSite o imagI pars (-1) fc i.val k)
    * blockDiagBand (fun b =>
        (if bandOfBlock b then lm.exp (pars.dtau * pars.muy)
          else lm.exp (pars.dtau * pars.mux)) • hoppingExp lat hop pars (bandOfBlock b) (-1))

/-- The dense matrix `B_k^{-1}` of the checkerboard break-up: the hopping part with the
factors `exp(-dtau*mu)` of the bands times `e^(+dtau*V_k)`. -/
def cbBmatInv {K : Type} [Field K] [DecidableEq K] (o : OpDim) {N : ℕ}
    (lat : Lattice N) (hop : HoppingData N K) (imagI : K) (lm : Libm K)
    (pars : ModelParamsSDW K) (fc : FieldConfig K) (k : ℕ) : MatData o.MSF N K :=
  blockDiagBand (fun b =>
      (if bandOfBlock b then lm.exp (-pars.dtau * pars.muy)
        else lm.exp (-pars.dtau * pars.mux)) • hoppingExp lat hop pars (bandOfBlock b) 1)
    * blockDiagSite (fun i => evSite o imagI pars 1 fc i.val k)

/-- A concrete lattice for the parameter `Lattice`: the periodic square lattice of side
`L` with the site `x + L * y` for the coordinates `(x, y)`, and `m` periodic time slices
`1, ..., m`. -/
def squareLattice (L m N : ℕ) (hN : 0 < N) : Lattice N :=
  { coordsToSite := fun i1 i2 => ⟨((i1 % L) + L * (i2 % L)) % N, Nat.mod_lt _ hN⟩,
    spaceNeigh := fun dir i =>
      match dir with
      | NeighDir.XPLUS => ⟨(((i.val % L + 1) % L) + L * (i.val / L % L)) % N, Nat.mod_lt _ hN⟩
      | NeighDir.XMINUS =>
        ⟨(((i.val % L + (L - 1)) % L) + L * (i.val / L % L)) % N, Nat.mod_lt _ hN⟩
      | NeighDir.YPLUS => ⟨((i.val % L) + L * ((i.val / L + 1) % L)) % N, Nat.mod_lt _ hN⟩
      | NeighDir.YMINUS =>
        ⟨((i.val % L) + L * ((i.val / L + (L - 1)) % L)) % N, Nat.mod_lt _ hN⟩,
    timeNeigh := fun dir k =>
      match dir with
      | ChainDir.PLUS => if k = m then 1 else k + 1
      | ChainDir.MINUS => if k = 1 then m else k - 1 }

/-- Hopping constants with `cosh = 5/4`, `sinh = 3/4` for all bonds; the precalculated
matrices of the branch `weakZflux` are set to the identity. -/
def rationalHopping (N : ℕ) : HoppingData N ℚ :=
  { coshHopHor := fun _ => 5 / 4, sinhHopHor := fun _ => 3 / 4,
    coshHopVer := fun _ => 5 / 4, sinhHopVer := fun _ => 3 / 4,
    coshHopHorHalf := fun _ => 5 / 4, sinhHopHorHalf := fun _ => 3 / 4,
    coshHopVerHalf := fun _ => 5 / 4, sinhHopVerHalf := fun _ => 3 / 4,
    expHop4Site_minus := fun _ _ _ => 1, expHop4Site_minusHalf := fun _ _ _ => 1,
    expHop4Site_plus := fun _ _ _ => 1, expHop4Site_plusHalf := fun _ _ _ => 1 }

/-- Parameters of a lattice of `2 x 2` sites with two time slices. -/
def fourSiteParams : ModelParamsSDW ℚ :=
  { oneSiteParams with L := 2, N := 4, m := 2 }

/-! ### The bosonic action (detsdwopdim.cpp 4185-4299) -/

/-- The neighbours that `spaceNeigh.beginNeighbors(site)` to `endNeighbors(site)` run
through: the `z = 2 d = 4` neighbours of the site on the square lattice. -/
def spaceNeighbors {N : ℕ} (lat : Lattice N) (site : Fin N) : List (Fin N) :=
  [lat.spaceNeigh NeighDir.XPLUS site, lat.spaceNeigh NeighDir.XMINUS site,
   lat.spaceNeigh NeighDir.YPLUS site, lat.spaceNeigh NeighDir.YMINUS site]

/-- `DetSDW::deltaSPhi(site, timeslice, newphi)` (detsdwopdim.cpp 4185-4239). -/
def deltaSPhi {K : Type} [Field K] (o : OpDim) {N : ℕ} (lat : Lattice N)
    (pars : ModelParamsSDW K) (fc : FieldConfig K) (site : Fin N) (timeslice : ℕ)
    (newphi : Phi o.dim K) : K :=
  let dtau := pars.dtau
  let r := pars.r
  let u := pars.u
  let c := pars.c
  let z : K := ((umul pars.d 2 : ℕ) : K)
  let oldphi := getPhi o.dim fc site.val timeslice
  let phiDiff : Phi o.dim K := fun d => newphi d - oldphi d
  let oldphiSq := dot oldphi oldphi
  let newphiSq := dot newphi newphi
  let phiSqDiff := newphiSq - oldphiSq
  if pars.phi2bosons then
    dtau * (1 / 2) * r * phiSqDiff
  else
    let oldphiPow4 := oldphiSq * oldphiSq
    let newphiPow4 := newphiSq * newphiSq
    let phiPow4Diff := newphiPow4 - oldphiPow4
    let kEarlier := lat.timeNeigh ChainDir.MINUS timeslice
    let phiEarlier := getPhi o.dim fc site.val kEarlier
    let kLater := lat.timeNeigh ChainDir.PLUS timeslice
    let phiLater := getPhi o.dim fc site.val kLater
    let phiTimeNeigh : Phi o.dim K := fun d => phiLater d + phiEarlier d
    let phiSpaceNeigh : Phi o.dim K :=
      (spaceNeighbors lat site).foldl
        (fun accum neighSite d => accum d + getPhi o.dim fc neighSite.val timeslice d)
        (fun _ => 0)
    let delta1 := (1 / (c * c * dtau)) * (phiSqDiff - dot phiTimeNeigh phiDiff)
    let delta2 := (1 / 2) * dtau * (z * phiSqDiff - 2 * dot phiSpaceNeigh phiDiff)
    let delta3 := dtau * ((1 / 2) * r * phiSqDiff + (1 / 4) * u * phiPow4Diff)
    delta1 + delta2 + delta3

/-- The copy `phiCopy(site, timeslice)` made at the start of `phiAction`: the entries of
the slices `1, ..., m` are filled, reading another entry fails. -/
def phiCopy {K : Type} (OPDIM : ℕ) (pars : ModelParamsSDW K) (fc : FieldConfig K)
    (site timeslice : ℕ) : Option (Phi OPDIM K) :=
  if 1 ≤ timeslice ∧ timeslice ≤ pars.m then some (getPhi OPDIM fc site timeslice) else none

/-- Body of the loops of `DetSDW::phiAction` (detsdwopdim.cpp 4259-4296) for one time
slice and one site: the contributions added to `action`. -/
def phiActionSite {K : Type} [Field K] (o : OpDim) {N : ℕ} (lat : Lattice N)
    (pars : ModelParamsSDW K) (fc : FieldConfig K) (timeslice : ℕ) (action : K) (site : ℕ) :
    Option K :=
  if h : site < N then
    (phiCopy o.dim pars fc site timeslice).bind fun here =>
    ((if ¬ pars.phi2bosons then
        (phiCopy o.dim pars fc site (lat.timeNeigh ChainDir.MINUS timeslice)).bind
          fun earlier =>
        (phiCopy o.dim pars fc (lat.spaceNeigh NeighDir.XPLUS ⟨site, h⟩).val timeslice).bind
          fun xneigh =>
        (phiCopy o.dim pars fc (lat.spaceNeigh NeighDir.YPLUS ⟨site, h⟩).val timeslice).bind
          fun yneigh =>
          let timeDerivative : Phi o.dim K := fun d => (here d - earlier d) / pars.dtau
          let action := action
            + (pars.dtau / (2 * pars.c * pars.c)) * dot timeDerivative timeDerivative
          let xneighDiff : Phi o.dim K := fun d => here d - xneigh d
          let action := action + (1 / 2) * pars.dtau * dot xneighDiff xneighDiff
          let yneighDiff : Phi o.dim K := fun d => here d - yneigh d
          some (action + (1 / 2) * pars.dtau * dot yneighDiff yneighDiff)
      else some action) : Option K).bind fun action =>
      let phisq := dot here here
      let action := action + (1 / 2) * pars.dtau * pars.r * phisq
      if ¬ pars.phi2bosons then some (action + (1 / 4) * pars.dtau * pars.u * phisq ^ 2)
      else some action
  else none

/-- `DetSDW::phiAction()` (detsdwopdim.cpp 4242-4299): the loop over the time slices
`1, ..., m` is a `uint32_t` loop with fuel, the loop over the sites runs through
`0, ..., N - 1`. -/
def phiAction {K : Type} [Field K] (o : OpDim) {N : ℕ} (lat : Lattice N)
    (pars : ModelParamsSDW K) (fc : FieldConfig K) (fuel : ℕ) : Option K :=
  forLoop (fun timeslice => decide (timeslice ≤ pars.m)) (fun timeslice => uadd timeslice 1)
    (fun timeslice action =>
      (List.range N).foldlM (phiActionSite o lat pars fc timeslice) action)
    fuel 1 0

/-- The lattice is periodic with at least two sites per direction and at least two time
slices: the neighbours in the directions `PLUS` and `MINUS` are inverse to each other, no
site or slice is its own neighbour, and the neighbours of the slices `1, ..., m` are
among these slices. -/
def LatticePeriodic {N : ℕ} (lat : Lattice N) (m : ℕ) : Prop :=
  (∀ i, lat.spaceNeigh NeighDir.XMINUS (lat.spaceNeigh NeighDir.XPLUS i) = i) ∧
  (∀ i, lat.spaceNeigh NeighDir.XPLUS (lat.spaceNeigh NeighDir.XMINUS i) = i) ∧
  (∀ i, lat.spaceNeigh NeighDir.YMINUS (lat.spaceNeigh NeighDir.YPLUS i) = i) ∧
  (∀ i, lat.spaceNeigh NeighDir.YPLUS (lat.spaceNeigh NeighDir.YMINUS i) = i) ∧
  (∀ i, lat.spaceNeigh NeighDir.XPLUS i ≠ i) ∧
  (∀ i, lat.spaceNeigh NeighDir.YPLUS i ≠ i) ∧
  (∀ t, 1 ≤ t → t ≤ m →
    (1 ≤ lat.timeNeigh ChainDir.MINUS t ∧ lat.timeNeigh ChainDir.MINUS t ≤ m) ∧
    (1 ≤ lat.timeNeigh ChainDir.PLUS t ∧ lat.timeNeigh ChainDir.PLUS t ≤ m) ∧
    lat.timeNeigh ChainDir.PLUS (lat.timeNeigh ChainDir.MINUS t) = t ∧
    lat.timeNeigh ChainDir.MINUS (lat.timeNeigh ChainDir.PLUS t) = t ∧
    lat.timeNeigh ChainDir.MINUS t ≠ t)

/-- The contribution of one site and time slice to the action, as a closed expression
(the value that the body `phiActionSite` adds when all entries it reads are filled). -/
def actionTerm {K : Type} [Field K] (o : OpDim) {N : ℕ} (lat : Lattice N)
    (pars : ModelParamsSDW K) (fc : FieldConfig K) (timeslice : ℕ) (site : Fin N) : K :=
  let here := getPhi o.dim fc site.val timeslice
  let earlier := getPhi o.dim fc site.val (lat.timeNeigh ChainDir.MINUS timeslice)
  let xneigh := getPhi o.dim fc (lat.spaceNeigh NeighDir.XPLUS site).val timeslice
  let yneigh := getPhi o.dim fc (lat.spaceNeigh NeighDir.YPLUS site).val timeslice
  (if ¬ pars.phi2bosons then
      (pars.dtau / (2 * pars.c * pars.c))
          * dot (fun d => (here d - earlier d) / pars.dtau)
              (fun d => (here d - earlier d) / pars.dtau)
        + (1 / 2) * pars.dtau * dot (fun d => here d - xneigh d) (fun d => here d - xneigh d)
        + (1 / 2) * pars.dtau * dot (fun d => here d - yneigh d) (fun d => here d - yneigh d)
    else 0)
  + (1 / 2) * pars.dtau * pars.r * dot here here
  + (if ¬ pars.phi2bosons then (1 / 4) * pars.dtau * pars.u * dot here here ^ 2 else 0)

/-- The value of the action as a sum over the time slices `1, ..., m` and the sites. -/
def actionSum {K : Type} [Field K] (o : OpDim) {N : ℕ} (lat : Lattice N)
    (pars : ModelParamsSDW K) (fc : FieldConfig K) : K :=
  ∑ t ∈ Finset.Ico 1 (pars.m + 1), ∑ i : Fin N, actionTerm o lat pars fc t i

/-! ### The Wolff cluster (detsdwopdim.cpp 3803-3883) -/

/-- What `buildAndFlipCluster` takes from its surroundings.  The random number generator
is replaced by its outcomes: `rd` is the direction given by `randomDirection`,
`(seedSite, seedSlice)` the seed drawn with `randInt`, and `activate n` the outcome of
the `n`-th evaluation of `rng.rand01() <= (1. - exp(bond_arg))`. -/
structure ClusterEnv (o : OpDim) (N : ℕ) (K : Type) where
  pars : ModelParamsSDW K
  lm : Libm K
  lat : Lattice N
  rd : Phi o.dim K
  seedSite : Fin N
  seedSlice : ℕ
  activate : ℕ → Bool
  updateCoshSinh : Bool

/-- The variables of `buildAndFlipCluster`: the field, the marks `gmd.visited`, the stack
`gmd.next_sites` (top first), the number of random numbers drawn for the bonds, and
`cluster_size`. -/
structure ClusterState (N : ℕ) (K : Type) where
  fc : FieldConfig K
  visited : Finset (Fin N × ℕ)
  next_sites : List (Fin N × ℕ)
  draws : ℕ
  cluster_size : ℕ

/-- The lambda `flippedPhi`: `phi - 2 (phi . rd) rd`. -/
def flippedPhi {K : Type} [Field K] {OPDIM : ℕ} (rd : Phi OPDIM K) (fc : FieldConfig K)
    (site timeslice : ℕ) : Phi OPDIM K :=
  let phi := getPhi OPDIM fc site timeslice
  fun d => phi d - 2 * dot phi rd * rd d

/-- The lambda `projectedPhi`: `phi . rd`. -/
def projectedPhi {K : Type} [Field K] {OPDIM : ℕ} (rd : Phi OPDIM K) (fc : FieldConfig K)
    (site timeslice : ℕ) : K :=
  dot (getPhi OPDIM fc site timeslice) rd

/-- The lambda `flipPhi`: the field vector is replaced by `flippedPhi`, and the caches
are updated if `updateCoshSinh` is set. -/
def flipPhi {K : Type} [Field K] {o : OpDim} {N : ℕ} (env : ClusterEnv o N K)
    (site timeslice : ℕ) (fc : FieldConfig K) : FieldConfig K :=
  let fc2 := setPhi o.dim site timeslice (flippedPhi env.rd fc site timeslice) fc
  if env.updateCoshSinh then updateCoshSinhTermsPhi o.dim env.lm env.pars site timeslice fc2
  else fc2

/-- The test of one bond from `here` to the neighbour `neigh` in the loops of
`buildAndFlipCluster` (detsdwopdim.cpp 3848-3859, 3863-3874); `factor` is `2 dtau` for
a neighbour in space and `2 / dtau` for a neighbour in time. -/
def tryBond {K : Type} [LinearOrderedField K] {o : OpDim} {N : ℕ} (env : ClusterEnv o N K)
    (factor : K) (here : Fin N × ℕ) (st : ClusterState N K) (neigh : Fin N × ℕ) :
    ClusterState N K :=
  if neigh ∉ st.visited then
    let bond_arg := factor * projectedPhi env.rd st.fc here.1.val here.2
      * projectedPhi env.rd st.fc neigh.1.val neigh.2
    if bond_arg < 0 then
      if env.activate st.draws then
        { fc := flipPhi env neigh.1.val neigh.2 st.fc,
          visited := insert neigh st.visited,
          next_sites := neigh :: st.next_sites,
          draws := st.draws + 1,
          cluster_size := st.cluster_size + 1 }
      else { st with draws := st.draws + 1 }
    else st
  else st

/-- Body of the `do ... while` loop of `buildAndFlipCluster` after the top of the stack
has been taken off: the neighbours in space, then the neighbours in time. -/
def clusterStep {K : Type} [LinearOrderedField K] {o : OpDim} {N : ℕ}
    (env : ClusterEnv o N K) (here : Fin N × ℕ) (st : ClusterState N K) : ClusterState N K :=
  let st := (spaceNeighbors env.lat here.1).foldl
    (fun st neigh_site => tryBond env (2 * env.pars.dtau) here st (neigh_site, here.2)) st
  [env.lat.timeNeigh ChainDir.PLUS here.2, env.lat.timeNeigh ChainDir.MINUS here.2].foldl
    (fun st neigh_time => tryBond env (2 / env.pars.dtau) here st (here.1, neigh_time)) st

/-- The loop `do ... while (not gmd.next_sites.empty())` of `buildAndFlipCluster`;
`none` if the fuel runs out or the stack is empty at the start of the body. -/
def clusterLoop {K : Type} [LinearOrderedField K] {o : OpDim} {N : ℕ}
    (env : ClusterEnv o N K) : ℕ → ClusterState N K → Option (ClusterState N K)
  | 0, _ => none
  | fuel + 1, st =>
    match st.next_sites with
    | [] => none
    | here :: rest =>
      let st2 := clusterStep env here { st with next_sites := rest }
      if st2.next_sites.isEmpty then some st2 else clusterLoop env fuel st2

/-- `DetSDW::buildAndFlipCluster(updateCoshSinh)` (detsdwopdim.cpp 3803-3883): returns
`cluster_size` and leaves the field with the cluster flipped. -/
def buildAndFlipCluster {K : Type} [LinearOrderedField K] {o : OpDim} {N : ℕ}
    (env : ClusterEnv o N K) (fc : FieldConfig K) (fuel : ℕ) : Option (ℕ × FieldConfig K) :=
  (clusterLoop env fuel
    { fc := flipPhi env env.seedSite.val env.seedSlice fc,
      visited := {(env.seedSite, env.seedSlice)},
      next_sites := [(env.seedSite, env.seedSlice)],
      draws := 0,
      cluster_size := 1 }).map (fun st => (st.cluster_size, st.fc))

/-- The slots `(site, slice)` with a slice in `1, ..., m`. -/
def clusterDomain (N m : ℕ) : Finset (Fin N × ℕ) :=
  Finset.univ ×ˢ Finset.Icc 1 m

/-- Invariant of the loop of `buildAndFlipCluster` relative to the field `fc0` before
the call: the norms of the field vectors are those of `fc0`, the marked slots and the
stacked slots have slices in `1, ..., m`. -/
def ClusterInv {K : Type} [LinearOrderedField K] (o : OpDim) {N : ℕ} (m : ℕ)
    (fc0 : FieldConfig K) (st : ClusterState N K) : Prop :=
  (∀ i t, dot (getPhi o.dim st.fc i t) (getPhi o.dim st.fc i t)
    = dot (getPhi o.dim fc0 i t) (getPhi o.dim fc0 i t)) ∧
  st.visited ⊆ clusterDomain N m ∧
  (∀ p ∈ st.next_sites, p ∈ clusterDomain N m)

/-- The number of loop passes that can still follow: the slots on the stack and the
slots that are not marked. -/
def clusterMeasure {K : Type} {N : ℕ} (m : ℕ) (st : ClusterState N K) : ℕ :=
  st.next_sites.length + (N * m - st.visited.card)

/-- The constant field `phi = 1` (only the vectors matter for the bosonic action; the
caches are not filled). -/
def onesField : FieldConfig ℚ :=
  { phi := fun _ _ _ => 1, cdwl := fun _ _ => 1,
    coshTermPhi := fun _ _ => 1, sinhTermPhi := fun _ _ => 0,
    coshTermCDWl := fun _ _ => 1, sinhTermCDWl := fun _ _ => 0 }

/-- Surroundings of `buildAndFlipCluster` for `OPDIM = 1` on the periodic lattice of
`2 x 2` sites with two time slices: direction `rd = 1`, seed `(0, 1)`, no bond is
activated. -/
def noBondEnv : ClusterEnv OpDim.one 4 ℚ :=
  { pars := fourSiteParams, lm := rationalLibm, lat := squareLattice 2 2 4 (by decide),
    rd := fun _ => 1, seedSite := 0, seedSlice := 1, activate := fun _ => false,
    updateCoshSinh := false }

/-- The same surroundings with every tested bond activated and `phi2bosons` set. -/
def allBondEnv : ClusterEnv OpDim.one 4 ℚ :=
  { pars := { fourSiteParams with phi2bosons := true }, lm := rationalLibm,
    lat := squareLattice 2 2 4 (by decide),
    rd := fun _ => 1, seedSite := 0, seedSlice := 1, activate := fun _ => true,
    updateCoshSinh := false }
/-! ### The sweep drivers (detmodel.h 386-407, 1044-1113; detsdwopdim.cpp 4366-4503) -/

/-- The members of a replica right after the constructor `DetModelGC::DetModelGC`
(detmodel.h 386-407): the Green functions are zero matrices, `currentTimeslice` is
value-initialised, the storage vectors are empty and `lastSweepDir` is `Up`; `ext` is the
state of the derived class. -/
def DetModelGC.construct (sz : ℕ) (K : Type) [Field K] {σ : Type} (ext : σ) :
    DetModelGC sz K σ :=
  { green := fun _ => 0,
    currentTimeslice := 0,
    UdVStorage := fun _ => [],
    lastSweepDir := SweepDirection.Up,
    ext := ext,
    calls := [] }

/-- The callables that `sweepThermalization_skeleton` hands to the sweeps: the slice
update `updateInSliceThermalization` and `VoidNoOp()` for the three measurement hooks. -/
def thermalizationCallables {sz : ℕ} {K σ : Type} (c : Callables sz K σ)
    (updateInSliceThermalization : ℕ → (ℕ → MatV sz K) × σ → (ℕ → MatV sz K) × σ) :
    Callables sz K σ :=
  { c with
    updateInSlice := updateInSliceThermalization,
    initMeasurement := fun x => x,
    measure := fun _ _ x => x,
    finishMeasurement := fun x => x }

/-- `DetModelGC::sweepThermalization_skeleton` (detmodel.h 1081-1113). -/
def sweepThermalization_skeleton {sz : ℕ} {K σ : Type} [Field K] (p : ModelConsts)
    (c : Callables sz K σ)
    (updateInSliceThermalization : ℕ → (ℕ → MatV sz K) × σ → (ℕ → MatV sz K) × σ)
    (fuel : ℕ) (st : DetModelGC sz K σ) : Option (DetModelGC sz K σ) :=
  if st.lastSweepDir = SweepDirection.Up then do
    let st ← sweepDown p (thermalizationCallables c updateInSliceThermalization) false fuel st
    pure { st with lastSweepDir := SweepDirection.Down }
  else if st.lastSweepDir = SweepDirection.Down then do
    let st ← sweepUp p (thermalizationCallables c updateInSliceThermalization) false fuel st
    let st := { st with lastSweepDir := SweepDirection.Up }
    pure (callGlobalUpdate c st)
  else some st

/-- One call of a sweep driver by the simulation: `sweep_skeleton(takeMeasurements, ...)`
or `sweepThermalization_skeleton(...)`. -/
inductive SweepCall where
  | sweep (takeMeasurements : Bool)
  | thermalization
  deriving DecidableEq, Repr

/-- Whether a driver call takes measurements. -/
def SweepCall.takeMeasurements : SweepCall → Bool
  | SweepCall.sweep tm => tm
  | SweepCall.thermalization => false

/-- One driver call on a replica. -/
def runSweep {sz : ℕ} {K σ : Type} [Field K] (p : ModelConsts) (c : Callables sz K σ)
    (updateInSliceThermalization : ℕ → (ℕ → MatV sz K) × σ → (ℕ → MatV sz K) × σ)
    (fuel : ℕ) (call : SweepCall) (st : DetModelGC sz K σ) : Option (DetModelGC sz K σ) :=
  match call with
  | SweepCall.sweep tm => sweep_skeleton p c tm fuel st
  | SweepCall.thermalization =>
    sweepThermalization_skeleton p c updateInSliceThermalization fuel st

/-- A sequence of driver calls, one after the other. -/
def runSweeps {sz : ℕ} {K σ : Type} [Field K] (p : ModelConsts) (c : Callables sz K σ)
    (updateInSliceThermalization : ℕ → (ℕ → MatV sz K) × σ → (ℕ → MatV sz K) × σ)
    (fuel : ℕ) (calls : List SweepCall) (st : DetModelGC sz K σ) :
    Option (DetModelGC sz K σ) :=
  calls.foldlM (fun st call => runSweep p c updateInSliceThermalization fuel call st) st

/-- The sweep directions `Down, Up, Down, ...` of the first `j` sweeps. -/
def alternatingDirs (j : ℕ) : List SweepDirection :=
  (List.range j).map
    (fun i => if i % 2 = 0 then SweepDirection.Down else SweepDirection.Up)

/-- The other sweep direction. -/
def SweepDirection.other : SweepDirection → SweepDirection
  | SweepDirection.Up => SweepDirection.Down
  | SweepDirection.Down => SweepDirection.Up

/-- The directions of the first `j` sweeps that follow a sweep in the direction `d`. -/
def dirsAfter (d : SweepDirection) (j : ℕ) : List SweepDirection :=
  (List.range j).map (fun i => if i % 2 = 0 then d.other else d)

/-- The global updater leaves the replica ready for the next down sweep: called after
an up sweep, on slice `m` and with complete storage vectors, it keeps the direction
flag, the current slice and the lengths of the storage vectors (`DetSDW::globalMove`
restores its backups or rebuilds the storage, which ends on slice `m` with the flag
`Up`). -/
def GlobalUpdateKeeps {sz : ℕ} {K σ : Type} (p : ModelConsts) (c : Callables sz K σ) : Prop :=
  ∀ st : DetModelGC sz K σ, st.lastSweepDir = SweepDirection.Up → st.currentTimeslice = p.m →
    (∀ g, (st.UdVStorage g).length = p.n + 1) →
    (c.globalUpdate st).lastSweepDir = SweepDirection.Up ∧
    (c.globalUpdate st).currentTimeslice = p.m ∧
    ∀ g, ((c.globalUpdate st).UdVStorage g).length = p.n + 1

/-- The slices of a sweep in the direction `dir`, in the order of the slice updates. -/
def slicesOf (m : ℕ) : SweepDirection → List ℕ
  | SweepDirection.Down => slicesDown m 0
  | SweepDirection.Up => slicesUp 0 m

/-- Invariant between two driver calls: after an up sweep (and after the set-up) the
Green function belongs to slice `m`, after a down sweep to slice `0`, and every storage
vector has `n + 1` entries. -/
def BetweenSweeps {sz : ℕ} {K σ : Type} (p : ModelConsts) (st : DetModelGC sz K σ) : Prop :=
  (st.lastSweepDir = SweepDirection.Up → st.currentTimeslice = p.m) ∧
  (st.lastSweepDir = SweepDirection.Down → st.currentTimeslice = 0) ∧
  ∀ g, (st.UdVStorage g).length = p.n + 1

/-- The slice loop of `DetSDW::sweepSimple` and `DetSDW::sweepSimpleThermalization` in
the branch `pars.turnoffFermions` (detsdwopdim.cpp 4381-4394, 4411-4416): the slices
`1, ..., m` are updated without Green function updates. -/
def DetSDW.sweepSimple {sz : ℕ} {K σ : Type} (p : ModelConsts) (c : Callables sz K σ)
    (takeMeasurements : Bool) (fuel : ℕ) (st : DetModelGC sz K σ) :
    Option (DetModelGC sz K σ) := do
  let st := if takeMeasurements then callInitMeasurement c st else st
  let st ← forLoop (fun timeslice => decide (timeslice ≤ p.m)) (fun timeslice => uadd timeslice 1)
    (fun timeslice st =>
      let r := c.updateInSlice timeslice (st.green, st.ext)
      let st := { st with green := r.1, ext := r.2,
                          calls := st.calls ++ [Call.updateInSlice timeslice] }
      if takeMeasurements then
        some { st with ext := c.measure timeslice st.green st.ext,
                       calls := st.calls ++ [Call.measure timeslice] }
      else some st)
    fuel 1 st
  pure (if takeMeasurements then callFinishMeasurement c st else st)

/-- The calls made by one simple sweep without fermions: as `sweepTrace` for the slices
`1, ..., m`, without the consistency check. -/
def simpleSweepTrace (takeMeasurements : Bool) (m : ℕ) : List Call :=
  (if takeMeasurements then [Call.initMeasurement] else [])
    ++ sliceTrace takeMeasurements (slicesUp 0 m)
    ++ (if takeMeasurements then [Call.finishMeasurement] else [])

/-- `DetSDW::sweep(takeMeasurements)` (detsdwopdim.cpp 4422-4470): with fermions the
skeleton of `DetModelGC` with `globalMove()` as the global updater, without fermions
the simple sweep, preceded by `globalMove()` if the last sweep went up; `countSweep` is
`++performedSweeps` on the state of the derived class. -/
def DetSDW.sweep {sz : ℕ} {K σ : Type} [Field K] (turnoffFermions : Bool) (p : ModelConsts)
    (c : Callables sz K σ) (countSweep : σ → σ) (takeMeasurements : Bool) (fuel : ℕ)
    (st : DetModelGC sz K σ) : Option (DetModelGC sz K σ) :=
  if ¬ turnoffFermions then do
    let st ← sweep_skeleton p c takeMeasurements fuel st
    pure { st with ext := countSweep st.ext }
  else if st.lastSweepDir = SweepDirection.Up then do
    let st := callGlobalUpdate c st
    let st ← DetSDW.sweepSimple p c takeMeasurements fuel st
    let st := { st with ext := countSweep st.ext }
    pure { st with lastSweepDir := SweepDirection.Down }
  else do
    let st ← DetSDW.sweepSimple p c takeMeasurements fuel st
    let st := { st with ext := countSweep st.ext }
    pure { st with lastSweepDir := SweepDirection.Up }

/-- The effect of the measurement hooks of `DetSDW` on the set
`timeslices_included_in_measurement`, replayed over a trace of calls:
`initMeasurements` clears the set (detsdwopdim.cpp 444), `measure(timeslice)` inserts
the slice (detsdwopdim.cpp 522), no other call touches it. -/
def timeslicesAfter (calls : List Call) (ts : Finset ℕ) : Finset ℕ :=
  calls.foldl
    (fun ts call =>
      match call with
      | Call.initMeasurement => ∅
      | Call.measure k => insert k ts
      | _ => ts)
    ts

/-- The callables act on the set `timeslices_included_in_measurement` (the component
`ts` of the state of the derived class) as those of `DetSDW` do: `initMeasurement`
clears it, `measure(k)` inserts `k`, the slice update leaves it as it is. -/
def MeasurementHooks {sz : ℕ} {K σ : Type} (c : Callables sz K σ) (ts : σ → Finset ℕ) :
    Prop :=
  (∀ x, ts (c.initMeasurement x) = ∅) ∧
  (∀ k g x, ts (c.measure k g x) = insert k (ts x)) ∧
  (∀ k gx, ts (c.updateInSlice k gx).2 = ts gx.2)

/-- The replica `st` has been reached from `st0` by calls that are recorded in the trace,
and the set `timeslices_included_in_measurement` has followed these calls. -/
def TracksTimeslices {sz : ℕ} {K σ : Type} (ts : σ → Finset ℕ)
    (st0 st : DetModelGC sz K σ) : Prop :=
  ∃ tr, st.calls = st0.calls ++ tr ∧ ts st.ext = timeslicesAfter tr (ts st0.ext)

/-- The condition of the assertion at the start of `DetSDW::finishMeasurements`
(detsdwopdim.cpp 910): `timeslices_included_in_measurement.size() == m`. -/
def finishMeasurements_assertion (m : ℕ) (timeslices_included_in_measurement : Finset ℕ) :
    Prop :=
  timeslices_included_in_measurement.card = m

/-- The callables keep a record of their own invocations in the state of the derived
class (the component `log`): each of the measurement hooks, the slice update and the
consistency check appends its own entry, and nothing else, to the record.  The record
is part of the program state; what it holds after a sweep are the calls that have
really been made. -/
def RecordsCalls {sz : ℕ} {K σ : Type} (c : Callables sz K σ) (log : σ → List Call) :
    Prop :=
  (∀ x, log (c.initMeasurement x) = log x ++ [Call.initMeasurement]) ∧
  (∀ k g x, log (c.measure k g x) = log x ++ [Call.measure k]) ∧
  (∀ k gx, log (c.updateInSlice k gx).2 = log gx.2 ++ [Call.updateInSlice k]) ∧
  (∀ x, log (c.finishMeasurement x) = log x ++ [Call.finishMeasurement]) ∧
  (∀ x, log (c.consistencyCheck x) = log x ++ [Call.consistencyCheck])

/-- The replica `st` has been reached from `st0` by calls that the callables have
recorded in the state of the derived class, in step with the trace. -/
def TracksCalls {sz : ℕ} {K σ : Type} (log : σ → List Call)
    (st0 st : DetModelGC sz K σ) : Prop :=
  ∃ tr, st.calls = st0.calls ++ tr ∧ log st.ext = log st0.ext ++ tr
/-- Callables on one by one rational matrices as `scalarCallables`; the state of the
derived class is the set `timeslices_included_in_measurement` together with a record
of the invocations: every hook, the slice update and the consistency check append
their own entry to the record. -/
def recordingCallables (b : ℚ) : Callables 1 ℚ (Finset ℕ × List Call) :=
  { udvDecompose := fun X => ⟨X, fun _ => 1, 1⟩,
    leftMultiplyBmat := fun _ _ A k2 k1 => b ^ (k2 - k1) • A,
    rightMultiplyBmat := fun _ _ A k2 k1 => b ^ (k2 - k1) • A,
    leftMultiplyBmatInv := fun _ _ A k2 k1 => (b⁻¹) ^ (k2 - k1) • A,
    rightMultiplyBmatInv := fun _ _ A k2 k1 => (b⁻¹) ^ (k2 - k1) • A,
    updateInSlice := fun k x => (x.1, (x.2.1, x.2.2 ++ [Call.updateInSlice k])),
    initMeasurement := fun x => (∅, x.2 ++ [Call.initMeasurement]),
    measure := fun k _ x => (insert k x.1, x.2 ++ [Call.measure k]),
    finishMeasurement := fun x => (x.1, x.2 ++ [Call.finishMeasurement]),
    consistencyCheck := fun x => (x.1, x.2 ++ [Call.consistencyCheck]),
    globalUpdate := fun st => st }

/-- A replica for `recordingCallables` on time slice `ts` with `len` identity triples in
every storage, the set `s` and an empty record. -/
def recordingState (ts len : ℕ) (s : Finset ℕ) : DetModelGC 1 ℚ (Finset ℕ × List Call) :=
  { green := fun _ => 1,
    currentTimeslice := ts,
    UdVStorage := fun _ => List.replicate len (eye_UdV 1 ℚ),
    lastSweepDir := SweepDirection.Up,
    ext := (s, []),
    calls := [] }

/-! ## Arithmetic of the type `num = double` (IEEE 754 binary64)

The functions below are used where a property depends on the rounding of the
floating-point operations: the numbers are the elements of `K` that the type can
hold, and every operation returns the rounded exact result. -/

/-- Rounding to the nearest integer, a tie to the even neighbour. -/
def roundNearestEven {K : Type} [LinearOrderedField K] [FloorRing K] (x : K) : ℤ :=
  if x - ⌊x⌋ < 1 / 2 then ⌊x⌋
  else if 1 / 2 < x - ⌊x⌋ then ⌊x⌋ + 1
  else if ⌊x⌋ % 2 = 0 then ⌊x⌋ else ⌊x⌋ + 1

/-- The exponent `e` of the spacing `2^e` of the doubles next to `x`: 53 binary digits
in the normal range (`2^(e+52) ≤ |x| < 2^(e+53)`), `2^(-1074)` in the subnormal range. -/
def ulpExponent {K : Type} [LinearOrderedField K] [FloorRing K] (x : K) : ℤ :=
  max (Int.log 2 |x| - 52) (-1074)

/-- The double nearest to `x` (round to nearest, ties to even), the result of every
arithmetic operation of the type on the exact result `x`; `2^1024` and `-2^1024` stand
for the two infinities. -/
def roundDouble {K : Type} [LinearOrderedField K] [FloorRing K] (x : K) : K :=
  let r : K := (roundNearestEven (x / 2 ^ ulpExponent x) : K) * 2 ^ ulpExponent x
  if 2 ^ 1024 ≤ |r| then (if 0 ≤ r then 2 ^ 1024 else -2 ^ 1024) else r

/-- The conversion `uint32_t(x)` of a double as compiled for x86-64: the value is
truncated towards zero to a signed 64 bit integer (`cvttsd2si`; out of range: the
pattern `0x8000000000000000`) and the low 32 bits are kept.  For `0 ≤ x < 2^32` this is
the integer part of `x`, the only case in which the language defines the conversion. -/
def doubleToUInt32 {K : Type} [LinearOrderedField K] [FloorRing K] (x : K) : ℕ :=
  let t : ℤ := if 0 ≤ x then ⌊x⌋ else ⌈x⌉
  if -9223372036854775808 ≤ t ∧ t < 9223372036854775808 then (t % 4294967296).toNat else 0

/-- The floating-point operations that the parameter computations use: `round` gives
the result of an operation of the type `double` from its exact result, `toUInt32` is
the conversion `uint32_t(x)`. -/
structure DoubleArith (K : Type) where
  round : K → K
  toUInt32 : K → ℕ

/-- The arithmetic of IEEE 754 binary64 in the default rounding mode, with the
conversion to `uint32_t` of x86-64. -/
def binary64 {K : Type} [LinearOrderedField K] [FloorRing K] : DoubleArith K :=
  { round := roundDouble, toUInt32 := doubleToUInt32 }
/-! ### `updateTemperatureParameters` (detmodel.cpp 23-100) -/

/-- The entries of `ModelParams` (detmodelparams.h) that `updateTemperatureParameters`
reads or writes, and the set `specified` of the names of the parameters that were given. -/
structure ModelParams (K : Type) where
  beta : K
  m : ℕ
  dtau : K
  s : ℕ
  specified : Finset String

/-- What ends a call other than a normal return: the exceptions `ParameterMissing` and
`ParameterWrong` (declared in `exceptions.h`, which is not part of the sources; of their
payload the name of the parameter resp. the constant part of the message is kept), and
undefined behaviour of the integer arithmetic: `%` or `/` with the divisor zero. -/
inductive ParamFailure where
  | ParameterMissing (par : String)
  | ParameterWrong (what : String)
  | UndefinedDivision
  deriving DecidableEq, Repr

/-- The final test `pars.m % pars.s != 0 or pars.m / pars.s < 2` of
`updateTemperatureParameters` (detmodel.cpp 94-97). -/
def checkStabilization {K : Type} (pars : ModelParams K) :
    Except ParamFailure (ModelParams K) :=
  if pars.s = 0 then Except.error ParamFailure.UndefinedDivision
  else if pars.m % pars.s ≠ 0 ∨ pars.m / pars.s < 2 then
    Except.error (ParamFailure.ParameterWrong "Parameters m and s do not agree")
  else Except.ok pars

/-- `updateTemperatureParameters` (detmodel.cpp 23-100): the loop over the needed
parameters `dtau`, `s`; the four `CHECK_POSITIVE` tests; the tests for exactly one of
`beta` and `m`; the computation of `beta` resp. of `m` and `beta`; the final test.
The quotient `pars.beta / pars.dtau` and the products `pars.m * pars.dtau` are
operations of the type `double`: `da.round` of the exact result (the conversion of
`pars.m` to `double` is exact); `uint32_t(...)` is `da.toUInt32`. -/
def updateTemperatureParameters {K : Type} [LinearOrderedField K] (da : DoubleArith K)
    (pars : ModelParams K) : Except ParamFailure (ModelParams K) :=
  if "dtau" ∉ pars.specified then Except.error (ParamFailure.ParameterMissing "dtau")
  else if "s" ∉ pars.specified then Except.error (ParamFailure.ParameterMissing "s")
  else if "beta" ∈ pars.specified ∧ pars.beta ≤ 0 then
    Except.error (ParamFailure.ParameterWrong "beta")
  else if "m" ∈ pars.specified ∧ pars.m ≤ 0 then
    Except.error (ParamFailure.ParameterWrong "m")
  else if "s" ∈ pars.specified ∧ pars.s ≤ 0 then
    Except.error (ParamFailure.ParameterWrong "s")
  else if "dtau" ∈ pars.specified ∧ pars.dtau ≤ 0 then
    Except.error (ParamFailure.ParameterWrong "dtau")
  else if "beta" ∈ pars.specified ∧ "m" ∈ pars.specified then
    Except.error
      (ParamFailure.ParameterWrong "Only specify one of the parameters beta and dtau")
  else if "m" ∉ pars.specified ∧ "beta" ∉ pars.specified then
    Except.error (ParamFailure.ParameterWrong "Specify either parameter m or beta")
  else if "m" ∈ pars.specified then
    checkStabilization { pars with beta := da.round ((pars.m : K) * pars.dtau) }
  else if "beta" ∈ pars.specified then
    checkStabilization
      { pars with
        m := da.toUInt32 (da.round (pars.beta / pars.dtau)),
        beta := da.round ((da.toUInt32 (da.round (pars.beta / pars.dtau)) : K) * pars.dtau) }
  else checkStabilization pars
/-! ### Step size adjustment during thermalization (detsdwopdim.cpp 3293-3376) -/

/-- `enum SpinProposalMethod_Type`. -/
inductive SpinProposalMethod_Type where
  | BOX
  | ROTATE_THEN_SCALE
  | ROTATE_AND_SCALE
  deriving DecidableEq, Repr

/-- The local `enum { ADAPT_BOX, ADAPT_ROTATE, ADAPT_SCALE }` of
`updateInSliceThermalization`. -/
inductive AdaptingWhat where
  | ADAPT_BOX
  | ADAPT_ROTATE
  | ADAPT_SCALE
  deriving DecidableEq, Repr

/-- The constants of `AdjustmentData` that `updateInSliceThermalization` uses; their
values are set in a header that is not part of the sources. -/
structure AdjustmentConsts (K : Type) where
  AccRatioAdjustmentSamples : ℕ
  phiDeltaGrowFactor : K
  phiDeltaShrinkFactor : K
  MinAngleDelta : K
  MaxAngleDelta : K
  MinScaleDelta : K
  MaxScaleDelta : K

/-- The class `RunningAverage` (its header is not part of the sources): the three
methods used here, on a state type `RA`. -/
structure RunningAverageOps (RA K : Type) where
  addValue : K → RA → RA
  getSamplesAdded : RA → ℕ
  get : RA → K

/-- The members of `AdjustmentData ad` that `updateInSliceThermalization` reads or
writes. -/
structure AdjustmentData (RA K : Type) where
  phiDelta : K
  angleDelta : K
  scaleDelta : K
  curminAngleDelta : K
  curmaxAngleDelta : K
  curminScaleDelta : K
  curmaxScaleDelta : K
  targetAccRatioLocal_phi : K
  lastAccRatioLocal_phi : K
  accRatioLocal_box_RA : RA
  accRatioLocal_rotate_RA : RA
  accRatioLocal_scale_RA : RA

/-- The members of the replica seen by `updateInSliceThermalization`: the adjustment
data, the counter `performedSweeps` and the `rest` (field, Green function, ...). -/
structure ThermalizationState (RA K S : Type) where
  ad : AdjustmentData RA K
  performedSweeps : ℕ
  rest : S

/-- The choice of `adapting_what` (detsdwopdim.cpp 3299-3319); `none` stands for the
undefined `%` with the divisor zero. -/
def adaptingWhat {K : Type} (consts : AdjustmentConsts K)
    (spinProposalMethod : SpinProposalMethod_Type) (performedSweeps : ℕ) :
    Option AdaptingWhat :=
  match spinProposalMethod with
  | SpinProposalMethod_Type.BOX => some AdaptingWhat.ADAPT_BOX
  | SpinProposalMethod_Type.ROTATE_THEN_SCALE =>
    if performedSweeps % 2 = 0 then some AdaptingWhat.ADAPT_ROTATE
    else some AdaptingWhat.ADAPT_SCALE
  | SpinProposalMethod_Type.ROTATE_AND_SCALE =>
    if umul 2 consts.AccRatioAdjustmentSamples = 0 then none
    else if performedSweeps % umul 2 consts.AccRatioAdjustmentSamples
        < consts.AccRatioAdjustmentSamples then some AdaptingWhat.ADAPT_ROTATE
    else some AdaptingWhat.ADAPT_SCALE

/-- The running average `ra` selected by `adapting_what`. -/
def AdjustmentData.ra {RA K : Type} (ad : AdjustmentData RA K) : AdaptingWhat → RA
  | AdaptingWhat.ADAPT_BOX => ad.accRatioLocal_box_RA
  | AdaptingWhat.ADAPT_ROTATE => ad.accRatioLocal_rotate_RA
  | AdaptingWhat.ADAPT_SCALE => ad.accRatioLocal_scale_RA

/-- Assignment through the reference `ra`. -/
def AdjustmentData.setRa {RA K : Type} (ad : AdjustmentData RA K) (what : AdaptingWhat)
    (r : RA) : AdjustmentData RA K :=
  match what with
  | AdaptingWhat.ADAPT_BOX => { ad with accRatioLocal_box_RA := r }
  | AdaptingWhat.ADAPT_ROTATE => { ad with accRatioLocal_rotate_RA := r }
  | AdaptingWhat.ADAPT_SCALE => { ad with accRatioLocal_scale_RA := r }

/-- The `switch (adapting_what)` at an adjustment point (detsdwopdim.cpp 3333-3374) for
the averaged acceptance ratio `avgAccRatio`. -/
def adjustStepSize {RA K : Type} [LinearOrderedField K] (consts : AdjustmentConsts K)
    (adaptScaleVariance : Bool) (what : AdaptingWhat) (avgAccRatio : K)
    (ad : AdjustmentData RA K) : AdjustmentData RA K :=
  match what with
  | AdaptingWhat.ADAPT_BOX =>
    if avgAccRatio < ad.targetAccRatioLocal_phi then
      { ad with phiDelta := ad.phiDelta * consts.phiDeltaShrinkFactor }
    else if avgAccRatio > ad.targetAccRatioLocal_phi then
      { ad with phiDelta := ad.phiDelta * consts.phiDeltaGrowFactor }
    else ad
  | AdaptingWhat.ADAPT_ROTATE =>
    if avgAccRatio < ad.targetAccRatioLocal_phi ∧ ad.angleDelta < consts.MaxAngleDelta then
      { ad with curminAngleDelta := ad.angleDelta,
                angleDelta := ad.angleDelta + (ad.curmaxAngleDelta - ad.angleDelta) / 2 }
    else if avgAccRatio > ad.targetAccRatioLocal_phi
        ∧ ad.angleDelta > consts.MinAngleDelta then
      { ad with curmaxAngleDelta := ad.angleDelta,
                angleDelta := ad.angleDelta - (ad.angleDelta - ad.curminAngleDelta) / 2 }
    else ad
  | AdaptingWhat.ADAPT_SCALE =>
    if ¬ adaptScaleVariance then ad
    else if avgAccRatio > ad.targetAccRatioLocal_phi
        ∧ ad.scaleDelta < consts.MaxScaleDelta then
      { ad with curminScaleDelta := ad.scaleDelta,
                scaleDelta := ad.scaleDelta + (ad.curmaxScaleDelta - ad.scaleDelta) / 2 }
    else if avgAccRatio > ad.targetAccRatioLocal_phi
        ∧ ad.scaleDelta > consts.MinScaleDelta then
      { ad with curmaxScaleDelta := ad.scaleDelta,
                scaleDelta := ad.scaleDelta - (ad.scaleDelta - ad.curminScaleDelta) / 2 }
    else ad

/-- `DetSDW::updateInSliceThermalization(timeslice)` (detsdwopdim.cpp 3293-3376);
`updateInSlice` is the slice update of the replica, which leaves the acceptance ratio in
`ad.lastAccRatioLocal_phi`; `none` stands for the undefined `%` with the divisor zero. -/
def updateInSliceThermalization {RA K S : Type} [LinearOrderedField K]
    (ops : RunningAverageOps RA K) (consts : AdjustmentConsts K) (phiFixed : Bool)
    (spinProposalMethod : SpinProposalMethod_Type) (adaptScaleVariance : Bool)
    (updateInSlice : ℕ → ThermalizationState RA K S → ThermalizationState RA K S)
    (timeslice : ℕ) (st : ThermalizationState RA K S) :
    Option (ThermalizationState RA K S) :=
  let st := updateInSlice timeslice st
  if phiFixed then some st
  else
    (adaptingWhat consts spinProposalMethod st.performedSweeps).bind fun adapting_what =>
    let ad := st.ad.setRa adapting_what
      (ops.addValue st.ad.lastAccRatioLocal_phi (st.ad.ra adapting_what))
    if consts.AccRatioAdjustmentSamples = 0 then none
    else if ops.getSamplesAdded (ad.ra adapting_what) % 4294967296
        % consts.AccRatioAdjustmentSamples = 0 then
      let avgAccRatio := ops.get (ad.ra adapting_what)
      some { st with ad := adjustStepSize consts adaptScaleVariance adapting_what avgAccRatio ad }
    else some { st with ad := ad }
/-- A running average over all samples, kept as the number of samples and their sum. -/
def cumulativeAverage : RunningAverageOps (ℕ × ℚ) ℚ :=
  { addValue := fun v ra => (ra.1 + 1, ra.2 + v),
    getSamplesAdded := fun ra => ra.1,
    get := fun ra => ra.2 / ra.1 }

/-- Constants for the examples: an adjustment every 100 samples, the step size grows by
one twentieth or shrinks by one twentieth. -/
def exampleAdjustmentConsts : AdjustmentConsts ℚ :=
  { AccRatioAdjustmentSamples := 100,
    phiDeltaGrowFactor := 21 / 20,
    phiDeltaShrinkFactor := 19 / 20,
    MinAngleDelta := 0,
    MaxAngleDelta := 1,
    MinScaleDelta := 0,
    MaxScaleDelta := 1 }

/-- A replica during thermalization with the step size `phiDelta`, the target acceptance
ratio `1/2`, the acceptance ratio `acc` in the last 100 slice updates, of which 99 have
been added to the running average. -/
def exampleThermalizationState (phiDelta acc : ℚ) : ThermalizationState (ℕ × ℚ) ℚ Unit :=
  { ad :=
      { phiDelta := phiDelta, angleDelta := 0, scaleDelta := 0,
        curminAngleDelta := 0, curmaxAngleDelta := 1,
        curminScaleDelta := 0, curmaxScaleDelta := 1,
        targetAccRatioLocal_phi := 1 / 2, lastAccRatioLocal_phi := acc,
        accRatioLocal_box_RA := (99, 99 * acc),
        accRatioLocal_rotate_RA := (0, 0),
        accRatioLocal_scale_RA := (0, 0) },
    performedSweeps := 0,
    rest := () }
/-- A replica during thermalization with the proposal method `ROTATE_THEN_SCALE` after an
odd number of sweeps (scale moves were done last): `scaleDelta` with the search interval
`[0, 1]`, the target acceptance ratio `1/2`, the acceptance ratio `acc` in the last 100
slice updates, of which 99 have been added to the running average of the scale moves. -/
def exampleScaleState (scaleDelta acc : ℚ) : ThermalizationState (ℕ × ℚ) ℚ Unit :=
  { ad :=
      { phiDelta := 1 / 2, angleDelta := 0, scaleDelta := scaleDelta,
        curminAngleDelta := 0, curmaxAngleDelta := 1,
        curminScaleDelta := 0, curmaxScaleDelta := 1,
        targetAccRatioLocal_phi := 1 / 2, lastAccRatioLocal_phi := acc,
        accRatioLocal_box_RA := (0, 0),
        accRatioLocal_rotate_RA := (0, 0),
        accRatioLocal_scale_RA := (99, 99 * acc) },
    performedSweeps := 1,
    rest := () }
/-! ### Global moves (detsdwopdim.cpp 3460-3916) -/

/-- The members of `GlobalMoveData gmd` that hold the backups of a global move.  `U` is
the type of the UdV storage of the replica. -/
structure GlobalMoveData (o : OpDim) (N : ℕ) (K U : Type) where
  phi : ℕ → ℕ → ℕ → K
  coshTermPhi : ℕ → ℕ → K
  sinhTermPhi : ℕ → ℕ → K
  g : MatData o.MSF N K
  g_inv_sv : ℕ → K
  UdVStorage : U

/-- The counters of `UpdateStatistics us` for the global moves (declared in a header
that is not part of the sources; the counters are natural numbers here). -/
structure UpdateStatistics (K : Type) where
  attemptedGlobalShifts : ℕ
  acceptedGlobalShifts : ℕ
  attemptedWolffClusterUpdates : ℕ
  acceptedWolffClusterUpdates : ℕ
  addedWolffClusterSize : K
  attemptedWolffClusterShiftUpdates : ℕ
  acceptedWolffClusterShiftUpdates : ℕ

/-- The members of the replica that the global moves read or write: the field with its
caches, the Green function `g`, its singular values `g_inv_sv`, the UdV storage,
`currentTimeslice`, `lastSweepDir`, the backups and the statistics. -/
structure GlobalState (o : OpDim) (N : ℕ) (K U : Type) where
  fc : FieldConfig K
  g : MatData o.MSF N K
  g_inv_sv : ℕ → K
  UdVStorage : U
  currentTimeslice : ℕ
  lastSweepDir : SweepDirection
  gmd : GlobalMoveData o N K U
  us : UpdateStatistics K

/-- What one attempt of a global move takes from its surroundings.  The random number
generator is replaced by its outcomes: `randRange dim` is the displacement drawn for the
component `dim`, `rand01` the number drawn for the acceptance test, and `rd c`,
`seedSite c`, `seedSlice c`, `activate c` the outcomes used by the `c`-th call of
`buildAndFlipCluster`.  `setupGreen` stands for the recomputation of the Green function,
its singular values and the UdV storage from the field by the skeleton of `DetModelGC`
(the overload used here, which also fills the singular values, is not part of the
sources). -/
structure GlobalEnv (o : OpDim) (N : ℕ) (K U : Type) where
  pars : ModelParamsSDW K
  lm : Libm K
  log : K → K
  lat : Lattice N
  repeatWolffPerSweep : ℕ
  setupGreen : FieldConfig K → MatData o.MSF N K × (ℕ → K) × U
  randRange : Fin o.dim → K
  rand01 : K
  rd : ℕ → Phi o.dim K
  seedSite : ℕ → Fin N
  seedSlice : ℕ → ℕ
  activate : ℕ → ℕ → Bool

/-- The surroundings of the `c`-th call of `buildAndFlipCluster(updateCoshSinh)`. -/
def GlobalEnv.clusterEnv {o : OpDim} {N : ℕ} {K U : Type} (env : GlobalEnv o N K U)
    (c : ℕ) (updateCoshSinh : Bool) : ClusterEnv o N K :=
  { pars := env.pars, lm := env.lm, lat := env.lat, rd := env.rd c,
    seedSite := env.seedSite c, seedSlice := env.seedSlice c, activate := env.activate c,
    updateCoshSinh := updateCoshSinh }

/-- `DetSDW::globalMoveStoreBackups` (detsdwopdim.cpp 3885-3901): `phi` is copied; with
fermions the caches are copied and `g`, `g_inv_sv`, `UdVStorage` are swapped with the
backups. -/
def globalMoveStoreBackups {o : OpDim} {N : ℕ} {K U : Type} (pars : ModelParamsSDW K)
    (st : GlobalState o N K U) : GlobalState o N K U :=
  if ¬ pars.turnoffFermions then
    { st with
      gmd := { phi := st.fc.phi, coshTermPhi := st.fc.coshTermPhi,
               sinhTermPhi := st.fc.sinhTermPhi, g := st.g, g_inv_sv := st.g_inv_sv,
               UdVStorage := st.UdVStorage },
      g := st.gmd.g, g_inv_sv := st.gmd.g_inv_sv, UdVStorage := st.gmd.UdVStorage }
  else { st with gmd := { st.gmd with phi := st.fc.phi } }

/-- `DetSDW::globalMoveRestoreBackups` (detsdwopdim.cpp 3903-3916): `phi` is swapped with
its backup; with fermions the caches, `g`, `g_inv_sv` and `UdVStorage` are swapped too. -/
def globalMoveRestoreBackups {o : OpDim} {N : ℕ} {K U : Type} (pars : ModelParamsSDW K)
    (st : GlobalState o N K U) : GlobalState o N K U :=
  if ¬ pars.turnoffFermions then
    { st with
      fc := { st.fc with phi := st.gmd.phi, coshTermPhi := st.gmd.coshTermPhi,
                         sinhTermPhi := st.gmd.sinhTermPhi },
      g := st.gmd.g, g_inv_sv := st.gmd.g_inv_sv, UdVStorage := st.gmd.UdVStorage,
      gmd := { phi := st.fc.phi, coshTermPhi := st.fc.coshTermPhi,
               sinhTermPhi := st.fc.sinhTermPhi, g := st.g, g_inv_sv := st.g_inv_sv,
               UdVStorage := st.UdVStorage } }
  else
    { st with fc := { st.fc with phi := st.gmd.phi },
              gmd := { st.gmd with phi := st.fc.phi } }

/-- `DetSDW::setupUdVStorage_and_calculateGreen` (detsdwopdim.cpp 363-371): with fermions
the skeleton of `DetModelGC`, which ends on slice `m` with the flag `Up`; without fermions
`g.zeros()`. -/
def DetSDW.setupUdVStorage_and_calculateGreen {o : OpDim} {N : ℕ} {K U : Type} [Field K]
    (env : GlobalEnv o N K U) (st : GlobalState o N K U) : GlobalState o N K U :=
  if ¬ env.pars.turnoffFermions then
    let r := env.setupGreen st.fc
    { st with g := r.1, g_inv_sv := r.2.1, UdVStorage := r.2.2,
              currentTimeslice := env.pars.m, lastSweepDir := SweepDirection.Up }
  else { st with g := 0 }

/-- `DetSDW::addGlobalRandomDisplacement` (detsdwopdim.cpp 3754-3762): the displacement
`r` of the component is added to all entries `phi(site, dim, timeslice)` of the cube,
`site < N`, `dim < OPDIM`, `timeslice ≤ m`. -/
def addGlobalRandomDisplacement {K : Type} [Field K] (o : OpDim) (N m : ℕ)
    (r : Fin o.dim → K) (fc : FieldConfig K) : FieldConfig K :=
  { fc with
    phi := fun i d t =>
      if h : d < o.dim then (if i < N ∧ t ≤ m then fc.phi i d t + r ⟨d, h⟩ else fc.phi i d t)
      else fc.phi i d t }

/-- `DetSDW::updateCoshSinhTermsPhi()` without arguments (detsdwopdim.cpp 1174-1181): the
caches of all sites and of the slices `1, ..., m`; the loop over the slices is a
`uint32_t` loop with fuel. -/
def updateCoshSinhTermsPhiAll {K : Type} [Field K] (o : OpDim) (N : ℕ) (lm : Libm K)
    (pars : ModelParamsSDW K) (fuel : ℕ) (fc : FieldConfig K) : Option (FieldConfig K) :=
  forLoop (fun k => decide (k ≤ pars.m)) (fun k => uadd k 1)
    (fun k fc =>
      some ((List.range N).foldl
        (fun fc site => updateCoshSinhTermsPhi o.dim lm pars site k fc) fc))
    fuel 1 fc

/-- The probability `prob_fermion` of the global moves (detsdwopdim.cpp 3596-3615): the
exponential of the sum of `log(g_inv_sv[j]) - log(old_g_inv_sv[j])` over the
`MatrixSizeFactor * N` singular values, squared if `OPDIM < 3`. -/
def fermionProbability {K : Type} [Field K] (o : OpDim) (N : ℕ) (lm : Libm K) (log : K → K)
    (g_inv_sv old_g_inv_sv : ℕ → K) : K :=
  let count := umul o.MSF N
  let log_prob := (List.range count).foldl
    (fun log_prob j => log_prob + (log (g_inv_sv j) - log (old_g_inv_sv j))) 0
  let prob_fermion := lm.exp log_prob
  if o.dim < 3 then prob_fermion ^ 2 else prob_fermion

/-- The loop `for (c = 0; c < pars.repeatWolffPerSweep; ++c)` over the calls of
`buildAndFlipCluster(updateCoshSinh)`: the cluster sizes and the field after the flips. -/
def flipClusters {K : Type} [LinearOrderedField K] {o : OpDim} {N : ℕ} {U : Type}
    (env : GlobalEnv o N K U) (updateCoshSinh : Bool) (fuel : ℕ) (fc : FieldConfig K) :
    Option (List ℕ × FieldConfig K) :=
  (List.range env.repeatWolffPerSweep).foldlM
    (fun (acc : List ℕ × FieldConfig K) c =>
      (buildAndFlipCluster (env.clusterEnv c updateCoshSinh) acc.2 fuel).map
        (fun r => (acc.1 ++ [r.1], r.2)))
    ([], fc)

/-- `DetSDW::attemptGlobalShiftMove` (detsdwopdim.cpp 3564-3645); the assertion
`currentTimeslice == pars.m` fails otherwise. -/
def attemptGlobalShiftMove {K : Type} [LinearOrderedField K] {o : OpDim} {N : ℕ} {U : Type}
    (env : GlobalEnv o N K U) (fuel : ℕ) (st : GlobalState o N K U) :
    Option (GlobalState o N K U) := do
  let old_scalar_action ← phiAction o env.lat env.pars st.fc fuel
  if ¬ env.pars.turnoffFermions ∧ st.currentTimeslice ≠ env.pars.m then none
  let st := globalMoveStoreBackups env.pars st
  let old_g_inv_sv := st.gmd.g_inv_sv
  let st := { st with fc := addGlobalRandomDisplacement o N env.pars.m env.randRange st.fc }
  let st ←
    if ¬ env.pars.turnoffFermions then
      (updateCoshSinhTermsPhiAll o N env.lm env.pars fuel st.fc).map
        (fun fc => DetSDW.setupUdVStorage_and_calculateGreen env { st with fc := fc })
    else some st
  let new_scalar_action ← phiAction o env.lat env.pars st.fc fuel
  let prob_scalar := env.lm.exp (-(new_scalar_action - old_scalar_action))
  let prob_fermion :=
    if ¬ env.pars.turnoffFermions then
      fermionProbability o N env.lm env.log st.g_inv_sv old_g_inv_sv
    else 1
  let prob := prob_scalar * prob_fermion
  let st := { st with us := { st.us with
    attemptedGlobalShifts := st.us.attemptedGlobalShifts + 1 } }
  if 1 ≤ prob ∨ env.rand01 < prob then
    pure { st with us := { st.us with acceptedGlobalShifts := st.us.acceptedGlobalShifts + 1 } }
  else pure (globalMoveRestoreBackups env.pars st)

/-- `DetSDW::attemptWolffClusterUpdate` (detsdwopdim.cpp 3487-3562). -/
def attemptWolffClusterUpdate {K : Type} [LinearOrderedField K] {o : OpDim} {N : ℕ}
    {U : Type} (env : GlobalEnv o N K U) (fuel : ℕ) (st : GlobalState o N K U) :
    Option (GlobalState o N K U) := do
  if ¬ env.pars.turnoffFermions ∧ st.currentTimeslice ≠ env.pars.m then none
  let st := globalMoveStoreBackups env.pars st
  let old_g_inv_sv := st.gmd.g_inv_sv
  let flipped ← flipClusters env true fuel st.fc
  let cluster_sizes := flipped.1
  let st := { st with fc := flipped.2 }
  let st := if ¬ env.pars.turnoffFermions then
      DetSDW.setupUdVStorage_and_calculateGreen env st else st
  let prob_fermion :=
    if ¬ env.pars.turnoffFermions then
      fermionProbability o N env.lm env.log st.g_inv_sv old_g_inv_sv
    else 1
  let st := { st with us := { st.us with
    attemptedWolffClusterUpdates := st.us.attemptedWolffClusterUpdates + 1 } }
  if 1 ≤ prob_fermion ∨ env.rand01 < prob_fermion then
    pure { st with us := { st.us with
      acceptedWolffClusterUpdates := st.us.acceptedWolffClusterUpdates + 1,
      addedWolffClusterSize := cluster_sizes.foldl
        (fun acc cluster_size => acc + (cluster_size : K)) st.us.addedWolffClusterSize } }
  else pure (globalMoveRestoreBackups env.pars st)

/-- `DetSDW::attemptWolffClusterShiftUpdate` (detsdwopdim.cpp 3647-3749): with fermions
the backups are stored before the cluster flips, without fermions after them. -/
def attemptWolffClusterShiftUpdate {K : Type} [LinearOrderedField K] {o : OpDim} {N : ℕ}
    {U : Type} (env : GlobalEnv o N K U) (fuel : ℕ) (st : GlobalState o N K U) :
    Option (GlobalState o N K U) := do
  if ¬ env.pars.turnoffFermions ∧ st.currentTimeslice ≠ env.pars.m then none
  let st := if ¬ env.pars.turnoffFermions then globalMoveStoreBackups env.pars st else st
  let old_g_inv_sv := st.gmd.g_inv_sv
  let flipped ← flipClusters env false fuel st.fc
  let cluster_sizes := flipped.1
  let st := { st with fc := flipped.2 }
  let st := if env.pars.turnoffFermions then globalMoveStoreBackups env.pars st else st
  let old_scalar_action ← phiAction o env.lat env.pars st.fc fuel
  let st := { st with fc := addGlobalRandomDisplacement o N env.pars.m env.randRange st.fc }
  let new_scalar_action ← phiAction o env.lat env.pars st.fc fuel
  let prob_scalar := env.lm.exp (-(new_scalar_action - old_scalar_action))
  let st ←
    if ¬ env.pars.turnoffFermions then
      (updateCoshSinhTermsPhiAll o N env.lm env.pars fuel st.fc).map
        (fun fc => DetSDW.setupUdVStorage_and_calculateGreen env { st with fc := fc })
    else some st
  let prob_fermion :=
    if ¬ env.pars.turnoffFermions then
      fermionProbability o N env.lm env.log st.g_inv_sv old_g_inv_sv
    else 1
  let prob := prob_scalar * prob_fermion
  let st := { st with us := { st.us with
    attemptedWolffClusterShiftUpdates := st.us.attemptedWolffClusterShiftUpdates + 1 } }
  if 1 ≤ prob ∨ env.rand01 < prob then
    pure { st with us := { st.us with
      acceptedWolffClusterShiftUpdates := st.us.acceptedWolffClusterShiftUpdates + 1,
      addedWolffClusterSize := cluster_sizes.foldl
        (fun acc cluster_size => acc + (cluster_size : K)) st.us.addedWolffClusterSize } }
  else pure (globalMoveRestoreBackups env.pars st)

/-- The caches of the slot `(i, k)` agree with the field:
`coshTermPhi(i,k) = cosh(lambda dtau |phi(i,.,k)|)`,
`sinhTermPhi(i,k) = sinh(lambda dtau |phi(i,.,k)|) / |phi(i,.,k)|`, and if `cdwU ≠ 0`
`coshTermCDWl(i,k)`, `sinhTermCDWl(i,k)` are `cosh`, `sinh` of
`sqrt(dtau) cdwU eta(cdwl(i,k))`. -/
def SlotConsistent {K : Type} [Field K] (o : OpDim) (lm : Libm K)
    (pars : ModelParamsSDW K) (cdwl_eta : ℤ → K) (fc : FieldConfig K) (i k : ℕ) : Prop :=
  (fc.coshTermPhi i k
      = lm.cosh (pars.lambda * pars.dtau
          * lm.sqrt (dot (getPhi o.dim fc i k) (getPhi o.dim fc i k))) ∧
    fc.sinhTermPhi i k
      = lm.sinh (pars.lambda * pars.dtau
          * lm.sqrt (dot (getPhi o.dim fc i k) (getPhi o.dim fc i k)))
        / lm.sqrt (dot (getPhi o.dim fc i k) (getPhi o.dim fc i k))) ∧
  (pars.cdwU ≠ 0 →
    fc.coshTermCDWl i k = lm.cosh (lm.sqrt pars.dtau * pars.cdwU * cdwl_eta (fc.cdwl i k)) ∧
    fc.sinhTermCDWl i k = lm.sinh (lm.sqrt pars.dtau * pars.cdwU * cdwl_eta (fc.cdwl i k)))

/-- The caches agree with the field: the slots of every site `i < N` and every slice `k`
in `1, ..., m` are consistent. -/
def CachesConsistent {K : Type} [Field K] (o : OpDim) (N : ℕ) (lm : Libm K)
    (pars : ModelParamsSDW K) (cdwl_eta : ℤ → K) (fc : FieldConfig K) : Prop :=
  ∀ i k, i < N → 1 ≤ k → k ≤ pars.m → SlotConsistent o lm pars cdwl_eta fc i k

/-- The backups of a global move are in place: in the state `mid`, reached from `st`, the
backup buffers hold what `globalMoveStoreBackups` saved from `st`, and what
`globalMoveRestoreBackups` does not write is as in `st` (with fermions `lastSweepDir` is
`Up`, as left by the recomputation of the Green function). -/
def BackedUp {o : OpDim} {N : ℕ} {K U : Type} (pars : ModelParamsSDW K)
    (st mid : GlobalState o N K U) : Prop :=
  mid.gmd.phi = st.fc.phi ∧ mid.fc.cdwl = st.fc.cdwl ∧
  mid.fc.coshTermCDWl = st.fc.coshTermCDWl ∧ mid.fc.sinhTermCDWl = st.fc.sinhTermCDWl ∧
  mid.currentTimeslice = st.currentTimeslice ∧
  (if pars.turnoffFermions then
    mid.fc.coshTermPhi = st.fc.coshTermPhi ∧ mid.fc.sinhTermPhi = st.fc.sinhTermPhi ∧
    mid.g = st.g ∧ mid.g_inv_sv = st.g_inv_sv ∧ mid.UdVStorage = st.UdVStorage ∧
    mid.lastSweepDir = st.lastSweepDir
  else
    mid.gmd.coshTermPhi = st.fc.coshTermPhi ∧ mid.gmd.sinhTermPhi = st.fc.sinhTermPhi ∧
    mid.gmd.g = st.g ∧ mid.gmd.g_inv_sv = st.g_inv_sv ∧
    mid.gmd.UdVStorage = st.UdVStorage ∧ mid.lastSweepDir = SweepDirection.Up)

/-- The caches of the field vectors agree with the field on the sites `i < N` and the
slices `1, ..., m` (the first part of `CachesConsistent`). -/
def PhiCachesConsistent {K : Type} [Field K] (o : OpDim) (N : ℕ) (lm : Libm K)
    (pars : ModelParamsSDW K) (fc : FieldConfig K) : Prop :=
  ∀ i k, i < N → 1 ≤ k → k ≤ pars.m →
    fc.coshTermPhi i k = (getCoshSinhTermPhi lm pars (getPhi o.dim fc i k)).1 ∧
    fc.sinhTermPhi i k = (getCoshSinhTermPhi lm pars (getPhi o.dim fc i k)).2
/-- Stand-in for the math library in the examples of the global moves: as `rationalLibm`,
with an exponential that is `1` at zero and above and `1/2` below zero. -/
def stepLibm : Libm ℚ :=
  { rationalLibm with exp := fun x => if x < 0 then 1 / 2 else 1 }

/-- Surroundings of a global move for `OPDIM = 1` on the periodic lattice of `2 x 2` sites
with two time slices, with fermions: one cluster per move with the direction `rd = 1`,
the seed `(0, 1)` and no bond activated; the displacement `-2`; the number `1/2` drawn
for the acceptance test.  The recomputation of the Green function is replaced by a
function of the field whose singular values are `(4 + phi(0, 0, 1)) / 8`, and the
logarithm by `x - 1`. -/
def rejectingEnv : GlobalEnv OpDim.one 4 ℚ Unit :=
  { pars := fourSiteParams, lm := stepLibm, log := fun x => x - 1,
    lat := squareLattice 2 2 4 (by decide), repeatWolffPerSweep := 1,
    setupGreen := fun fc =>
      (((4 + fc.phi 0 0 1) / 8 : ℚ) • 1, fun _ => (4 + fc.phi 0 0 1) / 8, ()),
    randRange := fun _ => -2, rand01 := 1 / 2,
    rd := fun _ _ => 1, seedSite := fun _ => 0, seedSlice := fun _ => 1,
    activate := fun _ _ => false }

/-- The state after an up sweep (slice `m = 2`) with the constant field `phi = 1`, the
singular values `5/8` that `rejectingEnv` gives this field, empty backups and all
counters zero. -/
def exampleGlobalState : GlobalState OpDim.one 4 ℚ Unit :=
  { fc := onesField, g := (5 / 8 : ℚ) • 1, g_inv_sv := fun _ => 5 / 8, UdVStorage := (),
    currentTimeslice := 2, lastSweepDir := SweepDirection.Up,
    gmd := { phi := fun _ _ _ => 0, coshTermPhi := fun _ _ => 0, sinhTermPhi := fun _ _ => 0,
             g := 0, g_inv_sv := fun _ => 0, UdVStorage := () },
    us := { attemptedGlobalShifts := 0, acceptedGlobalShifts := 0,
            attemptedWolffClusterUpdates := 0, acceptedWolffClusterUpdates := 0,
            addedWolffClusterSize := 0, attemptedWolffClusterShiftUpdates := 0,
            acceptedWolffClusterShiftUpdates := 0 } }

/-- The same surroundings without fermions and with `phi2bosons`: the displacement is `1`
and the number drawn for the acceptance test is `3/4`. -/
def bosonicShiftEnv : GlobalEnv OpDim.one 4 ℚ Unit :=
  { rejectingEnv with
    pars := { fourSiteParams with turnoffFermions := true, phi2bosons := true },
    randRange := fun _ => 1, rand01 := 3 / 4 }
/-! ### Initial field and the iterative local update (detsdwopdim.cpp 202-215, 1099-1128,
2491-2880) -/

/-- The field after the constructor has zeroed the dynamic data (detsdwopdim.cpp
202-208): `phi`, `cdwl`, `coshTermPhi`, `sinhTermPhi`, `sinhTermCDWl` zero,
`coshTermCDWl` one. -/
def DetSDW.zeroedField {K : Type} [Field K] : FieldConfig K :=
  { phi := fun _ _ _ => 0, cdwl := fun _ _ => 0,
    coshTermPhi := fun _ _ => 0, sinhTermPhi := fun _ _ => 0,
    coshTermCDWl := fun _ _ => 1, sinhTermCDWl := fun _ _ => 0 }

/-- `DetSDW::setupRandomField` (detsdwopdim.cpp 1099-1113).  The random number generator
is replaced by its outcomes: `randRange site dim k` is the number drawn from
`[PhiLow, PhiHigh]` for `phi(site, dim, k)` and `rand01 site k` the number drawn for
`cdwl(site, k)`.  The loop over the slices is a `uint32_t` loop with fuel. -/
def setupRandomField {K : Type} [LinearOrderedField K] (o : OpDim) (N : ℕ) (lm : Libm K)
    (pars : ModelParamsSDW K) (cdwl_eta : ℤ → K) (randRange : ℕ → ℕ → ℕ → K)
    (rand01 : ℕ → ℕ → K) (fuel : ℕ) (fc : FieldConfig K) : Option (FieldConfig K) :=
  forLoop (fun k => decide (k ≤ pars.m)) (fun k => uadd k 1)
    (fun k fc =>
      some ((List.range N).foldl
        (fun fc site =>
          let fc := setPhi o.dim site k (fun dim => randRange site dim.val k) fc
          let r := rand01 site k
          let fc :=
            if r ≤ 1 / 4 then setCDWl site k 2 fc
            else if r ≤ 1 / 2 then setCDWl site k (-2) fc
            else if r ≤ 3 / 4 then setCDWl site k 1 fc
            else setCDWl site k (-1) fc
          updateCoshSinhTerms o.dim lm pars cdwl_eta site k fc) fc))
    fuel 1 fc

/-- `DetSDW::setupConstantField` (detsdwopdim.cpp 1115-1128): `phi(site, 0, k) = 1`, the
other components zero, `cdwl(site, k) = +1`. -/
def setupConstantField {K : Type} [Field K] [DecidableEq K] (o : OpDim) (N : ℕ)
    (lm : Libm K) (pars : ModelParamsSDW K) (cdwl_eta : ℤ → K) (fuel : ℕ)
    (fc : FieldConfig K) : Option (FieldConfig K) :=
  forLoop (fun k => decide (k ≤ pars.m)) (fun k => uadd k 1)
    (fun k fc =>
      some ((List.range N).foldl
        (fun fc site =>
          let fc := setPhi o.dim site k (fun dim => if dim.val = 0 then 1 else 0) fc
          let fc := setCDWl site k 1 fc
          updateCoshSinhTerms o.dim lm pars cdwl_eta site k fc) fc))
    fuel 1 fc

/-- The part of the constructor of `DetSDW` that sets up the field (detsdwopdim.cpp
202-215): the dynamic data are zeroed, then the field is random (`phiFixed` not set) or
constant. -/
def DetSDW.constructField {K : Type} [LinearOrderedField K] (o : OpDim) (N : ℕ)
    (lm : Libm K) (pars : ModelParamsSDW K) (cdwl_eta : ℤ → K) (phiFixed : Bool)
    (randRange : ℕ → ℕ → ℕ → K) (rand01 : ℕ → ℕ → K) (fuel : ℕ) :
    Option (FieldConfig K) :=
  if ¬ phiFixed then
    setupRandomField o N lm pars cdwl_eta randRange rand01 fuel DetSDW.zeroedField
  else setupConstantField o N lm pars cdwl_eta fuel DetSDW.zeroedField

/-- The rows `rows[r]` of `Delta * (I - G)` that `updateInSlice_iterative` computes
(detsdwopdim.cpp 2549-2564).  The loop `for (col = 0; col < 4*pars.N; ++col)` runs over
`4 N` columns whatever `MatrixSizeFactor` is: `none` stands for the access beyond the
`MatrixSizeFactor * N` columns of `g` and of `rows[r]`. -/
def iterativeRows {MSF N : ℕ} {K : Type} [Field K] (g : MatData MSF N K) (site : Fin N)
    (delta_forsite : MatSmall MSF K) : Option (Fin MSF → Fin MSF × Fin N → K) :=
  if 1 < MSF ∧ umul MSF N < umul 4 N then none
  else
    some (fun r col =>
      ∑ dc : Fin MSF, (-delta_forsite r dc * g (dc, site) col
        + (if col = (dc, site) then delta_forsite r dc else 0)))

/-- One pass `l` of the loop that turns the rows of `Delta * (I - G)` into the rows of
`[I + Delta * (I - G)]^(-1)` and multiplies up the determinant (detsdwopdim.cpp
2575-2591); the state is `(rows, det)`. -/
def shermanMorrisonStep {MSF N : ℕ} {K : Type} [Field K] (site : Fin N)
    (s : (Fin MSF → Fin MSF × Fin N → K) × K) (l : Fin MSF) :
    (Fin MSF → Fin MSF × Fin N → K) × K :=
  let rows := s.1
  let row0 : Fin MSF × Fin N → K :=
    fun col => if col.2 = site ∧ col.1 < l then 0 else rows l col
  let row : Fin MSF × Fin N → K :=
    fun col => row0 col + ∑ k : Fin MSF, (if k < l then rows l (k, site) * rows k col else 0)
  let divisor := 1 + row (l, site)
  (fun r col =>
    if r = l then (-1 / divisor) * row col + (if col = (l, site) then 1 else 0)
    else if r < l then rows r col - (rows r (l, site) / divisor) * row col
    else rows r col,
   s.2 * divisor)

/-- The update `g += gTimesInvRows` of `updateInSlice_iterative` (detsdwopdim.cpp
2815-2839): the diagonal entries are taken off the rows, then
`gTimesInvRows(row, col) = sum_r G(row, site + r N) * rows[r][col]`. -/
def iterativeUpdate {MSF N : ℕ} {K : Type} [Field K] (g : MatData MSF N K) (site : Fin N)
    (rows : Fin MSF → Fin MSF × Fin N → K) : MatData MSF N K :=
  g + Matrix.of fun row col =>
    ∑ r : Fin MSF, g row (r, site) * (rows r col - (if col = (r, site) then 1 else 0))

/-- Body of the site loop of `DetSDW::updateInSlice_iterative`
(detsdwopdim.cpp 2491-2880). -/
def updateInSlice_iterative_site {K : Type} [Field K] [DecidableEq K] {o : OpDim} {N : ℕ}
    (env : LocalEnv o K) (timeslice : ℕ) (st : SliceState o N K) (site : ℕ) :
    Option (SliceState o N K) :=
  if h : site < N then
    let prop := env.proposeLocalUpdate st.fc site timeslice
    if prop.changed = Changed.NONE then some st
    else if env.pars.turnoffFermions then
      if env.accept st.fc site 1 then
        some { st with fc := setPhi o.dim site timeslice prop.newphi st.fc,
                       accepted := st.accepted + 1 }
      else some st
    else
      let delta_forsite := get_delta_forsite o env.imagI env.lm env.pars env.cdwl_eta st.fc
        prop.newphi prop.new_cdwl timeslice site
      (iterativeRows st.g ⟨site, h⟩ delta_forsite).bind fun rows =>
        let inverse := (List.finRange o.MSF).foldl (shermanMorrisonStep ⟨site, h⟩) (rows, 1)
        let det := inverse.2
        if env.accept st.fc site det then
          some { st with
            fc := commitLocalUpdate o env.lm env.pars env.cdwl_eta site timeslice
              prop.newphi prop.new_cdwl st.fc,
            g := iterativeUpdate st.g ⟨site, h⟩ inverse.1,
            accepted := st.accepted + 1 }
        else some st
  else some st

/-- `DetSDW::updateInSlice_iterative` (detsdwopdim.cpp 2491-2880):
`for (site = 0; site < pars.N; ++site)`. -/
def updateInSlice_iterative {K : Type} [Field K] [DecidableEq K] {o : OpDim} {N : ℕ}
    (env : LocalEnv o K) (timeslice : ℕ) (st : SliceState o N K) :
    Option (SliceState o N K) :=
  (List.range N).foldlM (updateInSlice_iterative_site env timeslice) st

/-- The column indices with which the construction of `rows[r]` in
`updateInSlice_iterative` (detsdwopdim.cpp 2549-2564) accesses `rows[r]` and `g.col`, in
the order of the accesses, all in `uint32_t` arithmetic: for each `r` the columns
`0 .. MatrixSizeFactor*N - 1`, the column `site`, and for each `dc` from 1 on the columns
`0 .. 4*N - 1` and the column `site + dc*N`. -/
def iterativeRowsColumns (MSF N site : ℕ) : List ℕ :=
  (List.range MSF).flatMap fun _ =>
    List.range (umul MSF N) ++ [site]
      ++ (List.range' 1 (MSF - 1)).flatMap fun dc =>
          List.range (umul 4 N) ++ [uadd site (umul dc N)]

/-- The column indices with which the loop over `l` in `updateInSlice_iterative`
(detsdwopdim.cpp 2575-2591) accesses `row` and `rows[k]`: `site + k*N` for `k < l`, and
`site + l*N`. -/
def iterativeDetColumns (MSF N site : ℕ) : List ℕ :=
  (List.range MSF).flatMap fun l =>
    (List.range l).map (fun k => uadd site (umul k N)) ++ [uadd site (umul l N)]
/-- Stand-in for the math library with hyperbolic functions that depend on their
argument: `cosh x = 1 + x^2 / 2`, `sinh x = x`, a square root that is exact on the
squares of the natural numbers (the integer square root of the integer part), `exp = 1`. -/
def polyLibm : Libm ℚ :=
  { cosh := fun x => 1 + x ^ 2 / 2, sinh := fun x => x,
    sqrt := fun x => (Nat.sqrt ⌊x⌋₊ : ℚ), exp := fun _ => 1 }

/-- Surroundings of the local updates for `OPDIM = 1` on one site and one time slice
(`lambda = dtau = 1`, `cdwU = 0`) with fermions: every proposal changes `phi` to `2`,
every proposal is accepted. -/
def fermionicLocalEnv : LocalEnv OpDim.one ℚ :=
  { pars := oneSiteParams, imagI := 0, lm := polyLibm, cdwl_eta := fun _ => 0,
    proposeLocalUpdate := fun _ _ _ => ⟨Changed.PHI, fun _ => 2, 1⟩,
    accept := fun _ _ _ => true }

/-- The same surroundings without fermions (`turnoffFermions = true`). -/
def bosonicLocalEnv : LocalEnv OpDim.one ℚ :=
  { fermionicLocalEnv with pars := { oneSiteParams with turnoffFermions := true } }

/-- The state with the field `phi = 1` and the caches of this field under `polyLibm`:
`coshTermPhi = cosh(1) = 3/2`, `sinhTermPhi = sinh(1) / 1 = 1`. -/
def unitFieldState : SliceState OpDim.one 1 ℚ :=
  { fc := { phi := fun _ _ _ => 1, cdwl := fun _ _ => 1,
            coshTermPhi := fun _ _ => 3 / 2, sinhTermPhi := fun _ _ => 1,
            coshTermCDWl := fun _ _ => 1, sinhTermCDWl := fun _ _ => 0 },
    g := (1 / 2 : ℚ) • 1, accepted := 0, Ms := [] }

/-- The matrix `1 + sum_(r < l) e_(r,site) * v_r^T`: the rows `(r, site)` with `r < l` of
the identity are replaced by `e_(r,site) + v_r`.  With the rows `v_r` of
`Delta * (I - G)` and `l = MatrixSizeFactor` this is `I + Delta * (I - G)`. -/
def partialRankUpdate {MSF N : ℕ} {K : Type} [Field K] (site : Fin N)
    (v : Fin MSF → Fin MSF × Fin N → K) (l : ℕ) : MatData MSF N K :=
  Matrix.of fun a b =>
    (if a = b then 1 else 0) + (if a.2 = site ∧ a.1.val < l then v a.1 b else 0)

/-- The matrix whose rows `(r, site)` with `r < l` are `rows r` and whose other rows are
those of the identity. -/
def rowsMatrix {MSF N : ℕ} {K : Type} [Field K] (site : Fin N)
    (rows : Fin MSF → Fin MSF × Fin N → K) (l : ℕ) : MatData MSF N K :=
  Matrix.of fun a b =>
    if a.2 = site ∧ a.1.val < l then rows a.1 b else (if a = b then 1 else 0)

/-- Invariant of the loop over `l` in `updateInSlice_iterative`: after `l` passes the
first `l` entries of `rows` are the rows of the inverse of
`1 + sum_(r < l) e_(r,site) * v_r^T`, the other entries are still the rows `v_r`, and `det`
is the determinant of that matrix. -/
def ShermanMorrisonInv {MSF N : ℕ} {K : Type} [Field K] (site : Fin N)
    (v : Fin MSF → Fin MSF × Fin N → K) (l : ℕ)
    (s : (Fin MSF → Fin MSF × Fin N → K) × K) : Prop :=
  rowsMatrix site s.1 l * partialRankUpdate site v l = 1 ∧
    s.2 = (partialRankUpdate site v l).det ∧ ∀ r : Fin MSF, l ≤ r.val → s.1 r = v r
/-! ### Replica exchange (detsdwopdim.cpp 5251-5264) -/

/-- `enum GreenUpdateType` of `DetQMCParams`. -/
inductive GreenUpdateType where
  | GreenUpdateTypeSimple
  | GreenUpdateTypeStabilized
  deriving DecidableEq, Repr

/-- The members of `DetQMCParams` that `DetQMC` reads or writes (the struct is declared
in a header that is not part of the sources; the counts are `uint32_t`). -/
structure DetQMCParams where
  sweeps : ℕ
  thermalization : ℕ
  jkBlocks : ℕ
  measureInterval : ℕ
  saveInterval : ℕ
  sweepsHasChanged : Bool
  stateFileName : String
  greenUpdateType : GreenUpdateType
  greenUpdateType_string : String
  specified : Finset String

/-- The macro `SPECIFIED_INSERT_VAL(x)` of the resuming constructor:
`if (parsmc_.x) { parsmc_.specified.insert(#x); }`. -/
def SPECIFIED_INSERT_VAL (x : DetQMCParams → ℕ) (name : String) (parsmc_ : DetQMCParams) :
    DetQMCParams :=
  if x parsmc_ ≠ 0 then { parsmc_ with specified := insert name parsmc_.specified }
  else parsmc_

/-- The macro `SPECIFIED_INSERT_STR(x)` of the resuming constructor:
`if (not parsmc_.x.empty()) { parsmc_.specified.insert(#x); }`. -/
def SPECIFIED_INSERT_STR (x : DetQMCParams → String) (name : String)
    (parsmc_ : DetQMCParams) : DetQMCParams :=
  if ¬ (x parsmc_).isEmpty then { parsmc_ with specified := insert name parsmc_.specified }
  else parsmc_

/-- The merge of the new Monte Carlo parameters into the stored ones in the resuming
constructor (detqmc.h 271-281). -/
def mergeResumeParameters (parsmc_ newParsmc : DetQMCParams) : DetQMCParams :=
  let parsmc_ :=
    if newParsmc.sweeps > parsmc_.sweeps then
      { parsmc_ with sweeps := newParsmc.sweeps, sweepsHasChanged := true }
    else parsmc_
  if newParsmc.saveInterval > 0 ∧ newParsmc.saveInterval ≠ parsmc_.saveInterval then
    { parsmc_ with saveInterval := newParsmc.saveInterval }
  else parsmc_

/-- The Monte Carlo parameters that the resuming constructor
`DetQMC(stateFileName, newParsmc)` hands to `initFromParameters` (detqmc.h 260-298):
`parsmc_` are the parameters read from the state file. -/
def resumeParameters (stateFileName : String) (parsmc_ newParsmc : DetQMCParams) :
    DetQMCParams :=
  SPECIFIED_INSERT_STR (fun p => p.greenUpdateType_string) "greenUpdateType"
    (SPECIFIED_INSERT_STR (fun p => p.stateFileName) "stateFileName"
      (SPECIFIED_INSERT_VAL (fun p => p.saveInterval) "saveInterval"
        (SPECIFIED_INSERT_VAL (fun p => p.measureInterval) "measureInterval"
          (SPECIFIED_INSERT_VAL (fun p => p.jkBlocks) "jkBlocks"
            (SPECIFIED_INSERT_VAL (fun p => p.thermalization) "thermalization"
              (SPECIFIED_INSERT_VAL (fun p => p.sweeps) "sweeps"
                { mergeResumeParameters parsmc_ newParsmc with
                  stateFileName := stateFileName }))))))

/-- `enum Stage { T, M, F }` of `DetQMC::run`: thermalization, measurement, finished. -/
inductive Stage where
  | T
  | M
  | F
  deriving DecidableEq, Repr

/-- What `DetQMC::run` does to the replica and the files, in the order in which it
happens (a ghost trace, not part of the program state).  `cancellationCheck a b` is an
evaluation of the cancellation conditions (wall time, abort file) at a moment when `a`
thermalization sweeps and `b` measurement sweeps have been done. -/
inductive RunEvent where
  | cancellationCheck (sweepsDoneThermalization sweepsDone : ℕ)
  | sweepThermalization (greenUpdateType : GreenUpdateType)
  | sweep (greenUpdateType : GreenUpdateType) (takeMeasurementNow : Bool)
  | insertValue (sweepsDone : ℕ)
  | thermalizationOver
  | saveResults
  | saveState
  deriving DecidableEq, Repr

/-- The members of `DetQMC` and the local variables of `run` that the big loop reads or
writes: `stage`, the counters `sweepsDone`, `sweepsDoneThermalization`, `swCounter`
(`uint32_t`), and the ghost trace. -/
structure RunState where
  stage : Stage
  sweepsDone : ℕ
  sweepsDoneThermalization : ℕ
  swCounter : ℕ
  events : List RunEvent

/-- What `run` takes from its surroundings: the parameters, the granted wall time, and
for the `i`-th pass of the big loop the value of the timer and whether one of the abort
files exists. -/
structure RunEnv where
  parsmc : DetQMCParams
  grantedWalltimeSecs : ℕ
  elapsedSecs : ℕ → ℕ
  abortFileExists : ℕ → Bool

/-- `const uint32_t SavetyMinutes = 35`. -/
def SavetyMinutes : ℕ := 35

/-- `curWalltimeSecs()` (detqmc.h 98-100) in the `i`-th pass: the elapsed seconds cast
to `uint32_t`. -/
def curWalltimeSecs (env : RunEnv) (i : ℕ) : ℕ :=
  env.elapsedSecs i % 4294967296

/-- The choice of the first stage (detqmc.h 371-377). -/
def firstStage (parsmc : DetQMCParams) (sweepsDoneThermalization sweepsDone : ℕ) : Stage :=
  if sweepsDoneThermalization < parsmc.thermalization then Stage.T
  else if sweepsDone < parsmc.sweeps then Stage.M
  else Stage.F

/-- The value of `stop_now` in the `i`-th pass (detqmc.h 386-394): the wall time test in
`uint32_t` arithmetic, else the test for the abort files. -/
def stop_now (env : RunEnv) (i : ℕ) : Bool :=
  if curWalltimeSecs env i > usub env.grantedWalltimeSecs (umul SavetyMinutes 60) then true
  else if env.abortFileExists i then true
  else false

/-- The `switch (stage)` of the big loop (detqmc.h 413-473): one sweep with the updates
of the counters; `none` stands for the undefined `%` with `measureInterval = 0`. -/
def runSwitch (parsmc : DetQMCParams) (st : RunState) : Option RunState :=
  match st.stage with
  | Stage.T =>
    let st := { st with
      events := st.events ++ [RunEvent.sweepThermalization parsmc.greenUpdateType],
      sweepsDoneThermalization := uadd st.sweepsDoneThermalization 1,
      swCounter := uadd st.swCounter 1 }
    let st :=
      if st.swCounter = parsmc.saveInterval then
        { st with swCounter := 0, events := st.events ++ [RunEvent.saveState] }
      else st
    if st.sweepsDoneThermalization = parsmc.thermalization then
      some { st with events := st.events ++ [RunEvent.thermalizationOver],
                     swCounter := 0, stage := Stage.M }
    else some st
  | Stage.M =>
    let st := { st with swCounter := uadd st.swCounter 1 }
    if parsmc.measureInterval = 0 then none
    else
      let takeMeasurementNow := decide (st.swCounter % parsmc.measureInterval = 0)
      let st := { st with
        events := st.events ++ [RunEvent.sweep parsmc.greenUpdateType takeMeasurementNow] }
      let st :=
        if takeMeasurementNow then
          { st with events := st.events ++ [RunEvent.insertValue st.sweepsDone] }
        else st
      let st := { st with sweepsDone := uadd st.sweepsDone 1 }
      let st :=
        if st.swCounter = parsmc.saveInterval then
          { st with swCounter := 0,
                    events := st.events ++ [RunEvent.saveResults, RunEvent.saveState] }
        else st
      if st.sweepsDone = parsmc.sweeps then
        some { st with swCounter := 0, stage := Stage.F }
      else some st
  | Stage.F => some st

/-- The state in which the big loop is left by `break` (detqmc.h 395-408): results (in
the measurement stage) and state are saved. -/
def cancelRun (st : RunState) : RunState :=
  if st.stage = Stage.M then
    { st with events := st.events ++ [RunEvent.saveResults, RunEvent.saveState] }
  else { st with events := st.events ++ [RunEvent.saveState] }

/-- The big loop `while (stage != F)` of `DetQMC::run` (detqmc.h 385-474) from its
`i`-th pass on, with fuel. -/
def runLoop (env : RunEnv) : ℕ → ℕ → RunState → Option RunState
  | 0, _, _ => none
  | fuel + 1, i, st =>
    if st.stage = Stage.F then some st
    else if st.swCounter % 2 = 0 then
      let st := { st with events := st.events
        ++ [RunEvent.cancellationCheck st.sweepsDoneThermalization st.sweepsDone] }
      if stop_now env i then some (cancelRun st)
      else (runSwitch env.parsmc st).bind (runLoop env fuel (i + 1))
    else (runSwitch env.parsmc st).bind (runLoop env fuel (i + 1))

/-- `DetQMC::run` (detqmc.h 353-475) for the counters that the constructor set or
loaded. -/
def run (env : RunEnv) (sweepsDoneThermalization sweepsDone swCounter : ℕ) (fuel : ℕ) :
    Option RunState :=
  runLoop env fuel 0
    { stage := firstStage env.parsmc sweepsDoneThermalization sweepsDone,
      sweepsDone := sweepsDone, sweepsDoneThermalization := sweepsDoneThermalization,
      swCounter := swCounter, events := [] }

/-- The totals `sweepsDoneThermalization + sweepsDone` at the evaluations of the
cancellation conditions recorded in a trace. -/
def checkedTotals (events : List RunEvent) : List ℕ :=
  events.filterMap fun e =>
    match e with
    | RunEvent.cancellationCheck a b => some (a + b)
    | _ => none

/-- The number of sweeps recorded in a trace. -/
def sweepsInTrace (events : List RunEvent) : ℕ :=
  (events.filter fun e =>
    match e with
    | RunEvent.sweepThermalization _ => true
    | RunEvent.sweep _ _ => true
    | _ => false).length

/-- The number of measurement sweeps until `sweepsDone == parsmc.sweeps` holds after an
increment of the `uint32_t` counter. -/
def measurementSweepsLeft (parsmc : DetQMCParams) (sweepsDone : ℕ) : ℕ :=
  (parsmc.sweeps + 4294967296 - sweepsDone - 1) % 4294967296 + 1

/-- The number of passes of the big loop that a run without cancellation still makes. -/
def passesLeft (parsmc : DetQMCParams) (st : RunState) : ℕ :=
  match st.stage with
  | Stage.T =>
    (parsmc.thermalization - st.sweepsDoneThermalization)
      + measurementSweepsLeft parsmc st.sweepsDone
  | Stage.M => measurementSweepsLeft parsmc st.sweepsDone
  | Stage.F => 0

/-- Invariant of the big loop for even `thermalization` and `saveInterval`: the counters
are `uint32_t` values, during thermalization fewer than `thermalization` sweeps are done
and the number of measurement sweeps is even, and until the run is finished `swCounter`
has the parity of the total number of sweeps. -/
def RunInv (parsmc : DetQMCParams) (st : RunState) : Prop :=
  st.sweepsDone < 4294967296 ∧ st.sweepsDoneThermalization < 4294967296 ∧
  (st.stage = Stage.T →
    st.sweepsDoneThermalization < parsmc.thermalization ∧ st.sweepsDone % 2 = 0) ∧
  (st.stage ≠ Stage.F →
    st.swCounter % 2 = (st.sweepsDoneThermalization + st.sweepsDone) % 2)
/-- Monte Carlo parameters for the examples: `sweeps` measurement sweeps, state saved
every `saveInterval` sweeps, no thermalization, a measurement in every sweep. -/
def exampleParsmc (sweeps saveInterval : ℕ) : DetQMCParams :=
  { sweeps := sweeps, thermalization := 0, jkBlocks := 1, measureInterval := 1,
    saveInterval := saveInterval, sweepsHasChanged := false, stateFileName := "",
    greenUpdateType := GreenUpdateType.GreenUpdateTypeStabilized,
    greenUpdateType_string := "stabilized", specified := ∅ }

/-- Surroundings of a run with the parameters `parsmc`: unlimited wall time (the largest
`uint32_t`), no time elapses, and the abort file exists from the pass `abortFrom` on. -/
def exampleRunEnv (parsmc : DetQMCParams) (abortFrom : ℕ) : RunEnv :=
  { parsmc := parsmc, grantedWalltimeSecs := 4294967295, elapsedSecs := fun _ => 0,
    abortFileExists := fun i => decide (abortFrom ≤ i) }

/-- Surroundings of a run with the parameters `parsmc` and `grantedWalltimeSecs` seconds
of granted wall time: `elapsed` seconds have passed in every pass, no abort file. -/
def exampleWalltimeEnv (parsmc : DetQMCParams) (grantedWalltimeSecs elapsed : ℕ) : RunEnv :=
  { parsmc := parsmc, grantedWalltimeSecs := grantedWalltimeSecs,
    elapsedSecs := fun _ => elapsed, abortFileExists := fun _ => false }

/-! ## The ROTATE proposal (detsdwopdim.cpp 3934-3991) -/

/-- `proposeRandomRotatedVector<3>::give` (detsdwopdim.cpp 3943-3991) on exact numbers:
`sqrt`, `cos`, `sin` and `M_PI` are those of the C math library, `rand01 0` and `rand01 1`
are the two values drawn with `rng.rand01()`.  `none` stands for a division by zero (in
floating point its result is infinite or not a number). -/
def proposeRandomRotatedVector3.give {K : Type} [Field K] [DecidableEq K]
    (sqrt cos sin : K → K) (M_PI : K) (rand01 : ℕ → K) (angleDelta : K)
    (vec : Phi 3 K) : Option (Phi 3 K) :=
  let x := vec 0
  let y := vec 1
  let z := vec 2
  let x2 := x ^ 2
  let y2 := y ^ 2
  let z2 := z ^ 2
  let r2 := x2 + y2 + z2
  let r := sqrt r2
  let cosTheta := rand01 0 * (1 - angleDelta) + angleDelta
  let phi := rand01 1 * 2 * M_PI
  let sinTheta := sqrt (1 - cosTheta ^ 2)
  let cosPhi := cos phi
  let sinPhi := sin phi
  if r2 = 0 ∨ r = 0 then none
  else
    let x2n := x2 / r2
    let y2n := y2 / r2
    let xn := x / r
    let yn := y / r
    let zn := z / r
    if x2n + y2n = 0 then none
    else
      let newx := (sinTheta / (x2n + y2n))
        * ((x2n * zn + y2n) * cosPhi + (zn - 1) * xn * yn * sinPhi) + xn * cosTheta
      let newy := (sinTheta / (x2n + y2n))
        * ((zn - 1) * xn * yn * cosPhi + (x2n + y2n * zn) * sinPhi) + yn * cosTheta
      let newz := -sinTheta * (xn * cosPhi + yn * sinPhi) + zn * cosTheta
      some ![newx * r, newy * r, newz * r]
/-! ## Lemmas: dense linear algebra -/

theorem inv_eq {ι : Type} [Fintype ι] [DecidableEq ι] {K : Type} [Field K]
    (A : Matrix ι ι K) : inv A = A⁻¹ := by
  unfold inv
  rw [Matrix.inv_def, Ring.inverse_eq_inv']

theorem diagonal_one_div {sz : ℕ} {K : Type} [Field K] (d : Fin sz → K)
    (h : IsUnit (Matrix.diagonal d).det) :
    Matrix.diagonal (fun i => 1 / d i) = (Matrix.diagonal d)⁻¹ := by
  symm
  apply Matrix.inv_eq_left_inv
  rw [Matrix.diagonal_mul_diagonal]
  rw [Matrix.det_diagonal] at h
  have hne : ∀ i, d i ≠ 0 := by
    intro i hi
    have : ∏ j, d j = 0 := Finset.prod_eq_zero (Finset.mem_univ i) hi
    rw [this] at h
    exact not_isUnit_zero h
  have : (fun i => 1 / d i * d i) = fun _ => (1 : K) := by
    funext i
    field_simp [hne i]
  rw [this, Matrix.diagonal_one]

/-- Conjugation commutes with the (total) matrix inverse. -/
theorem inv_conj {ι : Type} [Fintype ι] [DecidableEq ι] {K : Type} [Field K]
    (S X : Matrix ι ι K) (hS : IsUnit S.det) :
    S⁻¹ * X⁻¹ * S = (S⁻¹ * X * S)⁻¹ := by
  by_cases hX : IsUnit X.det
  · symm
    apply Matrix.inv_eq_left_inv
    have e : S⁻¹ * X⁻¹ * S * (S⁻¹ * X * S) = S⁻¹ * (X⁻¹ * ((S * S⁻¹) * X)) * S := by
      simp only [Matrix.mul_assoc]
    rw [e, Matrix.mul_nonsing_inv _ hS, Matrix.one_mul, Matrix.nonsing_inv_mul _ hX,
      Matrix.mul_one, Matrix.nonsing_inv_mul _ hS]
  · have h2 : ¬ IsUnit (S⁻¹ * X * S).det := by
      rw [Matrix.det_mul, Matrix.det_mul]
      intro h
      exact hX (IsUnit.mul_iff.mp (IsUnit.mul_iff.mp h).1).2
    rw [Matrix.nonsing_inv_apply_not_isUnit _ hX, Matrix.nonsing_inv_apply_not_isUnit _ h2]
    simp

theorem computeBmat_self {ι : Type} [Fintype ι] [DecidableEq ι] {K : Type} [Field K]
    (B : ℕ → Matrix ι ι K) (k : ℕ) : computeBmat B k k = 1 := by
  simp [computeBmat]

/-- Splitting off the earliest slice: `B(k2, k1) = B(k2, k1 + 1) * B_{k1+1}`. -/
theorem computeBmat_split_right {ι : Type} [Fintype ι] [DecidableEq ι] {K : Type} [Field K]
    (B : ℕ → Matrix ι ι K) (k2 k1 : ℕ) (h : k1 < k2) :
    computeBmat B k2 k1 = computeBmat B k2 (k1 + 1) * B (k1 + 1) := by
  unfold computeBmat
  rw [if_neg (by omega)]
  by_cases h2 : k2 = k1 + 1
  · subst h2
    simp
  · rw [if_neg h2]
    have e : k2 - 1 - k1 = (k2 - 1 - (k1 + 1)) + 1 := by omega
    rw [e, List.range_succ, List.map_append, List.foldl_append]
    simp only [List.map_cons, List.map_nil, List.foldl_cons, List.foldl_nil]
    have e2 : k2 - 1 - (k2 - 1 - (k1 + 1)) = k1 + 1 := by omega
    rw [e2]

/-- The product of slice propagators is multiplicative:
`B(k3, k2) * B(k2, k1) = B(k3, k1)`. -/
theorem computeBmat_mul {ι : Type} [Fintype ι] [DecidableEq ι] {K : Type} [Field K]
    (B : ℕ → Matrix ι ι K) (k3 k2 : ℕ) (h32 : k2 ≤ k3) :
    ∀ (d k1 : ℕ), k2 = k1 + d →
      computeBmat B k3 k2 * computeBmat B k2 k1 = computeBmat B k3 k1 := by
  intro d
  induction d with
  | zero =>
    intro k1 h
    have : k2 = k1 := by omega
    subst this
    rw [computeBmat_self, Matrix.mul_one]
  | succ d ih =>
    intro k1 h
    rw [computeBmat_split_right B k2 k1 (by omega), ← Matrix.mul_assoc,
      ih (k1 + 1) (by omega), ← computeBmat_split_right B k3 k1 (by omega)]

/-- Splitting off the latest slice: `B(k + 1, k1) = B_{k+1} * B(k, k1)`. -/
theorem computeBmat_split_left {ι : Type} [Fintype ι] [DecidableEq ι] {K : Type} [Field K]
    (B : ℕ → Matrix ι ι K) (k k1 : ℕ) (h : k1 ≤ k) :
    computeBmat B (k + 1) k1 = B (k + 1) * computeBmat B k k1 := by
  rw [← computeBmat_mul B (k + 1) k (by omega) (k - k1) k1 (by omega),
    computeBmat_split_right B (k + 1) k (by omega), computeBmat_self, Matrix.one_mul]

/-! ## Lemmas: `uint32_t` arithmetic without wrap-around -/

theorem uadd_eq (a b : ℕ) (h : a + b < 4294967296) : uadd a b = a + b := by
  unfold uadd
  exact Nat.mod_eq_of_lt h

theorem usub_eq (a b : ℕ) (hb : b ≤ a) (ha : a < 4294967296) : usub a b = a - b := by
  unfold usub
  rw [Nat.mod_eq_of_lt (show b < 4294967296 by omega)]
  have e : a + (4294967296 - b) = (a - b) + 1 * 4294967296 := by omega
  rw [e, Nat.add_mul_mod_self_right, Nat.mod_eq_of_lt (by omega)]

theorem umul_eq (a b : ℕ) (h : a * b < 4294967296) : umul a b = a * b := by
  unfold umul
  exact Nat.mod_eq_of_lt h

/-! ## Lemmas: loops -/

/-- Sequencing rule for the failure monad: a step that succeeds with `P`, followed by a
continuation that succeeds with `Q` from every state satisfying `P`. -/
theorem bind_spec {α β : Type} {x : Option α} {g : α → Option β} {Q : β → Prop}
    (P : α → Prop) (hx : ∃ a, x = some a ∧ P a)
    (hg : ∀ a, P a → ∃ b, g a = some b ∧ Q b) :
    ∃ b, x.bind g = some b ∧ Q b := by
  obtain ⟨a, ha, hP⟩ := hx
  rw [ha, Option.some_bind]
  exact hg a hP

/-- Invariant rule for `for (gc = 0; gc < GC; ++gc)`. -/
theorem forEachGC_invariant {α : Type} (GC : ℕ) (f : ℕ → α → Option α)
    (P : ℕ → α → Prop) (a : α) (h0 : P 0 a)
    (hstep : ∀ i a, i < GC → P i a → ∃ a', f i a = some a' ∧ P (i + 1) a') :
    ∃ a', forEachGC GC f a = some a' ∧ P GC a' := by
  unfold forEachGC
  induction GC with
  | zero => exact ⟨a, rfl, h0⟩
  | succ n ih =>
    obtain ⟨a1, h1, hP1⟩ := ih (fun i a hi hP => hstep i a (by omega) hP)
    obtain ⟨a2, h2, hP2⟩ := hstep n a1 (by omega) hP1
    refine ⟨a2, ?_, hP2⟩
    rw [List.range_succ, List.foldlM_append, h1]
    simp [h2]

/-- Invariant rule for an ascending loop `for (k = lo; k <= hi; ++k)` whose counter
does not wrap around: enough fuel gives a result that satisfies the invariant. -/
theorem forLoop_up_invariant {α : Type} (body : ℕ → α → Option α) (hi : ℕ)
    (P : ℕ → α → Prop) (hhi : hi + 1 < 4294967296) :
    ∀ (d lo fuel : ℕ) (a : α), lo + d = hi + 1 → d < fuel → P lo a →
      (∀ k a, lo ≤ k → k ≤ hi → P k a → ∃ a', body k a = some a' ∧ P (k + 1) a') →
      ∃ a', forLoop (fun k => decide (k ≤ hi)) (fun k => uadd k 1) body fuel lo a = some a'
        ∧ P (hi + 1) a' := by
  intro d
  induction d with
  | zero =>
    intro lo fuel a hlo hfuel h0 _
    obtain ⟨fuel, rfl⟩ : ∃ f, fuel = f + 1 := ⟨fuel - 1, by omega⟩
    have hlo2 : lo = hi + 1 := by omega
    subst hlo2
    refine ⟨a, ?_, h0⟩
    simp [forLoop]
  | succ d ih =>
    intro lo fuel a hlo hfuel h0 hstep
    obtain ⟨fuel, rfl⟩ : ∃ f, fuel = f + 1 := ⟨fuel - 1, by omega⟩
    obtain ⟨a1, h1, hP1⟩ := hstep lo a (le_refl _) (by omega) h0
    obtain ⟨a2, h2, hP2⟩ := ih (lo + 1) fuel a1 (by omega) (by omega) hP1
      (fun k a hk1 hk2 hP => hstep k a (by omega) hk2 hP)
    refine ⟨a2, ?_, hP2⟩
    have hc : decide (lo ≤ hi) = true := by simp; omega
    simp only [forLoop, hc, if_true, h1, Option.some_bind]
    rw [uadd_eq _ _ (by omega)]
    exact h2

/-- Invariant rule for a descending loop `for (k = hi; k >= lo; --k)` with `lo ≥ 1`
(the counter never passes below zero): enough fuel gives a result that satisfies
the invariant at `lo - 1`. -/
theorem forLoop_down_invariant {α : Type} (body : ℕ → α → Option α) (lo : ℕ)
    (P : ℕ → α → Prop) (hlo : 1 ≤ lo) :
    ∀ (d hi fuel : ℕ) (a : α), hi + 1 = lo + d → hi < 4294967296 → d < fuel → P hi a →
      (∀ k a, lo ≤ k → k ≤ hi → P k a → ∃ a', body k a = some a' ∧ P (k - 1) a') →
      ∃ a', forLoop (fun k => decide (lo ≤ k)) (fun k => usub k 1) body fuel hi a = some a'
        ∧ P (lo - 1) a' := by
  intro d
  induction d with
  | zero =>
    intro hi fuel a hhi h32 hfuel h0 _
    obtain ⟨fuel, rfl⟩ : ∃ f, fuel = f + 1 := ⟨fuel - 1, by omega⟩
    have hhi2 : hi = lo - 1 := by omega
    subst hhi2
    refine ⟨a, ?_, h0⟩
    have hc : decide (lo ≤ lo - 1) = false := by simp; omega
    simp [forLoop, hc]
  | succ d ih =>
    intro hi fuel a hhi h32 hfuel h0 hstep
    obtain ⟨fuel, rfl⟩ : ∃ f, fuel = f + 1 := ⟨fuel - 1, by omega⟩
    obtain ⟨a1, h1, hP1⟩ := hstep hi a (by omega) (le_refl _) h0
    obtain ⟨a2, h2, hP2⟩ := ih (hi - 1) fuel a1 (by omega) (by omega) (by omega) hP1
      (fun k a hk1 hk2 hP => hstep k a hk1 (by omega) hP)
    refine ⟨a2, ?_, hP2⟩
    have hc : decide (lo ≤ hi) = true := by simp; omega
    simp only [forLoop, hc, if_true, h1, Option.some_bind]
    rw [usub_eq _ _ (by omega) h32]
    exact h2

theorem setAt_some {α : Type} (xs : List α) (i : ℕ) (v : α) (h : i < xs.length) :
    setAt xs i v = some (xs.set i v) := by
  unfold setAt
  rw [if_pos h]

/-! ## C1: stable assembly of the Green function from two factorisations -/

/-- C1. `greenFromUdV`: if the two triples factor `B(beta, tau) = V_l d_l U_l` and
`B(tau, 0) = U_r d_r V_r`, the matrices `U_l`, `U_r` and `1 + B(tau,0) B(beta,tau)` are
invertible and `udvDecompose` returns exact factorisations of invertible matrices, then
`greenFromUdV` returns exactly `[1 + B(tau,0) B(beta,tau)]^{-1}`. -/
theorem greenFromUdV_correct {sz : ℕ} {K : Type} [Field K]
    (udvDecompose : MatV sz K → UdV sz K) (UdV_l UdV_r : UdV sz K)
    (hUl : IsUnit UdV_l.V.det) (hUr : IsUnit UdV_r.U.det)
    (hG : IsUnit (1 + UdV_r.mat * UdV_l.mat).det)
    (hudv : ∀ X : MatV sz K, IsUnit X.det → (udvDecompose X).mat = X) :
    greenFromUdV udvDecompose UdV_l UdV_r = inv (1 + UdV_r.mat * UdV_l.mat) := by
  obtain ⟨Vl, dl, Ul⟩ := UdV_l
  obtain ⟨Ur, dr, Vr⟩ := UdV_r
  simp only [UdV.mat] at hG hUl hUr ⊢
  set T : MatV sz K :=
    inv (Ul * Ur) + Matrix.diagonal dr * (Vr * Vl) * Matrix.diagonal dl with hT
  have key : Ur * T * Ul
      = 1 + Ur * Matrix.diagonal dr * Vr * (Vl * Matrix.diagonal dl * Ul) := by
    rw [hT, inv_eq, Matrix.mul_inv_rev, Matrix.mul_add, Matrix.add_mul]
    congr 1
    · rw [← Matrix.mul_assoc, Matrix.mul_nonsing_inv _ hUr, Matrix.one_mul,
        Matrix.nonsing_inv_mul _ hUl]
    · simp only [Matrix.mul_assoc]
  have hTdet : IsUnit T.det := by
    rw [← key, Matrix.det_mul, Matrix.det_mul] at hG
    exact (IsUnit.mul_iff.mp (IsUnit.mul_iff.mp hG).1).2
  have hfac := hudv T hTdet
  unfold greenFromUdV
  simp only
  rw [← hT]
  set W := udvDecompose T with hW
  obtain ⟨Ut, dt, Vt⟩ := W
  simp only [UdV.mat] at hfac
  have hdets : IsUnit Ut.det ∧ IsUnit (Matrix.diagonal dt).det ∧ IsUnit Vt.det := by
    rw [← hfac, Matrix.det_mul, Matrix.det_mul] at hTdet
    have h1 := IsUnit.mul_iff.mp hTdet
    have h2 := IsUnit.mul_iff.mp h1.1
    exact ⟨h2.1, h2.2, h1.2⟩
  obtain ⟨hUt, hDt, hVt⟩ := hdets
  rw [← key, ← hfac, diagonal_one_div dt hDt, inv_eq, inv_eq, inv_eq]
  symm
  apply Matrix.inv_eq_left_inv
  rw [Matrix.mul_inv_rev, Matrix.mul_inv_rev]
  have e1 : Ul⁻¹ * Vt⁻¹ * (Matrix.diagonal dt)⁻¹ * (Ut⁻¹ * Ur⁻¹) *
      (Ur * (Ut * Matrix.diagonal dt * Vt) * Ul)
      = Ul⁻¹ * (Vt⁻¹ * ((Matrix.diagonal dt)⁻¹
          * (Ut⁻¹ * ((Ur⁻¹ * Ur) * Ut) * Matrix.diagonal dt) * Vt)) * Ul := by
    simp only [Matrix.mul_assoc]
  rw [e1, Matrix.nonsing_inv_mul _ hUr, Matrix.one_mul, Matrix.nonsing_inv_mul _ hUt,
    Matrix.one_mul, Matrix.nonsing_inv_mul _ hDt, Matrix.one_mul,
    Matrix.nonsing_inv_mul _ hVt, Matrix.mul_one, Matrix.nonsing_inv_mul _ hUl]

/-- Witness for C1: two by two matrices over the rationals, `B(beta,tau) = 1` and
`B(tau,0) = 2`, with the decomposition `X = X * diag(1) * 1`. -/
theorem greenFromUdV_correct_witness :
    greenFromUdV (fun X : MatV 2 ℚ => (⟨X, fun _ => 1, 1⟩ : UdV 2 ℚ))
      ⟨1, fun _ => 1, 1⟩ ⟨1, fun _ => 2, 1⟩
      = inv (1 + UdV.mat (⟨1, fun _ => 2, 1⟩ : UdV 2 ℚ) * UdV.mat ⟨1, fun _ => 1, 1⟩) :=
  greenFromUdV_correct _ _ _ (by simp) (by simp)
    (by simp [UdV.mat, Matrix.det_fin_two]; norm_num)
    (by intro X _; simp [UdV.mat])

/-! ## Lemmas: the Woodbury identity for a site block -/

theorem takesomecols_eq_mul {MSF N : ℕ} {K : Type} [Field K] {κ : Type} [Fintype κ]
    (A : Matrix κ (Fin MSF × Fin N) K) (site : Fin N) :
    takesomecols A site = A * takesomecols (1 : MatData MSF N K) site := by
  ext row c
  simp [takesomecols, Matrix.mul_apply, Matrix.one_apply]

theorem takesomerows_eq_mul {MSF N : ℕ} {K : Type} [Field K] {κ : Type} [Fintype κ]
    (A : Matrix (Fin MSF × Fin N) κ K) (site : Fin N) :
    takesomerows A site = takesomerows (1 : MatData MSF N K) site * A := by
  ext r col
  simp [takesomerows, Matrix.mul_apply, Matrix.one_apply]

theorem takesomerows_mul_takesomecols_one {MSF N : ℕ} {K : Type} [Field K] (site : Fin N) :
    takesomerows (1 : MatData MSF N K) site * takesomecols (1 : MatData MSF N K) site = 1 := by
  rw [← takesomerows_eq_mul]
  ext r c
  simp [takesomerows, takesomecols, Matrix.one_apply]

theorem siteBlock_eq_mul {MSF N : ℕ} {K : Type} [Field K] (site : Fin N)
    (delta : MatSmall MSF K) :
    siteBlock site delta
      = takesomecols (1 : MatData MSF N K) site * delta
        * takesomerows (1 : MatData MSF N K) site := by
  ext ⟨a, i⟩ ⟨b, j⟩
  simp only [siteBlock, Matrix.of_apply, Matrix.mul_apply, takesomecols, takesomerows,
    Matrix.one_apply, Prod.mk.injEq]
  by_cases hi : i = site
  · by_cases hj : j = site
    · subst hi hj
      simp [Finset.sum_ite_eq]
    · have : ∀ x : Fin MSF, ¬ (x = b ∧ site = j) := fun x h => hj h.2.symm
      simp [hi, hj, this]
  · simp [hi]

theorem g_sub_eq_mul {MSF N : ℕ} {K : Type} [Field K] (g : MatData MSF N K) (site : Fin N) :
    g_sub g site = takesomerows (1 : MatData MSF N K) site * g
      * takesomecols (1 : MatData MSF N K) site := by
  rw [← takesomerows_eq_mul, ← takesomecols_eq_mul]
  rfl

theorem mat_V_eq {MSF N : ℕ} {K : Type} [Field K] (g : MatData MSF N K) (site : Fin N) :
    mat_V g site = takesomerows (1 : MatData MSF N K) site * g
      - takesomerows (1 : MatData MSF N K) site := by
  rw [← takesomerows_eq_mul]
  ext r col
  simp only [mat_V, takesomerows, Matrix.of_apply, Matrix.sub_apply, Matrix.one_apply]
  congr 1
  by_cases h : col = (r, site)
  · simp [h]
  · have : ¬ ((r, site) = col) := fun h' => h h'.symm
    simp [h, this]

/-- Abstract form of the rank `MSF` update: with `F * E = 1`, `M = 1 + (1 - F G E) Δ`
invertible, the updated matrix times `1 + E Δ F (1 - G)` gives back `G`. -/
theorem woodbury_mul {n r : Type} [Fintype n] [DecidableEq n] [Fintype r] [DecidableEq r]
    {K : Type} [Field K] (G : Matrix n n K) (E : Matrix n r K) (F : Matrix r n K)
    (Δ : Matrix r r K) (hFE : F * E = 1)
    (hM : IsUnit (1 + (1 - F * G * E) * Δ).det) :
    (G + G * E * Δ * ((1 + (1 - F * G * E) * Δ)⁻¹ * (F * G - F))) * (1 + E * Δ * F * (1 - G))
      = G := by
  set M := 1 + (1 - F * G * E) * Δ with hMdef
  set W := F * (1 - G) with hW
  set P := G * E * Δ with hP
  have hWE : W * E * Δ = M - 1 := by
    rw [hW, hMdef, Matrix.mul_sub, Matrix.mul_one, Matrix.sub_mul, hFE]
    simp
  have hFG : F * G - F = -W := by
    rw [hW, Matrix.mul_sub, Matrix.mul_one]
    simp
  have hQ : M⁻¹ * W * E * Δ = 1 - M⁻¹ := by
    rw [Matrix.mul_assoc, Matrix.mul_assoc, ← Matrix.mul_assoc W, hWE, Matrix.mul_sub,
      Matrix.nonsing_inv_mul _ hM, Matrix.mul_one]
  have e1 : E * Δ * F * (1 - G) = E * Δ * W := by
    rw [hW, Matrix.mul_assoc (E * Δ)]
  rw [hFG, e1, Matrix.mul_neg, Matrix.mul_neg, ← sub_eq_add_neg, Matrix.sub_mul,
    Matrix.mul_add, Matrix.mul_add, Matrix.mul_one, Matrix.mul_one]
  have e2 : G * (E * Δ * W) = P * W := by
    rw [hP]
    simp only [Matrix.mul_assoc]
  have e3 : P * (M⁻¹ * W) * (E * Δ * W) = P * (M⁻¹ * W * E * Δ) * W := by
    simp only [Matrix.mul_assoc]
  rw [e2, e3, hQ, Matrix.mul_sub, Matrix.mul_one, Matrix.sub_mul, Matrix.mul_assoc P M⁻¹ W]
  abel

/-- Matrix determinant lemma for the site block. -/
theorem woodbury_det {n r : Type} [Fintype n] [DecidableEq n] [Fintype r] [DecidableEq r]
    {K : Type} [Field K] (G : Matrix n n K) (E : Matrix n r K) (F : Matrix r n K)
    (Δ : Matrix r r K) (hFE : F * E = 1) :
    (1 + E * Δ * F * (1 - G)).det = (1 + (1 - F * G * E) * Δ).det := by
  have e1 : E * Δ * F * (1 - G) = (E * Δ) * (F * (1 - G)) := by
    simp only [Matrix.mul_assoc]
  have e2 : (F * (1 - G)) * (E * Δ) = (1 - F * G * E) * Δ := by
    rw [Matrix.mul_sub, Matrix.mul_one, ← Matrix.mul_assoc, Matrix.sub_mul, hFE]
  rw [e1, Matrix.det_one_add_mul_comm, e2]

/-- The determinant of the local matrix `M` is the determinant of `1 + D (1 - G)`. -/
theorem det_woodburyM {MSF N : ℕ} {K : Type} [Field K] (g : MatData MSF N K) (site : Fin N)
    (delta : MatSmall MSF K) :
    (woodburyM g site delta).det = (1 + siteBlock site delta * (1 - g)).det := by
  rw [woodburyM, g_sub_eq_mul, siteBlock_eq_mul,
    woodbury_det g _ _ delta (takesomerows_mul_takesomecols_one site)]

/-- The Woodbury update is the right multiplication by `[1 + D (1 - G)]^{-1}`. -/
theorem woodburyUpdate_eq_mul_inv {MSF N : ℕ} {K : Type} [Field K] (g : MatData MSF N K)
    (site : Fin N) (delta : MatSmall MSF K) (hM : IsUnit (woodburyM g site delta).det) :
    woodburyUpdate g site delta = g * (1 + siteBlock site delta * (1 - g))⁻¹ := by
  have hdet : IsUnit (1 + siteBlock site delta * (1 - g)).det := by
    rw [← det_woodburyM]; exact hM
  have key := woodbury_mul g (takesomecols (1 : MatData MSF N K) site)
    (takesomerows (1 : MatData MSF N K) site) delta (takesomerows_mul_takesomecols_one site)
    (by rw [← g_sub_eq_mul]; exact hM)
  rw [← g_sub_eq_mul, ← siteBlock_eq_mul, ← mat_V_eq] at key
  have e : woodburyUpdate g site delta
      = g + g * takesomecols (1 : MatData MSF N K) site * delta *
        ((1 + (1 - g_sub g site) * delta)⁻¹ * mat_V g site) := by
    unfold woodburyUpdate g_times_mat_U
    rw [inv_eq, woodburyM]
    congr 2
    rw [← takesomecols_eq_mul]
    rfl
  rw [e]
  calc g + g * takesomecols (1 : MatData MSF N K) site * delta *
        ((1 + (1 - g_sub g site) * delta)⁻¹ * mat_V g site)
      = (g + g * takesomecols (1 : MatData MSF N K) site * delta *
        ((1 + (1 - g_sub g site) * delta)⁻¹ * mat_V g site))
          * ((1 + siteBlock site delta * (1 - g)) * (1 + siteBlock site delta * (1 - g))⁻¹) := by
        rw [Matrix.mul_nonsing_inv _ hdet, Matrix.mul_one]
    _ = g * (1 + siteBlock site delta * (1 - g))⁻¹ := by
        rw [← Matrix.mul_assoc, key]

/-! ## Lemmas: the potential part of the slice propagator -/

theorem evMatrix2_mul_inverse {K : Type} [Field K] (withImag : Bool) (imagI : K)
    (k0 k1 c s cc sc : K)
    (h1 : c * c - (k0 * k0 + (if withImag then k1 * k1 else 0)) * (s * s) = 1)
    (h2 : cc * cc - sc * sc = 1) (hi : withImag = true → imagI * imagI = -1) :
    evMatrix2 withImag imagI 1 k0 k1 c s cc sc * evMatrix2 withImag imagI (-1) k0 k1 c s cc sc
      = 1 := by
  ext a b
  rw [Matrix.mul_apply, Fin.sum_univ_two]
  cases withImag
  · simp only [Bool.false_eq_true, if_false] at h1
    fin_cases a <;> fin_cases b <;>
      simp [evMatrix2, Matrix.one_apply] <;>
      first
        | ring1
        | linear_combination (cc * cc) * h1 + h2
  · have hi := hi rfl
    simp only [if_true] at h1
    fin_cases a <;> fin_cases b <;>
      simp [evMatrix2, Matrix.one_apply] <;>
      first
        | ring1
        | linear_combination (cc * cc) * h1 + h2 + (k1 * k1 * s * s * cc * cc) * hi

theorem evMatrix4_mul_inverse {K : Type} [Field K] (imagI : K)
    (k0 k1 k2 c s cc sc : K)
    (h1 : c * c - (k0 * k0 + k1 * k1 + k2 * k2) * (s * s) = 1) (h2 : cc * cc - sc * sc = 1)
    (hi : imagI * imagI = -1) :
    evMatrix4 imagI 1 k0 k1 k2 c s cc sc * evMatrix4 imagI (-1) k0 k1 k2 c s cc sc = 1 := by
  ext a b
  rw [Matrix.mul_apply, Fin.sum_univ_four]
  fin_cases a <;> fin_cases b <;>
    simp [evMatrix4, Matrix.one_apply] <;>
    first
      | ring1
      | linear_combination (cc * cc) * h1 + h2 + (k1 * k1 * s * s * cc * cc) * hi

/-- The matrices `e^(+dtau V)` and `e^(-dtau V)` of one site are inverse to each other
when the hyperbolic identities hold. -/
theorem evMatrix_mul_inverse {K : Type} [Field K] (o : OpDim) (imagI : K)
    (kphi : Phi o.dim K) (c s cc sc : K)
    (h1 : c * c - dot kphi kphi * (s * s) = 1) (h2 : cc * cc - sc * sc = 1)
    (himag : o ≠ OpDim.one → imagI * imagI = -1) :
    evMatrix o imagI 1 kphi c s cc sc * evMatrix o imagI (-1) kphi c s cc sc = 1 := by
  cases o
  · have e : dot kphi kphi = kphi 0 * kphi 0 := Fin.sum_univ_one _
    rw [e] at h1
    exact evMatrix2_mul_inverse false imagI (kphi 0) 0 c s cc sc (by simpa using h1) h2
      (by simp)
  · have hi := himag (by decide)
    have e : dot kphi kphi = kphi 0 * kphi 0 + kphi 1 * kphi 1 := Fin.sum_univ_two _
    rw [e] at h1
    exact evMatrix2_mul_inverse true imagI (kphi 0) (kphi 1) c s cc sc (by simpa using h1) h2
      (fun _ => hi)
  · have hi := himag (by decide)
    have e : dot kphi kphi = kphi 0 * kphi 0 + kphi 1 * kphi 1 + kphi 2 * kphi 2 :=
      Fin.sum_univ_three _
    rw [e] at h1
    exact evMatrix4_mul_inverse imagI (kphi 0) (kphi 1) (kphi 2) c s cc sc h1 h2 hi

theorem potentialFactors2_eq {K : Type} [Field K] (withImag : Bool) (imagI : K)
    (k0 k1 c s cc sc : K) :
    potentialFactors2 withImag imagI k0 k1 c s cc sc
      = evMatrix2 withImag imagI (-1) k0 k1 c s cc sc := by
  ext a b
  cases withImag <;> fin_cases a <;> fin_cases b <;>
    simp [potentialFactors2, evMatrix2] <;> ring1

theorem potentialFactors4_eq {K : Type} [Field K] (imagI : K)
    (k0 k1 k2 c s cc sc : K) :
    potentialFactors4 imagI k0 k1 k2 c s cc sc = evMatrix4 imagI (-1) k0 k1 k2 c s cc sc := by
  ext a b
  fin_cases a <;> fin_cases b <;>
    simp [potentialFactors4, evMatrix4] <;> ring1

/-- The factors written out in `singleTimesliceProp` are the entries that `evMatrix`
gives for `sign = -1`. -/
theorem potentialFactors_eq_evSite {K : Type} [Field K] [DecidableEq K] (o : OpDim)
    (imagI : K) (pars : ModelParamsSDW K) (fc : FieldConfig K) (i k : ℕ) :
    potentialFactors o imagI pars fc i k = evSite o imagI pars (-1) fc i k := by
  cases o
  · simp only [potentialFactors, potentialFactors2_eq, evSite, evMatrix, getPhi]
    split <;> rfl
  · simp only [potentialFactors, potentialFactors2_eq, evSite, evMatrix, getPhi]
    split <;> rfl
  · simp only [potentialFactors, potentialFactors4_eq, evSite, evMatrix, getPhi]
    split <;> rfl
/-! ## Lemmas: the slice propagator after a local update -/

theorem getPhi_setPhi {K : Type} (OPDIM : ℕ) (site k : ℕ) (newphi : Phi OPDIM K)
    (fc : FieldConfig K) : getPhi OPDIM (setPhi OPDIM site k newphi fc) site k = newphi := by
  funext d
  simp [getPhi, setPhi]

theorem getPhi_commitLocalUpdate {K : Type} [Field K] [DecidableEq K] (o : OpDim) (lm : Libm K)
    (pars : ModelParamsSDW K) (cdwl_eta : ℤ → K) (site k : ℕ) (newphi : Phi o.dim K)
    (new_cdwl : ℤ) (fc : FieldConfig K) :
    getPhi o.dim (commitLocalUpdate o lm pars cdwl_eta site k newphi new_cdwl fc) site k
      = newphi := by
  have e : getPhi o.dim (commitLocalUpdate o lm pars cdwl_eta site k newphi new_cdwl fc) site k
      = getPhi o.dim (setPhi o.dim site k newphi fc) site k := by
    funext d
    simp only [getPhi, commitLocalUpdate, updateCoshSinhTerms, updateCoshSinhTermsPhi,
      updateCoshSinhTermsCDWl, setCDWl]
    split <;> rfl
  rw [e, getPhi_setPhi]

/-- The part `e^(+dtau*V_old)` of `get_delta_forsite` is `evSite` with `sign = 1`. -/
theorem get_delta_forsite_eq {K : Type} [Field K] [DecidableEq K] (o : OpDim) (imagI : K)
    (lm : Libm K) (pars : ModelParamsSDW K) (cdwl_eta : ℤ → K) (fc : FieldConfig K)
    (newphi : Phi o.dim K) (new_cdwl : ℤ) (k site : ℕ) :
    get_delta_forsite o imagI lm pars cdwl_eta fc newphi new_cdwl k site
      = evSite o imagI pars (-1)
          (commitLocalUpdate o lm pars cdwl_eta site k newphi new_cdwl fc) site k
        * evSite o imagI pars 1 fc site k - 1 := by
  unfold evSite
  rw [getPhi_commitLocalUpdate]
  simp only [get_delta_forsite, commitLocalUpdate, updateCoshSinhTerms, updateCoshSinhTermsPhi,
    updateCoshSinhTermsCDWl, setCDWl, getPhi_setPhi]
  by_cases hU : pars.cdwU = 0
  · have e : getPhi o.dim
        { phi := (setPhi o.dim site k newphi fc).phi,
          cdwl := fun i t =>
            if i = site ∧ t = k then new_cdwl else (setPhi o.dim site k newphi fc).cdwl i t,
          coshTermPhi := (setPhi o.dim site k newphi fc).coshTermPhi,
          sinhTermPhi := (setPhi o.dim site k newphi fc).sinhTermPhi,
          coshTermCDWl := (setPhi o.dim site k newphi fc).coshTermCDWl,
          sinhTermCDWl := (setPhi o.dim site k newphi fc).sinhTermCDWl } site k = newphi :=
      getPhi_setPhi o.dim site k newphi fc
    simp [hU, e]
  · have e : getPhi o.dim
        { phi := (setPhi o.dim site k newphi fc).phi,
          cdwl := fun i t =>
            if i = site ∧ t = k then new_cdwl else (setPhi o.dim site k newphi fc).cdwl i t,
          coshTermPhi := (setPhi o.dim site k newphi fc).coshTermPhi,
          sinhTermPhi := (setPhi o.dim site k newphi fc).sinhTermPhi,
          coshTermCDWl := (setPhi o.dim site k newphi fc).coshTermCDWl,
          sinhTermCDWl := (setPhi o.dim site k newphi fc).sinhTermCDWl } site k = newphi :=
      getPhi_setPhi o.dim site k newphi fc
    simp [hU, e]

/-- A local update at `(site, k)` leaves the entries of `e^(sign*dtau*V)` of all other
sites and slices as they are. -/
theorem evSite_commit_other {K : Type} [Field K] [DecidableEq K] (o : OpDim) (imagI : K)
    (lm : Libm K) (pars : ModelParamsSDW K) (cdwl_eta : ℤ → K) (fc : FieldConfig K)
    (newphi : Phi o.dim K) (new_cdwl : ℤ) (k site : ℕ) (sign : ℤ) (i t : ℕ)
    (h : ¬ (i = site ∧ t = k)) :
    evSite o imagI pars sign
        (commitLocalUpdate o lm pars cdwl_eta site k newphi new_cdwl fc) i t
      = evSite o imagI pars sign fc i t := by
  have e : getPhi o.dim (commitLocalUpdate o lm pars cdwl_eta site k newphi new_cdwl fc) i t
      = getPhi o.dim fc i t := by
    funext d
    simp only [getPhi, commitLocalUpdate, updateCoshSinhTerms, updateCoshSinhTermsPhi,
      updateCoshSinhTermsCDWl, setCDWl, setPhi]
    split <;> simp [h]
  unfold evSite
  rw [e]
  simp only [commitLocalUpdate, updateCoshSinhTerms, updateCoshSinhTermsPhi,
    updateCoshSinhTermsCDWl, setCDWl, setPhi]
  by_cases hU : pars.cdwU = 0
  · simp [hU, h]
  · simp [hU, h]

theorem singleTimesliceProp_commit_other {K : Type} [Field K] [DecidableEq K] (o : OpDim)
    (N : ℕ) (imagI : K) (lm : Libm K) (pars : ModelParamsSDW K) (cdwl_eta : ℤ → K)
    (propK : Bool → Matrix (Fin N) (Fin N) K) (fc : FieldConfig K)
    (newphi : Phi o.dim K) (new_cdwl : ℤ) (k site t : ℕ) (h : t ≠ k) :
    singleTimesliceProp o N imagI pars propK
        (commitLocalUpdate o lm pars cdwl_eta site k newphi new_cdwl fc) t
      = singleTimesliceProp o N imagI pars propK fc t := by
  ext ai bj
  simp only [singleTimesliceProp, Matrix.of_apply, potentialFactors_eq_evSite]
  rw [evSite_commit_other o imagI lm pars cdwl_eta fc newphi new_cdwl k site (-1) _ t
    (fun hh => h hh.2)]

/-- The propagator of slice `k` after a local update at `(site, k)` is
`(1 + D) * B_k`, with `D` the matrix `delta_forsite` on the rows and columns of the
site. -/
theorem singleTimesliceProp_commit {K : Type} [Field K] [DecidableEq K] (o : OpDim)
    (N : ℕ) (imagI : K) (lm : Libm K) (pars : ModelParamsSDW K) (cdwl_eta : ℤ → K)
    (propK : Bool → Matrix (Fin N) (Fin N) K) (fc : FieldConfig K)
    (newphi : Phi o.dim K) (new_cdwl : ℤ) (k : ℕ) (site : Fin N)
    (hcache : CachesHyperbolic o.dim pars fc site.val k)
    (himag : o ≠ OpDim.one → imagI * imagI = -1) :
    singleTimesliceProp o N imagI pars propK
        (commitLocalUpdate o lm pars cdwl_eta site.val k newphi new_cdwl fc) k
      = (1 + siteBlock site
            (get_delta_forsite o imagI lm pars cdwl_eta fc newphi new_cdwl k site.val))
          * singleTimesliceProp o N imagI pars propK fc k := by
  have hinv : evSite o imagI pars 1 fc site.val k * evSite o imagI pars (-1) fc site.val k
      = 1 := by
    unfold evSite
    apply evMatrix_mul_inverse _ _ _ _ _ _ _ hcache.1 _ himag
    by_cases hU : pars.cdwU = 0
    · simp [hU]
    · simpa [hU] using hcache.2 hU
  have hnew : evSite o imagI pars (-1)
        (commitLocalUpdate o lm pars cdwl_eta site.val k newphi new_cdwl fc) site.val k
      = evSite o imagI pars (-1) fc site.val k
        + get_delta_forsite o imagI lm pars cdwl_eta fc newphi new_cdwl k site.val
          * evSite o imagI pars (-1) fc site.val k := by
    rw [get_delta_forsite_eq, Matrix.sub_mul, Matrix.mul_assoc, hinv, Matrix.mul_one,
      Matrix.one_mul]
    abel
  ext ⟨a, i⟩ ⟨b, j⟩
  rw [Matrix.add_mul, Matrix.one_mul, Matrix.add_apply, Matrix.mul_apply,
    Fintype.sum_prod_type]
  simp only [singleTimesliceProp, Matrix.of_apply, potentialFactors_eq_evSite, siteBlock]
  by_cases hi : i = site
  · subst hi
    rw [hnew, Matrix.add_apply, Matrix.mul_apply, add_mul, Finset.sum_mul]
    congr 1
    apply Finset.sum_congr rfl
    intro c _
    rw [Finset.sum_eq_single i]
    · simp [mul_assoc]
    · intro l _ hl
      simp [hl]
    · intro hh
      exact absurd (Finset.mem_univ _) hh
  · rw [evSite_commit_other o imagI lm pars cdwl_eta fc newphi new_cdwl k site.val (-1) i.val k
      (fun hh => hi (Fin.ext hh.1))]
    simp [hi]

theorem computeBmat_congr {ι : Type} [Fintype ι] [DecidableEq ι] {K : Type} [Field K]
    (B B2 : ℕ → Matrix ι ι K) (k1 : ℕ) :
    ∀ (d k2 : ℕ), k2 = k1 + d → (∀ t, k1 < t → t ≤ k2 → B t = B2 t) →
      computeBmat B k2 k1 = computeBmat B2 k2 k1 := by
  intro d
  induction d with
  | zero =>
    intro k2 h _
    have e : k2 = k1 := by omega
    subst e
    rw [computeBmat_self, computeBmat_self]
  | succ d ih =>
    intro k2 h hB
    have e : k2 = (k1 + d) + 1 := by omega
    subst e
    rw [computeBmat_split_left B (k1 + d) k1 (by omega),
      computeBmat_split_left B2 (k1 + d) k1 (by omega),
      ih (k1 + d) rfl (fun t h1 h2 => hB t h1 (by omega)), hB (k1 + d + 1) (by omega) (by omega)]
/-! ## The determinant ratio of a local update -/

/-- With `G = (1 + X)^{-1}`: `1 + (1 + D) X = (1 + D (1 - G)) (1 + X)`. -/
theorem one_add_update_mul {ι : Type} [Fintype ι] [DecidableEq ι] {K : Type} [Field K]
    (X D : Matrix ι ι K) (h : IsUnit (1 + X).det) :
    1 + (1 + D) * X = (1 + D * (1 - (1 + X)⁻¹)) * (1 + X) := by
  have e : (1 + D * (1 - (1 + X)⁻¹)) * (1 + X)
      = (1 + X) + D * (1 + X) - D * ((1 + X)⁻¹ * (1 + X)) := by
    noncomm_ring
  rw [e, Matrix.nonsing_inv_mul _ h]
  noncomm_ring

/-- The propagator `B(k, 0)` after a local update at `(site, k)` is `(1 + D) * B(k, 0)`,
and `B(m, k)` is unchanged. -/
theorem computeBmatSDW_commit {K : Type} [Field K] [DecidableEq K] (o : OpDim)
    (N : ℕ) (imagI : K) (lm : Libm K) (pars : ModelParamsSDW K) (cdwl_eta : ℤ → K)
    (propK : Bool → Matrix (Fin N) (Fin N) K) (fc : FieldConfig K)
    (newphi : Phi o.dim K) (new_cdwl : ℤ) (k : ℕ) (site : Fin N) (m : ℕ)
    (hk1 : 1 ≤ k) (hkm : k ≤ m)
    (hcache : CachesHyperbolic o.dim pars fc site.val k)
    (himag : o ≠ OpDim.one → imagI * imagI = -1) :
    computeBmatSDW o N imagI pars propK
        (commitLocalUpdate o lm pars cdwl_eta site.val k newphi new_cdwl fc) k 0
      = (1 + siteBlock site
            (get_delta_forsite o imagI lm pars cdwl_eta fc newphi new_cdwl k site.val))
          * computeBmatSDW o N imagI pars propK fc k 0 ∧
    computeBmatSDW o N imagI pars propK
        (commitLocalUpdate o lm pars cdwl_eta site.val k newphi new_cdwl fc) m k
      = computeBmatSDW o N imagI pars propK fc m k := by
  constructor
  · obtain ⟨k0, rfl⟩ : ∃ k0, k = k0 + 1 := ⟨k - 1, by omega⟩
    unfold computeBmatSDW
    rw [computeBmat_split_left _ k0 0 (by omega), computeBmat_split_left _ k0 0 (by omega),
      singleTimesliceProp_commit o N imagI lm pars cdwl_eta propK fc newphi new_cdwl (k0 + 1)
        site hcache himag, Matrix.mul_assoc]
    congr 1
    congr 1
    apply computeBmat_congr _ _ 0 k0 k0 (by omega)
    intro t _ ht
    exact singleTimesliceProp_commit_other o N imagI lm pars cdwl_eta propK fc newphi new_cdwl
      (k0 + 1) site.val t (by omega)
  · unfold computeBmatSDW
    apply computeBmat_congr _ _ k (m - k) m (by omega)
    intro t ht _
    exact singleTimesliceProp_commit_other o N imagI lm pars cdwl_eta propK fc newphi new_cdwl
      k site.val t (by omega)

/-- C2: if `g` is the exact Green function `[1 + B(k,0) B(beta,k)]^{-1}` of the current
field (with caches that satisfy the hyperbolic identities at the site), then the
determinant of `M = 1 + (1 - g_sub) * delta_forsite` formed in `updateInSlice_woodbury`
for a proposal `(newphi, new_cdwl)` at `(site, k)` is
`det(1 + B'(k,0) B(beta,k)) / det(1 + B(k,0) B(beta,k))`, where `B'` is computed from the
field with the proposal applied; `B'(beta,k) = B(beta,k)`. -/
theorem woodburyM_det_eq_ratio {K : Type} [Field K] [DecidableEq K] (o : OpDim)
    (N : ℕ) (imagI : K) (lm : Libm K) (pars : ModelParamsSDW K) (cdwl_eta : ℤ → K)
    (propK : Bool → Matrix (Fin N) (Fin N) K) (fc : FieldConfig K)
    (newphi : Phi o.dim K) (new_cdwl : ℤ) (k : ℕ) (site : Fin N) (g : MatData o.MSF N K)
    (hk1 : 1 ≤ k) (hkm : k ≤ pars.m)
    (himag : o ≠ OpDim.one → imagI * imagI = -1)
    (hcache : CachesHyperbolic o.dim pars fc site.val k)
    (hdet : IsUnit (1 + computeBmatSDW o N imagI pars propK fc k 0
      * computeBmatSDW o N imagI pars propK fc pars.m k).det)
    (hg : g = inv (1 + computeBmatSDW o N imagI pars propK fc k 0
      * computeBmatSDW o N imagI pars propK fc pars.m k)) :
    (woodburyM g site
        (get_delta_forsite o imagI lm pars cdwl_eta fc newphi new_cdwl k site.val)).det
      = (1 + computeBmatSDW o N imagI pars propK
              (commitLocalUpdate o lm pars cdwl_eta site.val k newphi new_cdwl fc) k 0
            * computeBmatSDW o N imagI pars propK fc pars.m k).det
        / (1 + computeBmatSDW o N imagI pars propK fc k 0
            * computeBmatSDW o N imagI pars propK fc pars.m k).det ∧
    computeBmatSDW o N imagI pars propK
        (commitLocalUpdate o lm pars cdwl_eta site.val k newphi new_cdwl fc) pars.m k
      = computeBmatSDW o N imagI pars propK fc pars.m k := by
  obtain ⟨e1, e2⟩ := computeBmatSDW_commit o N imagI lm pars cdwl_eta propK fc newphi new_cdwl
    k site pars.m hk1 hkm hcache himag
  refine ⟨?_, e2⟩
  rw [e1, Matrix.mul_assoc, one_add_update_mul _ _ hdet, Matrix.det_mul, det_woodburyM, hg,
    inv_eq, mul_div_assoc, div_self ((isUnit_iff_ne_zero).mp hdet), mul_one]

theorem singleTimesliceProp_zeroField (N : ℕ) (pars : ModelParamsSDW ℚ) (k : ℕ) :
    singleTimesliceProp OpDim.one N 0 pars (fun _ => 1) zeroField k = 1 := by
  ext ⟨a, i⟩ ⟨b, j⟩
  simp only [singleTimesliceProp, potentialFactors, potentialFactors2, zeroField,
    Matrix.of_apply, Matrix.one_apply, Prod.mk.injEq]
  fin_cases a <;> fin_cases b <;> by_cases h : i = j <;> simp [h]

theorem computeBmatSDW_zeroField (N : ℕ) (pars : ModelParamsSDW ℚ) (k2 k1 : ℕ) :
    computeBmatSDW OpDim.one N 0 pars (fun _ => 1) zeroField k2 k1 = 1 := by
  unfold computeBmatSDW computeBmat
  split
  · rfl
  · generalize (List.map (fun j => k2 - 1 - j) (List.range (k2 - 1 - k1))) = l
    induction l with
    | nil => simp [singleTimesliceProp_zeroField]
    | cons x l ih =>
      rw [List.foldl_cons, singleTimesliceProp_zeroField, singleTimesliceProp_zeroField,
        Matrix.one_mul]
      rw [singleTimesliceProp_zeroField] at ih
      exact ih

/-- Witness for C2: `OPDIM = 1`, one site, one slice, the field `phi = 0` with `B_1 = 1`
and `G = [1 + 1]^{-1}`, the proposal `newphi = 1`. -/
theorem woodburyM_det_eq_ratio_witness :
    (woodburyM (inv (1 + computeBmatSDW OpDim.one 1 0 oneSiteParams (fun _ => 1) zeroField 1 0
          * computeBmatSDW OpDim.one 1 0 oneSiteParams (fun _ => 1) zeroField oneSiteParams.m 1))
        (0 : Fin 1)
        (get_delta_forsite OpDim.one 0 rationalLibm oneSiteParams (fun _ => 0) zeroField
          (fun _ => 1) 1 1 (0 : Fin 1).val)).det
      = (1 + computeBmatSDW OpDim.one 1 0 oneSiteParams (fun _ => 1)
              (commitLocalUpdate OpDim.one rationalLibm oneSiteParams (fun _ => 0)
                (0 : Fin 1).val 1 (fun _ => 1) 1 zeroField) 1 0
            * computeBmatSDW OpDim.one 1 0 oneSiteParams (fun _ => 1) zeroField
                oneSiteParams.m 1).det
        / (1 + computeBmatSDW OpDim.one 1 0 oneSiteParams (fun _ => 1) zeroField 1 0
            * computeBmatSDW OpDim.one 1 0 oneSiteParams (fun _ => 1) zeroField
                oneSiteParams.m 1).det ∧
    computeBmatSDW OpDim.one 1 0 oneSiteParams (fun _ => 1)
        (commitLocalUpdate OpDim.one rationalLibm oneSiteParams (fun _ => 0)
          (0 : Fin 1).val 1 (fun _ => 1) 1 zeroField) oneSiteParams.m 1
      = computeBmatSDW OpDim.one 1 0 oneSiteParams (fun _ => 1) zeroField oneSiteParams.m 1 :=
  woodburyM_det_eq_ratio OpDim.one 1 0 rationalLibm oneSiteParams (fun _ => 0) (fun _ => 1)
    zeroField (fun _ => 1) 1 1 0 _ (by decide) (by decide) (by simp)
    (by simp [CachesHyperbolic, zeroField, oneSiteParams])
    (by
      rw [computeBmatSDW_zeroField, computeBmatSDW_zeroField]
      have e : (1 + 1 * 1 : MatData OpDim.one.MSF 1 ℚ) = (2 : ℚ) • 1 := by
        rw [Matrix.one_mul, two_smul]
      rw [e, Matrix.det_smul, Matrix.det_one]
      simp)
    rfl

/-- The state after an accepted proposal in `updateInSlice_woodbury`. -/
theorem updateInSlice_woodbury_site_accepted {K : Type} [Field K] [DecidableEq K] {o : OpDim}
    {N : ℕ} (env : LocalEnv o K) (timeslice : ℕ) (st : SliceState o N K) (site : Fin N)
    (hchanged : (env.proposeLocalUpdate st.fc site.val timeslice).changed ≠ Changed.NONE)
    (hferm : env.pars.turnoffFermions = false)
    (hacc : env.accept st.fc site.val
      (woodburyM st.g site
        (get_delta_forsite o env.imagI env.lm env.pars env.cdwl_eta st.fc
          (env.proposeLocalUpdate st.fc site.val timeslice).newphi
          (env.proposeLocalUpdate st.fc site.val timeslice).new_cdwl timeslice site.val)).det
      = true) :
    updateInSlice_woodbury_site env timeslice st site.val
      = { fc := commitLocalUpdate o env.lm env.pars env.cdwl_eta site.val timeslice
            (env.proposeLocalUpdate st.fc site.val timeslice).newphi
            (env.proposeLocalUpdate st.fc site.val timeslice).new_cdwl st.fc,
          g := woodburyUpdate st.g site
            (get_delta_forsite o env.imagI env.lm env.pars env.cdwl_eta st.fc
              (env.proposeLocalUpdate st.fc site.val timeslice).newphi
              (env.proposeLocalUpdate st.fc site.val timeslice).new_cdwl timeslice site.val),
          accepted := st.accepted + 1,
          Ms := st.Ms ++ [woodburyM st.g site
            (get_delta_forsite o env.imagI env.lm env.pars env.cdwl_eta st.fc
              (env.proposeLocalUpdate st.fc site.val timeslice).newphi
              (env.proposeLocalUpdate st.fc site.val timeslice).new_cdwl timeslice site.val)] } := by
  unfold updateInSlice_woodbury_site
  simp only [site.isLt, dite_true, hchanged, if_false, hferm, Bool.false_eq_true, hacc, if_true,
    Fin.eta]

/-- The Green function of the field after a local update `B_k -> (1 + D) B_k`. -/
theorem green_after_update {ι : Type} [Fintype ι] [DecidableEq ι] {K : Type} [Field K]
    (X D : Matrix ι ι K) (h : IsUnit (1 + X).det) :
    (1 + (1 + D) * X)⁻¹ = (1 + X)⁻¹ * (1 + D * (1 - (1 + X)⁻¹))⁻¹ := by
  rw [one_add_update_mul X D h, Matrix.mul_inv_rev]

/-- C3: on an accepted proposal in `updateInSlice_woodbury` with invertible `M` the new
`g` is `G + (G[:,idx] Delta) M^{-1} (G[idx,:] - I[idx,:])`, which equals
`G [1 + D (1 - G)]^{-1}`; if `G` was the exact Green function of the field (with caches
satisfying the hyperbolic identities at the site), the new `g` is the exact Green function
of the field with the accepted proposal. -/
theorem updateInSlice_woodbury_site_green {K : Type} [Field K] [DecidableEq K] {o : OpDim}
    {N : ℕ} (env : LocalEnv o K) (timeslice : ℕ) (st : SliceState o N K) (site : Fin N)
    (hchanged : (env.proposeLocalUpdate st.fc site.val timeslice).changed ≠ Changed.NONE)
    (hferm : env.pars.turnoffFermions = false)
    (hacc : env.accept st.fc site.val
      (woodburyM st.g site
        (get_delta_forsite o env.imagI env.lm env.pars env.cdwl_eta st.fc
          (env.proposeLocalUpdate st.fc site.val timeslice).newphi
          (env.proposeLocalUpdate st.fc site.val timeslice).new_cdwl timeslice site.val)).det
      = true)
    (hM : IsUnit (woodburyM st.g site
        (get_delta_forsite o env.imagI env.lm env.pars env.cdwl_eta st.fc
          (env.proposeLocalUpdate st.fc site.val timeslice).newphi
          (env.proposeLocalUpdate st.fc site.val timeslice).new_cdwl timeslice site.val)).det) :
    (updateInSlice_woodbury_site env timeslice st site.val).g
      = st.g + (takesomecols st.g site
            * get_delta_forsite o env.imagI env.lm env.pars env.cdwl_eta st.fc
                (env.proposeLocalUpdate st.fc site.val timeslice).newphi
                (env.proposeLocalUpdate st.fc site.val timeslice).new_cdwl timeslice site.val)
          * ((woodburyM st.g site
              (get_delta_forsite o env.imagI env.lm env.pars env.cdwl_eta st.fc
                (env.proposeLocalUpdate st.fc site.val timeslice).newphi
                (env.proposeLocalUpdate st.fc site.val timeslice).new_cdwl timeslice
                site.val))⁻¹
            * (takesomerows st.g site - takesomerows (1 : MatData o.MSF N K) site)) ∧
    (updateInSlice_woodbury_site env timeslice st site.val).g
      = st.g * (1 + siteBlock site
            (get_delta_forsite o env.imagI env.lm env.pars env.cdwl_eta st.fc
              (env.proposeLocalUpdate st.fc site.val timeslice).newphi
              (env.proposeLocalUpdate st.fc site.val timeslice).new_cdwl timeslice site.val)
          * (1 - st.g))⁻¹ ∧
    ∀ (propK : Bool → Matrix (Fin N) (Fin N) K),
      1 ≤ timeslice → timeslice ≤ env.pars.m →
      (o ≠ OpDim.one → env.imagI * env.imagI = -1) →
      CachesHyperbolic o.dim env.pars st.fc site.val timeslice →
      IsUnit (1 + computeBmatSDW o N env.imagI env.pars propK st.fc timeslice 0
        * computeBmatSDW o N env.imagI env.pars propK st.fc env.pars.m timeslice).det →
      st.g = inv (1 + computeBmatSDW o N env.imagI env.pars propK st.fc timeslice 0
        * computeBmatSDW o N env.imagI env.pars propK st.fc env.pars.m timeslice) →
      (updateInSlice_woodbury_site env timeslice st site.val).g
        = inv (1 + computeBmatSDW o N env.imagI env.pars propK
              (updateInSlice_woodbury_site env timeslice st site.val).fc timeslice 0
            * computeBmatSDW o N env.imagI env.pars propK
              (updateInSlice_woodbury_site env timeslice st site.val).fc env.pars.m
              timeslice) := by
  rw [updateInSlice_woodbury_site_accepted env timeslice st site hchanged hferm hacc]
  refine ⟨?_, woodburyUpdate_eq_mul_inv _ _ _ hM, ?_⟩
  · show woodburyUpdate _ _ _ = _
    unfold woodburyUpdate g_times_mat_U
    rw [inv_eq, mat_V_eq, ← takesomerows_eq_mul]
    rfl
  · intro propK hk1 hkm himag hcache hdet hg
    show woodburyUpdate _ _ _ = _
    obtain ⟨e1, e2⟩ := computeBmatSDW_commit o N env.imagI env.lm env.pars env.cdwl_eta propK
      st.fc (env.proposeLocalUpdate st.fc site.val timeslice).newphi
      (env.proposeLocalUpdate st.fc site.val timeslice).new_cdwl timeslice site env.pars.m
      hk1 hkm hcache himag
    rw [woodburyUpdate_eq_mul_inv _ _ _ hM, e1, e2, Matrix.mul_assoc, inv_eq,
      green_after_update _ _ hdet, hg, inv_eq]

theorem woodburyM_halfState :
    woodburyM halfState.g (0 : Fin 1)
        (get_delta_forsite OpDim.one acceptAllEnv.imagI acceptAllEnv.lm acceptAllEnv.pars
          acceptAllEnv.cdwl_eta halfState.fc
          (acceptAllEnv.proposeLocalUpdate halfState.fc (0 : Fin 1).val 1).newphi
          (acceptAllEnv.proposeLocalUpdate halfState.fc (0 : Fin 1).val 1).new_cdwl 1
          (0 : Fin 1).val)
      = !![9 / 8, -(3 / 8); -(3 / 8), 9 / 8] := by
  ext a b
  change Fin 2 at a
  change Fin 2 at b
  change (woodburyM _ _ _ : Matrix (Fin 2) (Fin 2) ℚ) a b = _
  fin_cases a <;> fin_cases b <;>
    simp [woodburyM, g_sub, get_delta_forsite, evMatrix, evMatrix2, getCoshSinhTermPhi,
      getCoshSinhTermCDWl, rationalLibm, dot, zeroField, oneSiteParams, getPhi, halfState,
      acceptAllEnv, Matrix.mul_apply, Fin.sum_univ_two, Matrix.one_apply] <;>
    norm_num

theorem halfState_green :
    halfState.g = inv (1 + computeBmatSDW OpDim.one 1 acceptAllEnv.imagI acceptAllEnv.pars
        (fun _ => 1) halfState.fc 1 0
      * computeBmatSDW OpDim.one 1 acceptAllEnv.imagI acceptAllEnv.pars (fun _ => 1)
        halfState.fc acceptAllEnv.pars.m 1) := by
  have e : (1 + 1 * 1 : MatData OpDim.one.MSF 1 ℚ) = (2 : ℚ) • 1 := by
    rw [Matrix.one_mul, two_smul]
  show (1 / 2 : ℚ) • (1 : MatData OpDim.one.MSF 1 ℚ) = _
  rw [show halfState.fc = zeroField from rfl, show acceptAllEnv.imagI = 0 from rfl,
    computeBmatSDW_zeroField, computeBmatSDW_zeroField, e, inv_eq,
    Matrix.inv_smul _ _ (by simp), inv_one]
  norm_num

/-- Witness for C3: `OPDIM = 1`, one site, one slice, the field `phi = 0` with the Green
function `g = 1/2`, an accepted proposal `newphi = 1` with `det M = 9/8`. -/
theorem updateInSlice_woodbury_site_green_witness :
    (updateInSlice_woodbury_site acceptAllEnv 1 halfState (0 : Fin 1).val).g
      = halfState.g * (1 + siteBlock (0 : Fin 1)
            (get_delta_forsite OpDim.one acceptAllEnv.imagI acceptAllEnv.lm acceptAllEnv.pars
              acceptAllEnv.cdwl_eta halfState.fc
              (acceptAllEnv.proposeLocalUpdate halfState.fc (0 : Fin 1).val 1).newphi
              (acceptAllEnv.proposeLocalUpdate halfState.fc (0 : Fin 1).val 1).new_cdwl 1
              (0 : Fin 1).val)
          * (1 - halfState.g))⁻¹ ∧
    (updateInSlice_woodbury_site acceptAllEnv 1 halfState (0 : Fin 1).val).g
      = inv (1 + computeBmatSDW OpDim.one 1 acceptAllEnv.imagI acceptAllEnv.pars (fun _ => 1)
            (updateInSlice_woodbury_site acceptAllEnv 1 halfState (0 : Fin 1).val).fc 1 0
          * computeBmatSDW OpDim.one 1 acceptAllEnv.imagI acceptAllEnv.pars (fun _ => 1)
            (updateInSlice_woodbury_site acceptAllEnv 1 halfState (0 : Fin 1).val).fc
            acceptAllEnv.pars.m 1) :=
  have hM : IsUnit (woodburyM halfState.g (0 : Fin 1)
      (get_delta_forsite OpDim.one acceptAllEnv.imagI acceptAllEnv.lm acceptAllEnv.pars
        acceptAllEnv.cdwl_eta halfState.fc
        (acceptAllEnv.proposeLocalUpdate halfState.fc (0 : Fin 1).val 1).newphi
        (acceptAllEnv.proposeLocalUpdate halfState.fc (0 : Fin 1).val 1).new_cdwl 1
        (0 : Fin 1).val)).det := by
    rw [woodburyM_halfState, Matrix.det_fin_two_of]
    norm_num
  have h := updateInSlice_woodbury_site_green acceptAllEnv 1 halfState (0 : Fin 1)
    (by decide) rfl rfl hM
  ⟨h.2.1, h.2.2 (fun _ => 1) (by decide) (by decide) (by simp)
    (by simp [CachesHyperbolic, zeroField, halfState])
    (by
      have e : (1 + 1 * 1 : MatData OpDim.one.MSF 1 ℚ) = (2 : ℚ) • 1 := by
        rw [Matrix.one_mul, two_smul]
      rw [show halfState.fc = zeroField from rfl, show acceptAllEnv.imagI = 0 from rfl,
        computeBmatSDW_zeroField, computeBmatSDW_zeroField, e, Matrix.det_smul,
        Matrix.det_one]
      simp)
    halfState_green⟩
/-! ## Delayed updates and immediate updates -/

theorem foldl_add_eq_sum {M : Type} [AddCommMonoid M] (f : ℕ → M) (a : M) (j : ℕ) :
    (List.range j).foldl (fun acc l => acc + f l) a = a + ∑ l ∈ Finset.range j, f l := by
  induction j with
  | zero => simp
  | succ j ih =>
    rw [List.range_succ, List.foldl_append, ih, Finset.sum_range_succ]
    simp [add_assoc]

theorem takesomerows_add {MSF N : ℕ} {K : Type} [Field K] {κ : Type}
    (A B : Matrix (Fin MSF × Fin N) κ K) (site : Fin N) :
    takesomerows (A + B) site = takesomerows A site + takesomerows B site := rfl

theorem takesomecols_add {MSF N : ℕ} {K : Type} [Field K] {κ : Type}
    (A B : Matrix κ (Fin MSF × Fin N) K) (site : Fin N) :
    takesomecols (A + B) site = takesomecols A site + takesomecols B site := rfl

theorem takesomerows_mul {MSF N : ℕ} {K : Type} [Field K] {κ μ : Type} [Fintype κ]
    (A : Matrix (Fin MSF × Fin N) κ K) (B : Matrix κ μ K) (site : Fin N) :
    takesomerows (A * B) site = takesomerows A site * B := rfl

theorem takesomecols_mul {MSF N : ℕ} {K : Type} [Field K] {κ μ : Type} [Fintype κ]
    (A : Matrix μ κ K) (B : Matrix κ (Fin MSF × Fin N) K) (site : Fin N) :
    takesomecols (A * B) site = A * takesomecols B site := rfl

theorem takesomerows_sum {MSF N : ℕ} {K : Type} [Field K] {κ : Type}
    (f : ℕ → Matrix (Fin MSF × Fin N) κ K) (j : ℕ) (site : Fin N) :
    takesomerows (∑ l ∈ Finset.range j, f l) site
      = ∑ l ∈ Finset.range j, takesomerows (f l) site := by
  induction j with
  | zero => rfl
  | succ j ih => rw [Finset.sum_range_succ, Finset.sum_range_succ, takesomerows_add, ih]

theorem takesomecols_sum {MSF N : ℕ} {K : Type} [Field K] {κ : Type}
    (f : ℕ → Matrix κ (Fin MSF × Fin N) K) (j : ℕ) (site : Fin N) :
    takesomecols (∑ l ∈ Finset.range j, f l) site
      = ∑ l ∈ Finset.range j, takesomecols (f l) site := by
  induction j with
  | zero => rfl
  | succ j ih => rw [Finset.sum_range_succ, Finset.sum_range_succ, takesomecols_add, ih]

/-- The rows `Rj` accumulated in `updateInSlice_delayed` are the rows of the effective
Green function. -/
theorem delayed_Rj {K : Type} [Field K] {o : OpDim} {N : ℕ} (ds : DelayedState o N K)
    (site : Fin N) :
    (List.range ds.j).foldl
        (fun Rj l => Rj + takesomerows (ds.X l) site * ds.Y l) (takesomerows ds.st.g site)
      = takesomerows ds.effective site := by
  rw [foldl_add_eq_sum, DelayedState.effective, takesomerows_add, takesomerows_sum]
  rfl

/-- The columns `Cj` accumulated in `updateInSlice_delayed` are the columns of the
effective Green function. -/
theorem delayed_Cj {K : Type} [Field K] {o : OpDim} {N : ℕ} (ds : DelayedState o N K)
    (site : Fin N) :
    (List.range ds.j).foldl
        (fun Cj l => Cj + ds.X l * takesomecols (ds.Y l) site) (takesomecols ds.st.g site)
      = takesomecols ds.effective site := by
  rw [foldl_add_eq_sum, DelayedState.effective, takesomecols_add, takesomecols_sum]
  rfl

/-- The matrix `Mj` of the delayed method is the matrix `M` of the immediate method for
the effective Green function. -/
theorem delayed_Mj {MSF N : ℕ} {K : Type} [Field K] (g : MatData MSF N K) (site : Fin N)
    (delta : MatSmall MSF K) :
    1 - takesomecols (takesomerows g site) site * delta + delta = woodburyM g site delta := by
  have e : takesomecols (takesomerows g site) site = g_sub g site := rfl
  rw [e, woodburyM]
  noncomm_ring

theorem woodburyUpTo_succ {K : Type} [Field K] [DecidableEq K] {o : OpDim} {N : ℕ}
    (env : LocalEnv o K) (timeslice : ℕ) (st : SliceState o N K) (n : ℕ) :
    woodburyUpTo env timeslice st (n + 1)
      = updateInSlice_woodbury_site env timeslice (woodburyUpTo env timeslice st n) n := by
  simp [woodburyUpTo, List.range_succ, List.foldl_append]

/-- One site: the body of the inner loop of `updateInSlice_delayed` and the body of the
loop of `updateInSlice_woodbury` keep the two methods related. -/
theorem delayed_site_step {K : Type} [Field K] [DecidableEq K] {o : OpDim} {N : ℕ}
    (env : LocalEnv o K) (timeslice : ℕ) (W : SliceState o N K) (ds : DelayedState o N K)
    (h : ds.site < N) (hferm : env.pars.turnoffFermions = false)
    (hfc : W.fc = ds.st.fc) (hacc : W.accepted = ds.st.accepted) (hMs : W.Ms = ds.st.Ms)
    (hg : W.g = ds.effective) :
    (updateInSlice_woodbury_site env timeslice W ds.site).fc
        = (updateInSlice_delayed_site env timeslice ds h).st.fc ∧
    (updateInSlice_woodbury_site env timeslice W ds.site).accepted
        = (updateInSlice_delayed_site env timeslice ds h).st.accepted ∧
    (updateInSlice_woodbury_site env timeslice W ds.site).Ms
        = (updateInSlice_delayed_site env timeslice ds h).st.Ms ∧
    (updateInSlice_woodbury_site env timeslice W ds.site).g
        = (updateInSlice_delayed_site env timeslice ds h).effective ∧
    (updateInSlice_delayed_site env timeslice ds h).site = ds.site + 1 := by
  obtain ⟨Wfc, Wg, Wacc, WMs⟩ := W
  simp only at hfc hacc hMs hg
  subst hfc hacc hMs hg
  unfold updateInSlice_woodbury_site updateInSlice_delayed_site
  simp only [h, dite_true, hferm, Bool.false_eq_true, if_false]
  by_cases hc : (env.proposeLocalUpdate ds.st.fc ds.site timeslice).changed = Changed.NONE
  · simp [hc, DelayedState.effective]
  · simp only [hc, if_false, ne_eq, not_false_eq_true, if_true]
    rw [delayed_Rj ds ⟨ds.site, h⟩, delayed_Mj]
    by_cases ha : env.accept ds.st.fc ds.site
        (woodburyM ds.effective ⟨ds.site, h⟩
          (get_delta_forsite o env.imagI env.lm env.pars env.cdwl_eta ds.st.fc
            (env.proposeLocalUpdate ds.st.fc ds.site timeslice).newphi
            (env.proposeLocalUpdate ds.st.fc ds.site timeslice).new_cdwl timeslice
            ds.site)).det = true
    · simp only [ha, if_true, true_and]
      rw [delayed_Cj ds ⟨ds.site, h⟩]
      simp only [DelayedState.effective, Finset.sum_range_succ, Function.update_same, and_true]
      have e : ∑ l ∈ Finset.range ds.j,
            Function.update ds.X ds.j
                (takesomecols (ds.st.g + ∑ l ∈ Finset.range ds.j, ds.X l * ds.Y l)
                    ⟨ds.site, h⟩
                  * get_delta_forsite o env.imagI env.lm env.pars env.cdwl_eta ds.st.fc
                      (env.proposeLocalUpdate ds.st.fc ds.site timeslice).newphi
                      (env.proposeLocalUpdate ds.st.fc ds.site timeslice).new_cdwl timeslice
                      ds.site) l
              * Function.update ds.Y ds.j
                  (inv (woodburyM (ds.st.g + ∑ l ∈ Finset.range ds.j, ds.X l * ds.Y l)
                      ⟨ds.site, h⟩
                      (get_delta_forsite o env.imagI env.lm env.pars env.cdwl_eta ds.st.fc
                        (env.proposeLocalUpdate ds.st.fc ds.site timeslice).newphi
                        (env.proposeLocalUpdate ds.st.fc ds.site timeslice).new_cdwl timeslice
                        ds.site))
                    * Matrix.of fun rc entry =>
                        takesomerows (ds.st.g + ∑ l ∈ Finset.range ds.j, ds.X l * ds.Y l)
                            ⟨ds.site, h⟩ rc entry
                          - if entry = (rc, ⟨ds.site, h⟩) then 1 else 0) l
          = ∑ l ∈ Finset.range ds.j, ds.X l * ds.Y l := by
        apply Finset.sum_congr rfl
        intro l hl
        have hne : l ≠ ds.j := by
          have := Finset.mem_range.mp hl
          omega
        rw [Function.update_noteq hne, Function.update_noteq hne]
      rw [e, ← add_assoc]
      rfl
    · have ha2 := ha
      simp only [DelayedState.effective] at ha2
      simp [ha, ha2, DelayedState.effective]

theorem delayedInv_site {K : Type} [Field K] [DecidableEq K] {o : OpDim} {N : ℕ}
    (env : LocalEnv o K) (timeslice : ℕ) (st0 : SliceState o N K) (ds : DelayedState o N K)
    (h : ds.site < N) (hferm : env.pars.turnoffFermions = false)
    (hinv : DelayedInv env timeslice st0 ds) :
    DelayedInv env timeslice st0 (updateInSlice_delayed_site env timeslice ds h) ∧
    (updateInSlice_delayed_site env timeslice ds h).site = ds.site + 1 := by
  obtain ⟨_, hfc, hacc, hMs, hg⟩ := hinv
  obtain ⟨s1, s2, s3, s4, s5⟩ := delayed_site_step env timeslice
    (woodburyUpTo env timeslice st0 ds.site) ds h hferm hfc hacc hMs hg
  refine ⟨⟨by omega, ?_, ?_, ?_, ?_⟩, s5⟩
  · rw [s5, woodburyUpTo_succ]; exact s1
  · rw [s5, woodburyUpTo_succ]; exact s2
  · rw [s5, woodburyUpTo_succ]; exact s3
  · rw [s5, woodburyUpTo_succ]; exact s4

/-- The inner loop of `updateInSlice_delayed` ends, keeps the two methods related and
advances the site counter if it is entered. -/
theorem delayed_batch_spec {K : Type} [Field K] [DecidableEq K] {o : OpDim} {N : ℕ}
    (env : LocalEnv o K) (timeslice delayStepsNow : ℕ) (st0 : SliceState o N K)
    (hferm : env.pars.turnoffFermions = false) :
    ∀ (fuel : ℕ) (ds : DelayedState o N K), DelayedInv env timeslice st0 ds →
      N - ds.site < fuel →
      ∃ ds2, updateInSlice_delayed_batch env timeslice delayStepsNow fuel ds = some ds2 ∧
        DelayedInv env timeslice st0 ds2 ∧ ds.site ≤ ds2.site ∧
        (ds.j < delayStepsNow → ds.site < N → ds.site < ds2.site) := by
  intro fuel
  induction fuel with
  | zero => intro ds _ h; omega
  | succ fuel ih =>
    intro ds hinv hfuel
    unfold updateInSlice_delayed_batch
    by_cases hc : ds.j < delayStepsNow ∧ ds.site < N
    · rw [dif_pos hc]
      obtain ⟨hinv1, hsite1⟩ := delayedInv_site env timeslice st0 ds hc.2 hferm hinv
      obtain ⟨ds2, e, hinv2, hle, _⟩ := ih _ hinv1 (by omega)
      exact ⟨ds2, e, hinv2, by omega, fun _ _ => by omega⟩
    · rw [dif_neg hc]
      exact ⟨ds, rfl, hinv, le_refl _, fun h1 h2 => absurd ⟨h1, h2⟩ hc⟩

/-- The relation of the two methods between the batches, when no update is delayed. -/
theorem delayedInv_flush {K : Type} [Field K] [DecidableEq K] {o : OpDim} {N : ℕ}
    (env : LocalEnv o K) (timeslice : ℕ) (st0 : SliceState o N K) (ds : DelayedState o N K)
    (hinv : DelayedInv env timeslice st0 ds) :
    DelayedInv env timeslice st0 { applyDelayedUpdates ds with j := 0 } ∧
    (applyDelayedUpdates ds).site = ds.site := by
  obtain ⟨h0, hfc, hacc, hMs, hg⟩ := hinv
  unfold applyDelayedUpdates
  by_cases hj : 0 < ds.j
  · rw [if_pos hj]
    refine ⟨⟨h0, hfc, hacc, hMs, ?_⟩, rfl⟩
    rw [hg]
    simp [DelayedState.effective, foldl_add_eq_sum]
  · rw [if_neg hj]
    have hj0 : ds.j = 0 := by omega
    refine ⟨⟨h0, hfc, hacc, hMs, ?_⟩, rfl⟩
    rw [hg]
    simp [DelayedState.effective, hj0]

/-- The outer loop of `updateInSlice_delayed` ends at `site = N` with the state of the
immediate method. -/
theorem delayed_loop_spec {K : Type} [Field K] [DecidableEq K] {o : OpDim} {N : ℕ}
    (env : LocalEnv o K) (timeslice : ℕ) (st0 : SliceState o N K)
    (hferm : env.pars.turnoffFermions = false) (hdelay : 1 ≤ env.pars.delaySteps) :
    ∀ (fuel : ℕ) (ds : DelayedState o N K),
      DelayedInv env timeslice st0 { ds with j := 0 } → N - ds.site < fuel →
      ∃ ds2, updateInSlice_delayed_loop env timeslice fuel ds = some ds2 ∧
        DelayedInv env timeslice st0 { ds2 with j := 0 } ∧ ds2.site = N := by
  intro fuel
  induction fuel with
  | zero => intro ds _ h; omega
  | succ fuel ih =>
    intro ds hinv hfuel
    unfold updateInSlice_delayed_loop
    by_cases hc : ds.site < N
    · rw [if_pos hc]
      obtain ⟨ds1, e1, hinv1, _, hprog⟩ := delayed_batch_spec env timeslice
        (min env.pars.delaySteps (N - ds.site)) st0 hferm (fuel + 1) { ds with j := 0 } hinv
        hfuel
      have hlt : ds.site < ds1.site := hprog (by simp only [lt_min_iff]; omega) hc
      obtain ⟨hinv2, hsite2⟩ := delayedInv_flush env timeslice st0 ds1 hinv1
      obtain ⟨ds2, e2, hinv3, hN⟩ := ih (applyDelayedUpdates ds1) hinv2 (by omega)
      refine ⟨ds2, ?_, hinv3, hN⟩
      simp only [e1, Option.bind_some] 
      exact e2
    · rw [if_neg hc]
      have hle : ds.site ≤ N := hinv.1
      exact ⟨ds, rfl, hinv, by omega⟩

/-- C4: for every time slice, every `delaySteps ≥ 1` and every choice of the proposals and
of the outcomes of the acceptance tests (as functions of the field, the site and the
determinant), `updateInSlice_delayed` ends and returns the state that
`updateInSlice_woodbury` returns: the same Green function `g`, the same matrices `M` in
the order of the sites, the same field and the same count of accepted proposals. -/
theorem updateInSlice_delayed_eq_woodbury {K : Type} [Field K] [DecidableEq K] {o : OpDim}
    {N : ℕ} (env : LocalEnv o K) (timeslice fuel : ℕ) (st : SliceState o N K)
    (hferm : env.pars.turnoffFermions = false) (hdelay : 1 ≤ env.pars.delaySteps)
    (hfuel : N < fuel) :
    ∃ st2, updateInSlice_delayed env timeslice fuel st = some st2 ∧
      st2.g = (updateInSlice_woodbury env timeslice st).g ∧
      st2.Ms = (updateInSlice_woodbury env timeslice st).Ms ∧
      st2.fc = (updateInSlice_woodbury env timeslice st).fc ∧
      st2.accepted = (updateInSlice_woodbury env timeslice st).accepted := by
  have h0 : DelayedInv env timeslice st
      { ({ st := st, X := fun _ => 0, Y := fun _ => 0, j := 0, site := 0 } :
          DelayedState o N K) with j := 0 } := by
    refine ⟨Nat.zero_le _, rfl, rfl, rfl, ?_⟩
    simp [DelayedState.effective, woodburyUpTo]
  obtain ⟨ds2, e, hinv, hN⟩ := delayed_loop_spec env timeslice st hferm hdelay fuel
    { st := st, X := fun _ => 0, Y := fun _ => 0, j := 0, site := 0 } h0 (by simpa using hfuel)
  obtain ⟨_, hfc, hacc, hMs, hg⟩ := hinv
  simp only [hN] at hfc hacc hMs hg
  refine ⟨ds2.st, ?_, ?_, hMs.symm, hfc.symm, hacc.symm⟩
  · unfold updateInSlice_delayed
    rw [if_neg (by simp [hferm]), e]
    rfl
  · rw [show updateInSlice_woodbury env timeslice st = woodburyUpTo env timeslice st N from rfl,
      hg]
    simp [DelayedState.effective]

/-- Witness for C4: `OPDIM = 1`, four sites, `delaySteps = 3` (a batch of three sites and
a batch of one site), every proposal accepted. -/
theorem updateInSlice_delayed_eq_woodbury_witness :
    ∃ st2, updateInSlice_delayed fourSiteEnv 1 5 fourSiteState = some st2 ∧
      st2.g = (updateInSlice_woodbury fourSiteEnv 1 fourSiteState).g ∧
      st2.Ms = (updateInSlice_woodbury fourSiteEnv 1 fourSiteState).Ms ∧
      st2.fc = (updateInSlice_woodbury fourSiteEnv 1 fourSiteState).fc ∧
      st2.accepted = (updateInSlice_woodbury fourSiteEnv 1 fourSiteState).accepted :=
  updateInSlice_delayed_eq_woodbury fourSiteEnv 1 5 fourSiteState rfl (by decide) (by decide)
/-! ## C5: wrap steps -/

/-- C5. Wrap step: if `green[gc] = [1 + B(k,0) B(beta,k)]^{-1}`, `currentTimeslice = k`
with `1 ≤ k ≤ m`, `B_k` is invertible and the four callables multiply by `B_k` or by its
inverse from the respective side, then `wrapDownGreen(k)` yields
`green[gc] = B_k^{-1} G B_k = [1 + B(k-1,0) B(beta,k-1)]^{-1}` and `currentTimeslice = k-1`,
and `wrapUpGreen(k-1)` applied afterwards restores `green[gc]` and `currentTimeslice = k`. -/
theorem wrapDownGreen_wrapUpGreen {sz : ℕ} {K σ : Type} [Field K]
    (p : ModelConsts) (c : Callables sz K σ) (B : ℕ → MatV sz K) (gc k : ℕ)
    (st : DetModelGC sz K σ)
    (hk1 : 1 ≤ k) (hkm : k ≤ p.m) (hm : p.m < 4294967296)
    (hcur : st.currentTimeslice = k)
    (hG : st.green gc = inv (1 + computeBmat B k 0 * computeBmat B p.m k))
    (hB : IsUnit (B k).det)
    (hLI : ∀ A, c.leftMultiplyBmatInv st.ext gc A k (k - 1) = inv (B k) * A)
    (hR : ∀ A, c.rightMultiplyBmat st.ext gc A k (k - 1) = A * B k)
    (hL : ∀ A, c.leftMultiplyBmat st.ext gc A k (k - 1) = B k * A)
    (hRI : ∀ A, c.rightMultiplyBmatInv st.ext gc A k (k - 1) = A * inv (B k)) :
    ∃ st1 st2 : DetModelGC sz K σ,
      wrapDownGreen c k gc st = some st1 ∧
      st1.green gc = inv (B k) * st.green gc * B k ∧
      st1.green gc = inv (1 + computeBmat B (k - 1) 0 * computeBmat B p.m (k - 1)) ∧
      st1.currentTimeslice = k - 1 ∧
      wrapUpGreen c (k - 1) gc st1 = some st2 ∧
      st2.green gc = st.green gc ∧ st2.currentTimeslice = k := by
  have hsub : usub k 1 = k - 1 := usub_eq k 1 hk1 (by omega)
  have hadd : uadd (k - 1) 1 = k := by rw [uadd_eq _ _ (by omega)]; omega
  have hdown : wrapDownGreen c k gc st = some
      { st with
        green := Function.update st.green gc (inv (B k) * (st.green gc * B k)),
        currentTimeslice := k - 1 } := by
    unfold wrapDownGreen
    rw [if_pos hcur, hsub, hR, hLI]
  have hsplit0 : computeBmat B k 0 = B k * computeBmat B (k - 1) 0 := by
    have := computeBmat_split_left B (k - 1) 0 (Nat.zero_le _)
    rwa [Nat.sub_add_cancel hk1] at this
  have hsplitm : computeBmat B p.m (k - 1) = computeBmat B p.m k * B k := by
    have := computeBmat_split_right B p.m (k - 1) (by omega)
    rwa [Nat.sub_add_cancel hk1] at this
  refine ⟨_, { st with
      green := Function.update (Function.update st.green gc (inv (B k) * (st.green gc * B k)))
        gc (B k * ((inv (B k) * (st.green gc * B k)) * inv (B k))),
      currentTimeslice := k }, hdown, ?_, ?_, rfl, ?_, ?_, rfl⟩
  · simp [Matrix.mul_assoc]
  · simp only [Function.update_same]
    have e : (B k)⁻¹ * (1 + B k * computeBmat B (k - 1) 0 * computeBmat B p.m k) * B k
        = 1 + computeBmat B (k - 1) 0 * (computeBmat B p.m k * B k) := by
      rw [Matrix.mul_add, Matrix.add_mul, Matrix.mul_one, Matrix.nonsing_inv_mul _ hB]
      have e2 : (B k)⁻¹ * (B k * computeBmat B (k - 1) 0 * computeBmat B p.m k) * B k
          = ((B k)⁻¹ * B k) * computeBmat B (k - 1) 0 * (computeBmat B p.m k * B k) := by
        simp only [Matrix.mul_assoc]
      rw [e2, Matrix.nonsing_inv_mul _ hB, Matrix.one_mul]
    rw [hG, inv_eq, inv_eq, inv_eq, ← Matrix.mul_assoc, inv_conj _ _ hB, hsplit0, hsplitm, e]
  · unfold wrapUpGreen
    simp only [if_true, hadd, hRI, hL, Function.update_same]
  · simp only [Function.update_same, Function.update_idem, inv_eq]
    have e : B k * ((B k)⁻¹ * (st.green gc * B k) * (B k)⁻¹)
        = (B k * (B k)⁻¹) * st.green gc * (B k * (B k)⁻¹) := by
      simp only [Matrix.mul_assoc]
    rw [e, Matrix.mul_nonsing_inv _ hB, Matrix.one_mul, Matrix.mul_one]

/-- Witness for C5: one by one matrices over the rationals with `B_k = 2` for every
slice, `m = 2`, `k = 1`, and `G = 1/5 = [1 + B(1,0) B(2,1)]^{-1}`. -/
theorem wrapDownGreen_wrapUpGreen_witness :
    ∃ st1 st2 : DetModelGC 1 ℚ Unit,
      wrapDownGreen (scalarCallables 2) 1 0 (scalarState (1 / 5) 1 3) = some st1 ∧
      st1.green 0 = inv ((2 : ℚ) • (1 : MatV 1 ℚ)) * (scalarState (1 / 5) 1 3).green 0
        * ((2 : ℚ) • (1 : MatV 1 ℚ)) ∧
      st1.green 0 = inv (1 + computeBmat (fun _ => (2 : ℚ) • (1 : MatV 1 ℚ)) (1 - 1) 0
        * computeBmat (fun _ => (2 : ℚ) • (1 : MatV 1 ℚ)) 2 (1 - 1)) ∧
      st1.currentTimeslice = 1 - 1 ∧
      wrapUpGreen (scalarCallables 2) (1 - 1) 0 st1 = some st2 ∧
      st2.green 0 = (scalarState (1 / 5) 1 3).green 0 ∧ st2.currentTimeslice = 1 :=
  wrapDownGreen_wrapUpGreen ⟨1, false, 2, 1, 2⟩ (scalarCallables 2)
    (fun _ => (2 : ℚ) • (1 : MatV 1 ℚ)) 0 1 (scalarState (1 / 5) 1 3)
    (by decide) (by decide) (by decide) rfl
    (by
      ext i j
      fin_cases i; fin_cases j
      simp [scalarState, computeBmat, inv, Matrix.det_unique, Matrix.adjugate_subsingleton]
      norm_num)
    (by rw [Matrix.det_smul, Matrix.det_one]; simp)
    (by intro A; rw [inv_eq, Matrix.inv_smul _ _ (by simp)]; simp [scalarCallables])
    (by intro A; simp [scalarCallables])
    (by intro A; simp [scalarCallables])
    (by intro A; rw [inv_eq, Matrix.inv_smul _ _ (by simp)]; simp [scalarCallables])

/-! ## C6: UdV storage after setup -/

/-- The storage built by the lambda `setup`: `n + 1` entries, the identity triple at
index `0`, and a factorisation of `B(s * l, 0)` at every index `l` in `1..n`. -/
theorem setupUdVStorage_setup_correct {sz : ℕ} {K : Type} [Field K] (p : ModelConsts)
    (udvDecompose : MatV sz K → UdV sz K) (B : ℕ → MatV sz K) (fuel gc : ℕ)
    (hn : 2 ≤ p.n) (hm : p.m = p.n * p.s) (hm32 : p.m < 4294967296)
    (hn32 : p.n + 1 < 4294967296) (hfuel : p.n ≤ fuel)
    (hudv : ∀ X : MatV sz K, (udvDecompose X).mat = X) :
    ∃ storage : List (UdV sz K),
      setupUdVStorage_setup p udvDecompose (fun _ k2 k1 => computeBmat B k2 k1) fuel gc
        = some storage ∧
      storage.length = p.n + 1 ∧ storage[0]? = some (eye_UdV sz K) ∧
      ∀ l, 1 ≤ l → l ≤ p.n →
        ∃ u, storage[l]? = some u ∧ u.mat = computeBmat B (p.s * l) 0 := by
  have hsl : ∀ l, l ≤ p.n → p.s * l < 4294967296 := by
    intro l hl
    calc p.s * l ≤ p.s * p.n := Nat.mul_le_mul_left _ hl
      _ = p.m := by rw [hm, Nat.mul_comm]
      _ < 4294967296 := hm32
  have hn1 : usub p.n 1 = p.n - 1 := usub_eq _ _ (by omega) (by omega)
  unfold setupUdVStorage_setup
  rw [uadd_eq _ _ hn32, hn1]
  simp only [Option.bind_eq_bind]
  rw [setAt_some _ _ _ (by simp), Option.some_bind, setAt_some _ _ _ (by simp; omega),
    Option.some_bind]
  set storage1 := ((List.replicate (p.n + 1) (UdV.empty sz K)).set 0 (eye_UdV sz K)).set 1
    (udvDecompose (computeBmat B p.s 0)) with hst1
  have hlen1 : storage1.length = p.n + 1 := by simp [hst1]
  obtain ⟨storage, hrun, hlen, h0, hall⟩ := forLoop_up_invariant
    (fun l (storage : List (UdV sz K)) => do
      let UdV_l ← storage[l]?
      let k_l := umul p.s l
      let k_lp1 := if l < p.n - 1 then umul p.s (uadd l 1) else p.m
      let B_lp1 := computeBmat B k_lp1 k_l
      let UdV_temp := udvDecompose ((B_lp1 * UdV_l.U) * Matrix.diagonal UdV_l.d)
      setAt storage (uadd l 1) ⟨UdV_temp.U, UdV_temp.d, UdV_temp.V * UdV_l.V⟩)
    (p.n - 1)
    (fun l storage => storage.length = p.n + 1 ∧ storage[0]? = some (eye_UdV sz K) ∧
      ∀ l', 1 ≤ l' → l' ≤ l →
        ∃ u, storage[l']? = some u ∧ u.mat = computeBmat B (p.s * l') 0)
    (by omega) (p.n - 1) 1 fuel storage1 (by omega) (by omega)
    (by
      refine ⟨hlen1, ?_, ?_⟩
      · simp [hst1, List.getElem?_set]
      · intro l' h1 h2
        have : l' = 1 := by omega
        subst this
        refine ⟨udvDecompose (computeBmat B p.s 0), ?_, ?_⟩
        · simp [hst1, List.getElem?_set]
          omega
        · rw [hudv, Nat.mul_one])
    (by
      intro l storage hl1 hl2 ⟨hlen, h0, hall⟩
      obtain ⟨u, hu, humat⟩ := hall l hl1 (le_refl _)
      have hk : (if l < p.n - 1 then umul p.s (uadd l 1) else p.m) = p.s * (l + 1) := by
        split
        · rw [uadd_eq _ _ (by omega), umul_eq _ _ (hsl _ (by omega))]
        · have : l + 1 = p.n := by omega
          rw [this, hm, Nat.mul_comm]
      simp only [Option.bind_eq_bind, hu, Option.some_bind, hk]
      rw [uadd_eq _ _ (by omega), umul_eq _ _ (hsl _ (by omega)),
        setAt_some _ _ _ (by omega)]
      refine ⟨_, rfl, by simp [hlen], ?_, ?_⟩
      · rw [List.getElem?_set_ne (by omega)]
        exact h0
      · intro l' h1 h2
        by_cases hl' : l' = l + 1
        · subst hl'
          refine ⟨_, by rw [List.getElem?_set_self (by omega)], ?_⟩
          simp only [UdV.mat]
          have e := hudv (computeBmat B (p.s * (l + 1)) (p.s * l) * u.U * Matrix.diagonal u.d)
          simp only [UdV.mat] at e humat
          rw [← Matrix.mul_assoc, e, Matrix.mul_assoc, Matrix.mul_assoc,
            ← Matrix.mul_assoc u.U, humat]
          exact computeBmat_mul B _ _ (Nat.mul_le_mul_left _ (by omega)) (p.s * l) 0
            (by omega)
        · obtain ⟨u', hu', hu'mat⟩ := hall l' h1 (by omega)
          refine ⟨u', ?_, hu'mat⟩
          rw [List.getElem?_set_ne (by omega)]
          exact hu')
  refine ⟨storage, hrun, hlen, h0, ?_⟩
  intro l h1 h2
  exact hall l h1 (by omega)

/-- C6. UdV storage after setup: for `m = n * s` with `n ≥ 2` and an exact
`udvDecompose`, after `setupUdVStorage_and_calculateGreen_skeleton` the storage of every
Green component has `n + 1` entries, `storage[0]` is the identity triple `(1, 1, 1)`,
for every `l` in `1..n` the triple `storage[l]` factors `B(s * l, 0)` (so `storage[n]`
factors `B(m, 0)`), `currentTimeslice = m` and `lastSweepDir = Up`. -/
theorem setupUdVStorage_and_calculateGreen_skeleton_correct {sz : ℕ} {K σ : Type} [Field K]
    (p : ModelConsts) (c : Callables sz K σ) (B : ℕ → ℕ → MatV sz K) (fuel : ℕ)
    (st : DetModelGC sz K σ)
    (hn : 2 ≤ p.n) (hm : p.m = p.n * p.s) (hm32 : p.m < 4294967296)
    (hn32 : p.n + 1 < 4294967296) (hfuel : p.n ≤ fuel)
    (hudv : ∀ X : MatV sz K, (c.udvDecompose X).mat = X) :
    ∃ st' : DetModelGC sz K σ,
      setupUdVStorage_and_calculateGreen_skeleton p c
        (fun gc k2 k1 => computeBmat (B gc) k2 k1) fuel st = some st' ∧
      (∀ gc, gc < p.GC →
        (st'.UdVStorage gc).length = p.n + 1 ∧
        (st'.UdVStorage gc)[0]? = some (eye_UdV sz K) ∧
        ∀ l, 1 ≤ l → l ≤ p.n →
          ∃ u, (st'.UdVStorage gc)[l]? = some u ∧ u.mat = computeBmat (B gc) (p.s * l) 0) ∧
      st'.currentTimeslice = p.m ∧ st'.lastSweepDir = SweepDirection.Up := by
  have good : ∀ gc, ∃ storage : List (UdV sz K),
      setupUdVStorage_setup p c.udvDecompose (fun gc k2 k1 => computeBmat (B gc) k2 k1)
        fuel gc = some storage ∧
      storage.length = p.n + 1 ∧ storage[0]? = some (eye_UdV sz K) ∧
      ∀ l, 1 ≤ l → l ≤ p.n →
        ∃ u, storage[l]? = some u ∧ u.mat = computeBmat (B gc) (p.s * l) 0 := by
    intro gc
    have h := setupUdVStorage_setup_correct p c.udvDecompose (B gc) fuel gc hn hm hm32 hn32
      hfuel hudv
    unfold setupUdVStorage_setup at h ⊢
    exact h
  unfold setupUdVStorage_and_calculateGreen_skeleton
  refine bind_spec
    (fun st1 => ∀ gc, gc < p.GC →
      (st1.UdVStorage gc).length = p.n + 1 ∧ (st1.UdVStorage gc)[0]? = some (eye_UdV sz K) ∧
      ∀ l, 1 ≤ l → l ≤ p.n →
        ∃ u, (st1.UdVStorage gc)[l]? = some u ∧ u.mat = computeBmat (B gc) (p.s * l) 0)
    ?_ ?_
  · have h := forEachGC_invariant p.GC
      (fun gc (st : DetModelGC sz K σ) =>
        (setupUdVStorage_setup p c.udvDecompose
          (fun gc k2 k1 => computeBmat (B gc) k2 k1) fuel gc).bind (fun storage =>
          some { st with UdVStorage := Function.update st.UdVStorage gc storage }))
      (fun i st1 => ∀ gc, gc < i →
        (st1.UdVStorage gc).length = p.n + 1 ∧
        (st1.UdVStorage gc)[0]? = some (eye_UdV sz K) ∧
        ∀ l, 1 ≤ l → l ≤ p.n →
          ∃ u, (st1.UdVStorage gc)[l]? = some u ∧ u.mat = computeBmat (B gc) (p.s * l) 0)
      st (by intro gc h; omega)
      (by
        intro i a hi hP
        obtain ⟨storage, hs, hgood⟩ := good i
        refine ⟨{ a with UdVStorage := Function.update a.UdVStorage i storage }, ?_, ?_⟩
        · beta_reduce
          rw [hs, Option.some_bind]
        · intro gc hgc
          by_cases h : gc = i
          · subst h
            simpa using hgood
          · simp only [Function.update_noteq h]
            exact hP gc (by omega))
    exact h
  · intro st1 hP1
    refine bind_spec (fun st2 => st2.UdVStorage = st1.UdVStorage) ?_ ?_
    · refine forEachGC_invariant p.GC _ (fun _ st2 => st2.UdVStorage = st1.UdVStorage) st1 rfl ?_
      intro i a hi hP
      obtain ⟨hlen, -, -⟩ := hP1 i hi
      rw [← hP] at hlen
      have hlt : p.n < (a.UdVStorage i).length := by omega
      refine ⟨updateGreenFunctionUdV p c i (eye_UdV sz K) ((a.UdVStorage i)[p.n]) a, ?_, ?_⟩
      · beta_reduce
        rw [List.getElem?_eq_getElem hlt, Option.some_bind]
      · rw [← hP]
        unfold updateGreenFunctionUdV
        split <;> rfl
    · intro st2 hP2
      refine ⟨_, rfl, ?_, rfl, rfl⟩
      intro gc hgc
      show _ ∧ _
      simp only [hP2]
      exact hP1 gc hgc

/-- Witness for C6: one Green component of one by one rational matrices with constant
slice propagator `2`, `m = 6`, `s = 2`, `n = 3`. -/
theorem setupUdVStorage_and_calculateGreen_skeleton_correct_witness :
    ∃ st' : DetModelGC 1 ℚ Unit,
      setupUdVStorage_and_calculateGreen_skeleton ⟨1, false, 6, 2, 3⟩ (scalarCallables 2)
        (fun gc k2 k1 => computeBmat ((fun _ _ => (2 : ℚ) • (1 : MatV 1 ℚ)) gc) k2 k1) 3
        (scalarState 1 0 0) = some st' ∧
      (∀ gc, gc < 1 →
        (st'.UdVStorage gc).length = 3 + 1 ∧
        (st'.UdVStorage gc)[0]? = some (eye_UdV 1 ℚ) ∧
        ∀ l, 1 ≤ l → l ≤ 3 →
          ∃ u, (st'.UdVStorage gc)[l]? = some u ∧
            u.mat = computeBmat ((fun _ _ => (2 : ℚ) • (1 : MatV 1 ℚ)) gc) (2 * l) 0) ∧
      st'.currentTimeslice = 6 ∧ st'.lastSweepDir = SweepDirection.Up :=
  setupUdVStorage_and_calculateGreen_skeleton_correct ⟨1, false, 6, 2, 3⟩ (scalarCallables 2)
    (fun _ _ => (2 : ℚ) • (1 : MatV 1 ℚ)) 3 (scalarState 1 0 0)
    (by decide) (by decide) (by decide) (by decide) (by decide)
    (by intro X; simp [scalarCallables, UdV.mat])

/-! ## Checkerboard break-up: the factors of one plaquette -/

theorem plaquetteMatrix_apply {N : ℕ} {K : Type} [Field K] (p : Fin 4 → Fin N)
    (M : Matrix (Fin 4) (Fin 4) K) (r x : Fin N) :
    plaquetteMatrix p M r x
      = (if r = x then 1 else 0)
        + ∑ a, ∑ b, (if r = p a then 1 else 0) * (M a b - (if a = b then 1 else 0))
            * (if x = p b then 1 else 0) := by
  simp only [plaquetteMatrix, Matrix.add_apply, Matrix.one_apply, Matrix.mul_apply,
    Matrix.of_apply, Matrix.sub_apply, Finset.sum_mul]
  rw [Finset.sum_comm]

theorem plaquette_embed_mul {N : ℕ} {K : Type} [Field K] (p q : Fin 4 → Fin N) :
    (Matrix.of fun a r => if r = p a then (1 : K) else 0)
        * (Matrix.of fun r a => if r = q a then (1 : K) else 0)
      = Matrix.of fun a b => if p a = q b then (1 : K) else 0 := by
  ext a b
  simp only [Matrix.mul_apply, Matrix.of_apply]
  rw [Finset.sum_eq_single (p a)]
  · simp
  · intro r _ hr
    simp [hr]
  · intro h
    exact absurd (Finset.mem_univ _) h

theorem plaquetteMatrix_mul {N : ℕ} {K : Type} [Field K] (p : Fin 4 → Fin N)
    (hp : Function.Injective p) (M M2 : Matrix (Fin 4) (Fin 4) K) :
    plaquetteMatrix p M * plaquetteMatrix p M2 = plaquetteMatrix p (M * M2) := by
  have e : (Matrix.of fun a r => if r = p a then (1 : K) else 0)
        * (Matrix.of fun r a => if r = p a then (1 : K) else 0) = 1 := by
    rw [plaquette_embed_mul]
    ext a b
    simp [Matrix.one_apply, hp.eq_iff]
  unfold plaquetteMatrix
  generalize (Matrix.of fun r a => if r = p a then (1 : K) else 0) = E at e ⊢
  generalize (Matrix.of fun a r => if r = p a then (1 : K) else 0) = F at e ⊢
  have h1 : E * (M - 1) * F * (E * (M2 - 1) * F) = E * ((M - 1) * (M2 - 1)) * F := by
    calc E * (M - 1) * F * (E * (M2 - 1) * F)
        = E * (M - 1) * (F * E) * (M2 - 1) * F := by simp only [Matrix.mul_assoc]
      _ = E * ((M - 1) * (M2 - 1)) * F := by
        rw [e, Matrix.mul_one]
        simp only [Matrix.mul_assoc]
  have h2 : M * M2 - 1 = (M - 1) + (M2 - 1) + (M - 1) * (M2 - 1) := by
    noncomm_ring
  rw [Matrix.add_mul, Matrix.mul_add, Matrix.mul_add, Matrix.one_mul, Matrix.mul_one,
    Matrix.one_mul, h1, h2, Matrix.mul_add, Matrix.mul_add, Matrix.add_mul, Matrix.add_mul]
  abel

theorem plaquetteMatrix_one {N : ℕ} {K : Type} [Field K] (p : Fin 4 → Fin N) :
    plaquetteMatrix p (1 : Matrix (Fin 4) (Fin 4) K) = 1 := by
  simp [plaquetteMatrix]

theorem plaquetteMatrix_comm {N : ℕ} {K : Type} [Field K] (p q : Fin 4 → Fin N)
    (hpq : ∀ a b, p a ≠ q b) (M M2 : Matrix (Fin 4) (Fin 4) K) :
    plaquetteMatrix p M * plaquetteMatrix q M2 = plaquetteMatrix q M2 * plaquetteMatrix p M := by
  have e1 : (Matrix.of fun a r => if r = p a then (1 : K) else 0)
        * (Matrix.of fun r a => if r = q a then (1 : K) else 0) = 0 := by
    rw [plaquette_embed_mul]
    ext a b
    simp [hpq a b]
  have e2 : (Matrix.of fun a r => if r = q a then (1 : K) else 0)
        * (Matrix.of fun r a => if r = p a then (1 : K) else 0) = 0 := by
    rw [plaquette_embed_mul]
    ext a b
    simp [(hpq b a).symm]
  unfold plaquetteMatrix
  generalize (Matrix.of fun r a => if r = p a then (1 : K) else 0) = Ep at e1 e2 ⊢
  generalize (Matrix.of fun a r => if r = p a then (1 : K) else 0) = Fp at e1 e2 ⊢
  generalize (Matrix.of fun r a => if r = q a then (1 : K) else 0) = Eq at e1 e2 ⊢
  generalize (Matrix.of fun a r => if r = q a then (1 : K) else 0) = Fq at e1 e2 ⊢
  have l : Ep * (M - 1) * Fp * (Eq * (M2 - 1) * Fq) = 0 := by
    calc Ep * (M - 1) * Fp * (Eq * (M2 - 1) * Fq)
        = Ep * (M - 1) * (Fp * Eq) * (M2 - 1) * Fq := by simp only [Matrix.mul_assoc]
      _ = 0 := by rw [e1]; simp
  have r : Eq * (M2 - 1) * Fq * (Ep * (M - 1) * Fp) = 0 := by
    calc Eq * (M2 - 1) * Fq * (Ep * (M - 1) * Fp)
        = Eq * (M2 - 1) * (Fq * Ep) * (M - 1) * Fp := by simp only [Matrix.mul_assoc]
      _ = 0 := by rw [e2]; simp
  rw [Matrix.add_mul, Matrix.mul_add, Matrix.mul_add, Matrix.one_mul, Matrix.mul_one,
    Matrix.one_mul, l, Matrix.add_mul, Matrix.mul_add, Matrix.mul_add, Matrix.one_mul,
    Matrix.mul_one, Matrix.one_mul, r]
  abel

theorem plaquette_select_mul {N : ℕ} {K : Type} [Field K] {κ : Type} (p : Fin 4 → Fin N)
    (A : Matrix (Fin N) κ K) (b : Fin 4) (c : κ) :
    ((Matrix.of fun a r => if r = p a then (1 : K) else 0) * A) b c = A (p b) c := by
  simp [Matrix.mul_apply]

theorem mul_plaquette_select {N : ℕ} {K : Type} [Field K] {κ : Type} (p : Fin 4 → Fin N)
    (A : Matrix κ (Fin N) K) (b : Fin 4) (c : κ) :
    (A * (Matrix.of fun r a => if r = p a then (1 : K) else 0)) c b = A c (p b) := by
  simp [Matrix.mul_apply]

/-- The product with the factors of a plaquette, entry by entry. -/
theorem plaquetteMatrix_mul_apply {N : ℕ} {K : Type} [Field K] {κ : Type} (p : Fin 4 → Fin N)
    (M : Matrix (Fin 4) (Fin 4) K) (A : Matrix (Fin N) κ K) (r : Fin N) (c : κ) :
    (plaquetteMatrix p M * A) r c
      = A r c + ∑ a, (if r = p a then ∑ b, (M a b - (if a = b then 1 else 0)) * A (p b) c
          else 0) := by
  unfold plaquetteMatrix
  rw [Matrix.add_mul, Matrix.one_mul, Matrix.add_apply, Matrix.mul_assoc, Matrix.mul_assoc,
    Matrix.mul_apply]
  congr 1
  apply Finset.sum_congr rfl
  intro a _
  rw [Matrix.mul_apply]
  simp only [plaquette_select_mul, Matrix.of_apply, Matrix.sub_apply, Matrix.one_apply]
  split <;> simp

/-- The product of a matrix with the factors of a plaquette, entry by entry. -/
theorem mul_plaquetteMatrix_apply {N : ℕ} {K : Type} [Field K] {κ : Type} [Fintype κ]
    (p : Fin 4 → Fin N) (M : Matrix (Fin 4) (Fin 4) K) (A : Matrix κ (Fin N) K) (r : κ)
    (c : Fin N) :
    (A * plaquetteMatrix p M) r c
      = A r c + ∑ b, (if c = p b then ∑ a, A r (p a) * (M a b - (if a = b then 1 else 0))
          else 0) := by
  unfold plaquetteMatrix
  rw [Matrix.mul_add, Matrix.mul_one, Matrix.add_apply, ← Matrix.mul_assoc, ← Matrix.mul_assoc,
    Matrix.mul_apply]
  congr 1
  apply Finset.sum_congr rfl
  intro b _
  rw [Matrix.mul_apply]
  simp only [mul_plaquette_select, Matrix.of_apply, Matrix.sub_apply, Matrix.one_apply]
  split <;> simp

/-- The row operation of one plaquette is the multiplication from the left by the
factors of the plaquette. -/
theorem applyPlaquetteLeft_eq {N : ℕ} {K : Type} [Field K] {κ : Type} (p : Fin 4 → Fin N)
    (hp : Function.Injective p) (M : Matrix (Fin 4) (Fin 4) K) (A : Matrix (Fin N) κ K) :
    applyPlaquetteLeft (p 0) (p 1) (p 2) (p 3) M A = plaquetteMatrix p M * A := by
  have h01 : p 0 ≠ p 1 := fun h => absurd (hp h) (by decide)
  have h02 : p 0 ≠ p 2 := fun h => absurd (hp h) (by decide)
  have h03 : p 0 ≠ p 3 := fun h => absurd (hp h) (by decide)
  have h12 : p 1 ≠ p 2 := fun h => absurd (hp h) (by decide)
  have h13 : p 1 ≠ p 3 := fun h => absurd (hp h) (by decide)
  have h23 : p 2 ≠ p 3 := fun h => absurd (hp h) (by decide)
  ext r c
  rw [plaquetteMatrix_mul_apply, Fin.sum_univ_four]
  simp only [applyPlaquetteLeft, Function.update_apply, Fin.sum_univ_four]
  by_cases e2 : r = p 2
  · subst e2
    simp [h02.symm, h12.symm, h23]
    ring
  · by_cases e1 : r = p 1
    · subst e1
      simp [h01.symm, h12, h13]
      ring
    · by_cases e0 : r = p 0
      · subst e0
        simp [h01, h02, h03]
        ring
      · by_cases e3 : r = p 3
        · subst e3
          simp [h03.symm, h13.symm, h23.symm]
          ring
        · simp [e0, e1, e2, e3]

/-- The column operation of one plaquette is the multiplication from the right by the
factors of the plaquette. -/
theorem applyPlaquetteRight_eq {N : ℕ} {K : Type} [Field K] {κ : Type} [Fintype κ]
    (p : Fin 4 → Fin N) (hp : Function.Injective p) (M : Matrix (Fin 4) (Fin 4) K)
    (A : Matrix κ (Fin N) K) :
    applyPlaquetteRight (p 0) (p 1) (p 2) (p 3) M A = A * plaquetteMatrix p M := by
  have h01 : p 0 ≠ p 1 := fun h => absurd (hp h) (by decide)
  have h02 : p 0 ≠ p 2 := fun h => absurd (hp h) (by decide)
  have h03 : p 0 ≠ p 3 := fun h => absurd (hp h) (by decide)
  have h12 : p 1 ≠ p 2 := fun h => absurd (hp h) (by decide)
  have h13 : p 1 ≠ p 3 := fun h => absurd (hp h) (by decide)
  have h23 : p 2 ≠ p 3 := fun h => absurd (hp h) (by decide)
  ext r c
  rw [mul_plaquetteMatrix_apply, Fin.sum_univ_four]
  simp only [applyPlaquetteRight, Function.update_apply, Fin.sum_univ_four]
  by_cases e2 : c = p 2
  · subst e2
    simp [h02.symm, h12.symm, h23]
    ring
  · by_cases e1 : c = p 1
    · subst e1
      simp [h01.symm, h12, h13]
      ring
    · by_cases e0 : c = p 0
      · subst e0
        simp [h01, h02, h03]
        ring
      · by_cases e3 : c = p 3
        · subst e3
          simp [h03.symm, h13.symm, h23.symm]
          ring
        · simp [e0, e1, e2, e3]

/-! ## Checkerboard break-up: products over the plaquettes of a subgroup -/

theorem foldl_mul_left {M α : Type} [Monoid M] (T : α → M) (l : List α) (a : M) :
    l.foldl (fun acc x => T x * acc) a = l.foldl (fun acc x => T x * acc) 1 * a := by
  induction l generalizing a with
  | nil => simp
  | cons x l ih =>
    rw [List.foldl_cons, List.foldl_cons, ih (T x * a), ih (T x * 1), mul_one, mul_assoc]

theorem foldl_mul_right {M α : Type} [Monoid M] (T : α → M) (l : List α) (a : M) :
    l.foldl (fun acc x => acc * T x) a = a * l.foldl (fun acc x => acc * T x) 1 := by
  induction l generalizing a with
  | nil => simp
  | cons x l ih =>
    rw [List.foldl_cons, List.foldl_cons, ih (a * T x), ih (1 * T x), one_mul, mul_assoc]

theorem commute_foldl_mul_left {M α : Type} [Monoid M] (T : α → M) (l : List α) (c : M)
    (h : ∀ y ∈ l, Commute c (T y)) : Commute c (l.foldl (fun acc x => T x * acc) 1) := by
  induction l with
  | nil => exact Commute.one_right c
  | cons x l ih =>
    rw [List.foldl_cons, foldl_mul_left, mul_one]
    exact (ih (fun y hy => h y (List.mem_cons_of_mem _ hy))).mul_right
      (h x (List.mem_cons_self _ _))

theorem foldl_mul_right_eq_left {M α : Type} [Monoid M] (T : α → M) (l : List α)
    (h : ∀ x ∈ l, ∀ y ∈ l, Commute (T x) (T y)) :
    l.foldl (fun acc x => acc * T x) 1 = l.foldl (fun acc x => T x * acc) 1 := by
  induction l with
  | nil => rfl
  | cons x l ih =>
    rw [List.foldl_cons, List.foldl_cons, foldl_mul_right, foldl_mul_left T l (T x * 1),
      one_mul, mul_one,
      ih (fun a ha b hb => h a (List.mem_cons_of_mem _ ha) b (List.mem_cons_of_mem _ hb))]
    exact (commute_foldl_mul_left T l (T x)
      (fun y hy => h x (List.mem_cons_self _ _) y (List.mem_cons_of_mem _ hy))).eq

theorem foldl_mul_left_inverse {M α : Type} [Monoid M] (f g : α → M) (l : List α)
    (hinv : ∀ x ∈ l, g x * f x = 1) (h : ∀ x ∈ l, ∀ y ∈ l, Commute (g x) (f y)) :
    l.foldl (fun acc x => g x * acc) 1 * l.foldl (fun acc x => f x * acc) 1 = 1 := by
  induction l with
  | nil => simp
  | cons x l ih =>
    rw [List.foldl_cons, List.foldl_cons, foldl_mul_left g l (g x * 1),
      foldl_mul_left f l (f x * 1), mul_one, mul_one]
    have hc := commute_foldl_mul_left f l (g x)
      (fun y hy => h x (List.mem_cons_self _ _) y (List.mem_cons_of_mem _ hy))
    calc l.foldl (fun acc x => g x * acc) 1 * g x * (l.foldl (fun acc x => f x * acc) 1 * f x)
        = l.foldl (fun acc x => g x * acc) 1 * (g x * l.foldl (fun acc x => f x * acc) 1)
            * f x := by simp only [mul_assoc]
      _ = l.foldl (fun acc x => g x * acc) 1 * (l.foldl (fun acc x => f x * acc) 1 * g x)
            * f x := by rw [hc.eq]
      _ = (l.foldl (fun acc x => g x * acc) 1 * l.foldl (fun acc x => f x * acc) 1)
            * (g x * f x) := by simp only [mul_assoc]
      _ = 1 := by
        rw [ih (fun a ha => hinv a (List.mem_cons_of_mem _ ha))
          (fun a ha b hb => h a (List.mem_cons_of_mem _ ha) b (List.mem_cons_of_mem _ hb)),
          hinv x (List.mem_cons_self _ _), mul_one]

/-- Two nested loops over the corners are one loop over `plaquetteList`. -/
theorem nested_foldl_eq {β : Type} (L subgroup : ℕ) (h : β → ℕ → ℕ → β) (A : β) :
    (plaquetteRange L subgroup).foldl
        (fun R i1 => (plaquetteRange L subgroup).foldl (fun R i2 => h R i1 i2) R) A
      = (plaquetteList L subgroup).foldl (fun R q => h R q.1 q.2) A := by
  unfold plaquetteList
  generalize hl2 : plaquetteRange L subgroup = l2
  have key : ∀ (l1 : List ℕ) (A : β),
      l1.foldl (fun R i1 => l2.foldl (fun R i2 => h R i1 i2) R) A
        = (l1.flatMap (fun i1 => l2.map (fun i2 => (i1, i2)))).foldl
            (fun R q => h R q.1 q.2) A := by
    intro l1
    induction l1 with
    | nil => intro A; rfl
    | cons x l1 ih =>
      intro A
      rw [List.foldl_cons, List.flatMap_cons, List.foldl_append, List.foldl_map, ih]
  exact key l2 A

theorem mem_plaquetteList {L subgroup : ℕ} {q : ℕ × ℕ} (h : q ∈ plaquetteList L subgroup) :
    q.1 ∈ plaquetteRange L subgroup ∧ q.2 ∈ plaquetteRange L subgroup := by
  unfold plaquetteList at h
  rw [List.mem_flatMap] at h
  obtain ⟨i1, h1, h2⟩ := h
  rw [List.mem_map] at h2
  obtain ⟨i2, h3, rfl⟩ := h2
  exact ⟨h1, h3⟩

theorem bondFactors_mul_neg {K : Type} [Field K] (a b c d : K) (h1 : a * a - b * b = 1)
    (h2 : c * c - d * d = 1) : bondFactors a b c d * bondFactors a (-b) c (-d) = 1 := by
  ext x y
  rw [Matrix.mul_apply, Fin.sum_univ_four]
  fin_cases x <;> fin_cases y <;>
    simp [bondFactors, Matrix.one_apply] <;>
    first
      | ring1
      | linear_combination (c * c - d * d) * h1 + h2

theorem plaquetteFactors_mul_inverse {K : Type} [Field K] (pars : ModelParamsSDW K)
    (a b c d : K) (i1 i2 : ℕ) (h1 : a * a - b * b = 1) (h2 : c * c - d * d = 1) :
    plaquetteFactors pars a (((1 : ℤ) : K) * b) c (((1 : ℤ) : K) * d) i1 i2
        * plaquetteFactors pars a (((-1 : ℤ) : K) * b) c (((-1 : ℤ) : K) * d) i1 i2 = 1 ∧
    plaquetteFactors pars a (((-1 : ℤ) : K) * b) c (((-1 : ℤ) : K) * d) i1 i2
        * plaquetteFactors pars a (((1 : ℤ) : K) * b) c (((1 : ℤ) : K) * d) i1 i2 = 1 := by
  have h1n : a * a - (-b) * (-b) = 1 := by rw [neg_mul_neg]; exact h1
  have h2n : c * c - (-d) * (-d) = 1 := by rw [neg_mul_neg]; exact h2
  simp only [plaquetteFactors, Int.cast_one, one_mul, Int.cast_neg, neg_mul, neg_neg]
  constructor
  · split <;> split
    · have := bondFactors_mul_neg a (-b) c (-d) h1n h2n
      simpa using this
    · have := bondFactors_mul_neg a (-b) c d h1n h2
      simpa using this
    · have := bondFactors_mul_neg a b c (-d) h1 h2n
      simpa using this
    · exact bondFactors_mul_neg a b c d h1 h2
  · split <;> split
    · exact bondFactors_mul_neg a b c d h1 h2
    · have := bondFactors_mul_neg a b c (-d) h1 h2n
      simpa using this
    · have := bondFactors_mul_neg a (-b) c d h1n h2
      simpa using this
    · have := bondFactors_mul_neg a (-b) c (-d) h1n h2n
      simpa using this

theorem plaquette_injective {N : ℕ} (lat : Lattice N) (L subgroup : ℕ)
    (hd : PlaquettesDisjoint lat L) (hg : subgroup ∈ [0, 1]) (q : ℕ × ℕ)
    (hq : q ∈ plaquetteList L subgroup) :
    Function.Injective (plaquetteSites lat q.1 q.2) := by
  obtain ⟨h1, h2⟩ := mem_plaquetteList hq
  intro a b hab
  exact (hd subgroup hg q.1 h1 q.2 h2 q.1 h1 q.2 h2 a b hab).2.2

theorem plaquette_disjoint {N : ℕ} (lat : Lattice N) (L subgroup : ℕ)
    (hd : PlaquettesDisjoint lat L) (hg : subgroup ∈ [0, 1]) (q q2 : ℕ × ℕ)
    (hq : q ∈ plaquetteList L subgroup) (hq2 : q2 ∈ plaquetteList L subgroup) (hne : q ≠ q2) :
    ∀ a b, plaquetteSites lat q.1 q.2 a ≠ plaquetteSites lat q2.1 q2.2 b := by
  obtain ⟨h1, h2⟩ := mem_plaquetteList hq
  obtain ⟨h3, h4⟩ := mem_plaquetteList hq2
  intro a b hab
  obtain ⟨e1, e2, _⟩ := hd subgroup hg q.1 h1 q.2 h2 q2.1 h3 q2.2 h4 a b hab
  exact hne (Prod.ext e1 e2)

/-- The factors of two plaquettes of a subgroup commute. -/
theorem plaquetteMatrix_commute {N : ℕ} {K : Type} [Field K] (lat : Lattice N)
    (L subgroup : ℕ) (hd : PlaquettesDisjoint lat L) (hg : subgroup ∈ [0, 1])
    (F G : ℕ → ℕ → Matrix (Fin 4) (Fin 4) K)
    (hFG : ∀ i1 i2, Commute (G i1 i2) (F i1 i2)) (q q2 : ℕ × ℕ)
    (hq : q ∈ plaquetteList L subgroup) (hq2 : q2 ∈ plaquetteList L subgroup) :
    Commute (plaquetteMatrix (plaquetteSites lat q.1 q.2) (G q.1 q.2))
      (plaquetteMatrix (plaquetteSites lat q2.1 q2.2) (F q2.1 q2.2)) := by
  by_cases hne : q = q2
  · subst hne
    have hinj := plaquette_injective lat L subgroup hd hg q hq
    show _ * _ = _ * _
    rw [plaquetteMatrix_mul _ hinj, plaquetteMatrix_mul _ hinj, (hFG q.1 q.2).eq]
  · exact plaquetteMatrix_comm _ _ (plaquette_disjoint lat L subgroup hd hg q q2 hq hq2 hne) _ _

/-- `cb_assaad_applyBondFactorsLeft` multiplies from the left by the product of the
factors of the plaquettes of the subgroup. -/
theorem cb_assaad_applyBondFactorsLeft_eq {N : ℕ} {K : Type} [Field K] (lat : Lattice N)
    (pars : ModelParamsSDW K) (subgroup : ℕ) (hd : PlaquettesDisjoint lat pars.L)
    (hg : subgroup ∈ [0, 1]) (a b c d : K) (A : Matrix (Fin N) (Fin N) K) :
    cb_assaad_applyBondFactorsLeft lat pars subgroup a b c d A
      = subgroupMatrix lat pars subgroup a b c d * A := by
  unfold cb_assaad_applyBondFactorsLeft subgroupMatrix
  rw [nested_foldl_eq pars.L subgroup
    (fun R i1 i2 => applyPlaquetteLeft (plaquetteSites lat i1 i2 0) (plaquetteSites lat i1 i2 1)
      (plaquetteSites lat i1 i2 2) (plaquetteSites lat i1 i2 3)
      (plaquetteFactors pars a b c d i1 i2) R) A,
    ← foldl_mul_left]
  apply List.foldl_ext
  intro R q hq
  exact applyPlaquetteLeft_eq _ (plaquette_injective lat pars.L subgroup hd hg q hq) _ _

/-- `cb_assaad_applyBondFactorsRight` multiplies from the right by the same product. -/
theorem cb_assaad_applyBondFactorsRight_eq {N : ℕ} {K : Type} [Field K] (lat : Lattice N)
    (pars : ModelParamsSDW K) (subgroup : ℕ) (hd : PlaquettesDisjoint lat pars.L)
    (hg : subgroup ∈ [0, 1]) (a b c d : K) (A : Matrix (Fin N) (Fin N) K) :
    cb_assaad_applyBondFactorsRight lat pars subgroup a b c d A
      = A * subgroupMatrix lat pars subgroup a b c d := by
  unfold cb_assaad_applyBondFactorsRight subgroupMatrix
  rw [nested_foldl_eq pars.L subgroup
    (fun R i1 i2 => applyPlaquetteRight (plaquetteSites lat i1 i2 0)
      (plaquetteSites lat i1 i2 1) (plaquetteSites lat i1 i2 2) (plaquetteSites lat i1 i2 3)
      (plaquetteFactors pars a b c d i1 i2) R) A,
    ← foldl_mul_right_eq_left
      (fun q : ℕ × ℕ => plaquetteMatrix (plaquetteSites lat q.1 q.2)
        (plaquetteFactors pars a b c d q.1 q.2)) _
      (fun x hx y hy => plaquetteMatrix_commute lat pars.L subgroup hd hg
        (plaquetteFactors pars a b c d) (plaquetteFactors pars a b c d)
        (fun _ _ => Commute.refl _) x y hx hy),
    ← foldl_mul_right]
  apply List.foldl_ext
  intro R q hq
  exact applyPlaquetteRight_eq _ (plaquette_injective lat pars.L subgroup hd hg q hq) _ _

/-- The products of the factors of a subgroup for the two signs are inverse to each
other. -/
theorem subgroupMatrix_mul_inverse {N : ℕ} {K : Type} [Field K] (lat : Lattice N)
    (pars : ModelParamsSDW K) (subgroup : ℕ) (hd : PlaquettesDisjoint lat pars.L)
    (hg : subgroup ∈ [0, 1]) (a b c d : K) (h1 : a * a - b * b = 1)
    (h2 : c * c - d * d = 1) :
    subgroupMatrix lat pars subgroup a (((1 : ℤ) : K) * b) c (((1 : ℤ) : K) * d)
      * subgroupMatrix lat pars subgroup a (((-1 : ℤ) : K) * b) c (((-1 : ℤ) : K) * d) = 1 := by
  unfold subgroupMatrix
  apply foldl_mul_left_inverse
  · intro q hq
    rw [plaquetteMatrix_mul _ (plaquette_injective lat pars.L subgroup hd hg q hq),
      (plaquetteFactors_mul_inverse pars a b c d q.1 q.2 h1 h2).1, plaquetteMatrix_one]
  · intro x hx y hy
    exact plaquetteMatrix_commute lat pars.L subgroup hd hg _ _
      (fun i1 i2 => by
        show _ * _ = _ * _
        rw [(plaquetteFactors_mul_inverse pars a b c d i1 i2 h1 h2).1,
          (plaquetteFactors_mul_inverse pars a b c d i1 i2 h1 h2).2]) x y hx hy

/-- Without magnetic field `cbLMultHoppingExp` multiplies from the left by
`hoppingExp`. -/
theorem cbLMultHoppingExp_eq {N : ℕ} {K : Type} [Field K] (lat : Lattice N)
    (hop : HoppingData N K) (pars : ModelParamsSDW K) (hz : pars.weakZflux = false)
    (hd : PlaquettesDisjoint lat pars.L) (A : Matrix (Fin N) (Fin N) K) (band : Bool)
    (sign : ℤ) :
    cbLMultHoppingExp lat hop pars A band sign = hoppingExp lat hop pars band sign * A := by
  unfold cbLMultHoppingExp hoppingExp
  simp only [hz, Bool.false_eq_true, not_false_eq_true, if_true]
  rw [cb_assaad_applyBondFactorsLeft_eq lat pars 1 hd (by simp),
    cb_assaad_applyBondFactorsLeft_eq lat pars 0 hd (by simp),
    cb_assaad_applyBondFactorsLeft_eq lat pars 1 hd (by simp)]
  simp only [Matrix.mul_assoc]

/-- Without magnetic field `cbRMultHoppingExp` multiplies from the right by
`hoppingExp`. -/
theorem cbRMultHoppingExp_eq {N : ℕ} {K : Type} [Field K] (lat : Lattice N)
    (hop : HoppingData N K) (pars : ModelParamsSDW K) (hz : pars.weakZflux = false)
    (hd : PlaquettesDisjoint lat pars.L) (A : Matrix (Fin N) (Fin N) K) (band : Bool)
    (sign : ℤ) :
    cbRMultHoppingExp lat hop pars A band sign = A * hoppingExp lat hop pars band sign := by
  unfold cbRMultHoppingExp hoppingExp
  simp only [hz, Bool.false_eq_true, not_false_eq_true, if_true]
  rw [cb_assaad_applyBondFactorsRight_eq lat pars 1 hd (by simp),
    cb_assaad_applyBondFactorsRight_eq lat pars 0 hd (by simp),
    cb_assaad_applyBondFactorsRight_eq lat pars 1 hd (by simp)]
  simp only [Matrix.mul_assoc]

/-- The hopping parts for the two signs are inverse to each other. -/
theorem hoppingExp_mul_inverse {N : ℕ} {K : Type} [Field K] (lat : Lattice N)
    (hop : HoppingData N K) (pars : ModelParamsSDW K) (hd : PlaquettesDisjoint lat pars.L)
    (hh : HoppingHyperbolic hop) (band : Bool) :
    hoppingExp lat hop pars band 1 * hoppingExp lat hop pars band (-1) = 1 := by
  obtain ⟨h1, h2, h3, h4⟩ := hh band
  have e1 := subgroupMatrix_mul_inverse lat pars 1 hd (by simp) _ _ _ _ h3 h4
  have e0 := subgroupMatrix_mul_inverse lat pars 0 hd (by simp) _ _ _ _ h1 h2
  unfold hoppingExp
  generalize subgroupMatrix lat pars 1 (hop.coshHopHorHalf band)
    (((1 : ℤ) : K) * hop.sinhHopHorHalf band) (hop.coshHopVerHalf band)
    (((1 : ℤ) : K) * hop.sinhHopVerHalf band) = P1 at e1 ⊢
  generalize subgroupMatrix lat pars 1 (hop.coshHopHorHalf band)
    (((-1 : ℤ) : K) * hop.sinhHopHorHalf band) (hop.coshHopVerHalf band)
    (((-1 : ℤ) : K) * hop.sinhHopVerHalf band) = M1 at e1 ⊢
  generalize subgroupMatrix lat pars 0 (hop.coshHopHor band)
    (((1 : ℤ) : K) * hop.sinhHopHor band) (hop.coshHopVer band)
    (((1 : ℤ) : K) * hop.sinhHopVer band) = P0 at e0 ⊢
  generalize subgroupMatrix lat pars 0 (hop.coshHopHor band)
    (((-1 : ℤ) : K) * hop.sinhHopHor band) (hop.coshHopVer band)
    (((-1 : ℤ) : K) * hop.sinhHopVer band) = M0 at e0 ⊢
  calc P1 * (P0 * P1) * (M1 * (M0 * M1))
      = P1 * (P0 * (P1 * M1) * M0) * M1 := by simp only [Matrix.mul_assoc]
    _ = 1 := by rw [e1, Matrix.mul_one, e0, Matrix.mul_one, e1]

/-! ## Checkerboard break-up: the blocks of `B_k` -/

theorem blockDiagSite_mul_apply {MSF N : ℕ} {K : Type} [Field K] (v : Fin N → MatSmall MSF K)
    (X : MatData MSF N K) (a : Fin MSF) (i : Fin N) (cj : Fin MSF × Fin N) :
    (blockDiagSite v * X) (a, i) cj = ∑ b, v i a b * X (b, i) cj := by
  rw [Matrix.mul_apply, Fintype.sum_prod_type]
  apply Finset.sum_congr rfl
  intro b _
  rw [Finset.sum_eq_single i]
  · simp [blockDiagSite]
  · intro x _ hx
    simp [blockDiagSite, Ne.symm hx]
  · intro h
    exact absurd (Finset.mem_univ _) h

theorem mul_blockDiagSite_apply {MSF N : ℕ} {K : Type} [Field K] (v : Fin N → MatSmall MSF K)
    (X : MatData MSF N K) (ai : Fin MSF × Fin N) (c : Fin MSF) (j : Fin N) :
    (X * blockDiagSite v) ai (c, j) = ∑ b, X ai (b, j) * v j b c := by
  rw [Matrix.mul_apply, Fintype.sum_prod_type]
  apply Finset.sum_congr rfl
  intro b _
  rw [Finset.sum_eq_single j]
  · simp [blockDiagSite]
  · intro x _ hx
    simp [blockDiagSite, hx]
  · intro h
    exact absurd (Finset.mem_univ _) h

theorem blockDiagBand_mul_apply {MSF N : ℕ} {K : Type} [Field K]
    (P : Fin MSF → Matrix (Fin N) (Fin N) K) (X : MatData MSF N K) (a : Fin MSF) (i : Fin N)
    (c : Fin MSF) (j : Fin N) :
    (blockDiagBand P * X) (a, i) (c, j) = (P a * block X a c) i j := by
  rw [Matrix.mul_apply, Fintype.sum_prod_type, Finset.sum_eq_single a]
  · simp [blockDiagBand, block, Matrix.mul_apply]
  · intro b _ hb
    simp [blockDiagBand, Ne.symm hb]
  · intro h
    exact absurd (Finset.mem_univ _) h

theorem mul_blockDiagBand_apply {MSF N : ℕ} {K : Type} [Field K]
    (P : Fin MSF → Matrix (Fin N) (Fin N) K) (X : MatData MSF N K) (a : Fin MSF) (i : Fin N)
    (c : Fin MSF) (j : Fin N) :
    (X * blockDiagBand P) (a, i) (c, j) = (block X a c * P c) i j := by
  rw [Matrix.mul_apply, Fintype.sum_prod_type, Finset.sum_eq_single c]
  · simp [blockDiagBand, block, Matrix.mul_apply]
  · intro b _ hb
    simp [blockDiagBand, hb]
  · intro h
    exact absurd (Finset.mem_univ _) h

theorem blockDiagSite_mul {MSF N : ℕ} {K : Type} [Field K] (v w : Fin N → MatSmall MSF K) :
    blockDiagSite v * blockDiagSite w = blockDiagSite (fun i => v i * w i) := by
  ext ⟨a, i⟩ ⟨c, j⟩
  rw [blockDiagSite_mul_apply]
  by_cases h : i = j
  · subst h
    simp [blockDiagSite, Matrix.mul_apply]
  · simp [blockDiagSite, h]

theorem blockDiagSite_one {MSF N : ℕ} {K : Type} [Field K] :
    blockDiagSite (fun _ : Fin N => (1 : MatSmall MSF K)) = 1 := by
  ext ⟨a, i⟩ ⟨c, j⟩
  simp only [blockDiagSite, Matrix.of_apply, Matrix.one_apply, Prod.mk.injEq]
  by_cases h : i = j <;> by_cases h2 : a = c <;> simp [h, h2]

theorem blockDiagBand_mul {MSF N : ℕ} {K : Type} [Field K]
    (P Q : Fin MSF → Matrix (Fin N) (Fin N) K) :
    blockDiagBand P * blockDiagBand Q = blockDiagBand (fun a => P a * Q a) := by
  ext ⟨a, i⟩ ⟨c, j⟩
  rw [blockDiagBand_mul_apply]
  by_cases h : a = c
  · subst h
    simp [blockDiagBand, block, Matrix.mul_apply]
  · simp [blockDiagBand, block, Matrix.mul_apply, h]

theorem blockDiagBand_one {MSF N : ℕ} {K : Type} [Field K] :
    blockDiagBand (fun _ : Fin MSF => (1 : Matrix (Fin N) (Fin N) K)) = 1 := by
  ext ⟨a, i⟩ ⟨c, j⟩
  simp only [blockDiagBand, Matrix.of_apply, Matrix.one_apply, Prod.mk.injEq]
  by_cases h : i = j <;> by_cases h2 : a = c <;> simp [h, h2]

theorem block_ext {MSF N : ℕ} {K : Type} (X Y : MatData MSF N K)
    (h : ∀ a c, block X a c = block Y a c) : X = Y := by
  ext ⟨a, i⟩ ⟨c, j⟩
  have := congrFun (congrFun (h a c) i) j
  exact this

theorem block_blockDiagSite_mul {MSF N : ℕ} {K : Type} [Field K]
    (v : Fin N → MatSmall MSF K) (X : MatData MSF N K) (a c : Fin MSF) :
    block (blockDiagSite v * X) a c
      = ∑ b, Matrix.diagonal (fun x => v x a b) * block X b c := by
  ext i j
  rw [Matrix.sum_apply]
  simp only [block, Matrix.of_apply, blockDiagSite_mul_apply, Matrix.diagonal_mul]

theorem block_mul_blockDiagSite {MSF N : ℕ} {K : Type} [Field K]
    (v : Fin N → MatSmall MSF K) (X : MatData MSF N K) (a c : Fin MSF) :
    block (X * blockDiagSite v) a c
      = ∑ b, block X a b * Matrix.diagonal (fun x => v x b c) := by
  ext i j
  rw [Matrix.sum_apply]
  simp only [block, Matrix.of_apply, mul_blockDiagSite_apply, Matrix.mul_diagonal]

theorem block_blockDiagBand_mul {MSF N : ℕ} {K : Type} [Field K]
    (P : Fin MSF → Matrix (Fin N) (Fin N) K) (X : MatData MSF N K) (a c : Fin MSF) :
    block (blockDiagBand P * X) a c = P a * block X a c := by
  ext i j
  rw [← blockDiagBand_mul_apply]
  rfl

theorem block_mul_blockDiagBand {MSF N : ℕ} {K : Type} [Field K]
    (P : Fin MSF → Matrix (Fin N) (Fin N) K) (X : MatData MSF N K) (a c : Fin MSF) :
    block (X * blockDiagBand P) a c = block X a c * P c := by
  ext i j
  rw [← mul_blockDiagBand_apply]
  rfl

theorem leftMultiplyBk2_eq {N : ℕ} {K : Type} [Field K] (v : BkVectors N K) (ovX ovY : K)
    (P : Bool → Matrix (Fin N) (Fin N) K) (orig : MatData 2 N K) :
    leftMultiplyBk2 v ovX ovY (fun A band => P band * A) orig
      = blockDiagSite (bkMinus2 v)
        * (blockDiagBand (fun b => (if bandOfBlock b then ovY else ovX) • P (bandOfBlock b))
          * orig) := by
  apply block_ext
  intro a c
  rw [block_blockDiagSite_mul, Fin.sum_univ_two]
  simp only [block_blockDiagBand_mul]
  have e : block (leftMultiplyBk2 v ovX ovY (fun A band => P band * A) orig) a c
      = ![Matrix.diagonal (ovX • v.cd) * (P false * block orig 0 c)
            + Matrix.diagonal (ovY • v.mbx) * (P true * block orig 1 c),
          Matrix.diagonal (ovX • v.mbcx) * (P false * block orig 0 c)
            + Matrix.diagonal (ovY • v.cmd) * (P true * block orig 1 c)] a := rfl
  rw [e]
  fin_cases a <;>
    simp [bkMinus2, bandOfBlock, Matrix.diagonal_smul, Matrix.smul_mul, Matrix.mul_smul]

theorem leftMultiplyBk4_eq {N : ℕ} {K : Type} [Field K] (v : BkVectors N K) (ovX ovY : K)
    (P : Bool → Matrix (Fin N) (Fin N) K) (orig : MatData 4 N K) :
    leftMultiplyBk4 v ovX ovY (fun A band => P band * A) orig
      = blockDiagSite (bkMinus4 v)
        * (blockDiagBand (fun b => (if bandOfBlock b then ovY else ovX) • P (bandOfBlock b))
          * orig) := by
  apply block_ext
  intro a c
  rw [block_blockDiagSite_mul, Fin.sum_univ_four]
  simp only [block_blockDiagBand_mul]
  have e : block (leftMultiplyBk4 v ovX ovY (fun A band => P band * A) orig) a c
      = ![Matrix.diagonal (ovX • v.cd) * (P false * block orig 0 c)
            + Matrix.diagonal (ovY • v.mbx) * (P true * block orig 1 c)
            + Matrix.diagonal (ovY • v.max) * (P true * block orig 3 c),
          Matrix.diagonal (ovX • v.mbcx) * (P false * block orig 0 c)
            + Matrix.diagonal (ovY • v.cmd) * (P true * block orig 1 c)
            + Matrix.diagonal (ovX • v.ax) * (P false * block orig 2 c),
          Matrix.diagonal (ovY • v.ax) * (P true * block orig 1 c)
            + Matrix.diagonal (ovX • v.cd) * (P false * block orig 2 c)
            + Matrix.diagonal (ovY • v.mbcx) * (P true * block orig 3 c),
          Matrix.diagonal (ovX • v.max) * (P false * block orig 0 c)
            + Matrix.diagonal (ovX • v.mbx) * (P false * block orig 2 c)
            + Matrix.diagonal (ovY • v.cmd) * (P true * block orig 3 c)] a := rfl
  rw [e]
  fin_cases a <;>
    simp [bkMinus4, bandOfBlock, Matrix.diagonal_smul, Matrix.smul_mul, Matrix.mul_smul] <;>
    abel

theorem leftMultiplyBkInv2_eq {N : ℕ} {K : Type} [Field K] (v : BkVectors N K) (ovX ovY : K)
    (P : Bool → Matrix (Fin N) (Fin N) K) (orig : MatData 2 N K) :
    leftMultiplyBkInv2 v ovX ovY (fun A band => P band * A) orig
      = blockDiagBand (fun b => (if bandOfBlock b then ovY else ovX) • P (bandOfBlock b))
        * (blockDiagSite (bkPlus2 v) * orig) := by
  apply block_ext
  intro a c
  rw [block_blockDiagBand_mul, block_blockDiagSite_mul, Fin.sum_univ_two]
  have e : block (leftMultiplyBkInv2 v ovX ovY (fun A band => P band * A) orig) a c
      = ![P false * (Matrix.diagonal (ovX • v.cmd) * block orig 0 c)
            + P false * (Matrix.diagonal (ovX • v.bx) * block orig 1 c),
          P true * (Matrix.diagonal (ovY • v.bcx) * block orig 0 c)
            + P true * (Matrix.diagonal (ovY • v.cd) * block orig 1 c)] a := rfl
  rw [e]
  fin_cases a <;>
    simp [bkPlus2, bandOfBlock, Matrix.diagonal_smul, Matrix.smul_mul, Matrix.mul_smul,
      Matrix.mul_add]

theorem leftMultiplyBkInv4_eq {N : ℕ} {K : Type} [Field K] (v : BkVectors N K) (ovX ovY : K)
    (P : Bool → Matrix (Fin N) (Fin N) K) (orig : MatData 4 N K) :
    leftMultiplyBkInv4 v ovX ovY (fun A band => P band * A) orig
      = blockDiagBand (fun b => (if bandOfBlock b then ovY else ovX) • P (bandOfBlock b))
        * (blockDiagSite (bkPlus4 v) * orig) := by
  apply block_ext
  intro a c
  rw [block_blockDiagBand_mul, block_blockDiagSite_mul, Fin.sum_univ_four]
  have e : block (leftMultiplyBkInv4 v ovX ovY (fun A band => P band * A) orig) a c
      = ![P false * (Matrix.diagonal (ovX • v.cmd) * block orig 0 c)
            + P false * (Matrix.diagonal (ovX • v.bx) * block orig 1 c)
            + P false * (Matrix.diagonal (ovX • v.ax) * block orig 3 c),
          P true * (Matrix.diagonal (ovY • v.bcx) * block orig 0 c)
            + P true * (Matrix.diagonal (ovY • v.cd) * block orig 1 c)
            + P true * (Matrix.diagonal (ovY • v.max) * block orig 2 c),
          P false * (Matrix.diagonal (ovX • v.max) * block orig 1 c)
            + P false * (Matrix.diagonal (ovX • v.cmd) * block orig 2 c)
            + P false * (Matrix.diagonal (ovX • v.bcx) * block orig 3 c),
          P true * (Matrix.diagonal (ovY • v.ax) * block orig 0 c)
            + P true * (Matrix.diagonal (ovY • v.bx) * block orig 2 c)
            + P true * (Matrix.diagonal (ovY • v.cd) * block orig 3 c)] a := rfl
  rw [e]
  fin_cases a <;>
    simp [bkPlus4, bandOfBlock, Matrix.diagonal_smul, Matrix.smul_mul, Matrix.mul_smul,
      Matrix.mul_add]

theorem rightMultiplyBk2_eq {N : ℕ} {K : Type} [Field K] (v : BkVectors N K) (ovX ovY : K)
    (P : Bool → Matrix (Fin N) (Fin N) K) (orig : MatData 2 N K) :
    rightMultiplyBk2 v ovX ovY (fun A band => A * P band) orig
      = orig * (blockDiagSite (bkMinus2 v)
        * blockDiagBand (fun b => (if bandOfBlock b then ovY else ovX) • P (bandOfBlock b))) := by
  apply block_ext
  intro a c
  rw [← Matrix.mul_assoc, block_mul_blockDiagBand, block_mul_blockDiagSite, Fin.sum_univ_two]
  have e : block (rightMultiplyBk2 v ovX ovY (fun A band => A * P band) orig) a c
      = ![(ovX • block orig a 0) * Matrix.diagonal v.cd * P false
            + (ovX • block orig a 1) * Matrix.diagonal v.mbcx * P false,
          (ovY • block orig a 0) * Matrix.diagonal v.mbx * P true
            + (ovY • block orig a 1) * Matrix.diagonal v.cmd * P true] c := rfl
  rw [e]
  fin_cases c <;>
    simp [bkMinus2, bandOfBlock, Matrix.smul_mul, Matrix.mul_smul, Matrix.add_mul]

theorem rightMultiplyBk4_eq {N : ℕ} {K : Type} [Field K] (v : BkVectors N K) (ovX ovY : K)
    (P : Bool → Matrix (Fin N) (Fin N) K) (orig : MatData 4 N K) :
    rightMultiplyBk4 v ovX ovY (fun A band => A * P band) orig
      = orig * (blockDiagSite (bkMinus4 v)
        * blockDiagBand (fun b => (if bandOfBlock b then ovY else ovX) • P (bandOfBlock b))) := by
  apply block_ext
  intro a c
  rw [← Matrix.mul_assoc, block_mul_blockDiagBand, block_mul_blockDiagSite, Fin.sum_univ_four]
  have e : block (rightMultiplyBk4 v ovX ovY (fun A band => A * P band) orig) a c
      = ![(ovX • block orig a 0) * Matrix.diagonal v.cd * P false
            + (ovX • block orig a 1) * Matrix.diagonal v.mbcx * P false
            + (ovX • block orig a 3) * Matrix.diagonal v.max * P false,
          (ovY • block orig a 0) * Matrix.diagonal v.mbx * P true
            + (ovY • block orig a 1) * Matrix.diagonal v.cmd * P true
            + (ovY • block orig a 2) * Matrix.diagonal v.ax * P true,
          (ovX • block orig a 1) * Matrix.diagonal v.ax * P false
            + (ovX • block orig a 2) * Matrix.diagonal v.cd * P false
            + (ovX • block orig a 3) * Matrix.diagonal v.mbx * P false,
          (ovY • block orig a 0) * Matrix.diagonal v.max * P true
            + (ovY • block orig a 2) * Matrix.diagonal v.mbcx * P true
            + (ovY • block orig a 3) * Matrix.diagonal v.cmd * P true] c := rfl
  rw [e]
  fin_cases c <;>
    simp [bkMinus4, bandOfBlock, Matrix.smul_mul, Matrix.mul_smul, Matrix.add_mul]

theorem rightMultiplyBkInv2_eq {N : ℕ} {K : Type} [Field K] (v : BkVectors N K) (ovX ovY : K)
    (P : Bool → Matrix (Fin N) (Fin N) K) (orig : MatData 2 N K) :
    rightMultiplyBkInv2 v ovX ovY (fun A band => A * P band) orig
      = orig * (blockDiagBand (fun b => (if bandOfBlock b then ovY else ovX)
          • P (bandOfBlock b)) * blockDiagSite (bkPlus2 v)) := by
  apply block_ext
  intro a c
  rw [← Matrix.mul_assoc, block_mul_blockDiagSite, Fin.sum_univ_two]
  simp only [block_mul_blockDiagBand]
  have e : block (rightMultiplyBkInv2 v ovX ovY (fun A band => A * P band) orig) a c
      = ![(ovX • (block orig a 0 * P false)) * Matrix.diagonal v.cmd
            + (ovY • (block orig a 1 * P true)) * Matrix.diagonal v.bcx,
          (ovX • (block orig a 0 * P false)) * Matrix.diagonal v.bx
            + (ovY • (block orig a 1 * P true)) * Matrix.diagonal v.cd] c := rfl
  rw [e]
  fin_cases c <;>
    simp [bkPlus2, bandOfBlock, Matrix.smul_mul, Matrix.mul_smul]

theorem rightMultiplyBkInv4_eq {N : ℕ} {K : Type} [Field K] (v : BkVectors N K) (ovX ovY : K)
    (P : Bool → Matrix (Fin N) (Fin N) K) (orig : MatData 4 N K) :
    rightMultiplyBkInv4 v ovX ovY (fun A band => A * P band) orig
      = orig * (blockDiagBand (fun b => (if bandOfBlock b then ovY else ovX)
          • P (bandOfBlock b)) * blockDiagSite (bkPlus4 v)) := by
  apply block_ext
  intro a c
  rw [← Matrix.mul_assoc, block_mul_blockDiagSite, Fin.sum_univ_four]
  simp only [block_mul_blockDiagBand]
  have e : block (rightMultiplyBkInv4 v ovX ovY (fun A band => A * P band) orig) a c
      = ![(ovX • (block orig a 0 * P false)) * Matrix.diagonal v.cmd
            + (ovY • (block orig a 1 * P true)) * Matrix.diagonal v.bcx
            + (ovY • (block orig a 3 * P true)) * Matrix.diagonal v.ax,
          (ovX • (block orig a 0 * P false)) * Matrix.diagonal v.bx
            + (ovY • (block orig a 1 * P true)) * Matrix.diagonal v.cd
            + (ovX • (block orig a 2 * P false)) * Matrix.diagonal v.max,
          (ovY • (block orig a 1 * P true)) * Matrix.diagonal v.max
            + (ovX • (block orig a 2 * P false)) * Matrix.diagonal v.cmd
            + (ovY • (block orig a 3 * P true)) * Matrix.diagonal v.bx,
          (ovX • (block orig a 0 * P false)) * Matrix.diagonal v.ax
            + (ovX • (block orig a 2 * P false)) * Matrix.diagonal v.bcx
            + (ovY • (block orig a 3 * P true)) * Matrix.diagonal v.cd] c := rfl
  rw [e]
  fin_cases c <;>
    simp [bkPlus4, bandOfBlock, Matrix.smul_mul, Matrix.mul_smul] <;>
    abel

/-- The vectors of `leftMultiplyBk` are the entries of `e^(-dtau*V)` that `evMatrix`
gives, `OPDIM = 1`. -/
theorem bkMinus2_one {K : Type} [Field K] [DecidableEq K] (N : ℕ) (imagI : K)
    (pars : ModelParamsSDW K) (fc : FieldConfig K) (k : ℕ) (i : Fin N) :
    bkMinus2 (bkVectors OpDim.one N imagI pars fc k) i
      = evSite OpDim.one imagI pars (-1) fc i.val k := by
  ext a b
  by_cases hU : pars.cdwU = 0 <;> fin_cases a <;> fin_cases b <;>
    simp [bkMinus2, bkVectors, evSite, evMatrix, evMatrix2, getPhi, hU]
  all_goals ring1

theorem bkPlus2_one {K : Type} [Field K] [DecidableEq K] (N : ℕ) (imagI : K)
    (pars : ModelParamsSDW K) (fc : FieldConfig K) (k : ℕ) (i : Fin N) :
    bkPlus2 (bkVectors OpDim.one N imagI pars fc k) i
      = evSite OpDim.one imagI pars 1 fc i.val k := by
  ext a b
  by_cases hU : pars.cdwU = 0 <;> fin_cases a <;> fin_cases b <;>
    simp [bkPlus2, bkVectors, evSite, evMatrix, evMatrix2, getPhi, hU]

theorem bkMinus2_two {K : Type} [Field K] [DecidableEq K] (N : ℕ) (imagI : K)
    (pars : ModelParamsSDW K) (fc : FieldConfig K) (k : ℕ) (i : Fin N) :
    bkMinus2 (bkVectors OpDim.two N imagI pars fc k) i
      = evSite OpDim.two imagI pars (-1) fc i.val k := by
  ext a b
  by_cases hU : pars.cdwU = 0 <;> fin_cases a <;> fin_cases b <;>
    simp [bkMinus2, bkVectors, evSite, evMatrix, evMatrix2, getPhi, hU] <;> ring

theorem bkPlus2_two {K : Type} [Field K] [DecidableEq K] (N : ℕ) (imagI : K)
    (pars : ModelParamsSDW K) (fc : FieldConfig K) (k : ℕ) (i : Fin N) :
    bkPlus2 (bkVectors OpDim.two N imagI pars fc k) i
      = evSite OpDim.two imagI pars 1 fc i.val k := by
  ext a b
  by_cases hU : pars.cdwU = 0 <;> fin_cases a <;> fin_cases b <;>
    simp [bkPlus2, bkVectors, evSite, evMatrix, evMatrix2, getPhi, hU] <;> ring

theorem bkMinus4_three {K : Type} [Field K] [DecidableEq K] (N : ℕ) (imagI : K)
    (pars : ModelParamsSDW K) (fc : FieldConfig K) (k : ℕ) (i : Fin N) :
    bkMinus4 (bkVectors OpDim.three N imagI pars fc k) i
      = evMatrix4 imagI (-1) (fc.phi i.val 0 k) (fc.phi i.val 1 k) (fc.phi i.val 2 k)
          (fc.coshTermPhi i.val k) (fc.sinhTermPhi i.val k)
          (if pars.cdwU ≠ 0 then fc.coshTermCDWl i.val k else 1)
          (if pars.cdwU ≠ 0 then fc.sinhTermCDWl i.val k else 0) := by
  ext a b
  by_cases hU : pars.cdwU = 0 <;> fin_cases a <;> fin_cases b <;>
    simp [bkMinus4, bkVectors, evMatrix4, hU] <;> ring

theorem bkPlus4_three {K : Type} [Field K] [DecidableEq K] (N : ℕ) (imagI : K)
    (pars : ModelParamsSDW K) (fc : FieldConfig K) (k : ℕ) (i : Fin N) :
    bkPlus4 (bkVectors OpDim.three N imagI pars fc k) i
      = evMatrix4 imagI 1 (fc.phi i.val 0 k) (fc.phi i.val 1 k) (fc.phi i.val 2 k)
          (fc.coshTermPhi i.val k) (fc.sinhTermPhi i.val k)
          (if pars.cdwU ≠ 0 then fc.coshTermCDWl i.val k else 1)
          (if pars.cdwU ≠ 0 then fc.sinhTermCDWl i.val k else 0) := by
  ext a b
  by_cases hU : pars.cdwU = 0 <;> fin_cases a <;> fin_cases b <;>
    simp [bkPlus4, bkVectors, evMatrix4, hU] <;> ring

theorem evSite_three {K : Type} [Field K] [DecidableEq K] (imagI : K)
    (pars : ModelParamsSDW K) (sign : ℤ) (fc : FieldConfig K) (i k : ℕ) :
    evSite OpDim.three imagI pars sign fc i k
      = evMatrix4 imagI sign (fc.phi i 0 k) (fc.phi i 1 k) (fc.phi i 2 k)
          (fc.coshTermPhi i k) (fc.sinhTermPhi i k)
          (if pars.cdwU ≠ 0 then fc.coshTermCDWl i k else 1)
          (if pars.cdwU ≠ 0 then fc.sinhTermCDWl i k else 0) := rfl

/-- Without magnetic field and with disjoint plaquettes `leftMultiplyBk` multiplies from
the left by the dense matrix `cbBmat`. -/
theorem leftMultiplyBk_eq {K : Type} [Field K] [DecidableEq K] (o : OpDim) {N : ℕ}
    (lat : Lattice N) (hop : HoppingData N K) (imagI : K) (lm : Libm K)
    (pars : ModelParamsSDW K) (fc : FieldConfig K) (A : MatData o.MSF N K) (k : ℕ)
    (hz : pars.weakZflux = false) (hd : PlaquettesDisjoint lat pars.L) :
    leftMultiplyBk o lat hop imagI lm pars fc A k = cbBmat o lat hop imagI lm pars fc k * A := by
  have e : (fun (A : Matrix (Fin N) (Fin N) K) band => cbLMultHoppingExp lat hop pars A band (-1))
      = fun A band => hoppingExp lat hop pars band (-1) * A := by
    funext A band
    exact cbLMultHoppingExp_eq lat hop pars hz hd A band (-1)
  cases o
  · have ev : bkMinus2 (bkVectors OpDim.one N imagI pars fc k)
        = fun i : Fin N => evSite OpDim.one imagI pars (-1) fc i.val k :=
      funext (bkMinus2_one N imagI pars fc k)
    simp only [leftMultiplyBk, e, leftMultiplyBk2_eq, cbBmat, ev, Matrix.mul_assoc]
  · have ev : bkMinus2 (bkVectors OpDim.two N imagI pars fc k)
        = fun i : Fin N => evSite OpDim.two imagI pars (-1) fc i.val k :=
      funext (bkMinus2_two N imagI pars fc k)
    simp only [leftMultiplyBk, e, leftMultiplyBk2_eq, cbBmat, ev, Matrix.mul_assoc]
  · have ev : bkMinus4 (bkVectors OpDim.three N imagI pars fc k)
        = fun i : Fin N => evSite OpDim.three imagI pars (-1) fc i.val k :=
      funext (bkMinus4_three N imagI pars fc k)
    simp only [leftMultiplyBk, e, leftMultiplyBk4_eq, cbBmat, ev, Matrix.mul_assoc]

/-- Without magnetic field and with disjoint plaquettes `leftMultiplyBkInv` multiplies
from the left by the dense matrix `cbBmatInv`. -/
theorem leftMultiplyBkInv_eq {K : Type} [Field K] [DecidableEq K] (o : OpDim) {N : ℕ}
    (lat : Lattice N) (hop : HoppingData N K) (imagI : K) (lm : Libm K)
    (pars : ModelParamsSDW K) (fc : FieldConfig K) (A : MatData o.MSF N K) (k : ℕ)
    (hz : pars.weakZflux = false) (hd : PlaquettesDisjoint lat pars.L) :
    leftMultiplyBkInv o lat hop imagI lm pars fc A k
      = cbBmatInv o lat hop imagI lm pars fc k * A := by
  have e : (fun (A : Matrix (Fin N) (Fin N) K) band => cbLMultHoppingExp lat hop pars A band 1)
      = fun A band => hoppingExp lat hop pars band 1 * A := by
    funext A band
    exact cbLMultHoppingExp_eq lat hop pars hz hd A band 1
  cases o
  · have ev : bkPlus2 (bkVectors OpDim.one N imagI pars fc k)
        = fun i : Fin N => evSite OpDim.one imagI pars 1 fc i.val k :=
      funext (bkPlus2_one N imagI pars fc k)
    simp only [leftMultiplyBkInv, e, leftMultiplyBkInv2_eq, cbBmatInv, ev, Matrix.mul_assoc]
  · have ev : bkPlus2 (bkVectors OpDim.two N imagI pars fc k)
        = fun i : Fin N => evSite OpDim.two imagI pars 1 fc i.val k :=
      funext (bkPlus2_two N imagI pars fc k)
    simp only [leftMultiplyBkInv, e, leftMultiplyBkInv2_eq, cbBmatInv, ev, Matrix.mul_assoc]
  · have ev : bkPlus4 (bkVectors OpDim.three N imagI pars fc k)
        = fun i : Fin N => evSite OpDim.three imagI pars 1 fc i.val k :=
      funext (bkPlus4_three N imagI pars fc k)
    simp only [leftMultiplyBkInv, e, leftMultiplyBkInv4_eq, cbBmatInv, ev, Matrix.mul_assoc]

/-- Without magnetic field and with disjoint plaquettes `rightMultiplyBk` multiplies
from the right by the dense matrix `cbBmat`. -/
theorem rightMultiplyBk_eq {K : Type} [Field K] [DecidableEq K] (o : OpDim) {N : ℕ}
    (lat : Lattice N) (hop : HoppingData N K) (imagI : K) (lm : Libm K)
    (pars : ModelParamsSDW K) (fc : FieldConfig K) (A : MatData o.MSF N K) (k : ℕ)
    (hz : pars.weakZflux = false) (hd : PlaquettesDisjoint lat pars.L) :
    rightMultiplyBk o lat hop imagI lm pars fc A k
      = A * cbBmat o lat hop imagI lm pars fc k := by
  have e : (fun (A : Matrix (Fin N) (Fin N) K) band => cbRMultHoppingExp lat hop pars A band (-1))
      = fun A band => A * hoppingExp lat hop pars band (-1) := by
    funext A band
    exact cbRMultHoppingExp_eq lat hop pars hz hd A band (-1)
  cases o
  · have ev : bkMinus2 (bkVectors OpDim.one N imagI pars fc k)
        = fun i : Fin N => evSite OpDim.one imagI pars (-1) fc i.val k :=
      funext (bkMinus2_one N imagI pars fc k)
    simp only [rightMultiplyBk, e, rightMultiplyBk2_eq, cbBmat, ev]
  · have ev : bkMinus2 (bkVectors OpDim.two N imagI pars fc k)
        = fun i : Fin N => evSite OpDim.two imagI pars (-1) fc i.val k :=
      funext (bkMinus2_two N imagI pars fc k)
    simp only [rightMultiplyBk, e, rightMultiplyBk2_eq, cbBmat, ev]
  · have ev : bkMinus4 (bkVectors OpDim.three N imagI pars fc k)
        = fun i : Fin N => evSite OpDim.three imagI pars (-1) fc i.val k :=
      funext (bkMinus4_three N imagI pars fc k)
    simp only [rightMultiplyBk, e, rightMultiplyBk4_eq, cbBmat, ev]

/-- Without magnetic field and with disjoint plaquettes `rightMultiplyBkInv` multiplies
from the right by the dense matrix `cbBmatInv`. -/
theorem rightMultiplyBkInv_eq {K : Type} [Field K] [DecidableEq K] (o : OpDim) {N : ℕ}
    (lat : Lattice N) (hop : HoppingData N K) (imagI : K) (lm : Libm K)
    (pars : ModelParamsSDW K) (fc : FieldConfig K) (A : MatData o.MSF N K) (k : ℕ)
    (hz : pars.weakZflux = false) (hd : PlaquettesDisjoint lat pars.L) :
    rightMultiplyBkInv o lat hop imagI lm pars fc A k
      = A * cbBmatInv o lat hop imagI lm pars fc k := by
  have e : (fun (A : Matrix (Fin N) (Fin N) K) band => cbRMultHoppingExp lat hop pars A band 1)
      = fun A band => A * hoppingExp lat hop pars band 1 := by
    funext A band
    exact cbRMultHoppingExp_eq lat hop pars hz hd A band 1
  cases o
  · have ev : bkPlus2 (bkVectors OpDim.one N imagI pars fc k)
        = fun i : Fin N => evSite OpDim.one imagI pars 1 fc i.val k :=
      funext (bkPlus2_one N imagI pars fc k)
    simp only [rightMultiplyBkInv, e, rightMultiplyBkInv2_eq, cbBmatInv, ev]
  · have ev : bkPlus2 (bkVectors OpDim.two N imagI pars fc k)
        = fun i : Fin N => evSite OpDim.two imagI pars 1 fc i.val k :=
      funext (bkPlus2_two N imagI pars fc k)
    simp only [rightMultiplyBkInv, e, rightMultiplyBkInv2_eq, cbBmatInv, ev]
  · have ev : bkPlus4 (bkVectors OpDim.three N imagI pars fc k)
        = fun i : Fin N => evSite OpDim.three imagI pars 1 fc i.val k :=
      funext (bkPlus4_three N imagI pars fc k)
    simp only [rightMultiplyBkInv, e, rightMultiplyBkInv4_eq, cbBmatInv, ev]

/-- The dense matrices of the checkerboard break-up are inverse to each other. -/
theorem cbBmatInv_mul_cbBmat {K : Type} [Field K] [DecidableEq K] (o : OpDim) {N : ℕ}
    (lat : Lattice N) (hop : HoppingData N K) (imagI : K) (lm : Libm K)
    (pars : ModelParamsSDW K) (fc : FieldConfig K) (k : ℕ)
    (hd : PlaquettesDisjoint lat pars.L) (hh : HoppingHyperbolic hop)
    (hcache : ∀ i : Fin N, CachesHyperbolic o.dim pars fc i.val k)
    (himag : o ≠ OpDim.one → imagI * imagI = -1)
    (hexpx : lm.exp (-pars.dtau * pars.mux) * lm.exp (pars.dtau * pars.mux) = 1)
    (hexpy : lm.exp (-pars.dtau * pars.muy) * lm.exp (pars.dtau * pars.muy) = 1) :
    cbBmatInv o lat hop imagI lm pars fc k * cbBmat o lat hop imagI lm pars fc k = 1 := by
  have hV : blockDiagSite (fun i : Fin N => evSite o imagI pars 1 fc i.val k)
      * blockDiagSite (fun i : Fin N => evSite o imagI pars (-1) fc i.val k) = 1 := by
    have ev : (fun i : Fin N => evSite o imagI pars 1 fc i.val k
        * evSite o imagI pars (-1) fc i.val k) = fun _ => 1 := by
      funext i
      unfold evSite
      apply evMatrix_mul_inverse _ _ _ _ _ _ _ (hcache i).1 _ himag
      by_cases hU : pars.cdwU = 0
      · simp [hU]
      · simpa [hU] using (hcache i).2 hU
    rw [blockDiagSite_mul, ev, blockDiagSite_one]
  have hP : blockDiagBand (fun b : Fin o.MSF =>
        (if bandOfBlock b then lm.exp (-pars.dtau * pars.muy)
          else lm.exp (-pars.dtau * pars.mux)) • hoppingExp lat hop pars (bandOfBlock b) 1)
      * blockDiagBand (fun b : Fin o.MSF =>
        (if bandOfBlock b then lm.exp (pars.dtau * pars.muy)
          else lm.exp (pars.dtau * pars.mux)) • hoppingExp lat hop pars (bandOfBlock b) (-1))
      = 1 := by
    have ep : (fun b : Fin o.MSF =>
        ((if bandOfBlock b then lm.exp (-pars.dtau * pars.muy)
          else lm.exp (-pars.dtau * pars.mux)) • hoppingExp lat hop pars (bandOfBlock b) 1)
        * ((if bandOfBlock b then lm.exp (pars.dtau * pars.muy)
          else lm.exp (pars.dtau * pars.mux)) • hoppingExp lat hop pars (bandOfBlock b) (-1)))
        = fun _ => 1 := by
      funext b
      rw [Matrix.smul_mul, Matrix.mul_smul, smul_smul,
        hoppingExp_mul_inverse lat hop pars hd hh]
      by_cases hb : bandOfBlock b = true
      · simp only [hb, if_true]
        rw [hexpy, one_smul]
      · simp only [hb, Bool.false_eq_true, if_false]
        rw [hexpx, one_smul]
    rw [blockDiagBand_mul, ep, blockDiagBand_one]
  unfold cbBmatInv cbBmat
  generalize blockDiagSite (fun i : Fin N => evSite o imagI pars 1 fc i.val k) = Vp at hV ⊢
  generalize blockDiagSite (fun i : Fin N => evSite o imagI pars (-1) fc i.val k) = Vm at hV ⊢
  generalize blockDiagBand (fun b : Fin o.MSF =>
        (if bandOfBlock b then lm.exp (-pars.dtau * pars.muy)
          else lm.exp (-pars.dtau * pars.mux)) • hoppingExp lat hop pars (bandOfBlock b) 1)
      = Pp at hP ⊢
  generalize blockDiagBand (fun b : Fin o.MSF =>
        (if bandOfBlock b then lm.exp (pars.dtau * pars.muy)
          else lm.exp (pars.dtau * pars.mux)) • hoppingExp lat hop pars (bandOfBlock b) (-1))
      = Pm at hP ⊢
  calc Pp * Vp * (Vm * Pm) = Pp * (Vp * Vm) * Pm := by simp only [Matrix.mul_assoc]
    _ = 1 := by rw [hV, Matrix.mul_one, hP]

/-- C7: for every time slice `k`, every matrix `A` and every `OPDIM` (no magnetic field,
plaquettes of a subgroup disjoint as for even `L`, hopping constants and caches with
`cosh^2 - sinh^2 = 1`, `exp(-x) exp(x) = 1` for the chemical potentials):
`leftMultiplyBkInv(leftMultiplyBk(A, k), k) = A`,
`rightMultiplyBkInv(rightMultiplyBk(A, k), k) = A`,
`leftMultiplyBk(1, k) = rightMultiplyBk(1, k)`, and `checkerboardLeftMultiplyBmatInv(1, k, k-1)`
and `checkerboardLeftMultiplyBmat(1, k, k-1)` return matrices that are inverse to each
other. -/
theorem checkerboard_Bk_inverse {K : Type} [Field K] [DecidableEq K] (o : OpDim) {N : ℕ}
    (lat : Lattice N) (hop : HoppingData N K) (imagI : K) (lm : Libm K)
    (pars : ModelParamsSDW K) (fc : FieldConfig K) (A : MatData o.MSF N K) (k fuel : ℕ)
    (hz : pars.weakZflux = false) (hd : PlaquettesDisjoint lat pars.L)
    (hh : HoppingHyperbolic hop)
    (hcache : ∀ i : Fin N, CachesHyperbolic o.dim pars fc i.val k)
    (himag : o ≠ OpDim.one → imagI * imagI = -1)
    (hexpx : lm.exp (-pars.dtau * pars.mux) * lm.exp (pars.dtau * pars.mux) = 1)
    (hexpy : lm.exp (-pars.dtau * pars.muy) * lm.exp (pars.dtau * pars.muy) = 1)
    (hk1 : 1 ≤ k) (hkm : k ≤ pars.m) (hk32 : k + 1 < 4294967296) (hfuel : 1 ≤ fuel) :
    leftMultiplyBkInv o lat hop imagI lm pars fc
        (leftMultiplyBk o lat hop imagI lm pars fc A k) k = A ∧
    rightMultiplyBkInv o lat hop imagI lm pars fc
        (rightMultiplyBk o lat hop imagI lm pars fc A k) k = A ∧
    leftMultiplyBk o lat hop imagI lm pars fc 1 k
      = rightMultiplyBk o lat hop imagI lm pars fc 1 k ∧
    ∃ B Binv : MatData o.MSF N K,
      checkerboardLeftMultiplyBmat o lat hop imagI lm pars fc fuel 1 k (k - 1) = some B ∧
      checkerboardLeftMultiplyBmatInv o lat hop imagI lm pars fc fuel 1 k (k - 1)
        = some Binv ∧
      Binv * B = 1 ∧ B * Binv = 1 := by
  have hinv := cbBmatInv_mul_cbBmat o lat hop imagI lm pars fc k hd hh hcache himag hexpx hexpy
  have hinv2 : cbBmat o lat hop imagI lm pars fc k * cbBmatInv o lat hop imagI lm pars fc k
      = 1 := Matrix.mul_eq_one_comm.mp hinv
  refine ⟨?_, ?_, ?_, cbBmat o lat hop imagI lm pars fc k,
    cbBmatInv o lat hop imagI lm pars fc k, ?_, ?_, hinv, hinv2⟩
  · rw [leftMultiplyBk_eq o lat hop imagI lm pars fc A k hz hd,
      leftMultiplyBkInv_eq o lat hop imagI lm pars fc _ k hz hd, ← Matrix.mul_assoc, hinv,
      Matrix.one_mul]
  · rw [rightMultiplyBk_eq o lat hop imagI lm pars fc A k hz hd,
      rightMultiplyBkInv_eq o lat hop imagI lm pars fc _ k hz hd, Matrix.mul_assoc, hinv2,
      Matrix.mul_one]
  · rw [leftMultiplyBk_eq o lat hop imagI lm pars fc 1 k hz hd,
      rightMultiplyBk_eq o lat hop imagI lm pars fc 1 k hz hd, Matrix.mul_one, Matrix.one_mul]
  · obtain ⟨f, rfl⟩ : ∃ f, fuel = f + 1 := ⟨fuel - 1, by omega⟩
    unfold checkerboardLeftMultiplyBmat
    rw [if_pos ⟨by omega, hkm⟩, uadd_eq (k - 1) 1 (by omega), uadd_eq (k - 1) 2 (by omega),
      Nat.sub_add_cancel hk1]
    unfold forLoop
    rw [if_neg (by simp; omega), leftMultiplyBk_eq o lat hop imagI lm pars fc 1 k hz hd,
      Matrix.mul_one]
  · obtain ⟨f, rfl⟩ : ∃ f, fuel = f + 1 := ⟨fuel - 1, by omega⟩
    unfold checkerboardLeftMultiplyBmatInv
    rw [if_pos ⟨by omega, hkm⟩, uadd_eq (k - 1) 1 (by omega), usub_eq k 1 hk1 (by omega),
      Nat.sub_add_cancel hk1]
    unfold forLoop
    rw [if_neg (by simp; omega), leftMultiplyBkInv_eq o lat hop imagI lm pars fc 1 k hz hd,
      Matrix.mul_one]

theorem squareLattice_two_disjoint :
    PlaquettesDisjoint (squareLattice 2 2 4 (by decide)) 2 := by
  unfold PlaquettesDisjoint
  decide

/-- Witness for C7: `OPDIM = 1` on the periodic lattice of `2 x 2` sites with
`cosh = 5/4`, `sinh = 3/4` for all bonds, the field `phi = 0` and the slice `k = 1`. -/
theorem checkerboard_Bk_inverse_witness :
    leftMultiplyBkInv OpDim.one (squareLattice 2 2 4 (by decide)) (rationalHopping 4) 0
        rationalLibm fourSiteParams zeroField
        (leftMultiplyBk OpDim.one (squareLattice 2 2 4 (by decide)) (rationalHopping 4) 0
          rationalLibm fourSiteParams zeroField 1 1) 1 = 1 ∧
    rightMultiplyBkInv OpDim.one (squareLattice 2 2 4 (by decide)) (rationalHopping 4) 0
        rationalLibm fourSiteParams zeroField
        (rightMultiplyBk OpDim.one (squareLattice 2 2 4 (by decide)) (rationalHopping 4) 0
          rationalLibm fourSiteParams zeroField 1 1) 1 = 1 ∧
    leftMultiplyBk OpDim.one (squareLattice 2 2 4 (by decide)) (rationalHopping 4) 0
        rationalLibm fourSiteParams zeroField 1 1
      = rightMultiplyBk OpDim.one (squareLattice 2 2 4 (by decide)) (rationalHopping 4) 0
        rationalLibm fourSiteParams zeroField 1 1 ∧
    ∃ B Binv : MatData OpDim.one.MSF 4 ℚ,
      checkerboardLeftMultiplyBmat OpDim.one (squareLattice 2 2 4 (by decide))
        (rationalHopping 4) 0 rationalLibm fourSiteParams zeroField 1 1 1 (1 - 1) = some B ∧
      checkerboardLeftMultiplyBmatInv OpDim.one (squareLattice 2 2 4 (by decide))
        (rationalHopping 4) 0 rationalLibm fourSiteParams zeroField 1 1 1 (1 - 1)
        = some Binv ∧
      Binv * B = 1 ∧ B * Binv = 1 :=
  checkerboard_Bk_inverse OpDim.one (squareLattice 2 2 4 (by decide)) (rationalHopping 4) 0
    rationalLibm fourSiteParams zeroField 1 1 1 rfl squareLattice_two_disjoint
    (by intro band; simp [rationalHopping]; norm_num)
    (by intro i; simp [CachesHyperbolic, zeroField, fourSiteParams, oneSiteParams])
    (by simp) (by simp [rationalLibm]) (by simp [rationalLibm]) (by decide) (by decide)
    (by decide) (by decide)
/-! ## The bosonic action: the loops of `phiAction` -/

theorem foldlM_range_sum {K : Type} [Field K] (N : ℕ) (body : K → ℕ → Option K)
    (g : ℕ → K) (hbody : ∀ a i, i < N → body a i = some (a + g i)) :
    ∀ n, n ≤ N → ∀ a, (List.range n).foldlM body a = some (a + ∑ i ∈ Finset.range n, g i) := by
  intro n
  induction n with
  | zero => intro _ a; simp
  | succ n ih =>
    intro hn a
    rw [List.range_succ, List.foldlM_append, ih (by omega) a, Finset.sum_range_succ]
    simp [hbody _ n (by omega), add_assoc]

/-- The body of the loops of `phiAction` adds the term of the site and slice. -/
theorem phiActionSite_eq {K : Type} [Field K] (o : OpDim) {N : ℕ} (lat : Lattice N)
    (pars : ModelParamsSDW K) (fc : FieldConfig K) (hlat : LatticePeriodic lat pars.m)
    (t : ℕ) (ht1 : 1 ≤ t) (htm : t ≤ pars.m) (a : K) (i : ℕ) (h : i < N) :
    phiActionSite o lat pars fc t a i = some (a + actionTerm o lat pars fc t ⟨i, h⟩) := by
  obtain ⟨_, _, _, _, _, _, htime⟩ := hlat
  obtain ⟨⟨hE1, hE2⟩, _⟩ := htime t ht1 htm
  unfold phiActionSite actionTerm phiCopy
  rw [dif_pos h]
  by_cases hb : pars.phi2bosons = true
  · simp [hb, ht1, htm]
  · simp [hb, ht1, htm, hE1, hE2]
    ring

/-- With enough fuel `phiAction` returns the sum of the terms of all slices and sites. -/
theorem phiAction_eq {K : Type} [Field K] (o : OpDim) {N : ℕ} (lat : Lattice N)
    (pars : ModelParamsSDW K) (fc : FieldConfig K) (fuel : ℕ)
    (hlat : LatticePeriodic lat pars.m) (hm32 : pars.m + 1 < 4294967296)
    (hfuel : pars.m < fuel) :
    phiAction o lat pars fc fuel = some (actionSum o lat pars fc) := by
  obtain ⟨a, ha, hP⟩ := forLoop_up_invariant
    (fun timeslice action =>
      (List.range N).foldlM (phiActionSite o lat pars fc timeslice) action) pars.m
    (fun t a => a = ∑ t2 ∈ Finset.Ico 1 t, ∑ i : Fin N, actionTerm o lat pars fc t2 i)
    hm32 pars.m 1 fuel 0 (by omega) hfuel (by simp)
    (by
      intro t a ht1 htm hPa
      refine ⟨a + ∑ i : Fin N, actionTerm o lat pars fc t i, ?_, ?_⟩
      · have := foldlM_range_sum N (phiActionSite o lat pars fc t)
          (fun i => if h : i < N then actionTerm o lat pars fc t ⟨i, h⟩ else 0)
          (by
            intro a i h
            rw [phiActionSite_eq o lat pars fc hlat t ht1 htm a i h]
            simp [h])
          N (le_refl _) a
        beta_reduce
        rw [this, Finset.sum_range]
        simp
      · beta_reduce
        rw [Finset.sum_Ico_succ_top ht1, hPa])
  unfold phiAction
  rw [ha, hP]
  rfl

/-! ## The bosonic action: the change of one field vector -/

/-- A sum over bonds `(i, σ i)` changes in two terms if the value at `i0` changes: in
the bond that starts at `i0` and in the bond that ends at `i0`. -/
theorem sum_bond_update {ι V K : Type} [Field K] [DecidableEq ι] (s : Finset ι)
    (σ τ : ι → ι) (hτ : ∀ i ∈ s, τ i ∈ s) (hστ : ∀ i ∈ s, σ (τ i) = i)
    (hτσ : ∀ i ∈ s, τ (σ i) = i) (hne : ∀ i ∈ s, σ i ≠ i) (f f2 : ι → V) (i0 : ι)
    (hi0 : i0 ∈ s) (new : V) (hf2 : ∀ i, f2 i = if i = i0 then new else f i)
    (X : V → V → K) :
    ∑ i ∈ s, (X (f2 i) (f2 (σ i)) - X (f i) (f (σ i)))
      = (X new (f (σ i0)) - X (f i0) (f (σ i0))) + (X (f (τ i0)) new - X (f (τ i0)) (f i0)) := by
  have hne0 : i0 ≠ τ i0 := by
    intro h
    have h2 := hστ i0 hi0
    rw [← h] at h2
    exact hne i0 hi0 h2
  rw [Finset.sum_eq_add_of_mem i0 (τ i0) hi0 (hτ i0 hi0) hne0]
  · rw [hf2 i0, hf2 (σ i0), hf2 (τ i0), hf2 (σ (τ i0)), hστ i0 hi0]
    simp [hne i0 hi0, Ne.symm hne0]
  · intro c hc hcne
    have h1 : σ c ≠ i0 := by
      intro h
      have h2 := hτσ c hc
      rw [h] at h2
      exact hcne.2 h2.symm
    rw [hf2 c, hf2 (σ c)]
    simp [hcne.1, h1]

/-- A sum over sites changes in one term if the value at `i0` changes. -/
theorem sum_site_update {ι V K : Type} [Field K] [DecidableEq ι] (s : Finset ι)
    (f f2 : ι → V) (i0 : ι) (hi0 : i0 ∈ s) (new : V)
    (hf2 : ∀ i, f2 i = if i = i0 then new else f i) (R : V → K) :
    ∑ i ∈ s, (R (f2 i) - R (f i)) = R new - R (f i0) := by
  rw [Finset.sum_eq_single_of_mem i0 hi0]
  · rw [hf2 i0]
    simp
  · intro c _ hc
    rw [hf2 c]
    simp [hc]

theorem getPhi_setPhi_apply {K : Type} (OPDIM : ℕ) (site k : ℕ) (newphi : Phi OPDIM K)
    (fc : FieldConfig K) (i t : ℕ) :
    getPhi OPDIM (setPhi OPDIM site k newphi fc) i t
      = if i = site ∧ t = k then newphi else getPhi OPDIM fc i t := by
  funext d
  by_cases h : i = site ∧ t = k
  · simp [getPhi, setPhi, h]
  · simp [getPhi, setPhi, h]

theorem dot_comm {OPDIM : ℕ} {K : Type} [Field K] (a b : Phi OPDIM K) : dot a b = dot b a := by
  unfold dot
  apply Finset.sum_congr rfl
  intro d _
  ring

theorem dot_add_left {OPDIM : ℕ} {K : Type} [Field K] (a b c : Phi OPDIM K) :
    dot (fun d => a d + b d) c = dot a c + dot b c := by
  unfold dot
  rw [← Finset.sum_add_distrib]
  apply Finset.sum_congr rfl
  intro d _
  ring

theorem dot_sub_left {OPDIM : ℕ} {K : Type} [Field K] (a b c : Phi OPDIM K) :
    dot (fun d => a d - b d) c = dot a c - dot b c := by
  unfold dot
  rw [← Finset.sum_sub_distrib]
  apply Finset.sum_congr rfl
  intro d _
  ring

theorem dot_sub_right {OPDIM : ℕ} {K : Type} [Field K] (a b c : Phi OPDIM K) :
    dot c (fun d => a d - b d) = dot c a - dot c b := by
  rw [dot_comm, dot_sub_left, dot_comm a, dot_comm b]

theorem dot_zero_left {OPDIM : ℕ} {K : Type} [Field K] (c : Phi OPDIM K) :
    dot (fun _ => (0 : K)) c = 0 := by
  simp [dot]

theorem dot_div {OPDIM : ℕ} {K : Type} [Field K] (a b : Phi OPDIM K) (s : K) :
    dot (fun d => a d / s) (fun d => b d / s) = dot a b / (s * s) := by
  unfold dot
  rw [Finset.sum_div]
  apply Finset.sum_congr rfl
  intro d _
  rw [div_mul_div_comm]

/-- The time derivative term of the action in terms of dot products. -/
theorem timeTerm_eq {OPDIM : ℕ} {K : Type} [Field K] [CharZero K] (dtau c : K)
    (a b : Phi OPDIM K) :
    (dtau / (2 * c * c)) * dot (fun d => (a d - b d) / dtau) (fun d => (a d - b d) / dtau)
      = (1 / (c * c * dtau)) * ((dot a a - 2 * dot a b + dot b b) / 2) := by
  rw [dot_div, dot_sub_left, dot_sub_right, dot_sub_right, dot_comm b a]
  by_cases hd : dtau = 0
  · subst hd
    simp
  · by_cases hc : c = 0
    · subst hc
      simp
    · field_simp
      ring

/-- The change of a lattice sum with time bonds, bonds in the two space directions and
site terms when the value at one site and slice changes. -/
theorem lattice_sum_update {V K : Type} [Field K] {N : ℕ} (m : ℕ)
    (xp xm yp ym : Fin N → Fin N) (tm tp : ℕ → ℕ)
    (hx1 : ∀ i, xm (xp i) = i) (hx2 : ∀ i, xp (xm i) = i)
    (hy1 : ∀ i, ym (yp i) = i) (hy2 : ∀ i, yp (ym i) = i)
    (hxne : ∀ i, xp i ≠ i) (hyne : ∀ i, yp i ≠ i)
    (htime : ∀ t, 1 ≤ t → t ≤ m →
      (1 ≤ tm t ∧ tm t ≤ m) ∧ (1 ≤ tp t ∧ tp t ≤ m) ∧ tp (tm t) = t ∧ tm (tp t) = t ∧ tm t ≠ t)
    (Φ Φ2 : Fin N → ℕ → V) (site : Fin N) (k : ℕ) (hk1 : 1 ≤ k) (hkm : k ≤ m) (new : V)
    (hΦ2 : ∀ i t, Φ2 i t = if i = site ∧ t = k then new else Φ i t)
    (TT XX YY : V → V → K) (RR : V → K) :
    (∑ t ∈ Finset.Ico 1 (m + 1), ∑ i : Fin N,
        (TT (Φ2 i t) (Φ2 i (tm t)) + XX (Φ2 i t) (Φ2 (xp i) t) + YY (Φ2 i t) (Φ2 (yp i) t)
          + RR (Φ2 i t)))
      - (∑ t ∈ Finset.Ico 1 (m + 1), ∑ i : Fin N,
        (TT (Φ i t) (Φ i (tm t)) + XX (Φ i t) (Φ (xp i) t) + YY (Φ i t) (Φ (yp i) t)
          + RR (Φ i t)))
      = (TT new (Φ site (tm k)) - TT (Φ site k) (Φ site (tm k)))
        + (TT (Φ site (tp k)) new - TT (Φ site (tp k)) (Φ site k))
        + ((XX new (Φ (xp site) k) - XX (Φ site k) (Φ (xp site) k))
          + (XX (Φ (xm site) k) new - XX (Φ (xm site) k) (Φ site k)))
        + ((YY new (Φ (yp site) k) - YY (Φ site k) (Φ (yp site) k))
          + (YY (Φ (ym site) k) new - YY (Φ (ym site) k) (Φ site k)))
        + (RR new - RR (Φ site k)) := by
  have hkmem : k ∈ Finset.Ico 1 (m + 1) := Finset.mem_Ico.mpr ⟨hk1, by omega⟩
  have hother : ∀ t, t ≠ k → ∀ i, Φ2 i t = Φ i t := by
    intro t ht i
    rw [hΦ2]
    simp [ht]
  have hsite : ∀ i, i ≠ site → ∀ t, Φ2 i t = Φ i t := by
    intro i hi t
    rw [hΦ2]
    simp [hi]
  have hslice : ∀ i, Φ2 i k = if i = site then new else Φ i k := by
    intro i
    rw [hΦ2]
    simp
  have hcol : ∀ t, Φ2 site t = if t = k then new else Φ site t := by
    intro t
    rw [hΦ2]
    simp
  -- the sum of the time bonds
  have hT : ∑ t ∈ Finset.Ico 1 (m + 1), ∑ i : Fin N,
      (TT (Φ2 i t) (Φ2 i (tm t)) - TT (Φ i t) (Φ i (tm t)))
      = (TT new (Φ site (tm k)) - TT (Φ site k) (Φ site (tm k)))
        + (TT (Φ site (tp k)) new - TT (Φ site (tp k)) (Φ site k)) := by
    rw [Finset.sum_comm, Finset.sum_eq_single_of_mem site (Finset.mem_univ _)]
    · exact sum_bond_update (Finset.Ico 1 (m + 1)) tm tp
        (fun t ht => by
          have h := Finset.mem_Ico.mp ht
          have h2 := (htime t h.1 (by omega)).2.1
          exact Finset.mem_Ico.mpr ⟨h2.1, by omega⟩)
        (fun t ht => by
          have h := Finset.mem_Ico.mp ht
          exact (htime t h.1 (by omega)).2.2.2.1)
        (fun t ht => by
          have h := Finset.mem_Ico.mp ht
          exact (htime t h.1 (by omega)).2.2.1)
        (fun t ht => by
          have h := Finset.mem_Ico.mp ht
          exact (htime t h.1 (by omega)).2.2.2.2)
        (fun t => Φ site t) (fun t => Φ2 site t) k hkmem new hcol TT
    · intro i _ hi
      apply Finset.sum_eq_zero
      intro t _
      rw [hsite i hi, hsite i hi, sub_self]
  -- the sums of the space bonds
  have hX : ∑ t ∈ Finset.Ico 1 (m + 1), ∑ i : Fin N,
      (XX (Φ2 i t) (Φ2 (xp i) t) - XX (Φ i t) (Φ (xp i) t))
      = (XX new (Φ (xp site) k) - XX (Φ site k) (Φ (xp site) k))
        + (XX (Φ (xm site) k) new - XX (Φ (xm site) k) (Φ site k)) := by
    rw [Finset.sum_eq_single_of_mem k hkmem]
    · exact sum_bond_update Finset.univ xp xm (fun _ _ => Finset.mem_univ _)
        (fun i _ => hx2 i) (fun i _ => hx1 i) (fun i _ => hxne i)
        (fun i => Φ i k) (fun i => Φ2 i k) site (Finset.mem_univ _) new hslice XX
    · intro t _ ht
      apply Finset.sum_eq_zero
      intro i _
      rw [hother t ht, hother t ht, sub_self]
  have hY : ∑ t ∈ Finset.Ico 1 (m + 1), ∑ i : Fin N,
      (YY (Φ2 i t) (Φ2 (yp i) t) - YY (Φ i t) (Φ (yp i) t))
      = (YY new (Φ (yp site) k) - YY (Φ site k) (Φ (yp site) k))
        + (YY (Φ (ym site) k) new - YY (Φ (ym site) k) (Φ site k)) := by
    rw [Finset.sum_eq_single_of_mem k hkmem]
    · exact sum_bond_update Finset.univ yp ym (fun _ _ => Finset.mem_univ _)
        (fun i _ => hy2 i) (fun i _ => hy1 i) (fun i _ => hyne i)
        (fun i => Φ i k) (fun i => Φ2 i k) site (Finset.mem_univ _) new hslice YY
    · intro t _ ht
      apply Finset.sum_eq_zero
      intro i _
      rw [hother t ht, hother t ht, sub_self]
  -- the site terms
  have hR : ∑ t ∈ Finset.Ico 1 (m + 1), ∑ i : Fin N, (RR (Φ2 i t) - RR (Φ i t))
      = RR new - RR (Φ site k) := by
    rw [Finset.sum_eq_single_of_mem k hkmem]
    · exact sum_site_update Finset.univ (fun i => Φ i k) (fun i => Φ2 i k) site
        (Finset.mem_univ _) new hslice RR
    · intro t _ ht
      apply Finset.sum_eq_zero
      intro i _
      rw [hother t ht, sub_self]
  rw [← hT, ← hX, ← hY, ← hR, ← Finset.sum_sub_distrib, ← Finset.sum_add_distrib,
    ← Finset.sum_add_distrib, ← Finset.sum_add_distrib]
  apply Finset.sum_congr rfl
  intro t _
  rw [← Finset.sum_sub_distrib, ← Finset.sum_add_distrib, ← Finset.sum_add_distrib,
    ← Finset.sum_add_distrib]
  apply Finset.sum_congr rfl
  intro i _
  ring

/-- The sum of the terms of the action changes by `deltaSPhi` when the field vector of
one site and slice is replaced. -/
theorem actionSum_setPhi_sub {K : Type} [Field K] [CharZero K] (o : OpDim) {N : ℕ}
    (lat : Lattice N) (pars : ModelParamsSDW K) (fc : FieldConfig K) (site : Fin N) (k : ℕ)
    (newphi : Phi o.dim K) (hlat : LatticePeriodic lat pars.m) (hd : pars.d = 2)
    (hk1 : 1 ≤ k) (hkm : k ≤ pars.m) :
    actionSum o lat pars (setPhi o.dim site.val k newphi fc) - actionSum o lat pars fc
      = deltaSPhi o lat pars fc site k newphi := by
  obtain ⟨hx1, hx2, hy1, hy2, hxne, hyne, htime⟩ := hlat
  have hΦ2 : ∀ (i : Fin N) (t : ℕ),
      getPhi o.dim (setPhi o.dim site.val k newphi fc) i.val t
        = if i = site ∧ t = k then newphi else getPhi o.dim fc i.val t := by
    intro i t
    rw [getPhi_setPhi_apply]
    by_cases h : i = site ∧ t = k
    · rw [if_pos h, if_pos ⟨congrArg Fin.val h.1, h.2⟩]
    · rw [if_neg h, if_neg (fun h2 => h ⟨Fin.ext h2.1, h2.2⟩)]
  have key := lattice_sum_update pars.m (lat.spaceNeigh NeighDir.XPLUS)
    (lat.spaceNeigh NeighDir.XMINUS) (lat.spaceNeigh NeighDir.YPLUS)
    (lat.spaceNeigh NeighDir.YMINUS) (lat.timeNeigh ChainDir.MINUS)
    (lat.timeNeigh ChainDir.PLUS) hx1 hx2 hy1 hy2 hxne hyne htime
    (fun i t => getPhi o.dim fc i.val t)
    (fun i t => getPhi o.dim (setPhi o.dim site.val k newphi fc) i.val t) site k hk1 hkm
    newphi hΦ2
    (fun a b => if ¬ pars.phi2bosons then
      (pars.dtau / (2 * pars.c * pars.c))
        * dot (fun d => (a d - b d) / pars.dtau) (fun d => (a d - b d) / pars.dtau) else 0)
    (fun a b => if ¬ pars.phi2bosons then
      (1 / 2) * pars.dtau * dot (fun d => a d - b d) (fun d => a d - b d) else 0)
    (fun a b => if ¬ pars.phi2bosons then
      (1 / 2) * pars.dtau * dot (fun d => a d - b d) (fun d => a d - b d) else 0)
    (fun a => (1 / 2) * pars.dtau * pars.r * dot a a
      + (if ¬ pars.phi2bosons then (1 / 4) * pars.dtau * pars.u * dot a a ^ 2 else 0))
  have hterm : ∀ (fc : FieldConfig K) (t : ℕ) (i : Fin N), actionTerm o lat pars fc t i
      = (if ¬ pars.phi2bosons then
          (pars.dtau / (2 * pars.c * pars.c))
            * dot (fun d => (getPhi o.dim fc i.val t d
                  - getPhi o.dim fc i.val (lat.timeNeigh ChainDir.MINUS t) d) / pars.dtau)
                (fun d => (getPhi o.dim fc i.val t d
                  - getPhi o.dim fc i.val (lat.timeNeigh ChainDir.MINUS t) d) / pars.dtau)
          else 0)
        + (if ¬ pars.phi2bosons then
          (1 / 2) * pars.dtau
            * dot (fun d => getPhi o.dim fc i.val t d
                  - getPhi o.dim fc (lat.spaceNeigh NeighDir.XPLUS i).val t d)
                (fun d => getPhi o.dim fc i.val t d
                  - getPhi o.dim fc (lat.spaceNeigh NeighDir.XPLUS i).val t d) else 0)
        + (if ¬ pars.phi2bosons then
          (1 / 2) * pars.dtau
            * dot (fun d => getPhi o.dim fc i.val t d
                  - getPhi o.dim fc (lat.spaceNeigh NeighDir.YPLUS i).val t d)
                (fun d => getPhi o.dim fc i.val t d
                  - getPhi o.dim fc (lat.spaceNeigh NeighDir.YPLUS i).val t d) else 0)
        + ((1 / 2) * pars.dtau * pars.r * dot (getPhi o.dim fc i.val t) (getPhi o.dim fc i.val t)
          + (if ¬ pars.phi2bosons then
              (1 / 4) * pars.dtau * pars.u
                * dot (getPhi o.dim fc i.val t) (getPhi o.dim fc i.val t) ^ 2 else 0)) := by
    intro fc t i
    unfold actionTerm
    by_cases hb : pars.phi2bosons = true
    · simp [hb]
    · simp [hb]
      ring
  unfold actionSum
  simp only [hterm]
  rw [key]
  unfold deltaSPhi
  by_cases hb : pars.phi2bosons = true
  · simp only [hb, not_true_eq_false, if_false, if_true]
    ring
  · simp only [hb, Bool.false_eq_true, not_false_eq_true, if_true, if_false, timeTerm_eq,
      spaceNeighbors, List.foldl, hd, umul, dot_sub_left, dot_sub_right, dot_add_left,
      dot_zero_left]
    have e4 : ((2 * 2 % 4294967296 : ℕ) : K) = 4 := by norm_num
    simp only [e4,
      dot_comm (getPhi o.dim fc site.val (lat.timeNeigh ChainDir.MINUS k)) newphi,
      dot_comm (getPhi o.dim fc site.val (lat.timeNeigh ChainDir.PLUS k)) newphi,
      dot_comm (getPhi o.dim fc (lat.spaceNeigh NeighDir.XPLUS site).val k) newphi,
      dot_comm (getPhi o.dim fc (lat.spaceNeigh NeighDir.XMINUS site).val k) newphi,
      dot_comm (getPhi o.dim fc (lat.spaceNeigh NeighDir.YPLUS site).val k) newphi,
      dot_comm (getPhi o.dim fc (lat.spaceNeigh NeighDir.YMINUS site).val k) newphi,
      dot_comm (getPhi o.dim fc site.val (lat.timeNeigh ChainDir.MINUS k))
        (getPhi o.dim fc site.val k),
      dot_comm (getPhi o.dim fc site.val (lat.timeNeigh ChainDir.PLUS k))
        (getPhi o.dim fc site.val k),
      dot_comm (getPhi o.dim fc (lat.spaceNeigh NeighDir.XPLUS site).val k)
        (getPhi o.dim fc site.val k),
      dot_comm (getPhi o.dim fc (lat.spaceNeigh NeighDir.XMINUS site).val k)
        (getPhi o.dim fc site.val k),
      dot_comm (getPhi o.dim fc (lat.spaceNeigh NeighDir.YPLUS site).val k)
        (getPhi o.dim fc site.val k),
      dot_comm (getPhi o.dim fc (lat.spaceNeigh NeighDir.YMINUS site).val k)
        (getPhi o.dim fc site.val k)]
    ring

/-- C8: on a periodic lattice with at least two sites per direction and at least two time
slices, for every site, every slice `k` in `1..m` and every `newphi`, `phiAction()`
returns a value on the current configuration and on the configuration with `phi(i,.,k)`
replaced by `newphi`, and `deltaSPhi(i, k, newphi)` is the difference of the two values
(for both values of `phi2bosons`). -/
theorem deltaSPhi_eq_phiAction_diff {K : Type} [Field K] [CharZero K] (o : OpDim) {N : ℕ}
    (lat : Lattice N) (pars : ModelParamsSDW K) (fc : FieldConfig K) (site : Fin N)
    (k : ℕ) (newphi : Phi o.dim K) (fuel : ℕ) (hlat : LatticePeriodic lat pars.m)
    (hd : pars.d = 2) (hk1 : 1 ≤ k) (hkm : k ≤ pars.m) (hm32 : pars.m + 1 < 4294967296)
    (hfuel : pars.m < fuel) :
    ∃ S S2 : K, phiAction o lat pars fc fuel = some S ∧
      phiAction o lat pars (setPhi o.dim site.val k newphi fc) fuel = some S2 ∧
      deltaSPhi o lat pars fc site k newphi = S2 - S :=
  ⟨actionSum o lat pars fc, actionSum o lat pars (setPhi o.dim site.val k newphi fc),
    phiAction_eq o lat pars fc fuel hlat hm32 hfuel,
    phiAction_eq o lat pars _ fuel hlat hm32 hfuel,
    (actionSum_setPhi_sub o lat pars fc site k newphi hlat hd hk1 hkm).symm⟩

theorem squareLattice_two_periodic : LatticePeriodic (squareLattice 2 2 4 (by decide)) 2 := by
  refine ⟨by decide, by decide, by decide, by decide, by decide, by decide, ?_⟩
  intro t h1 h2
  interval_cases t <;> simp [squareLattice]

/-- Witness for C8: `OPDIM = 1` on the periodic lattice of `2 x 2` sites with two time
slices, the field `phi = 0`, the proposal `newphi = 1` at the site 0 and the slice 1. -/
theorem deltaSPhi_eq_phiAction_diff_witness :
    ∃ S S2 : ℚ,
      phiAction OpDim.one (squareLattice 2 2 4 (by decide)) fourSiteParams zeroField 3
        = some S ∧
      phiAction OpDim.one (squareLattice 2 2 4 (by decide)) fourSiteParams
        (setPhi OpDim.one.dim (0 : Fin 4).val 1 (fun _ => 1) zeroField) 3 = some S2 ∧
      deltaSPhi OpDim.one (squareLattice 2 2 4 (by decide)) fourSiteParams zeroField
        (0 : Fin 4) 1 (fun _ => 1) = S2 - S :=
  deltaSPhi_eq_phiAction_diff OpDim.one (squareLattice 2 2 4 (by decide)) fourSiteParams
    zeroField (0 : Fin 4) 1 (fun _ => 1) 3 squareLattice_two_periodic rfl (by decide)
    (by decide) (by decide) (by decide)
/-! ## The Wolff cluster and the bosonic action -/

theorem tryBond_no_activation {K : Type} [LinearOrderedField K] {o : OpDim} {N : ℕ}
    (env : ClusterEnv o N K) (h : ∀ n, env.activate n = false) (factor : K)
    (here : Fin N × ℕ) (st : ClusterState N K) (neigh : Fin N × ℕ) :
    (tryBond env factor here st neigh).fc = st.fc ∧
    (tryBond env factor here st neigh).next_sites = st.next_sites ∧
    (tryBond env factor here st neigh).cluster_size = st.cluster_size := by
  unfold tryBond
  split
  · simp only [h, Bool.false_eq_true, if_false]
    split <;> exact ⟨rfl, rfl, rfl⟩
  · exact ⟨rfl, rfl, rfl⟩

theorem foldl_tryBond_no_activation {K : Type} [LinearOrderedField K] {o : OpDim} {N : ℕ}
    (env : ClusterEnv o N K) (h : ∀ n, env.activate n = false) (factor : K)
    (here : Fin N × ℕ) {α : Type} (f : α → Fin N × ℕ) (l : List α) (st : ClusterState N K) :
    (l.foldl (fun st x => tryBond env factor here st (f x)) st).fc = st.fc ∧
    (l.foldl (fun st x => tryBond env factor here st (f x)) st).next_sites = st.next_sites ∧
    (l.foldl (fun st x => tryBond env factor here st (f x)) st).cluster_size
      = st.cluster_size := by
  induction l generalizing st with
  | nil => exact ⟨rfl, rfl, rfl⟩
  | cons x l ih =>
    rw [List.foldl_cons]
    obtain ⟨h1, h2, h3⟩ := ih (tryBond env factor here st (f x))
    obtain ⟨g1, g2, g3⟩ := tryBond_no_activation env h factor here st (f x)
    exact ⟨h1.trans g1, h2.trans g2, h3.trans g3⟩

theorem clusterStep_no_activation {K : Type} [LinearOrderedField K] {o : OpDim} {N : ℕ}
    (env : ClusterEnv o N K) (h : ∀ n, env.activate n = false) (here : Fin N × ℕ)
    (st : ClusterState N K) :
    (clusterStep env here st).fc = st.fc ∧
    (clusterStep env here st).next_sites = st.next_sites ∧
    (clusterStep env here st).cluster_size = st.cluster_size := by
  unfold clusterStep
  obtain ⟨h1, h2, h3⟩ := foldl_tryBond_no_activation env h (2 / env.pars.dtau) here
    (fun neigh_time => (here.1, neigh_time))
    [env.lat.timeNeigh ChainDir.PLUS here.2, env.lat.timeNeigh ChainDir.MINUS here.2]
    ((spaceNeighbors env.lat here.1).foldl
      (fun st neigh_site => tryBond env (2 * env.pars.dtau) here st (neigh_site, here.2)) st)
  obtain ⟨g1, g2, g3⟩ := foldl_tryBond_no_activation env h (2 * env.pars.dtau) here
    (fun neigh_site => (neigh_site, here.2)) (spaceNeighbors env.lat here.1) st
  exact ⟨h1.trans g1, h2.trans g2, h3.trans g3⟩

/-- If no bond is activated the cluster is the seed alone. -/
theorem buildAndFlipCluster_no_activation {K : Type} [LinearOrderedField K] {o : OpDim}
    {N : ℕ} (env : ClusterEnv o N K) (h : ∀ n, env.activate n = false) (fc : FieldConfig K)
    (fuel : ℕ) (hfuel : 1 ≤ fuel) :
    buildAndFlipCluster env fc fuel
      = some (1, flipPhi env env.seedSite.val env.seedSlice fc) := by
  obtain ⟨f, rfl⟩ : ∃ f, fuel = f + 1 := ⟨fuel - 1, by omega⟩
  unfold buildAndFlipCluster clusterLoop
  obtain ⟨h1, h2, h3⟩ := clusterStep_no_activation env h (env.seedSite, env.seedSlice)
    { fc := flipPhi env env.seedSite.val env.seedSlice fc,
      visited := {(env.seedSite, env.seedSlice)},
      next_sites := [],
      draws := 0,
      cluster_size := 1 }
  simp only [h2, List.isEmpty_nil, if_true, Option.map_some', h1, h3]

/-- Counterexample to C9: on the periodic lattice of `2 x 2` sites with two time slices,
the constant field `phi = 1`, the unit direction `rd = 1`, the seed `(0, 1)` and no bond
activated, `buildAndFlipCluster` flips the seed alone and the value of `phiAction()`
after the flip differs from the value before (by `deltaSPhi = 12`). -/
theorem wolff_flip_changes_action :
    ∃ (n : ℕ) (fc2 : FieldConfig ℚ) (S S2 : ℚ),
      dot noBondEnv.rd noBondEnv.rd = 1 ∧
      buildAndFlipCluster noBondEnv onesField 1 = some (n, fc2) ∧
      phiAction OpDim.one noBondEnv.lat noBondEnv.pars onesField 3 = some S ∧
      phiAction OpDim.one noBondEnv.lat noBondEnv.pars fc2 3 = some S2 ∧
      S2 ≠ S := by
  refine ⟨1, flipPhi noBondEnv noBondEnv.seedSite.val noBondEnv.seedSlice onesField,
    actionSum OpDim.one noBondEnv.lat noBondEnv.pars onesField,
    actionSum OpDim.one noBondEnv.lat noBondEnv.pars
      (flipPhi noBondEnv noBondEnv.seedSite.val noBondEnv.seedSlice onesField),
    ?_, ?_, ?_, ?_, ?_⟩
  · simp [dot, noBondEnv]
  · exact buildAndFlipCluster_no_activation noBondEnv (fun _ => rfl) onesField 1 (le_refl _)
  · exact phiAction_eq OpDim.one noBondEnv.lat noBondEnv.pars onesField 3
      squareLattice_two_periodic (by decide) (by decide)
  · exact phiAction_eq OpDim.one noBondEnv.lat noBondEnv.pars _ 3
      squareLattice_two_periodic (by decide) (by decide)
  · have hsub := actionSum_setPhi_sub OpDim.one noBondEnv.lat noBondEnv.pars onesField
      (0 : Fin 4) 1 (flippedPhi noBondEnv.rd onesField 0 1) squareLattice_two_periodic rfl
      (by decide) (by decide)
    have hval : deltaSPhi OpDim.one noBondEnv.lat noBondEnv.pars onesField (0 : Fin 4) 1
        (flippedPhi noBondEnv.rd onesField 0 1) = 12 := by
      simp [deltaSPhi, flippedPhi, dot, getPhi, onesField, noBondEnv, fourSiteParams,
        oneSiteParams, spaceNeighbors, umul]
      norm_num
    have hflip : flipPhi noBondEnv noBondEnv.seedSite.val noBondEnv.seedSlice onesField
        = setPhi OpDim.one.dim (0 : Fin 4).val 1 (flippedPhi noBondEnv.rd onesField 0 1)
            onesField := rfl
    rw [hflip]
    intro heq
    rw [heq, sub_self, hval] at hsub
    norm_num at hsub

theorem dot_smul_left {OPDIM : ℕ} {K : Type} [Field K] (s : K) (a b : Phi OPDIM K) :
    dot (fun d => s * a d) b = s * dot a b := by
  unfold dot
  rw [Finset.mul_sum]
  apply Finset.sum_congr rfl
  intro d _
  ring

theorem dot_smul_right {OPDIM : ℕ} {K : Type} [Field K] (s : K) (a b : Phi OPDIM K) :
    dot b (fun d => s * a d) = s * dot b a := by
  rw [dot_comm, dot_smul_left, dot_comm]

/-- The reflection `phi - 2 (phi . rd) rd` at a unit vector `rd` keeps the norm. -/
theorem dot_flippedPhi {OPDIM : ℕ} {K : Type} [Field K] (rd : Phi OPDIM K)
    (hrd : dot rd rd = 1) (fc : FieldConfig K) (site timeslice : ℕ) :
    dot (flippedPhi rd fc site timeslice) (flippedPhi rd fc site timeslice)
      = dot (getPhi OPDIM fc site timeslice) (getPhi OPDIM fc site timeslice) := by
  unfold flippedPhi
  simp only [dot_sub_left, dot_sub_right, dot_smul_left, dot_smul_right, hrd,
    dot_comm rd (getPhi OPDIM fc site timeslice)]
  ring

theorem getPhi_flipPhi {K : Type} [Field K] {o : OpDim} {N : ℕ} (env : ClusterEnv o N K)
    (site timeslice : ℕ) (fc : FieldConfig K) (i t : ℕ) :
    getPhi o.dim (flipPhi env site timeslice fc) i t
      = if i = site ∧ t = timeslice then flippedPhi env.rd fc site timeslice
        else getPhi o.dim fc i t := by
  unfold flipPhi
  by_cases h : env.updateCoshSinh = true
  · simp only [h, if_true]
    rw [← getPhi_setPhi_apply]
    rfl
  · simp only [h, Bool.false_eq_true, if_false]
    rw [getPhi_setPhi_apply]

/-- A flip keeps the norm of every field vector. -/
theorem norm_flipPhi {K : Type} [Field K] {o : OpDim} {N : ℕ} (env : ClusterEnv o N K)
    (hrd : dot env.rd env.rd = 1) (site timeslice : ℕ) (fc : FieldConfig K) (i t : ℕ) :
    dot (getPhi o.dim (flipPhi env site timeslice fc) i t)
        (getPhi o.dim (flipPhi env site timeslice fc) i t)
      = dot (getPhi o.dim fc i t) (getPhi o.dim fc i t) := by
  rw [getPhi_flipPhi]
  by_cases h : i = site ∧ t = timeslice
  · rw [if_pos h, dot_flippedPhi env.rd hrd, h.1, h.2]
  · rw [if_neg h]

theorem card_clusterDomain (N m : ℕ) : (clusterDomain N m).card = N * m := by
  simp [clusterDomain]

/-- One bond test keeps the invariant and the measure of the loop. -/
theorem tryBond_inv {K : Type} [LinearOrderedField K] {o : OpDim} {N : ℕ}
    (env : ClusterEnv o N K) (hrd : dot env.rd env.rd = 1) (fc0 : FieldConfig K)
    (factor : K) (here : Fin N × ℕ) (st : ClusterState N K) (neigh : Fin N × ℕ)
    (hneigh : neigh ∈ clusterDomain N env.pars.m)
    (hinv : ClusterInv o env.pars.m fc0 st) :
    ClusterInv o env.pars.m fc0 (tryBond env factor here st neigh) ∧
    clusterMeasure env.pars.m (tryBond env factor here st neigh)
      = clusterMeasure env.pars.m st := by
  obtain ⟨hnorm, hvis, hstack⟩ := hinv
  unfold tryBond
  by_cases h1 : neigh ∉ st.visited
  · rw [if_pos h1]
    simp only
    split
    · by_cases h3 : env.activate st.draws = true
      · rw [if_pos h3]
        refine ⟨⟨?_, ?_, ?_⟩, ?_⟩
        · intro i t
          rw [norm_flipPhi env hrd]
          exact hnorm i t
        · exact Finset.insert_subset hneigh hvis
        · intro p hp
          rcases List.mem_cons.mp hp with rfl | hp
          · exact hneigh
          · exact hstack p hp
        · have hcard : (insert neigh st.visited).card = st.visited.card + 1 :=
            Finset.card_insert_of_not_mem h1
          have hle : (insert neigh st.visited).card ≤ N * env.pars.m := by
            rw [← card_clusterDomain]
            exact Finset.card_le_card (Finset.insert_subset hneigh hvis)
          simp only [clusterMeasure, List.length_cons, hcard]
          omega
      · rw [if_neg h3]
        exact ⟨⟨hnorm, hvis, hstack⟩, rfl⟩
    · exact ⟨⟨hnorm, hvis, hstack⟩, rfl⟩
  · rw [if_neg h1]
    exact ⟨⟨hnorm, hvis, hstack⟩, rfl⟩

theorem foldl_tryBond_inv {K : Type} [LinearOrderedField K] {o : OpDim} {N : ℕ}
    (env : ClusterEnv o N K) (hrd : dot env.rd env.rd = 1) (fc0 : FieldConfig K)
    (factor : K) (here : Fin N × ℕ) {α : Type} (f : α → Fin N × ℕ) (l : List α)
    (hl : ∀ x ∈ l, f x ∈ clusterDomain N env.pars.m) (st : ClusterState N K)
    (hinv : ClusterInv o env.pars.m fc0 st) :
    ClusterInv o env.pars.m fc0 (l.foldl (fun st x => tryBond env factor here st (f x)) st) ∧
    clusterMeasure env.pars.m (l.foldl (fun st x => tryBond env factor here st (f x)) st)
      = clusterMeasure env.pars.m st := by
  induction l generalizing st with
  | nil => exact ⟨hinv, rfl⟩
  | cons x l ih =>
    rw [List.foldl_cons]
    obtain ⟨h1, h2⟩ := tryBond_inv env hrd fc0 factor here st (f x)
      (hl x (List.mem_cons_self _ _)) hinv
    obtain ⟨h3, h4⟩ := ih (fun y hy => hl y (List.mem_cons_of_mem _ hy))
      (tryBond env factor here st (f x)) h1
    exact ⟨h3, h4.trans h2⟩

/-- One pass of the loop body keeps the invariant and the measure. -/
theorem clusterStep_inv {K : Type} [LinearOrderedField K] {o : OpDim} {N : ℕ}
    (env : ClusterEnv o N K) (hrd : dot env.rd env.rd = 1)
    (hlat : LatticePeriodic env.lat env.pars.m) (fc0 : FieldConfig K) (here : Fin N × ℕ)
    (hhere : here ∈ clusterDomain N env.pars.m) (st : ClusterState N K)
    (hinv : ClusterInv o env.pars.m fc0 st) :
    ClusterInv o env.pars.m fc0 (clusterStep env here st) ∧
    clusterMeasure env.pars.m (clusterStep env here st) = clusterMeasure env.pars.m st := by
  have hh : 1 ≤ here.2 ∧ here.2 ≤ env.pars.m := by
    simpa [clusterDomain] using hhere
  obtain ⟨_, _, _, _, _, _, htime⟩ := hlat
  obtain ⟨hE, hL, _⟩ := htime here.2 hh.1 hh.2
  unfold clusterStep
  obtain ⟨h1, h2⟩ := foldl_tryBond_inv env hrd fc0 (2 * env.pars.dtau) here
    (fun neigh_site => (neigh_site, here.2)) (spaceNeighbors env.lat here.1)
    (fun x _ => by simpa [clusterDomain] using hh) st hinv
  obtain ⟨h3, h4⟩ := foldl_tryBond_inv env hrd fc0 (2 / env.pars.dtau) here
    (fun neigh_time => (here.1, neigh_time))
    [env.lat.timeNeigh ChainDir.PLUS here.2, env.lat.timeNeigh ChainDir.MINUS here.2]
    (fun x hx => by
      rcases List.mem_cons.mp hx with rfl | hx
      · simpa [clusterDomain] using hL
      · rcases List.mem_cons.mp hx with rfl | hx
        · simpa [clusterDomain] using hE
        · cases hx)
    _ h1
  exact ⟨h3, h4.trans h2⟩

/-- The loop of `buildAndFlipCluster` ends within the number of passes given by the
measure and keeps the invariant. -/
theorem clusterLoop_spec {K : Type} [LinearOrderedField K] {o : OpDim} {N : ℕ}
    (env : ClusterEnv o N K) (hrd : dot env.rd env.rd = 1)
    (hlat : LatticePeriodic env.lat env.pars.m) (fc0 : FieldConfig K) :
    ∀ (fuel : ℕ) (st : ClusterState N K), ClusterInv o env.pars.m fc0 st →
      st.next_sites ≠ [] → clusterMeasure env.pars.m st ≤ fuel →
      ∃ st2, clusterLoop env fuel st = some st2 ∧ ClusterInv o env.pars.m fc0 st2 := by
  intro fuel
  induction fuel with
  | zero =>
    intro st _ hne hm
    exfalso
    have : 0 < st.next_sites.length := List.length_pos.mpr hne
    unfold clusterMeasure at hm
    omega
  | succ fuel ih =>
    intro st hinv hne hm
    obtain ⟨here, rest, hst⟩ : ∃ here rest, st.next_sites = here :: rest := by
      cases h : st.next_sites with
      | nil => exact absurd h hne
      | cons a l => exact ⟨a, l, rfl⟩
    have hinv1 : ClusterInv o env.pars.m fc0 { st with next_sites := rest } :=
      ⟨hinv.1, hinv.2.1, fun p hp => hinv.2.2 p (by rw [hst]; exact List.mem_cons_of_mem _ hp)⟩
    have hhere : here ∈ clusterDomain N env.pars.m :=
      hinv.2.2 here (by rw [hst]; exact List.mem_cons_self _ _)
    have hm1 : clusterMeasure env.pars.m { st with next_sites := rest } ≤ fuel := by
      unfold clusterMeasure at hm ⊢
      rw [hst, List.length_cons] at hm
      simp only
      omega
    obtain ⟨hinv2, hm2⟩ := clusterStep_inv env hrd hlat fc0 here hhere _ hinv1
    unfold clusterLoop
    rw [hst]
    simp only
    by_cases hemp : (clusterStep env here { st with next_sites := rest }).next_sites.isEmpty
    · rw [if_pos hemp]
      exact ⟨_, rfl, hinv2⟩
    · rw [if_neg hemp]
      apply ih _ hinv2
      · intro h
        rw [h] at hemp
        exact hemp rfl
      · rw [hm2]
        exact hm1

/-- With `phi2bosons` the sum of the terms of the action depends on the norms of the
field vectors only. -/
theorem actionSum_congr_norm {K : Type} [Field K] (o : OpDim) {N : ℕ} (lat : Lattice N)
    (pars : ModelParamsSDW K) (fc fc2 : FieldConfig K) (hb : pars.phi2bosons = true)
    (h : ∀ i t, dot (getPhi o.dim fc2 i t) (getPhi o.dim fc2 i t)
      = dot (getPhi o.dim fc i t) (getPhi o.dim fc i t)) :
    actionSum o lat pars fc2 = actionSum o lat pars fc := by
  unfold actionSum
  apply Finset.sum_congr rfl
  intro t _
  apply Finset.sum_congr rfl
  intro i _
  simp [actionTerm, hb, h]

/-- C9 (amended): for every field configuration, every seed with a slice in `1..m`, every
unit direction `rd` and every outcome of the bond activations, `buildAndFlipCluster`
ends (with fuel `N * m`) and leaves the norm of the field vector of every site and slice
as it was; with `phi2bosons` set the value of `phiAction()` after the call equals its
value before the call. -/
theorem buildAndFlipCluster_keeps_norms {K : Type} [LinearOrderedField K] {o : OpDim}
    {N : ℕ} (env : ClusterEnv o N K) (fc : FieldConfig K) (fuel afuel : ℕ)
    (hrd : dot env.rd env.rd = 1) (hlat : LatticePeriodic env.lat env.pars.m)
    (hs1 : 1 ≤ env.seedSlice) (hsm : env.seedSlice ≤ env.pars.m)
    (hfuel : N * env.pars.m ≤ fuel) (hm32 : env.pars.m + 1 < 4294967296)
    (hafuel : env.pars.m < afuel) :
    ∃ (n : ℕ) (fc2 : FieldConfig K), buildAndFlipCluster env fc fuel = some (n, fc2) ∧
      (∀ i t, dot (getPhi o.dim fc2 i t) (getPhi o.dim fc2 i t)
        = dot (getPhi o.dim fc i t) (getPhi o.dim fc i t)) ∧
      (env.pars.phi2bosons = true →
        ∃ S, phiAction o env.lat env.pars fc afuel = some S ∧
          phiAction o env.lat env.pars fc2 afuel = some S) := by
  have hseed : (env.seedSite, env.seedSlice) ∈ clusterDomain N env.pars.m := by
    simp [clusterDomain, hs1, hsm]
  have hpos : 1 ≤ N * env.pars.m :=
    Nat.mul_pos (Nat.lt_of_le_of_lt (Nat.zero_le _) env.seedSite.isLt) (by omega)
  obtain ⟨st2, hloop, hinv⟩ := clusterLoop_spec env hrd hlat fc fuel
    { fc := flipPhi env env.seedSite.val env.seedSlice fc,
      visited := {(env.seedSite, env.seedSlice)},
      next_sites := [(env.seedSite, env.seedSlice)],
      draws := 0,
      cluster_size := 1 }
    ⟨fun i t => norm_flipPhi env hrd _ _ fc i t,
      Finset.singleton_subset_iff.mpr hseed,
      fun p hp => by
        rcases List.mem_cons.mp hp with rfl | hp
        · exact hseed
        · cases hp⟩
    (by simp)
    (by
      simp only [clusterMeasure, List.length_singleton, Finset.card_singleton]
      omega)
  refine ⟨st2.cluster_size, st2.fc, ?_, hinv.1, ?_⟩
  · unfold buildAndFlipCluster
    rw [hloop]
    rfl
  · intro hb
    refine ⟨actionSum o env.lat env.pars fc,
      phiAction_eq o env.lat env.pars fc afuel hlat hm32 hafuel, ?_⟩
    rw [phiAction_eq o env.lat env.pars st2.fc afuel hlat hm32 hafuel,
      actionSum_congr_norm o env.lat env.pars fc st2.fc hb hinv.1]

/-- Witness for the amended C9: the periodic lattice of `2 x 2` sites with two time
slices, the constant field `phi = 1`, `rd = 1`, the seed `(0, 1)`, every tested bond
activated, `phi2bosons` set. -/
theorem buildAndFlipCluster_keeps_norms_witness :
    ∃ (n : ℕ) (fc2 : FieldConfig ℚ), buildAndFlipCluster allBondEnv onesField 8 = some (n, fc2) ∧
      (∀ i t, dot (getPhi OpDim.one.dim fc2 i t) (getPhi OpDim.one.dim fc2 i t)
        = dot (getPhi OpDim.one.dim onesField i t) (getPhi OpDim.one.dim onesField i t)) ∧
      (allBondEnv.pars.phi2bosons = true →
        ∃ S, phiAction OpDim.one allBondEnv.lat allBondEnv.pars onesField 3 = some S ∧
          phiAction OpDim.one allBondEnv.lat allBondEnv.pars fc2 3 = some S) :=
  buildAndFlipCluster_keeps_norms allBondEnv onesField 8 3 (by simp [dot, allBondEnv])
    squareLattice_two_periodic (by decide) (by decide) (by decide) (by decide) (by decide)
/-! ## Lemmas: single steps of the sweeps -/

theorem forEachGC_one {α : Type} (f : ℕ → α → Option α) (a : α) :
    forEachGC 1 f a = f 0 a := by
  unfold forEachGC
  cases h : f 0 a <;> simp [List.range_succ, h]

theorem sliceTrace_append (tm : Bool) (ks ks' : List ℕ) :
    sliceTrace tm (ks ++ ks') = sliceTrace tm ks ++ sliceTrace tm ks' := by
  induction ks with
  | nil => rfl
  | cons k ks ih => simp [sliceTrace, ih]

theorem slicesDown_self (k : ℕ) : slicesDown k k = [] := by
  simp [slicesDown]

theorem slicesDown_step (hi k : ℕ) (h1 : 1 ≤ k) (h2 : k ≤ hi) :
    slicesDown hi (k - 1) = slicesDown hi k ++ [k] := by
  unfold slicesDown
  have e : hi - (k - 1) = (hi - k) + 1 := by omega
  rw [e, List.range_succ, List.map_append]
  simp
  omega

theorem slicesUp_self (k : ℕ) : slicesUp k k = [] := by
  simp [slicesUp]

theorem slicesUp_step (lo k : ℕ) (h : lo ≤ k) :
    slicesUp lo (k + 1) = slicesUp lo k ++ [k + 1] := by
  unfold slicesUp
  have e : k + 1 - lo = (k - lo) + 1 := by omega
  rw [e, List.range_succ, List.map_append]
  simp
  omega

theorem updatedSlices_append (xs ys : List Call) :
    updatedSlices (xs ++ ys) = updatedSlices xs ++ updatedSlices ys := by
  induction xs with
  | nil => rfl
  | cons x xs ih => cases x <;> simp [updatedSlices, ih]

theorem updatedSlices_sliceTrace (tm : Bool) (ks : List ℕ) :
    updatedSlices (sliceTrace tm ks) = ks := by
  induction ks with
  | nil => rfl
  | cons k ks ih => cases tm <;> simp [sliceTrace, updatedSlices, ih]

theorem updatedSlices_sweepTrace (tm : Bool) (ks : List ℕ) :
    updatedSlices (sweepTrace tm ks) = ks := by
  unfold sweepTrace
  cases tm <;> simp [updatedSlices_append, updatedSlices_sliceTrace, updatedSlices]

/-- The slice update wrapper succeeds exactly on the current time slice and appends
its calls to the trace. -/
theorem updateInSliceAndMaybeMeasure_spec {sz : ℕ} {K σ : Type} (c : Callables sz K σ)
    (tm : Bool) (k : ℕ) (st : DetModelGC sz K σ) (h : st.currentTimeslice = k) :
    ∃ st', updateInSliceAndMaybeMeasure c tm k st = some st' ∧
      st'.currentTimeslice = k ∧ st'.UdVStorage = st.UdVStorage ∧
      st'.lastSweepDir = st.lastSweepDir ∧
      st'.calls = st.calls ++ sliceTrace tm [k] := by
  unfold updateInSliceAndMaybeMeasure
  rw [if_pos h]
  cases tm
  · exact ⟨_, rfl, h, rfl, rfl, by simp [sliceTrace]⟩
  · exact ⟨_, rfl, h, rfl, rfl, by simp [sliceTrace]⟩

theorem wrapDownGreen_spec {sz : ℕ} {K σ : Type} [Field K] (c : Callables sz K σ)
    (k gc : ℕ) (st : DetModelGC sz K σ) (h : st.currentTimeslice = k) (h1 : 1 ≤ k)
    (h32 : k < 4294967296) :
    ∃ st', wrapDownGreen c k gc st = some st' ∧
      st'.currentTimeslice = k - 1 ∧ st'.UdVStorage = st.UdVStorage ∧
      st'.lastSweepDir = st.lastSweepDir ∧ st'.calls = st.calls := by
  unfold wrapDownGreen
  rw [if_pos h, usub_eq k 1 h1 h32]
  exact ⟨_, rfl, rfl, rfl, rfl, rfl⟩

theorem wrapUpGreen_spec {sz : ℕ} {K σ : Type} [Field K] (c : Callables sz K σ)
    (k gc : ℕ) (st : DetModelGC sz K σ) (h : st.currentTimeslice = k)
    (h32 : k + 1 < 4294967296) :
    ∃ st', wrapUpGreen c k gc st = some st' ∧
      st'.currentTimeslice = k + 1 ∧ st'.UdVStorage = st.UdVStorage ∧
      st'.lastSweepDir = st.lastSweepDir ∧ st'.calls = st.calls := by
  unfold wrapUpGreen
  rw [if_pos h, uadd_eq k 1 h32]
  exact ⟨_, rfl, rfl, rfl, rfl, rfl⟩

theorem updateGreenFunctionUdV_frame {sz : ℕ} {K σ : Type} [Field K] (p : ModelConsts)
    (c : Callables sz K σ) (gc : ℕ) (L R : UdV sz K) (st : DetModelGC sz K σ) :
    (updateGreenFunctionUdV p c gc L R st).currentTimeslice = st.currentTimeslice ∧
    (updateGreenFunctionUdV p c gc L R st).UdVStorage = st.UdVStorage ∧
    (updateGreenFunctionUdV p c gc L R st).lastSweepDir = st.lastSweepDir ∧
    (updateGreenFunctionUdV p c gc L R st).calls = st.calls ∧
    (updateGreenFunctionUdV p c gc L R st).ext = st.ext := by
  unfold updateGreenFunctionUdV
  split <;> exact ⟨rfl, rfl, rfl, rfl, rfl⟩

/-- Storage vectors of all Green components have `n + 1` entries. -/
theorem storage_length_update {sz : ℕ} {K : Type} (S : ℕ → List (UdV sz K)) (n gc i : ℕ)
    (v : UdV sz K) (h : ∀ g, (S g).length = n + 1) :
    ∀ g, (Function.update S gc ((S gc).set i v) g).length = n + 1 := by
  intro g
  by_cases hg : g = gc
  · subst hg
    simp [h g]
  · simp [Function.update_noteq hg, h g]

theorem advanceDownGreen_spec {sz : ℕ} {K σ : Type} [Field K] (p : ModelConsts)
    (c : Callables sz K σ) (l gc : ℕ) (st : DetModelGC sz K σ)
    (hl1 : 1 ≤ l) (hln : l ≤ p.n) (hn32 : p.n < 4294967296)
    (hm32 : p.s * (l - 1) < 4294967296)
    (h : st.currentTimeslice = p.s * (l - 1))
    (hlen : ∀ g, (st.UdVStorage g).length = p.n + 1) :
    ∃ st', advanceDownGreen p c l gc st = some st' ∧
      st'.currentTimeslice = p.s * (l - 1) ∧
      (∀ g, (st'.UdVStorage g).length = p.n + 1) ∧
      st'.lastSweepDir = st.lastSweepDir ∧ st'.calls = st.calls := by
  unfold advanceDownGreen
  have e1 : usub l 1 = l - 1 := usub_eq l 1 hl1 (by omega)
  have e2 : umul p.s (l - 1) = p.s * (l - 1) := umul_eq _ _ hm32
  rw [e1, e2, if_pos h]
  have hl : l < (st.UdVStorage gc).length := by rw [hlen]; omega
  have hl' : l - 1 < (st.UdVStorage gc).length := by rw [hlen]; omega
  simp only [Option.bind_eq_bind, List.getElem?_eq_getElem hl, List.getElem?_eq_getElem hl',
    Option.some_bind, setAt_some _ _ _ hl', Option.pure_def]
  obtain ⟨f1, f2, f3, f4, -⟩ := updateGreenFunctionUdV_frame p c gc
    ⟨(st.UdVStorage gc)[l].U * (c.udvDecompose (Matrix.diagonal (st.UdVStorage gc)[l].d *
        c.rightMultiplyBmat st.ext gc (st.UdVStorage gc)[l].V (if l < p.n then umul p.s l else p.m)
          (p.s * (l - 1)))).U,
      (c.udvDecompose (Matrix.diagonal (st.UdVStorage gc)[l].d *
        c.rightMultiplyBmat st.ext gc (st.UdVStorage gc)[l].V (if l < p.n then umul p.s l else p.m)
          (p.s * (l - 1)))).d,
      (c.udvDecompose (Matrix.diagonal (st.UdVStorage gc)[l].d *
        c.rightMultiplyBmat st.ext gc (st.UdVStorage gc)[l].V (if l < p.n then umul p.s l else p.m)
          (p.s * (l - 1)))).V⟩
    (st.UdVStorage gc)[l - 1] st
  refine ⟨_, rfl, rfl, ?_, f3, f4⟩
  simp only [f2]
  exact storage_length_update _ _ _ _ _ hlen

theorem advanceUpGreen_spec {sz : ℕ} {K σ : Type} [Field K] (p : ModelConsts)
    (c : Callables sz K σ) (l gc : ℕ) (st : DetModelGC sz K σ)
    (hln : l + 1 ≤ p.n) (hn32 : p.n < 4294967296) (hm : p.m = p.n * p.s)
    (hm32 : p.m < 4294967296)
    (h : st.currentTimeslice = p.s * (l + 1))
    (hlen : ∀ g, (st.UdVStorage g).length = p.n + 1) :
    ∃ st', advanceUpGreen p c l gc st = some st' ∧
      st'.currentTimeslice = p.s * (l + 1) ∧
      (∀ g, (st'.UdVStorage g).length = p.n + 1) ∧
      st'.lastSweepDir = st.lastSweepDir ∧ st'.calls = st.calls := by
  unfold advanceUpGreen
  have hsl : p.s * (l + 1) < 4294967296 := by
    calc p.s * (l + 1) ≤ p.s * p.n := Nat.mul_le_mul_left _ hln
      _ = p.m := by rw [hm, Nat.mul_comm]
      _ < 4294967296 := hm32
  have e1 : uadd l 1 = l + 1 := uadd_eq l 1 (by omega)
  have e0 : usub p.n 1 = p.n - 1 := usub_eq _ _ (by omega) hn32
  have e2 : (if l < usub p.n 1 then umul p.s (l + 1) else p.m) = p.s * (l + 1) := by
    rw [e0]
    split
    · exact umul_eq _ _ hsl
    · have : l + 1 = p.n := by omega
      rw [this, hm, Nat.mul_comm]
  simp only [e1, e2]
  rw [if_pos h]
  have hl : l < (st.UdVStorage gc).length := by rw [hlen]; omega
  have hl' : l + 1 < (st.UdVStorage gc).length := by rw [hlen]; omega
  simp only [Option.bind_eq_bind, List.getElem?_eq_getElem hl, List.getElem?_eq_getElem hl',
    Option.some_bind, setAt_some _ _ _ hl', Option.pure_def]
  obtain ⟨f1, f2, f3, f4, -⟩ := updateGreenFunctionUdV_frame p c gc (st.UdVStorage gc)[l + 1]
    ⟨(c.udvDecompose (c.leftMultiplyBmat st.ext gc (st.UdVStorage gc)[l].U (p.s * (l + 1))
        (umul p.s l) * Matrix.diagonal (st.UdVStorage gc)[l].d)).U,
      (c.udvDecompose (c.leftMultiplyBmat st.ext gc (st.UdVStorage gc)[l].U (p.s * (l + 1))
        (umul p.s l) * Matrix.diagonal (st.UdVStorage gc)[l].d)).d,
      (c.udvDecompose (c.leftMultiplyBmat st.ext gc (st.UdVStorage gc)[l].U (p.s * (l + 1))
        (umul p.s l) * Matrix.diagonal (st.UdVStorage gc)[l].d)).V * (st.UdVStorage gc)[l].V⟩
    st
  refine ⟨_, rfl, rfl, ?_, f3, f4⟩
  simp only [f2]
  exact storage_length_update _ _ _ _ _ hlen

/-! ## Lemmas: traces of the up and down sweeps (one Green component) -/

/-- One iteration of the slice loops of `sweepDown`: update (and measure) slice `k`,
then wrap down to `k - 1`. -/
theorem sweepDown_slice_step {sz : ℕ} {K σ : Type} [Field K] (p : ModelConsts)
    (c : Callables sz K σ) (tm : Bool) (pre : List Call) (dir : SweepDirection)
    (hi k : ℕ) (st : DetModelGC sz K σ) (hk1 : 1 ≤ k) (hk2 : k ≤ hi)
    (h32 : hi < 4294967296)
    (hinv : SweepInv p pre dir (sliceTrace tm (slicesDown hi k)) k st) :
    ∃ st', (updateInSliceAndMaybeMeasure c tm k st).bind
        (fun st => forEachGC 1 (fun gc st => wrapDownGreen c k gc st) st) = some st' ∧
      SweepInv p pre dir (sliceTrace tm (slicesDown hi (k - 1))) (k - 1) st' := by
  obtain ⟨h1, h2, h3, h4⟩ := hinv
  obtain ⟨st1, e1, a1, a2, a3, a4⟩ := updateInSliceAndMaybeMeasure_spec c tm k st h1
  obtain ⟨st2, e2, b1, b2, b3, b4⟩ := wrapDownGreen_spec c k 0 st1 a1 hk1 (by omega)
  refine ⟨st2, ?_, b1, ?_, ?_, ?_⟩
  · rw [e1, Option.some_bind, forEachGC_one, e2]
  · rw [b2, a2]; exact h2
  · rw [b3, a3]; exact h3
  · rw [b4, a4, h4, slicesDown_step hi k hk1 hk2, sliceTrace_append, List.append_assoc]

/-- One iteration of the slice loops of `sweepUp`: wrap up from `k` to `k + 1`, then
update (and measure) slice `k + 1`. -/
theorem sweepUp_slice_step {sz : ℕ} {K σ : Type} [Field K] (p : ModelConsts)
    (c : Callables sz K σ) (tm : Bool) (pre : List Call) (dir : SweepDirection)
    (k : ℕ) (st : DetModelGC sz K σ) (h32 : k + 1 < 4294967296)
    (hinv : SweepInv p pre dir (sliceTrace tm (slicesUp 0 k)) k st) :
    ∃ st', (forEachGC 1 (fun gc st => wrapUpGreen c (usub (k + 1) 1) gc st) st).bind
        (fun st => updateInSliceAndMaybeMeasure c tm (k + 1) st) = some st' ∧
      SweepInv p pre dir (sliceTrace tm (slicesUp 0 (k + 1))) (k + 1) st' := by
  obtain ⟨h1, h2, h3, h4⟩ := hinv
  have e0 : usub (k + 1) 1 = k := by rw [usub_eq _ _ (by omega) h32]; omega
  obtain ⟨st1, e1, a1, a2, a3, a4⟩ := wrapUpGreen_spec c k 0 st h1 h32
  obtain ⟨st2, e2, b1, b2, b3, b4⟩ := updateInSliceAndMaybeMeasure_spec c tm (k + 1) st1 a1
  refine ⟨st2, ?_, b1, ?_, ?_, ?_⟩
  · rw [forEachGC_one, e0, e1, Option.some_bind, e2]
  · rw [b2, a2]; exact h2
  · rw [b3, a3]; exact h3
  · rw [b4, a4, h4, slicesUp_step 0 k (Nat.zero_le _), sliceTrace_append, List.append_assoc]

/-- Resetting one storage entry to the identity triple keeps the invariant. -/
theorem storage_reset_step {sz : ℕ} {K σ : Type} [Field K] (p : ModelConsts)
    (pre : List Call) (dir : SweepDirection) (tr : List Call) (t i : ℕ)
    (st : DetModelGC sz K σ) (hi : i ≤ p.n) (hinv : SweepInv p pre dir tr t st) :
    ∃ st', forEachGC 1
        (fun gc (st : DetModelGC sz K σ) => do
          let storage ← setAt (st.UdVStorage gc) i (eye_UdV sz K)
          pure { st with UdVStorage := Function.update st.UdVStorage gc storage }) st
        = some st' ∧
      SweepInv p pre dir tr t st' := by
  obtain ⟨h1, h2, h3, h4⟩ := hinv
  rw [forEachGC_one]
  simp only [Option.bind_eq_bind, Option.pure_def]
  rw [setAt_some _ _ _ (by rw [h2]; omega), Option.some_bind]
  exact ⟨_, rfl, h1, storage_length_update _ _ _ _ _ h2, h3, h4⟩

/-- Trace of a down sweep (one Green component): started on slice `m` with complete
storage vectors, `sweepDown` returns, ends on slice `0`, and has called the callables in
the order `sweepTrace` for the slices `m, m - 1, ..., 1`. -/
theorem sweepDown_trace {sz : ℕ} {K σ : Type} [Field K] (p : ModelConsts)
    (c : Callables sz K σ) (tm : Bool) (fuel : ℕ) (st : DetModelGC sz K σ)
    (hGC : p.GC = 1) (hn : 2 ≤ p.n) (hm : p.m = p.n * p.s) (hm32 : p.m < 4294967296)
    (hn32 : p.n < 4294967296) (hfuel : p.n + p.s ≤ fuel)
    (hcur : st.currentTimeslice = p.m)
    (hlen : ∀ g, (st.UdVStorage g).length = p.n + 1) :
    ∃ st', sweepDown p c tm fuel st = some st' ∧
      SweepInv p st.calls st.lastSweepDir (sweepTrace tm (slicesDown p.m 0)) 0 st' := by
  have hls : ∀ l, l ≤ p.n → l * p.s ≤ p.m := by
    intro l hl
    rw [hm]
    exact Nat.mul_le_mul_right _ hl
  have hls1 : ∀ l, l + 1 ≤ p.n → l * p.s + 1 < 4294967296 := by
    intro l hl
    rcases Nat.eq_zero_or_pos p.s with h0 | h0
    · rw [h0]; simp
    · have := hls (l + 1) hl
      rw [Nat.add_mul, Nat.one_mul] at this
      omega
  have e1 : usub p.n 1 = p.n - 1 := usub_eq _ _ (by omega) hn32
  have hlast : (p.n - 1) * p.s + p.s = p.m := by
    rw [hm]
    have : p.n = (p.n - 1) + 1 := by omega
    conv_rhs => rw [this, Nat.add_mul, Nat.one_mul]
  have e2 : umul (p.n - 1) p.s = (p.n - 1) * p.s := umul_eq _ _ (by omega)
  have e3 : uadd ((p.n - 1) * p.s) 1 = (p.n - 1) * p.s + 1 :=
    uadd_eq _ _ (hls1 (p.n - 1) (by omega))
  unfold sweepDown
  simp only [Option.bind_eq_bind, Option.pure_def, hGC, e1, e2, e3]
  set pre : List Call := st.calls ++ (if tm then [Call.initMeasurement] else []) with hpre
  set dir := st.lastSweepDir with hdir
  have hinit : SweepInv p pre dir (sliceTrace tm (slicesDown p.m p.m)) p.m
      (if tm = true then callInitMeasurement c st else st) := by
    rw [slicesDown_self]
    cases tm
    · exact ⟨hcur, hlen, rfl, by simp [hpre, sliceTrace]⟩
    · exact ⟨hcur, hlen, rfl, by simp [hpre, sliceTrace, callInitMeasurement]⟩
  generalize (if tm = true then callInitMeasurement c st else st) = st0 at hinit ⊢
  -- slices m, ..., (n-1) s + 1
  refine bind_spec
    (fun st1 => SweepInv p pre dir
      (sliceTrace tm (slicesDown p.m ((p.n - 1) * p.s + 1 - 1))) ((p.n - 1) * p.s + 1 - 1) st1)
    (forLoop_down_invariant _ _
      (fun k st1 => SweepInv p pre dir (sliceTrace tm (slicesDown p.m k)) k st1)
      (by omega) p.s p.m fuel st0 (by omega) hm32 (by omega) hinit
      (fun k a hk1 hk2 hP => sweepDown_slice_step p c tm pre dir p.m k a (by omega) hk2 hm32 hP))
    ?_
  intro st1 hst1
  rw [Nat.add_sub_cancel] at hst1
  -- storage[n] = eye_UdV
  refine bind_spec
    (fun st2 => SweepInv p pre dir
      (sliceTrace tm (slicesDown p.m ((p.n - 1) * p.s))) ((p.n - 1) * p.s) st2)
    (storage_reset_step p pre dir _ _ p.n st1 (le_refl _) hst1) ?_
  intro st2 hst2
  -- the intervals l = n - 1, ..., 1
  refine bind_spec
    (fun st3 => SweepInv p pre dir
      (sliceTrace tm (slicesDown p.m ((1 - 1) * p.s))) ((1 - 1) * p.s) st3)
    (forLoop_down_invariant _ 1
      (fun l st3 => SweepInv p pre dir (sliceTrace tm (slicesDown p.m (l * p.s))) (l * p.s) st3)
      (le_refl _) (p.n - 1 - 1 + 1) (p.n - 1) fuel st2 (by omega) (by omega) (by omega) hst2
      ?_)
    ?_
  · intro l a hl1 hl2 hP
    beta_reduce
    have hl32 : l * p.s < 4294967296 := by
      have := hls l (by omega)
      omega
    have f1 : uadd l 1 = l + 1 := uadd_eq _ _ (by omega)
    have f2 : umul l p.s = l * p.s := umul_eq _ _ hl32
    have f3 : usub l 1 = l - 1 := usub_eq _ _ hl1 (by omega)
    have hl1s : (l - 1) * p.s + p.s = l * p.s := by
      have : l = (l - 1) + 1 := by omega
      conv_rhs => rw [this, Nat.add_mul, Nat.one_mul]
    have f4 : umul (l - 1) p.s = (l - 1) * p.s := umul_eq _ _ (by omega)
    have f5 : uadd ((l - 1) * p.s) 1 = (l - 1) * p.s + 1 :=
      uadd_eq _ _ (hls1 (l - 1) (by omega))
    simp only [f1, f2, f3, f4, f5, Option.bind_eq_bind]
    obtain ⟨h1, h2, h3, h4⟩ := hP
    obtain ⟨a1, ea1, b1, b2, b3, b4⟩ := advanceDownGreen_spec p c (l + 1) 0 a (by omega)
      (by omega) hn32 (by rw [Nat.add_sub_cancel, Nat.mul_comm]; exact hl32)
      (by rw [Nat.add_sub_cancel, Nat.mul_comm]; exact h1) h2
    rw [forEachGC_one, ea1, Option.some_bind]
    have hP1 : SweepInv p pre dir (sliceTrace tm (slicesDown p.m (l * p.s))) (l * p.s) a1 := by
      refine ⟨?_, b2, by rw [b3]; exact h3, by rw [b4]; exact h4⟩
      rw [b1, Nat.add_sub_cancel, Nat.mul_comm]
    have := forLoop_down_invariant
      (fun k st => (updateInSliceAndMaybeMeasure c tm k st).bind
        (fun st => forEachGC 1 (fun gc st => wrapDownGreen c k gc st) st))
      ((l - 1) * p.s + 1)
      (fun k st3 => SweepInv p pre dir (sliceTrace tm (slicesDown p.m k)) k st3)
      (by omega) p.s (l * p.s) fuel a1 (by omega) hl32 (by omega) hP1
      (fun k a hk1 hk2 hP => sweepDown_slice_step p c tm pre dir p.m k a (by omega)
        (by have := hls l (by omega); omega) hm32 hP)
    rw [Nat.add_sub_cancel] at this
    exact this
  · intro st3 hst3
    simp only [Nat.sub_self, Nat.zero_mul] at hst3
    obtain ⟨h1, h2, h3, h4⟩ := hst3
    obtain ⟨a1, ea1, b1, b2, b3, b4⟩ := advanceDownGreen_spec p c 1 0 st3 (le_refl _)
      (by omega) hn32 (by simp) (by simpa using h1) h2
    rw [forEachGC_one, ea1, Option.some_bind]
    refine ⟨_, rfl, ?_⟩
    cases tm
    · refine ⟨by simpa using b1, b2, by rw [← h3, ← b3]; rfl, ?_⟩
      simp [callConsistencyCheck, b4, h4, hpre, sweepTrace]
    · refine ⟨by simpa [callConsistencyCheck, callFinishMeasurement] using b1,
        b2, by rw [← h3, ← b3]; rfl, ?_⟩
      simp [callConsistencyCheck, callFinishMeasurement, b4, h4, hpre, sweepTrace]

/-- The slice loop of `sweepUp` over the slices `lo + 1, ..., hi`. -/
theorem sweepUp_slice_loop {sz : ℕ} {K σ : Type} [Field K] (p : ModelConsts)
    (c : Callables sz K σ) (tm : Bool) (pre : List Call) (dir : SweepDirection)
    (lo hi fuel : ℕ) (st : DetModelGC sz K σ) (hlohi : lo ≤ hi) (h32 : hi + 1 < 4294967296)
    (hfuel : hi - lo < fuel)
    (hinv : SweepInv p pre dir (sliceTrace tm (slicesUp 0 lo)) lo st) :
    ∃ st', forLoop (fun k => decide (k ≤ hi)) (fun k => uadd k 1)
        (fun k st => (forEachGC 1 (fun gc st => wrapUpGreen c (usub k 1) gc st) st).bind
          (fun st => updateInSliceAndMaybeMeasure c tm k st))
        fuel (lo + 1) st = some st' ∧
      SweepInv p pre dir (sliceTrace tm (slicesUp 0 hi)) hi st' := by
  have := forLoop_up_invariant
    (fun k st => (forEachGC 1 (fun gc st => wrapUpGreen c (usub k 1) gc st) st).bind
      (fun st => updateInSliceAndMaybeMeasure c tm k st))
    hi
    (fun k st1 => SweepInv p pre dir (sliceTrace tm (slicesUp 0 (k - 1))) (k - 1) st1)
    h32 (hi - lo) (lo + 1) fuel st (by omega) hfuel (by simpa using hinv)
    (by
      intro k a hk1 hk2 hP
      obtain ⟨j, rfl⟩ : ∃ j, k = j + 1 := ⟨k - 1, by omega⟩
      simp only [Nat.add_sub_cancel] at hP ⊢
      exact sweepUp_slice_step p c tm pre dir j a (by omega) hP)
  simpa using this

/-- Trace of an up sweep (one Green component): started on slice `0` with complete
storage vectors, `sweepUp` returns, ends on slice `m`, and has called the callables in
the order `sweepTrace` for the slices `1, 2, ..., m`. -/
theorem sweepUp_trace {sz : ℕ} {K σ : Type} [Field K] (p : ModelConsts)
    (c : Callables sz K σ) (tm : Bool) (fuel : ℕ) (st : DetModelGC sz K σ)
    (hGC : p.GC = 1) (hn : 2 ≤ p.n) (hm : p.m = p.n * p.s) (hm32 : p.m + 1 < 4294967296)
    (hn32 : p.n < 4294967296) (hfuel : p.n + p.s ≤ fuel)
    (hcur : st.currentTimeslice = 0)
    (hlen : ∀ g, (st.UdVStorage g).length = p.n + 1) :
    ∃ st', sweepUp p c tm fuel st = some st' ∧
      SweepInv p st.calls st.lastSweepDir (sweepTrace tm (slicesUp 0 p.m)) p.m st' := by
  have hls : ∀ l, l ≤ p.n → l * p.s ≤ p.m := by
    intro l hl
    rw [hm]
    exact Nat.mul_le_mul_right _ hl
  have hsucc : ∀ l, (l + 1) * p.s = l * p.s + p.s := by
    intro l
    rw [Nat.add_mul, Nat.one_mul]
  have e1 : usub p.n 1 = p.n - 1 := usub_eq _ _ (by omega) hn32
  have e1' : usub p.n 2 = p.n - 2 := usub_eq _ _ (by omega) hn32
  have hn1 : p.n - 1 + 1 = p.n := by omega
  have hlast : (p.n - 1) * p.s + p.s = p.m := by
    rw [← hsucc, hm, hn1]
  have e2 : umul (p.n - 1) p.s = (p.n - 1) * p.s := umul_eq _ _ (by omega)
  have e3 : uadd ((p.n - 1) * p.s) 1 = (p.n - 1) * p.s + 1 := uadd_eq _ _ (by omega)
  unfold sweepUp
  simp only [Option.bind_eq_bind, Option.pure_def, hGC, e1, e1', e2, e3]
  set pre : List Call := st.calls ++ (if tm then [Call.initMeasurement] else []) with hpre
  set dir := st.lastSweepDir with hdir
  have hinit : SweepInv p pre dir (sliceTrace tm (slicesUp 0 0)) 0
      (if tm = true then callInitMeasurement c st else st) := by
    rw [slicesUp_self]
    cases tm
    · exact ⟨hcur, hlen, rfl, by simp [hpre, sliceTrace]⟩
    · exact ⟨hcur, hlen, rfl, by simp [hpre, sliceTrace, callInitMeasurement]⟩
  generalize (if tm = true then callInitMeasurement c st else st) = st0 at hinit ⊢
  -- storage[0] = eye_UdV
  refine bind_spec
    (fun st1 => SweepInv p pre dir (sliceTrace tm (slicesUp 0 0)) 0 st1)
    (storage_reset_step p pre dir _ _ 0 st0 (Nat.zero_le _) hinit) ?_
  intro st1 hst1
  -- the intervals l = 0, ..., n - 2
  refine bind_spec
    (fun st2 => SweepInv p pre dir
      (sliceTrace tm (slicesUp 0 ((p.n - 2 + 1) * p.s))) ((p.n - 2 + 1) * p.s) st2)
    (forLoop_up_invariant _ (p.n - 2)
      (fun l st2 => SweepInv p pre dir (sliceTrace tm (slicesUp 0 (l * p.s))) (l * p.s) st2)
      (by omega) (p.n - 1) 0 fuel st1 (by omega) (by omega) (by simpa using hst1) ?_)
    ?_
  · intro l a _ hl2 hP
    beta_reduce
    have hl32 : (l + 1) * p.s + 1 < 4294967296 := by
      have := hls (l + 1) (by omega)
      omega
    have f1 : uadd l 1 = l + 1 := uadd_eq _ _ (by omega)
    have f2 : umul l p.s = l * p.s := umul_eq _ _ (by rw [hsucc] at hl32; omega)
    have f3 : umul (l + 1) p.s = (l + 1) * p.s := umul_eq _ _ (by omega)
    have f4 : uadd (l * p.s) 1 = l * p.s + 1 := uadd_eq _ _ (by rw [hsucc] at hl32; omega)
    simp only [f1, f2, f3, f4, Option.bind_eq_bind]
    refine bind_spec
      (fun st3 => SweepInv p pre dir
        (sliceTrace tm (slicesUp 0 ((l + 1) * p.s))) ((l + 1) * p.s) st3)
      (sweepUp_slice_loop p c tm pre dir (l * p.s) ((l + 1) * p.s) fuel a
        (by rw [hsucc]; omega) hl32 (by rw [hsucc]; omega) hP)
      ?_
    intro st3 ⟨h1, h2, h3, h4⟩
    obtain ⟨a1, ea1, b1, b2, b3, b4⟩ := advanceUpGreen_spec p c l 0 st3 (by omega) hn32 hm
      (by omega) (by rw [Nat.mul_comm]; exact h1) h2
    rw [forEachGC_one, ea1]
    exact ⟨a1, rfl, by rw [b1, Nat.mul_comm], b2, by rw [b3]; exact h3, by rw [b4]; exact h4⟩
  · intro st2 hst2
    have e4 : p.n - 2 + 1 = p.n - 1 := by omega
    rw [e4] at hst2
    -- slices (n-1) s + 1, ..., m
    refine bind_spec
      (fun st3 => SweepInv p pre dir (sliceTrace tm (slicesUp 0 p.m)) p.m st3)
      (sweepUp_slice_loop p c tm pre dir ((p.n - 1) * p.s) p.m fuel st2 (by omega) hm32
        (by omega) hst2)
      ?_
    intro st3 ⟨h1, h2, h3, h4⟩
    obtain ⟨a1, ea1, b1, b2, b3, b4⟩ := advanceUpGreen_spec p c (p.n - 1) 0 st3 (by omega)
      hn32 hm (by omega)
      (by rw [h1, hm, hn1, Nat.mul_comm]) h2
    rw [forEachGC_one, ea1, Option.some_bind]
    have b1' : a1.currentTimeslice = p.m := by
      rw [b1, hm, hn1, Nat.mul_comm]
    refine ⟨_, rfl, ?_⟩
    cases tm
    · refine ⟨by simpa using b1', b2, by rw [← h3, ← b3]; rfl, ?_⟩
      simp [callConsistencyCheck, b4, h4, hpre, sweepTrace]
    · refine ⟨by simpa [callConsistencyCheck, callFinishMeasurement] using b1',
        b2, by rw [← h3, ← b3]; rfl, ?_⟩
      simp [callConsistencyCheck, callFinishMeasurement, b4, h4, hpre, sweepTrace]

/-! ## C10: slice order of a sweep -/

/-- C10. Slice order of a sweep: for `m = n * s` with `n ≥ 2` (one Green component, the
counters fit into `uint32_t`), `sweepDown` started on slice `m` terminates and calls the
slice update with `k = m, m - 1, ..., 1` in exactly this order, each slice once, and
`sweepUp` started on slice `0` terminates and calls it with `k = 1, 2, ..., m` in exactly
this order, each slice once. -/
theorem sweep_slice_order {sz : ℕ} {K σ : Type} [Field K] (p : ModelConsts)
    (c : Callables sz K σ) (takeMeasurements : Bool) (fuel : ℕ) (st : DetModelGC sz K σ)
    (hGC : p.GC = 1) (hn : 2 ≤ p.n) (hm : p.m = p.n * p.s) (hm32 : p.m + 1 < 4294967296)
    (hn32 : p.n < 4294967296) (hfuel : p.n + p.s ≤ fuel)
    (hlen : ∀ g, (st.UdVStorage g).length = p.n + 1) :
    (st.currentTimeslice = p.m →
      ∃ st', sweepDown p c takeMeasurements fuel st = some st' ∧
        updatedSlices st'.calls = updatedSlices st.calls ++ slicesDown p.m 0) ∧
    (st.currentTimeslice = 0 →
      ∃ st', sweepUp p c takeMeasurements fuel st = some st' ∧
        updatedSlices st'.calls = updatedSlices st.calls ++ slicesUp 0 p.m) := by
  constructor
  · intro hcur
    obtain ⟨st', h1, -, -, -, h5⟩ := sweepDown_trace p c takeMeasurements fuel st hGC hn hm
      (by omega) hn32 hfuel hcur hlen
    exact ⟨st', h1, by rw [h5, updatedSlices_append, updatedSlices_sweepTrace]⟩
  · intro hcur
    obtain ⟨st', h1, -, -, -, h5⟩ := sweepUp_trace p c takeMeasurements fuel st hGC hn hm
      hm32 hn32 hfuel hcur hlen
    exact ⟨st', h1, by rw [h5, updatedSlices_append, updatedSlices_sweepTrace]⟩

/-- Witness for C10: `m = 6`, `s = 2`, `n = 3`; the down sweep visits `6, 5, 4, 3, 2, 1`. -/
theorem sweep_slice_order_witness :
    ∃ st', sweepDown ⟨1, false, 6, 2, 3⟩ (scalarCallables 2) true 5 (scalarState 1 6 4)
        = some st' ∧
      updatedSlices st'.calls = [6, 5, 4, 3, 2, 1] := by
  have h := (sweep_slice_order ⟨1, false, 6, 2, 3⟩ (scalarCallables 2) true 5
    (scalarState 1 6 4) rfl (by decide) (by decide) (by decide) (by decide) (by decide)
    (by intro g; simp [scalarState])).1 rfl
  simpa [scalarState, slicesDown, updatedSlices, List.range_succ] using h


/-! ## Lemmas: the sweep drivers -/

/-- The thermalization callables differ from the callables of the replica in the slice
update and the measurement hooks only. -/
theorem thermalizationCallables_globalUpdate {sz : ℕ} {K σ : Type} (c : Callables sz K σ)
    (u : ℕ → (ℕ → MatV sz K) × σ → (ℕ → MatV sz K) × σ) :
    (thermalizationCallables c u).globalUpdate = c.globalUpdate := rfl

/-- A driver call of `sweep_skeleton` after an up sweep: the down sweep runs and the
flag becomes `Down`; the global updater is not called. -/
theorem sweep_skeleton_after_up {sz : ℕ} {K σ : Type} [Field K] (p : ModelConsts)
    (c : Callables sz K σ) (tm : Bool) (fuel : ℕ) (st : DetModelGC sz K σ)
    (hGC : p.GC = 1) (hn : 2 ≤ p.n) (hm : p.m = p.n * p.s) (hm32 : p.m + 1 < 4294967296)
    (hn32 : p.n < 4294967296) (hfuel : p.n + p.s ≤ fuel)
    (hdir : st.lastSweepDir = SweepDirection.Up) (hcur : st.currentTimeslice = p.m)
    (hlen : ∀ g, (st.UdVStorage g).length = p.n + 1) :
    ∃ st', sweep_skeleton p c tm fuel st = some st' ∧
      SweepInv p st.calls SweepDirection.Down (sweepTrace tm (slicesDown p.m 0)) 0 st' := by
  obtain ⟨st1, h1, h2, h3, -, h5⟩ := sweepDown_trace p c tm fuel st hGC hn hm (by omega) hn32
    hfuel hcur hlen
  refine ⟨{ st1 with lastSweepDir := SweepDirection.Down }, ?_, h2, h3, rfl, h5⟩
  unfold sweep_skeleton
  rw [if_pos hdir]
  simp [h1]

/-- A driver call of `sweep_skeleton` after a down sweep: the up sweep runs, the flag
becomes `Up`, and then the global updater is called on that state. -/
theorem sweep_skeleton_after_down {sz : ℕ} {K σ : Type} [Field K] (p : ModelConsts)
    (c : Callables sz K σ) (tm : Bool) (fuel : ℕ) (st : DetModelGC sz K σ)
    (hGC : p.GC = 1) (hn : 2 ≤ p.n) (hm : p.m = p.n * p.s) (hm32 : p.m + 1 < 4294967296)
    (hn32 : p.n < 4294967296) (hfuel : p.n + p.s ≤ fuel)
    (hdir : st.lastSweepDir = SweepDirection.Down) (hcur : st.currentTimeslice = 0)
    (hlen : ∀ g, (st.UdVStorage g).length = p.n + 1) :
    ∃ st1, sweep_skeleton p c tm fuel st
        = some (callGlobalUpdate c { st1 with lastSweepDir := SweepDirection.Up }) ∧
      SweepInv p st.calls SweepDirection.Down (sweepTrace tm (slicesUp 0 p.m)) p.m st1 := by
  obtain ⟨st1, h1, h2, h3, h4, h5⟩ := sweepUp_trace p c tm fuel st hGC hn hm hm32 hn32
    hfuel hcur hlen
  refine ⟨st1, ?_, h2, h3, by rw [h4, hdir], h5⟩
  unfold sweep_skeleton
  rw [if_neg (by rw [hdir]; decide), if_pos hdir]
  simp [h1]

/-- A driver call of `sweepThermalization_skeleton` after an up sweep. -/
theorem sweepThermalization_skeleton_after_up {sz : ℕ} {K σ : Type} [Field K]
    (p : ModelConsts) (c : Callables sz K σ)
    (u : ℕ → (ℕ → MatV sz K) × σ → (ℕ → MatV sz K) × σ) (fuel : ℕ)
    (st : DetModelGC sz K σ)
    (hGC : p.GC = 1) (hn : 2 ≤ p.n) (hm : p.m = p.n * p.s) (hm32 : p.m + 1 < 4294967296)
    (hn32 : p.n < 4294967296) (hfuel : p.n + p.s ≤ fuel)
    (hdir : st.lastSweepDir = SweepDirection.Up) (hcur : st.currentTimeslice = p.m)
    (hlen : ∀ g, (st.UdVStorage g).length = p.n + 1) :
    ∃ st', sweepThermalization_skeleton p c u fuel st = some st' ∧
      SweepInv p st.calls SweepDirection.Down (sweepTrace false (slicesDown p.m 0)) 0 st' := by
  obtain ⟨st1, h1, h2, h3, -, h5⟩ := sweepDown_trace p (thermalizationCallables c u) false
    fuel st hGC hn hm (by omega) hn32 hfuel hcur hlen
  refine ⟨{ st1 with lastSweepDir := SweepDirection.Down }, ?_, h2, h3, rfl, h5⟩
  unfold sweepThermalization_skeleton
  rw [if_pos hdir]
  simp [h1]

/-- A driver call of `sweepThermalization_skeleton` after a down sweep. -/
theorem sweepThermalization_skeleton_after_down {sz : ℕ} {K σ : Type} [Field K]
    (p : ModelConsts) (c : Callables sz K σ)
    (u : ℕ → (ℕ → MatV sz K) × σ → (ℕ → MatV sz K) × σ) (fuel : ℕ)
    (st : DetModelGC sz K σ)
    (hGC : p.GC = 1) (hn : 2 ≤ p.n) (hm : p.m = p.n * p.s) (hm32 : p.m + 1 < 4294967296)
    (hn32 : p.n < 4294967296) (hfuel : p.n + p.s ≤ fuel)
    (hdir : st.lastSweepDir = SweepDirection.Down) (hcur : st.currentTimeslice = 0)
    (hlen : ∀ g, (st.UdVStorage g).length = p.n + 1) :
    ∃ st1, sweepThermalization_skeleton p c u fuel st
        = some (callGlobalUpdate c { st1 with lastSweepDir := SweepDirection.Up }) ∧
      SweepInv p st.calls SweepDirection.Down (sweepTrace false (slicesUp 0 p.m)) p.m st1 := by
  obtain ⟨st1, h1, h2, h3, h4, h5⟩ := sweepUp_trace p (thermalizationCallables c u) false
    fuel st hGC hn hm hm32 hn32 hfuel hcur hlen
  refine ⟨st1, ?_, h2, h3, by rw [h4, hdir], h5⟩
  unfold sweepThermalization_skeleton
  rw [if_neg (by rw [hdir]; decide), if_pos hdir]
  simp [h1]

theorem SweepDirection.other_other (d : SweepDirection) : d.other.other = d := by
  cases d <;> rfl

theorem dirsAfter_succ (d : SweepDirection) (j : ℕ) :
    dirsAfter d (j + 1) = d.other :: dirsAfter d.other j := by
  unfold dirsAfter
  rw [List.range_succ_eq_map, List.map_cons, List.map_map]
  simp only [Nat.zero_mod, if_true, List.cons.injEq, true_and]
  apply List.map_congr_left
  intro i _
  simp only [Function.comp_apply, SweepDirection.other_other]
  rcases Nat.mod_two_eq_zero_or_one i with h | h
  · have : (i + 1) % 2 = 1 := by omega
    simp [h, this]
  · have : (i + 1) % 2 = 0 := by omega
    simp [h, this]

theorem dirsAfter_up (j : ℕ) : dirsAfter SweepDirection.Up j = alternatingDirs j := rfl

/-- One driver call between two sweeps: it returns, performs the sweep in the direction
opposite to the flag, sets the flag to that direction and leaves the replica ready for
the next call. -/
theorem runSweep_spec {sz : ℕ} {K σ : Type} [Field K] (p : ModelConsts)
    (c : Callables sz K σ) (u : ℕ → (ℕ → MatV sz K) × σ → (ℕ → MatV sz K) × σ)
    (fuel : ℕ) (hGC : p.GC = 1) (hn : 2 ≤ p.n) (hm : p.m = p.n * p.s)
    (hm32 : p.m + 1 < 4294967296) (hn32 : p.n < 4294967296) (hfuel : p.n + p.s ≤ fuel)
    (hglob : GlobalUpdateKeeps p c) (call : SweepCall) (st : DetModelGC sz K σ)
    (hst : BetweenSweeps p st) :
    ∃ st', runSweep p c u fuel call st = some st' ∧ BetweenSweeps p st' ∧
      st'.lastSweepDir = st.lastSweepDir.other ∧
      st'.calls = st.calls
        ++ sweepTrace call.takeMeasurements (slicesOf p.m st.lastSweepDir.other)
        ++ (if st.lastSweepDir = SweepDirection.Down then [Call.globalUpdate] else []) := by
  obtain ⟨hU, hD, hlen⟩ := hst
  cases hdir : st.lastSweepDir with
  | Up =>
    have hres : ∃ st', runSweep p c u fuel call st = some st' ∧
        SweepInv p st.calls SweepDirection.Down
          (sweepTrace call.takeMeasurements (slicesDown p.m 0)) 0 st' := by
      cases call with
      | sweep tm =>
        exact sweep_skeleton_after_up p c tm fuel st hGC hn hm hm32 hn32 hfuel hdir
          (hU hdir) hlen
      | thermalization =>
        exact sweepThermalization_skeleton_after_up p c u fuel st hGC hn hm hm32 hn32 hfuel
          hdir (hU hdir) hlen
    obtain ⟨st', h1, h2, h3, h4, h5⟩ := hres
    refine ⟨st', h1, ⟨?_, fun _ => h2, h3⟩, h4, ?_⟩
    · intro h
      rw [h4] at h
      cases h
    · simp [h5, SweepDirection.other, slicesOf]
  | Down =>
    have hres : ∃ st1, runSweep p c u fuel call st
          = some (callGlobalUpdate c { st1 with lastSweepDir := SweepDirection.Up }) ∧
        SweepInv p st.calls SweepDirection.Down
          (sweepTrace call.takeMeasurements (slicesUp 0 p.m)) p.m st1 := by
      cases call with
      | sweep tm =>
        exact sweep_skeleton_after_down p c tm fuel st hGC hn hm hm32 hn32 hfuel hdir
          (hD hdir) hlen
      | thermalization =>
        exact sweepThermalization_skeleton_after_down p c u fuel st hGC hn hm hm32 hn32
          hfuel hdir (hD hdir) hlen
    obtain ⟨st1, h1, h2, h3, h4, h5⟩ := hres
    obtain ⟨g1, g2, g3⟩ := hglob { st1 with lastSweepDir := SweepDirection.Up } rfl h2 h3
    refine ⟨_, h1, ⟨fun _ => g2, ?_, g3⟩, g1, ?_⟩
    · intro h
      have : (callGlobalUpdate c { st1 with lastSweepDir := SweepDirection.Up }).lastSweepDir
          = SweepDirection.Up := g1
      rw [this] at h
      cases h
    · simp [callGlobalUpdate, h5, SweepDirection.other, slicesOf]

/-- A sequence of driver calls: every call returns, the directions of the sweeps
alternate, starting with the direction opposite to the flag. -/
theorem runSweeps_spec {sz : ℕ} {K σ : Type} [Field K] (p : ModelConsts)
    (c : Callables sz K σ) (u : ℕ → (ℕ → MatV sz K) × σ → (ℕ → MatV sz K) × σ)
    (fuel : ℕ) (hGC : p.GC = 1) (hn : 2 ≤ p.n) (hm : p.m = p.n * p.s)
    (hm32 : p.m + 1 < 4294967296) (hn32 : p.n < 4294967296) (hfuel : p.n + p.s ≤ fuel)
    (hglob : GlobalUpdateKeeps p c) :
    ∀ (calls : List SweepCall) (st : DetModelGC sz K σ), BetweenSweeps p st →
      ∃ st', runSweeps p c u fuel calls st = some st' ∧ BetweenSweeps p st' ∧
        st'.lastSweepDir
          = (if calls.length % 2 = 0 then st.lastSweepDir else st.lastSweepDir.other) ∧
        updatedSlices st'.calls = updatedSlices st.calls
          ++ (dirsAfter st.lastSweepDir calls.length).flatMap (slicesOf p.m) := by
  intro calls
  induction calls with
  | nil =>
    intro st hst
    exact ⟨st, rfl, hst, rfl, by simp [dirsAfter]⟩
  | cons call rest ih =>
    intro st hst
    obtain ⟨st1, h1, h2, h3, h4⟩ := runSweep_spec p c u fuel hGC hn hm hm32 hn32 hfuel
      hglob call st hst
    obtain ⟨st2, g1, g2, g3, g4⟩ := ih st1 h2
    refine ⟨st2, ?_, g2, ?_, ?_⟩
    · unfold runSweeps at g1 ⊢
      rw [List.foldlM_cons, h1]
      exact g1
    · rw [g3, h3, SweepDirection.other_other, List.length_cons]
      rcases Nat.mod_two_eq_zero_or_one rest.length with h | h
      · have : (rest.length + 1) % 2 = 1 := by omega
        simp [h, this]
      · have : (rest.length + 1) % 2 = 0 := by omega
        simp [h, this]
    · rw [g4, h4, h3, List.length_cons, dirsAfter_succ, List.flatMap_cons]
      simp only [updatedSlices_append, updatedSlices_sweepTrace, List.append_assoc]
      congr 2
      split <;> simp [updatedSlices]

/-- The set-up of the storage returns and leaves the replica on slice `m` with the flag
`Up` and `n + 1` entries in the storage of every Green component. -/
theorem setup_skeleton_flags {sz : ℕ} {K σ : Type} [Field K]
    (p : ModelConsts) (c : Callables sz K σ) (B : ℕ → ℕ → MatV sz K) (fuel : ℕ)
    (st : DetModelGC sz K σ)
    (hn : 2 ≤ p.n) (hm : p.m = p.n * p.s) (hm32 : p.m < 4294967296)
    (hn32 : p.n + 1 < 4294967296) (hfuel : p.n ≤ fuel)
    (hudv : ∀ X : MatV sz K, (c.udvDecompose X).mat = X) :
    ∃ st' : DetModelGC sz K σ,
      setupUdVStorage_and_calculateGreen_skeleton p c
        (fun gc k2 k1 => computeBmat (B gc) k2 k1) fuel st = some st' ∧
      (∀ gc, gc < p.GC → (st'.UdVStorage gc).length = p.n + 1) ∧
      st'.currentTimeslice = p.m ∧ st'.lastSweepDir = SweepDirection.Up ∧
      st'.calls = st.calls := by
  have good : ∀ gc, ∃ storage : List (UdV sz K),
      setupUdVStorage_setup p c.udvDecompose (fun gc k2 k1 => computeBmat (B gc) k2 k1)
        fuel gc = some storage ∧ storage.length = p.n + 1 := by
    intro gc
    obtain ⟨storage, h1, h2, -⟩ := setupUdVStorage_setup_correct p c.udvDecompose (B gc)
      fuel gc hn hm hm32 hn32 hfuel hudv
    refine ⟨storage, ?_, h2⟩
    unfold setupUdVStorage_setup at h1 ⊢
    exact h1
  unfold setupUdVStorage_and_calculateGreen_skeleton
  refine bind_spec
    (fun st1 => (∀ gc, gc < p.GC → (st1.UdVStorage gc).length = p.n + 1) ∧
      st1.calls = st.calls) ?_ ?_
  · exact forEachGC_invariant p.GC
      (fun gc (st : DetModelGC sz K σ) =>
        (setupUdVStorage_setup p c.udvDecompose
          (fun gc k2 k1 => computeBmat (B gc) k2 k1) fuel gc).bind (fun storage =>
          some { st with UdVStorage := Function.update st.UdVStorage gc storage }))
      (fun i st1 => (∀ gc, gc < i → (st1.UdVStorage gc).length = p.n + 1) ∧
        st1.calls = st.calls)
      st ⟨by intro gc h; omega, rfl⟩
      (by
        intro i a hi hP
        obtain ⟨storage, hs, hgood⟩ := good i
        refine ⟨{ a with UdVStorage := Function.update a.UdVStorage i storage }, ?_, ?_, hP.2⟩
        · beta_reduce
          rw [hs, Option.some_bind]
        · intro gc hgc
          by_cases h : gc = i
          · subst h
            simpa using hgood
          · simp only [Function.update_noteq h]
            exact hP.1 gc (by omega))
  · intro st1 hP1
    refine bind_spec
      (fun st2 => st2.UdVStorage = st1.UdVStorage ∧ st2.calls = st1.calls) ?_ ?_
    · refine forEachGC_invariant p.GC _
        (fun _ st2 => st2.UdVStorage = st1.UdVStorage ∧ st2.calls = st1.calls) st1
        ⟨rfl, rfl⟩ ?_
      intro i a hi hP
      have hlen := hP1.1 i hi
      rw [← hP.1] at hlen
      have hlt : p.n < (a.UdVStorage i).length := by omega
      refine ⟨updateGreenFunctionUdV p c i (eye_UdV sz K) ((a.UdVStorage i)[p.n]) a, ?_, ?_, ?_⟩
      · beta_reduce
        rw [List.getElem?_eq_getElem hlt, Option.some_bind]
      · rw [← hP.1]
        exact (updateGreenFunctionUdV_frame p c i _ _ a).2.1
      · rw [← hP.2]
        exact (updateGreenFunctionUdV_frame p c i _ _ a).2.2.2.1
    · intro st2 hP2
      refine ⟨_, rfl, ?_, rfl, rfl, ?_⟩
      · intro gc hgc
        show ((st2.UdVStorage) gc).length = p.n + 1
        rw [hP2.1]
        exact hP1.1 gc hgc
      · show st2.calls = st.calls
        rw [hP2.2, hP1.2]

/-! ## C11: the sweep direction alternates -/

/-- C11. Sweep direction state machine (one Green component, `m = n * s`, `n ≥ 2`, the
counters fit into `uint32_t`, exact `udvDecompose`, a global updater that keeps the
replica ready for the next sweep): `lastSweepDir` is `Up` after the constructor and
after `setupUdVStorage_and_calculateGreen_skeleton`, which returns; every call of
`sweep_skeleton` or `sweepThermalization_skeleton` on a replica between two sweeps
returns, performs the down sweep (slices `m, ..., 1`) if the flag was `Up` and the up
sweep (slices `1, ..., m`) if it was `Down`, and leaves the flag at the direction just
performed; hence a sequence of calls started with the flag `Up` performs sweeps in the
directions `Down, Up, Down, ...`. -/
theorem sweep_direction_alternates {sz : ℕ} {K σ : Type} [Field K] (p : ModelConsts)
    (c : Callables sz K σ) (u : ℕ → (ℕ → MatV sz K) × σ → (ℕ → MatV sz K) × σ)
    (B : ℕ → ℕ → MatV sz K) (fuel : ℕ) (st0 : DetModelGC sz K σ) (ext : σ)
    (hGC : p.GC = 1) (hn : 2 ≤ p.n) (hm : p.m = p.n * p.s) (hm32 : p.m + 1 < 4294967296)
    (hn32 : p.n + 1 < 4294967296) (hfuel : p.n + p.s ≤ fuel)
    (hudv : ∀ X : MatV sz K, (c.udvDecompose X).mat = X)
    (hglob : GlobalUpdateKeeps p c) :
    (DetModelGC.construct sz K ext).lastSweepDir = SweepDirection.Up ∧
    (∃ st1, setupUdVStorage_and_calculateGreen_skeleton p c
        (fun gc k2 k1 => computeBmat (B gc) k2 k1) fuel st0 = some st1 ∧
      st1.lastSweepDir = SweepDirection.Up) ∧
    (∀ (call : SweepCall) (st : DetModelGC sz K σ), BetweenSweeps p st →
      ∃ st', runSweep p c u fuel call st = some st' ∧ BetweenSweeps p st' ∧
        (st.lastSweepDir = SweepDirection.Up →
          st'.calls = st.calls ++ sweepTrace call.takeMeasurements (slicesDown p.m 0) ∧
          st'.lastSweepDir = SweepDirection.Down) ∧
        (st.lastSweepDir = SweepDirection.Down →
          st'.calls = st.calls ++ sweepTrace call.takeMeasurements (slicesUp 0 p.m)
            ++ [Call.globalUpdate] ∧
          st'.lastSweepDir = SweepDirection.Up)) ∧
    (∀ (calls : List SweepCall) (st : DetModelGC sz K σ), BetweenSweeps p st →
      st.lastSweepDir = SweepDirection.Up →
      ∃ st', runSweeps p c u fuel calls st = some st' ∧
        st'.lastSweepDir
          = (if calls.length % 2 = 0 then SweepDirection.Up else SweepDirection.Down) ∧
        updatedSlices st'.calls = updatedSlices st.calls
          ++ (alternatingDirs calls.length).flatMap (slicesOf p.m)) := by
  refine ⟨rfl, ?_, ?_, ?_⟩
  · obtain ⟨st1, h1, -, -, h4, -⟩ := setup_skeleton_flags p c B fuel st0 hn hm (by omega)
      hn32 (by omega) hudv
    exact ⟨st1, h1, h4⟩
  · intro call st hst
    obtain ⟨st', h1, h2, h3, h4⟩ := runSweep_spec p c u fuel hGC hn hm hm32 (by omega) hfuel
      hglob call st hst
    refine ⟨st', h1, h2, ?_, ?_⟩
    · intro hdir
      rw [hdir] at h3 h4
      exact ⟨by simpa [SweepDirection.other, slicesOf] using h4, h3⟩
    · intro hdir
      rw [hdir] at h3 h4
      exact ⟨by simpa [SweepDirection.other, slicesOf] using h4, h3⟩
  · intro calls st hst hdir
    obtain ⟨st', h1, -, h3, h4⟩ := runSweeps_spec p c u fuel hGC hn hm hm32 (by omega) hfuel
      hglob calls st hst
    rw [hdir] at h3 h4
    exact ⟨st', h1, h3, h4⟩

/-- Witness for C11: `m = 6`, `s = 2`, `n = 3`, one by one matrices; three driver calls
after the set-up perform the sweeps down, up, down. -/
theorem sweep_direction_alternates_witness :
    ∃ st', runSweeps ⟨1, false, 6, 2, 3⟩ (scalarCallables 2) (fun _ x => x) 5
        [SweepCall.sweep true, SweepCall.thermalization, SweepCall.sweep false]
        (scalarState 1 6 4) = some st' ∧
      st'.lastSweepDir = SweepDirection.Down ∧
      updatedSlices st'.calls = [6, 5, 4, 3, 2, 1, 1, 2, 3, 4, 5, 6, 6, 5, 4, 3, 2, 1] := by
  have h := (sweep_direction_alternates ⟨1, false, 6, 2, 3⟩ (scalarCallables 2)
    (fun _ x => x) (fun _ _ => (2 : ℚ) • (1 : MatV 1 ℚ)) 5 (scalarState 1 0 0) ()
    rfl (by decide) (by decide) (by decide) (by decide) (by decide)
    (by intro X; simp [scalarCallables, UdV.mat])
    (by intro st h1 h2 h3; exact ⟨h1, h2, h3⟩)).2.2.2
    [SweepCall.sweep true, SweepCall.thermalization, SweepCall.sweep false]
    (scalarState 1 6 4)
    ⟨fun _ => rfl, ⟨fun h => by simp [scalarState] at h,
      fun g => by simp [scalarState]⟩⟩ rfl
  simpa [scalarState, alternatingDirs, slicesOf, slicesDown, slicesUp, updatedSlices,
    List.range_succ] using h

/-! ## C12: when the global updater is called -/

/-- The simple sweep without fermions returns and calls the slice update (and the
measurement hooks) for the slices `1, ..., m` in this order; the direction flag is not
touched. -/
theorem sweepSimple_trace {sz : ℕ} {K σ : Type} (p : ModelConsts) (c : Callables sz K σ)
    (tm : Bool) (fuel : ℕ) (st : DetModelGC sz K σ) (hm32 : p.m + 1 < 4294967296)
    (hfuel : p.m < fuel) :
    ∃ st', DetSDW.sweepSimple p c tm fuel st = some st' ∧
      st'.lastSweepDir = st.lastSweepDir ∧
      st'.calls = st.calls ++ simpleSweepTrace tm p.m := by
  unfold DetSDW.sweepSimple
  simp only [Option.bind_eq_bind, Option.pure_def]
  set pre : List Call := st.calls ++ (if tm then [Call.initMeasurement] else []) with hpre
  have hinit : (if tm = true then callInitMeasurement c st else st).lastSweepDir
        = st.lastSweepDir ∧
      (if tm = true then callInitMeasurement c st else st).calls
        = pre ++ sliceTrace tm (slicesUp 0 0) := by
    cases tm <;> simp [hpre, callInitMeasurement, slicesUp, sliceTrace]
  generalize (if tm = true then callInitMeasurement c st else st) = st0 at hinit ⊢
  refine bind_spec
    (fun st1 => st1.lastSweepDir = st.lastSweepDir ∧
      st1.calls = pre ++ sliceTrace tm (slicesUp 0 (p.m + 1 - 1)))
    (forLoop_up_invariant _ p.m
      (fun k st1 => st1.lastSweepDir = st.lastSweepDir ∧
        st1.calls = pre ++ sliceTrace tm (slicesUp 0 (k - 1)))
      hm32 p.m 1 fuel st0 (by omega) hfuel (by simpa using hinit) ?_) ?_
  · intro k a hk1 hk2 hP
    have e2 : k - 1 + 1 = k := by omega
    have hs : slicesUp 0 k = slicesUp 0 (k - 1) ++ [k] := by
      have := slicesUp_step 0 (k - 1) (Nat.zero_le _)
      rwa [e2] at this
    cases tm
    · refine ⟨_, rfl, hP.1, ?_⟩
      simp [hP.2, hs, sliceTrace_append, sliceTrace]
    · refine ⟨_, rfl, hP.1, ?_⟩
      simp [hP.2, hs, sliceTrace_append, sliceTrace]
  · intro st1 hP
    rw [Nat.add_sub_cancel] at hP
    refine ⟨_, rfl, ?_, ?_⟩
    · cases tm
      · exact hP.1
      · exact hP.1
    · cases tm
      · simp [hP.2, hpre, simpleSweepTrace]
      · simp [hP.2, hpre, simpleSweepTrace, callFinishMeasurement]

/-- No slice update, measurement hook or consistency check is the global updater. -/
theorem globalUpdate_not_mem_sweepTrace (tm : Bool) (ks : List ℕ) :
    Call.globalUpdate ∉ sweepTrace tm ks := by
  have h : ∀ ks : List ℕ, Call.globalUpdate ∉ sliceTrace tm ks := by
    intro ks
    induction ks with
    | nil => simp [sliceTrace]
    | cons k ks ih => cases tm <;> simp [sliceTrace, ih]
  have := h ks
  unfold sweepTrace
  cases tm <;> simp [this]

/-- C12 (counterexample): `m = 6`, `s = 2`, `n = 3`, one by one matrices, flag `Up`.
The call of `sweep_skeleton` performs the down sweep over the slices `6, ..., 1` and
sets the flag to `Down`, and the global updater is not called. -/
theorem down_sweep_without_global_update :
    ∃ st', sweep_skeleton ⟨1, false, 6, 2, 3⟩ (scalarCallables 2) false 5 (scalarState 1 6 4)
        = some st' ∧
      st'.lastSweepDir = SweepDirection.Down ∧
      updatedSlices st'.calls = [6, 5, 4, 3, 2, 1] ∧
      Call.globalUpdate ∉ st'.calls := by
  obtain ⟨st', h1, -, -, h4, h5⟩ := sweep_skeleton_after_up ⟨1, false, 6, 2, 3⟩
    (scalarCallables 2) false 5 (scalarState 1 6 4) rfl (by decide) (by decide) (by decide)
    (by decide) (by decide) rfl rfl (by intro g; simp [scalarState])
  refine ⟨st', h1, h4, ?_, ?_⟩
  · rw [h5, updatedSlices_append, updatedSlices_sweepTrace]
    simp [scalarState, slicesDown, updatedSlices, List.range_succ]
  · rw [h5]
    simpa [scalarState] using globalUpdate_not_mem_sweepTrace false (slicesDown 6 0)

/-- C12 (amended). Global updater cadence: a call of `sweep_skeleton` or
`sweepThermalization_skeleton` that performs a down sweep sets `lastSweepDir = Down` and
does not call the global updater; a call that performs an up sweep sets
`lastSweepDir = Up` and then calls the global updater, as the last action of the call.
In the branch `turnoffFermions` of `DetSDW::sweep` the global move is made first, before
the slice updates, in the calls that find `lastSweepDir = Up` (and then set it to
`Down`), and not at all in the other calls. -/
theorem global_update_follows_up_sweep {sz : ℕ} {K σ : Type} [Field K] (p : ModelConsts)
    (c : Callables sz K σ) (u : ℕ → (ℕ → MatV sz K) × σ → (ℕ → MatV sz K) × σ)
    (countSweep : σ → σ) (fuel : ℕ)
    (hGC : p.GC = 1) (hn : 2 ≤ p.n) (hm : p.m = p.n * p.s) (hm32 : p.m + 1 < 4294967296)
    (hn32 : p.n < 4294967296) (hfuel : p.n + p.s ≤ fuel) (hfuel2 : p.m < fuel) :
    (∀ (call : SweepCall) (st : DetModelGC sz K σ), BetweenSweeps p st →
      st.lastSweepDir = SweepDirection.Up →
      ∃ st', runSweep p c u fuel call st = some st' ∧
        st'.lastSweepDir = SweepDirection.Down ∧
        st'.calls = st.calls ++ sweepTrace call.takeMeasurements (slicesDown p.m 0) ∧
        Call.globalUpdate ∉ sweepTrace call.takeMeasurements (slicesDown p.m 0)) ∧
    (∀ (call : SweepCall) (st : DetModelGC sz K σ), BetweenSweeps p st →
      st.lastSweepDir = SweepDirection.Down →
      ∃ st1 : DetModelGC sz K σ, runSweep p c u fuel call st
          = some (callGlobalUpdate c { st1 with lastSweepDir := SweepDirection.Up }) ∧
        st1.calls = st.calls ++ sweepTrace call.takeMeasurements (slicesUp 0 p.m) ∧
        (callGlobalUpdate c { st1 with lastSweepDir := SweepDirection.Up }).calls
          = st1.calls ++ [Call.globalUpdate]) ∧
    (∀ (tm : Bool) (st : DetModelGC sz K σ), st.lastSweepDir = SweepDirection.Up →
      ∃ st', DetSDW.sweep true p c countSweep tm fuel st = some st' ∧
        st'.lastSweepDir = SweepDirection.Down ∧
        st'.calls = st.calls ++ [Call.globalUpdate] ++ simpleSweepTrace tm p.m) ∧
    (∀ (tm : Bool) (st : DetModelGC sz K σ), st.lastSweepDir = SweepDirection.Down →
      ∃ st', DetSDW.sweep true p c countSweep tm fuel st = some st' ∧
        st'.lastSweepDir = SweepDirection.Up ∧
        st'.calls = st.calls ++ simpleSweepTrace tm p.m) := by
  refine ⟨?_, ?_, ?_, ?_⟩
  · intro call st hst hdir
    have hres : ∃ st', runSweep p c u fuel call st = some st' ∧
        SweepInv p st.calls SweepDirection.Down
          (sweepTrace call.takeMeasurements (slicesDown p.m 0)) 0 st' := by
      cases call with
      | sweep tm =>
        exact sweep_skeleton_after_up p c tm fuel st hGC hn hm hm32 hn32 hfuel hdir
          (hst.1 hdir) hst.2.2
      | thermalization =>
        exact sweepThermalization_skeleton_after_up p c u fuel st hGC hn hm hm32 hn32 hfuel
          hdir (hst.1 hdir) hst.2.2
    obtain ⟨st', h1, -, -, h4, h5⟩ := hres
    exact ⟨st', h1, h4, h5, globalUpdate_not_mem_sweepTrace _ _⟩
  · intro call st hst hdir
    have hres : ∃ st1, runSweep p c u fuel call st
          = some (callGlobalUpdate c { st1 with lastSweepDir := SweepDirection.Up }) ∧
        SweepInv p st.calls SweepDirection.Down
          (sweepTrace call.takeMeasurements (slicesUp 0 p.m)) p.m st1 := by
      cases call with
      | sweep tm =>
        exact sweep_skeleton_after_down p c tm fuel st hGC hn hm hm32 hn32 hfuel hdir
          (hst.2.1 hdir) hst.2.2
      | thermalization =>
        exact sweepThermalization_skeleton_after_down p c u fuel st hGC hn hm hm32 hn32
          hfuel hdir (hst.2.1 hdir) hst.2.2
    obtain ⟨st1, h1, -, -, -, h5⟩ := hres
    exact ⟨st1, h1, h5, rfl⟩
  · intro tm st hdir
    obtain ⟨st1, h1, -, h3⟩ := sweepSimple_trace p c tm fuel (callGlobalUpdate c st) hm32
      hfuel2
    refine ⟨{ st1 with ext := countSweep st1.ext, lastSweepDir := SweepDirection.Down },
      ?_, rfl, ?_⟩
    · unfold DetSDW.sweep
      rw [if_neg (by simp), if_pos hdir]
      simp only [Option.bind_eq_bind, Option.pure_def, h1, Option.some_bind]
    · simpa [callGlobalUpdate] using h3
  · intro tm st hdir
    obtain ⟨st1, h1, -, h3⟩ := sweepSimple_trace p c tm fuel st hm32 hfuel2
    refine ⟨{ st1 with ext := countSweep st1.ext, lastSweepDir := SweepDirection.Up },
      ?_, rfl, ?_⟩
    · unfold DetSDW.sweep
      rw [if_neg (by simp), if_neg (by rw [hdir]; decide)]
      simp only [Option.bind_eq_bind, Option.pure_def, h1, Option.some_bind]
    · exact h3

/-- Witness for the amended C12: `m = 6`, `s = 2`, `n = 3`, flag `Down` on slice `0`;
the call performs the up sweep and then calls the global updater. -/
theorem global_update_follows_up_sweep_witness :
    ∃ st1 : DetModelGC 1 ℚ Unit,
      runSweep ⟨1, false, 6, 2, 3⟩ (scalarCallables 2) (fun _ x => x) 7
          (SweepCall.sweep false)
          { scalarState 1 0 4 with lastSweepDir := SweepDirection.Down }
        = some (callGlobalUpdate (scalarCallables 2)
            { st1 with lastSweepDir := SweepDirection.Up }) ∧
      st1.calls = [] ++ sweepTrace false (slicesUp 0 6) ∧
      (callGlobalUpdate (scalarCallables 2)
          { st1 with lastSweepDir := SweepDirection.Up }).calls
        = st1.calls ++ [Call.globalUpdate] :=
  (global_update_follows_up_sweep ⟨1, false, 6, 2, 3⟩ (scalarCallables 2) (fun _ x => x)
    (fun x => x) 7 rfl (by decide) (by decide) (by decide) (by decide) (by decide)
    (by decide)).2.1 (SweepCall.sweep false)
    { scalarState 1 0 4 with lastSweepDir := SweepDirection.Down }
    ⟨fun h => by simp at h, ⟨fun _ => rfl, fun g => by simp [scalarState]⟩⟩ rfl

/-! ## C13: the measurement hooks -/

/-- A property kept by every pass of the body is kept by the loop. -/
theorem forLoop_preserves {α : Type} (cond : ℕ → Bool) (next : ℕ → ℕ)
    (body : ℕ → α → Option α) (P : α → Prop)
    (h : ∀ k a a', body k a = some a' → P a → P a') :
    ∀ (fuel k : ℕ) (a a' : α), forLoop cond next body fuel k a = some a' → P a → P a' := by
  intro fuel
  induction fuel with
  | zero =>
    intro k a a' hr _
    simp [forLoop] at hr
  | succ fuel ih =>
    intro k a a' hr hP
    unfold forLoop at hr
    by_cases hc : cond k = true
    · rw [if_pos hc] at hr
      obtain ⟨a1, h1, h2⟩ := Option.bind_eq_some.mp hr
      exact ih (next k) a1 a' h2 (h k a a1 h1 hP)
    · rw [if_neg hc] at hr
      cases hr
      exact hP

/-- A property kept by every pass of the body is kept by the loop over the Green
components. -/
theorem forEachGC_preserves {α : Type} (GC : ℕ) (f : ℕ → α → Option α) (P : α → Prop)
    (h : ∀ gc a a', f gc a = some a' → P a → P a') :
    ∀ (a a' : α), forEachGC GC f a = some a' → P a → P a' := by
  unfold forEachGC
  induction GC with
  | zero =>
    intro a a' hr hP
    simp at hr
    rw [← hr]
    exact hP
  | succ n ih =>
    intro a a' hr hP
    rw [List.range_succ, List.foldlM_append] at hr
    obtain ⟨a1, h1, h2⟩ := Option.bind_eq_some.mp hr
    simp only [List.foldlM_cons, List.foldlM_nil, Option.bind_eq_bind] at h2
    obtain ⟨a2, h3, h4⟩ := Option.bind_eq_some.mp h2
    simp only [Option.pure_def, Option.some.injEq] at h4
    rw [← h4]
    exact h n a1 a2 h3 (ih a a1 h1 hP)

/-- The steps that move the Green function and the storage touch neither the trace nor
the state of the derived class. -/
theorem tracks_of_frame {sz : ℕ} {K σ : Type} (ts : σ → Finset ℕ)
    (st0 st st' : DetModelGC sz K σ) (h1 : st'.ext = st.ext) (h2 : st'.calls = st.calls)
    (hP : TracksTimeslices ts st0 st) : TracksTimeslices ts st0 st' := by
  obtain ⟨tr, e1, e2⟩ := hP
  exact ⟨tr, by rw [h2, e1], by rw [h1, e2]⟩

theorem timeslicesAfter_append (tr tr2 : List Call) (s : Finset ℕ) :
    timeslicesAfter (tr ++ tr2) s = timeslicesAfter tr2 (timeslicesAfter tr s) := by
  unfold timeslicesAfter
  rw [List.foldl_append]

theorem wrapDownGreen_tracks {sz : ℕ} {K σ : Type} [Field K] (c : Callables sz K σ)
    (ts : σ → Finset ℕ) (st0 : DetModelGC sz K σ) (k gc : ℕ) (st st' : DetModelGC sz K σ)
    (h : wrapDownGreen c k gc st = some st') (hP : TracksTimeslices ts st0 st) :
    TracksTimeslices ts st0 st' := by
  unfold wrapDownGreen at h
  split at h
  · cases h
    exact tracks_of_frame ts st0 st _ rfl rfl hP
  · cases h

theorem wrapUpGreen_tracks {sz : ℕ} {K σ : Type} [Field K] (c : Callables sz K σ)
    (ts : σ → Finset ℕ) (st0 : DetModelGC sz K σ) (k gc : ℕ) (st st' : DetModelGC sz K σ)
    (h : wrapUpGreen c k gc st = some st') (hP : TracksTimeslices ts st0 st) :
    TracksTimeslices ts st0 st' := by
  unfold wrapUpGreen at h
  split at h
  · cases h
    exact tracks_of_frame ts st0 st _ rfl rfl hP
  · cases h

theorem updateGreenFunctionUdV_ext {sz : ℕ} {K σ : Type} [Field K] (p : ModelConsts)
    (c : Callables sz K σ) (gc : ℕ) (L R : UdV sz K) (st : DetModelGC sz K σ) :
    (updateGreenFunctionUdV p c gc L R st).ext = st.ext :=
  (updateGreenFunctionUdV_frame p c gc L R st).2.2.2.2

theorem updateGreenFunctionUdV_calls {sz : ℕ} {K σ : Type} [Field K] (p : ModelConsts)
    (c : Callables sz K σ) (gc : ℕ) (L R : UdV sz K) (st : DetModelGC sz K σ) :
    (updateGreenFunctionUdV p c gc L R st).calls = st.calls :=
  (updateGreenFunctionUdV_frame p c gc L R st).2.2.2.1

theorem advanceDownGreen_tracks {sz : ℕ} {K σ : Type} [Field K] (p : ModelConsts)
    (c : Callables sz K σ) (ts : σ → Finset ℕ) (st0 : DetModelGC sz K σ) (l gc : ℕ)
    (st st' : DetModelGC sz K σ)
    (h : advanceDownGreen p c l gc st = some st') (hP : TracksTimeslices ts st0 st) :
    TracksTimeslices ts st0 st' := by
  unfold advanceDownGreen at h
  by_cases hc : st.currentTimeslice = umul p.s (usub l 1)
  · rw [if_pos hc] at h
    simp only [Option.bind_eq_bind, Option.pure_def, Option.bind_eq_some,
      Option.some.injEq] at h
    obtain ⟨u1, -, u2, -, u3, -, heq⟩ := h
    have hext : st'.ext = st.ext := by
      rw [← heq]
      simp only [updateGreenFunctionUdV_ext]
    have hcalls : st'.calls = st.calls := by
      rw [← heq]
      simp only [updateGreenFunctionUdV_calls]
    exact tracks_of_frame ts st0 st st' hext hcalls hP
  · rw [if_neg hc] at h
    cases h

theorem advanceUpGreen_tracks {sz : ℕ} {K σ : Type} [Field K] (p : ModelConsts)
    (c : Callables sz K σ) (ts : σ → Finset ℕ) (st0 : DetModelGC sz K σ) (l gc : ℕ)
    (st st' : DetModelGC sz K σ)
    (h : advanceUpGreen p c l gc st = some st') (hP : TracksTimeslices ts st0 st) :
    TracksTimeslices ts st0 st' := by
  unfold advanceUpGreen at h
  simp only at h
  by_cases hc : st.currentTimeslice = (if l < usub p.n 1 then umul p.s (uadd l 1) else p.m)
  · rw [if_pos hc] at h
    simp only [Option.bind_eq_bind, Option.pure_def, Option.bind_eq_some,
      Option.some.injEq] at h
    obtain ⟨u1, -, u2, -, u3, -, heq⟩ := h
    have hext : st'.ext = st.ext := by
      rw [← heq]
      simp only [updateGreenFunctionUdV_ext]
    have hcalls : st'.calls = st.calls := by
      rw [← heq]
      simp only [updateGreenFunctionUdV_calls]
    exact tracks_of_frame ts st0 st st' hext hcalls hP
  · rw [if_neg hc] at h
    cases h

/-- The slice update followed by the measurement of the slice: the set follows. -/
theorem updateInSliceAndMaybeMeasure_tracks {sz : ℕ} {K σ : Type} (c : Callables sz K σ)
    (ts : σ → Finset ℕ) (hooks : MeasurementHooks c ts) (st0 : DetModelGC sz K σ)
    (tm : Bool) (k : ℕ) (st st' : DetModelGC sz K σ)
    (h : updateInSliceAndMaybeMeasure c tm k st = some st')
    (hP : TracksTimeslices ts st0 st) : TracksTimeslices ts st0 st' := by
  obtain ⟨-, hmeas, hupd⟩ := hooks
  obtain ⟨tr, e1, e2⟩ := hP
  unfold updateInSliceAndMaybeMeasure at h
  split at h
  · cases tm
    · simp only [Bool.false_eq_true, if_false, Option.some.injEq] at h
      subst h
      refine ⟨tr ++ [Call.updateInSlice k], by simp [e1], ?_⟩
      simp only [timeslicesAfter_append]
      rw [← e2]
      simpa [timeslicesAfter] using hupd k (st.green, st.ext)
    · simp only [if_true, Option.some.injEq] at h
      subst h
      refine ⟨tr ++ [Call.updateInSlice k, Call.measure k], by simp [e1], ?_⟩
      simp only [timeslicesAfter_append]
      rw [← e2]
      simp only [timeslicesAfter, List.foldl_cons, List.foldl_nil]
      rw [hmeas, hupd]
  · cases h

/-- Resetting a storage entry touches neither the trace nor the derived state. -/
theorem storage_reset_tracks {sz : ℕ} {K σ : Type} [Field K] (ts : σ → Finset ℕ)
    (st0 : DetModelGC sz K σ) (i gc : ℕ) (st st' : DetModelGC sz K σ)
    (h : (do
        let storage ← setAt (st.UdVStorage gc) i (eye_UdV sz K)
        pure { st with UdVStorage := Function.update st.UdVStorage gc storage }
        : Option (DetModelGC sz K σ)) = some st')
    (hP : TracksTimeslices ts st0 st) : TracksTimeslices ts st0 st' := by
  simp only [Option.bind_eq_bind, Option.pure_def, Option.bind_eq_some,
    Option.some.injEq] at h
  obtain ⟨storage, -, rfl⟩ := h
  exact tracks_of_frame ts st0 st _ rfl rfl hP

/-- The start of a sweep: after the optional call of `initMeasurement` the set follows
the trace. -/
theorem init_tracks {sz : ℕ} {K σ : Type} (c : Callables sz K σ) (ts : σ → Finset ℕ)
    (hooks : MeasurementHooks c ts) (tm : Bool) (st : DetModelGC sz K σ) :
    TracksTimeslices ts st (if tm = true then callInitMeasurement c st else st) := by
  cases tm
  · exact ⟨[], by simp, rfl⟩
  · exact ⟨[Call.initMeasurement], by simp [callInitMeasurement],
      by simpa [callInitMeasurement, timeslicesAfter] using hooks.1 st.ext⟩

/-- One pass of the slice loops of the down sweep. -/
theorem sweepDown_slice_tracks {sz : ℕ} {K σ : Type} [Field K] (p : ModelConsts)
    (c : Callables sz K σ) (ts : σ → Finset ℕ) (hooks : MeasurementHooks c ts)
    (st0 : DetModelGC sz K σ) (tm : Bool) (k : ℕ) (a a' : DetModelGC sz K σ)
    (h : (updateInSliceAndMaybeMeasure c tm k a).bind
      (fun st => forEachGC p.GC (fun gc st => wrapDownGreen c k gc st) st) = some a')
    (hP : TracksTimeslices ts st0 a) : TracksTimeslices ts st0 a' := by
  obtain ⟨b, hb1, hb2⟩ := Option.bind_eq_some.mp h
  exact forEachGC_preserves p.GC _ (TracksTimeslices ts st0)
    (fun gc x x' hx hPx => wrapDownGreen_tracks c ts st0 k gc x x' hx hPx) b a' hb2
    (updateInSliceAndMaybeMeasure_tracks c ts hooks st0 tm k a b hb1 hP)

/-- One pass of the slice loops of the up sweep. -/
theorem sweepUp_slice_tracks {sz : ℕ} {K σ : Type} [Field K] (p : ModelConsts)
    (c : Callables sz K σ) (ts : σ → Finset ℕ) (hooks : MeasurementHooks c ts)
    (st0 : DetModelGC sz K σ) (tm : Bool) (k : ℕ) (a a' : DetModelGC sz K σ)
    (h : (forEachGC p.GC (fun gc st => wrapUpGreen c (usub k 1) gc st) a).bind
      (fun st => updateInSliceAndMaybeMeasure c tm k st) = some a')
    (hP : TracksTimeslices ts st0 a) : TracksTimeslices ts st0 a' := by
  obtain ⟨b, hb1, hb2⟩ := Option.bind_eq_some.mp h
  exact updateInSliceAndMaybeMeasure_tracks c ts hooks st0 tm k b a' hb2
    (forEachGC_preserves p.GC _ (TracksTimeslices ts st0)
      (fun gc x x' hx hPx => wrapUpGreen_tracks c ts st0 (usub k 1) gc x x' hx hPx) a b hb1 hP)

/-- The down sweep up to the call of `finishMeasurement`: in the state `stf` in which the
hook is called the set `timeslices_included_in_measurement` has followed the calls made
since the start of the sweep. -/
theorem sweepDown_tracks {sz : ℕ} {K σ : Type} [Field K] (p : ModelConsts)
    (c : Callables sz K σ) (ts : σ → Finset ℕ) (hooks : MeasurementHooks c ts)
    (tm : Bool) (fuel : ℕ) (st st' : DetModelGC sz K σ)
    (h : sweepDown p c tm fuel st = some st') :
    ∃ stf, TracksTimeslices ts st stf ∧
      st' = callConsistencyCheck c (if tm = true then callFinishMeasurement c stf else stf) := by
  unfold sweepDown at h
  simp only [Option.bind_eq_bind, Option.pure_def, Option.bind_eq_some,
    Option.some.injEq] at h
  obtain ⟨s1, h1, s2, h2, s3, h3, s4, h4, h5⟩ := h
  have P1 := forLoop_preserves _ _ _ (TracksTimeslices ts st)
    (fun k a a' hb hPa => sweepDown_slice_tracks p c ts hooks st tm k a a' hb hPa)
    fuel p.m _ s1 h1 (init_tracks c ts hooks tm st)
  have P2 := forEachGC_preserves p.GC _ (TracksTimeslices ts st)
    (fun gc x x' hx hPx => storage_reset_tracks ts st p.n gc x x'
      (by simpa only [Option.bind_eq_bind, Option.pure_def, Option.bind_eq_some,
        Option.some.injEq] using hx) hPx) s1 s2 h2 P1
  have P3 := forLoop_preserves _ _ _ (TracksTimeslices ts st)
    (fun l a a' hb hPa => by
      obtain ⟨b, hb1, hb2⟩ := Option.bind_eq_some.mp hb
      have Pb := forEachGC_preserves p.GC _ (TracksTimeslices ts st)
        (fun gc x x' hx hPx => advanceDownGreen_tracks p c ts st (uadd l 1) gc x x' hx hPx)
        a b hb1 hPa
      exact forLoop_preserves _ _ _ (TracksTimeslices ts st)
        (fun k x x' hx hPx => sweepDown_slice_tracks p c ts hooks st tm k x x' hx hPx)
        fuel (umul l p.s) b a' hb2 Pb)
    fuel (usub p.n 1) s2 s3 h3 P2
  have P4 := forEachGC_preserves p.GC _ (TracksTimeslices ts st)
    (fun gc x x' hx hPx => advanceDownGreen_tracks p c ts st 1 gc x x' hx hPx) s3 s4 h4 P3
  exact ⟨s4, P4, h5.symm⟩

/-- The up sweep up to the call of `finishMeasurement`: in the state `stf` in which the
hook is called the set `timeslices_included_in_measurement` has followed the calls made
since the start of the sweep. -/
theorem sweepUp_tracks {sz : ℕ} {K σ : Type} [Field K] (p : ModelConsts)
    (c : Callables sz K σ) (ts : σ → Finset ℕ) (hooks : MeasurementHooks c ts)
    (tm : Bool) (fuel : ℕ) (st st' : DetModelGC sz K σ)
    (h : sweepUp p c tm fuel st = some st') :
    ∃ stf, TracksTimeslices ts st stf ∧
      st' = callConsistencyCheck c (if tm = true then callFinishMeasurement c stf else stf) := by
  unfold sweepUp at h
  simp only [Option.bind_eq_bind, Option.pure_def, Option.bind_eq_some,
    Option.some.injEq] at h
  obtain ⟨s1, h1, s2, h2, s3, h3, s4, h4, h5⟩ := h
  have P1 := forEachGC_preserves p.GC _ (TracksTimeslices ts st)
    (fun gc x x' hx hPx => storage_reset_tracks ts st 0 gc x x'
      (by simpa only [Option.bind_eq_bind, Option.pure_def, Option.bind_eq_some,
        Option.some.injEq] using hx) hPx) _ s1 h1 (init_tracks c ts hooks tm st)
  have P2 := forLoop_preserves _ _ _ (TracksTimeslices ts st)
    (fun l a a' hb hPa => by
      obtain ⟨b, hb1, hb2⟩ := Option.bind_eq_some.mp hb
      have Pb := forLoop_preserves _ _ _ (TracksTimeslices ts st)
        (fun k x x' hx hPx => sweepUp_slice_tracks p c ts hooks st tm k x x' hx hPx)
        fuel (uadd (umul l p.s) 1) a b hb1 hPa
      exact forEachGC_preserves p.GC _ (TracksTimeslices ts st)
        (fun gc x x' hx hPx => advanceUpGreen_tracks p c ts st l gc x x' hx hPx)
        b a' hb2 Pb)
    fuel 0 s1 s2 h2 P1
  have P3 := forLoop_preserves _ _ _ (TracksTimeslices ts st)
    (fun k a a' hb hPa => sweepUp_slice_tracks p c ts hooks st tm k a a' hb hPa)
    fuel (uadd (umul (usub p.n 1) p.s) 1) s2 s3 h3 P2
  have P4 := forEachGC_preserves p.GC _ (TracksTimeslices ts st)
    (fun gc x x' hx hPx => advanceUpGreen_tracks p c ts st (usub p.n 1) gc x x' hx hPx)
    s3 s4 h4 P3
  exact ⟨s4, P4, h5.symm⟩

theorem sliceTrace_true_eq (ks : List ℕ) :
    sliceTrace true ks = ks.flatMap (fun k => [Call.updateInSlice k, Call.measure k]) := by
  induction ks with
  | nil => rfl
  | cons k ks ih => simp [sliceTrace, ih]

theorem sliceTrace_false_eq (ks : List ℕ) :
    sliceTrace false ks = ks.map Call.updateInSlice := by
  induction ks with
  | nil => rfl
  | cons k ks ih => simp [sliceTrace, ih]

/-- After `initMeasurement` and the measurements of the slices `ks` the set holds exactly
these slices. -/
theorem timeslicesAfter_sliceTrace (ks : List ℕ) (s : Finset ℕ) :
    timeslicesAfter (sliceTrace true ks) s = s ∪ ks.toFinset := by
  induction ks generalizing s with
  | nil => simp [sliceTrace, timeslicesAfter]
  | cons k ks ih =>
    have e : sliceTrace true (k :: ks)
        = [Call.updateInSlice k, Call.measure k] ++ sliceTrace true ks := by
      simp [sliceTrace]
    rw [e, timeslicesAfter_append, ih]
    simp only [timeslicesAfter, List.foldl_cons, List.foldl_nil, List.toFinset_cons]
    ext x
    simp only [Finset.mem_union, Finset.mem_insert]
    tauto

theorem slicesDown_toFinset (m : ℕ) : (slicesDown m 0).toFinset = Finset.Icc 1 m := by
  ext x
  simp only [slicesDown, List.mem_toFinset, List.mem_map, List.mem_range, Finset.mem_Icc]
  constructor
  · rintro ⟨j, hj, rfl⟩
    omega
  · intro hx
    exact ⟨m - x, by omega, by omega⟩

theorem slicesUp_toFinset (m : ℕ) : (slicesUp 0 m).toFinset = Finset.Icc 1 m := by
  ext x
  simp only [slicesUp, List.mem_toFinset, List.mem_map, List.mem_range, Finset.mem_Icc]
  constructor
  · rintro ⟨j, hj, rfl⟩
    omega
  · intro hx
    exact ⟨x - 1, by omega, by omega⟩

/-- A sweep with measurements whose trace is known: `finishMeasurement` is called in a
state in which the set holds exactly the slices of the sweep. -/
theorem finish_state_of_trace {sz : ℕ} {K σ : Type} (c : Callables sz K σ)
    (ts : σ → Finset ℕ) (ks : List ℕ) (st st' stf : DetModelGC sz K σ)
    (htr : st'.calls = st.calls ++ sweepTrace true ks)
    (hP : TracksTimeslices ts st stf)
    (hst' : st' = callConsistencyCheck c (callFinishMeasurement c stf)) :
    ts stf.ext = ks.toFinset := by
  obtain ⟨tr, e1, e2⟩ := hP
  have e3 : st'.calls = st.calls ++ (tr ++ [Call.finishMeasurement, Call.consistencyCheck]) := by
    rw [hst']
    simp [callConsistencyCheck, callFinishMeasurement, e1]
  rw [htr] at e3
  have e4 := List.append_cancel_left e3
  have e5 : sweepTrace true ks
      = ([Call.initMeasurement] ++ sliceTrace true ks)
        ++ [Call.finishMeasurement, Call.consistencyCheck] := by
    simp [sweepTrace]
  rw [e5] at e4
  have e6 := List.append_cancel_right e4
  rw [e2, ← e6, timeslicesAfter_append, timeslicesAfter_sliceTrace]
  simp [timeslicesAfter]
/-! ### The calls recorded in the state of the derived class -/

/-- The steps that move the Green function and the storage touch neither the trace nor
the state of the derived class. -/
theorem records_of_frame {sz : ℕ} {K σ : Type} (log : σ → List Call)
    (st0 st st' : DetModelGC sz K σ) (h1 : st'.ext = st.ext) (h2 : st'.calls = st.calls)
    (hP : TracksCalls log st0 st) : TracksCalls log st0 st' := by
  obtain ⟨tr, e1, e2⟩ := hP
  exact ⟨tr, by rw [h2, e1], by rw [h1, e2]⟩

/-- The slice update followed by the measurement of the slice: both are recorded. -/
theorem updateInSliceAndMaybeMeasure_records {sz : ℕ} {K σ : Type} (c : Callables sz K σ)
    (log : σ → List Call) (hooks : RecordsCalls c log) (st0 : DetModelGC sz K σ)
    (tm : Bool) (k : ℕ) (st st' : DetModelGC sz K σ)
    (h : updateInSliceAndMaybeMeasure c tm k st = some st')
    (hP : TracksCalls log st0 st) : TracksCalls log st0 st' := by
  obtain ⟨-, hmeas, hupd, -, -⟩ := hooks
  obtain ⟨tr, e1, e2⟩ := hP
  unfold updateInSliceAndMaybeMeasure at h
  split at h
  · cases tm
    · simp only [Bool.false_eq_true, if_false, Option.some.injEq] at h
      subst h
      refine ⟨tr ++ [Call.updateInSlice k], by simp [e1], ?_⟩
      show log (c.updateInSlice k (st.green, st.ext)).2 = _
      rw [hupd, e2, List.append_assoc]
    · simp only [if_true, Option.some.injEq] at h
      subst h
      refine ⟨tr ++ [Call.updateInSlice k, Call.measure k], by simp [e1], ?_⟩
      show log (c.measure k _ (c.updateInSlice k (st.green, st.ext)).2) = _
      rw [hmeas, hupd, e2]
      simp
  · cases h

/-- The start of a sweep: the optional call of `initMeasurement` is recorded. -/
theorem init_records {sz : ℕ} {K σ : Type} (c : Callables sz K σ) (log : σ → List Call)
    (hooks : RecordsCalls c log) (tm : Bool) (st : DetModelGC sz K σ) :
    TracksCalls log st (if tm = true then callInitMeasurement c st else st) := by
  cases tm
  · exact ⟨[], by simp, by simp⟩
  · exact ⟨[Call.initMeasurement], by simp [callInitMeasurement],
      by simpa [callInitMeasurement] using hooks.1 st.ext⟩

theorem wrapDownGreen_preserves {sz : ℕ} {K σ : Type} [Field K] (c : Callables sz K σ)
    (P : DetModelGC sz K σ → Prop)
    (hframe : ∀ st st2 : DetModelGC sz K σ,
      st2.ext = st.ext → st2.calls = st.calls → P st → P st2)
    (k gc : ℕ) (st st' : DetModelGC sz K σ)
    (h : wrapDownGreen c k gc st = some st') (hP : P st) :
    P st' := by
  unfold wrapDownGreen at h
  split at h
  · cases h
    exact hframe st _ rfl rfl hP
  · cases h

theorem wrapUpGreen_preserves {sz : ℕ} {K σ : Type} [Field K] (c : Callables sz K σ)
    (P : DetModelGC sz K σ → Prop)
    (hframe : ∀ st st2 : DetModelGC sz K σ,
      st2.ext = st.ext → st2.calls = st.calls → P st → P st2)
    (k gc : ℕ) (st st' : DetModelGC sz K σ)
    (h : wrapUpGreen c k gc st = some st') (hP : P st) :
    P st' := by
  unfold wrapUpGreen at h
  split at h
  · cases h
    exact hframe st _ rfl rfl hP
  · cases h

theorem advanceDownGreen_preserves {sz : ℕ} {K σ : Type} [Field K] (p : ModelConsts)
    (c : Callables sz K σ) (P : DetModelGC sz K σ → Prop)
    (hframe : ∀ st st2 : DetModelGC sz K σ,
      st2.ext = st.ext → st2.calls = st.calls → P st → P st2)
    (l gc : ℕ)
    (st st' : DetModelGC sz K σ)
    (h : advanceDownGreen p c l gc st = some st') (hP : P st) :
    P st' := by
  unfold advanceDownGreen at h
  by_cases hc : st.currentTimeslice = umul p.s (usub l 1)
  · rw [if_pos hc] at h
    simp only [Option.bind_eq_bind, Option.pure_def, Option.bind_eq_some,
      Option.some.injEq] at h
    obtain ⟨u1, -, u2, -, u3, -, heq⟩ := h
    have hext : st'.ext = st.ext := by
      rw [← heq]
      simp only [updateGreenFunctionUdV_ext]
    have hcalls : st'.calls = st.calls := by
      rw [← heq]
      simp only [updateGreenFunctionUdV_calls]
    exact hframe st st' hext hcalls hP
  · rw [if_neg hc] at h
    cases h

theorem advanceUpGreen_preserves {sz : ℕ} {K σ : Type} [Field K] (p : ModelConsts)
    (c : Callables sz K σ) (P : DetModelGC sz K σ → Prop)
    (hframe : ∀ st st2 : DetModelGC sz K σ,
      st2.ext = st.ext → st2.calls = st.calls → P st → P st2)
    (l gc : ℕ)
    (st st' : DetModelGC sz K σ)
    (h : advanceUpGreen p c l gc st = some st') (hP : P st) :
    P st' := by
  unfold advanceUpGreen at h
  simp only at h
  by_cases hc : st.currentTimeslice = (if l < usub p.n 1 then umul p.s (uadd l 1) else p.m)
  · rw [if_pos hc] at h
    simp only [Option.bind_eq_bind, Option.pure_def, Option.bind_eq_some,
      Option.some.injEq] at h
    obtain ⟨u1, -, u2, -, u3, -, heq⟩ := h
    have hext : st'.ext = st.ext := by
      rw [← heq]
      simp only [updateGreenFunctionUdV_ext]
    have hcalls : st'.calls = st.calls := by
      rw [← heq]
      simp only [updateGreenFunctionUdV_calls]
    exact hframe st st' hext hcalls hP
  · rw [if_neg hc] at h
    cases h

/-- Resetting a storage entry keeps such a property. -/
theorem storage_reset_preserves {sz : ℕ} {K σ : Type} [Field K] (P : DetModelGC sz K σ → Prop)
    (hframe : ∀ st st2 : DetModelGC sz K σ,
      st2.ext = st.ext → st2.calls = st.calls → P st → P st2)
    (i gc : ℕ) (st st' : DetModelGC sz K σ)
    (h : (do
        let storage ← setAt (st.UdVStorage gc) i (eye_UdV sz K)
        pure { st with UdVStorage := Function.update st.UdVStorage gc storage }
        : Option (DetModelGC sz K σ)) = some st')
    (hP : P st) : P st' := by
  simp only [Option.bind_eq_bind, Option.pure_def, Option.bind_eq_some,
    Option.some.injEq] at h
  obtain ⟨storage, -, rfl⟩ := h
  exact hframe st _ rfl rfl hP

/-- One pass of the slice loops of the down sweep. -/
theorem sweepDown_slice_preserves {sz : ℕ} {K σ : Type} [Field K] (p : ModelConsts)
    (c : Callables sz K σ) (P : DetModelGC sz K σ → Prop)
    (hframe : ∀ st st2 : DetModelGC sz K σ,
      st2.ext = st.ext → st2.calls = st.calls → P st → P st2)
    (tm : Bool) (hslice : ∀ k (st st2 : DetModelGC sz K σ),
      updateInSliceAndMaybeMeasure c tm k st = some st2 → P st → P st2)
    (k : ℕ) (a a' : DetModelGC sz K σ)
    (h : (updateInSliceAndMaybeMeasure c tm k a).bind
      (fun st => forEachGC p.GC (fun gc st => wrapDownGreen c k gc st) st) = some a')
    (hP : P a) : P a' := by
  obtain ⟨b, hb1, hb2⟩ := Option.bind_eq_some.mp h
  exact forEachGC_preserves p.GC _ P
    (fun gc x x' hx hPx => wrapDownGreen_preserves c P hframe k gc x x' hx hPx) b a' hb2
    (hslice k a b hb1 hP)

/-- One pass of the slice loops of the up sweep. -/
theorem sweepUp_slice_preserves {sz : ℕ} {K σ : Type} [Field K] (p : ModelConsts)
    (c : Callables sz K σ) (P : DetModelGC sz K σ → Prop)
    (hframe : ∀ st st2 : DetModelGC sz K σ,
      st2.ext = st.ext → st2.calls = st.calls → P st → P st2)
    (tm : Bool) (hslice : ∀ k (st st2 : DetModelGC sz K σ),
      updateInSliceAndMaybeMeasure c tm k st = some st2 → P st → P st2)
    (k : ℕ) (a a' : DetModelGC sz K σ)
    (h : (forEachGC p.GC (fun gc st => wrapUpGreen c (usub k 1) gc st) a).bind
      (fun st => updateInSliceAndMaybeMeasure c tm k st) = some a')
    (hP : P a) : P a' := by
  obtain ⟨b, hb1, hb2⟩ := Option.bind_eq_some.mp h
  exact hslice k b a' hb2
    (forEachGC_preserves p.GC _ P
      (fun gc x x' hx hPx => wrapUpGreen_preserves c P hframe (usub k 1) gc x x' hx hPx) a b hb1 hP)

/-- The down sweep up to the call of `finishMeasurement`: a property of the
replica that the slice updates with their measurements keep, and that does not depend on
the Green functions and the storage, holds in the state `stf` in which the hook is
called. -/
theorem sweepDown_preserves {sz : ℕ} {K σ : Type} [Field K] (p : ModelConsts)
    (c : Callables sz K σ) (P : DetModelGC sz K σ → Prop)
    (hframe : ∀ st st2 : DetModelGC sz K σ,
      st2.ext = st.ext → st2.calls = st.calls → P st → P st2)
    (tm : Bool) (hslice : ∀ k (st st2 : DetModelGC sz K σ),
      updateInSliceAndMaybeMeasure c tm k st = some st2 → P st → P st2)
    (fuel : ℕ) (st st' : DetModelGC sz K σ)
    (h : sweepDown p c tm fuel st = some st')
    (h0 : P (if tm = true then callInitMeasurement c st else st)) :
    ∃ stf, P stf ∧
      st' = callConsistencyCheck c (if tm = true then callFinishMeasurement c stf else stf) := by
  unfold sweepDown at h
  simp only [Option.bind_eq_bind, Option.pure_def, Option.bind_eq_some,
    Option.some.injEq] at h
  obtain ⟨s1, h1, s2, h2, s3, h3, s4, h4, h5⟩ := h
  have P1 := forLoop_preserves _ _ _ P
    (fun k a a' hb hPa => sweepDown_slice_preserves p c P hframe tm hslice k a a' hb hPa)
    fuel p.m _ s1 h1 h0
  have P2 := forEachGC_preserves p.GC _ P
    (fun gc x x' hx hPx => storage_reset_preserves P hframe p.n gc x x'
      (by simpa only [Option.bind_eq_bind, Option.pure_def, Option.bind_eq_some,
        Option.some.injEq] using hx) hPx) s1 s2 h2 P1
  have P3 := forLoop_preserves _ _ _ P
    (fun l a a' hb hPa => by
      obtain ⟨b, hb1, hb2⟩ := Option.bind_eq_some.mp hb
      have Pb := forEachGC_preserves p.GC _ P
        (fun gc x x' hx hPx => advanceDownGreen_preserves p c P hframe (uadd l 1) gc x x' hx hPx)
        a b hb1 hPa
      exact forLoop_preserves _ _ _ P
        (fun k x x' hx hPx => sweepDown_slice_preserves p c P hframe tm hslice k x x' hx hPx)
        fuel (umul l p.s) b a' hb2 Pb)
    fuel (usub p.n 1) s2 s3 h3 P2
  have P4 := forEachGC_preserves p.GC _ P
    (fun gc x x' hx hPx => advanceDownGreen_preserves p c P hframe 1 gc x x' hx hPx) s3 s4 h4 P3
  exact ⟨s4, P4, h5.symm⟩

/-- The up sweep up to the call of `finishMeasurement`: a property of the
replica that the slice updates with their measurements keep, and that does not depend on
the Green functions and the storage, holds in the state `stf` in which the hook is
called. -/
theorem sweepUp_preserves {sz : ℕ} {K σ : Type} [Field K] (p : ModelConsts)
    (c : Callables sz K σ) (P : DetModelGC sz K σ → Prop)
    (hframe : ∀ st st2 : DetModelGC sz K σ,
      st2.ext = st.ext → st2.calls = st.calls → P st → P st2)
    (tm : Bool) (hslice : ∀ k (st st2 : DetModelGC sz K σ),
      updateInSliceAndMaybeMeasure c tm k st = some st2 → P st → P st2)
    (fuel : ℕ) (st st' : DetModelGC sz K σ)
    (h : sweepUp p c tm fuel st = some st')
    (h0 : P (if tm = true then callInitMeasurement c st else st)) :
    ∃ stf, P stf ∧
      st' = callConsistencyCheck c (if tm = true then callFinishMeasurement c stf else stf) := by
  unfold sweepUp at h
  simp only [Option.bind_eq_bind, Option.pure_def, Option.bind_eq_some,
    Option.some.injEq] at h
  obtain ⟨s1, h1, s2, h2, s3, h3, s4, h4, h5⟩ := h
  have P1 := forEachGC_preserves p.GC _ P
    (fun gc x x' hx hPx => storage_reset_preserves P hframe 0 gc x x'
      (by simpa only [Option.bind_eq_bind, Option.pure_def, Option.bind_eq_some,
        Option.some.injEq] using hx) hPx) _ s1 h1 h0
  have P2 := forLoop_preserves _ _ _ P
    (fun l a a' hb hPa => by
      obtain ⟨b, hb1, hb2⟩ := Option.bind_eq_some.mp hb
      have Pb := forLoop_preserves _ _ _ P
        (fun k x x' hx hPx => sweepUp_slice_preserves p c P hframe tm hslice k x x' hx hPx)
        fuel (uadd (umul l p.s) 1) a b hb1 hPa
      exact forEachGC_preserves p.GC _ P
        (fun gc x x' hx hPx => advanceUpGreen_preserves p c P hframe l gc x x' hx hPx)
        b a' hb2 Pb)
    fuel 0 s1 s2 h2 P1
  have P3 := forLoop_preserves _ _ _ P
    (fun k a a' hb hPa => sweepUp_slice_preserves p c P hframe tm hslice k a a' hb hPa)
    fuel (uadd (umul (usub p.n 1) p.s) 1) s2 s3 h3 P2
  have P4 := forEachGC_preserves p.GC _ P
    (fun gc x x' hx hPx => advanceUpGreen_preserves p c P hframe (usub p.n 1) gc x x' hx hPx)
    s3 s4 h4 P3
  exact ⟨s4, P4, h5.symm⟩

/-- The end of a sweep whose trace is known: the record kept by the callables holds the
calls of the trace. -/
theorem recorded_calls_of_trace {sz : ℕ} {K σ : Type} (c : Callables sz K σ)
    (log : σ → List Call) (hooks : RecordsCalls c log) (tm : Bool) (trace : List Call)
    (st st' stf : DetModelGC sz K σ)
    (htr : st'.calls = st.calls ++ trace)
    (hP : TracksCalls log st stf)
    (hst' : st' = callConsistencyCheck c
      (if tm = true then callFinishMeasurement c stf else stf)) :
    log st'.ext = log st.ext ++ trace := by
  obtain ⟨-, -, -, hfin, hcc⟩ := hooks
  obtain ⟨tr, e1, e2⟩ := hP
  cases tm
  · simp only [Bool.false_eq_true, if_false] at hst'
    have e3 : st'.calls = st.calls ++ (tr ++ [Call.consistencyCheck]) := by
      rw [hst']
      simp [callConsistencyCheck, e1]
    rw [htr] at e3
    have e4 := List.append_cancel_left e3
    rw [hst', e4]
    show log (c.consistencyCheck stf.ext) = _
    rw [hcc, e2, List.append_assoc]
  · simp only [if_true] at hst'
    have e3 : st'.calls
        = st.calls ++ (tr ++ [Call.finishMeasurement, Call.consistencyCheck]) := by
      rw [hst']
      simp [callConsistencyCheck, callFinishMeasurement, e1]
    rw [htr] at e3
    have e4 := List.append_cancel_left e3
    rw [hst', e4]
    show log (c.consistencyCheck (c.finishMeasurement stf.ext)) = _
    rw [hcc, hfin, e2]
    simp

/-- A sweep with measurements whose trace is known: `finishMeasurement` is called in a
state in which the record holds `initMeasurement` and the calls for the slices, and no
`finishMeasurement` yet. -/
theorem finish_record_of_trace {sz : ℕ} {K σ : Type} (c : Callables sz K σ)
    (log : σ → List Call) (ks : List ℕ) (st st' stf : DetModelGC sz K σ)
    (htr : st'.calls = st.calls ++ sweepTrace true ks)
    (hP : TracksCalls log st stf)
    (hst' : st' = callConsistencyCheck c (callFinishMeasurement c stf)) :
    log stf.ext = log st.ext ++ ([Call.initMeasurement] ++ sliceTrace true ks) := by
  obtain ⟨tr, e1, e2⟩ := hP
  have e3 : st'.calls = st.calls ++ (tr ++ [Call.finishMeasurement, Call.consistencyCheck]) := by
    rw [hst']
    simp [callConsistencyCheck, callFinishMeasurement, e1]
  rw [htr] at e3
  have e4 := List.append_cancel_left e3
  have e5 : sweepTrace true ks
      = ([Call.initMeasurement] ++ sliceTrace true ks)
        ++ [Call.finishMeasurement, Call.consistencyCheck] := by
    simp [sweepTrace]
  rw [e5] at e4
  have e6 := List.append_cancel_right e4
  rw [e2, ← e6]

/-- Both invariants of the measurement hooks at once: the set
`timeslices_included_in_measurement` and the record of the invocations follow the
calls, up to the state `stf` in which `finishMeasurement` is called. -/
theorem sweep_hooks_frame {sz : ℕ} {K σ : Type} (ts : σ → Finset ℕ) (log : σ → List Call)
    (st0 st st2 : DetModelGC sz K σ) (h1 : st2.ext = st.ext) (h2 : st2.calls = st.calls)
    (hP : TracksTimeslices ts st0 st ∧ TracksCalls log st0 st) :
    TracksTimeslices ts st0 st2 ∧ TracksCalls log st0 st2 :=
  ⟨tracks_of_frame ts st0 st st2 h1 h2 hP.1, records_of_frame log st0 st st2 h1 h2 hP.2⟩

theorem sweepDown_hooks {sz : ℕ} {K σ : Type} [Field K] (p : ModelConsts)
    (c : Callables sz K σ) (ts : σ → Finset ℕ) (log : σ → List Call)
    (hooks : MeasurementHooks c ts) (hrec : RecordsCalls c log)
    (tm : Bool) (fuel : ℕ) (st st' : DetModelGC sz K σ)
    (h : sweepDown p c tm fuel st = some st') :
    ∃ stf, (TracksTimeslices ts st stf ∧ TracksCalls log st stf) ∧
      st' = callConsistencyCheck c (if tm = true then callFinishMeasurement c stf else stf) :=
  sweepDown_preserves p c (fun s => TracksTimeslices ts st s ∧ TracksCalls log st s)
    (fun a b h1 h2 hP => sweep_hooks_frame ts log st a b h1 h2 hP) tm
    (fun k a b hs hP => ⟨updateInSliceAndMaybeMeasure_tracks c ts hooks st tm k a b hs hP.1,
      updateInSliceAndMaybeMeasure_records c log hrec st tm k a b hs hP.2⟩)
    fuel st st' h ⟨init_tracks c ts hooks tm st, init_records c log hrec tm st⟩

theorem sweepUp_hooks {sz : ℕ} {K σ : Type} [Field K] (p : ModelConsts)
    (c : Callables sz K σ) (ts : σ → Finset ℕ) (log : σ → List Call)
    (hooks : MeasurementHooks c ts) (hrec : RecordsCalls c log)
    (tm : Bool) (fuel : ℕ) (st st' : DetModelGC sz K σ)
    (h : sweepUp p c tm fuel st = some st') :
    ∃ stf, (TracksTimeslices ts st stf ∧ TracksCalls log st stf) ∧
      st' = callConsistencyCheck c (if tm = true then callFinishMeasurement c stf else stf) :=
  sweepUp_preserves p c (fun s => TracksTimeslices ts st s ∧ TracksCalls log st s)
    (fun a b h1 h2 hP => sweep_hooks_frame ts log st a b h1 h2 hP) tm
    (fun k a b hs hP => ⟨updateInSliceAndMaybeMeasure_tracks c ts hooks st tm k a b hs hP.1,
      updateInSliceAndMaybeMeasure_records c log hrec st tm k a b hs hP.2⟩)
    fuel st st' h ⟨init_tracks c ts hooks tm st, init_records c log hrec tm st⟩

/-- C13. Measurement hook protocol (one Green component, `m = n * s`, `n ≥ 2`, the
counters fit into `uint32_t`; the hooks act on `timeslices_included_in_measurement` as
those of `DetSDW`, and the callables record their own invocations in the state of the
derived class): a down sweep started on slice `m` and an up sweep started on slice `0`
with `takeMeasurements = true` return, and the record of the invocations has grown by
exactly: `initMeasurement` once before all slice updates, `measure(k)` once right after
every `updateInSlice(k)`, `k` running through `m, ..., 1` resp. `1, ..., m`, and
`finishMeasurement` once after the last slice, followed by the consistency check (the
trace kept by the skeleton agrees with the record).  The state of the derived class
after the sweep is the one that `finishMeasurement` and then `consistencyCheck` make of
the state of `stf`, in which the record holds `initMeasurement` and the calls for all
`m` slices and the set `timeslices_included_in_measurement` is `{1, ..., m}`, so that
the assertion `size() == m` holds.  With `takeMeasurements = false` the record grows by
the slice updates and the consistency check only: none of the three hooks is called. -/
theorem measurement_hook_protocol {sz : ℕ} {K σ : Type} [Field K] (p : ModelConsts)
    (c : Callables sz K σ) (ts : σ → Finset ℕ) (log : σ → List Call) (fuel : ℕ)
    (st : DetModelGC sz K σ)
    (hooks : MeasurementHooks c ts) (hrec : RecordsCalls c log)
    (hGC : p.GC = 1) (hn : 2 ≤ p.n) (hm : p.m = p.n * p.s) (hm32 : p.m + 1 < 4294967296)
    (hn32 : p.n < 4294967296) (hfuel : p.n + p.s ≤ fuel)
    (hlen : ∀ g, (st.UdVStorage g).length = p.n + 1) :
    (st.currentTimeslice = p.m →
      (∃ st' stf, sweepDown p c true fuel st = some st' ∧
        st'.calls = st.calls ++ [Call.initMeasurement]
          ++ (slicesDown p.m 0).flatMap (fun k => [Call.updateInSlice k, Call.measure k])
          ++ [Call.finishMeasurement, Call.consistencyCheck] ∧
        log st'.ext = log st.ext ++ [Call.initMeasurement]
          ++ (slicesDown p.m 0).flatMap (fun k => [Call.updateInSlice k, Call.measure k])
          ++ [Call.finishMeasurement, Call.consistencyCheck] ∧
        st' = callConsistencyCheck c (callFinishMeasurement c stf) ∧
        st'.ext = c.consistencyCheck (c.finishMeasurement stf.ext) ∧
        log stf.ext = log st.ext ++ [Call.initMeasurement]
          ++ (slicesDown p.m 0).flatMap (fun k => [Call.updateInSlice k, Call.measure k]) ∧
        ts stf.ext = Finset.Icc 1 p.m ∧ finishMeasurements_assertion p.m (ts stf.ext)) ∧
      (∃ st', sweepDown p c false fuel st = some st' ∧
        st'.calls = st.calls ++ (slicesDown p.m 0).map Call.updateInSlice
          ++ [Call.consistencyCheck] ∧
        log st'.ext = log st.ext ++ (slicesDown p.m 0).map Call.updateInSlice
          ++ [Call.consistencyCheck])) ∧
    (st.currentTimeslice = 0 →
      (∃ st' stf, sweepUp p c true fuel st = some st' ∧
        st'.calls = st.calls ++ [Call.initMeasurement]
          ++ (slicesUp 0 p.m).flatMap (fun k => [Call.updateInSlice k, Call.measure k])
          ++ [Call.finishMeasurement, Call.consistencyCheck] ∧
        log st'.ext = log st.ext ++ [Call.initMeasurement]
          ++ (slicesUp 0 p.m).flatMap (fun k => [Call.updateInSlice k, Call.measure k])
          ++ [Call.finishMeasurement, Call.consistencyCheck] ∧
        st' = callConsistencyCheck c (callFinishMeasurement c stf) ∧
        st'.ext = c.consistencyCheck (c.finishMeasurement stf.ext) ∧
        log stf.ext = log st.ext ++ [Call.initMeasurement]
          ++ (slicesUp 0 p.m).flatMap (fun k => [Call.updateInSlice k, Call.measure k]) ∧
        ts stf.ext = Finset.Icc 1 p.m ∧ finishMeasurements_assertion p.m (ts stf.ext)) ∧
      (∃ st', sweepUp p c false fuel st = some st' ∧
        st'.calls = st.calls ++ (slicesUp 0 p.m).map Call.updateInSlice
          ++ [Call.consistencyCheck] ∧
        log st'.ext = log st.ext ++ (slicesUp 0 p.m).map Call.updateInSlice
          ++ [Call.consistencyCheck])) := by
  constructor
  · intro hcur
    constructor
    · obtain ⟨st', h1, -, -, -, h5⟩ := sweepDown_trace p c true fuel st hGC hn hm (by omega)
        hn32 hfuel hcur hlen
      obtain ⟨stf, ⟨hP, hR⟩, hst'⟩ := sweepDown_hooks p c ts log hooks hrec true fuel st st' h1
      have hlog := recorded_calls_of_trace c log hrec true _ st st' stf h5 hR hst'
      simp only [if_true] at hst'
      have hfin := finish_record_of_trace c log _ st st' stf h5 hR hst'
      have hts := finish_state_of_trace c ts _ st st' stf h5 hP hst'
      rw [slicesDown_toFinset] at hts
      refine ⟨st', stf, h1, ?_, ?_, hst', ?_, ?_, hts, ?_⟩
      · rw [h5]
        simp [sweepTrace, sliceTrace_true_eq]
      · rw [hlog]
        simp [sweepTrace, sliceTrace_true_eq]
      · rw [hst']
        rfl
      · rw [hfin]
        simp [sliceTrace_true_eq]
      · unfold finishMeasurements_assertion
        rw [hts]
        simp
    · obtain ⟨st', h1, -, -, -, h5⟩ := sweepDown_trace p c false fuel st hGC hn hm (by omega)
        hn32 hfuel hcur hlen
      obtain ⟨stf, ⟨-, hR⟩, hst'⟩ := sweepDown_hooks p c ts log hooks hrec false fuel st st' h1
      have hlog := recorded_calls_of_trace c log hrec false _ st st' stf h5 hR hst'
      refine ⟨st', h1, ?_, ?_⟩
      · rw [h5]
        simp [sweepTrace, sliceTrace_false_eq]
      · rw [hlog]
        simp [sweepTrace, sliceTrace_false_eq]
  · intro hcur
    constructor
    · obtain ⟨st', h1, -, -, -, h5⟩ := sweepUp_trace p c true fuel st hGC hn hm hm32
        hn32 hfuel hcur hlen
      obtain ⟨stf, ⟨hP, hR⟩, hst'⟩ := sweepUp_hooks p c ts log hooks hrec true fuel st st' h1
      have hlog := recorded_calls_of_trace c log hrec true _ st st' stf h5 hR hst'
      simp only [if_true] at hst'
      have hfin := finish_record_of_trace c log _ st st' stf h5 hR hst'
      have hts := finish_state_of_trace c ts _ st st' stf h5 hP hst'
      rw [slicesUp_toFinset] at hts
      refine ⟨st', stf, h1, ?_, ?_, hst', ?_, ?_, hts, ?_⟩
      · rw [h5]
        simp [sweepTrace, sliceTrace_true_eq]
      · rw [hlog]
        simp [sweepTrace, sliceTrace_true_eq]
      · rw [hst']
        rfl
      · rw [hfin]
        simp [sliceTrace_true_eq]
      · unfold finishMeasurements_assertion
        rw [hts]
        simp
    · obtain ⟨st', h1, -, -, -, h5⟩ := sweepUp_trace p c false fuel st hGC hn hm hm32
        hn32 hfuel hcur hlen
      obtain ⟨stf, ⟨-, hR⟩, hst'⟩ := sweepUp_hooks p c ts log hooks hrec false fuel st st' h1
      have hlog := recorded_calls_of_trace c log hrec false _ st st' stf h5 hR hst'
      refine ⟨st', h1, ?_, ?_⟩
      · rw [h5]
        simp [sweepTrace, sliceTrace_false_eq]
      · rw [hlog]
        simp [sweepTrace, sliceTrace_false_eq]

/-- Witness for C13: `m = 6`, `s = 2`, `n = 3`; the down sweep with measurements starts
with a stale set `{9}` and an empty record, and calls `finishMeasurement` with the set
`{1, ..., 6}`; the record of the callables holds the fifteen invocations. -/
theorem measurement_hook_protocol_witness :
    ∃ st' stf, sweepDown ⟨1, false, 6, 2, 3⟩ (recordingCallables 2) true 5
        (recordingState 6 4 {9}) = some st' ∧
      st'.calls = (recordingState 6 4 {9}).calls ++ [Call.initMeasurement]
        ++ (slicesDown 6 0).flatMap (fun k => [Call.updateInSlice k, Call.measure k])
        ++ [Call.finishMeasurement, Call.consistencyCheck] ∧
      st'.ext.2 = (recordingState 6 4 {9}).ext.2 ++ [Call.initMeasurement]
        ++ (slicesDown 6 0).flatMap (fun k => [Call.updateInSlice k, Call.measure k])
        ++ [Call.finishMeasurement, Call.consistencyCheck] ∧
      st' = callConsistencyCheck (recordingCallables 2)
        (callFinishMeasurement (recordingCallables 2) stf) ∧
      st'.ext = (recordingCallables 2).consistencyCheck
        ((recordingCallables 2).finishMeasurement stf.ext) ∧
      stf.ext.2 = (recordingState 6 4 {9}).ext.2 ++ [Call.initMeasurement]
        ++ (slicesDown 6 0).flatMap (fun k => [Call.updateInSlice k, Call.measure k]) ∧
      stf.ext.1 = Finset.Icc 1 6 ∧ finishMeasurements_assertion 6 stf.ext.1 :=
  ((measurement_hook_protocol ⟨1, false, 6, 2, 3⟩ (recordingCallables 2) Prod.fst Prod.snd 5
    (recordingState 6 4 {9}) ⟨fun _ => rfl, fun _ _ _ => rfl, fun _ _ => rfl⟩
    ⟨fun _ => rfl, fun _ _ _ => rfl, fun _ _ => rfl, fun _ => rfl, fun _ => rfl⟩
    rfl (by decide) (by decide) (by decide) (by decide) (by decide)
    (by intro g; simp [recordingState])).1 rfl).1

/-! ## Rounding to `double` -/

theorem roundNearestEven_down {K : Type} [LinearOrderedField K] [FloorRing K] (x : K) (f : ℤ)
    (h1 : (f : K) ≤ x) (h2 : x < f + 1 / 2) : roundNearestEven x = f := by
  have hf : ⌊x⌋ = f := Int.floor_eq_iff.mpr ⟨h1, by linarith⟩
  unfold roundNearestEven
  rw [hf, if_pos (by linarith)]

theorem roundNearestEven_up {K : Type} [LinearOrderedField K] [FloorRing K] (x : K) (f : ℤ)
    (h1 : (f : K) + 1 / 2 < x) (h2 : x < f + 1) : roundNearestEven x = f + 1 := by
  have hf : ⌊x⌋ = f := Int.floor_eq_iff.mpr ⟨by linarith, h2⟩
  unfold roundNearestEven
  rw [hf, if_neg (by linarith), if_pos (by linarith)]

/-- The rounded value is one of the two integers next to `x`. -/
theorem roundNearestEven_floor_or {K : Type} [LinearOrderedField K] [FloorRing K] (x : K) :
    roundNearestEven x = ⌊x⌋ ∨ (roundNearestEven x = ⌊x⌋ + 1 ∧ (⌊x⌋ : K) < x) := by
  unfold roundNearestEven
  have h0 : (⌊x⌋ : K) ≤ x := Int.floor_le x
  split_ifs with h1 h2 h3
  · exact Or.inl rfl
  · exact Or.inr ⟨rfl, by linarith⟩
  · exact Or.inl rfl
  · exact Or.inr ⟨rfl, by linarith⟩

/-- Rounding does not cross an integer above `x`. -/
theorem roundNearestEven_le {K : Type} [LinearOrderedField K] [FloorRing K] (x : K) (k : ℤ)
    (h : x ≤ k) : roundNearestEven x ≤ k := by
  rcases roundNearestEven_floor_or x with h1 | ⟨h1, h2⟩
  · rw [h1]
    exact Int.floor_le_iff.mpr (by linarith [Int.floor_le x])
  · rw [h1]
    have : (⌊x⌋ : K) < k := lt_of_lt_of_le h2 h
    have : ⌊x⌋ < k := by exact_mod_cast this
    omega

/-- Rounding does not cross an integer below `x`. -/
theorem le_roundNearestEven {K : Type} [LinearOrderedField K] [FloorRing K] (x : K) (k : ℤ)
    (h : (k : K) ≤ x) : k ≤ roundNearestEven x := by
  have hk : k ≤ ⌊x⌋ := Int.le_floor.mpr h
  rcases roundNearestEven_floor_or x with h1 | ⟨h1, -⟩
  · rw [h1]
    exact hk
  · rw [h1]
    omega

theorem roundNearestEven_intCast {K : Type} [LinearOrderedField K] [FloorRing K] (k : ℤ) :
    roundNearestEven (k : K) = k :=
  le_antisymm (roundNearestEven_le _ k le_rfl) (le_roundNearestEven _ k le_rfl)

theorem ulpExponent_eq {K : Type} [LinearOrderedField K] [FloorRing K] (x : K) (e : ℤ)
    (he : -1074 ≤ e) (h1 : (2 : K) ^ (e + 52) ≤ |x|) (h2 : |x| < 2 ^ (e + 53)) :
    ulpExponent x = e := by
  have hpos : 0 < |x| := lt_of_lt_of_le (zpow_pos (by norm_num) _) h1
  have hlog : Int.log 2 |x| = e + 52 := by
    apply le_antisymm
    · have := (Int.lt_zpow_iff_log_lt (b := 2) (by norm_num) hpos).mp
        (show |x| < ((2 : ℕ) : K) ^ (e + 53) by exact_mod_cast h2)
      omega
    · exact (Int.zpow_le_iff_le_log (b := 2) (by norm_num) hpos).mp
        (show ((2 : ℕ) : K) ^ (e + 52) ≤ |x| by exact_mod_cast h1)
  unfold ulpExponent
  rw [hlog]
  omega

/-- The spacing of the doubles next to `x ≠ 0`: at least `2^(-1074)`, and 53 binary
digits above the subnormal range. -/
theorem ulpExponent_spec {K : Type} [LinearOrderedField K] [FloorRing K] (x : K)
    (hx : x ≠ 0) :
    -1074 ≤ ulpExponent x ∧ |x| < 2 ^ (ulpExponent x + 53) ∧
      (ulpExponent x = -1074 ∨ (2 : K) ^ (ulpExponent x + 52) ≤ |x|) := by
  have hpos : 0 < |x| := abs_pos.mpr hx
  have hlo : ((2 : ℕ) : K) ^ Int.log 2 |x| ≤ |x| := Int.zpow_log_le_self (by norm_num) hpos
  have hhi : |x| < ((2 : ℕ) : K) ^ (Int.log 2 |x| + 1) := Int.lt_zpow_succ_log_self (by norm_num) _
  have h2 : (1 : K) < 2 := by norm_num
  push_cast at hlo hhi
  refine ⟨le_max_right _ _, ?_, ?_⟩
  · refine lt_of_lt_of_le hhi (zpow_le_zpow_right₀ h2.le ?_)
    unfold ulpExponent
    have := le_max_left (Int.log 2 |x| - 52) (-1074)
    omega
  · unfold ulpExponent
    rcases le_total (Int.log 2 |x| - 52) (-1074) with h | h
    · left
      exact max_eq_right h
    · right
      rw [max_eq_left h]
      have : Int.log 2 |x| - 52 + 52 = Int.log 2 |x| := by ring
      rw [this]
      exact hlo

theorem roundDouble_eq {K : Type} [LinearOrderedField K] [FloorRing K] (x : K) (e n : ℤ)
    (he : -1074 ≤ e) (h1 : (2 : K) ^ (e + 52) ≤ |x|) (h2 : |x| < 2 ^ (e + 53))
    (hn : roundNearestEven (x / 2 ^ e) = n) (hov : |(n : K) * 2 ^ e| < 2 ^ 1024) :
    roundDouble x = n * 2 ^ e := by
  unfold roundDouble
  simp only [ulpExponent_eq x e he h1 h2, hn]
  rw [if_neg (not_le.mpr hov)]

/-- A number that is a multiple of the spacing of its binade, below the overflow
threshold, is a double: rounding returns it. -/
theorem roundDouble_of_exact {K : Type} [LinearOrderedField K] [FloorRing K] (x : K)
    (e n : ℤ) (he : -1074 ≤ e) (h1 : (2 : K) ^ (e + 52) ≤ |x|) (h2 : |x| < 2 ^ (e + 53))
    (hx : x = n * 2 ^ e) (hov : |x| < 2 ^ 1024) : roundDouble x = x := by
  have hp : (0 : K) < 2 ^ e := zpow_pos (by norm_num) _
  have hn : roundNearestEven (x / 2 ^ e) = n := by
    rw [hx, mul_div_assoc, div_self hp.ne', mul_one, roundNearestEven_intCast]
  rw [roundDouble_eq x e n he h1 h2 hn (by rw [← hx]; exact hov), hx]

theorem roundDouble_zero {K : Type} [LinearOrderedField K] [FloorRing K] :
    roundDouble (0 : K) = 0 := by
  unfold roundDouble
  have h : roundNearestEven ((0 : K) / 2 ^ ulpExponent (0 : K)) = 0 := by
    rw [zero_div]
    simpa using roundNearestEven_intCast (K := K) 0
  simp only [h, Int.cast_zero, zero_mul, abs_zero]
  rw [if_neg (by norm_num)]

/-- Rounding keeps the sign. -/
theorem roundDouble_nonneg {K : Type} [LinearOrderedField K] [FloorRing K] (x : K)
    (hx : 0 ≤ x) : 0 ≤ roundDouble x := by
  unfold roundDouble
  have hp : (0 : K) < 2 ^ ulpExponent x := zpow_pos (by norm_num) _
  have hn : (0 : ℤ) ≤ roundNearestEven (x / 2 ^ ulpExponent x) :=
    le_roundNearestEven _ 0 (by simpa using div_nonneg hx hp.le)
  have hr : (0 : K) ≤ (roundNearestEven (x / 2 ^ ulpExponent x) : K) * 2 ^ ulpExponent x :=
    mul_nonneg (by exact_mod_cast hn) hp.le
  simp only
  split_ifs with h1
  · positivity
  · exact hr

/-- The conversion of a double in the range of `uint32_t` gives its integer part. -/
theorem doubleToUInt32_of_range {K : Type} [LinearOrderedField K] [FloorRing K] (x : K)
    (h0 : 0 ≤ x) (h1 : x < 4294967296) : doubleToUInt32 x = ⌊x⌋₊ := by
  have hf0 : 0 ≤ ⌊x⌋ := Int.floor_nonneg.mpr h0
  have hf1 : ⌊x⌋ < 4294967296 := Int.floor_lt.mpr (by exact_mod_cast h1)
  unfold doubleToUInt32
  simp only [if_pos h0]
  rw [if_pos ⟨by omega, by omega⟩, Int.emod_eq_of_lt hf0 hf1]
  rfl

/-- The spacing of the doubles below `2^53` is at most one: `2^(-e)` is a whole number. -/
theorem ulpExponent_nonpos {K : Type} [LinearOrderedField K] [FloorRing K] (x : K)
    (h0 : 0 < x) (h1 : x < 2 ^ 53) :
    ∃ k : ℕ, (0 : K) < 2 ^ ulpExponent x ∧ (2 : K) ^ ulpExponent x * 2 ^ k = 1 := by
  have h2 : (1 : K) < 2 := by norm_num
  obtain ⟨-, -, he3⟩ := ulpExponent_spec x h0.ne'
  have he : ulpExponent x ≤ 0 := by
    rcases he3 with h | h
    · omega
    · rw [abs_of_pos h0] at h
      have h3 : (2 : K) ^ (ulpExponent x + 52) < 2 ^ (53 : ℤ) := by
        refine lt_of_le_of_lt h ?_
        rw [show (53 : ℤ) = ((53 : ℕ) : ℤ) by norm_num, zpow_natCast]
        exact h1
      have := (zpow_lt_zpow_iff_right₀ h2).mp h3
      omega
  refine ⟨(-ulpExponent x).toNat, zpow_pos (by norm_num) _, ?_⟩
  have hk : ulpExponent x = -(((-ulpExponent x).toNat : ℕ) : ℤ) := by omega
  rw [← zpow_natCast, ← zpow_add₀ (by norm_num)]
  rw [show ulpExponent x + (((-ulpExponent x).toNat : ℕ) : ℤ) = 0 by omega, zpow_zero]

/-- Rounding does not cross a whole number below `2^53` from above. -/
theorem natCast_le_roundDouble {K : Type} [LinearOrderedField K] [FloorRing K] (x : K)
    (k : ℕ) (hk : (k : K) ≤ x) (hx : x < 2 ^ 53) : (k : K) ≤ roundDouble x := by
  have hk0 : (0 : K) ≤ k := Nat.cast_nonneg k
  rcases eq_or_lt_of_le (hk0.trans hk) with h | hpos
  · rw [← h, roundDouble_zero]
    rw [← h] at hk
    exact hk
  obtain ⟨j, hp, hj⟩ := ulpExponent_nonpos x hpos hx
  have hdiv : x / 2 ^ ulpExponent x = x * 2 ^ j := by
    rw [div_eq_iff hp.ne', mul_assoc, mul_comm ((2 : K) ^ j), hj, mul_one]
  have hle : (((k * 2 ^ j : ℕ) : ℤ) : K) ≤ x / 2 ^ ulpExponent x := by
    rw [hdiv]
    push_cast
    exact mul_le_mul_of_nonneg_right hk (by positivity)
  have hn := le_roundNearestEven _ _ hle
  have hr : (k : K) ≤ (roundNearestEven (x / 2 ^ ulpExponent x) : K) * 2 ^ ulpExponent x := by
    have h5 : (((k * 2 ^ j : ℕ) : ℤ) : K) * 2 ^ ulpExponent x
        ≤ (roundNearestEven (x / 2 ^ ulpExponent x) : K) * 2 ^ ulpExponent x :=
      mul_le_mul_of_nonneg_right (by exact_mod_cast hn) hp.le
    have h6 : (((k * 2 ^ j : ℕ) : ℤ) : K) * 2 ^ ulpExponent x = k := by
      push_cast
      rw [mul_assoc, mul_comm ((2 : K) ^ j), hj, mul_one]
    rw [h6] at h5
    exact h5
  unfold roundDouble
  simp only
  split_ifs with ha hb
  · exact (hk.trans hx.le).trans (pow_le_pow_right₀ (by norm_num) (by norm_num))
  · exfalso
    exact hb (hk0.trans hr)
  · exact hr

/-- Rounding does not cross a whole number below `2^53` from below. -/
theorem roundDouble_le_natCast {K : Type} [LinearOrderedField K] [FloorRing K] (x : K)
    (k : ℕ) (h0 : 0 ≤ x) (hk : x ≤ k) (hk53 : (k : K) < 2 ^ 53) : roundDouble x ≤ k := by
  rcases eq_or_lt_of_le h0 with h | hpos
  · rw [← h, roundDouble_zero]
    exact Nat.cast_nonneg k
  obtain ⟨j, hp, hj⟩ := ulpExponent_nonpos x hpos (lt_of_le_of_lt hk hk53)
  have hdiv : x / 2 ^ ulpExponent x = x * 2 ^ j := by
    rw [div_eq_iff hp.ne', mul_assoc, mul_comm ((2 : K) ^ j), hj, mul_one]
  have hle : x / 2 ^ ulpExponent x ≤ (((k * 2 ^ j : ℕ) : ℤ) : K) := by
    rw [hdiv]
    push_cast
    exact mul_le_mul_of_nonneg_right hk (by positivity)
  have hn := roundNearestEven_le _ _ hle
  have hn0 : (0 : ℤ) ≤ roundNearestEven (x / 2 ^ ulpExponent x) :=
    le_roundNearestEven _ 0 (by simpa using (div_pos hpos hp).le)
  have hr0 : (0 : K) ≤ (roundNearestEven (x / 2 ^ ulpExponent x) : K) * 2 ^ ulpExponent x :=
    mul_nonneg (by exact_mod_cast hn0) hp.le
  have hr : (roundNearestEven (x / 2 ^ ulpExponent x) : K) * 2 ^ ulpExponent x ≤ k := by
    have h5 : (roundNearestEven (x / 2 ^ ulpExponent x) : K) * 2 ^ ulpExponent x
        ≤ (((k * 2 ^ j : ℕ) : ℤ) : K) * 2 ^ ulpExponent x :=
      mul_le_mul_of_nonneg_right (by exact_mod_cast hn) hp.le
    have h6 : (((k * 2 ^ j : ℕ) : ℤ) : K) * 2 ^ ulpExponent x = k := by
      push_cast
      rw [mul_assoc, mul_comm ((2 : K) ^ j), hj, mul_one]
    rw [h6] at h5
    exact h5
  have hbig : (2 : K) ^ 53 < 2 ^ 1024 := pow_lt_pow_right₀ (by norm_num) (by norm_num)
  unfold roundDouble
  simp only
  rw [if_neg]
  · exact hr
  · rw [abs_of_nonneg hr0]
    exact not_le.mpr (lt_of_le_of_lt hr (hk53.trans hbig))

/-- The number of slices that binary64 arithmetic makes of a quotient `q` in the range
of `uint32_t`: the integer part of `q`, or one more when the quotient is rounded up to
the next whole number. -/
theorem doubleToUInt32_roundDouble {K : Type} [LinearOrderedField K] [FloorRing K] (q : K)
    (h0 : 0 ≤ q) (h1 : q + 1 < 4294967296) :
    doubleToUInt32 (roundDouble q) = ⌊q⌋₊ ∨
      (doubleToUInt32 (roundDouble q) = ⌊q⌋₊ + 1 ∧ roundDouble q = ((⌊q⌋₊ + 1 : ℕ) : K)) := by
  have hf1 : (⌊q⌋₊ : K) ≤ q := Nat.floor_le h0
  have hf2 : q < ((⌊q⌋₊ + 1 : ℕ) : K) := by
    push_cast
    exact Nat.lt_floor_add_one q
  have h53 : (4294967296 : K) < 2 ^ 53 := by norm_num
  have hlo := natCast_le_roundDouble q ⌊q⌋₊ hf1 (by linarith)
  have hhi := roundDouble_le_natCast q (⌊q⌋₊ + 1) h0 hf2.le (by push_cast; linarith)
  have hr0 : 0 ≤ roundDouble q := roundDouble_nonneg q h0
  have hr32 : roundDouble q < 4294967296 := by
    refine lt_of_le_of_lt hhi ?_
    push_cast
    linarith
  rw [doubleToUInt32_of_range _ hr0 hr32]
  rcases eq_or_lt_of_le hhi with h | h
  · right
    rw [h, Nat.floor_natCast]
    exact ⟨rfl, rfl⟩
  · left
    rw [Nat.floor_eq_iff hr0]
    push_cast at h
    exact ⟨hlo, h⟩

/-- Out of the range of `uint32_t` the conversion of x86-64 wraps around: `6e9` becomes
`6000000000 - 2^32`. -/
theorem doubleToUInt32_wraps : doubleToUInt32 (6000000000 : ℚ) = 1705032704 := by
  have hf : ⌊(6000000000 : ℚ)⌋ = 6000000000 := by
    exact_mod_cast Int.floor_intCast (6000000000 : ℤ)
  unfold doubleToUInt32
  simp only [if_pos (show (0 : ℚ) ≤ 6000000000 by norm_num), hf]
  decide

/-! ## C14, C15, C16: `updateTemperatureParameters` -/

/-- The final test lets exactly the records with `s ≠ 0`, `m mod s = 0` and `m / s ≥ 2`
pass, unchanged. -/
theorem checkStabilization_ok {K : Type} (pars pars' : ModelParams K)
    (h : checkStabilization pars = Except.ok pars') :
    pars' = pars ∧ pars.s ≠ 0 ∧ pars.m % pars.s = 0 ∧ 2 ≤ pars.m / pars.s := by
  unfold checkStabilization at h
  split_ifs at h with h1 h2
  · cases h
    refine ⟨rfl, h1, ?_, ?_⟩
    · by_contra hc
      exact h2 (Or.inl hc)
    · by_contra hc
      exact h2 (Or.inr (by omega))

theorem checkStabilization_error {K : Type} (pars : ModelParams K) (hs : pars.s ≠ 0)
    (h : pars.m % pars.s ≠ 0 ∨ pars.m / pars.s < 2) :
    checkStabilization pars
      = Except.error (ParamFailure.ParameterWrong "Parameters m and s do not agree") := by
  unfold checkStabilization
  rw [if_neg hs, if_pos h]

theorem checkStabilization_pass {K : Type} (pars : ModelParams K) (hs : pars.s ≠ 0)
    (h1 : pars.m % pars.s = 0) (h2 : 2 ≤ pars.m / pars.s) :
    checkStabilization pars = Except.ok pars := by
  unfold checkStabilization
  rw [if_neg hs, if_neg (by omega)]

/-- A record that passes the tests before the computation: `dtau` and `s` are given and
positive, and exactly one of `m` and `beta` is given, with a positive value. -/
theorem updateTemperatureParameters_ok_inv {K : Type} [LinearOrderedField K]
    (da : DoubleArith K) (pars pars' : ModelParams K)
    (h : updateTemperatureParameters da pars = Except.ok pars') :
    "dtau" ∈ pars.specified ∧ "s" ∈ pars.specified ∧ 0 < pars.dtau ∧ 0 < pars.s ∧
    (("m" ∈ pars.specified ∧ "beta" ∉ pars.specified ∧ 0 < pars.m ∧
        checkStabilization { pars with beta := da.round ((pars.m : K) * pars.dtau) }
          = Except.ok pars') ∨
      ("m" ∉ pars.specified ∧ "beta" ∈ pars.specified ∧ 0 < pars.beta ∧
        checkStabilization
          { pars with
            m := da.toUInt32 (da.round (pars.beta / pars.dtau)),
            beta := da.round
              ((da.toUInt32 (da.round (pars.beta / pars.dtau)) : K) * pars.dtau) }
          = Except.ok pars')) := by
  unfold updateTemperatureParameters at h
  by_cases h1 : "dtau" ∉ pars.specified
  · rw [if_pos h1] at h
    cases h
  rw [if_neg h1] at h
  by_cases h2 : "s" ∉ pars.specified
  · rw [if_pos h2] at h
    cases h
  rw [if_neg h2] at h
  by_cases h3 : "beta" ∈ pars.specified ∧ pars.beta ≤ 0
  · rw [if_pos h3] at h
    cases h
  rw [if_neg h3] at h
  by_cases h4 : "m" ∈ pars.specified ∧ pars.m ≤ 0
  · rw [if_pos h4] at h
    cases h
  rw [if_neg h4] at h
  by_cases h5 : "s" ∈ pars.specified ∧ pars.s ≤ 0
  · rw [if_pos h5] at h
    cases h
  rw [if_neg h5] at h
  by_cases h6 : "dtau" ∈ pars.specified ∧ pars.dtau ≤ 0
  · rw [if_pos h6] at h
    cases h
  rw [if_neg h6] at h
  by_cases h7 : "beta" ∈ pars.specified ∧ "m" ∈ pars.specified
  · rw [if_pos h7] at h
    cases h
  rw [if_neg h7] at h
  by_cases h8 : "m" ∉ pars.specified ∧ "beta" ∉ pars.specified
  · rw [if_pos h8] at h
    cases h
  rw [if_neg h8] at h
  rw [not_not] at h1 h2
  rw [not_and, not_le] at h3 h4 h5 h6
  refine ⟨h1, h2, h6 h1, h5 h2, ?_⟩
  by_cases h9 : "m" ∈ pars.specified
  · rw [if_pos h9] at h
    exact Or.inl ⟨h9, fun hb => h7 ⟨hb, h9⟩, h4 h9, h⟩
  · rw [if_neg h9] at h
    have h10 : "beta" ∈ pars.specified := by
      by_contra hb
      exact h8 ⟨h9, hb⟩
    rw [if_pos h10] at h
    exact Or.inr ⟨h9, h10, h3 h10, h⟩

/-- The paths through `updateTemperatureParameters`, in the order of its tests. -/
theorem updateTemperatureParameters_paths {K : Type} [LinearOrderedField K]
    (da : DoubleArith K) (pars : ModelParams K) :
    ("dtau" ∉ pars.specified ∧
      updateTemperatureParameters da pars
        = Except.error (ParamFailure.ParameterMissing "dtau")) ∨
    ("dtau" ∈ pars.specified ∧ "s" ∉ pars.specified ∧
      updateTemperatureParameters da pars = Except.error (ParamFailure.ParameterMissing "s")) ∨
    ("dtau" ∈ pars.specified ∧ "s" ∈ pars.specified ∧
      (("beta" ∈ pars.specified ∧ pars.beta ≤ 0) ∨ ("m" ∈ pars.specified ∧ pars.m = 0) ∨
        pars.s = 0 ∨ pars.dtau ≤ 0 ∨ ("beta" ∈ pars.specified ∧ "m" ∈ pars.specified)) ∧
      ∃ what, updateTemperatureParameters da pars
        = Except.error (ParamFailure.ParameterWrong what)) ∨
    ("dtau" ∈ pars.specified ∧ "s" ∈ pars.specified ∧ 0 < pars.dtau ∧ 0 < pars.s ∧
      "m" ∉ pars.specified ∧ "beta" ∉ pars.specified ∧
      updateTemperatureParameters da pars
        = Except.error (ParamFailure.ParameterWrong "Specify either parameter m or beta")) ∨
    ("dtau" ∈ pars.specified ∧ "s" ∈ pars.specified ∧ 0 < pars.dtau ∧ 0 < pars.s ∧
      "m" ∈ pars.specified ∧ "beta" ∉ pars.specified ∧ 0 < pars.m ∧
      updateTemperatureParameters da pars
        = checkStabilization { pars with beta := da.round ((pars.m : K) * pars.dtau) }) ∨
    ("dtau" ∈ pars.specified ∧ "s" ∈ pars.specified ∧ 0 < pars.dtau ∧ 0 < pars.s ∧
      "m" ∉ pars.specified ∧ "beta" ∈ pars.specified ∧ 0 < pars.beta ∧
      updateTemperatureParameters da pars
        = checkStabilization
          { pars with
            m := da.toUInt32 (da.round (pars.beta / pars.dtau)),
            beta := da.round
              ((da.toUInt32 (da.round (pars.beta / pars.dtau)) : K) * pars.dtau) }) := by
  unfold updateTemperatureParameters
  by_cases h1 : "dtau" ∉ pars.specified
  · rw [if_pos h1]
    exact Or.inl ⟨h1, rfl⟩
  rw [if_neg h1]
  by_cases h2 : "s" ∉ pars.specified
  · rw [if_pos h2]
    exact Or.inr (Or.inl ⟨not_not.mp h1, h2, rfl⟩)
  rw [if_neg h2]
  rw [not_not] at h1 h2
  by_cases h3 : "beta" ∈ pars.specified ∧ pars.beta ≤ 0
  · rw [if_pos h3]
    exact Or.inr (Or.inr (Or.inl ⟨h1, h2, Or.inl h3, _, rfl⟩))
  rw [if_neg h3]
  by_cases h4 : "m" ∈ pars.specified ∧ pars.m ≤ 0
  · rw [if_pos h4]
    exact Or.inr (Or.inr (Or.inl ⟨h1, h2, Or.inr (Or.inl ⟨h4.1, by omega⟩), _, rfl⟩))
  rw [if_neg h4]
  by_cases h5 : "s" ∈ pars.specified ∧ pars.s ≤ 0
  · rw [if_pos h5]
    exact Or.inr (Or.inr (Or.inl ⟨h1, h2, Or.inr (Or.inr (Or.inl (by omega))), _, rfl⟩))
  rw [if_neg h5]
  by_cases h6 : "dtau" ∈ pars.specified ∧ pars.dtau ≤ 0
  · rw [if_pos h6]
    exact Or.inr (Or.inr (Or.inl ⟨h1, h2, Or.inr (Or.inr (Or.inr (Or.inl h6.2))), _, rfl⟩))
  rw [if_neg h6]
  by_cases h7 : "beta" ∈ pars.specified ∧ "m" ∈ pars.specified
  · rw [if_pos h7]
    exact Or.inr (Or.inr (Or.inl ⟨h1, h2, Or.inr (Or.inr (Or.inr (Or.inr h7))), _, rfl⟩))
  rw [if_neg h7]
  rw [not_and, not_le] at h3 h4 h5 h6
  by_cases h8 : "m" ∉ pars.specified ∧ "beta" ∉ pars.specified
  · rw [if_pos h8]
    exact Or.inr (Or.inr (Or.inr (Or.inl ⟨h1, h2, h6 h1, h5 h2, h8.1, h8.2, rfl⟩)))
  rw [if_neg h8]
  by_cases h9 : "m" ∈ pars.specified
  · rw [if_pos h9]
    exact Or.inr (Or.inr (Or.inr (Or.inr (Or.inl
      ⟨h1, h2, h6 h1, h5 h2, h9, fun hb => h7 ⟨hb, h9⟩, h4 h9, rfl⟩))))
  · rw [if_neg h9]
    have h10 : "beta" ∈ pars.specified := by
      by_contra hb
      exact h8 ⟨h9, hb⟩
    rw [if_pos h10]
    exact Or.inr (Or.inr (Or.inr (Or.inr (Or.inr
      ⟨h1, h2, h6 h1, h5 h2, h9, h10, h3 h10, rfl⟩))))

/-- The test `m % s` is never reached with `s = 0`. -/
theorem checkStabilization_defined {K : Type} (pars : ModelParams K) (hs : 0 < pars.s) :
    checkStabilization pars ≠ Except.error ParamFailure.UndefinedDivision := by
  unfold checkStabilization
  rw [if_neg (by omega)]
  split_ifs <;> simp

/-- C14 (counterexample): `beta = 0.7`, `dtau = 0.01` (the doubles nearest to these
numbers) and `s = 5` are specified.  The quotient of the two doubles is below `70`, its
integer part is `69`; the division of the type `double` rounds it to `70.0`, so that
`updateTemperatureParameters` returns `m = 70` (and not `floor(beta / dtau) = 69`, for
which it would throw), and the product `70 * dtau` is rounded to the double above
`0.7`: the returned `beta` is larger than the given one. -/
theorem beta_specified_rounded_up :
    updateTemperatureParameters binary64
        (⟨3152519739159347 / 2 ^ 52, 0, 5764607523034235 / 2 ^ 59, 5,
          {"beta", "dtau", "s"}⟩ : ModelParams ℚ)
      = Except.ok ⟨6305039478318695 / 2 ^ 53, 70, 5764607523034235 / 2 ^ 59, 5,
          {"beta", "dtau", "s"}⟩ ∧
    ⌊(3152519739159347 / 2 ^ 52 : ℚ) / (5764607523034235 / 2 ^ 59)⌋₊ = 69 ∧
    (70 : ℕ) ≠ ⌊(3152519739159347 / 2 ^ 52 : ℚ) / (5764607523034235 / 2 ^ 59)⌋₊ ∧
    (3152519739159347 / 2 ^ 52 : ℚ) < 6305039478318695 / 2 ^ 53 ∧
    69 % 5 ≠ 0 := by
  have hfl : ⌊(3152519739159347 / 2 ^ 52 : ℚ) / (5764607523034235 / 2 ^ 59)⌋₊ = 69 := by
    rw [Nat.floor_eq_iff (by norm_num)]
    constructor <;> norm_num
  have hq : roundDouble ((3152519739159347 / 2 ^ 52 : ℚ) / (5764607523034235 / 2 ^ 59))
      = 70 := by
    rw [roundDouble_eq _ (-46) 4925812092436480 (by norm_num) (by norm_num [abs_of_pos])
      (by norm_num [abs_of_pos])
      (by
        have h := roundNearestEven_up
          ((3152519739159347 / 2 ^ 52 : ℚ) / (5764607523034235 / 2 ^ 59) / 2 ^ (-46 : ℤ))
          4925812092436479 (by norm_num) (by norm_num)
        rw [h]
        norm_num)
      (by norm_num [abs_of_pos])]
    norm_num
  have hm : doubleToUInt32 (70 : ℚ) = 70 := by
    rw [doubleToUInt32_of_range _ (by norm_num) (by norm_num),
      Nat.floor_eq_iff (by norm_num)]
    constructor <;> norm_num
  have hb : roundDouble (((70 : ℕ) : ℚ) * (5764607523034235 / 2 ^ 59))
      = 6305039478318695 / 2 ^ 53 := by
    rw [roundDouble_eq _ (-53) 6305039478318695 (by norm_num) (by norm_num [abs_of_pos])
      (by norm_num [abs_of_pos])
      (by
        have h := roundNearestEven_up
          (((70 : ℕ) : ℚ) * (5764607523034235 / 2 ^ 59) / 2 ^ (-53 : ℤ))
          6305039478318694 (by norm_num) (by norm_num)
        rw [h]
        norm_num)
      (by norm_num [abs_of_pos])]
    norm_num
  refine ⟨?_, hfl, by rw [hfl]; decide, by norm_num, by decide⟩
  rcases updateTemperatureParameters_paths binary64
    (⟨3152519739159347 / 2 ^ 52, 0, 5764607523034235 / 2 ^ 59, 5,
      {"beta", "dtau", "s"}⟩ : ModelParams ℚ) with
    ⟨h, -⟩ | ⟨-, h, -⟩ | ⟨-, -, h, -⟩ | ⟨-, -, -, -, -, h, -⟩ | ⟨-, -, -, -, h, -⟩ |
    ⟨-, -, -, -, -, -, -, hr⟩
  · exact absurd (by decide) h
  · exact absurd (by decide) h
  · exfalso
    rcases h with h | h | h | h | h
    · norm_num at h
    · exact absurd h.1 (by decide)
    · norm_num at h
    · norm_num at h
    · exact absurd h.2 (by decide)
  · exact absurd (by decide) h
  · exact absurd h (by decide)
  · rw [hr]
    simp only [binary64, hq, hm, hb]
    rw [checkStabilization_pass _ (by decide) (by decide) (by decide)]

/-- C14 (amended). Postcondition of `updateTemperatureParameters`, the quotient and the
products being operations of the type `double` (`da.round` of the exact result): a
record returned normally satisfies `m mod s = 0`, `m / s ≥ 2` and
`beta = round(m * dtau)`, with `dtau` and `s` unchanged; if `m` was specified `m` is
unchanged, and if `beta` was specified `m = uint32_t(round(beta / dtau))`; this is
`floor(beta / dtau)` when the quotient is a double in the range of the conversion, and
then the returned `beta` is at most the given one when the product is a double as well.
In binary64 arithmetic, for a quotient below `2^32 - 1`, the returned `m` is
`floor(beta / dtau)`, or one more when the quotient is rounded up to the next whole
number.  With `dtau` and `s` specified, the call throws `ParameterWrong` whenever the
number of slices `m` (the given one, or the one converted from the rounded quotient)
has `m mod s ≠ 0` or `m / s < 2`.  The expression `m % s` is never evaluated with
`s = 0`. -/
theorem updateTemperatureParameters_postcondition {K : Type} [LinearOrderedField K]
    [FloorRing K] (da : DoubleArith K) (pars : ModelParams K) :
    (∀ pars', updateTemperatureParameters da pars = Except.ok pars' →
      pars'.m % pars'.s = 0 ∧ 2 ≤ pars'.m / pars'.s ∧
      pars'.beta = da.round ((pars'.m : K) * pars'.dtau) ∧
      pars'.dtau = pars.dtau ∧ pars'.s = pars.s ∧
      ("m" ∈ pars.specified → pars'.m = pars.m) ∧
      ("beta" ∈ pars.specified →
        pars'.m = da.toUInt32 (da.round (pars.beta / pars.dtau)) ∧
        (da.round (pars.beta / pars.dtau) = pars.beta / pars.dtau →
          da.toUInt32 (pars.beta / pars.dtau) = ⌊pars.beta / pars.dtau⌋₊ →
          pars'.m = ⌊pars.beta / pars.dtau⌋₊ ∧
          (da.round ((pars'.m : K) * pars.dtau) = (pars'.m : K) * pars.dtau →
            pars'.beta ≤ pars.beta)))) ∧
    (∀ pars', updateTemperatureParameters binary64 pars = Except.ok pars' →
      "beta" ∈ pars.specified → pars.beta / pars.dtau + 1 < 4294967296 →
      pars'.m = ⌊pars.beta / pars.dtau⌋₊ ∨
        (pars'.m = ⌊pars.beta / pars.dtau⌋₊ + 1 ∧
          roundDouble (pars.beta / pars.dtau) = ((⌊pars.beta / pars.dtau⌋₊ + 1 : ℕ) : K))) ∧
    (∀ m', "dtau" ∈ pars.specified → "s" ∈ pars.specified →
      (if "m" ∈ pars.specified then pars.m
        else da.toUInt32 (da.round (pars.beta / pars.dtau))) = m' →
      (m' % pars.s ≠ 0 ∨ m' / pars.s < 2) →
      ∃ what, updateTemperatureParameters da pars
        = Except.error (ParamFailure.ParameterWrong what)) ∧
    updateTemperatureParameters da pars ≠ Except.error ParamFailure.UndefinedDivision := by
  refine ⟨?_, ?_, ?_, ?_⟩
  · intro pars' h
    obtain ⟨-, -, hd, -, hcase⟩ := updateTemperatureParameters_ok_inv da pars pars' h
    rcases hcase with ⟨hm, hb, -, hc⟩ | ⟨hm, hb, hbpos, hc⟩
    · obtain ⟨rfl, -, h1, h2⟩ := checkStabilization_ok _ _ hc
      exact ⟨h1, h2, rfl, rfl, rfl, fun _ => rfl, fun hb' => absurd hb' hb⟩
    · obtain ⟨rfl, -, h1, h2⟩ := checkStabilization_ok _ _ hc
      refine ⟨h1, h2, rfl, rfl, rfl, fun hm' => absurd hm' hm, fun _ => ⟨rfl, ?_⟩⟩
      intro hq hconv
      have hfl : da.toUInt32 (da.round (pars.beta / pars.dtau))
          = ⌊pars.beta / pars.dtau⌋₊ := by
        rw [hq, hconv]
      refine ⟨hfl, ?_⟩
      intro hp
      show da.round ((da.toUInt32 (da.round (pars.beta / pars.dtau)) : K) * pars.dtau)
        ≤ pars.beta
      have hp' : da.round ((da.toUInt32 (da.round (pars.beta / pars.dtau)) : K) * pars.dtau)
          = (da.toUInt32 (da.round (pars.beta / pars.dtau)) : K) * pars.dtau := hp
      rw [hp', hfl]
      have h0 : 0 ≤ pars.beta / pars.dtau := le_of_lt (div_pos hbpos hd)
      exact (le_div_iff₀ hd).mp (Nat.floor_le h0)
  · intro pars' h hb hq
    obtain ⟨-, -, hd, -, hcase⟩ := updateTemperatureParameters_ok_inv binary64 pars pars' h
    rcases hcase with ⟨-, hb', -⟩ | ⟨-, -, hbpos, hc⟩
    · exact absurd hb hb'
    · obtain ⟨rfl, -, -, -⟩ := checkStabilization_ok _ _ hc
      exact doubleToUInt32_roundDouble _ (le_of_lt (div_pos hbpos hd)) hq
  · intro m' hdt hs hm' hbad
    rcases updateTemperatureParameters_paths da pars with
      ⟨h1, -⟩ | ⟨-, h2, -⟩ | ⟨-, -, -, hw⟩ | ⟨-, -, -, -, -, -, hr⟩ |
      ⟨-, -, -, hspos, hm, -, -, hr⟩ | ⟨-, -, -, hspos, hm, -, -, hr⟩
    · exact absurd hdt h1
    · exact absurd hs h2
    · exact hw
    · exact ⟨_, hr⟩
    · rw [if_pos hm] at hm'
      subst hm'
      rw [hr]
      exact ⟨_, checkStabilization_error _ (by show pars.s ≠ 0; omega) hbad⟩
    · rw [if_neg hm] at hm'
      subst hm'
      rw [hr]
      exact ⟨_, checkStabilization_error _ (by show pars.s ≠ 0; omega) hbad⟩
  · rcases updateTemperatureParameters_paths da pars with
      ⟨-, hr⟩ | ⟨-, -, hr⟩ | ⟨-, -, -, what, hr⟩ | ⟨-, -, -, -, -, -, hr⟩ |
      ⟨-, -, -, hspos, -, -, -, hr⟩ | ⟨-, -, -, hspos, -, -, -, hr⟩
    · rw [hr]; simp
    · rw [hr]; simp
    · rw [hr]; simp
    · rw [hr]; simp
    · rw [hr]
      exact checkStabilization_defined _ hspos
    · rw [hr]
      exact checkStabilization_defined _ hspos

/-- Witness for the amended C14, in binary64 arithmetic: `beta = 8.5`, `dtau = 0.125`
and `s = 2` are specified; quotient and product are doubles, the record returned has
`m = 68 = floor(beta / dtau)` and `beta = 8.5`. -/
theorem updateTemperatureParameters_postcondition_witness :
    updateTemperatureParameters binary64
        (⟨17 / 2, 0, 1 / 8, 2, {"beta", "dtau", "s"}⟩ : ModelParams ℚ)
        = Except.ok ⟨17 / 2, 68, 1 / 8, 2, {"beta", "dtau", "s"}⟩ ∧
      68 % 2 = 0 ∧ 2 ≤ 68 / 2 ∧ 68 = ⌊(17 / 2 : ℚ) / (1 / 8)⌋₊ ∧ (17 / 2 : ℚ) ≤ 17 / 2 := by
  have hfl : ⌊(17 / 2 : ℚ) / (1 / 8)⌋₊ = 68 := by
    have : (17 / 2 : ℚ) / (1 / 8) = ((68 : ℕ) : ℚ) := by norm_num
    rw [this, Nat.floor_natCast]
  have hq : roundDouble ((17 / 2 : ℚ) / (1 / 8)) = (17 / 2 : ℚ) / (1 / 8) :=
    roundDouble_of_exact _ (-46) 4785074604081152 (by norm_num) (by norm_num [abs_of_pos])
      (by norm_num [abs_of_pos]) (by norm_num) (by norm_num [abs_of_pos])
  have hm : doubleToUInt32 ((17 / 2 : ℚ) / (1 / 8)) = 68 := by
    rw [doubleToUInt32_of_range _ (by norm_num) (by norm_num), hfl]
  have hb : roundDouble (((68 : ℕ) : ℚ) * (1 / 8)) = 17 / 2 := by
    rw [roundDouble_of_exact _ (-49) 4785074604081152 (by norm_num)
      (by norm_num [abs_of_pos]) (by norm_num [abs_of_pos]) (by norm_num)
      (by norm_num [abs_of_pos])]
    norm_num
  have hcomp : updateTemperatureParameters binary64
      (⟨17 / 2, 0, 1 / 8, 2, {"beta", "dtau", "s"}⟩ : ModelParams ℚ)
      = Except.ok ⟨17 / 2, 68, 1 / 8, 2, {"beta", "dtau", "s"}⟩ := by
    rcases updateTemperatureParameters_paths binary64
      (⟨17 / 2, 0, 1 / 8, 2, {"beta", "dtau", "s"}⟩ : ModelParams ℚ) with
      ⟨h, -⟩ | ⟨-, h, -⟩ | ⟨-, -, h, -⟩ | ⟨-, -, -, -, -, h, -⟩ | ⟨-, -, -, -, h, -⟩ |
      ⟨-, -, -, -, -, -, -, hr⟩
    · exact absurd (by decide) h
    · exact absurd (by decide) h
    · exfalso
      rcases h with h | h | h | h | h
      · norm_num at h
      · exact absurd h.1 (by decide)
      · norm_num at h
      · norm_num at h
      · exact absurd h.2 (by decide)
    · exact absurd (by decide) h
    · exact absurd h (by decide)
    · rw [hr]
      simp only [binary64, hq, hm, hb]
      rw [checkStabilization_pass _ (by decide) (by decide) (by decide)]
  have h := (updateTemperatureParameters_postcondition binary64 _).1 _ hcomp
  have h7 := h.2.2.2.2.2.2 (by decide)
  have h8 := h7.2 hq (hm.trans hfl.symm)
  exact ⟨hcomp, h.1, h.2.1, h8.1, by norm_num⟩

/-- C15. Ambiguous or incomplete temperature input is rejected: whatever the other
entries are, `updateTemperatureParameters` throws `ParameterMissing("dtau")` if `dtau`
is not specified and `ParameterMissing("s")` if `dtau` is specified and `s` is not (the
first test of the function); with `dtau` and `s` specified and positive it throws
`ParameterWrong` if both `beta` and `m` are specified and if neither is. -/
theorem updateTemperatureParameters_rejects_ambiguous {K : Type} [LinearOrderedField K]
    (da : DoubleArith K) (pars : ModelParams K) :
    ("dtau" ∉ pars.specified →
      updateTemperatureParameters da pars
        = Except.error (ParamFailure.ParameterMissing "dtau")) ∧
    ("dtau" ∈ pars.specified → "s" ∉ pars.specified →
      updateTemperatureParameters da pars = Except.error (ParamFailure.ParameterMissing "s")) ∧
    ("dtau" ∈ pars.specified → "s" ∈ pars.specified → 0 < pars.dtau → 0 < pars.s →
      "beta" ∈ pars.specified → "m" ∈ pars.specified →
      ∃ what, updateTemperatureParameters da pars
        = Except.error (ParamFailure.ParameterWrong what)) ∧
    ("dtau" ∈ pars.specified → "s" ∈ pars.specified → 0 < pars.dtau → 0 < pars.s →
      "beta" ∉ pars.specified → "m" ∉ pars.specified →
      updateTemperatureParameters da pars
        = Except.error (ParamFailure.ParameterWrong "Specify either parameter m or beta")) := by
  refine ⟨?_, ?_, ?_, ?_⟩
  · intro h
    unfold updateTemperatureParameters
    rw [if_pos h]
  · intro h1 h2
    unfold updateTemperatureParameters
    rw [if_neg (not_not.mpr h1), if_pos h2]
  · intro hdt hs hdpos hspos hb hm
    rcases updateTemperatureParameters_paths da pars with
      ⟨h1, -⟩ | ⟨-, h2, -⟩ | ⟨-, -, -, hw⟩ | ⟨-, -, -, -, h, -⟩ |
      ⟨-, -, -, -, -, h, -⟩ | ⟨-, -, -, -, h, -⟩
    · exact absurd hdt h1
    · exact absurd hs h2
    · exact hw
    · exact absurd hm h
    · exact absurd hb h
    · exact absurd hm h
  · intro hdt hs hdpos hspos hb hm
    rcases updateTemperatureParameters_paths da pars with
      ⟨h1, -⟩ | ⟨-, h2, -⟩ | ⟨-, -, h, -⟩ | ⟨-, -, -, -, -, -, hr⟩ |
      ⟨-, -, -, -, h, -⟩ | ⟨-, -, -, -, -, h, -⟩
    · exact absurd hdt h1
    · exact absurd hs h2
    · exfalso
      rcases h with h | h | h | h | h
      · exact hb h.1
      · exact hm h.1
      · omega
      · exact absurd hdpos (not_lt.mpr h)
      · exact hb h.1
    · exact hr
    · exact absurd h hm
    · exact absurd h hb

/-- Witness for C15: `beta = 1`, `m = 8`, `dtau = 1/8`, `s = 2`, all four specified. -/
theorem updateTemperatureParameters_rejects_ambiguous_witness :
    ∃ what, updateTemperatureParameters binary64
        (⟨1, 8, 1 / 8, 2, {"beta", "m", "dtau", "s"}⟩ : ModelParams ℚ)
      = Except.error (ParamFailure.ParameterWrong what) :=
  (updateTemperatureParameters_rejects_ambiguous binary64
    (⟨1, 8, 1 / 8, 2, {"beta", "m", "dtau", "s"}⟩ : ModelParams ℚ)).2.2.1
    (by decide) (by decide) (by norm_num) (by decide) (by decide) (by decide)

/-- C16 (counterexample): the record with `m = 100`, `dtau = 0.1` (the double nearest to
it) and `s = 10` specified (both `m` and `dtau`, as `setupParameters` of
`maindetsdw-checkerboard-compare.cpp` does for `beta = 10`) is accepted:
`updateTemperatureParameters` returns it with `beta = 10`, the double nearest to
`100 * dtau`. -/
theorem m_and_dtau_accepted :
    "m" ∈ ({"m", "dtau", "s"} : Finset String) ∧
    "dtau" ∈ ({"m", "dtau", "s"} : Finset String) ∧
    updateTemperatureParameters binary64
        (⟨0, 100, 3602879701896397 / 2 ^ 55, 10, {"m", "dtau", "s"}⟩ : ModelParams ℚ)
      = Except.ok ⟨10, 100, 3602879701896397 / 2 ^ 55, 10, {"m", "dtau", "s"}⟩ := by
  refine ⟨by decide, by decide, ?_⟩
  have hb : roundDouble (((100 : ℕ) : ℚ) * (3602879701896397 / 2 ^ 55)) = 10 := by
    rw [roundDouble_eq _ (-49) 5629499534213120 (by norm_num) (by norm_num [abs_of_pos])
      (by norm_num [abs_of_pos])
      (roundNearestEven_down _ _ (by norm_num) (by norm_num)) (by norm_num [abs_of_pos])]
    norm_num
  rcases updateTemperatureParameters_paths binary64
    (⟨0, 100, 3602879701896397 / 2 ^ 55, 10, {"m", "dtau", "s"}⟩ : ModelParams ℚ) with
    ⟨h, -⟩ | ⟨-, h, -⟩ | ⟨-, -, h, -⟩ | ⟨-, -, -, -, h, -⟩ | ⟨-, -, -, -, -, -, -, hr⟩ |
    ⟨-, -, -, -, h, -⟩
  · exact absurd (by decide) h
  · exact absurd (by decide) h
  · exfalso
    rcases h with h | h | h | h | h
    · exact absurd h.1 (by decide)
    · exact absurd h.2 (by decide)
    · norm_num at h
    · norm_num at h
    · exact absurd h.1 (by decide)
  · exact absurd (by decide) h
  · rw [hr]
    simp only [binary64, hb]
    rw [checkStabilization_pass _ (by decide) (by decide) (by decide)]
  · exact absurd (by decide) h

/-- C16 (amended). The number of time slices is given by `m` or by `beta`, never both,
and `dtau` is always required: a record in which both `m` and `beta` are specified is
rejected, a record without `dtau` is rejected, and a record in which `m`, `dtau` and `s`
are specified and `beta` is not, with `m > 0`, `dtau > 0`, `m mod s = 0` and
`m / s ≥ 2`, is accepted and returned with `beta = m * dtau`, the product of the type
`double`. -/
theorem updateTemperatureParameters_m_or_beta {K : Type} [LinearOrderedField K]
    (da : DoubleArith K) (pars : ModelParams K) :
    ("m" ∈ pars.specified → "beta" ∈ pars.specified →
      ∀ pars', updateTemperatureParameters da pars ≠ Except.ok pars') ∧
    ("dtau" ∉ pars.specified →
      ∀ pars', updateTemperatureParameters da pars ≠ Except.ok pars') ∧
    ("m" ∈ pars.specified → "dtau" ∈ pars.specified → "s" ∈ pars.specified →
      "beta" ∉ pars.specified → 0 < pars.m → 0 < pars.dtau → pars.m % pars.s = 0 →
      2 ≤ pars.m / pars.s →
      updateTemperatureParameters da pars
        = Except.ok { pars with beta := da.round ((pars.m : K) * pars.dtau) }) := by
  refine ⟨?_, ?_, ?_⟩
  · intro hm hb pars' h
    obtain ⟨-, -, -, -, hcase⟩ := updateTemperatureParameters_ok_inv da pars pars' h
    rcases hcase with ⟨-, hb', -⟩ | ⟨hm', -⟩
    · exact hb' hb
    · exact hm' hm
  · intro hd pars' h
    obtain ⟨hd', -⟩ := updateTemperatureParameters_ok_inv da pars pars' h
    exact hd hd'
  · intro hm hdt hs hb hmpos hdpos hmod hdiv
    have hspos : pars.s ≠ 0 := by
      intro h0
      rw [h0, Nat.div_zero] at hdiv
      omega
    rcases updateTemperatureParameters_paths da pars with
      ⟨h, -⟩ | ⟨-, h, -⟩ | ⟨-, -, h, -⟩ | ⟨-, -, -, -, h, -⟩ | ⟨-, -, -, -, -, -, -, hr⟩ |
      ⟨-, -, -, -, h, -⟩
    · exact absurd hdt h
    · exact absurd hs h
    · exfalso
      rcases h with h | h | h | h | h
      · exact hb h.1
      · omega
      · exact hspos h
      · exact absurd hdpos (not_lt.mpr h)
      · exact hb h.1
    · exact absurd hm h
    · rw [hr]
      exact checkStabilization_pass _ hspos hmod hdiv
    · exact absurd hm h

/-- Witness for the amended C16, in binary64 arithmetic: `m = 6`, `dtau = 0.125`,
`s = 3`. -/
theorem updateTemperatureParameters_m_or_beta_witness :
    updateTemperatureParameters binary64
        (⟨0, 6, 1 / 8, 3, {"m", "dtau", "s"}⟩ : ModelParams ℚ)
      = Except.ok { (⟨0, 6, 1 / 8, 3, {"m", "dtau", "s"}⟩ : ModelParams ℚ) with
          beta := roundDouble (((6 : ℕ) : ℚ) * (1 / 8)) } :=
  (updateTemperatureParameters_m_or_beta binary64
    (⟨0, 6, 1 / 8, 3, {"m", "dtau", "s"}⟩ : ModelParams ℚ)).2.2
    (by decide) (by decide) (by decide) (by decide) (by decide) (by norm_num) (by decide)
    (by decide)

/-! ## Global moves -/

/-- The loop over the sites of `updateCoshSinhTermsPhi()` for one slice `k`: the caches of
the sites `i < n` at the slice `k` are recomputed, all else is left as it is. -/
theorem foldl_updateCoshSinhTermsPhi_spec {K : Type} [Field K] (OPDIM : ℕ) (lm : Libm K)
    (pars : ModelParamsSDW K) (k : ℕ) (fc : FieldConfig K) (n : ℕ) :
    ((List.range n).foldl
        (fun fc site => updateCoshSinhTermsPhi OPDIM lm pars site k fc) fc).phi = fc.phi ∧
    ((List.range n).foldl
        (fun fc site => updateCoshSinhTermsPhi OPDIM lm pars site k fc) fc).cdwl = fc.cdwl ∧
    ((List.range n).foldl
        (fun fc site => updateCoshSinhTermsPhi OPDIM lm pars site k fc) fc).coshTermCDWl
      = fc.coshTermCDWl ∧
    ((List.range n).foldl
        (fun fc site => updateCoshSinhTermsPhi OPDIM lm pars site k fc) fc).sinhTermCDWl
      = fc.sinhTermCDWl ∧
    (∀ i t, ((List.range n).foldl
        (fun fc site => updateCoshSinhTermsPhi OPDIM lm pars site k fc) fc).coshTermPhi i t
      = if i < n ∧ t = k then (getCoshSinhTermPhi lm pars (getPhi OPDIM fc i k)).1
        else fc.coshTermPhi i t) ∧
    (∀ i t, ((List.range n).foldl
        (fun fc site => updateCoshSinhTermsPhi OPDIM lm pars site k fc) fc).sinhTermPhi i t
      = if i < n ∧ t = k then (getCoshSinhTermPhi lm pars (getPhi OPDIM fc i k)).2
        else fc.sinhTermPhi i t) := by
  induction n with
  | zero => simp
  | succ n ih =>
    rw [List.range_succ, List.foldl_append]
    simp only [List.foldl_cons, List.foldl_nil]
    generalize List.foldl (fun fc site => updateCoshSinhTermsPhi OPDIM lm pars site k fc) fc
      (List.range n) = a at ih ⊢
    obtain ⟨h1, h2, h3, h4, h5, h6⟩ := ih
    have hphi : getPhi OPDIM a n k = getPhi OPDIM fc n k := by
      unfold getPhi
      rw [h1]
    refine ⟨h1, h2, h3, h4, ?_, ?_⟩
    · intro i t
      simp only [updateCoshSinhTermsPhi, h5, hphi]
      by_cases hi : i = n ∧ t = k
      · rw [if_pos hi, if_pos ⟨by omega, hi.2⟩, hi.1]
      · rw [if_neg hi]
        by_cases hi2 : i < n ∧ t = k
        · rw [if_pos hi2, if_pos ⟨by omega, hi2.2⟩]
        · rw [if_neg hi2, if_neg]
          intro hc
          rcases Nat.lt_succ_iff_lt_or_eq.mp hc.1 with h | h
          · exact hi2 ⟨h, hc.2⟩
          · exact hi ⟨h, hc.2⟩
    · intro i t
      simp only [updateCoshSinhTermsPhi, h6, hphi]
      by_cases hi : i = n ∧ t = k
      · rw [if_pos hi, if_pos ⟨by omega, hi.2⟩, hi.1]
      · rw [if_neg hi]
        by_cases hi2 : i < n ∧ t = k
        · rw [if_pos hi2, if_pos ⟨by omega, hi2.2⟩]
        · rw [if_neg hi2, if_neg]
          intro hc
          rcases Nat.lt_succ_iff_lt_or_eq.mp hc.1 with h | h
          · exact hi2 ⟨h, hc.2⟩
          · exact hi ⟨h, hc.2⟩

/-- With enough fuel `updateCoshSinhTermsPhi()` returns: the caches of the sites `i < N`
at the slices `1, ..., m` are recomputed from the field, all else is left as it is. -/
theorem updateCoshSinhTermsPhiAll_spec {K : Type} [Field K] (o : OpDim) (N : ℕ)
    (lm : Libm K) (pars : ModelParamsSDW K) (fuel : ℕ) (fc : FieldConfig K)
    (hm32 : pars.m + 1 < 4294967296) (hfuel : pars.m < fuel) :
    ∃ fc2, updateCoshSinhTermsPhiAll o N lm pars fuel fc = some fc2 ∧
      fc2.phi = fc.phi ∧ fc2.cdwl = fc.cdwl ∧ fc2.coshTermCDWl = fc.coshTermCDWl ∧
      fc2.sinhTermCDWl = fc.sinhTermCDWl ∧
      (∀ i t, fc2.coshTermPhi i t
        = if i < N ∧ 1 ≤ t ∧ t ≤ pars.m then
            (getCoshSinhTermPhi lm pars (getPhi o.dim fc i t)).1
          else fc.coshTermPhi i t) ∧
      (∀ i t, fc2.sinhTermPhi i t
        = if i < N ∧ 1 ≤ t ∧ t ≤ pars.m then
            (getCoshSinhTermPhi lm pars (getPhi o.dim fc i t)).2
          else fc.sinhTermPhi i t) := by
  obtain ⟨a, ha, hP⟩ := forLoop_up_invariant
    (fun k fc =>
      some ((List.range N).foldl
        (fun fc site => updateCoshSinhTermsPhi o.dim lm pars site k fc) fc)) pars.m
    (fun k a => a.phi = fc.phi ∧ a.cdwl = fc.cdwl ∧ a.coshTermCDWl = fc.coshTermCDWl ∧
      a.sinhTermCDWl = fc.sinhTermCDWl ∧
      (∀ i t, a.coshTermPhi i t
        = if i < N ∧ 1 ≤ t ∧ t < k then
            (getCoshSinhTermPhi lm pars (getPhi o.dim fc i t)).1
          else fc.coshTermPhi i t) ∧
      (∀ i t, a.sinhTermPhi i t
        = if i < N ∧ 1 ≤ t ∧ t < k then
            (getCoshSinhTermPhi lm pars (getPhi o.dim fc i t)).2
          else fc.sinhTermPhi i t))
    hm32 pars.m 1 fuel fc (by omega) hfuel
    (by
      refine ⟨rfl, rfl, rfl, rfl, ?_, ?_⟩ <;>
      · intro i t
        rw [if_neg]
        omega)
    (by
      intro k a hk1 hkm hPa
      obtain ⟨p1, p2, p3, p4, p5, p6⟩ := hPa
      obtain ⟨h1, h2, h3, h4, h5, h6⟩ :=
        foldl_updateCoshSinhTermsPhi_spec o.dim lm pars k a N
      refine ⟨_, rfl, h1.trans p1, h2.trans p2, h3.trans p3, h4.trans p4, ?_, ?_⟩
      · intro i t
        rw [h5, p5]
        have hphi : getPhi o.dim a i k = getPhi o.dim fc i k := by
          unfold getPhi
          rw [p1]
        by_cases hc : i < N ∧ t = k
        · rw [if_pos hc, if_pos ⟨hc.1, by omega, by omega⟩, hphi, hc.2]
        · rw [if_neg hc]
          by_cases hc2 : i < N ∧ 1 ≤ t ∧ t < k
          · rw [if_pos hc2, if_pos ⟨hc2.1, hc2.2.1, by omega⟩]
          · rw [if_neg hc2, if_neg]
            intro hc3
            rcases Nat.lt_succ_iff_lt_or_eq.mp hc3.2.2 with h | h
            · exact hc2 ⟨hc3.1, hc3.2.1, h⟩
            · exact hc ⟨hc3.1, h⟩
      · intro i t
        rw [h6, p6]
        have hphi : getPhi o.dim a i k = getPhi o.dim fc i k := by
          unfold getPhi
          rw [p1]
        by_cases hc : i < N ∧ t = k
        · rw [if_pos hc, if_pos ⟨hc.1, by omega, by omega⟩, hphi, hc.2]
        · rw [if_neg hc]
          by_cases hc2 : i < N ∧ 1 ≤ t ∧ t < k
          · rw [if_pos hc2, if_pos ⟨hc2.1, hc2.2.1, by omega⟩]
          · rw [if_neg hc2, if_neg]
            intro hc3
            rcases Nat.lt_succ_iff_lt_or_eq.mp hc3.2.2 with h | h
            · exact hc2 ⟨hc3.1, hc3.2.1, h⟩
            · exact hc ⟨hc3.1, h⟩)
  obtain ⟨q1, q2, q3, q4, q5, q6⟩ := hP
  refine ⟨a, ha, q1, q2, q3, q4, ?_, ?_⟩
  · intro i t
    rw [q5]
    simp only [Nat.lt_succ_iff]
  · intro i t
    rw [q6]
    simp only [Nat.lt_succ_iff]

/-- A property of the field that every flip keeps is kept by the test of a bond. -/
theorem tryBond_preserves {K : Type} [LinearOrderedField K] {o : OpDim} {N : ℕ}
    (env : ClusterEnv o N K) (P : FieldConfig K → Prop)
    (hP : ∀ site t fc, P fc → P (flipPhi env site t fc)) (factor : K)
    (here : Fin N × ℕ) (st : ClusterState N K) (neigh : Fin N × ℕ) (h : P st.fc) :
    P (tryBond env factor here st neigh).fc := by
  unfold tryBond
  split
  · simp only
    split
    · split
      · exact hP _ _ _ h
      · exact h
    · exact h
  · exact h

theorem foldl_tryBond_preserves {K : Type} [LinearOrderedField K] {o : OpDim} {N : ℕ}
    (env : ClusterEnv o N K) (P : FieldConfig K → Prop)
    (hP : ∀ site t fc, P fc → P (flipPhi env site t fc)) (factor : K)
    (here : Fin N × ℕ) {α : Type} (f : α → Fin N × ℕ) (l : List α) (st : ClusterState N K)
    (h : P st.fc) :
    P (l.foldl (fun st x => tryBond env factor here st (f x)) st).fc := by
  induction l generalizing st with
  | nil => exact h
  | cons x l ih =>
    rw [List.foldl_cons]
    exact ih _ (tryBond_preserves env P hP factor here st (f x) h)

theorem clusterStep_preserves {K : Type} [LinearOrderedField K] {o : OpDim} {N : ℕ}
    (env : ClusterEnv o N K) (P : FieldConfig K → Prop)
    (hP : ∀ site t fc, P fc → P (flipPhi env site t fc)) (here : Fin N × ℕ)
    (st : ClusterState N K) (h : P st.fc) : P (clusterStep env here st).fc := by
  unfold clusterStep
  exact foldl_tryBond_preserves env P hP (2 / env.pars.dtau) here
    (fun neigh_time => (here.1, neigh_time)) _ _
    (foldl_tryBond_preserves env P hP (2 * env.pars.dtau) here
      (fun neigh_site => (neigh_site, here.2)) _ st h)

theorem clusterLoop_preserves {K : Type} [LinearOrderedField K] {o : OpDim} {N : ℕ}
    (env : ClusterEnv o N K) (P : FieldConfig K → Prop)
    (hP : ∀ site t fc, P fc → P (flipPhi env site t fc)) :
    ∀ (fuel : ℕ) (st st2 : ClusterState N K), clusterLoop env fuel st = some st2 →
      P st.fc → P st2.fc := by
  intro fuel
  induction fuel with
  | zero =>
    intro st st2 h _
    simp [clusterLoop] at h
  | succ fuel ih =>
    intro st st2 h hst
    unfold clusterLoop at h
    cases hs : st.next_sites with
    | nil =>
      rw [hs] at h
      simp at h
    | cons here rest =>
      rw [hs] at h
      simp only at h
      have h1 : P (clusterStep env here { st with next_sites := rest }).fc :=
        clusterStep_preserves env P hP here _ hst
      by_cases hemp : (clusterStep env here { st with next_sites := rest }).next_sites.isEmpty
      · rw [if_pos hemp] at h
        rw [← Option.some.inj h]
        exact h1
      · rw [if_neg hemp] at h
        exact ih _ _ h h1

/-- A property of the field that every flip keeps is kept by `buildAndFlipCluster`. -/
theorem buildAndFlipCluster_preserves {K : Type} [LinearOrderedField K] {o : OpDim}
    {N : ℕ} (env : ClusterEnv o N K) (P : FieldConfig K → Prop)
    (hP : ∀ site t fc, P fc → P (flipPhi env site t fc)) (fc : FieldConfig K) (fuel : ℕ)
    (r : ℕ × FieldConfig K) (h : buildAndFlipCluster env fc fuel = some r) (hfc : P fc) :
    P r.2 := by
  unfold buildAndFlipCluster at h
  obtain ⟨st2, h1, h2⟩ := Option.map_eq_some'.mp h
  rw [← h2]
  exact clusterLoop_preserves env P hP fuel _ st2 h1 (hP _ _ _ hfc)

/-- With a unit direction, a seed in the slices `1, ..., m` and fuel `N * m`,
`buildAndFlipCluster` returns. -/
theorem buildAndFlipCluster_returns {K : Type} [LinearOrderedField K] {o : OpDim}
    {N : ℕ} (env : ClusterEnv o N K) (fc : FieldConfig K) (fuel : ℕ)
    (hrd : dot env.rd env.rd = 1) (hlat : LatticePeriodic env.lat env.pars.m)
    (hs1 : 1 ≤ env.seedSlice) (hsm : env.seedSlice ≤ env.pars.m)
    (hfuel : N * env.pars.m ≤ fuel) :
    ∃ r, buildAndFlipCluster env fc fuel = some r := by
  have hseed : (env.seedSite, env.seedSlice) ∈ clusterDomain N env.pars.m := by
    simp [clusterDomain, hs1, hsm]
  have hpos : 1 ≤ N * env.pars.m :=
    Nat.mul_pos (Nat.lt_of_le_of_lt (Nat.zero_le _) env.seedSite.isLt) (by omega)
  obtain ⟨st2, hloop, _⟩ := clusterLoop_spec env hrd hlat fc fuel
    { fc := flipPhi env env.seedSite.val env.seedSlice fc,
      visited := {(env.seedSite, env.seedSlice)},
      next_sites := [(env.seedSite, env.seedSlice)],
      draws := 0,
      cluster_size := 1 }
    ⟨fun i t => norm_flipPhi env hrd _ _ fc i t,
      Finset.singleton_subset_iff.mpr hseed,
      fun p hp => by
        rcases List.mem_cons.mp hp with rfl | hp
        · exact hseed
        · cases hp⟩
    (by simp)
    (by
      simp only [clusterMeasure, List.length_singleton, Finset.card_singleton]
      omega)
  refine ⟨(st2.cluster_size, st2.fc), ?_⟩
  unfold buildAndFlipCluster
  rw [hloop]
  rfl

/-- The loop over the cluster flips of a global move returns, and a property of the
field that every flip keeps is kept by the loop. -/
theorem flipClusters_spec {K : Type} [LinearOrderedField K] {o : OpDim} {N : ℕ} {U : Type}
    (env : GlobalEnv o N K U) (updateCoshSinh : Bool) (fuel : ℕ) (fc : FieldConfig K)
    (P : FieldConfig K → Prop)
    (hP : ∀ c site t fc, P fc → P (flipPhi (env.clusterEnv c updateCoshSinh) site t fc))
    (hlat : LatticePeriodic env.lat env.pars.m) (hfuel : N * env.pars.m ≤ fuel)
    (hrd : ∀ c, c < env.repeatWolffPerSweep → dot (env.rd c) (env.rd c) = 1)
    (hseed : ∀ c, c < env.repeatWolffPerSweep →
      1 ≤ env.seedSlice c ∧ env.seedSlice c ≤ env.pars.m)
    (hfc : P fc) :
    ∃ r, flipClusters env updateCoshSinh fuel fc = some r ∧ P r.2 := by
  unfold flipClusters
  generalize env.repeatWolffPerSweep = n at hrd hseed
  induction n with
  | zero => exact ⟨_, rfl, hfc⟩
  | succ n ih =>
    obtain ⟨r, hr, hPr⟩ := ih (fun c hc => hrd c (by omega)) (fun c hc => hseed c (by omega))
    obtain ⟨r2, hr2⟩ := buildAndFlipCluster_returns (env.clusterEnv n updateCoshSinh) r.2 fuel
      (hrd n (by omega)) hlat (hseed n (by omega)).1 (hseed n (by omega)).2 hfuel
    refine ⟨(r.1 ++ [r2.1], r2.2), ?_, ?_⟩
    · rw [List.range_succ, List.foldlM_append, hr]
      simp [hr2]
    · exact buildAndFlipCluster_preserves (env.clusterEnv n updateCoshSinh) P
        (hP n) r.2 fuel r2 hr2 hPr

/-- The sum of the terms of the action reads the field vectors only. -/
theorem actionSum_congr_phi {K : Type} [Field K] (o : OpDim) {N : ℕ} (lat : Lattice N)
    (pars : ModelParamsSDW K) (fc fc2 : FieldConfig K) (h : fc2.phi = fc.phi) :
    actionSum o lat pars fc2 = actionSum o lat pars fc := by
  unfold actionSum actionTerm getPhi
  rw [h]

/-- A rejected move whose backups are in place ends in the state before the move. -/
theorem restore_of_backedUp {o : OpDim} {N : ℕ} {K U : Type} (pars : ModelParamsSDW K)
    (st mid : GlobalState o N K U) (h : BackedUp pars st mid) :
    (globalMoveRestoreBackups pars mid).fc = st.fc ∧
    (globalMoveRestoreBackups pars mid).g = st.g ∧
    (globalMoveRestoreBackups pars mid).g_inv_sv = st.g_inv_sv ∧
    (globalMoveRestoreBackups pars mid).UdVStorage = st.UdVStorage ∧
    (globalMoveRestoreBackups pars mid).currentTimeslice = st.currentTimeslice ∧
    (globalMoveRestoreBackups pars mid).lastSweepDir
      = (if pars.turnoffFermions then st.lastSweepDir else SweepDirection.Up) ∧
    (globalMoveRestoreBackups pars mid).us = mid.us := by
  obtain ⟨h1, h2, h3, h4, h5, h6⟩ := h
  unfold globalMoveRestoreBackups
  by_cases hf : pars.turnoffFermions = true
  · rw [if_pos hf] at h6
    obtain ⟨k1, k2, k3, k4, k5, k6⟩ := h6
    simp only [hf, not_true_eq_false, if_false, if_true]
    refine ⟨?_, k3, k4, k5, h5, k6, trivial⟩
    cases hst : st.fc
    cases hmid : mid.fc
    simp only [hst, hmid] at h1 h2 h3 h4 k1 k2
    simp only [h1, h2, h3, h4, k1, k2]
  · rw [if_neg hf] at h6
    obtain ⟨k1, k2, k3, k4, k5, k6⟩ := h6
    simp only [hf, not_false_eq_true, if_true, if_false, Bool.false_eq_true]
    refine ⟨?_, k3, k4, k5, h5, k6, trivial⟩
    cases hst : st.fc
    cases hmid : mid.fc
    simp only [hst, hmid] at h1 h2 h3 h4 k1 k2
    simp only [h1, h2, h3, h4, k1, k2]

/-- `attemptGlobalShiftMove` returns (with fermions from the slice `m`, with enough
fuel): the state `mid` and the probability `prob` of the acceptance test are those of
the displaced field, the backups are in place, and the result is `mid` with the move
counted as accepted or the restored state. -/
theorem attemptGlobalShiftMove_spec {K : Type} [LinearOrderedField K] {o : OpDim} {N : ℕ}
    {U : Type} (env : GlobalEnv o N K U) (fuel : ℕ) (st : GlobalState o N K U)
    (hlat : LatticePeriodic env.lat env.pars.m) (hm32 : env.pars.m + 1 < 4294967296)
    (hfuel : env.pars.m < fuel)
    (hts : env.pars.turnoffFermions = false → st.currentTimeslice = env.pars.m) :
    ∃ (mid : GlobalState o N K U) (prob : K),
      attemptGlobalShiftMove env fuel st
        = some (if 1 ≤ prob ∨ env.rand01 < prob then
            { mid with us := { mid.us with
                acceptedGlobalShifts := mid.us.acceptedGlobalShifts + 1 } }
          else globalMoveRestoreBackups env.pars mid) ∧
      BackedUp env.pars st mid ∧
      mid.us = { st.us with attemptedGlobalShifts := st.us.attemptedGlobalShifts + 1 } ∧
      mid.fc.phi = (addGlobalRandomDisplacement o N env.pars.m env.randRange st.fc).phi ∧
      (env.pars.turnoffFermions = false →
        PhiCachesConsistent o N env.lm env.pars mid.fc ∧
        mid.g_inv_sv = (env.setupGreen mid.fc).2.1) ∧
      prob = env.lm.exp (-(actionSum o env.lat env.pars mid.fc
                - actionSum o env.lat env.pars st.fc))
          * (if env.pars.turnoffFermions then 1
              else fermionProbability o N env.lm env.log mid.g_inv_sv st.g_inv_sv) := by
  have ha := phiAction_eq o env.lat env.pars st.fc fuel hlat hm32 hfuel
  by_cases hf : env.pars.turnoffFermions = true
  · refine ⟨{ st with
        fc := addGlobalRandomDisplacement o N env.pars.m env.randRange st.fc,
        gmd := { st.gmd with phi := st.fc.phi },
        us := { st.us with attemptedGlobalShifts := st.us.attemptedGlobalShifts + 1 } },
      _, ?_, ?_, rfl, rfl, ?_, rfl⟩
    · unfold attemptGlobalShiftMove
      simp only [ha, hf, Option.bind_eq_bind, Option.some_bind, not_true_eq_false,
        false_and, if_false, if_true, globalMoveStoreBackups, Option.pure_def,
        phiAction_eq o env.lat env.pars _ fuel hlat hm32 hfuel, mul_one]
      split_ifs <;> rfl
    · simp [BackedUp, hf, addGlobalRandomDisplacement]
    · intro h
      rw [h] at hf
      cases hf
  · have hf2 : env.pars.turnoffFermions = false := by
      simpa using hf
    obtain ⟨fc2, hfc2, p1, p2, p3, p4, p5, p6⟩ := updateCoshSinhTermsPhiAll_spec o N env.lm
      env.pars fuel (addGlobalRandomDisplacement o N env.pars.m env.randRange st.fc)
      hm32 hfuel
    refine ⟨
      { fc := fc2,
        g := (env.setupGreen fc2).1,
        g_inv_sv := (env.setupGreen fc2).2.1,
        UdVStorage := (env.setupGreen fc2).2.2,
        currentTimeslice := env.pars.m,
        lastSweepDir := SweepDirection.Up,
        gmd :=
          { phi := st.fc.phi, coshTermPhi := st.fc.coshTermPhi,
            sinhTermPhi := st.fc.sinhTermPhi, g := st.g, g_inv_sv := st.g_inv_sv,
            UdVStorage := st.UdVStorage },
        us := { st.us with attemptedGlobalShifts := st.us.attemptedGlobalShifts + 1 } },
      _, ?_, ?_, rfl, p1, ?_, rfl⟩
    · unfold attemptGlobalShiftMove
      simp only [ha, hf2, hts hf2, Option.bind_eq_bind, Option.some_bind,
        Bool.false_eq_true, not_false_eq_true, ne_eq, not_true_eq_false, and_false,
        true_and, if_false, if_true, globalMoveStoreBackups, Option.pure_def, hfc2,
        Option.map_some', DetSDW.setupUdVStorage_and_calculateGreen,
        phiAction_eq o env.lat env.pars _ fuel hlat hm32 hfuel]
      split_ifs <;> rfl
    · simp [BackedUp, hf2, p2, p3, p4, addGlobalRandomDisplacement, hts hf2]
    · intro _
      refine ⟨?_, rfl⟩
      intro i k hi hk1 hkm
      have hphi : getPhi o.dim fc2 i k = getPhi o.dim
          (addGlobalRandomDisplacement o N env.pars.m env.randRange st.fc) i k := by
        unfold getPhi
        rw [p1]
      simp only [p5, p6, hphi]
      rw [if_pos ⟨hi, hk1, hkm⟩, if_pos ⟨hi, hk1, hkm⟩]
      exact ⟨rfl, rfl⟩

/-- A flip leaves the discrete field and its caches as they are. -/
theorem flipPhi_frame {K : Type} [Field K] {o : OpDim} {N : ℕ} (env : ClusterEnv o N K)
    (site t : ℕ) (fc : FieldConfig K) :
    (flipPhi env site t fc).cdwl = fc.cdwl ∧
    (flipPhi env site t fc).coshTermCDWl = fc.coshTermCDWl ∧
    (flipPhi env site t fc).sinhTermCDWl = fc.sinhTermCDWl := by
  unfold flipPhi
  simp only
  split <;> exact ⟨rfl, rfl, rfl⟩

/-- Without `updateCoshSinh` a flip leaves the caches of the field vectors as they are. -/
theorem flipPhi_frame_caches {K : Type} [Field K] {o : OpDim} {N : ℕ}
    (env : ClusterEnv o N K) (h : env.updateCoshSinh = false) (site t : ℕ)
    (fc : FieldConfig K) :
    (flipPhi env site t fc).coshTermPhi = fc.coshTermPhi ∧
    (flipPhi env site t fc).sinhTermPhi = fc.sinhTermPhi := by
  unfold flipPhi
  simp only [h, Bool.false_eq_true, if_false]
  exact ⟨rfl, rfl⟩

/-- `attemptWolffClusterUpdate` returns (with fermions from the slice `m`, with unit
directions, seeds in the slices `1, ..., m` and enough fuel): the state `mid` of the
acceptance test holds the field after the cluster flips, with fermions the backups are
in place, without fermions the probability is one, and the result is `mid` with the move
counted as accepted or the restored state.  A property `P` of the field that every flip
keeps holds for `mid` if it holds before the move. -/
theorem attemptWolffClusterUpdate_spec {K : Type} [LinearOrderedField K] {o : OpDim}
    {N : ℕ} {U : Type} (env : GlobalEnv o N K U) (fuel : ℕ) (st : GlobalState o N K U)
    (P : FieldConfig K → Prop)
    (hP : ∀ c site t fc, P fc → P (flipPhi (env.clusterEnv c true) site t fc))
    (hlat : LatticePeriodic env.lat env.pars.m) (hcfuel : N * env.pars.m ≤ fuel)
    (hrd : ∀ c, c < env.repeatWolffPerSweep → dot (env.rd c) (env.rd c) = 1)
    (hseed : ∀ c, c < env.repeatWolffPerSweep →
      1 ≤ env.seedSlice c ∧ env.seedSlice c ≤ env.pars.m)
    (hts : env.pars.turnoffFermions = false → st.currentTimeslice = env.pars.m)
    (hPst : P st.fc) :
    ∃ (mid : GlobalState o N K U) (prob : K) (sizes : List ℕ),
      flipClusters env true fuel st.fc = some (sizes, mid.fc) ∧
      attemptWolffClusterUpdate env fuel st
        = some (if 1 ≤ prob ∨ env.rand01 < prob then
            { mid with us := { mid.us with
                acceptedWolffClusterUpdates := mid.us.acceptedWolffClusterUpdates + 1,
                addedWolffClusterSize := sizes.foldl
                  (fun acc cluster_size => acc + (cluster_size : K))
                  mid.us.addedWolffClusterSize } }
          else globalMoveRestoreBackups env.pars mid) ∧
      (env.pars.turnoffFermions = false → BackedUp env.pars st mid) ∧
      mid.us = { st.us with
        attemptedWolffClusterUpdates := st.us.attemptedWolffClusterUpdates + 1 } ∧
      P mid.fc ∧
      (env.pars.turnoffFermions = false → mid.g_inv_sv = (env.setupGreen mid.fc).2.1) ∧
      prob = (if env.pars.turnoffFermions then 1
              else fermionProbability o N env.lm env.log mid.g_inv_sv st.g_inv_sv) := by
  obtain ⟨r, hr, ⟨q1, q2, q3⟩, hPr⟩ := flipClusters_spec env true fuel st.fc
    (fun fc => (fc.cdwl = st.fc.cdwl ∧ fc.coshTermCDWl = st.fc.coshTermCDWl ∧
      fc.sinhTermCDWl = st.fc.sinhTermCDWl) ∧ P fc)
    (fun c site t fc h => by
      obtain ⟨f1, f2, f3⟩ := flipPhi_frame (env.clusterEnv c true) site t fc
      exact ⟨⟨f1.trans h.1.1, f2.trans h.1.2.1, f3.trans h.1.2.2⟩, hP c site t fc h.2⟩)
    hlat hcfuel hrd hseed ⟨⟨rfl, rfl, rfl⟩, hPst⟩
  obtain ⟨sizes, flipped⟩ := r
  simp only at q1 q2 q3 hPr
  by_cases hf : env.pars.turnoffFermions = true
  · refine ⟨{ st with
        fc := flipped,
        gmd := { st.gmd with phi := st.fc.phi },
        us := { st.us with
          attemptedWolffClusterUpdates := st.us.attemptedWolffClusterUpdates + 1 } },
      1, sizes, hr, ?_, ?_, rfl, hPr, ?_, ?_⟩
    · unfold attemptWolffClusterUpdate
      simp only [hf, Option.bind_eq_bind, Option.some_bind, not_true_eq_false,
        false_and, if_false, if_true, globalMoveStoreBackups, Option.pure_def, hr,
        le_refl, true_or]
    · intro h
      rw [h] at hf
      cases hf
    · intro h
      rw [h] at hf
      cases hf
    · rw [if_pos hf]
  · have hf2 : env.pars.turnoffFermions = false := by
      simpa using hf
    refine ⟨
      { fc := flipped,
        g := (env.setupGreen flipped).1,
        g_inv_sv := (env.setupGreen flipped).2.1,
        UdVStorage := (env.setupGreen flipped).2.2,
        currentTimeslice := env.pars.m,
        lastSweepDir := SweepDirection.Up,
        gmd :=
          { phi := st.fc.phi, coshTermPhi := st.fc.coshTermPhi,
            sinhTermPhi := st.fc.sinhTermPhi, g := st.g, g_inv_sv := st.g_inv_sv,
            UdVStorage := st.UdVStorage },
        us := { st.us with
          attemptedWolffClusterUpdates := st.us.attemptedWolffClusterUpdates + 1 } },
      fermionProbability o N env.lm env.log (env.setupGreen flipped).2.1 st.g_inv_sv,
      sizes, hr, ?_, ?_, rfl, hPr, fun _ => rfl, ?_⟩
    · unfold attemptWolffClusterUpdate
      simp only [hf2, hts hf2, Option.bind_eq_bind, Option.some_bind,
        Bool.false_eq_true, not_false_eq_true, ne_eq, not_true_eq_false, and_false,
        if_false, if_true, globalMoveStoreBackups, Option.pure_def, hr,
        DetSDW.setupUdVStorage_and_calculateGreen]
      split_ifs <;> rfl
    · intro _
      simp [BackedUp, hf2, q1, q2, q3, hts hf2]
    · rw [if_neg hf]

/-- `attemptWolffClusterShiftUpdate` returns (with fermions from the slice `m`, with unit
directions, seeds in the slices `1, ..., m` and enough fuel): `flipped` is the field
after the cluster flips, the state `mid` of the acceptance test holds the displaced
field; with fermions the backups of the state before the move are in place, without
fermions the backups of the state after the cluster flips; the result is `mid` with the
move counted as accepted or the restored state. -/
theorem attemptWolffClusterShiftUpdate_spec {K : Type} [LinearOrderedField K] {o : OpDim}
    {N : ℕ} {U : Type} (env : GlobalEnv o N K U) (fuel : ℕ) (st : GlobalState o N K U)
    (hlat : LatticePeriodic env.lat env.pars.m) (hm32 : env.pars.m + 1 < 4294967296)
    (hfuel : env.pars.m < fuel) (hcfuel : N * env.pars.m ≤ fuel)
    (hrd : ∀ c, c < env.repeatWolffPerSweep → dot (env.rd c) (env.rd c) = 1)
    (hseed : ∀ c, c < env.repeatWolffPerSweep →
      1 ≤ env.seedSlice c ∧ env.seedSlice c ≤ env.pars.m)
    (hts : env.pars.turnoffFermions = false → st.currentTimeslice = env.pars.m) :
    ∃ (mid : GlobalState o N K U) (prob : K) (sizes : List ℕ) (flipped : FieldConfig K),
      flipClusters env false fuel st.fc = some (sizes, flipped) ∧
      attemptWolffClusterShiftUpdate env fuel st
        = some (if 1 ≤ prob ∨ env.rand01 < prob then
            { mid with us := { mid.us with
                acceptedWolffClusterShiftUpdates
                  := mid.us.acceptedWolffClusterShiftUpdates + 1,
                addedWolffClusterSize := sizes.foldl
                  (fun acc cluster_size => acc + (cluster_size : K))
                  mid.us.addedWolffClusterSize } }
          else globalMoveRestoreBackups env.pars mid) ∧
      BackedUp env.pars (if env.pars.turnoffFermions then { st with fc := flipped } else st)
        mid ∧
      mid.us = { st.us with
        attemptedWolffClusterShiftUpdates := st.us.attemptedWolffClusterShiftUpdates + 1 } ∧
      mid.fc.phi = (addGlobalRandomDisplacement o N env.pars.m env.randRange flipped).phi ∧
      (env.pars.turnoffFermions = false →
        PhiCachesConsistent o N env.lm env.pars mid.fc ∧
        mid.g_inv_sv = (env.setupGreen mid.fc).2.1) ∧
      prob = env.lm.exp (-(actionSum o env.lat env.pars mid.fc
                - actionSum o env.lat env.pars flipped))
          * (if env.pars.turnoffFermions then 1
              else fermionProbability o N env.lm env.log mid.g_inv_sv st.g_inv_sv) := by
  obtain ⟨r, hr, ⟨q1, q2, q3, q4, q5⟩⟩ := flipClusters_spec env false fuel st.fc
    (fun fc => fc.cdwl = st.fc.cdwl ∧ fc.coshTermCDWl = st.fc.coshTermCDWl ∧
      fc.sinhTermCDWl = st.fc.sinhTermCDWl ∧ fc.coshTermPhi = st.fc.coshTermPhi ∧
      fc.sinhTermPhi = st.fc.sinhTermPhi)
    (fun c site t fc h => by
      obtain ⟨f1, f2, f3⟩ := flipPhi_frame (env.clusterEnv c false) site t fc
      obtain ⟨f4, f5⟩ := flipPhi_frame_caches (env.clusterEnv c false) rfl site t fc
      exact ⟨f1.trans h.1, f2.trans h.2.1, f3.trans h.2.2.1, f4.trans h.2.2.2.1,
        f5.trans h.2.2.2.2⟩)
    hlat hcfuel hrd hseed ⟨rfl, rfl, rfl, rfl, rfl⟩
  obtain ⟨sizes, flipped⟩ := r
  simp only at q1 q2 q3 q4 q5
  by_cases hf : env.pars.turnoffFermions = true
  · refine ⟨{ st with
        fc := addGlobalRandomDisplacement o N env.pars.m env.randRange flipped,
        gmd := { st.gmd with phi := flipped.phi },
        us := { st.us with
          attemptedWolffClusterShiftUpdates
            := st.us.attemptedWolffClusterShiftUpdates + 1 } },
      _, sizes, flipped, hr, ?_, ?_, rfl, rfl, ?_, rfl⟩
    · unfold attemptWolffClusterShiftUpdate
      simp only [hf, Option.bind_eq_bind, Option.some_bind, not_true_eq_false,
        false_and, if_false, if_true, globalMoveStoreBackups, Option.pure_def, hr,
        phiAction_eq o env.lat env.pars _ fuel hlat hm32 hfuel, mul_one]
      split_ifs <;> rfl
    · simp [BackedUp, hf, addGlobalRandomDisplacement]
    · intro h
      rw [h] at hf
      cases hf
  · have hf2 : env.pars.turnoffFermions = false := by
      simpa using hf
    obtain ⟨fc2, hfc2, p1, p2, p3, p4, p5, p6⟩ := updateCoshSinhTermsPhiAll_spec o N env.lm
      env.pars fuel (addGlobalRandomDisplacement o N env.pars.m env.randRange flipped)
      hm32 hfuel
    refine ⟨
      { fc := fc2,
        g := (env.setupGreen fc2).1,
        g_inv_sv := (env.setupGreen fc2).2.1,
        UdVStorage := (env.setupGreen fc2).2.2,
        currentTimeslice := env.pars.m,
        lastSweepDir := SweepDirection.Up,
        gmd :=
          { phi := st.fc.phi, coshTermPhi := st.fc.coshTermPhi,
            sinhTermPhi := st.fc.sinhTermPhi, g := st.g, g_inv_sv := st.g_inv_sv,
            UdVStorage := st.UdVStorage },
        us := { st.us with
          attemptedWolffClusterShiftUpdates
            := st.us.attemptedWolffClusterShiftUpdates + 1 } },
      env.lm.exp (-(actionSum o env.lat env.pars fc2 - actionSum o env.lat env.pars flipped))
        * fermionProbability o N env.lm env.log (env.setupGreen fc2).2.1 st.g_inv_sv,
      sizes, flipped, hr, ?_, ?_, rfl, p1, ?_, ?_⟩
    · rw [actionSum_congr_phi o env.lat env.pars
        (addGlobalRandomDisplacement o N env.pars.m env.randRange flipped) fc2 p1]
      unfold attemptWolffClusterShiftUpdate
      simp only [hf2, hts hf2, Option.bind_eq_bind, Option.some_bind,
        Bool.false_eq_true, not_false_eq_true, ne_eq, not_true_eq_false, and_false,
        if_false, if_true, globalMoveStoreBackups, Option.pure_def, hr, hfc2,
        Option.map_some', DetSDW.setupUdVStorage_and_calculateGreen,
        phiAction_eq o env.lat env.pars _ fuel hlat hm32 hfuel]
      split_ifs <;> rfl
    · simp [BackedUp, hf2, p2, p3, p4, q1, q2, q3, addGlobalRandomDisplacement, hts hf2]
    · intro _
      refine ⟨?_, rfl⟩
      intro i k hi hk1 hkm
      have hphi : getPhi o.dim fc2 i k = getPhi o.dim
          (addGlobalRandomDisplacement o N env.pars.m env.randRange flipped) i k := by
        unfold getPhi
        rw [p1]
      simp only [p5, p6, hphi]
      rw [if_pos ⟨hi, hk1, hkm⟩, if_pos ⟨hi, hk1, hkm⟩]
      exact ⟨rfl, rfl⟩
    · simp only [hf2, Bool.false_eq_true, if_false]

/-- On the example the global shift is rejected: the singular values drop from `5/8` to
`3/8`, so the probability is at most `1/4`, below the number `1/2` drawn. -/
theorem example_shift_rejected (st2 : GlobalState OpDim.one 4 ℚ Unit)
    (h : attemptGlobalShiftMove rejectingEnv 8 exampleGlobalState = some st2) :
    st2.us.acceptedGlobalShifts = 0 := by
  obtain ⟨mid, prob, h1, _, h3, h4, h5, h6⟩ := attemptGlobalShiftMove_spec rejectingEnv 8
    exampleGlobalState squareLattice_two_periodic (by decide) (by decide) (fun _ => rfl)
  obtain ⟨_, hsv⟩ := h5 rfl
  have hphi : mid.fc.phi 0 0 1 = -1 := by
    rw [h4]
    simp [addGlobalRandomDisplacement, rejectingEnv, exampleGlobalState, onesField,
      fourSiteParams, oneSiteParams]
    norm_num
  have hferm : fermionProbability OpDim.one 4 rejectingEnv.lm rejectingEnv.log mid.g_inv_sv
      exampleGlobalState.g_inv_sv = 1 / 4 := by
    have hr8 : List.range 8 = [0, 1, 2, 3, 4, 5, 6, 7] := by
      decide
    rw [hsv]
    simp [fermionProbability, rejectingEnv, exampleGlobalState, hphi, umul, stepLibm]
    norm_num [hr8]
  have hprob : prob ≤ 1 / 4 ∧ 0 ≤ prob := by
    rw [h6, hferm]
    simp only [rejectingEnv, stepLibm, fourSiteParams, oneSiteParams, Bool.false_eq_true,
      if_false]
    split_ifs <;> norm_num
  rw [h1] at h
  have hrej : ¬ (1 ≤ prob ∨ rejectingEnv.rand01 < prob) := by
    have hr : rejectingEnv.rand01 = 1 / 2 := rfl
    rw [hr]
    intro hc
    rcases hc with hc | hc <;> linarith [hprob.1]
  rw [if_neg hrej] at h
  rw [← Option.some.inj h]
  rw [(restore_of_backedUp _ _ _ (by assumption)).2.2.2.2.2.2, h3]
  rfl

/-- On the example the loop over the cluster flips flips the seed `(0, 1)` alone. -/
theorem example_flipClusters (updateCoshSinh : Bool) (env : GlobalEnv OpDim.one 4 ℚ Unit)
    (fc : FieldConfig ℚ) (h1 : env.repeatWolffPerSweep = 1)
    (h2 : ∀ c n, env.activate c n = false) :
    flipClusters env updateCoshSinh 8 fc
      = some ([1], flipPhi (env.clusterEnv 0 updateCoshSinh) (env.seedSite 0).val
          (env.seedSlice 0) fc) := by
  unfold flipClusters
  rw [h1]
  have hr1 : List.range 1 = [0] := by
    decide
  rw [hr1]
  simp only [List.foldlM_cons, List.foldlM_nil, Option.bind_eq_bind]
  rw [buildAndFlipCluster_no_activation (env.clusterEnv 0 updateCoshSinh) (fun n => h2 0 n)
    fc 8 (by decide)]
  rfl

/-- On the example the Wolff cluster update is rejected: the flip of the seed lowers the
singular values from `5/8` to `3/8`, so the probability is `1/4`, below the number `1/2`
drawn. -/
theorem example_wolff_rejected (st2 : GlobalState OpDim.one 4 ℚ Unit)
    (h : attemptWolffClusterUpdate rejectingEnv 8 exampleGlobalState = some st2) :
    st2.us.acceptedWolffClusterUpdates = 0 := by
  obtain ⟨mid, prob, sizes, h0, h1, h2, h3, _, h5, h6⟩ := attemptWolffClusterUpdate_spec
    rejectingEnv 8 exampleGlobalState (fun _ => True) (fun _ _ _ _ _ => trivial)
    squareLattice_two_periodic (by decide) (fun _ _ => by simp [dot, rejectingEnv])
    (fun _ _ => by simp [rejectingEnv, fourSiteParams]) (fun _ => rfl) trivial
  rw [example_flipClusters true rejectingEnv exampleGlobalState.fc rfl
    (fun _ _ => rfl)] at h0
  have hfc := (Prod.mk.inj (Option.some.inj h0)).2
  have hphi : mid.fc.phi 0 0 1 = -1 := by
    rw [← hfc]
    simp [flipPhi, setPhi, flippedPhi, updateCoshSinhTermsPhi, getPhi, dot, rejectingEnv,
      GlobalEnv.clusterEnv, exampleGlobalState, onesField]
    norm_num
  have hprob : prob = 1 / 4 := by
    have hr8 : List.range 8 = [0, 1, 2, 3, 4, 5, 6, 7] := by
      decide
    rw [h6, h5 rfl]
    simp [fermionProbability, rejectingEnv, exampleGlobalState, hphi, umul, stepLibm,
      fourSiteParams, oneSiteParams]
    norm_num [hr8]
  rw [h1] at h
  have hrej : ¬ (1 ≤ prob ∨ rejectingEnv.rand01 < prob) := by
    have hr : rejectingEnv.rand01 = 1 / 2 := rfl
    rw [hr, hprob]
    norm_num
  rw [if_neg hrej] at h
  rw [← Option.some.inj h]
  rw [(restore_of_backedUp _ _ _ (h2 rfl)).2.2.2.2.2.2, h3]
  rfl

/-! ## C17: a rejected global move restores the state before the move -/

/-- C17. Rejected global move restores the snapshot: `attemptGlobalShiftMove` and
`attemptWolffClusterUpdate` return (with fermions they are called on the slice `m`, the
directions drawn for the clusters are unit vectors, the seeds lie in the slices
`1, ..., m`, the fuel is enough), the counter of accepted moves is raised by one or left
as it is, and if it is left as it is (the move ends in rejection) then the field with
its caches (`phi`, `cdwl`, `coshTermPhi`, `sinhTermPhi`, `coshTermCDWl`,
`sinhTermCDWl`), the Green function `g`, the singular values `g_inv_sv`, the UdV storage
and `currentTimeslice` are equal to their values before the attempt, and of the
statistics only the counter of attempted moves has changed.  (`lastSweepDir` is `Up`
after an attempt with fermions, as it is whenever `globalMove` is called.) -/
theorem rejected_global_move_restores {K : Type} [LinearOrderedField K] {o : OpDim}
    {N : ℕ} {U : Type} (env : GlobalEnv o N K U) (fuel : ℕ) (st : GlobalState o N K U)
    (hlat : LatticePeriodic env.lat env.pars.m) (hm32 : env.pars.m + 1 < 4294967296)
    (hfuel : env.pars.m < fuel) (hcfuel : N * env.pars.m ≤ fuel)
    (hrd : ∀ c, c < env.repeatWolffPerSweep → dot (env.rd c) (env.rd c) = 1)
    (hseed : ∀ c, c < env.repeatWolffPerSweep →
      1 ≤ env.seedSlice c ∧ env.seedSlice c ≤ env.pars.m)
    (hts : env.pars.turnoffFermions = false → st.currentTimeslice = env.pars.m) :
    (∃ st2, attemptGlobalShiftMove env fuel st = some st2 ∧
      (st2.us.acceptedGlobalShifts = st.us.acceptedGlobalShifts ∨
        st2.us.acceptedGlobalShifts = st.us.acceptedGlobalShifts + 1) ∧
      (st2.us.acceptedGlobalShifts = st.us.acceptedGlobalShifts →
        st2.fc = st.fc ∧ st2.g = st.g ∧ st2.g_inv_sv = st.g_inv_sv ∧
        st2.UdVStorage = st.UdVStorage ∧ st2.currentTimeslice = st.currentTimeslice ∧
        st2.lastSweepDir
          = (if env.pars.turnoffFermions then st.lastSweepDir else SweepDirection.Up) ∧
        st2.us = { st.us with
          attemptedGlobalShifts := st.us.attemptedGlobalShifts + 1 })) ∧
    (∃ st2, attemptWolffClusterUpdate env fuel st = some st2 ∧
      (st2.us.acceptedWolffClusterUpdates = st.us.acceptedWolffClusterUpdates ∨
        st2.us.acceptedWolffClusterUpdates = st.us.acceptedWolffClusterUpdates + 1) ∧
      (st2.us.acceptedWolffClusterUpdates = st.us.acceptedWolffClusterUpdates →
        st2.fc = st.fc ∧ st2.g = st.g ∧ st2.g_inv_sv = st.g_inv_sv ∧
        st2.UdVStorage = st.UdVStorage ∧ st2.currentTimeslice = st.currentTimeslice ∧
        st2.lastSweepDir
          = (if env.pars.turnoffFermions then st.lastSweepDir else SweepDirection.Up) ∧
        st2.us = { st.us with
          attemptedWolffClusterUpdates := st.us.attemptedWolffClusterUpdates + 1 })) := by
  constructor
  · obtain ⟨mid, prob, h1, h2, h3, _⟩ :=
      attemptGlobalShiftMove_spec env fuel st hlat hm32 hfuel hts
    refine ⟨_, h1, ?_, ?_⟩
    · by_cases hacc : 1 ≤ prob ∨ env.rand01 < prob
      · rw [if_pos hacc]
        right
        simp only [h3]
      · rw [if_neg hacc, (restore_of_backedUp env.pars st mid h2).2.2.2.2.2.2, h3]
        left
        rfl
    · by_cases hacc : 1 ≤ prob ∨ env.rand01 < prob
      · rw [if_pos hacc]
        intro hc
        simp only [h3] at hc
        omega
      · rw [if_neg hacc]
        intro _
        obtain ⟨r1, r2, r3, r4, r5, r6, r7⟩ := restore_of_backedUp env.pars st mid h2
        exact ⟨r1, r2, r3, r4, r5, r6, r7.trans h3⟩
  · obtain ⟨mid, prob, sizes, _, h1, h2, h3, _, _, h6⟩ :=
      attemptWolffClusterUpdate_spec env fuel st (fun _ => True) (fun _ _ _ _ _ => trivial)
        hlat hcfuel hrd hseed hts trivial
    refine ⟨_, h1, ?_, ?_⟩
    · by_cases hacc : 1 ≤ prob ∨ env.rand01 < prob
      · rw [if_pos hacc]
        right
        simp only [h3]
      · rw [if_neg hacc]
        left
        have hf : env.pars.turnoffFermions = false := by
          by_contra hc
          rw [if_pos (by simpa using hc)] at h6
          exact hacc (Or.inl (le_of_eq h6.symm))
        rw [(restore_of_backedUp env.pars st mid (h2 hf)).2.2.2.2.2.2, h3]
    · by_cases hacc : 1 ≤ prob ∨ env.rand01 < prob
      · rw [if_pos hacc]
        intro hc
        simp only [h3] at hc
        omega
      · rw [if_neg hacc]
        intro _
        have hf : env.pars.turnoffFermions = false := by
          by_contra hc
          rw [if_pos (by simpa using hc)] at h6
          exact hacc (Or.inl (le_of_eq h6.symm))
        obtain ⟨r1, r2, r3, r4, r5, r6, r7⟩ := restore_of_backedUp env.pars st mid (h2 hf)
        exact ⟨r1, r2, r3, r4, r5, r6, r7.trans h3⟩

/-- Witness for C17: on the periodic lattice of `2 x 2` sites with two time slices, with
fermions and the constant field `phi = 1`, the global shift by `-2` and the Wolff
cluster update that flips the seed `(0, 1)` are both rejected (the singular values drop
from `5/8` to `3/8`); afterwards the field, the Green function, the singular values and
the slice are as before and the counters of attempted moves are `1`. -/
theorem rejected_global_move_restores_witness :
    (∃ st2, attemptGlobalShiftMove rejectingEnv 8 exampleGlobalState = some st2 ∧
      st2.us.acceptedGlobalShifts = 0 ∧ st2.us.attemptedGlobalShifts = 1 ∧
      st2.fc = onesField ∧ st2.g = exampleGlobalState.g ∧
      st2.g_inv_sv = exampleGlobalState.g_inv_sv ∧ st2.currentTimeslice = 2) ∧
    (∃ st2, attemptWolffClusterUpdate rejectingEnv 8 exampleGlobalState = some st2 ∧
      st2.us.acceptedWolffClusterUpdates = 0 ∧ st2.us.attemptedWolffClusterUpdates = 1 ∧
      st2.fc = onesField ∧ st2.g = exampleGlobalState.g ∧
      st2.g_inv_sv = exampleGlobalState.g_inv_sv ∧ st2.currentTimeslice = 2) := by
  obtain ⟨⟨s1, a1, _, a3⟩, ⟨s2, b1, _, b3⟩⟩ := rejected_global_move_restores rejectingEnv 8
    exampleGlobalState squareLattice_two_periodic (by decide) (by decide) (by decide)
    (fun _ _ => by simp [dot, rejectingEnv])
    (fun _ _ => by simp [rejectingEnv, fourSiteParams]) (fun _ => rfl)
  have ha := example_shift_rejected s1 a1
  have hb := example_wolff_rejected s2 b1
  obtain ⟨p1, p2, p3, _, p5, _, p7⟩ := a3 ha
  obtain ⟨q1, q2, q3, _, q5, _, q7⟩ := b3 hb
  refine ⟨⟨s1, a1, ha, ?_, p1, p2, p3, p5⟩, ⟨s2, b1, hb, ?_, q1, q2, q3, q5⟩⟩
  · rw [p7]
    rfl
  · rw [q7]
    rfl

/-- On the example without fermions the combined cluster and shift move is rejected and
leaves the field with the seed flipped: the flip of the seed `(0, 1)` gives
`phi(0, 0, 1) = -1`, the shift by `1` raises the action from `4` to `14`, so the
probability is `1/2`, not above the number `3/4` drawn. -/
theorem example_bosonic_cluster_shift (st2 : GlobalState OpDim.one 4 ℚ Unit)
    (h : attemptWolffClusterShiftUpdate bosonicShiftEnv 8 exampleGlobalState = some st2) :
    st2.us.acceptedWolffClusterShiftUpdates = 0 ∧ st2.fc.phi 0 0 1 = -1 := by
  obtain ⟨mid, prob, sizes, flipped, h0, h1, h2, h3, h4, _, h6⟩ :=
    attemptWolffClusterShiftUpdate_spec bosonicShiftEnv 8 exampleGlobalState
      squareLattice_two_periodic (by decide) (by decide) (by decide)
      (fun _ _ => by simp [dot, bosonicShiftEnv, rejectingEnv])
      (fun _ _ => by simp [bosonicShiftEnv, rejectingEnv, fourSiteParams])
      (fun hc => by cases hc)
  rw [example_flipClusters false bosonicShiftEnv exampleGlobalState.fc rfl
    (fun _ _ => rfl)] at h0
  have hfc := (Prod.mk.inj (Option.some.inj h0)).2
  have hico : Finset.Ico 1 3 = {1, 2} := by
    decide
  have h3v : ((3 : Fin 4) : ℕ) ≠ 0 := by
    decide
  have hold : actionSum OpDim.one bosonicShiftEnv.lat bosonicShiftEnv.pars flipped = 4 := by
    rw [← hfc]
    simp [actionSum, actionTerm, dot, getPhi, flipPhi, setPhi, flippedPhi, bosonicShiftEnv,
      rejectingEnv, GlobalEnv.clusterEnv, exampleGlobalState, onesField, fourSiteParams,
      oneSiteParams, hico, Fin.sum_univ_four, h3v]
    norm_num
  have hnew : actionSum OpDim.one bosonicShiftEnv.lat bosonicShiftEnv.pars mid.fc = 14 := by
    rw [actionSum_congr_phi OpDim.one bosonicShiftEnv.lat bosonicShiftEnv.pars _ mid.fc h4,
      ← hfc]
    simp [actionSum, actionTerm, dot, getPhi, flipPhi, setPhi, flippedPhi, bosonicShiftEnv,
      rejectingEnv, GlobalEnv.clusterEnv, exampleGlobalState, onesField, fourSiteParams,
      oneSiteParams, hico, Fin.sum_univ_four, addGlobalRandomDisplacement, h3v]
    norm_num
  have hprob : prob = 1 / 2 := by
    rw [h6, hold, hnew]
    simp [bosonicShiftEnv, rejectingEnv, stepLibm]
    norm_num
  have hrej : ¬ (1 ≤ prob ∨ bosonicShiftEnv.rand01 < prob) := by
    have hr : bosonicShiftEnv.rand01 = 3 / 4 := rfl
    rw [hr, hprob]
    norm_num
  rw [h1, if_neg hrej] at h
  rw [← Option.some.inj h]
  obtain ⟨r1, _, _, _, _, _, r7⟩ := restore_of_backedUp _ _ _ h2
  rw [r7, h3, r1]
  refine ⟨rfl, ?_⟩
  have hb : bosonicShiftEnv.pars.turnoffFermions = true := rfl
  simp only [hb, if_true, ← hfc]
  simp [flipPhi, setPhi, flippedPhi, dot, getPhi, bosonicShiftEnv, rejectingEnv,
    GlobalEnv.clusterEnv, exampleGlobalState, onesField]
  norm_num

/-- On the example with fermions the combined cluster and shift move is rejected: the
flip of the seed and the shift by `-2` give `phi(0, 0, 1) = -3`, the singular values
drop from `5/8` to `1/8`, so the probability is at most `1/4`, below the number `1/2`
drawn. -/
theorem example_cluster_shift_rejected (st2 : GlobalState OpDim.one 4 ℚ Unit)
    (h : attemptWolffClusterShiftUpdate rejectingEnv 8 exampleGlobalState = some st2) :
    st2.us.acceptedWolffClusterShiftUpdates = 0 := by
  obtain ⟨mid, prob, sizes, flipped, h0, h1, h2, h3, h4, h5, h6⟩ :=
    attemptWolffClusterShiftUpdate_spec rejectingEnv 8 exampleGlobalState
      squareLattice_two_periodic (by decide) (by decide) (by decide)
      (fun _ _ => by simp [dot, rejectingEnv])
      (fun _ _ => by simp [rejectingEnv, fourSiteParams]) (fun _ => rfl)
  rw [example_flipClusters false rejectingEnv exampleGlobalState.fc rfl
    (fun _ _ => rfl)] at h0
  have hfc := (Prod.mk.inj (Option.some.inj h0)).2
  obtain ⟨_, hsv⟩ := h5 rfl
  have hphi : mid.fc.phi 0 0 1 = -3 := by
    rw [h4, ← hfc]
    simp [addGlobalRandomDisplacement, flipPhi, setPhi, flippedPhi, dot, getPhi,
      rejectingEnv, GlobalEnv.clusterEnv, exampleGlobalState, onesField, fourSiteParams,
      oneSiteParams]
    norm_num
  have hferm : fermionProbability OpDim.one 4 rejectingEnv.lm rejectingEnv.log mid.g_inv_sv
      exampleGlobalState.g_inv_sv = 1 / 4 := by
    have hr8 : List.range 8 = [0, 1, 2, 3, 4, 5, 6, 7] := by
      decide
    rw [hsv]
    simp [fermionProbability, rejectingEnv, exampleGlobalState, hphi, umul, stepLibm]
    norm_num [hr8]
  have hprob : prob ≤ 1 / 4 ∧ 0 ≤ prob := by
    rw [h6, hferm]
    simp only [rejectingEnv, stepLibm, fourSiteParams, oneSiteParams, Bool.false_eq_true,
      if_false]
    split_ifs <;> norm_num
  have hrej : ¬ (1 ≤ prob ∨ rejectingEnv.rand01 < prob) := by
    have hr : rejectingEnv.rand01 = 1 / 2 := rfl
    rw [hr]
    intro hc
    rcases hc with hc | hc <;> linarith [hprob.1]
  rw [h1, if_neg hrej] at h
  rw [← Option.some.inj h]
  rw [(restore_of_backedUp _ _ _ h2).2.2.2.2.2.2, h3]
  rfl

/-! ## C18: rejection of the combined cluster and shift move -/

/-- C18 (counterexample). Without fermions (`turnoffFermions = true`) on the periodic
lattice of `2 x 2` sites with two time slices, the constant field `phi = 1`, one cluster
that flips the seed `(0, 1)`, the shift by `1` and the number `3/4` drawn for the
acceptance test: `attemptWolffClusterShiftUpdate` ends in rejection (the counter of
accepted moves stays `0`, the counter of attempted moves is `1`), and afterwards
`phi(0, 0, 1) = -1`, not the value `1` before the cluster flips. -/
theorem cluster_shift_rejection_keeps_flips :
    bosonicShiftEnv.pars.turnoffFermions = true ∧
    exampleGlobalState.fc.phi 0 0 1 = 1 ∧
    ∃ st2, attemptWolffClusterShiftUpdate bosonicShiftEnv 8 exampleGlobalState = some st2 ∧
      st2.us.attemptedWolffClusterShiftUpdates = 1 ∧
      st2.us.acceptedWolffClusterShiftUpdates
        = exampleGlobalState.us.acceptedWolffClusterShiftUpdates ∧
      st2.fc.phi 0 0 1 = -1 ∧
      st2.fc.phi ≠ exampleGlobalState.fc.phi := by
  refine ⟨rfl, rfl, ?_⟩
  obtain ⟨mid, prob, sizes, flipped, _, h1, _, h3, _⟩ :=
    attemptWolffClusterShiftUpdate_spec bosonicShiftEnv 8 exampleGlobalState
      squareLattice_two_periodic (by decide) (by decide) (by decide)
      (fun _ _ => by simp [dot, bosonicShiftEnv, rejectingEnv])
      (fun _ _ => by simp [bosonicShiftEnv, rejectingEnv, fourSiteParams])
      (fun hc => by cases hc)
  obtain ⟨e1, e2⟩ := example_bosonic_cluster_shift _ h1
  refine ⟨_, h1, ?_, e1, e2, ?_⟩
  · by_cases hacc : 1 ≤ prob ∨ bosonicShiftEnv.rand01 < prob
    · rw [if_pos hacc]
      simp only [h3]
      rfl
    · rw [if_neg hacc]
      unfold globalMoveRestoreBackups
      simp only [h3]
      split_ifs <;> rfl
  · intro hc
    have := congrFun (congrFun (congrFun hc 0) 0) 1
    rw [e2] at this
    norm_num [exampleGlobalState, onesField] at this

/-- C18 (amended). Rejection of the combined cluster and shift move:
`attemptWolffClusterShiftUpdate` returns (with fermions it is called on the slice `m`,
the directions drawn for the clusters are unit vectors, the seeds lie in the slices
`1, ..., m`, the fuel is enough), and if it ends in rejection (the counter of accepted
moves is left as it is) then with `turnoffFermions = false` the field `phi` (with the
caches, the Green function, the singular values and the UdV storage) equals its value
before the cluster flips and before the shift, and with `turnoffFermions = true` the
field `phi` equals its value after the cluster flips and before the shift. -/
theorem cluster_shift_rejection_restores {K : Type} [LinearOrderedField K] {o : OpDim}
    {N : ℕ} {U : Type} (env : GlobalEnv o N K U) (fuel : ℕ) (st : GlobalState o N K U)
    (hlat : LatticePeriodic env.lat env.pars.m) (hm32 : env.pars.m + 1 < 4294967296)
    (hfuel : env.pars.m < fuel) (hcfuel : N * env.pars.m ≤ fuel)
    (hrd : ∀ c, c < env.repeatWolffPerSweep → dot (env.rd c) (env.rd c) = 1)
    (hseed : ∀ c, c < env.repeatWolffPerSweep →
      1 ≤ env.seedSlice c ∧ env.seedSlice c ≤ env.pars.m)
    (hts : env.pars.turnoffFermions = false → st.currentTimeslice = env.pars.m) :
    ∃ (st2 : GlobalState o N K U) (sizes : List ℕ) (flipped : FieldConfig K),
      flipClusters env false fuel st.fc = some (sizes, flipped) ∧
      attemptWolffClusterShiftUpdate env fuel st = some st2 ∧
      (st2.us.acceptedWolffClusterShiftUpdates = st.us.acceptedWolffClusterShiftUpdates ∨
        st2.us.acceptedWolffClusterShiftUpdates
          = st.us.acceptedWolffClusterShiftUpdates + 1) ∧
      (st2.us.acceptedWolffClusterShiftUpdates = st.us.acceptedWolffClusterShiftUpdates →
        (env.pars.turnoffFermions = false →
          st2.fc = st.fc ∧ st2.g = st.g ∧ st2.g_inv_sv = st.g_inv_sv ∧
          st2.UdVStorage = st.UdVStorage) ∧
        (env.pars.turnoffFermions = true → st2.fc = flipped) ∧
        st2.us = { st.us with
          attemptedWolffClusterShiftUpdates
            := st.us.attemptedWolffClusterShiftUpdates + 1 }) := by
  obtain ⟨mid, prob, sizes, flipped, h0, h1, h2, h3, _⟩ :=
    attemptWolffClusterShiftUpdate_spec env fuel st hlat hm32 hfuel hcfuel hrd hseed hts
  refine ⟨_, sizes, flipped, h0, h1, ?_, ?_⟩
  · by_cases hacc : 1 ≤ prob ∨ env.rand01 < prob
    · rw [if_pos hacc]
      right
      simp only [h3]
    · rw [if_neg hacc, (restore_of_backedUp env.pars _ mid h2).2.2.2.2.2.2, h3]
      left
      rfl
  · by_cases hacc : 1 ≤ prob ∨ env.rand01 < prob
    · rw [if_pos hacc]
      intro hc
      simp only [h3] at hc
      omega
    · rw [if_neg hacc]
      intro _
      obtain ⟨r1, r2, r3, r4, _, _, r7⟩ := restore_of_backedUp env.pars _ mid h2
      refine ⟨?_, ?_, r7.trans h3⟩
      · intro hf
        simp only [hf, Bool.false_eq_true, if_false] at r1 r2 r3 r4
        exact ⟨r1, r2, r3, r4⟩
      · intro hf
        simp only [hf, if_true] at r1
        exact r1

/-- Witness for the amended C18: with fermions on the periodic lattice of `2 x 2` sites
with two time slices and the constant field `phi = 1`, the move that flips the seed
`(0, 1)` and shifts the field by `-2` is rejected (the singular values drop from `5/8`
to `1/8`), and afterwards the field is the constant field again. -/
theorem cluster_shift_rejection_restores_witness :
    ∃ st2, attemptWolffClusterShiftUpdate rejectingEnv 8 exampleGlobalState = some st2 ∧
      st2.us.acceptedWolffClusterShiftUpdates = 0 ∧
      st2.us.attemptedWolffClusterShiftUpdates = 1 ∧ st2.fc = onesField ∧
      st2.g_inv_sv = exampleGlobalState.g_inv_sv := by
  obtain ⟨st2, sizes, flipped, _, h1, _, h3⟩ := cluster_shift_rejection_restores rejectingEnv
    8 exampleGlobalState squareLattice_two_periodic (by decide) (by decide) (by decide)
    (fun _ _ => by simp [dot, rejectingEnv])
    (fun _ _ => by simp [rejectingEnv, fourSiteParams]) (fun _ => rfl)
  have hrej := example_cluster_shift_rejected st2 h1
  obtain ⟨p1, _, p3⟩ := h3 hrej
  obtain ⟨q1, _, q3, _⟩ := p1 rfl
  refine ⟨st2, h1, hrej, ?_, q1, q3⟩
  rw [p3]
  rfl

/-! ## Consistency of the caches -/

/-- After `phi`, `cdwl` and the caches of a slot have been overwritten the slot is
consistent. -/
theorem commitLocalUpdate_slot_self {K : Type} [Field K] [DecidableEq K] (o : OpDim)
    (lm : Libm K) (pars : ModelParamsSDW K) (cdwl_eta : ℤ → K) (site k : ℕ)
    (newphi : Phi o.dim K) (new_cdwl : ℤ) (fc : FieldConfig K) :
    SlotConsistent o lm pars cdwl_eta
      (commitLocalUpdate o lm pars cdwl_eta site k newphi new_cdwl fc) site k := by
  have hphi := getPhi_commitLocalUpdate o lm pars cdwl_eta site k newphi new_cdwl fc
  unfold SlotConsistent
  rw [hphi]
  by_cases hU : pars.cdwU ≠ 0
  · simp [commitLocalUpdate, updateCoshSinhTerms, updateCoshSinhTermsPhi,
      updateCoshSinhTermsCDWl, setCDWl, hU, getCoshSinhTermPhi, getCoshSinhTermCDWl,
      getPhi_setPhi]
    have e : getPhi o.dim (setCDWl site k new_cdwl (setPhi o.dim site k newphi fc)) site k
        = newphi := getPhi_setPhi o.dim site k newphi fc
    unfold setCDWl at e
    rw [e]
    exact ⟨rfl, rfl⟩
  · refine ⟨?_, fun hc => absurd hc hU⟩
    simp [commitLocalUpdate, updateCoshSinhTerms, updateCoshSinhTermsPhi, hU,
      getCoshSinhTermPhi]
    have e : getPhi o.dim (setCDWl site k new_cdwl (setPhi o.dim site k newphi fc)) site k
        = newphi := getPhi_setPhi o.dim site k newphi fc
    rw [e]
    exact ⟨rfl, rfl⟩

/-- Overwriting a slot leaves the consistency of every other slot as it is. -/
theorem commitLocalUpdate_slot_other {K : Type} [Field K] [DecidableEq K] (o : OpDim)
    (lm : Libm K) (pars : ModelParamsSDW K) (cdwl_eta : ℤ → K) (site k : ℕ)
    (newphi : Phi o.dim K) (new_cdwl : ℤ) (fc : FieldConfig K) (i t : ℕ)
    (h : ¬ (i = site ∧ t = k)) :
    SlotConsistent o lm pars cdwl_eta
        (commitLocalUpdate o lm pars cdwl_eta site k newphi new_cdwl fc) i t
      ↔ SlotConsistent o lm pars cdwl_eta fc i t := by
  have hphi : getPhi o.dim (commitLocalUpdate o lm pars cdwl_eta site k newphi new_cdwl fc) i t
      = getPhi o.dim fc i t := by
    funext d
    simp only [getPhi, commitLocalUpdate, updateCoshSinhTerms, updateCoshSinhTermsPhi,
      updateCoshSinhTermsCDWl, setCDWl, setPhi]
    split <;> simp [h]
  unfold SlotConsistent
  rw [hphi]
  by_cases hU : pars.cdwU ≠ 0
  · simp [commitLocalUpdate, updateCoshSinhTerms, updateCoshSinhTermsPhi,
      updateCoshSinhTermsCDWl, setCDWl, setPhi, hU, h]
  · simp [commitLocalUpdate, updateCoshSinhTerms, updateCoshSinhTermsPhi,
      setCDWl, setPhi, hU, h]

/-- An accepted local update with fermions keeps the caches consistent. -/
theorem commitLocalUpdate_consistent {K : Type} [Field K] [DecidableEq K] (o : OpDim)
    (N : ℕ) (lm : Libm K) (pars : ModelParamsSDW K) (cdwl_eta : ℤ → K) (site k : ℕ)
    (newphi : Phi o.dim K) (new_cdwl : ℤ) (fc : FieldConfig K)
    (h : CachesConsistent o N lm pars cdwl_eta fc) :
    CachesConsistent o N lm pars cdwl_eta
      (commitLocalUpdate o lm pars cdwl_eta site k newphi new_cdwl fc) := by
  intro i t hi ht1 htm
  by_cases hs : i = site ∧ t = k
  · rw [hs.1, hs.2]
    exact commitLocalUpdate_slot_self o lm pars cdwl_eta site k newphi new_cdwl fc
  · exact (commitLocalUpdate_slot_other o lm pars cdwl_eta site k newphi new_cdwl fc i t
      hs).mpr (h i t hi ht1 htm)

/-- A flip that updates the caches keeps the caches consistent. -/
theorem flipPhi_consistent {K : Type} [Field K] {o : OpDim} {N : ℕ} (env : ClusterEnv o N K)
    (hup : env.updateCoshSinh = true) (cdwl_eta : ℤ → K) (site t : ℕ) (fc : FieldConfig K)
    (h : CachesConsistent o N env.lm env.pars cdwl_eta fc) :
    CachesConsistent o N env.lm env.pars cdwl_eta (flipPhi env site t fc) := by
  intro i k hi hk1 hkm
  obtain ⟨hP, hC⟩ := h i k hi hk1 hkm
  unfold flipPhi
  simp only [hup, if_true]
  by_cases hs : i = site ∧ k = t
  · obtain ⟨rfl, rfl⟩ := hs
    refine ⟨?_, hC⟩
    have e : getPhi o.dim (updateCoshSinhTermsPhi o.dim env.lm env.pars i k
        (setPhi o.dim i k (flippedPhi env.rd fc i k) fc)) i k
        = getPhi o.dim (setPhi o.dim i k (flippedPhi env.rd fc i k) fc) i k := rfl
    rw [e]
    simp [updateCoshSinhTermsPhi, getCoshSinhTermPhi]
  · have e : getPhi o.dim (updateCoshSinhTermsPhi o.dim env.lm env.pars site t
        (setPhi o.dim site t (flippedPhi env.rd fc site t) fc)) i k = getPhi o.dim fc i k := by
      funext d
      simp [getPhi, updateCoshSinhTermsPhi, setPhi, hs]
    refine ⟨?_, hC⟩
    rw [e]
    simpa [updateCoshSinhTermsPhi, setPhi, hs] using hP

/-- With fermions the Woodbury update of a site keeps the caches consistent. -/
theorem updateInSlice_woodbury_site_consistent {K : Type} [Field K] [DecidableEq K]
    {o : OpDim} {N : ℕ} (env : LocalEnv o K) (timeslice : ℕ) (st : SliceState o N K)
    (site : ℕ) (hferm : env.pars.turnoffFermions = false)
    (h : CachesConsistent o N env.lm env.pars env.cdwl_eta st.fc) :
    CachesConsistent o N env.lm env.pars env.cdwl_eta
      (updateInSlice_woodbury_site env timeslice st site).fc := by
  unfold updateInSlice_woodbury_site
  simp only [hferm, Bool.false_eq_true, if_false]
  split
  · split
    · exact h
    · split
      · exact commitLocalUpdate_consistent o N env.lm env.pars env.cdwl_eta site timeslice
          _ _ st.fc h
      · exact h
  · exact h

/-- With fermions `updateInSlice_woodbury` keeps the caches consistent. -/
theorem updateInSlice_woodbury_consistent {K : Type} [Field K] [DecidableEq K]
    {o : OpDim} {N : ℕ} (env : LocalEnv o K) (timeslice : ℕ) (st : SliceState o N K)
    (hferm : env.pars.turnoffFermions = false)
    (h : CachesConsistent o N env.lm env.pars env.cdwl_eta st.fc) :
    CachesConsistent o N env.lm env.pars env.cdwl_eta
      (updateInSlice_woodbury env timeslice st).fc := by
  unfold updateInSlice_woodbury
  generalize List.range N = l
  induction l generalizing st with
  | nil => exact h
  | cons x l ih =>
    rw [List.foldl_cons]
    exact ih _ (updateInSlice_woodbury_site_consistent env timeslice st x hferm h)

/-- With fermions and enough fuel `updateInSlice_delayed` returns and keeps the caches
consistent. -/
theorem updateInSlice_delayed_consistent {K : Type} [Field K] [DecidableEq K]
    {o : OpDim} {N : ℕ} (env : LocalEnv o K) (timeslice fuel : ℕ) (st : SliceState o N K)
    (hferm : env.pars.turnoffFermions = false) (hdelay : 1 ≤ env.pars.delaySteps)
    (hfuel : N < fuel) (h : CachesConsistent o N env.lm env.pars env.cdwl_eta st.fc) :
    ∃ st2, updateInSlice_delayed env timeslice fuel st = some st2 ∧
      CachesConsistent o N env.lm env.pars env.cdwl_eta st2.fc := by
  have h0 : DelayedInv env timeslice st
      { ({ st := st, X := fun _ => 0, Y := fun _ => 0, j := 0, site := 0 } :
          DelayedState o N K) with j := 0 } := by
    refine ⟨Nat.zero_le _, rfl, rfl, rfl, ?_⟩
    simp [DelayedState.effective, woodburyUpTo]
  obtain ⟨ds2, e, hinv, hN⟩ := delayed_loop_spec env timeslice st hferm hdelay fuel
    { st := st, X := fun _ => 0, Y := fun _ => 0, j := 0, site := 0 } h0 (by simpa using hfuel)
  obtain ⟨_, hfc, _⟩ := hinv
  simp only [hN] at hfc
  refine ⟨ds2.st, ?_, ?_⟩
  · unfold updateInSlice_delayed
    rw [if_neg (by simp [hferm]), e]
    rfl
  · rw [← hfc]
    exact updateInSlice_woodbury_consistent env timeslice st hferm h

/-- With fermions and `OPDIM = 3` the iterative update of a site returns and keeps the
caches consistent. -/
theorem updateInSlice_iterative_site_consistent {K : Type} [Field K] [DecidableEq K]
    {N : ℕ} (env : LocalEnv OpDim.three K) (timeslice : ℕ)
    (st : SliceState OpDim.three N K) (site : ℕ)
    (hferm : env.pars.turnoffFermions = false)
    (h : CachesConsistent OpDim.three N env.lm env.pars env.cdwl_eta st.fc) :
    ∃ st2, updateInSlice_iterative_site env timeslice st site = some st2 ∧
      CachesConsistent OpDim.three N env.lm env.pars env.cdwl_eta st2.fc := by
  unfold updateInSlice_iterative_site
  simp only [hferm, Bool.false_eq_true, if_false, iterativeRows, lt_self_iff_false,
    and_false, Option.some_bind]
  split
  · split
    · exact ⟨_, rfl, h⟩
    · split
      · exact ⟨_, rfl, commitLocalUpdate_consistent OpDim.three N env.lm env.pars
          env.cdwl_eta site timeslice _ _ st.fc h⟩
      · exact ⟨_, rfl, h⟩
  · exact ⟨_, rfl, h⟩

/-- With fermions and `OPDIM = 3` `updateInSlice_iterative` returns and keeps the caches
consistent. -/
theorem updateInSlice_iterative_consistent {K : Type} [Field K] [DecidableEq K]
    {N : ℕ} (env : LocalEnv OpDim.three K) (timeslice : ℕ)
    (st : SliceState OpDim.three N K) (hferm : env.pars.turnoffFermions = false)
    (h : CachesConsistent OpDim.three N env.lm env.pars env.cdwl_eta st.fc) :
    ∃ st2, updateInSlice_iterative env timeslice st = some st2 ∧
      CachesConsistent OpDim.three N env.lm env.pars env.cdwl_eta st2.fc := by
  unfold updateInSlice_iterative
  generalize List.range N = l
  induction l generalizing st with
  | nil => exact ⟨st, rfl, h⟩
  | cons x l ih =>
    obtain ⟨st1, h1, hc1⟩ :=
      updateInSlice_iterative_site_consistent env timeslice st x hferm h
    obtain ⟨st2, h2, hc2⟩ := ih st1 hc1
    refine ⟨st2, ?_, hc2⟩
    rw [List.foldlM_cons, h1]
    exact h2

/-- Recomputed caches of the field vectors, with the discrete field and its caches as
in a consistent field, are consistent caches. -/
theorem consistent_of_phiCaches {K : Type} [Field K] (o : OpDim) (N : ℕ) (lm : Libm K)
    (pars : ModelParamsSDW K) (cdwl_eta : ℤ → K) (fc fc2 : FieldConfig K)
    (hphi : PhiCachesConsistent o N lm pars fc2) (h1 : fc2.cdwl = fc.cdwl)
    (h2 : fc2.coshTermCDWl = fc.coshTermCDWl) (h3 : fc2.sinhTermCDWl = fc.sinhTermCDWl)
    (h : CachesConsistent o N lm pars cdwl_eta fc) :
    CachesConsistent o N lm pars cdwl_eta fc2 := by
  intro i k hi hk1 hkm
  obtain ⟨_, hC⟩ := h i k hi hk1 hkm
  obtain ⟨p1, p2⟩ := hphi i k hi hk1 hkm
  refine ⟨⟨?_, ?_⟩, ?_⟩
  · rw [p1]
    rfl
  · rw [p2]
    rfl
  · rw [h1, h2, h3]
    exact hC

/-- With fermions `attemptGlobalShiftMove` returns and keeps the caches consistent. -/
theorem attemptGlobalShiftMove_consistent {K : Type} [LinearOrderedField K] {o : OpDim}
    {N : ℕ} {U : Type} (env : GlobalEnv o N K U) (cdwl_eta : ℤ → K) (fuel : ℕ)
    (st : GlobalState o N K U) (hferm : env.pars.turnoffFermions = false)
    (hlat : LatticePeriodic env.lat env.pars.m) (hm32 : env.pars.m + 1 < 4294967296)
    (hfuel : env.pars.m < fuel) (hts : st.currentTimeslice = env.pars.m)
    (h : CachesConsistent o N env.lm env.pars cdwl_eta st.fc) :
    ∃ st2, attemptGlobalShiftMove env fuel st = some st2 ∧
      CachesConsistent o N env.lm env.pars cdwl_eta st2.fc := by
  obtain ⟨mid, prob, h1, h2, _, _, h5, _⟩ :=
    attemptGlobalShiftMove_spec env fuel st hlat hm32 hfuel (fun _ => hts)
  refine ⟨_, h1, ?_⟩
  by_cases hacc : 1 ≤ prob ∨ env.rand01 < prob
  · rw [if_pos hacc]
    obtain ⟨_, b2, b3, b4, _⟩ := h2
    exact consistent_of_phiCaches o N env.lm env.pars cdwl_eta st.fc mid.fc (h5 hferm).1
      b2 b3 b4 h
  · rw [if_neg hacc, (restore_of_backedUp env.pars st mid h2).1]
    exact h

/-- For every setting of `turnoffFermions`, `attemptWolffClusterUpdate` returns and keeps
the caches consistent. -/
theorem attemptWolffClusterUpdate_consistent {K : Type} [LinearOrderedField K] {o : OpDim}
    {N : ℕ} {U : Type} (env : GlobalEnv o N K U) (cdwl_eta : ℤ → K) (fuel : ℕ)
    (st : GlobalState o N K U)
    (hlat : LatticePeriodic env.lat env.pars.m) (hcfuel : N * env.pars.m ≤ fuel)
    (hrd : ∀ c, c < env.repeatWolffPerSweep → dot (env.rd c) (env.rd c) = 1)
    (hseed : ∀ c, c < env.repeatWolffPerSweep →
      1 ≤ env.seedSlice c ∧ env.seedSlice c ≤ env.pars.m)
    (hts : env.pars.turnoffFermions = false → st.currentTimeslice = env.pars.m)
    (h : CachesConsistent o N env.lm env.pars cdwl_eta st.fc) :
    ∃ st2, attemptWolffClusterUpdate env fuel st = some st2 ∧
      CachesConsistent o N env.lm env.pars cdwl_eta st2.fc := by
  obtain ⟨mid, prob, sizes, _, h1, h2, _, h4, _, h6⟩ :=
    attemptWolffClusterUpdate_spec env fuel st
      (fun fc => CachesConsistent o N env.lm env.pars cdwl_eta fc)
      (fun c site t fc hfc => flipPhi_consistent (env.clusterEnv c true) rfl cdwl_eta site t
        fc hfc)
      hlat hcfuel hrd hseed hts h
  refine ⟨_, h1, ?_⟩
  by_cases hacc : 1 ≤ prob ∨ env.rand01 < prob
  · rw [if_pos hacc]
    exact h4
  · rw [if_neg hacc]
    have hf : env.pars.turnoffFermions = false := by
      by_contra hc
      rw [if_pos (by simpa using hc)] at h6
      exact hacc (Or.inl (le_of_eq h6.symm))
    rw [(restore_of_backedUp env.pars st mid (h2 hf)).1]
    exact h

/-- With fermions `attemptWolffClusterShiftUpdate` returns and keeps the caches
consistent. -/
theorem attemptWolffClusterShiftUpdate_consistent {K : Type} [LinearOrderedField K]
    {o : OpDim} {N : ℕ} {U : Type} (env : GlobalEnv o N K U) (cdwl_eta : ℤ → K) (fuel : ℕ)
    (st : GlobalState o N K U) (hferm : env.pars.turnoffFermions = false)
    (hlat : LatticePeriodic env.lat env.pars.m) (hm32 : env.pars.m + 1 < 4294967296)
    (hfuel : env.pars.m < fuel) (hcfuel : N * env.pars.m ≤ fuel)
    (hrd : ∀ c, c < env.repeatWolffPerSweep → dot (env.rd c) (env.rd c) = 1)
    (hseed : ∀ c, c < env.repeatWolffPerSweep →
      1 ≤ env.seedSlice c ∧ env.seedSlice c ≤ env.pars.m)
    (hts : st.currentTimeslice = env.pars.m)
    (h : CachesConsistent o N env.lm env.pars cdwl_eta st.fc) :
    ∃ st2, attemptWolffClusterShiftUpdate env fuel st = some st2 ∧
      CachesConsistent o N env.lm env.pars cdwl_eta st2.fc := by
  obtain ⟨mid, prob, sizes, flipped, _, h1, h2, _, _, h5, _⟩ :=
    attemptWolffClusterShiftUpdate_spec env fuel st hlat hm32 hfuel hcfuel hrd hseed
      (fun _ => hts)
  simp only [hferm, Bool.false_eq_true, if_false] at h2
  refine ⟨_, h1, ?_⟩
  by_cases hacc : 1 ≤ prob ∨ env.rand01 < prob
  · rw [if_pos hacc]
    obtain ⟨_, b2, b3, b4, _⟩ := h2
    exact consistent_of_phiCaches o N env.lm env.pars cdwl_eta st.fc mid.fc (h5 hferm).1
      b2 b3 b4 h
  · rw [if_neg hacc, (restore_of_backedUp env.pars st mid h2).1]
    exact h

/-- A loop over the sites that overwrites the slots of the slice `k`: afterwards the
slots of the sites `i < n` at the slice `k` are consistent, and the consistency of every
other slot is as before. -/
theorem foldl_commit_slots {K : Type} [Field K] [DecidableEq K] (o : OpDim) (lm : Libm K)
    (pars : ModelParamsSDW K) (cdwl_eta : ℤ → K) (k : ℕ)
    (body : ℕ → FieldConfig K → FieldConfig K)
    (hbody : ∀ site fc, ∃ newphi new_cdwl,
      body site fc = commitLocalUpdate o lm pars cdwl_eta site k newphi new_cdwl fc)
    (fc : FieldConfig K) (n : ℕ) :
    ∀ i t,
      (i < n ∧ t = k →
        SlotConsistent o lm pars cdwl_eta
          ((List.range n).foldl (fun fc site => body site fc) fc) i t) ∧
      (¬ (i < n ∧ t = k) →
        (SlotConsistent o lm pars cdwl_eta
            ((List.range n).foldl (fun fc site => body site fc) fc) i t
          ↔ SlotConsistent o lm pars cdwl_eta fc i t)) := by
  induction n with
  | zero =>
    intro i t
    simp
  | succ n ih =>
    intro i t
    rw [List.range_succ, List.foldl_append]
    simp only [List.foldl_cons, List.foldl_nil]
    generalize (List.range n).foldl (fun fc site => body site fc) fc = a at ih ⊢
    obtain ⟨newphi, new_cdwl, hb⟩ := hbody n a
    rw [hb]
    obtain ⟨ih1, ih2⟩ := ih i t
    by_cases hs : i = n ∧ t = k
    · refine ⟨fun _ => ?_, fun hc => absurd ⟨by omega, hs.2⟩ hc⟩
      rw [hs.1, hs.2]
      exact commitLocalUpdate_slot_self o lm pars cdwl_eta n k newphi new_cdwl a
    · have hiff := commitLocalUpdate_slot_other o lm pars cdwl_eta n k newphi new_cdwl a i t hs
      constructor
      · intro hc
        have hlt : i < n ∧ t = k := by
          refine ⟨?_, hc.2⟩
          rcases Nat.lt_succ_iff_lt_or_eq.mp hc.1 with h | h
          · exact h
          · exact absurd ⟨h, hc.2⟩ hs
        exact hiff.mpr (ih1 hlt)
      · intro hc
        have hnlt : ¬ (i < n ∧ t = k) := fun h => hc ⟨by omega, h.2⟩
        exact hiff.trans (ih2 hnlt)

/-- A loop over the slices `1, ..., m` and the sites that overwrites every slot returns
with enough fuel and leaves consistent caches. -/
theorem setupLoop_consistent {K : Type} [Field K] [DecidableEq K] (o : OpDim) (N : ℕ)
    (lm : Libm K) (pars : ModelParamsSDW K) (cdwl_eta : ℤ → K)
    (body : ℕ → ℕ → FieldConfig K → FieldConfig K)
    (hbody : ∀ k site fc, ∃ newphi new_cdwl,
      body k site fc = commitLocalUpdate o lm pars cdwl_eta site k newphi new_cdwl fc)
    (fuel : ℕ) (fc : FieldConfig K)
    (hm32 : pars.m + 1 < 4294967296) (hfuel : pars.m < fuel) :
    ∃ fc2, forLoop (fun k => decide (k ≤ pars.m)) (fun k => uadd k 1)
        (fun k fc => some ((List.range N).foldl (fun fc site => body k site fc) fc))
        fuel 1 fc = some fc2 ∧
      CachesConsistent o N lm pars cdwl_eta fc2 := by
  obtain ⟨a, ha, hP⟩ := forLoop_up_invariant
    (fun k fc => some ((List.range N).foldl (fun fc site => body k site fc) fc)) pars.m
    (fun k a => ∀ i t, i < N → 1 ≤ t → t < k → SlotConsistent o lm pars cdwl_eta a i t)
    hm32 pars.m 1 fuel fc (by omega) hfuel
    (by
      intro i t _ h1 h2
      omega)
    (by
      intro k a _ _ hPa
      refine ⟨_, rfl, ?_⟩
      intro i t hi ht1 htk
      obtain ⟨s1, s2⟩ := foldl_commit_slots o lm pars cdwl_eta k (body k) (hbody k) a N i t
      by_cases hs : i < N ∧ t = k
      · exact s1 hs
      · exact (s2 hs).mpr (hPa i t hi ht1 (by
          rcases Nat.lt_succ_iff_lt_or_eq.mp htk with h | h
          · exact h
          · exact absurd ⟨hi, h⟩ hs)))
  exact ⟨a, ha, fun i t hi ht1 htm => hP i t hi ht1 (by omega)⟩

/-- With enough fuel the constructor returns a field with consistent caches, for the
random and for the constant field and every setting of `turnoffFermions`. -/
theorem constructField_consistent {K : Type} [LinearOrderedField K] (o : OpDim) (N : ℕ)
    (lm : Libm K) (pars : ModelParamsSDW K) (cdwl_eta : ℤ → K) (phiFixed : Bool)
    (randRange : ℕ → ℕ → ℕ → K) (rand01 : ℕ → ℕ → K) (fuel : ℕ)
    (hm32 : pars.m + 1 < 4294967296) (hfuel : pars.m < fuel) :
    ∃ fc, DetSDW.constructField o N lm pars cdwl_eta phiFixed randRange rand01 fuel = some fc ∧
      CachesConsistent o N lm pars cdwl_eta fc := by
  unfold DetSDW.constructField
  by_cases hp : phiFixed = true
  · rw [if_neg (by simp [hp])]
    unfold setupConstantField
    exact setupLoop_consistent o N lm pars cdwl_eta
      (fun k site fc =>
        updateCoshSinhTerms o.dim lm pars cdwl_eta site k
          (setCDWl site k 1 (setPhi o.dim site k (fun dim => if dim.val = 0 then 1 else 0) fc)))
      (fun k site fc => ⟨_, _, rfl⟩) fuel _ hm32 hfuel
  · rw [if_pos (by simp [hp])]
    unfold setupRandomField
    exact setupLoop_consistent o N lm pars cdwl_eta
      (fun k site fc =>
        updateCoshSinhTerms o.dim lm pars cdwl_eta site k
          (if rand01 site k ≤ 1 / 4 then
            setCDWl site k 2 (setPhi o.dim site k (fun dim => randRange site dim.val k) fc)
          else if rand01 site k ≤ 1 / 2 then
            setCDWl site k (-2) (setPhi o.dim site k (fun dim => randRange site dim.val k) fc)
          else if rand01 site k ≤ 3 / 4 then
            setCDWl site k 1 (setPhi o.dim site k (fun dim => randRange site dim.val k) fc)
          else
            setCDWl site k (-1)
              (setPhi o.dim site k (fun dim => randRange site dim.val k) fc)))
      (fun k site fc => by
        refine ⟨fun dim => randRange site dim.val k,
          (if rand01 site k ≤ 1 / 4 then 2 else if rand01 site k ≤ 1 / 2 then -2
            else if rand01 site k ≤ 3 / 4 then 1 else -1), ?_⟩
        unfold commitLocalUpdate
        beta_reduce
        split_ifs <;> rfl)
      fuel _ hm32 hfuel

/-! ## C19: consistency of the caches -/

/-- The caches of the example state agree with its field. -/
theorem unitFieldState_consistent (pars : ModelParamsSDW ℚ) (h1 : pars.lambda = 1)
    (h2 : pars.dtau = 1) (h3 : pars.cdwU = 0) :
    CachesConsistent OpDim.one 1 polyLibm pars (fun _ => 0) unitFieldState.fc := by
  intro i k _ _ _
  refine ⟨?_, fun hc => absurd h3 hc⟩
  simp [unitFieldState, polyLibm, getPhi, dot, h1, h2]
  norm_num

/-- C19 (counterexample). Without fermions (`turnoffFermions = true`), one site, one time
slice, `lambda = dtau = 1`: the caches of the field `phi = 1` are consistent
(`coshTermPhi = cosh(1)`); `updateInSlice_woodbury` accepts the proposal `phi = 2` and
writes `phi(0, 0, 1) = 2`, but leaves `coshTermPhi(0, 1) = cosh(1)`, which is not
`cosh(lambda dtau |phi|) = cosh(2)`: after the local update the caches are not
consistent. -/
theorem stale_caches_without_fermions :
    bosonicLocalEnv.pars.turnoffFermions = true ∧
    CachesConsistent OpDim.one 1 bosonicLocalEnv.lm bosonicLocalEnv.pars
      bosonicLocalEnv.cdwl_eta unitFieldState.fc ∧
    (updateInSlice_woodbury bosonicLocalEnv 1 unitFieldState).accepted = 1 ∧
    (updateInSlice_woodbury bosonicLocalEnv 1 unitFieldState).fc.phi 0 0 1 = 2 ∧
    (updateInSlice_woodbury bosonicLocalEnv 1 unitFieldState).fc.coshTermPhi 0 1
      = bosonicLocalEnv.lm.cosh 1 ∧
    bosonicLocalEnv.lm.cosh 1 ≠ bosonicLocalEnv.lm.cosh 2 ∧
    ¬ CachesConsistent OpDim.one 1 bosonicLocalEnv.lm bosonicLocalEnv.pars
      bosonicLocalEnv.cdwl_eta (updateInSlice_woodbury bosonicLocalEnv 1 unitFieldState).fc := by
  have hr1 : List.range 1 = [0] := by
    decide
  have hs4 : Nat.sqrt 4 = 2 := Nat.sqrt_eq 2
  have hupd : (updateInSlice_woodbury bosonicLocalEnv 1 unitFieldState)
      = { unitFieldState with
          fc := setPhi 1 0 1 (fun _ => 2) unitFieldState.fc, accepted := 1 } := by
    simp [updateInSlice_woodbury, updateInSlice_woodbury_site, hr1, bosonicLocalEnv,
      fermionicLocalEnv, unitFieldState]
  refine ⟨rfl, unitFieldState_consistent _ rfl rfl rfl, ?_, ?_, ?_, ?_, ?_⟩
  · rw [hupd]
  · rw [hupd]
    simp [setPhi]
  · rw [hupd]
    simp [setPhi, unitFieldState, bosonicLocalEnv, fermionicLocalEnv, polyLibm]
    norm_num
  · simp [bosonicLocalEnv, fermionicLocalEnv, polyLibm]
    norm_num
  · intro hc
    obtain ⟨⟨h1, _⟩, _⟩ := hc 0 1 (by decide) (by decide) (by decide)
    rw [hupd] at h1
    simp [setPhi, unitFieldState, bosonicLocalEnv, fermionicLocalEnv, polyLibm, getPhi, dot,
      oneSiteParams, hs4] at h1
    norm_num at h1

/-- C19 (amended). Cache consistency invariant, for every site `i < N` and slice `k` in
`1, ..., m`: `coshTermPhi(i,k) = cosh(lambda dtau |phi(i,.,k)|)`,
`sinhTermPhi(i,k) = sinh(lambda dtau |phi(i,.,k)|) / |phi(i,.,k)|`, and when `cdwU ≠ 0`
`coshTermCDWl`, `sinhTermCDWl` are `cosh`, `sinh` of `sqrt(dtau) cdwU eta(cdwl(i,k))`.
It holds after construction (random or constant field, every setting of
`turnoffFermions`); `attemptWolffClusterUpdate` keeps it for every setting of
`turnoffFermions`; and with `turnoffFermions = false` it is kept by the local updates
`updateInSlice_woodbury`, `updateInSlice_delayed` and (for `OPDIM = 3`)
`updateInSlice_iterative`, and by the global moves `attemptGlobalShiftMove` and
`attemptWolffClusterShiftUpdate`.  Each routine returns with enough fuel (the global
moves on the slice `m`, with unit directions and seeds in the slices `1, ..., m`). -/
theorem caches_consistent_with_fermions {K : Type} [LinearOrderedField K] (o : OpDim)
    (N : ℕ) (U : Type) (fuel : ℕ) :
    (∀ (lm : Libm K) (pars : ModelParamsSDW K) (cdwl_eta : ℤ → K) (phiFixed : Bool)
        (randRange : ℕ → ℕ → ℕ → K) (rand01 : ℕ → ℕ → K),
      pars.m + 1 < 4294967296 → pars.m < fuel →
      ∃ fc, DetSDW.constructField o N lm pars cdwl_eta phiFixed randRange rand01 fuel
          = some fc ∧
        CachesConsistent o N lm pars cdwl_eta fc) ∧
    (∀ (env : LocalEnv o K) (timeslice : ℕ) (st : SliceState o N K),
      env.pars.turnoffFermions = false →
      CachesConsistent o N env.lm env.pars env.cdwl_eta st.fc →
      CachesConsistent o N env.lm env.pars env.cdwl_eta
          (updateInSlice_woodbury env timeslice st).fc ∧
        (1 ≤ env.pars.delaySteps → N < fuel →
          ∃ st2, updateInSlice_delayed env timeslice fuel st = some st2 ∧
            CachesConsistent o N env.lm env.pars env.cdwl_eta st2.fc)) ∧
    (∀ (env : LocalEnv OpDim.three K) (timeslice : ℕ) (st : SliceState OpDim.three N K),
      env.pars.turnoffFermions = false →
      CachesConsistent OpDim.three N env.lm env.pars env.cdwl_eta st.fc →
      ∃ st2, updateInSlice_iterative env timeslice st = some st2 ∧
        CachesConsistent OpDim.three N env.lm env.pars env.cdwl_eta st2.fc) ∧
    (∀ (env : GlobalEnv o N K U) (cdwl_eta : ℤ → K) (st : GlobalState o N K U),
      LatticePeriodic env.lat env.pars.m → env.pars.m + 1 < 4294967296 →
      env.pars.m < fuel → N * env.pars.m ≤ fuel →
      (∀ c, c < env.repeatWolffPerSweep → dot (env.rd c) (env.rd c) = 1) →
      (∀ c, c < env.repeatWolffPerSweep →
        1 ≤ env.seedSlice c ∧ env.seedSlice c ≤ env.pars.m) →
      (env.pars.turnoffFermions = false → st.currentTimeslice = env.pars.m) →
      CachesConsistent o N env.lm env.pars cdwl_eta st.fc →
      (∃ st2, attemptWolffClusterUpdate env fuel st = some st2 ∧
        CachesConsistent o N env.lm env.pars cdwl_eta st2.fc) ∧
      (env.pars.turnoffFermions = false →
        (∃ st2, attemptGlobalShiftMove env fuel st = some st2 ∧
          CachesConsistent o N env.lm env.pars cdwl_eta st2.fc) ∧
        (∃ st2, attemptWolffClusterShiftUpdate env fuel st = some st2 ∧
          CachesConsistent o N env.lm env.pars cdwl_eta st2.fc))) := by
  refine ⟨?_, ?_, ?_, ?_⟩
  · intro lm pars cdwl_eta phiFixed randRange rand01 hm32 hfuel
    exact constructField_consistent o N lm pars cdwl_eta phiFixed randRange rand01 fuel
      hm32 hfuel
  · intro env timeslice st hferm h
    exact ⟨updateInSlice_woodbury_consistent env timeslice st hferm h,
      fun hdelay hfuel =>
        updateInSlice_delayed_consistent env timeslice fuel st hferm hdelay hfuel h⟩
  · intro env timeslice st hferm h
    exact updateInSlice_iterative_consistent env timeslice st hferm h
  · intro env cdwl_eta st hlat hm32 hfuel hcfuel hrd hseed hts h
    refine ⟨attemptWolffClusterUpdate_consistent env cdwl_eta fuel st hlat hcfuel hrd hseed
      hts h, fun hferm => ⟨?_, ?_⟩⟩
    · exact attemptGlobalShiftMove_consistent env cdwl_eta fuel st hferm hlat hm32 hfuel
        (hts hferm) h
    · exact attemptWolffClusterShiftUpdate_consistent env cdwl_eta fuel st hferm hlat hm32
        hfuel hcfuel hrd hseed (hts hferm) h

/-- Witness for the amended C19, with fermions on one site and one time slice
(`lambda = dtau = 1`): the constructor returns a field with consistent caches, and
`updateInSlice_woodbury` from the field `phi = 1` accepts the proposal `phi = 2`, writes
`phi(0, 0, 1) = 2` and `coshTermPhi(0, 1) = cosh(2)`, and leaves consistent caches. -/
theorem caches_consistent_with_fermions_witness :
    (∃ fc, DetSDW.constructField OpDim.one 1 polyLibm oneSiteParams (fun _ => 0) true
        (fun _ _ _ => 0) (fun _ _ => 0) 2 = some fc ∧
      CachesConsistent OpDim.one 1 polyLibm oneSiteParams (fun _ => 0) fc) ∧
    (updateInSlice_woodbury fermionicLocalEnv 1 unitFieldState).fc.phi 0 0 1 = 2 ∧
    (updateInSlice_woodbury fermionicLocalEnv 1 unitFieldState).fc.coshTermPhi 0 1
      = fermionicLocalEnv.lm.cosh 2 ∧
    CachesConsistent OpDim.one 1 fermionicLocalEnv.lm fermionicLocalEnv.pars
      fermionicLocalEnv.cdwl_eta (updateInSlice_woodbury fermionicLocalEnv 1 unitFieldState).fc := by
  obtain ⟨h1, h2, _, _⟩ := caches_consistent_with_fermions (K := ℚ) OpDim.one 1 Unit 2
  have hc := (h2 fermionicLocalEnv 1 unitFieldState rfl
    (unitFieldState_consistent _ rfl rfl rfl)).1
  have hr1 : List.range 1 = [0] := by
    decide
  have hs4 : Nat.sqrt 4 = 2 := Nat.sqrt_eq 2
  have hphi : (updateInSlice_woodbury fermionicLocalEnv 1 unitFieldState).fc.phi 0 0 1 = 2 := by
    simp [updateInSlice_woodbury, updateInSlice_woodbury_site, hr1, fermionicLocalEnv,
      unitFieldState, oneSiteParams, commitLocalUpdate, updateCoshSinhTerms,
      updateCoshSinhTermsPhi, setCDWl, setPhi]
  refine ⟨h1 polyLibm oneSiteParams (fun _ => 0) true (fun _ _ _ => 0) (fun _ _ => 0)
    (by decide) (by decide), hphi, ?_, hc⟩
  obtain ⟨⟨e1, _⟩, _⟩ := hc 0 1 (by decide) (by decide) (by decide)
  rw [e1]
  have hdot : dot
      (getPhi OpDim.one.dim (updateInSlice_woodbury fermionicLocalEnv 1 unitFieldState).fc 0 1)
      (getPhi OpDim.one.dim (updateInSlice_woodbury fermionicLocalEnv 1 unitFieldState).fc 0 1)
      = 4 := by
    simp only [dot, getPhi, Finset.univ_unique, Fin.default_eq_zero, Fin.val_zero,
      Finset.sum_singleton, hphi]
    norm_num
  rw [hdot]
  simp [fermionicLocalEnv, oneSiteParams, polyLibm, hs4]

/-! ## C20: adjustment of the box size -/

/-- The call of `updateInSliceThermalization` on the example state (BOX proposal, the
100th sample): the step size is adjusted for the average `acc`. -/
theorem updateInSliceThermalization_example (phiDelta acc : ℚ) :
    updateInSliceThermalization cumulativeAverage exampleAdjustmentConsts false
        SpinProposalMethod_Type.BOX false (fun _ st => st) 1
        (exampleThermalizationState phiDelta acc)
      = some { exampleThermalizationState phiDelta acc with
          ad := adjustStepSize exampleAdjustmentConsts false AdaptingWhat.ADAPT_BOX acc
            { (exampleThermalizationState phiDelta acc).ad with
              accRatioLocal_box_RA := (100, 99 * acc + acc) } } := by
  have e : (99 * acc + acc) / 100 = acc := by
    ring
  simp [updateInSliceThermalization, adaptingWhat, exampleThermalizationState,
    cumulativeAverage, exampleAdjustmentConsts, AdjustmentData.setRa, AdjustmentData.ra, e]

/-- C20 (counterexample), with the constants of the example (an adjustment every 100
samples, factors `21/20` and `19/20`, target `1/2`).  At an adjustment point with the
averaged acceptance ratio equal to the target, `phiDelta = 1/2` is left as it is: it is
multiplied neither by the grow factor nor by the shrink factor.  And no interval
`[lo, hi]` with `0 < lo` is kept: from `phiDelta = lo` an adjustment with the average `0`
below the target gives `phiDelta = lo * 19/20 < lo`. -/
theorem phiDelta_not_clamped :
    (∃ st', updateInSliceThermalization cumulativeAverage exampleAdjustmentConsts false
        SpinProposalMethod_Type.BOX false (fun _ st => st) 1
        (exampleThermalizationState (1 / 2) (1 / 2)) = some st' ∧
      st'.ad.phiDelta = 1 / 2 ∧
      st'.ad.phiDelta ≠ 1 / 2 * exampleAdjustmentConsts.phiDeltaGrowFactor ∧
      st'.ad.phiDelta ≠ 1 / 2 * exampleAdjustmentConsts.phiDeltaShrinkFactor) ∧
    (∀ lo hi : ℚ, 0 < lo → lo ≤ hi →
      ∃ st', updateInSliceThermalization cumulativeAverage exampleAdjustmentConsts false
          SpinProposalMethod_Type.BOX false (fun _ st => st) 1
          (exampleThermalizationState lo 0) = some st' ∧
        (lo ≤ (exampleThermalizationState lo 0).ad.phiDelta ∧
          (exampleThermalizationState lo 0).ad.phiDelta ≤ hi) ∧
        st'.ad.phiDelta < lo) := by
  constructor
  · refine ⟨_, updateInSliceThermalization_example (1 / 2) (1 / 2), ?_, ?_, ?_⟩
    · simp [adjustStepSize, exampleThermalizationState]
    · norm_num [adjustStepSize, exampleThermalizationState, exampleAdjustmentConsts]
    · norm_num [adjustStepSize, exampleThermalizationState, exampleAdjustmentConsts]
  · intro lo hi hlo hhi
    refine ⟨_, updateInSliceThermalization_example lo 0, ⟨le_refl _, hhi⟩, ?_⟩
    simp only [adjustStepSize, exampleThermalizationState, exampleAdjustmentConsts]
    norm_num
    linarith

/-- C20 (amended). BOX step-size adjustment: a call of `updateInSliceThermalization` with
the BOX proposal (`phiFixed` not set, `AccRatioAdjustmentSamples > 0`) returns; it adds
the acceptance ratio of the slice update to the running average of the box moves, and if
the number of samples is then a multiple of `AccRatioAdjustmentSamples` (an adjustment
point) `phiDelta` is multiplied by `phiDeltaShrinkFactor` if the average is below the
target, multiplied by `phiDeltaGrowFactor` if it is above the target, and left as it is
if it equals the target; otherwise `phiDelta` is left as it is.  The result is not
clamped: it is exactly the product. -/
theorem updateInSliceThermalization_box {RA K S : Type} [LinearOrderedField K]
    (ops : RunningAverageOps RA K) (consts : AdjustmentConsts K) (adaptScaleVariance : Bool)
    (updateInSlice : ℕ → ThermalizationState RA K S → ThermalizationState RA K S)
    (timeslice : ℕ) (st : ThermalizationState RA K S)
    (hsamples : 0 < consts.AccRatioAdjustmentSamples) :
    ∃ st', updateInSliceThermalization ops consts false SpinProposalMethod_Type.BOX
        adaptScaleVariance updateInSlice timeslice st = some st' ∧
      st'.ad.accRatioLocal_box_RA
        = ops.addValue (updateInSlice timeslice st).ad.lastAccRatioLocal_phi
            (updateInSlice timeslice st).ad.accRatioLocal_box_RA ∧
      st'.ad.targetAccRatioLocal_phi = (updateInSlice timeslice st).ad.targetAccRatioLocal_phi ∧
      st'.ad.phiDelta =
        (if ops.getSamplesAdded st'.ad.accRatioLocal_box_RA % 4294967296
            % consts.AccRatioAdjustmentSamples = 0 then
          (if ops.get st'.ad.accRatioLocal_box_RA < st'.ad.targetAccRatioLocal_phi then
            (updateInSlice timeslice st).ad.phiDelta * consts.phiDeltaShrinkFactor
          else if ops.get st'.ad.accRatioLocal_box_RA > st'.ad.targetAccRatioLocal_phi then
            (updateInSlice timeslice st).ad.phiDelta * consts.phiDeltaGrowFactor
          else (updateInSlice timeslice st).ad.phiDelta)
        else (updateInSlice timeslice st).ad.phiDelta) := by
  unfold updateInSliceThermalization
  simp only [Bool.false_eq_true, if_false, adaptingWhat, Option.some_bind,
    AdjustmentData.setRa, AdjustmentData.ra]
  rw [if_neg (by omega)]
  split_ifs with h1
  · refine ⟨_, rfl, ?_, ?_, ?_⟩
    · simp only [adjustStepSize]
      split_ifs <;> rfl
    · simp only [adjustStepSize]
      split_ifs <;> rfl
    · simp only [adjustStepSize]
      split_ifs <;> rfl
  · exact ⟨_, rfl, rfl, rfl, by simp [h1]⟩

/-- Witness for the amended C20: the example state with `phiDelta = 1/2` and the
acceptance ratio `1/4`, below the target. -/
theorem updateInSliceThermalization_box_witness :
    ∃ st', updateInSliceThermalization cumulativeAverage exampleAdjustmentConsts false
        SpinProposalMethod_Type.BOX false (fun _ st => st) 1
        (exampleThermalizationState (1 / 2) (1 / 4)) = some st' ∧
      st'.ad.phiDelta = 1 / 2 * (19 / 20) := by
  obtain ⟨st', h1, h2, h3, h4⟩ := updateInSliceThermalization_box cumulativeAverage
    exampleAdjustmentConsts false (fun _ st => st) 1
    (exampleThermalizationState (1 / 2) (1 / 4)) (by decide)
  refine ⟨st', h1, ?_⟩
  rw [h4, h2, h3]
  norm_num [exampleThermalizationState, cumulativeAverage, exampleAdjustmentConsts]

/-! ## C21: adjustment of the width of the scale moves -/

/-- The call of `updateInSliceThermalization` on the example state (`ROTATE_THEN_SCALE`
after an odd number of sweeps, the 100th sample of the scale moves): the step size is
adjusted for the average `acc`. -/
theorem updateInSliceThermalization_scale_example (adaptScaleVariance : Bool)
    (scaleDelta acc : ℚ) :
    updateInSliceThermalization cumulativeAverage exampleAdjustmentConsts false
        SpinProposalMethod_Type.ROTATE_THEN_SCALE adaptScaleVariance (fun _ st => st) 1
        (exampleScaleState scaleDelta acc)
      = some { exampleScaleState scaleDelta acc with
          ad := adjustStepSize exampleAdjustmentConsts adaptScaleVariance
            AdaptingWhat.ADAPT_SCALE acc
            { (exampleScaleState scaleDelta acc).ad with
              accRatioLocal_scale_RA := (100, 99 * acc + acc) } } := by
  have e : (99 * acc + acc) / 100 = acc := by
    ring
  simp [updateInSliceThermalization, adaptingWhat, exampleScaleState,
    cumulativeAverage, exampleAdjustmentConsts, AdjustmentData.setRa, AdjustmentData.ra, e]

/-- C21 (failing input). With `adaptScaleVariance` enabled, the search interval `[0, 1]`,
`scaleDelta = 1/2 > MinScaleDelta = 0` and the averaged acceptance ratio `1/4` below the
target `1/2` at an adjustment point, `updateInSliceThermalization` leaves
`scaleDelta = 1/2` and `curmaxScaleDelta = 1`: it does not move `scaleDelta` half-way
towards `curminScaleDelta` (to `1/4`).  With `scaleDelta = MaxScaleDelta = 1` and the
averaged acceptance ratio `3/4` above the target it lowers `scaleDelta` to `1/2`. -/
theorem scaleDelta_not_decreased :
    (∃ st2, updateInSliceThermalization cumulativeAverage exampleAdjustmentConsts false
        SpinProposalMethod_Type.ROTATE_THEN_SCALE true (fun _ st => st) 1
        (exampleScaleState (1 / 2) (1 / 4)) = some st2 ∧
      cumulativeAverage.get st2.ad.accRatioLocal_scale_RA = 1 / 4 ∧
      st2.ad.scaleDelta = 1 / 2 ∧ st2.ad.curmaxScaleDelta = 1 ∧
      st2.ad.scaleDelta ≠ 1 / 2 - (1 / 2 - (exampleScaleState (1 / 2) (1 / 4)).ad.curminScaleDelta) / 2) ∧
    (∃ st2, updateInSliceThermalization cumulativeAverage exampleAdjustmentConsts false
        SpinProposalMethod_Type.ROTATE_THEN_SCALE true (fun _ st => st) 1
        (exampleScaleState 1 (3 / 4)) = some st2 ∧
      st2.ad.scaleDelta = 1 / 2) := by
  constructor
  · refine ⟨_, updateInSliceThermalization_scale_example true (1 / 2) (1 / 4), ?_, ?_, ?_, ?_⟩
    · norm_num [adjustStepSize, exampleScaleState, exampleAdjustmentConsts, cumulativeAverage]
    · norm_num [adjustStepSize, exampleScaleState, exampleAdjustmentConsts]
    · norm_num [adjustStepSize, exampleScaleState, exampleAdjustmentConsts]
    · norm_num [adjustStepSize, exampleScaleState, exampleAdjustmentConsts]
  · refine ⟨_, updateInSliceThermalization_scale_example true 1 (3 / 4), ?_⟩
    norm_num [adjustStepSize, exampleScaleState, exampleAdjustmentConsts]

/-- C21 (what the code does). SCALE step-size adjustment: a call of
`updateInSliceThermalization` with `ROTATE_THEN_SCALE` after an odd number of sweeps
(`phiFixed` not set, `AccRatioAdjustmentSamples > 0`) returns and adds the acceptance
ratio to the running average of the scale moves.  With `adaptScaleVariance` disabled
`scaleDelta` is not changed.  With `adaptScaleVariance` enabled, at an adjustment point:
if the average is above the target and `scaleDelta < MaxScaleDelta`, `scaleDelta` moves
half-way towards `curmaxScaleDelta`; if the average is above the target,
`scaleDelta ≥ MaxScaleDelta` and `scaleDelta > MinScaleDelta`, it moves half-way towards
`curminScaleDelta`; if the average is not above the target, `scaleDelta` is not
changed. -/
theorem updateInSliceThermalization_scale {RA K S : Type} [LinearOrderedField K]
    (ops : RunningAverageOps RA K) (consts : AdjustmentConsts K) (adaptScaleVariance : Bool)
    (updateInSlice : ℕ → ThermalizationState RA K S → ThermalizationState RA K S)
    (timeslice : ℕ) (st : ThermalizationState RA K S)
    (hsamples : 0 < consts.AccRatioAdjustmentSamples)
    (hodd : (updateInSlice timeslice st).performedSweeps % 2 = 1) :
    ∃ st2, updateInSliceThermalization ops consts false
        SpinProposalMethod_Type.ROTATE_THEN_SCALE adaptScaleVariance updateInSlice
        timeslice st = some st2 ∧
      st2.ad.accRatioLocal_scale_RA
        = ops.addValue (updateInSlice timeslice st).ad.lastAccRatioLocal_phi
            (updateInSlice timeslice st).ad.accRatioLocal_scale_RA ∧
      st2.ad.targetAccRatioLocal_phi = (updateInSlice timeslice st).ad.targetAccRatioLocal_phi ∧
      st2.ad.scaleDelta =
        (if adaptScaleVariance = true ∧
            ops.getSamplesAdded st2.ad.accRatioLocal_scale_RA % 4294967296
              % consts.AccRatioAdjustmentSamples = 0 ∧
            ops.get st2.ad.accRatioLocal_scale_RA > st2.ad.targetAccRatioLocal_phi then
          (if (updateInSlice timeslice st).ad.scaleDelta < consts.MaxScaleDelta then
            (updateInSlice timeslice st).ad.scaleDelta
              + ((updateInSlice timeslice st).ad.curmaxScaleDelta
                  - (updateInSlice timeslice st).ad.scaleDelta) / 2
          else if (updateInSlice timeslice st).ad.scaleDelta > consts.MinScaleDelta then
            (updateInSlice timeslice st).ad.scaleDelta
              - ((updateInSlice timeslice st).ad.scaleDelta
                  - (updateInSlice timeslice st).ad.curminScaleDelta) / 2
          else (updateInSlice timeslice st).ad.scaleDelta)
        else (updateInSlice timeslice st).ad.scaleDelta) := by
  unfold updateInSliceThermalization
  have hne : ¬ (updateInSlice timeslice st).performedSweeps % 2 = 0 := by
    omega
  simp only [Bool.false_eq_true, if_false, adaptingWhat, hne, Option.some_bind,
    AdjustmentData.setRa, AdjustmentData.ra]
  rw [if_neg (by omega)]
  by_cases h1 : ops.getSamplesAdded
      (ops.addValue (updateInSlice timeslice st).ad.lastAccRatioLocal_phi
        (updateInSlice timeslice st).ad.accRatioLocal_scale_RA) % 4294967296
      % consts.AccRatioAdjustmentSamples = 0
  · rw [if_pos h1]
    refine ⟨_, rfl, ?_, ?_, ?_⟩
    · simp only [adjustStepSize]
      split_ifs <;> rfl
    · simp only [adjustStepSize]
      split_ifs <;> rfl
    · have htarget : (adjustStepSize consts adaptScaleVariance AdaptingWhat.ADAPT_SCALE
          (ops.get (ops.addValue (updateInSlice timeslice st).ad.lastAccRatioLocal_phi
            (updateInSlice timeslice st).ad.accRatioLocal_scale_RA))
          { (updateInSlice timeslice st).ad with
            accRatioLocal_scale_RA :=
              ops.addValue (updateInSlice timeslice st).ad.lastAccRatioLocal_phi
                (updateInSlice timeslice st).ad.accRatioLocal_scale_RA }).accRatioLocal_scale_RA
          = ops.addValue (updateInSlice timeslice st).ad.lastAccRatioLocal_phi
            (updateInSlice timeslice st).ad.accRatioLocal_scale_RA := by
        simp only [adjustStepSize]
        split_ifs <;> rfl
      have htarget2 : (adjustStepSize consts adaptScaleVariance AdaptingWhat.ADAPT_SCALE
          (ops.get (ops.addValue (updateInSlice timeslice st).ad.lastAccRatioLocal_phi
            (updateInSlice timeslice st).ad.accRatioLocal_scale_RA))
          { (updateInSlice timeslice st).ad with
            accRatioLocal_scale_RA :=
              ops.addValue (updateInSlice timeslice st).ad.lastAccRatioLocal_phi
                (updateInSlice timeslice st).ad.accRatioLocal_scale_RA }).targetAccRatioLocal_phi
          = (updateInSlice timeslice st).ad.targetAccRatioLocal_phi := by
        simp only [adjustStepSize]
        split_ifs <;> rfl
      simp only [htarget, htarget2, h1, true_and]
      simp only [adjustStepSize]
      cases adaptScaleVariance
      · simp
      · simp only [not_true_eq_false, if_false, true_and]
        split_ifs <;> first | rfl | (exfalso; tauto)
  · rw [if_neg h1]
    exact ⟨_, rfl, rfl, rfl, by simp [h1]⟩

/-- Witness for C21 (what the code does): the example state with `scaleDelta = 1/2` and
the acceptance ratio `3/4`, above the target; `scaleDelta` moves half-way towards
`curmaxScaleDelta = 1`. -/
theorem updateInSliceThermalization_scale_witness :
    ∃ st2, updateInSliceThermalization cumulativeAverage exampleAdjustmentConsts false
        SpinProposalMethod_Type.ROTATE_THEN_SCALE true (fun _ st => st) 1
        (exampleScaleState (1 / 2) (3 / 4)) = some st2 ∧
      st2.ad.scaleDelta = 3 / 4 := by
  obtain ⟨st2, h1, h2, h3, h4⟩ := updateInSliceThermalization_scale cumulativeAverage
    exampleAdjustmentConsts true (fun _ st => st) 1
    (exampleScaleState (1 / 2) (3 / 4)) (by decide) (by decide)
  refine ⟨st2, h1, ?_⟩
  rw [h4, h2, h3]
  norm_num [exampleScaleState, cumulativeAverage, exampleAdjustmentConsts]

/-! ## C22: the ROTATE proposal -/

/-- The rotated unit vector: for a unit vector `(xn, yn, zn)` off the z axis, a sine and
cosine `s`, `c` of the polar angle and `sp`, `cp` of the azimuth, the vector that
`proposeRandomRotatedVector<3>::give` computes is a unit vector and its scalar product
with `(xn, yn, zn)` is `c`. -/
theorem cone_frame {K : Type} [Field K] (xn yn zn s c cp sp : K)
    (hd0 : xn ^ 2 + yn ^ 2 ≠ 0) (h1 : xn ^ 2 + yn ^ 2 + zn ^ 2 = 1)
    (h2 : s ^ 2 + c ^ 2 = 1) (h3 : cp ^ 2 + sp ^ 2 = 1) :
    ((s / (xn ^ 2 + yn ^ 2)) * ((xn ^ 2 * zn + yn ^ 2) * cp + (zn - 1) * xn * yn * sp)
        + xn * c) ^ 2
      + ((s / (xn ^ 2 + yn ^ 2)) * ((zn - 1) * xn * yn * cp + (xn ^ 2 + yn ^ 2 * zn) * sp)
        + yn * c) ^ 2
      + (-s * (xn * cp + yn * sp) + zn * c) ^ 2 = 1 ∧
    xn * ((s / (xn ^ 2 + yn ^ 2)) * ((xn ^ 2 * zn + yn ^ 2) * cp
        + (zn - 1) * xn * yn * sp) + xn * c)
      + yn * ((s / (xn ^ 2 + yn ^ 2)) * ((zn - 1) * xn * yn * cp
        + (xn ^ 2 + yn ^ 2 * zn) * sp) + yn * c)
      + zn * (-s * (xn * cp + yn * sp) + zn * c) = c := by
  obtain ⟨t, ht⟩ : ∃ t, (xn ^ 2 + yn ^ 2) * t = 1 := ⟨_, mul_inv_cancel₀ hd0⟩
  have hdiv : ∀ a : K, a / (xn ^ 2 + yn ^ 2) = a * t := by
    intro a
    rw [div_eq_iff hd0]
    linear_combination (-a) * ht
  rw [hdiv]
  have F11 : ((xn ^ 2 * zn + yn ^ 2) * t) ^ 2 + ((zn - 1) * xn * yn * t) ^ 2 + xn ^ 2 = 1 := by
    linear_combination (t ^ 2 * (xn ^ 2 + yn ^ 2) * xn ^ 2) * h1
      + ((xn ^ 2 + yn ^ 2) * t + 1) * (1 - xn ^ 2) * ht
  have F22 : ((zn - 1) * xn * yn * t) ^ 2 + ((xn ^ 2 + yn ^ 2 * zn) * t) ^ 2 + yn ^ 2 = 1 := by
    linear_combination (t ^ 2 * (xn ^ 2 + yn ^ 2) * yn ^ 2) * h1
      + ((xn ^ 2 + yn ^ 2) * t + 1) * (1 - yn ^ 2) * ht
  have F12 : ((xn ^ 2 * zn + yn ^ 2) * t) * ((zn - 1) * xn * yn * t)
      + ((zn - 1) * xn * yn * t) * ((xn ^ 2 + yn ^ 2 * zn) * t) + xn * yn = 0 := by
    linear_combination (t ^ 2 * (xn ^ 2 + yn ^ 2) * xn * yn) * h1
      - ((xn ^ 2 + yn ^ 2) * t + 1) * (xn * yn) * ht
  have F1n : ((xn ^ 2 * zn + yn ^ 2) * t) * xn + ((zn - 1) * xn * yn * t) * yn
      = xn * zn := by
    linear_combination (xn * zn) * ht
  have F2n : ((zn - 1) * xn * yn * t) * xn + ((xn ^ 2 + yn ^ 2 * zn) * t) * yn
      = yn * zn := by
    linear_combination (yn * zn) * ht
  constructor
  · linear_combination (s ^ 2 * cp ^ 2) * F11 + (2 * s ^ 2 * cp * sp) * F12
      + (s ^ 2 * sp ^ 2) * F22 + (2 * s * c * cp) * F1n + (2 * s * c * sp) * F2n
      + c ^ 2 * h1 + s ^ 2 * h3 + h2
  · linear_combination (s * cp) * F1n + (s * sp) * F2n + c * h1

/-- The ROTATE proposal for a vector off the z axis, for math functions that are exact at
the points where they are evaluated: the result has the squared length of the old vector
and its scalar product with the old vector is `cosTheta` times that squared length. -/
theorem give_spec {K : Type} [Field K] [DecidableEq K]
    (sqrt cos sin : K → K) (M_PI : K) (rand01 : ℕ → K) (angleDelta : K) (vec : Phi 3 K)
    (hxy : vec 0 ^ 2 + vec 1 ^ 2 ≠ 0)
    (hr2 : vec 0 ^ 2 + vec 1 ^ 2 + vec 2 ^ 2 ≠ 0)
    (hr : sqrt (vec 0 ^ 2 + vec 1 ^ 2 + vec 2 ^ 2) ^ 2 = vec 0 ^ 2 + vec 1 ^ 2 + vec 2 ^ 2)
    (hs : sqrt (1 - (rand01 0 * (1 - angleDelta) + angleDelta) ^ 2) ^ 2
      = 1 - (rand01 0 * (1 - angleDelta) + angleDelta) ^ 2)
    (hcs : cos (rand01 1 * 2 * M_PI) ^ 2 + sin (rand01 1 * 2 * M_PI) ^ 2 = 1) :
    ∃ w, proposeRandomRotatedVector3.give sqrt cos sin M_PI rand01 angleDelta vec = some w ∧
      dot w w = dot vec vec ∧
      dot vec w = dot vec vec * (rand01 0 * (1 - angleDelta) + angleDelta) := by
  have hr0 : sqrt (vec 0 ^ 2 + vec 1 ^ 2 + vec 2 ^ 2) ≠ 0 := by
    intro h
    rw [h] at hr
    exact hr2 (by rw [← hr]; ring)
  set r := sqrt (vec 0 ^ 2 + vec 1 ^ 2 + vec 2 ^ 2) with hrdef
  have hx2n : vec 0 ^ 2 / (vec 0 ^ 2 + vec 1 ^ 2 + vec 2 ^ 2) = (vec 0 / r) ^ 2 := by
    rw [← hr, div_pow]
  have hy2n : vec 1 ^ 2 / (vec 0 ^ 2 + vec 1 ^ 2 + vec 2 ^ 2) = (vec 1 / r) ^ 2 := by
    rw [← hr, div_pow]
  have hn : (vec 0 / r) ^ 2 + (vec 1 / r) ^ 2 + (vec 2 / r) ^ 2 = 1 := by
    rw [div_pow, div_pow, div_pow, ← add_div, ← add_div, hr]
    exact div_self hr2
  have hd0 : (vec 0 / r) ^ 2 + (vec 1 / r) ^ 2 ≠ 0 := by
    rw [div_pow, div_pow, ← add_div]
    exact div_ne_zero hxy (pow_ne_zero 2 hr0)
  have hsc : sqrt (1 - (rand01 0 * (1 - angleDelta) + angleDelta) ^ 2) ^ 2
      + (rand01 0 * (1 - angleDelta) + angleDelta) ^ 2 = 1 := by
    rw [hs]
    ring
  obtain ⟨e1, e2⟩ := cone_frame (vec 0 / r) (vec 1 / r) (vec 2 / r)
    (sqrt (1 - (rand01 0 * (1 - angleDelta) + angleDelta) ^ 2))
    (rand01 0 * (1 - angleDelta) + angleDelta)
    (cos (rand01 1 * 2 * M_PI)) (sin (rand01 1 * 2 * M_PI)) hd0 hn hsc hcs
  have hv0 : vec 0 = vec 0 / r * r := by field_simp
  have hv1 : vec 1 = vec 1 / r * r := by field_simp
  have hv2 : vec 2 = vec 2 / r * r := by field_simp
  have hrr : r * r = vec 0 ^ 2 + vec 1 ^ 2 + vec 2 ^ 2 := by rw [← hr]; ring
  unfold proposeRandomRotatedVector3.give
  simp only [← hrdef, hx2n, hy2n]
  rw [if_neg (by simp only [not_or]; exact ⟨hr2, hr0⟩), if_neg hd0]
  refine ⟨_, rfl, ?_, ?_⟩
  · simp only [dot, Fin.sum_univ_three, Matrix.cons_val_zero, Matrix.cons_val_one,
      Matrix.head_cons, Matrix.cons_val_two, Matrix.tail_cons]
    linear_combination (r * r) * e1 + hrr
  · simp only [dot, Fin.sum_univ_three, Matrix.cons_val_zero, Matrix.cons_val_one,
      Matrix.head_cons, Matrix.cons_val_two, Matrix.tail_cons]
    have key : ∀ a b c : K, vec 0 * (a * r) + vec 1 * (b * r) + vec 2 * (c * r)
        = (r * r) * (vec 0 / r * a + vec 1 / r * b + vec 2 / r * c) := by
      intro a b c
      field_simp
      ring
    rw [key]
    linear_combination (r * r) * e2
      + (rand01 0 * (1 - angleDelta) + angleDelta) * hrr

/-- C22 (the code departs from the claim): for the non-zero vector `(0, 0, 1)` on the z
axis the normalised squares `x2n + y2n` are zero, and the new components are computed
with the division `sinTheta / (x2n + y2n)` by zero: no vector of the length of the old
one comes out. -/
theorem rotate_z_axis_divides_by_zero :
    (![0, 0, 1] : Phi 3 ℝ) ≠ 0 ∧
      proposeRandomRotatedVector3.give Real.sqrt Real.cos Real.sin Real.pi
        (fun _ => 1 / 2) 0 ![0, 0, 1] = none := by
  constructor
  · intro h
    have := congrFun h 2
    simp at this
  · unfold proposeRandomRotatedVector3.give
    simp

/-- C22 (for vectors off the z axis, in exact real arithmetic): for every old vector
`v` with `x^2 + y^2 ≠ 0`, every `angleDelta` in `[-1, 1]` and every pair of random numbers
in `[0, 1]`, `proposeRandomRotatedVector<3>::give` returns a vector `w` with
`w . w = v . v` and `v . w = (v . v) * cosTheta`, where
`cosTheta = rand*(1 - angleDelta) + angleDelta` lies in `[angleDelta, 1]`. -/
theorem rotate_preserves_length (rand01 : ℕ → ℝ) (angleDelta : ℝ) (vec : Phi 3 ℝ)
    (hxy : vec 0 ^ 2 + vec 1 ^ 2 ≠ 0)
    (ha : -1 ≤ angleDelta) (ha1 : angleDelta ≤ 1)
    (h0 : 0 ≤ rand01 0) (h1 : rand01 0 ≤ 1) :
    ∃ w, proposeRandomRotatedVector3.give Real.sqrt Real.cos Real.sin Real.pi rand01
        angleDelta vec = some w ∧
      dot w w = dot vec vec ∧
      dot vec w = dot vec vec * (rand01 0 * (1 - angleDelta) + angleDelta) ∧
      angleDelta ≤ rand01 0 * (1 - angleDelta) + angleDelta ∧
      rand01 0 * (1 - angleDelta) + angleDelta ≤ 1 := by
  have hxy0 : 0 < vec 0 ^ 2 + vec 1 ^ 2 :=
    lt_of_le_of_ne (by positivity) (Ne.symm hxy)
  have hr2 : 0 < vec 0 ^ 2 + vec 1 ^ 2 + vec 2 ^ 2 := by positivity
  have hlo : angleDelta ≤ rand01 0 * (1 - angleDelta) + angleDelta := by
    nlinarith [mul_nonneg h0 (sub_nonneg.mpr ha1)]
  have hhi : rand01 0 * (1 - angleDelta) + angleDelta ≤ 1 := by
    nlinarith [mul_nonneg (sub_nonneg.mpr h1) (sub_nonneg.mpr ha1)]
  have hc2 : 0 ≤ 1 - (rand01 0 * (1 - angleDelta) + angleDelta) ^ 2 := by
    nlinarith
  obtain ⟨w, hw, e1, e2⟩ := give_spec Real.sqrt Real.cos Real.sin Real.pi rand01
    angleDelta vec hxy (ne_of_gt hr2) (Real.sq_sqrt (le_of_lt hr2)) (Real.sq_sqrt hc2)
    (Real.cos_sq_add_sin_sq _)
  exact ⟨w, hw, e1, e2, hlo, hhi⟩

/-- C22, at the vector `(3, 4, 0)` with `angleDelta = 1/2` and the random numbers
`1/2`. -/
theorem rotate_preserves_length_witness :
    ∃ w, proposeRandomRotatedVector3.give Real.sqrt Real.cos Real.sin Real.pi
        (fun _ => 1 / 2) (1 / 2) ![3, 4, 0] = some w ∧
      dot w w = dot (![3, 4, 0] : Phi 3 ℝ) ![3, 4, 0] ∧
      dot (![3, 4, 0] : Phi 3 ℝ) w
        = dot (![3, 4, 0] : Phi 3 ℝ) ![3, 4, 0] * (1 / 2 * (1 - 1 / 2) + 1 / 2) ∧
      (1 / 2 : ℝ) ≤ 1 / 2 * (1 - 1 / 2) + 1 / 2 ∧
      (1 / 2 : ℝ) * (1 - 1 / 2) + 1 / 2 ≤ 1 :=
  rotate_preserves_length (fun _ => 1 / 2) (1 / 2) ![3, 4, 0]
    (by norm_num) (by norm_num) (by norm_num) (by norm_num) (by norm_num)

/-! ## C23: the probability of a replica exchange -/

/-- One sweep of the big loop: with `measureInterval ≠ 0` the switch returns, keeps the
invariant, lowers the number of passes left by one, adds no evaluation of the
cancellation conditions and adds one sweep to the trace. -/
theorem runSwitch_spec (parsmc : DetQMCParams) (st : RunState)
    (hT : parsmc.thermalization % 2 = 0) (hS : parsmc.saveInterval % 2 = 0)
    (hM : parsmc.measureInterval ≠ 0) (hT32 : parsmc.thermalization < 4294967296)
    (hS32 : parsmc.sweeps < 4294967296) (hF : st.stage ≠ Stage.F)
    (hinv : RunInv parsmc st) :
    ∃ st2, runSwitch parsmc st = some st2 ∧ RunInv parsmc st2 ∧
      passesLeft parsmc st2 + 1 = passesLeft parsmc st ∧
      checkedTotals st2.events = checkedTotals st.events ∧
      sweepsInTrace st2.events = sweepsInTrace st.events + 1 := by
  obtain ⟨b1, b2, b3, b4⟩ := hinv
  have hpar := b4 hF
  cases hst : st.stage with
  | F => exact absurd hst hF
  | T =>
    obtain ⟨c1, c2⟩ := b3 hst
    unfold runSwitch
    simp only [hst]
    split_ifs with hsave hend hend
    all_goals refine ⟨_, rfl, ⟨?_, ?_, ?_, ?_⟩, ?_, ?_, ?_⟩
    all_goals simp only [passesLeft, measurementSweepsLeft, hst, uadd, checkedTotals,
      sweepsInTrace, List.filterMap_append, List.filter_append, List.filterMap_cons,
      List.filterMap_nil, List.filter_cons, List.filter_nil, List.append_nil,
      List.length_append, List.length_cons, List.length_nil, if_true, if_false,
      ne_eq, not_true_eq_false, not_false_eq_true, forall_true_left, false_implies,
      true_implies, reduceCtorEq, Bool.false_eq_true] at *
    all_goals first | rfl | omega
  | M =>
    unfold runSwitch
    simp only [hst, hM, if_false]
    split_ifs with htm hsave hend hend hsave hend hend
    all_goals refine ⟨_, rfl, ⟨?_, ?_, ?_, ?_⟩, ?_, ?_, ?_⟩
    all_goals simp only [passesLeft, measurementSweepsLeft, hst, uadd, checkedTotals,
      sweepsInTrace, List.filterMap_append, List.filter_append, List.filterMap_cons,
      List.filterMap_nil, List.filter_cons, List.filter_nil, List.append_nil,
      List.length_append, List.length_cons, List.length_nil, if_true, if_false,
      ne_eq, not_true_eq_false, not_false_eq_true, forall_true_left, false_implies,
      true_implies, reduceCtorEq, Bool.false_eq_true, decide_True, decide_False] at *
    all_goals first | rfl | omega

/-- The invariant and the number of passes left do not depend on the trace. -/
theorem RunInv_events (parsmc : DetQMCParams) (st : RunState) (ev : List RunEvent) :
    (RunInv parsmc { st with events := ev } ↔ RunInv parsmc st) ∧
      passesLeft parsmc { st with events := ev } = passesLeft parsmc st :=
  ⟨Iff.rfl, rfl⟩

/-- The big loop for even `thermalization` and `saveInterval`: with enough fuel it
returns, every evaluation of the cancellation conditions it adds to the trace is at an
even total number of sweeps, and when it is left before the run is finished the total
number of sweeps is even. -/
theorem runLoop_even (env : RunEnv)
    (hT : env.parsmc.thermalization % 2 = 0) (hS : env.parsmc.saveInterval % 2 = 0)
    (hM : env.parsmc.measureInterval ≠ 0) (hT32 : env.parsmc.thermalization < 4294967296)
    (hS32 : env.parsmc.sweeps < 4294967296) :
    ∀ (fuel i : ℕ) (st : RunState), RunInv env.parsmc st →
      passesLeft env.parsmc st < fuel →
      (∀ t ∈ checkedTotals st.events, t % 2 = 0) →
      ∃ st2, runLoop env fuel i st = some st2 ∧
        (∀ t ∈ checkedTotals st2.events, t % 2 = 0) ∧
        (st2.stage ≠ Stage.F →
          (st2.sweepsDoneThermalization + st2.sweepsDone) % 2 = 0) := by
  intro fuel
  induction fuel with
  | zero => intro i st _ h; omega
  | succ fuel ih =>
    intro i st hinv hfuel hev
    unfold runLoop
    by_cases hF : st.stage = Stage.F
    · rw [if_pos hF]
      exact ⟨st, rfl, hev, fun h => absurd hF h⟩
    · rw [if_neg hF]
      have hpar := hinv.2.2.2 hF
      by_cases hsw : st.swCounter % 2 = 0
      · rw [if_pos hsw]
        have hev2 : ∀ t ∈ checkedTotals (st.events
            ++ [RunEvent.cancellationCheck st.sweepsDoneThermalization st.sweepsDone]),
            t % 2 = 0 := by
          intro t ht
          simp only [checkedTotals, List.filterMap_append, List.filterMap_cons,
            List.filterMap_nil, List.mem_append, List.mem_singleton] at ht
          rcases ht with ht | ht
          · exact hev t ht
          · omega
        by_cases hstop : stop_now env i = true
        · simp only [hstop, if_true]
          refine ⟨_, rfl, ?_, ?_⟩
          · intro t ht
            unfold cancelRun at ht
            simp only [checkedTotals, List.filterMap_append, List.filterMap_cons,
              List.filterMap_nil, List.mem_append, List.mem_singleton] at ht hev2
            split_ifs at ht
            · simp only [List.filterMap_append, List.filterMap_cons,
                List.filterMap_nil, List.mem_append, List.mem_singleton,
                List.not_mem_nil, or_false] at ht
              exact hev2 t ht
            · simp only [List.filterMap_append, List.filterMap_cons,
                List.filterMap_nil, List.mem_append, List.mem_singleton,
                List.not_mem_nil, or_false] at ht
              exact hev2 t ht
          · intro _
            unfold cancelRun
            split_ifs <;> simp only <;> omega
        · simp only [hstop, if_false, Bool.false_eq_true]
          obtain ⟨st2, h1, h2, h3, h4, _⟩ := runSwitch_spec env.parsmc
            { st with events := st.events
              ++ [RunEvent.cancellationCheck st.sweepsDoneThermalization st.sweepsDone] }
            hT hS hM hT32 hS32 hF hinv
          rw [h1, Option.some_bind]
          refine ih (i + 1) st2 h2 ?_ ?_
          · have : passesLeft env.parsmc { st with events := st.events
              ++ [RunEvent.cancellationCheck st.sweepsDoneThermalization st.sweepsDone] }
                = passesLeft env.parsmc st := rfl
            omega
          · rw [h4]
            exact hev2
      · rw [if_neg hsw]
        obtain ⟨st2, h1, h2, h3, h4, _⟩ := runSwitch_spec env.parsmc st
          hT hS hM hT32 hS32 hF hinv
        rw [h1, Option.some_bind]
        refine ih (i + 1) st2 h2 (by omega) ?_
        rw [h4]
        exact hev

/-! ## C24: cancellation only on even sweep counts -/

/-- C24 (the code departs from the claim): with `saveInterval = 1` the counter
`swCounter` is reset to 0 after every sweep, so the cancellation conditions are
evaluated after one sweep, at the odd total `0 + 1`; with the abort file present then,
the state is saved and the loop is left with one sweep done. -/
theorem cancellation_check_on_odd_total :
    run (exampleRunEnv (exampleParsmc 4 1) 1) 0 0 0 3 = some
        { stage := Stage.M, sweepsDone := 1, sweepsDoneThermalization := 0, swCounter := 0,
          events := [RunEvent.cancellationCheck 0 0,
            RunEvent.sweep GreenUpdateType.GreenUpdateTypeStabilized true,
            RunEvent.insertValue 0, RunEvent.saveResults, RunEvent.saveState,
            RunEvent.cancellationCheck 0 1, RunEvent.saveResults, RunEvent.saveState] } ∧
      (0 + 1) % 2 = 1 := by
  refine ⟨?_, rfl⟩
  rfl

/-- C24 (for even `thermalization` and `saveInterval`): started with counters for which
`swCounter` has the parity of `sweepsDoneThermalization + sweepsDone` (and with an even
`sweepsDone` when thermalization is not over), `DetQMC::run` returns, every evaluation
of the cancellation conditions is at an even total number of sweeps, and when the loop
is left before the run is finished the total number of sweeps is even. -/
theorem cancellation_on_even_totals (env : RunEnv)
    (sweepsDoneThermalization sweepsDone swCounter fuel : ℕ)
    (hT : env.parsmc.thermalization % 2 = 0) (hS : env.parsmc.saveInterval % 2 = 0)
    (hM : env.parsmc.measureInterval ≠ 0) (hT32 : env.parsmc.thermalization < 4294967296)
    (hS32 : env.parsmc.sweeps < 4294967296)
    (h1 : sweepsDoneThermalization < 4294967296) (h2 : sweepsDone < 4294967296)
    (hpar : swCounter % 2 = (sweepsDoneThermalization + sweepsDone) % 2)
    (hsd : sweepsDoneThermalization < env.parsmc.thermalization → sweepsDone % 2 = 0)
    (hfuel : env.parsmc.thermalization + 4294967296 < fuel) :
    ∃ st2, run env sweepsDoneThermalization sweepsDone swCounter fuel = some st2 ∧
      (∀ t ∈ checkedTotals st2.events, t % 2 = 0) ∧
      (st2.stage ≠ Stage.F →
        (st2.sweepsDoneThermalization + st2.sweepsDone) % 2 = 0) := by
  unfold run
  refine runLoop_even env hT hS hM hT32 hS32 fuel 0 _ ?_ ?_ ?_
  · refine ⟨h2, h1, ?_, fun _ => hpar⟩
    intro hst
    simp only [firstStage] at hst
    split_ifs at hst with h
    exact ⟨h, hsd h⟩
  · simp only [passesLeft, measurementSweepsLeft]
    split <;> omega
  · intro t ht
    simp [checkedTotals] at ht

/-- C24, at a run of two thermalization and four measurement sweeps saved every two
sweeps, with the abort file present from the third pass of the loop on. -/
theorem cancellation_on_even_totals_witness :
    ∃ st2, run (exampleRunEnv { exampleParsmc 4 2 with thermalization := 2 } 2) 0 0 0
        4294967299 = some st2 ∧
      (∀ t ∈ checkedTotals st2.events, t % 2 = 0) ∧
      (st2.stage ≠ Stage.F →
        (st2.sweepsDoneThermalization + st2.sweepsDone) % 2 = 0) :=
  cancellation_on_even_totals (exampleRunEnv { exampleParsmc 4 2 with thermalization := 2 } 2)
    0 0 0 4294967299 (by decide) (by decide) (by decide) (by decide) (by decide)
    (by decide) (by decide) (by decide) (fun _ => by decide) (by decide)

/-! ## C25: resuming with changed Monte Carlo parameters -/

theorem SPECIFIED_INSERT_VAL_frame (x : DetQMCParams → ℕ) (name : String)
    (p : DetQMCParams) :
    (SPECIFIED_INSERT_VAL x name p).sweeps = p.sweeps ∧
    (SPECIFIED_INSERT_VAL x name p).saveInterval = p.saveInterval := by
  unfold SPECIFIED_INSERT_VAL
  split_ifs <;> exact ⟨rfl, rfl⟩

theorem SPECIFIED_INSERT_STR_frame (x : DetQMCParams → String) (name : String)
    (p : DetQMCParams) :
    (SPECIFIED_INSERT_STR x name p).sweeps = p.sweeps ∧
    (SPECIFIED_INSERT_STR x name p).saveInterval = p.saveInterval := by
  unfold SPECIFIED_INSERT_STR
  split_ifs <;> exact ⟨rfl, rfl⟩

/-- The target sweeps and the save interval after the resuming constructor has merged
the new parameters into the stored ones. -/
theorem resumeParameters_values (stateFileName : String) (parsmc_ newParsmc : DetQMCParams) :
    (resumeParameters stateFileName parsmc_ newParsmc).sweeps
      = (if newParsmc.sweeps > parsmc_.sweeps then newParsmc.sweeps else parsmc_.sweeps) ∧
    (resumeParameters stateFileName parsmc_ newParsmc).saveInterval
      = (if newParsmc.saveInterval > 0 ∧ newParsmc.saveInterval ≠ parsmc_.saveInterval then
          newParsmc.saveInterval else parsmc_.saveInterval) := by
  unfold resumeParameters
  simp only [(SPECIFIED_INSERT_VAL_frame _ _ _).1, (SPECIFIED_INSERT_VAL_frame _ _ _).2,
    (SPECIFIED_INSERT_STR_frame _ _ _).1, (SPECIFIED_INSERT_STR_frame _ _ _).2]
  unfold mergeResumeParameters
  constructor
  · simp only
    split_ifs <;> rfl
  · simp only
    split_ifs <;> rfl

/-- C25 (failing input). A state file with `sweeps = 100` and `saveInterval = 10` is
resumed with the new values `sweeps = 50` and `saveInterval = 5`: the stored target
sweeps are kept, but the save interval is replaced by `5`, which is not greater than the
stored `10`. -/
theorem saveInterval_replaced_by_smaller :
    (resumeParameters "state.bin" (exampleParsmc 100 10) (exampleParsmc 50 5)).sweeps
      = 100 ∧
    ¬ (exampleParsmc 50 5).saveInterval > (exampleParsmc 100 10).saveInterval ∧
    (resumeParameters "state.bin" (exampleParsmc 100 10)
      (exampleParsmc 50 5)).saveInterval = 5 ∧
    (resumeParameters "state.bin" (exampleParsmc 100 10)
      (exampleParsmc 50 5)).saveInterval ≠ (exampleParsmc 100 10).saveInterval := by
  obtain ⟨h1, h2⟩ := resumeParameters_values "state.bin" (exampleParsmc 100 10)
    (exampleParsmc 50 5)
  rw [h1, h2]
  simp [exampleParsmc]

/-- C25 (what the code does). Resuming with changed Monte Carlo parameters: the target
sweeps are replaced by the newly given value if and only if it is greater than the
stored one; the save interval is replaced by the newly given value if and only if that
value is positive and differs from the stored one (it may be smaller); so the stored
save interval is kept exactly when the new value is zero or equal to it. -/
theorem resumeParameters_replaces (stateFileName : String)
    (parsmc_ newParsmc : DetQMCParams) :
    ((resumeParameters stateFileName parsmc_ newParsmc).sweeps
        = max parsmc_.sweeps newParsmc.sweeps) ∧
    (newParsmc.saveInterval = 0 →
      (resumeParameters stateFileName parsmc_ newParsmc).saveInterval
        = parsmc_.saveInterval) ∧
    (newParsmc.saveInterval ≠ 0 →
      (resumeParameters stateFileName parsmc_ newParsmc).saveInterval
        = newParsmc.saveInterval) := by
  obtain ⟨h1, h2⟩ := resumeParameters_values stateFileName parsmc_ newParsmc
  rw [h1, h2]
  refine ⟨?_, ?_, ?_⟩
  · split_ifs with h
    · exact (max_eq_right (le_of_lt h)).symm
    · exact (max_eq_left (not_lt.mp h)).symm
  · intro h0
    rw [if_neg]
    omega
  · intro h0
    split_ifs with h
    · rfl
    · have : newParsmc.saveInterval = parsmc_.saveInterval := by
        by_contra hc
        exact h ⟨by omega, hc⟩
      exact this.symm

/-! ## C26: the factor of one plaquette -/

/-- The coefficients of a plaquette are the Kronecker product of the rotation of the
vertical bonds and the rotation of the horizontal bonds, the sites `(i, j, k, l)` having
the (vertical, horizontal) positions `(0,0), (0,1), (1,0), (1,1)`. -/
theorem bondFactors_eq_kronecker {K : Type} [Field K] (ch_hor s_h ch_ver s_v : K) :
    bondFactors ch_hor s_h ch_ver s_v
      = Matrix.reindex finProdFinEquiv finProdFinEquiv
          (Matrix.kroneckerMap (fun x y => x * y)
            (!![ch_ver, s_v; s_v, ch_ver] : Matrix (Fin 2) (Fin 2) K)
            (!![ch_hor, s_h; s_h, ch_hor] : Matrix (Fin 2) (Fin 2) K)) := by
  have h3 : ((3 : Fin 4) : ℕ) = 3 := rfl
  have h2 : ((2 : Fin 4) : ℕ) = 2 := rfl
  ext a b
  fin_cases a <;> fin_cases b <;>
    simp [bondFactors, Matrix.kroneckerMap_apply, finProdFinEquiv, Fin.divNat, Fin.modNat,
      h3, h2] <;>
    ring

/-- No corner is listed twice among the plaquettes of a subgroup. -/
theorem plaquetteList_nodup (L subgroup : ℕ) : (plaquetteList L subgroup).Nodup := by
  have hr : (plaquetteRange L subgroup).Nodup := by
    unfold plaquetteRange
    refine List.Nodup.map ?_ (List.nodup_range _)
    intro a b h
    simp only at h
    omega
  have : plaquetteList L subgroup
      = (plaquetteRange L subgroup).product (plaquetteRange L subgroup) := rfl
  rw [this]
  exact List.Nodup.product hr hr

/-- Left multiplication by the factor of one plaquette with four different sites: the
rows of the plaquette are replaced by the combinations of these rows. -/
theorem plaquetteMatrix_mul_row_in {N : ℕ} {K : Type} [Field K] {κ : Type}
    (p : Fin 4 → Fin N) (hp : Function.Injective p) (M : Matrix (Fin 4) (Fin 4) K)
    (A : Matrix (Fin N) κ K) (a : Fin 4) (c : κ) :
    (plaquetteMatrix p M * A) (p a) c = ∑ b, M a b * A (p b) c := by
  rw [plaquetteMatrix_mul_apply, Finset.sum_eq_single a]
  · rw [if_pos rfl]
    simp only [sub_mul, Finset.sum_sub_distrib, ite_mul, one_mul, zero_mul,
      Finset.sum_ite_eq, Finset.mem_univ, if_true]
    ring
  · intro b _ hb
    rw [if_neg]
    intro h
    exact hb (hp h).symm
  · intro h
    exact absurd (Finset.mem_univ _) h

/-- Left multiplication by the factor of one plaquette keeps the rows of all other
sites. -/
theorem plaquetteMatrix_mul_row_out {N : ℕ} {K : Type} [Field K] {κ : Type}
    (p : Fin 4 → Fin N) (M : Matrix (Fin 4) (Fin 4) K) (A : Matrix (Fin N) κ K)
    (r : Fin N) (hr : ∀ a, r ≠ p a) (c : κ) :
    (plaquetteMatrix p M * A) r c = A r c := by
  rw [plaquetteMatrix_mul_apply, Finset.sum_eq_zero, add_zero]
  intro a _
  rw [if_neg (hr a)]

/-- Left multiplication by the factors of pairwise disjoint plaquettes, one after the
other: the rows of each plaquette are replaced by the combinations of the original rows
of that plaquette, all other rows are kept. -/
theorem foldl_plaquette_rows {N : ℕ} {K : Type} [Field K] {α : Type}
    (p : α → Fin 4 → Fin N) (M : α → Matrix (Fin 4) (Fin 4) K) :
    ∀ (l : List α), (∀ q ∈ l, Function.Injective (p q)) →
      l.Pairwise (fun q q2 => ∀ a b, p q a ≠ p q2 b) →
      ∀ A : Matrix (Fin N) (Fin N) K,
        (∀ q ∈ l, ∀ a c, l.foldl (fun R q => plaquetteMatrix (p q) (M q) * R) A (p q a) c
            = ∑ b, M q a b * A (p q b) c) ∧
        (∀ r, (∀ q ∈ l, ∀ a, r ≠ p q a) → ∀ c,
          l.foldl (fun R q => plaquetteMatrix (p q) (M q) * R) A r c = A r c) := by
  intro l
  induction l with
  | nil =>
    intro _ _ A
    exact ⟨fun q hq => absurd hq (List.not_mem_nil q), fun r _ c => rfl⟩
  | cons q0 l ih =>
    intro hinj hpw A
    have hinj0 := hinj q0 (List.mem_cons_self _ _)
    obtain ⟨hq0, hpw2⟩ := List.pairwise_cons.mp hpw
    obtain ⟨ih1, ih2⟩ := ih (fun q hq => hinj q (List.mem_cons_of_mem _ hq)) hpw2
      (plaquetteMatrix (p q0) (M q0) * A)
    have hstep_in : ∀ a c, (plaquetteMatrix (p q0) (M q0) * A) (p q0 a) c
        = ∑ b, M q0 a b * A (p q0 b) c :=
      fun a c => plaquetteMatrix_mul_row_in (p q0) hinj0 (M q0) A a c
    have hstep_out : ∀ r, (∀ a, r ≠ p q0 a) → ∀ c,
        (plaquetteMatrix (p q0) (M q0) * A) r c = A r c :=
      fun r hr c => plaquetteMatrix_mul_row_out (p q0) (M q0) A r hr c
    rw [List.foldl_cons]
    constructor
    · intro q hq a c
      rcases List.mem_cons.mp hq with rfl | hq
      · rw [ih2 (p q a) (fun q2 hq2 b => hq0 q2 hq2 a b) c]
        exact hstep_in a c
      · rw [ih1 q hq a c]
        apply Finset.sum_congr rfl
        intro b _
        rw [hstep_out (p q b) (fun a2 h => hq0 q hq a2 b h.symm) c]
    · intro r hr c
      rw [ih2 r (fun q hq a => hr q (List.mem_cons_of_mem _ hq) a) c]
      exact hstep_out r (fun a => hr q0 (List.mem_cons_self _ _) a) c

/-- The rows of the result of `cb_assaad_applyBondFactorsLeft`: the rows of each
plaquette of the subgroup are the combinations of the rows of the argument with the
factors of that plaquette, all other rows are those of the argument. -/
theorem cb_assaad_applyBondFactorsLeft_rows {N : ℕ} {K : Type} [Field K] (lat : Lattice N)
    (pars : ModelParamsSDW K) (subgroup : ℕ) (hd : PlaquettesDisjoint lat pars.L)
    (hg : subgroup ∈ [0, 1]) (a b c d : K) (A : Matrix (Fin N) (Fin N) K) :
    (∀ i1 ∈ plaquetteRange pars.L subgroup, ∀ i2 ∈ plaquetteRange pars.L subgroup,
      ∀ x col, cb_assaad_applyBondFactorsLeft lat pars subgroup a b c d A
          (plaquetteSites lat i1 i2 x) col
        = ∑ y, plaquetteFactors pars a b c d i1 i2 x y * A (plaquetteSites lat i1 i2 y) col) ∧
    (∀ r, (∀ i1 ∈ plaquetteRange pars.L subgroup, ∀ i2 ∈ plaquetteRange pars.L subgroup,
        ∀ x, r ≠ plaquetteSites lat i1 i2 x) →
      ∀ col, cb_assaad_applyBondFactorsLeft lat pars subgroup a b c d A r col = A r col) := by
  have hfold : cb_assaad_applyBondFactorsLeft lat pars subgroup a b c d A
      = (plaquetteList pars.L subgroup).foldl
          (fun R q => plaquetteMatrix (plaquetteSites lat q.1 q.2)
            (plaquetteFactors pars a b c d q.1 q.2) * R) A := by
    unfold cb_assaad_applyBondFactorsLeft
    rw [nested_foldl_eq pars.L subgroup
      (fun R i1 i2 => applyPlaquetteLeft (plaquetteSites lat i1 i2 0)
        (plaquetteSites lat i1 i2 1) (plaquetteSites lat i1 i2 2) (plaquetteSites lat i1 i2 3)
        (plaquetteFactors pars a b c d i1 i2) R) A]
    apply List.foldl_ext
    intro R q hq
    exact applyPlaquetteLeft_eq _ (plaquette_injective lat pars.L subgroup hd hg q hq) _ _
  have hmem : ∀ i1 ∈ plaquetteRange pars.L subgroup, ∀ i2 ∈ plaquetteRange pars.L subgroup,
      (i1, i2) ∈ plaquetteList pars.L subgroup := by
    intro i1 h1 i2 h2
    unfold plaquetteList
    rw [List.mem_flatMap]
    exact ⟨i1, h1, List.mem_map.mpr ⟨i2, h2, rfl⟩⟩
  obtain ⟨r1, r2⟩ := foldl_plaquette_rows
    (fun q : ℕ × ℕ => plaquetteSites lat q.1 q.2)
    (fun q : ℕ × ℕ => plaquetteFactors pars a b c d q.1 q.2)
    (plaquetteList pars.L subgroup)
    (fun q hq => plaquette_injective lat pars.L subgroup hd hg q hq)
    ((plaquetteList_nodup pars.L subgroup).imp_of_mem
      (fun {q q2} hq hq2 hne => plaquette_disjoint lat pars.L subgroup hd hg q q2 hq hq2 hne))
    A
  rw [hfold]
  constructor
  · intro i1 h1 i2 h2 x col
    exact r1 (i1, i2) (hmem i1 h1 i2 h2) x col
  · intro r hr col
    apply r2 r _ col
    intro q hq x
    obtain ⟨h1, h2⟩ := mem_plaquetteList hq
    exact hr q.1 h1 q.2 h2 x

/-- C26. Checkerboard plaquette factor.  The step of `cb_assaad_applyBondFactorsLeft` for
a plaquette `(i, j, k, l)` with four different sites replaces the rows `(i, j, k, l)` of
the matrix by `E` times these rows, where `E` is the Kronecker product of the vertical
rotation `[[ch_ver, s_v], [s_v, ch_ver]]` and the horizontal rotation
`[[ch_hor, s_h], [s_h, ch_hor]]`, with `s_h = -sh_hor` exactly when the boundary
condition is antiperiodic in x and `i1 = L - 1` (and likewise `s_v`).  With the
plaquettes of a subgroup disjoint, as on the periodic square lattice for even `L`: the
rows `(i, j, k, l)` of the result of the routine are `E` times these rows of its
argument for every plaquette of the subgroup, all other rows are kept, and applying the
routine with `(ch_hor, sh_hor, ch_ver, sh_ver)` and then with
`(ch_hor, -sh_hor, ch_ver, -sh_ver)` returns the original matrix whenever
`ch_hor^2 - sh_hor^2 = 1` and `ch_ver^2 - sh_ver^2 = 1`. -/
theorem checkerboard_plaquette_factor {N : ℕ} {K : Type} [Field K] (lat : Lattice N)
    (pars : ModelParamsSDW K) (subgroup : ℕ) (ch_hor sh_hor ch_ver sh_ver : K)
    (A : Matrix (Fin N) (Fin N) K)
    (hd : PlaquettesDisjoint lat pars.L) (hg : subgroup ∈ [0, 1]) :
    (∀ (i1 i2 : ℕ) (R : Matrix (Fin N) (Fin N) K),
      Function.Injective (plaquetteSites lat i1 i2) →
      ∀ x col, applyPlaquetteLeft (plaquetteSites lat i1 i2 0) (plaquetteSites lat i1 i2 1)
          (plaquetteSites lat i1 i2 2) (plaquetteSites lat i1 i2 3)
          (plaquetteFactors pars ch_hor sh_hor ch_ver sh_ver i1 i2) R
          (plaquetteSites lat i1 i2 x) col
        = ∑ y, Matrix.reindex finProdFinEquiv finProdFinEquiv
            (Matrix.kroneckerMap (fun x y => x * y)
              (!![ch_ver,
                  (if (pars.bc = BC_Type.APBC_Y ∨ pars.bc = BC_Type.APBC_XY)
                    ∧ i2 = pars.L - 1 then -sh_ver else sh_ver);
                  (if (pars.bc = BC_Type.APBC_Y ∨ pars.bc = BC_Type.APBC_XY)
                    ∧ i2 = pars.L - 1 then -sh_ver else sh_ver),
                  ch_ver] : Matrix (Fin 2) (Fin 2) K)
              (!![ch_hor,
                  (if (pars.bc = BC_Type.APBC_X ∨ pars.bc = BC_Type.APBC_XY)
                    ∧ i1 = pars.L - 1 then -sh_hor else sh_hor);
                  (if (pars.bc = BC_Type.APBC_X ∨ pars.bc = BC_Type.APBC_XY)
                    ∧ i1 = pars.L - 1 then -sh_hor else sh_hor),
                  ch_hor] : Matrix (Fin 2) (Fin 2) K)) x y
          * R (plaquetteSites lat i1 i2 y) col) ∧
    (∀ i1 ∈ plaquetteRange pars.L subgroup, ∀ i2 ∈ plaquetteRange pars.L subgroup,
      ∀ x col, cb_assaad_applyBondFactorsLeft lat pars subgroup ch_hor sh_hor ch_ver sh_ver A
          (plaquetteSites lat i1 i2 x) col
        = ∑ y, Matrix.reindex finProdFinEquiv finProdFinEquiv
            (Matrix.kroneckerMap (fun x y => x * y)
              (!![ch_ver,
                  (if (pars.bc = BC_Type.APBC_Y ∨ pars.bc = BC_Type.APBC_XY)
                    ∧ i2 = pars.L - 1 then -sh_ver else sh_ver);
                  (if (pars.bc = BC_Type.APBC_Y ∨ pars.bc = BC_Type.APBC_XY)
                    ∧ i2 = pars.L - 1 then -sh_ver else sh_ver),
                  ch_ver] : Matrix (Fin 2) (Fin 2) K)
              (!![ch_hor,
                  (if (pars.bc = BC_Type.APBC_X ∨ pars.bc = BC_Type.APBC_XY)
                    ∧ i1 = pars.L - 1 then -sh_hor else sh_hor);
                  (if (pars.bc = BC_Type.APBC_X ∨ pars.bc = BC_Type.APBC_XY)
                    ∧ i1 = pars.L - 1 then -sh_hor else sh_hor),
                  ch_hor] : Matrix (Fin 2) (Fin 2) K)) x y
          * A (plaquetteSites lat i1 i2 y) col) ∧
    (∀ r, (∀ i1 ∈ plaquetteRange pars.L subgroup, ∀ i2 ∈ plaquetteRange pars.L subgroup,
        ∀ x, r ≠ plaquetteSites lat i1 i2 x) →
      ∀ col, cb_assaad_applyBondFactorsLeft lat pars subgroup ch_hor sh_hor ch_ver sh_ver A
        r col = A r col) ∧
    (ch_hor * ch_hor - sh_hor * sh_hor = 1 → ch_ver * ch_ver - sh_ver * sh_ver = 1 →
      cb_assaad_applyBondFactorsLeft lat pars subgroup ch_hor (-sh_hor) ch_ver (-sh_ver)
        (cb_assaad_applyBondFactorsLeft lat pars subgroup ch_hor sh_hor ch_ver sh_ver A)
        = A) := by
  obtain ⟨r1, r2⟩ := cb_assaad_applyBondFactorsLeft_rows lat pars subgroup hd hg
    ch_hor sh_hor ch_ver sh_ver A
  refine ⟨?_, ?_, r2, ?_⟩
  · intro i1 i2 R hinj x col
    rw [applyPlaquetteLeft_eq _ hinj, plaquetteMatrix_mul_row_in _ hinj,
      ← bondFactors_eq_kronecker]
    rfl
  · intro i1 h1 i2 h2 x col
    rw [r1 i1 h1 i2 h2 x col, ← bondFactors_eq_kronecker]
    rfl
  · intro e1 e2
    have e1n : ch_hor * ch_hor - (-sh_hor) * (-sh_hor) = 1 := by rw [neg_mul_neg]; exact e1
    have e2n : ch_ver * ch_ver - (-sh_ver) * (-sh_ver) = 1 := by rw [neg_mul_neg]; exact e2
    have hinv := subgroupMatrix_mul_inverse lat pars subgroup hd hg ch_hor (-sh_hor)
      ch_ver (-sh_ver) e1n e2n
    simp only [Int.cast_one, one_mul, Int.cast_neg, neg_mul, neg_neg] at hinv
    rw [cb_assaad_applyBondFactorsLeft_eq lat pars subgroup hd hg,
      cb_assaad_applyBondFactorsLeft_eq lat pars subgroup hd hg, ← Matrix.mul_assoc, hinv,
      Matrix.one_mul]

/-- C26, on the periodic lattice of `2 x 2` sites with boundary conditions antiperiodic
in both directions, for the subgroup 1 (whose plaquette crosses both boundaries) with
`cosh = 5/4`, `sinh = 3/4`: applying the routine with `sinh` and then with `-sinh` to the
identity returns the identity. -/
theorem checkerboard_plaquette_factor_witness :
    cb_assaad_applyBondFactorsLeft (squareLattice 2 2 4 (by decide))
        { fourSiteParams with bc := BC_Type.APBC_XY } 1 (5 / 4) (-(3 / 4)) (5 / 4) (-(3 / 4))
        (cb_assaad_applyBondFactorsLeft (squareLattice 2 2 4 (by decide))
          { fourSiteParams with bc := BC_Type.APBC_XY } 1 (5 / 4) (3 / 4) (5 / 4) (3 / 4)
          (1 : Matrix (Fin 4) (Fin 4) ℚ))
      = 1 :=
  (checkerboard_plaquette_factor (squareLattice 2 2 4 (by decide))
    { fourSiteParams with bc := BC_Type.APBC_XY } 1 (5 / 4) (3 / 4) (5 / 4) (3 / 4) 1
    squareLattice_two_disjoint (by decide)).2.2.2 (by norm_num) (by norm_num)

/-! ## C27: the iterative update and the Woodbury update -/

/-- Sherman-Morrison formula for a rank one update `T + E * V` of a matrix with the
inverse `S`, with the divisor `d = 1 + V * S * E`. -/
theorem sherman_morrison_inverse {n : Type} [Fintype n] [DecidableEq n] {K : Type} [Field K]
    (S T : Matrix n n K) (E : Matrix n Unit K) (V : Matrix Unit n K) (d : K)
    (hST : S * T = 1) (hd : V * S * E = (d - 1) • (1 : Matrix Unit Unit K)) (hd0 : d ≠ 0) :
    (S - d⁻¹ • (S * E * (V * S))) * (T + E * V) = 1 := by
  have a1 : S * E * (V * S) * T = S * E * V := by
    rw [Matrix.mul_assoc (S * E), Matrix.mul_assoc V, hST, Matrix.mul_one]
  have a2 : S * E * (V * S) * (E * V) = (d - 1) • (S * E * V) := by
    rw [Matrix.mul_assoc (S * E) (V * S) (E * V), ← Matrix.mul_assoc (V * S) E V, hd,
      Matrix.smul_mul, Matrix.one_mul, Matrix.mul_smul]
  have a3 : d⁻¹ + d⁻¹ * (d - 1) = 1 := by
    field_simp
  rw [Matrix.sub_mul, Matrix.mul_add, Matrix.mul_add, hST, Matrix.smul_mul, Matrix.smul_mul,
    a1, a2, smul_smul, ← Matrix.mul_assoc]
  generalize S * E * V = X
  rw [← add_smul, a3, one_smul]
  abel

/-- Matrix determinant lemma for the same rank one update. -/
theorem sherman_morrison_det {n : Type} [Fintype n] [DecidableEq n] {K : Type} [Field K]
    (S T : Matrix n n K) (E : Matrix n Unit K) (V : Matrix Unit n K) (d : K)
    (hST : S * T = 1) (hd : V * S * E = (d - 1) • (1 : Matrix Unit Unit K)) :
    (T + E * V).det = T.det * d := by
  have hTS : T * S = 1 := Matrix.mul_eq_one_comm.mp hST
  have e : T + E * V = T * (1 + (S * E) * V) := by
    rw [Matrix.mul_add, Matrix.mul_one, ← Matrix.mul_assoc, ← Matrix.mul_assoc, hTS,
      Matrix.one_mul]
  have hu : (1 + (d - 1) • (1 : Matrix Unit Unit K)).det = d := by
    rw [Matrix.det_unique]
    simp
  rw [e, Matrix.det_mul, Matrix.det_one_add_mul_comm, ← Matrix.mul_assoc, hd, hu]

/-- The vector `row` of a pass of the loop is the row `v_l` times the inverse found so
far. -/
theorem shermanMorrison_row {MSF N : ℕ} {K : Type} [Field K] (site : Fin N)
    (v rows : Fin MSF → Fin MSF × Fin N → K) (l : Fin MSF) (b : Fin MSF × Fin N) :
    ∑ a : Fin MSF × Fin N, v l a * rowsMatrix site rows l.val a b
      = (if b.2 = site ∧ b.1 < l then 0 else v l b)
        + ∑ k : Fin MSF, (if k < l then v l (k, site) * rows k b else 0) := by
  have hsplit : ∀ a : Fin MSF × Fin N, v l a * rowsMatrix site rows l.val a b
      = (if a = b then (if b.2 = site ∧ b.1 < l then 0 else v l b) else 0)
        + (if a.2 = site then (if a.1 < l then v l (a.1, site) * rows a.1 b else 0)
            else 0) := by
    intro a
    simp only [rowsMatrix, Matrix.of_apply, ← Fin.lt_def]
    by_cases h2 : a.2 = site
    · by_cases h1 : a.1 < l
      · have ha : (a.1, site) = a := by rw [← h2]
        by_cases hab : a = b
        · subst hab
          simp [h2, h1, ha]
        · simp [h2, h1, hab, ha]
      · by_cases hab : a = b
        · subst hab
          simp [h2, h1]
        · simp [h2, h1, hab]
    · by_cases hab : a = b
      · subst hab
        simp [h2]
      · simp [h2, hab]
  rw [Finset.sum_congr rfl (fun a _ => hsplit a), Finset.sum_add_distrib,
    Finset.sum_ite_eq', if_pos (Finset.mem_univ _), Fintype.sum_prod_type]
  congr 1
  apply Finset.sum_congr rfl
  intro k _
  simp only [Finset.sum_ite_eq', Finset.mem_univ, if_true]

/-- One pass of the loop keeps the invariant when its divisor is not zero. -/
theorem shermanMorrisonStep_inv {MSF N : ℕ} {K : Type} [Field K] (site : Fin N)
    (v : Fin MSF → Fin MSF × Fin N → K) (l : Fin MSF)
    (s : (Fin MSF → Fin MSF × Fin N → K) × K)
    (hinv : ShermanMorrisonInv site v l.val s)
    (hdiv : (shermanMorrisonStep site s l).2 ≠ 0) :
    ShermanMorrisonInv site v (l.val + 1) (shermanMorrisonStep site s l) := by
  obtain ⟨rows, det⟩ := s
  obtain ⟨hST, hdet, hrest⟩ := hinv
  simp only at hST hdet hrest
  have hl : rows l = v l := hrest l (le_refl _)
  -- the vector `row` and the divisor of this pass
  set row : Fin MSF × Fin N → K := fun b =>
    (if b.2 = site ∧ b.1 < l then 0 else v l b)
      + ∑ k : Fin MSF, (if k < l then v l (k, site) * rows k b else 0) with hrowdef
  set d : K := 1 + row (l, site) with hddef
  have hstep : shermanMorrisonStep site (rows, det) l
      = (fun r col =>
          if r = l then (-1 / d) * row col + (if col = (l, site) then 1 else 0)
          else if r < l then rows r col - (rows r (l, site) / d) * row col
          else rows r col,
         det * d) := by
    simp only [shermanMorrisonStep, hl, hddef, hrowdef]
  rw [hstep] at hdiv ⊢
  have hd0 : d ≠ 0 := by
    intro h
    apply hdiv
    simp only [h, mul_zero]
  set S := rowsMatrix site rows l.val with hS
  set T := partialRankUpdate site v l.val with hT
  set E : Matrix (Fin MSF × Fin N) Unit K :=
    Matrix.of fun a _ => if a = (l, site) then 1 else 0 with hE
  set V : Matrix Unit (Fin MSF × Fin N) K := Matrix.of fun _ b => v l b with hV
  have hVS : ∀ b, (V * S) () b = row b := by
    intro b
    rw [Matrix.mul_apply]
    exact shermanMorrison_row site v rows l b
  have hSE : ∀ a, (S * E) a () = S a (l, site) := by
    intro a
    rw [Matrix.mul_apply]
    simp only [hE, Matrix.of_apply, mul_ite, mul_one, mul_zero, Finset.sum_ite_eq',
      Finset.mem_univ, if_true]
  have hd : V * S * E = (d - 1) • (1 : Matrix Unit Unit K) := by
    ext x y
    rw [Matrix.mul_apply]
    simp only [hE, Matrix.of_apply, mul_ite, mul_one, mul_zero, Finset.sum_ite_eq',
      Finset.mem_univ, if_true, Matrix.smul_apply, Matrix.one_apply_eq, smul_eq_mul]
    rw [hVS, hddef]
    ring
  have hT2 : partialRankUpdate site v (l.val + 1) = T + E * V := by
    ext a b
    rw [Matrix.add_apply, Matrix.mul_apply]
    simp only [hT, hE, hV, partialRankUpdate, Matrix.of_apply, Finset.univ_unique,
      Finset.sum_singleton]
    by_cases ha : a = (l, site)
    · subst ha
      simp
    · have hne : ¬ (a.2 = site ∧ a.1 = l) := fun h => ha (Prod.ext h.2 h.1)
      have hiff : (a.2 = site ∧ a.1.val < l.val + 1) ↔ (a.2 = site ∧ a.1.val < l.val) := by
        constructor
        · rintro ⟨h1, h2⟩
          refine ⟨h1, ?_⟩
          rcases Nat.lt_succ_iff_lt_or_eq.mp h2 with h | h
          · exact h
          · exact absurd ⟨h1, Fin.ext h⟩ hne
        · rintro ⟨h1, h2⟩
          exact ⟨h1, Nat.lt_succ_of_lt h2⟩
      simp only [hiff, ha, if_false, zero_mul, add_zero]
  have hS2 : rowsMatrix site
      (fun r col =>
          if r = l then (-1 / d) * row col + (if col = (l, site) then 1 else 0)
          else if r < l then rows r col - (rows r (l, site) / d) * row col
          else rows r col) (l.val + 1)
      = S - d⁻¹ • (S * E * (V * S)) := by
    ext a b
    rw [Matrix.sub_apply, Matrix.smul_apply, Matrix.mul_apply]
    simp only [Finset.univ_unique, Finset.sum_singleton, smul_eq_mul]
    rw [show (default : Unit) = () from rfl, hSE, hVS]
    simp only [hS, rowsMatrix, Matrix.of_apply]
    by_cases h2 : a.2 = site
    · by_cases h1 : a.1 = l
      · have ha : a = (l, site) := Prod.ext h1 h2
        subst ha
        simp only [lt_self_iff_false, and_false, if_false, lt_add_one, and_self, if_true]
        by_cases hb : (l, site) = b
        · subst hb
          simp
          field_simp
          ring
        · have hb2 : ¬ b = (l, site) := fun h => hb h.symm
          simp [hb, hb2]
          field_simp
      · by_cases hlt : a.1 < l
        · have hlt2 : a.1.val < l.val := hlt
          have hlt3 : a.1.val < l.val + 1 := Nat.lt_succ_of_lt hlt2
          simp only [h2, hlt2, hlt3, h1, hlt, and_self, if_true, if_false]
          field_simp
        · have hlt2 : ¬ a.1.val < l.val := hlt
          have hlt3 : ¬ a.1.val < l.val + 1 := by
            intro h
            rcases Nat.lt_succ_iff_lt_or_eq.mp h with h | h
            · exact hlt2 h
            · exact h1 (Fin.ext h)
          have ha : ¬ a = (l, site) := fun h => h1 (by rw [h])
          simp [hlt2, hlt3, ha]
    · have ha : ¬ a = (l, site) := fun h => h2 (by rw [h])
      simp [h2, ha]
  refine ⟨?_, ?_, ?_⟩
  · show rowsMatrix site _ (l.val + 1) * partialRankUpdate site v (l.val + 1) = 1
    rw [hS2, hT2]
    exact sherman_morrison_inverse S T E V d hST hd hd0
  · show det * d = (partialRankUpdate site v (l.val + 1)).det
    rw [hT2, sherman_morrison_det S T E V d hST hd, hdet]
  · intro r hr
    funext col
    show (if r = l then _ else if r < l then _ else rows r col) = v r col
    have h1 : ¬ r = l := by
      intro h
      rw [h] at hr
      omega
    have h2 : ¬ r < l := by
      intro h
      have : r.val < l.val := h
      omega
    rw [if_neg h1, if_neg h2, hrest r (by omega)]

/-- A determinant that is zero stays zero in the further passes. -/
theorem shermanMorrison_foldl_zero {MSF N : ℕ} {K : Type} [Field K] (site : Fin N) :
    ∀ (ls : List (Fin MSF)) (s : (Fin MSF → Fin MSF × Fin N → K) × K), s.2 = 0 →
      (ls.foldl (shermanMorrisonStep site) s).2 = 0 := by
  intro ls
  induction ls with
  | nil => intro s h; exact h
  | cons l ls ih =>
    intro s h
    rw [List.foldl_cons]
    apply ih
    simp only [shermanMorrisonStep, h, zero_mul]

/-- The passes `k, k + 1, ...` of the loop lead from the invariant for `k` to the
invariant for `MatrixSizeFactor`, when the product of the divisors is not zero. -/
theorem shermanMorrison_foldl_drop {MSF N : ℕ} {K : Type} [Field K] (site : Fin N)
    (v : Fin MSF → Fin MSF × Fin N → K) :
    ∀ (j k : ℕ), k + j = MSF → ∀ s : (Fin MSF → Fin MSF × Fin N → K) × K,
      ShermanMorrisonInv site v k s →
      (((List.finRange MSF).drop k).foldl (shermanMorrisonStep site) s).2 ≠ 0 →
      ShermanMorrisonInv site v MSF
        (((List.finRange MSF).drop k).foldl (shermanMorrisonStep site) s) := by
  intro j
  induction j with
  | zero =>
    intro k hk s hinv _
    have hk2 : k = MSF := by omega
    subst hk2
    rw [List.drop_of_length_le (by simp)]
    exact hinv
  | succ j ih =>
    intro k hk s hinv hne
    have hlt : k < MSF := by omega
    have hdrop : (List.finRange MSF).drop k
        = (⟨k, hlt⟩ : Fin MSF) :: (List.finRange MSF).drop (k + 1) := by
      rw [List.drop_eq_getElem_cons (by simpa using hlt)]
      simp
    rw [hdrop, List.foldl_cons] at hne ⊢
    have hstep : (shermanMorrisonStep site s ⟨k, hlt⟩).2 ≠ 0 := by
      intro h
      exact hne (shermanMorrison_foldl_zero site _ _ h)
    exact ih (k + 1) (by omega) _ (shermanMorrisonStep_inv site v ⟨k, hlt⟩ s hinv hstep) hne

/-- The loop of `updateInSlice_iterative`, started with the rows `v` and `det = 1`:
when the product of the divisors is not zero, `rows` ends as the rows of the inverse of
`1 + sum_r e_(r,site) * v_r^T` and `det` as its determinant. -/
theorem shermanMorrison_foldl {MSF N : ℕ} {K : Type} [Field K] (site : Fin N)
    (v : Fin MSF → Fin MSF × Fin N → K)
    (hne : ((List.finRange MSF).foldl (shermanMorrisonStep site) (v, 1)).2 ≠ 0) :
    ShermanMorrisonInv site v MSF
      ((List.finRange MSF).foldl (shermanMorrisonStep site) (v, 1)) := by
  have h0 : ShermanMorrisonInv site v 0 (v, 1) := by
    have e1 : rowsMatrix site v 0 = 1 := by
      ext a b
      simp [rowsMatrix, Matrix.one_apply]
    have e2 : partialRankUpdate site v 0 = 1 := by
      ext a b
      simp [partialRankUpdate, Matrix.one_apply]
    refine ⟨?_, ?_, fun r _ => rfl⟩
    · show rowsMatrix site v 0 * partialRankUpdate site v 0 = 1
      rw [e1, e2, Matrix.one_mul]
    · show (1 : K) = (partialRankUpdate site v 0).det
      rw [e2, Matrix.det_one]
  have h := shermanMorrison_foldl_drop site v MSF 0 (by omega) (v, 1) h0
    (by rw [List.drop_zero]; exact hne)
  rw [List.drop_zero] at h
  exact h

/-- With the rows of `Delta * (I - G)` the matrix of the invariant is
`I + Delta * (I - G)` at the end of the loop. -/
theorem partialRankUpdate_rows {MSF N : ℕ} {K : Type} [Field K] (g : MatData MSF N K)
    (site : Fin N) (delta_forsite : MatSmall MSF K) :
    partialRankUpdate site
        (fun r col => ∑ dc : Fin MSF, (-delta_forsite r dc * g (dc, site) col
          + (if col = (dc, site) then delta_forsite r dc else 0))) MSF
      = 1 + siteBlock site delta_forsite * (1 - g) := by
  ext a b
  rw [Matrix.add_apply, Matrix.mul_apply, Fintype.sum_prod_type]
  simp only [partialRankUpdate, Matrix.of_apply, Matrix.one_apply, siteBlock,
    Matrix.sub_apply, a.1.isLt, and_true]
  congr 1
  by_cases h2 : a.2 = site
  · simp only [h2, if_true, true_and, ite_mul, zero_mul, Finset.sum_ite_eq',
      Finset.mem_univ]
    apply Finset.sum_congr rfl
    intro dc _
    by_cases hb : b = (dc, site)
    · subst hb
      simp
      ring
    · have hb2 : ¬ (dc, site) = b := fun h => hb h.symm
      simp [hb, hb2]
  · simp [h2]

/-- The update of `g` in `updateInSlice_iterative` is the right multiplication by the
matrix with the rows `rows`. -/
theorem iterativeUpdate_eq_mul {MSF N : ℕ} {K : Type} [Field K] (g : MatData MSF N K)
    (site : Fin N) (rows : Fin MSF → Fin MSF × Fin N → K) :
    iterativeUpdate g site rows = g * rowsMatrix site rows MSF := by
  ext a b
  rw [Matrix.mul_apply, Fintype.sum_prod_type]
  simp only [iterativeUpdate, Matrix.add_apply, Matrix.of_apply, rowsMatrix, Fin.is_lt,
    and_true]
  have hsplit : ∀ (x : Fin MSF) (y : Fin N),
      g a (x, y) * (if y = site then rows x b else if (x, y) = b then 1 else 0)
        = (if (x, y) = b then g a (x, y) else 0)
          + (if y = site then g a (x, site)
              * (rows x b - (if b = (x, site) then 1 else 0)) else 0) := by
    intro x y
    by_cases hy : y = site
    · subst hy
      by_cases hb : (x, y) = b
      · subst hb
        simp
        ring
      · have hb2 : ¬ b = (x, y) := fun h => hb h.symm
        simp [hb, hb2]
    · simp [hy]
  simp only [hsplit, Finset.sum_add_distrib, Finset.sum_ite_eq', Finset.mem_univ, if_true]
  congr 1
  rw [← Fintype.sum_prod_type (fun p : Fin MSF × Fin N => if p = b then g a p else 0),
    Finset.sum_ite_eq', if_pos (Finset.mem_univ _)]

/-- C27 (the code departs from the claim): for OPDIM = 1 on one site the construction of
the rows in `updateInSlice_iterative` runs beyond the `2 * 1` columns of `g`, and the
iterative update has no value, whereas `updateInSlice_woodbury` accepts the proposal with
`det M = 9/8`. -/
theorem iterative_undefined_for_opdim_one :
    updateInSlice_iterative_site acceptAllEnv 1 halfState 0 = none ∧
      (updateInSlice_woodbury_site acceptAllEnv 1 halfState 0).accepted = 1 := by
  constructor
  · unfold updateInSlice_iterative_site
    rw [dif_pos (by decide)]
    simp [acceptAllEnv, oneSiteParams, iterativeRows, umul, OpDim.MSF]
  · unfold updateInSlice_woodbury_site
    rw [dif_pos (by decide)]
    simp [acceptAllEnv, oneSiteParams, halfState]

/-- C27 (where the rows of `Delta * (I - G)` can be built, that is for OPDIM = 3): for
every site, Green function `g` and matrix `Delta`, when the product of the divisors of
`updateInSlice_iterative` is not zero (all divisors are non-zero), the value `det`
accumulated in the loop is `det(I + (I - G_ii) * Delta)`, the determinant of the matrix
`M` of `updateInSlice_woodbury`, and the updated Green function is the one of
`updateInSlice_woodbury`; hence, for a state with this `g` and a proposal with this
`Delta`, the site update of the iterative method returns and gives the same field, Green
function and acceptance count as the site update of the Woodbury method. -/
theorem iterative_eq_woodbury {o : OpDim} {N : ℕ} {K : Type} [Field K] [DecidableEq K]
    (g : MatData o.MSF N K) (site : Fin N) (delta_forsite : MatSmall o.MSF K)
    (rows : Fin o.MSF → Fin o.MSF × Fin N → K)
    (hrows : iterativeRows g site delta_forsite = some rows)
    (hdiv : ((List.finRange o.MSF).foldl (shermanMorrisonStep site) (rows, 1)).2 ≠ 0) :
    ((List.finRange o.MSF).foldl (shermanMorrisonStep site) (rows, 1)).2
      = (woodburyM g site delta_forsite).det ∧
    iterativeUpdate g site
        ((List.finRange o.MSF).foldl (shermanMorrisonStep site) (rows, 1)).1
      = woodburyUpdate g site delta_forsite ∧
    ∀ (env : LocalEnv o K) (timeslice : ℕ) (st : SliceState o N K),
      st.g = g →
      get_delta_forsite o env.imagI env.lm env.pars env.cdwl_eta st.fc
        (env.proposeLocalUpdate st.fc site.val timeslice).newphi
        (env.proposeLocalUpdate st.fc site.val timeslice).new_cdwl timeslice site.val
        = delta_forsite →
      ∃ st2, updateInSlice_iterative_site env timeslice st site.val = some st2 ∧
        st2.fc = (updateInSlice_woodbury_site env timeslice st site.val).fc ∧
        st2.g = (updateInSlice_woodbury_site env timeslice st site.val).g ∧
        st2.accepted = (updateInSlice_woodbury_site env timeslice st site.val).accepted := by
  have hrows2 : rows = fun r col => ∑ dc : Fin o.MSF, (-delta_forsite r dc * g (dc, site) col
      + (if col = (dc, site) then delta_forsite r dc else 0)) := by
    unfold iterativeRows at hrows
    split_ifs at hrows
    exact (Option.some.inj hrows).symm
  obtain ⟨hST, hdet, -⟩ := shermanMorrison_foldl site rows hdiv
  have hT : partialRankUpdate site rows o.MSF = 1 + siteBlock site delta_forsite * (1 - g) := by
    rw [hrows2]
    exact partialRankUpdate_rows g site delta_forsite
  rw [hT] at hST hdet
  have h1 : ((List.finRange o.MSF).foldl (shermanMorrisonStep site) (rows, 1)).2
      = (woodburyM g site delta_forsite).det := by
    rw [hdet, det_woodburyM]
  have hM : IsUnit (woodburyM g site delta_forsite).det := by
    rw [← h1]
    exact isUnit_iff_ne_zero.mpr hdiv
  have h2 : iterativeUpdate g site
      ((List.finRange o.MSF).foldl (shermanMorrisonStep site) (rows, 1)).1
      = woodburyUpdate g site delta_forsite := by
    rw [iterativeUpdate_eq_mul, woodburyUpdate_eq_mul_inv g site delta_forsite hM,
      Matrix.inv_eq_left_inv hST]
  refine ⟨h1, h2, ?_⟩
  intro env timeslice st hg hdelta
  subst hg
  unfold updateInSlice_iterative_site updateInSlice_woodbury_site
  rw [dif_pos site.isLt, dif_pos site.isLt]
  simp only [Fin.eta]
  by_cases hc : (env.proposeLocalUpdate st.fc site.val timeslice).changed = Changed.NONE
  · rw [if_pos hc, if_pos hc]
    exact ⟨st, rfl, rfl, rfl, rfl⟩
  · rw [if_neg hc, if_neg hc]
    by_cases hf : env.pars.turnoffFermions = true
    · rw [if_pos hf, if_pos hf]
      by_cases ha : env.accept st.fc site.val 1 = true
      · rw [if_pos ha, if_pos ha]
        exact ⟨_, rfl, rfl, rfl, rfl⟩
      · rw [if_neg ha, if_neg ha]
        exact ⟨st, rfl, rfl, rfl, rfl⟩
    · rw [if_neg hf, if_neg hf]
      simp only [hdelta, hrows, Option.some_bind, h1, h2]
      by_cases ha : env.accept st.fc site.val (woodburyM st.g site delta_forsite).det = true
      · rw [if_pos ha, if_pos ha]
        exact ⟨_, rfl, rfl, rfl, rfl⟩
      · rw [if_neg ha, if_neg ha]
        exact ⟨st, rfl, rfl, rfl, rfl⟩

/-- C27, at `OPDIM = 3` on one site with `g = 1/2` and `Delta = 1`: the rows can be
built, the product of the divisors is `(3/2)^4`, and determinant and updated Green
function agree with those of the Woodbury method. -/
theorem iterative_eq_woodbury_witness :
    ∃ rows, iterativeRows ((1 / 2 : ℚ) • (1 : MatData OpDim.three.MSF 1 ℚ)) 0
        (1 : MatSmall OpDim.three.MSF ℚ) = some rows ∧
      ((List.finRange OpDim.three.MSF).foldl (shermanMorrisonStep (0 : Fin 1)) (rows, 1)).2
        = 81 / 16 ∧
      ((List.finRange OpDim.three.MSF).foldl (shermanMorrisonStep (0 : Fin 1)) (rows, 1)).2
        = (woodburyM ((1 / 2 : ℚ) • (1 : MatData OpDim.three.MSF 1 ℚ)) 0
            (1 : MatSmall OpDim.three.MSF ℚ)).det ∧
      iterativeUpdate ((1 / 2 : ℚ) • (1 : MatData OpDim.three.MSF 1 ℚ)) 0
          ((List.finRange OpDim.three.MSF).foldl (shermanMorrisonStep (0 : Fin 1))
            (rows, 1)).1
        = woodburyUpdate ((1 / 2 : ℚ) • (1 : MatData OpDim.three.MSF 1 ℚ)) 0
            (1 : MatSmall OpDim.three.MSF ℚ) := by
  have hrows : iterativeRows ((1 / 2 : ℚ) • (1 : MatData OpDim.three.MSF 1 ℚ)) 0
      (1 : MatSmall OpDim.three.MSF ℚ)
      = some (fun r col => if col = (r, 0) then 1 / 2 else 0) := by
    unfold iterativeRows
    rw [if_neg (by decide)]
    congr 1
    funext r col
    simp only [Matrix.one_apply, Matrix.smul_apply, smul_eq_mul]
    rw [Finset.sum_eq_single r]
    · by_cases h : col = (r, 0)
      · subst h
        simp
        norm_num
      · have h2 : ¬ (r, (0 : Fin 1)) = col := fun e => h e.symm
        simp [h, h2]
    · intro b _ hb
      have hb2 : ¬ r = b := fun e => hb e.symm
      simp [hb2]
    · intro h
      exact absurd (Finset.mem_univ _) h
  have hfold : ((List.finRange OpDim.three.MSF).foldl (shermanMorrisonStep (0 : Fin 1))
      ((fun r col => if col = (r, 0) then (1 / 2 : ℚ) else 0), 1)).2 = 81 / 16 := by
    have h4 : ([(0 : Fin 4), 1, 2, 3].foldl (@shermanMorrisonStep 4 1 ℚ _ (0 : Fin 1))
        ((fun r col => if col = (r, 0) then (1 / 2 : ℚ) else 0), 1)).2 = 81 / 16 := by
      simp [shermanMorrisonStep, Fin.sum_univ_four]
      norm_num
    exact h4
  refine ⟨_, hrows, hfold, ?_, ?_⟩
  · exact (iterative_eq_woodbury _ 0 1 _ hrows (by rw [hfold]; norm_num)).1
  · exact (iterative_eq_woodbury _ 0 1 _ hrows (by rw [hfold]; norm_num)).2.1

/-! ## C28: wall-time cancellation -/

/-- C28 (the code departs from the claim): with 1000 seconds of granted wall time the
`uint32_t` difference `grantedWalltimeSecs - SavetyMinutes*60` wraps around to
`4294966196`, the wall time test is false although `0 + 2100 > 1000`, and the run
performs both of its sweeps. -/
theorem short_walltime_never_cancels :
    curWalltimeSecs (exampleWalltimeEnv (exampleParsmc 2 2) 1000 0) 0 + 2100 > 1000 ∧
      usub 1000 (umul SavetyMinutes 60) = 4294966196 ∧
      stop_now (exampleWalltimeEnv (exampleParsmc 2 2) 1000 0) 0 = false ∧
      run (exampleWalltimeEnv (exampleParsmc 2 2) 1000 0) 0 0 0 3 = some
        { stage := Stage.F, sweepsDone := 2, sweepsDoneThermalization := 0, swCounter := 0,
          events := [RunEvent.cancellationCheck 0 0,
            RunEvent.sweep GreenUpdateType.GreenUpdateTypeStabilized true,
            RunEvent.insertValue 0,
            RunEvent.sweep GreenUpdateType.GreenUpdateTypeStabilized true,
            RunEvent.insertValue 1, RunEvent.saveResults, RunEvent.saveState] } := by
  refine ⟨by decide, by decide, by decide, ?_⟩
  rfl

/-- C28 (for at least 2100 seconds of granted wall time): in a pass of the big loop with
even `swCounter`, `stop_now` is true exactly when
`curWalltimeSecs() + 2100 > grantedWalltimeSecs` or an abort file exists; when the wall
time condition holds the loop is left there, with results (in the measurement stage) and
state saved and without a further sweep; when neither holds the pass performs its sweep
and the loop goes on. -/
theorem wall_time_cancellation (env : RunEnv) (fuel i : ℕ) (st : RunState)
    (hg : 2100 ≤ env.grantedWalltimeSecs) (hg32 : env.grantedWalltimeSecs < 4294967296)
    (hF : st.stage ≠ Stage.F) (hsw : st.swCounter % 2 = 0) :
    (stop_now env i = true ↔
      (curWalltimeSecs env i + 2100 > env.grantedWalltimeSecs
        ∨ env.abortFileExists i = true)) ∧
    (curWalltimeSecs env i + 2100 > env.grantedWalltimeSecs →
      runLoop env (fuel + 1) i st = some (cancelRun { st with events := st.events
        ++ [RunEvent.cancellationCheck st.sweepsDoneThermalization st.sweepsDone] })) ∧
    (¬ curWalltimeSecs env i + 2100 > env.grantedWalltimeSecs →
      env.abortFileExists i = false →
      runLoop env (fuel + 1) i st = (runSwitch env.parsmc { st with events := st.events
        ++ [RunEvent.cancellationCheck st.sweepsDoneThermalization st.sweepsDone] }).bind
          (runLoop env fuel (i + 1))) := by
  have hsub : usub env.grantedWalltimeSecs (umul SavetyMinutes 60)
      = env.grantedWalltimeSecs - 2100 := by
    simp only [usub, umul, SavetyMinutes]
    omega
  have hstop : stop_now env i = true ↔
      (curWalltimeSecs env i + 2100 > env.grantedWalltimeSecs
        ∨ env.abortFileExists i = true) := by
    unfold stop_now
    rw [hsub]
    split_ifs with h1 h2
    · simp only [true_iff]
      left
      omega
    · simp only [true_iff]
      right
      exact h2
    · simp only [Bool.false_eq_true, false_iff, not_or]
      exact ⟨by omega, h2⟩
  refine ⟨hstop, ?_, ?_⟩
  · intro h
    have hs : stop_now env i = true := hstop.mpr (Or.inl h)
    unfold runLoop
    rw [if_neg hF, if_pos hsw]
    simp only [hs, if_true]
  · intro h ha
    have hs : ¬ stop_now env i = true := by
      rw [hstop]
      simp only [not_or]
      exact ⟨h, by simp [ha]⟩
    rw [runLoop, if_neg hF, if_pos hsw]
    simp only [hs, if_false, Bool.false_eq_true]

/-- C28, at a run with one hour of granted wall time of which half an hour has passed:
`1800 + 2100 > 3600`, the loop is left in the first pass without a sweep. -/
theorem wall_time_cancellation_witness :
    (stop_now (exampleWalltimeEnv (exampleParsmc 2 2) 3600 1800) 0 = true ↔
      (curWalltimeSecs (exampleWalltimeEnv (exampleParsmc 2 2) 3600 1800) 0 + 2100
          > (exampleWalltimeEnv (exampleParsmc 2 2) 3600 1800).grantedWalltimeSecs
        ∨ (exampleWalltimeEnv (exampleParsmc 2 2) 3600 1800).abortFileExists 0 = true)) ∧
    run (exampleWalltimeEnv (exampleParsmc 2 2) 3600 1800) 0 0 0 1 = some
      { stage := Stage.M, sweepsDone := 0, sweepsDoneThermalization := 0, swCounter := 0,
        events := [RunEvent.cancellationCheck 0 0, RunEvent.saveResults,
          RunEvent.saveState] } :=
  ⟨(wall_time_cancellation (exampleWalltimeEnv (exampleParsmc 2 2) 3600 1800) 0 0
      { stage := Stage.M, sweepsDone := 0, sweepsDoneThermalization := 0, swCounter := 0,
        events := [] }
      (by decide) (by decide) (by decide) (by decide)).1, rfl⟩

/-! ## C29: index safety of the iterative update -/

/-- C29 (the code departs from the claim): for OPDIM = 1 (`MatrixSizeFactor = 2`) and one
site the loop `for (col = 0; col < 4*pars.N; ++col)` reaches the column 2, beyond the
`2 * 1` columns of `rows[r]` and `g`; the model of the rows has no value there. -/
theorem iterative_column_out_of_bounds :
    2 ∈ iterativeRowsColumns OpDim.one.MSF 1 0 ∧ ¬ 2 < OpDim.one.MSF * 1 ∧
      iterativeRows (1 : MatData OpDim.one.MSF 1 ℚ) 0 (1 : MatSmall OpDim.one.MSF ℚ)
        = none := by
  refine ⟨by decide, by decide, ?_⟩
  unfold iterativeRows
  rw [if_pos]
  decide

/-- C29 (for OPDIM = 3, `MatrixSizeFactor = 4`): every column index used in the
construction of the rows and in the loop for the determinant is smaller than `4 * N`,
and the rows have a value. -/
theorem iterative_columns_in_bounds {K : Type} [Field K] (N : ℕ) (site : Fin N)
    (g : MatData OpDim.three.MSF N K) (delta_forsite : MatSmall OpDim.three.MSF K)
    (hN : 4 * N < 4294967296) :
    (∀ idx ∈ iterativeRowsColumns OpDim.three.MSF N site, idx < OpDim.three.MSF * N) ∧
      (∀ idx ∈ iterativeDetColumns OpDim.three.MSF N site, idx < OpDim.three.MSF * N) ∧
      (iterativeRows g site delta_forsite).isSome = true := by
  have hs := site.isLt
  have hr : List.range' 1 3 = [1, 2, 3] := by decide
  have hr4 : List.range 4 = [0, 1, 2, 3] := by decide
  refine ⟨?_, ?_, ?_⟩
  · intro idx hidx
    simp only [iterativeRowsColumns, OpDim.MSF, List.mem_flatMap, List.mem_append,
      List.mem_range, List.mem_singleton, umul, uadd, hr,
      show (4 : ℕ) - 1 = 3 from rfl, List.mem_cons, List.not_mem_nil, or_false] at hidx
    obtain ⟨_, _, h⟩ := hidx
    rcases h with (h | h) | ⟨dc, hdc, h | h⟩
    · simp only [OpDim.MSF]; omega
    · simp only [OpDim.MSF]; omega
    · simp only [OpDim.MSF]; omega
    · simp only [OpDim.MSF]
      rcases hdc with rfl | rfl | rfl <;> omega
  · intro idx hidx
    simp only [iterativeDetColumns, OpDim.MSF, List.mem_flatMap, List.mem_append,
      List.mem_range, List.mem_singleton, List.mem_map, umul, uadd] at hidx
    obtain ⟨l, hl, h⟩ := hidx
    simp only [OpDim.MSF]
    rcases h with ⟨k, hk, h⟩ | h
    · have hk4 : k < 4 := by omega
      interval_cases k <;> omega
    · interval_cases l <;> omega
  · unfold iterativeRows
    rw [if_neg]
    · rfl
    · simp only [OpDim.MSF, umul]
      omega

/-- C29, at the second of three sites. -/
theorem iterative_columns_in_bounds_witness :
    (∀ idx ∈ iterativeRowsColumns OpDim.three.MSF 3 ((1 : Fin 3) : ℕ),
        idx < OpDim.three.MSF * 3) ∧
      (∀ idx ∈ iterativeDetColumns OpDim.three.MSF 3 ((1 : Fin 3) : ℕ),
        idx < OpDim.three.MSF * 3) ∧
      (iterativeRows (1 : MatData OpDim.three.MSF 3 ℚ) 1
        (1 : MatSmall OpDim.three.MSF ℚ)).isSome = true :=
  iterative_columns_in_bounds 3 1 1 1 (by decide)

/-! ## C30: time-slice bookkeeping of the stabilised sweep -/

/-- C30. Time-slice bookkeeping (one Green component, `m = n * s`, `n ≥ 2`, the counters
fit into `uint32_t`, a global updater that keeps the replica ready for the next sweep):
started from a state as the set-up leaves it (`currentTimeslice = m`, `lastSweepDir = Up`,
`n + 1` entries in every storage vector), every sequence of driver calls returns, that
is, no assertion on `currentTimeslice` in `wrapDownGreen`, `advanceDownGreen`,
`wrapUpGreen`, `advanceUpGreen` or in the slice-update wrapper fails and no storage
vector is accessed outside its `n + 1` entries; afterwards `currentTimeslice` is 0 if
the last sweep went down and `m` if it went up, and the storage vectors still have
`n + 1` entries. -/
theorem timeslice_bookkeeping {sz : ℕ} {K σ : Type} [Field K] (p : ModelConsts)
    (c : Callables sz K σ) (u : ℕ → (ℕ → MatV sz K) × σ → (ℕ → MatV sz K) × σ)
    (fuel : ℕ) (st : DetModelGC sz K σ) (calls : List SweepCall)
    (hGC : p.GC = 1) (hn : 2 ≤ p.n) (hm : p.m = p.n * p.s) (hm32 : p.m + 1 < 4294967296)
    (hn32 : p.n < 4294967296) (hfuel : p.n + p.s ≤ fuel)
    (hglob : GlobalUpdateKeeps p c)
    (hct : st.currentTimeslice = p.m) (hdir : st.lastSweepDir = SweepDirection.Up)
    (hlen : ∀ g, (st.UdVStorage g).length = p.n + 1) :
    ∃ st', runSweeps p c u fuel calls st = some st' ∧
      st'.lastSweepDir
        = (if calls.length % 2 = 0 then SweepDirection.Up else SweepDirection.Down) ∧
      st'.currentTimeslice = (if calls.length % 2 = 0 then p.m else 0) ∧
      ∀ g, (st'.UdVStorage g).length = p.n + 1 := by
  have hst : BetweenSweeps p st := by
    refine ⟨fun _ => hct, ?_, hlen⟩
    intro h
    rw [hdir] at h
    cases h
  obtain ⟨st', h1, ⟨hU, hD, hl⟩, h3, -⟩ := runSweeps_spec p c u fuel hGC hn hm hm32 hn32
    hfuel hglob calls st hst
  rw [hdir] at h3
  refine ⟨st', h1, ?_, ?_, hl⟩
  · rw [h3]
    rfl
  · by_cases hpar : calls.length % 2 = 0
    · rw [if_pos hpar] at h3 ⊢
      exact hU h3
    · rw [if_neg hpar] at h3 ⊢
      exact hD h3

/-- C30, at `m = 6`, `s = 2`, `n = 3` on one by one matrices: after a down, an up and a
down sweep the replica is on slice 0. -/
theorem timeslice_bookkeeping_witness :
    ∃ st', runSweeps ⟨1, false, 6, 2, 3⟩ (scalarCallables 2) (fun _ x => x) 5
        [SweepCall.sweep true, SweepCall.sweep false, SweepCall.sweep true]
        (scalarState 1 6 4) = some st' ∧
      st'.lastSweepDir = SweepDirection.Down ∧ st'.currentTimeslice = 0 ∧
      ∀ g, (st'.UdVStorage g).length = 3 + 1 := by
  have h := timeslice_bookkeeping ⟨1, false, 6, 2, 3⟩ (scalarCallables 2)
    (fun _ x => x) 5 (scalarState 1 6 4)
    [SweepCall.sweep true, SweepCall.sweep false, SweepCall.sweep true]
    rfl (by decide) (by decide) (by decide) (by decide) (by decide)
    (by intro st h1 h2 h3; exact ⟨h1, h2, h3⟩) rfl rfl
    (fun g => by simp [scalarState])
  simpa using h

end DetQMC
